import Mathlib

/-!
# GIF engine of the snake repository: shallow embedding and verified properties

The definitions below follow `src/gif.h` and `src/gif.cpp` function by function.

Conventions of the embedding:

* machine integers are naturals; a store into a `uint8_t` is written `% 256`, the
  `size_t` subtraction of the decoder is written `% 2 ^ 64`, an `int` argument that
  receives a `size_t` is converted with `toInt32`;
* C arrays (`buf`, `stack`, `prefix`, `suffix`, the hash table) are total functions
  from the index to the stored value;
* a `bool` returning member function that mutates its object returns the new object
  together with the flag;
* a loop whose termination depends on the data takes a fuel argument and returns
  `none` when the fuel is used up; the callers supply a fuel that covers every
  iteration the source can perform on that input;
* `IODevice` is modelled by its memory implementation `MemDevice`.  The `ErrorCode *err`
  argument of `Gif::load` and `Gif::save` is never assigned by the source, so the
  model returns the codec session (`GifIO`) instead, whose member `e` is the error code.
-/

namespace gif

/-! ## Bytes and words -/

/-- High byte of a 16 bit word (`hi_byte`). -/
def hi_byte (word : Nat) : Nat := (word >>> 8) &&& 0xff

/-- Low byte of a 16 bit word (`lo_byte`). -/
def lo_byte (word : Nat) : Nat := word &&& 0xff

/-- Conversion of an unsigned value to a 32 bit `int` (two's complement). -/
def toInt32 (n : Nat) : Int :=
  if n % 2 ^ 32 < 2 ^ 31 then ((n % 2 ^ 32 : Nat) : Int) else ((n % 2 ^ 32 : Nat) : Int) - 2 ^ 32

/-! ## Devices -/

/-- Open modes of `IODevice`. -/
inductive OpenMode
  | not_open
  | read_only
  | write_only
  deriving DecidableEq, Repr

/-- Memory device: the buffer `d` (its length is the capacity `l`) and the position `p`. -/
structure MemDevice where
  d : List Nat
  p : Nat
  m : OpenMode
  deriving DecidableEq, Repr

/-- Capacity of the device (`l`). -/
def MemDevice.l (dev : MemDevice) : Nat := dev.d.length

/-- Bytes between the position and the end of the buffer. -/
def MemDevice.bytesLeft (dev : MemDevice) : Nat := dev.l - dev.p

/-- `MemDevice::open_for_read`. -/
def MemDevice.open_for_read (src : List Nat) : MemDevice :=
  { d := src, p := 0, m := OpenMode.read_only }

/-- `MemDevice::open_for_write`; `dst` is the destination buffer, its length is `maxLen`. -/
def MemDevice.open_for_write (dst : List Nat) : MemDevice :=
  { d := dst, p := 0, m := OpenMode.write_only }

/-- `MemDevice::write`: copies at most `bytesLeft` bytes of `buf` and returns the count. -/
def MemDevice.write (dev : MemDevice) (buf : List Nat) : MemDevice × Nat :=
  let len := if buf.length > dev.bytesLeft then dev.bytesLeft else buf.length
  ({ dev with
      d := dev.d.take dev.p ++ buf.take len ++ dev.d.drop (dev.p + len),
      p := dev.p + len }, len)

/-- `MemDevice::read`: returns the bytes copied out; the count is the length of the list. -/
def MemDevice.read (dev : MemDevice) (len : Nat) : MemDevice × List Nat :=
  let len := if len > dev.bytesLeft then dev.bytesLeft else len
  ({ dev with p := dev.p + len }, (dev.d.drop dev.p).take len)

/-- Bytes of the buffer below the position: what has been written so far. -/
def MemDevice.written (dev : MemDevice) : List Nat := dev.d.take dev.p

/-- Bytes of the buffer from the position on: what is still to be read. -/
def MemDevice.rest (dev : MemDevice) : List Nat := dev.d.drop dev.p

/-! ## Geometry and colours -/

/-- `Size`. -/
structure Size where
  wd : Nat
  ht : Nat
  deriving DecidableEq, Repr

/-- `Size::area`, an `unsigned`.  The source multiplies the two `int` members and
converts the product: a product of `2 ^ 31` or more overflows `int`, which the
language leaves undefined.  The model gives the product modulo `2 ^ 32`, the value of
wrapping arithmetic, and stands for the source on products below `2 ^ 31` only. -/
def Size.area (s : Size) : Nat := (s.wd * s.ht) % 2 ^ 32

/-- `Point`. -/
structure Point where
  x_val : Nat
  y_val : Nat
  deriving DecidableEq, Repr

/-- `Rect`. -/
structure Rect where
  p : Point
  s : Size
  deriving DecidableEq, Repr

/-- `Rect::area`. -/
def Rect.area (r : Rect) : Nat := r.s.area

/-- `Rect::width`. -/
def Rect.width (r : Rect) : Nat := r.s.wd

/-- `Rect::height`. -/
def Rect.height (r : Rect) : Nat := r.s.ht

/-- `RGB`. -/
structure RGB where
  r_val : Nat
  g_val : Nat
  b_val : Nat
  deriving DecidableEq, Repr

/-! ## Codec session -/

/-- `ErrorCode`. -/
inductive ErrorCode
  | ok
  | write_failed
  | read_failed
  | not_gif_file
  | eof_too_soon
  | data_too_big
  | wrong_record
  | no_color_map
  | no_scrn_dscr
  | image_defect
  deriving DecidableEq, Repr

/-- `GifRecordType`. -/
inductive GifRecordType
  | undefined
  | screen_desc
  | image_desc
  | extension
  | terminate
  deriving DecidableEq, Repr

/-- `Gif::DataIntroducer::extension`. -/
def Gif_extension : Nat := 0x21

/-- `Gif::DataIntroducer::descriptor`. -/
def Gif_descriptor : Nat := 0x2c

/-- `Gif::DataIntroducer::terminator`. -/
def Gif_terminator : Nat := 0x3b

/-- `GifIO`: the error code and the device. -/
structure GifIO where
  e : ErrorCode
  d : MemDevice
  deriving DecidableEq, Repr

/-- Constructor `GifIO(dev)`. -/
def GifIO.mk_dev (dev : MemDevice) : GifIO := { e := ErrorCode.ok, d := dev }

/-- `GifIO::set_error`: plain assignment. -/
def GifIO.set_error (io : GifIO) (err : ErrorCode) : GifIO := { io with e := err }

/-- `GifIO::read(uint8_t *buf, size_t len)`. -/
def GifIO.read_bytes (io : GifIO) (len : Nat) : GifIO × List Nat × Bool :=
  let r := io.d.read len
  ({ io with d := r.1 }, r.2, r.2.length == len)

/-- `GifIO::read(uint8_t *byte)`. -/
def GifIO.read_byte (io : GifIO) : GifIO × Nat × Bool :=
  let r := io.d.read 1
  ({ io with d := r.1 }, r.2.headD 0, r.2.length == 1)

/-- `GifIO::probe`. -/
def GifIO.probe (io : GifIO) : GifIO × Bool :=
  let r := io.d.read 6
  let io1 : GifIO := { io with d := r.1 }
  if r.2.length != 6 then (io1.set_error ErrorCode.read_failed, false)
  else if r.2.take 3 != [0x47, 0x49, 0x46] then (io1.set_error ErrorCode.not_gif_file, false)
  else (io1, true)

/-- `GifIO::read(uint16_t *word)`. -/
def GifIO.read_word (io : GifIO) : GifIO × Nat × Bool :=
  let r := io.d.read 2
  let io1 : GifIO := { io with d := r.1 }
  if r.2.length != 2 then (io1, 0, false)
  else (io1, (r.2.getD 0 0) ||| ((r.2.getD 1 0) <<< 8), true)

/-- `GifIO::read(RGB *rgb)`. -/
def GifIO.read_rgb (io : GifIO) : GifIO × RGB × Bool :=
  let r := io.d.read 3
  let io1 : GifIO := { io with d := r.1 }
  if r.2.length != 3 then (io1, ⟨0, 0, 0⟩, false)
  else (io1, ⟨r.2.getD 0 0, r.2.getD 1 0, r.2.getD 2 0⟩, true)

/-- `GifIO::read(Size *size)`. -/
def GifIO.read_size (io : GifIO) : GifIO × Size × Bool :=
  let r1 := io.read_word
  if !r1.2.2 then (r1.1, ⟨0, 0⟩, false)
  else
    let r2 := r1.1.read_word
    if !r2.2.2 then (r2.1, ⟨0, 0⟩, false)
    else (r2.1, ⟨r1.2.1, r2.2.1⟩, true)

/-- `GifIO::read(Point *pos)`. -/
def GifIO.read_point (io : GifIO) : GifIO × Point × Bool :=
  let r1 := io.read_word
  if !r1.2.2 then (r1.1, ⟨0, 0⟩, false)
  else
    let r2 := r1.1.read_word
    if !r2.2.2 then (r2.1, ⟨0, 0⟩, false)
    else (r2.1, ⟨r1.2.1, r2.2.1⟩, true)

/-- `GifIO::read(Rect *rect)`. -/
def GifIO.read_rect (io : GifIO) : GifIO × Rect × Bool :=
  let r1 := io.read_point
  if !r1.2.2 then (r1.1, ⟨⟨0, 0⟩, ⟨0, 0⟩⟩, false)
  else
    let r2 := r1.1.read_size
    if !r2.2.2 then (r2.1, ⟨⟨0, 0⟩, ⟨0, 0⟩⟩, false)
    else (r2.1, ⟨r1.2.1, r2.2.1⟩, true)

/-- `GifIO::read(GifRecordType *type)`. -/
def GifIO.read_record (io : GifIO) : GifIO × GifRecordType × Bool :=
  let r := io.read_byte
  if !r.2.2 then (r.1.set_error ErrorCode.read_failed, GifRecordType.undefined, false)
  else if r.2.1 = Gif_descriptor then (r.1, GifRecordType.image_desc, true)
  else if r.2.1 = Gif_extension then (r.1, GifRecordType.extension, true)
  else if r.2.1 = Gif_terminator then (r.1, GifRecordType.terminate, true)
  else (r.1.set_error ErrorCode.wrong_record, GifRecordType.undefined, false)

/-- `GifIO::write(const uint8_t *buf, size_t len)`. -/
def GifIO.write_bytes (io : GifIO) (buf : List Nat) : GifIO × Bool :=
  let r := io.d.write buf
  ({ io with d := r.1 }, r.2 == buf.length)

/-- `GifIO::write(uint8_t byte)`. -/
def GifIO.write_byte (io : GifIO) (byte : Nat) : GifIO × Bool :=
  let r := io.d.write [byte]
  ({ io with d := r.1 }, r.2 == 1)

/-- `GifIO::write_terminator`. -/
def GifIO.write_terminator (io : GifIO) : GifIO × Bool :=
  let r := io.d.write [Gif_terminator]
  ({ io with d := r.1 }, r.2 == 1)

/-- `GifIO::write(uint16_t word)`: low byte first. -/
def GifIO.write_word (io : GifIO) (word : Nat) : GifIO × Bool :=
  let r := io.d.write [word &&& 0xff, (word >>> 8) &&& 0xff]
  ({ io with d := r.1 }, r.2 == 2)

/-- `GifIO::write(RGB rgb)`. -/
def GifIO.write_rgb (io : GifIO) (rgb : RGB) : GifIO × Bool :=
  io.write_bytes [rgb.r_val, rgb.g_val, rgb.b_val]

/-- `GifIO::write(const Size &size)`. -/
def GifIO.write_size (io : GifIO) (size : Size) : GifIO × Bool :=
  let r1 := io.write_word size.wd
  if !r1.2 then (r1.1, false) else r1.1.write_word size.ht

/-- `GifIO::write(const Point &pos)`. -/
def GifIO.write_point (io : GifIO) (pos : Point) : GifIO × Bool :=
  let r1 := io.write_word pos.x_val
  if !r1.2 then (r1.1, false) else r1.1.write_word pos.y_val

/-- `GifIO::write(const Rect &rect)`. -/
def GifIO.write_rect (io : GifIO) (rect : Rect) : GifIO × Bool :=
  let r1 := io.write_point rect.p
  if !r1.2 then (r1.1, false) else r1.1.write_size rect.s

/-! ## Extensions -/

/-- `Extension`: function code (a byte) and the chunk list. -/
structure Extension where
  fn : Nat
  list : List (List Nat)
  deriving DecidableEq, Repr

/-- `Extension::next`, the function code of a default constructed extension. -/
def Extension.next : Nat := 0x00

/-- `Extension::comment`. -/
def Extension.comment : Nat := 0xfe

/-- `Extension::graphics`. -/
def Extension.graphics : Nat := 0xf9

/-- `Extension::plaintext`. -/
def Extension.plaintext : Nat := 0x01

/-- `Extension::application`. -/
def Extension.application : Nat := 0xff

/-- Default constructor `Extension()`. -/
def Extension.new : Extension := { fn := Extension.next, list := [] }

/-- `Extension::append`. -/
def Extension.append (ext : Extension) (data : List Nat) : Extension :=
  { ext with list := ext.list ++ [data] }

/-- `create_animation_mark`; the first chunk is the ASCII text NETSCAPE2.0. -/
def create_animation_mark (replays : Nat) : Extension :=
  let res : Extension := { fn := Extension.application, list := [] }
  let res := res.append [0x4e, 0x45, 0x54, 0x53, 0x43, 0x41, 0x50, 0x45, 0x32, 0x2e, 0x30]
  res.append [1, lo_byte replays, hi_byte replays]

/-- `create_delay_mark`; `delay += 2` is a 16 bit addition. -/
def create_delay_mark (delay : Nat) : Extension :=
  let res : Extension := { fn := Extension.graphics, list := [] }
  let delay := (delay + 2) % 2 ^ 16
  res.append [4, lo_byte delay, hi_byte delay, 0]

/-- `Extension::load_chunk`: returns the session, the chunk, `last` and the result. -/
def Extension.load_chunk (io : GifIO) : GifIO × List Nat × Bool × Bool :=
  let r := io.read_byte
  if !r.2.2 then (r.1.set_error ErrorCode.read_failed, [], false, false)
  else if r.2.1 = 0 then (r.1, [], true, true)
  else
    let r2 := r.1.read_bytes r.2.1
    if !r2.2.2 then (r2.1.set_error ErrorCode.read_failed, r2.2.1, false, false)
    else (r2.1, r2.2.1, false, true)

/-- `Extension::save_chunk`; the size byte is the chunk length truncated to 8 bits. -/
def Extension.save_chunk (io : GifIO) (chunk : List Nat) : GifIO × Bool :=
  let r := io.write_byte (chunk.length % 256)
  if !r.2 then (r.1, false) else r.1.write_bytes chunk

/-- The `while (true)` loop of `Extension::load`. -/
def Extension.load_loop : Nat → Extension → GifIO → Option (Extension × GifIO × Bool)
  | 0, _, _ => none
  | fuel + 1, ext, io =>
    let r := Extension.load_chunk io
    if !r.2.2.2 then some (ext, r.1, false)
    else if r.2.2.1 then some (ext, r.1, true)
    else Extension.load_loop fuel { ext with list := ext.list ++ [r.2.1] } r.1

/-- `Extension::load`.  Every iteration of the loop reads at least one byte, so the
bytes left on the device plus one bound the number of iterations. -/
def Extension.load (ext : Extension) (io : GifIO) : Option (Extension × GifIO × Bool) :=
  let r := io.read_byte
  if !r.2.2 then some (ext, r.1.set_error ErrorCode.read_failed, false)
  else Extension.load_loop (r.1.d.bytesLeft + 1) { ext with fn := r.2.1 } r.1

/-- `Extension::save_leader`. -/
def Extension.save_leader (ext : Extension) (io : GifIO) : GifIO × Bool :=
  io.write_bytes [Gif_extension, ext.fn % 256]

/-- `Extension::save_trailer`. -/
def Extension.save_trailer (io : GifIO) : GifIO × Bool :=
  io.write_byte 0

/-- The `for (auto c : list)` loop of `Extension::save`. -/
def Extension.save_chunks : List (List Nat) → GifIO → GifIO × Bool
  | [], io => (io, true)
  | c :: cs, io =>
    let r := Extension.save_chunk io c
    if !r.2 then (r.1, false) else Extension.save_chunks cs r.1

/-- `Extension::save`. -/
def Extension.save (ext : Extension) (io : GifIO) : GifIO × Bool :=
  let r := ext.save_leader io
  if !r.2 then (r.1, false)
  else
    let r2 := Extension.save_chunks ext.list r.1
    if !r2.2 then (r2.1, false)
    else Extension.save_trailer r2.1

/-! ## Colour maps -/

/-- `ColorMap`: colour resolution `r` and the entries `c`. -/
structure ColorMap where
  r : Nat
  c : List RGB
  deriving DecidableEq, Repr

/-- Constructor `ColorMap(color_res)`. -/
def ColorMap.new (color_res : Nat) : ColorMap := { r := color_res, c := [] }

/-- The `for` loop of `ColorMap::load` with `n` iterations left. -/
def ColorMap.load_loop : Nat → ColorMap → GifIO → ColorMap × GifIO × Bool
  | 0, cm, io => (cm, io, true)
  | n + 1, cm, io =>
    let r := io.read_rgb
    let cm1 : ColorMap := { cm with c := cm.c ++ [r.2.1] }
    if !r.2.2 then (cm1, r.1, false) else ColorMap.load_loop n cm1 r.1

/-- `ColorMap::load`: `1 << r` entries. -/
def ColorMap.load (cm : ColorMap) (io : GifIO) : ColorMap × GifIO × Bool :=
  ColorMap.load_loop (2 ^ cm.r) cm io

/-- The `for (auto i : c)` loop of `ColorMap::save`. -/
def ColorMap.save_loop : List RGB → GifIO → GifIO × Bool
  | [], io => (io, true)
  | i :: rest, io =>
    let r := io.write_rgb i
    if !r.2 then (r.1.set_error ErrorCode.write_failed, false)
    else ColorMap.save_loop rest r.1

/-- `ColorMap::save`: writes the entries held, whatever their number. -/
def ColorMap.save (cm : ColorMap) (io : GifIO) : GifIO × Bool :=
  ColorMap.save_loop cm.c io

/-! ## LZW hash table -/

/-- `HashTable`: 8192 slots, each packing a 20 bit key above a 12 bit code. -/
structure HashTable where
  table : Nat → Nat

/-- `HashTable::get_key`. -/
def HashTable.get_key (l : Nat) : Nat := l >>> 12

/-- `HashTable::get_code`. -/
def HashTable.get_code (l : Nat) : Nat := l &&& 0x0FFF

/-- `HashTable::put_key`, a 32 bit shift. -/
def HashTable.put_key (l : Nat) : Nat := (l <<< 12) % 2 ^ 32

/-- `HashTable::put_code`. -/
def HashTable.put_code (l : Nat) : Nat := l &&& 0x0FFF

/-- `HashTable::key_mask`. -/
def HashTable.key_mask : Nat := 0x1FFF

/-- `HashTable::norm_key`. -/
def HashTable.norm_key (key : Nat) : Nat := ((key >>> 12) ^^^ key) &&& HashTable.key_mask

/-- `HashTable::clear`: every byte of the table becomes 0xFF. -/
def HashTable.clear : HashTable := { table := fun _ => 0xFFFFFFFF }

/-- The probe loop of `HashTable::insert`: the first empty slot from `n_key` on.
After 8192 iterations the probe is back at its start with the table unchanged, a
state from which the source never leaves the loop: `none`. -/
def HashTable.insert_probe : Nat → (Nat → Nat) → Nat → Option Nat
  | 0, _, _ => none
  | fuel + 1, table, n_key =>
    if HashTable.get_key (table n_key) != 0xFFFFF then
      HashTable.insert_probe fuel table ((n_key + 1) &&& HashTable.key_mask)
    else some n_key

/-- `HashTable::insert`. -/
def HashTable.insert (h : HashTable) (key code : Nat) : Option HashTable :=
  match HashTable.insert_probe 8192 h.table (HashTable.norm_key key) with
  | none => none
  | some n_key =>
    some { table := fun i =>
      if i = n_key then HashTable.put_key key ||| HashTable.put_code code else h.table i }

/-- The probe loop of `HashTable::get`; the inner `none` is the source's `-1`. -/
def HashTable.get_probe : Nat → (Nat → Nat) → Nat → Nat → Option (Option Nat)
  | 0, _, _, _ => none
  | fuel + 1, table, key, n_key =>
    if HashTable.get_key (table n_key) != 0xFFFFF then
      if key = HashTable.get_key (table n_key) then
        some (some (HashTable.get_code (table n_key)))
      else HashTable.get_probe fuel table key ((n_key + 1) &&& HashTable.key_mask)
    else some none

/-- `HashTable::get`. -/
def HashTable.get (h : HashTable) (key : Nat) : Option (Option Nat) :=
  HashTable.get_probe 8192 h.table key (HashTable.norm_key key)

/-! ## LZW encoder -/

/-- `LZ::bits`. -/
def LZ.bits : Nat := 12

/-- `LZ::max_code`. -/
def LZ.max_code : Nat := 4095

/-- `LZ::flush_output`. -/
def LZ.flush_output : Nat := 4096

/-- `LZ::first_code`. -/
def LZ.first_code : Nat := 4097

/-- `LZ::no_such_code`. -/
def LZ.no_such_code : Nat := 4098

/-- `LZEncoder`; `f` is the session the encoder writes to. -/
structure LZEncoder where
  f : GifIO
  col_res : Nat
  clear_code : Nat
  eof_code : Nat
  run_code : Nat
  run_bits : Nat
  max_code : Nat
  crnt_code : Nat
  crnt_shift_state : Nat
  crnt_shift_dword : Nat
  pix_count : Nat
  buf : Nat → Nat
  ht : HashTable

/-- The bytes `buf[0] .. buf[n - 1]` of an array. -/
def arr_bytes (buf : Nat → Nat) (n : Nat) : List Nat := (List.range n).map buf

/-- `LZEncoder::write_buf`. -/
def LZEncoder.write_buf (st : LZEncoder) (c : Nat) : LZEncoder × Bool :=
  if c = LZ.flush_output then
    let r1 : GifIO × Bool :=
      if st.buf 0 != 0 then st.f.write_bytes (arr_bytes st.buf (st.buf 0 + 1)) else (st.f, true)
    if st.buf 0 != 0 && !r1.2 then
      ({ st with f := r1.1.set_error ErrorCode.write_failed }, false)
    else
      let buf1 : Nat → Nat := fun i => if i = 0 then 0 else st.buf i
      let r2 := r1.1.write_bytes (arr_bytes buf1 1)
      if !r2.2 then ({ st with f := r2.1.set_error ErrorCode.write_failed, buf := buf1 }, false)
      else ({ st with f := r2.1, buf := buf1 }, true)
  else if st.buf 0 = 255 then
    let r := st.f.write_bytes (arr_bytes st.buf (st.buf 0 + 1))
    if !r.2 then ({ st with f := r.1.set_error ErrorCode.write_failed }, false)
    else
      ({ st with f := r.1, buf := fun i => if i = 0 then 1 else if i = 1 then c % 256 else st.buf i },
        true)
  else
    ({ st with buf := fun i =>
        if i = 0 then (st.buf 0 + 1) % 256
        else if i = (st.buf 0 + 1) % 256 then c % 256 else st.buf i }, true)

/-- The `while (crnt_shift_state > 0)` loop of the flush branch of `encode`.  The
`int` state leaves the loop once it is no longer positive, which the truncated
subtraction reproduces; the state bounds the number of iterations. -/
def LZEncoder.flush_loop : Nat → LZEncoder → Bool → LZEncoder × Bool
  | 0, st, res => (st, res)
  | fuel + 1, st, res =>
    if st.crnt_shift_state > 0 then
      let r := st.write_buf (st.crnt_shift_dword &&& 0xff)
      LZEncoder.flush_loop fuel
        { r.1 with crnt_shift_dword := r.1.crnt_shift_dword >>> 8,
                   crnt_shift_state := r.1.crnt_shift_state - 8 }
        (if !r.2 then false else res)
    else (st, res)

/-- The `while (crnt_shift_state >= 8)` loop of `encode`. -/
def LZEncoder.pack_loop : Nat → LZEncoder → Bool → LZEncoder × Bool
  | 0, st, res => (st, res)
  | fuel + 1, st, res =>
    if st.crnt_shift_state ≥ 8 then
      let r := st.write_buf (st.crnt_shift_dword &&& 0xff)
      LZEncoder.pack_loop fuel
        { r.1 with crnt_shift_dword := r.1.crnt_shift_dword >>> 8,
                   crnt_shift_state := r.1.crnt_shift_state - 8 }
        (if !r.2 then false else res)
    else (st, res)

/-- `LZEncoder::encode`. -/
def LZEncoder.encode (st : LZEncoder) (code : Nat) : LZEncoder × Bool :=
  let r : LZEncoder × Bool :=
    if code = LZ.flush_output then
      let r1 := LZEncoder.flush_loop st.crnt_shift_state st true
      let st1 : LZEncoder := { r1.1 with crnt_shift_state := 0 }
      let r2 := st1.write_buf LZ.flush_output
      (r2.1, if !r2.2 then false else r1.2)
    else
      let st1 : LZEncoder :=
        { st with crnt_shift_dword := st.crnt_shift_dword ||| (code <<< st.crnt_shift_state),
                  crnt_shift_state := st.crnt_shift_state + st.run_bits }
      LZEncoder.pack_loop st1.crnt_shift_state st1 true
  if r.1.run_code ≥ r.1.max_code && code ≤ LZ.max_code then
    ({ r.1 with run_bits := r.1.run_bits + 1, max_code := 2 ^ (r.1.run_bits + 1) }, r.2)
  else r

/-- Constructor `LZEncoder(file, pixel_count, color_res)`: the member
initialisers, `buf[0] = 0` and `encode(clear_code)`. -/
def LZEncoder.new (file : GifIO) (pixel_count color_res : Nat) : LZEncoder :=
  let st : LZEncoder :=
    { f := file,
      col_res := color_res,
      clear_code := 2 ^ color_res,
      eof_code := 2 ^ color_res + 1,
      run_code := 2 ^ color_res + 2,
      run_bits := color_res + 1,
      max_code := 2 ^ (color_res + 1),
      crnt_code := LZ.first_code,
      crnt_shift_state := 0,
      crnt_shift_dword := 0,
      pix_count := pixel_count,
      buf := fun _ => 0,
      ht := HashTable.clear }
  (st.encode st.clear_code).1

/-- The body of the `while (i < len)` loop of `encode_line` for one pixel; `code`
is the local variable of that name.  Returns the encoder, the new value of `code`
and whether the loop goes on (`false`: `encode_line` returns 0).  `none`: a hash
table probe that the source never leaves. -/
def LZEncoder.encode_pixel (st : LZEncoder) (code pixel : Nat) :
    Option (LZEncoder × Nat × Bool) :=
  let new_key := (code <<< 8) + pixel
  match st.ht.get new_key with
  | none => none
  | some (some new_code) => some (st, new_code, true)
  | some none =>
    let r := st.encode code
    if !r.2 then some ({ r.1 with f := r.1.f.set_error ErrorCode.write_failed }, code, false)
    else if r.1.run_code ≥ LZ.max_code then
      let r2 := r.1.encode r.1.clear_code
      if !r2.2 then
        some ({ r2.1 with f := r2.1.f.set_error ErrorCode.write_failed }, pixel, false)
      else
        some ({ r2.1 with run_code := r2.1.eof_code + 1,
                          run_bits := r2.1.col_res + 1,
                          max_code := 2 ^ (r2.1.col_res + 1),
                          ht := HashTable.clear }, pixel, true)
    else
      match r.1.ht.insert new_key r.1.run_code with
      | none => none
      | some ht1 => some ({ r.1 with ht := ht1, run_code := r.1.run_code + 1 }, pixel, true)

/-- The `while (i < len)` loop of `encode_line` over the pixels not yet consumed. -/
def LZEncoder.encode_loop : List Nat → LZEncoder → Nat → Option (LZEncoder × Nat × Bool)
  | [], st, code => some (st, code, true)
  | pixel :: rest, st, code =>
    match st.encode_pixel code pixel with
    | none => none
    | some r => if !r.2.2 then some r else LZEncoder.encode_loop rest r.1 r.2.1

/-- The block `if (pix_count == 0)` at the end of `encode_line`: the pending code,
`eof_code` and the flush. -/
def LZEncoder.finish (st : LZEncoder) (code : Nat) : LZEncoder × Bool :=
  let r1 := st.encode code
  if !r1.2 then ({ r1.1 with f := r1.1.f.set_error ErrorCode.write_failed }, false)
  else
    let r2 := r1.1.encode r1.1.eof_code
    if !r2.2 then ({ r2.1 with f := r2.1.f.set_error ErrorCode.write_failed }, false)
    else
      let r3 := r2.1.encode LZ.flush_output
      if !r3.2 then ({ r3.1 with f := r3.1.f.set_error ErrorCode.write_failed }, false)
      else (r3.1, true)

/-- The first statement of `encode_line`: the start value of `code` and the pixels
left for the loop.  On the first call the source reads `line[0]` whatever `len`
is, outside the line when the line is empty; the model reads 0 there and stands for
the source on a first line that is not empty only. -/
def LZEncoder.line_start (crnt_code : Nat) (line : List Nat) : Nat × List Nat :=
  if crnt_code = LZ.first_code then (line.headD 0, line.tail) else (crnt_code, line)

/-- `LZEncoder::encode_line`. -/
def LZEncoder.encode_line (st : LZEncoder) (line : List Nat) : Option (LZEncoder × Bool) :=
  let start := LZEncoder.line_start st.crnt_code line
  match LZEncoder.encode_loop start.2 st start.1 with
  | none => none
  | some (st1, code, ok) =>
    if !ok then some (st1, false)
    else
      let st2 : LZEncoder := { st1 with crnt_code := code }
      if st2.pix_count = 0 then some (st2.finish code) else some (st2, true)

/-- The table `code_mask` of `put_line`. -/
def LZEncoder.code_mask : List Nat := [0x00, 0x01, 0x03, 0x07, 0x0f, 0x1f, 0x3f, 0x7f, 0xff]

/-- `LZEncoder::put_line`; `len` is the length of `line`.  Returns the encoder,
the line as masked in place, and the result. -/
def LZEncoder.put_line (st : LZEncoder) (line : List Nat) :
    Option (LZEncoder × List Nat × Bool) :=
  if st.pix_count < line.length then
    some ({ st with f := st.f.set_error ErrorCode.data_too_big }, line, false)
  else
    let st1 : LZEncoder := { st with pix_count := st.pix_count - line.length }
    let mask := LZEncoder.code_mask.getD st.col_res 0
    let line1 := line.map (fun b => b &&& mask)
    match st1.encode_line line1 with
    | none => none
    | some r => some (r.1, line1, r.2)

/-! ## LZW decoder -/

/-- `LZDecoder`; `prefix_` is the member `prefix`. -/
structure LZDecoder where
  f : GifIO
  col_res : Nat
  clear_code : Nat
  eof_code : Nat
  run_code : Nat
  run_bits : Nat
  max_code : Nat
  last_code : Nat
  crnt_shift_state : Nat
  crnt_shift_dword : Nat
  pix_count : Nat
  stack_ptr : Nat
  stack : Nat → Nat
  buf : Nat → Nat
  suffix : Nat → Nat
  prefix_ : Nat → Nat

/-- Constructor `LZDecoder(file, pixel_count, color_res)` with `buf[0] = 0` and
`clear_prefix()`. -/
def LZDecoder.new (file : GifIO) (pixel_count color_res : Nat) : LZDecoder :=
  { f := file,
    col_res := color_res,
    clear_code := 2 ^ color_res,
    eof_code := 2 ^ color_res + 1,
    run_code := 2 ^ color_res + 2,
    run_bits := color_res + 1,
    max_code := 2 ^ (color_res + 1),
    last_code := LZ.no_such_code,
    crnt_shift_state := 0,
    crnt_shift_dword := 0,
    pix_count := pixel_count,
    stack_ptr := 0,
    stack := fun _ => 0,
    buf := fun _ => 0,
    suffix := fun _ => 0,
    prefix_ := fun _ => LZ.no_such_code }

/-- `LZDecoder::read_buf`: the next byte of the current sub-block, reading the
next sub-block from the session when the current one is used up. -/
def LZDecoder.read_buf (st : LZDecoder) : LZDecoder × Nat × Bool :=
  if st.buf 0 = 0 then
    let r := st.f.read_bytes 1
    let buf1 : Nat → Nat := fun i => if i = 0 ∧ r.2.1 ≠ [] then r.2.1.headD 0 else st.buf i
    if !r.2.2 then
      ({ st with f := r.1.set_error ErrorCode.read_failed, buf := buf1 }, 0, false)
    else if buf1 0 = 0 then
      ({ st with f := r.1.set_error ErrorCode.image_defect, buf := buf1 }, 0, false)
    else
      let r2 := r.1.read_bytes (buf1 0)
      let buf2 : Nat → Nat := fun i =>
        if 1 ≤ i ∧ i < 1 + r2.2.1.length then r2.2.1.getD (i - 1) 0 else buf1 i
      if !r2.2.2 then
        ({ st with f := r2.1.set_error ErrorCode.read_failed, buf := buf2 }, 0, false)
      else
        ({ st with f := r2.1,
                   buf := fun i => if i = 0 then buf2 0 - 1 else if i = 1 then 2 else buf2 i },
          buf2 1, true)
  else
    ({ st with buf := fun i =>
        if i = 0 then st.buf 0 - 1
        else if i = 1 then (st.buf 1 + 1) % 256 else st.buf i },
      st.buf (st.buf 1), true)

/-- The `while (crnt_shift_state < run_bits)` loop of `decode`.  Every iteration
adds 8 to the state, so `run_bits` iterations always reach the exit. -/
def LZDecoder.fill_loop : Nat → LZDecoder → LZDecoder × Bool
  | 0, st => (st, true)
  | fuel + 1, st =>
    if st.crnt_shift_state < st.run_bits then
      let r := st.read_buf
      if !r.2.2 then (r.1, false)
      else
        LZDecoder.fill_loop fuel
          { r.1 with
              crnt_shift_dword := r.1.crnt_shift_dword ||| (r.2.1 <<< r.1.crnt_shift_state),
              crnt_shift_state := r.1.crnt_shift_state + 8 }
    else (st, true)

/-- The table `code_masks` of `decode`. -/
def LZDecoder.code_masks : List Nat :=
  [0x0000, 0x0001, 0x0003, 0x0007, 0x000f, 0x001f, 0x003f,
   0x007f, 0x00ff, 0x01ff, 0x03ff, 0x07ff, 0x0fff]

/-- `LZDecoder::decode`: the next code of the stream. -/
def LZDecoder.decode (st : LZDecoder) : LZDecoder × Nat × Bool :=
  if st.run_bits > LZ.bits then
    ({ st with f := st.f.set_error ErrorCode.image_defect }, 0, false)
  else
    let r := LZDecoder.fill_loop st.run_bits st
    if !r.2 then (r.1, 0, false)
    else
      let code := r.1.crnt_shift_dword &&& LZDecoder.code_masks.getD r.1.run_bits 0
      let st1 : LZDecoder :=
        { r.1 with crnt_shift_dword := r.1.crnt_shift_dword >>> r.1.run_bits,
                   crnt_shift_state := r.1.crnt_shift_state - r.1.run_bits }
      if st1.run_code < LZ.max_code + 2 then
        let st2 : LZDecoder := { st1 with run_code := st1.run_code + 1 }
        if st2.run_code > st2.max_code && st2.run_bits < LZ.bits then
          ({ st2 with max_code := st2.max_code * 2, run_bits := st2.run_bits + 1 }, code, true)
        else (st2, code, true)
      else (st1, code, true)

/-- The loop of `prefix_char`; the first argument counts the iterations that the
bound `i++ <= LZ::max_code` still admits. -/
def LZDecoder.prefix_char_loop : Nat → (Nat → Nat) → Nat → Nat → Nat
  | 0, _, code, _ => code
  | n + 1, pfx, code, clear_code =>
    if code > clear_code then
      if code > LZ.max_code then LZ.no_such_code
      else LZDecoder.prefix_char_loop n pfx (pfx code) clear_code
    else code

/-- `LZDecoder::prefix_char`. -/
def LZDecoder.prefix_char (pfx : Nat → Nat) (code clear_code : Nat) : Nat :=
  LZDecoder.prefix_char_loop (LZ.max_code + 1) pfx code clear_code

/-- The loops `while (stack_ptr != 0 && i < line_len) line[i++] = stack[--stack_ptr]`
of `decode_line`; `line` holds the `i` pixels stored so far. -/
def LZDecoder.pop_loop : Nat → LZDecoder → List Nat → Nat → LZDecoder × List Nat
  | 0, st, line, _ => (st, line)
  | n + 1, st, line, line_len =>
    if st.stack_ptr != 0 && line.length < line_len then
      LZDecoder.pop_loop n { st with stack_ptr := st.stack_ptr - 1 }
        (line ++ [st.stack (st.stack_ptr - 1)]) line_len
    else (st, line)

/-- The loop of `decode_line` that walks the prefix chain onto the stack; the
stack pointer grows in every iteration and stays below `LZ::max_code`. -/
def LZDecoder.walk_loop : Nat → LZDecoder → Nat → LZDecoder × Nat
  | 0, st, crnt => (st, crnt)
  | n + 1, st, crnt =>
    if st.stack_ptr < LZ.max_code && crnt > st.clear_code && crnt ≤ LZ.max_code then
      LZDecoder.walk_loop n
        { st with stack := fun i => if i = st.stack_ptr then st.suffix crnt else st.stack i,
                  stack_ptr := st.stack_ptr + 1 }
        (st.prefix_ crnt)
    else (st, crnt)

/-- The table update at the end of an iteration of `decode_line`. -/
def LZDecoder.add_entry (st : LZDecoder) (crnt_code : Nat) : LZDecoder :=
  let st1 : LZDecoder :=
    if st.last_code != LZ.no_such_code && st.prefix_ (st.run_code - 2) = LZ.no_such_code then
      let pfx : Nat → Nat := fun i => if i = st.run_code - 2 then st.last_code else st.prefix_ i
      let c :=
        if crnt_code = st.run_code - 2 then LZDecoder.prefix_char pfx st.last_code st.clear_code
        else LZDecoder.prefix_char pfx crnt_code st.clear_code
      { st with prefix_ := pfx,
                suffix := fun i => if i = st.run_code - 2 then c % 256 else st.suffix i }
    else st
  { st1 with last_code := crnt_code }

/-- The body of the main loop of `decode_line` after a successful `decode`
of a code that is neither `eof_code` nor `clear_code`: the pixels of `crnt_code` go to
the stack and from there to `line`.  The flag is false where the source returns
false. -/
def LZDecoder.expand (st0 : LZDecoder) (crnt_code : Nat) (line : List Nat) (line_len : Nat) :
    LZDecoder × List Nat × Bool :=
  if crnt_code < st0.clear_code then
    (st0.add_entry crnt_code, line ++ [crnt_code % 256], true)
  else
    let known := st0.prefix_ crnt_code != LZ.no_such_code
    if !known && crnt_code != st0.run_code - 2 then
      ({ st0 with f := st0.f.set_error ErrorCode.image_defect }, line, false)
    else
      let c := LZDecoder.prefix_char st0.prefix_ st0.last_code st0.clear_code % 256
      let st1 : LZDecoder :=
        if known then st0
        else
          { st0 with
              stack := fun i => if i = st0.stack_ptr then c else st0.stack i,
              stack_ptr := st0.stack_ptr + 1,
              suffix := fun i => if i = st0.run_code - 2 then c else st0.suffix i }
      let w := LZDecoder.walk_loop LZ.max_code st1 (if known then crnt_code else st0.last_code)
      if w.1.stack_ptr ≥ LZ.max_code || w.2 > LZ.max_code then
        ({ w.1 with f := w.1.f.set_error ErrorCode.image_defect }, line, false)
      else
        let st2 : LZDecoder :=
          { w.1 with stack := fun i => if i = w.1.stack_ptr then w.2 % 256 else w.1.stack i,
                     stack_ptr := w.1.stack_ptr + 1 }
        let q := LZDecoder.pop_loop st2.stack_ptr st2 line line_len
        (q.1.add_entry crnt_code, q.2, true)

/-- One iteration of the main loop `while (i < line_len)` of `decode_line`. -/
def LZDecoder.decode_step (st : LZDecoder) (line : List Nat) (line_len : Nat) :
    LZDecoder × List Nat × Bool :=
  let r := st.decode
  let crnt_code := r.2.1
  if !r.2.2 then (r.1, line, false)
  else if crnt_code = r.1.eof_code then
    ({ r.1 with f := r.1.f.set_error ErrorCode.eof_too_soon }, line, false)
  else if crnt_code = r.1.clear_code then
    ({ r.1 with prefix_ := fun _ => LZ.no_such_code,
                run_code := r.1.eof_code + 1,
                run_bits := r.1.col_res + 1,
                max_code := 2 ^ (r.1.col_res + 1),
                last_code := LZ.no_such_code }, line, true)
  else r.1.expand crnt_code line line_len

/-- The main loop `while (i < line_len)` of `decode_line`. -/
def LZDecoder.decode_loop :
    Nat → LZDecoder → List Nat → Nat → Option (LZDecoder × List Nat × Bool)
  | 0, _, _, _ => none
  | fuel + 1, st, line, line_len =>
    if line.length < line_len then
      let r := st.decode_step line line_len
      if !r.2.2 then some r else LZDecoder.decode_loop fuel r.1 r.2.1 line_len
    else some (st, line, true)

/-- `LZDecoder::decode_line`: returns the pixels stored into `line`. -/
def LZDecoder.decode_line (fuel : Nat) (st : LZDecoder) (line_len : Nat) :
    Option (LZDecoder × List Nat × Bool) :=
  if st.stack_ptr > LZ.max_code then some (st, [], false)
  else
    let q := LZDecoder.pop_loop st.stack_ptr st [] line_len
    LZDecoder.decode_loop fuel q.1 q.2 line_len

/-- `LZDecoder::next_code`: returns whether a block was read (`*code_block != NULL`). -/
def LZDecoder.next_code (st : LZDecoder) : LZDecoder × Bool × Bool :=
  let r := st.f.read_byte
  if !r.2.2 then ({ st with f := r.1.set_error ErrorCode.read_failed }, false, false)
  else if r.2.1 > 0 then
    let r2 := r.1.read_bytes r.2.1
    let buf2 : Nat → Nat := fun i =>
      if i = 0 then r.2.1
      else if 1 ≤ i ∧ i < 1 + r2.2.1.length then r2.2.1.getD (i - 1) 0 else st.buf i
    if !r2.2.2 then
      ({ st with f := r2.1.set_error ErrorCode.read_failed, buf := buf2 }, true, false)
    else ({ st with f := r2.1, buf := buf2 }, true, true)
  else
    ({ st with f := r.1, buf := fun i => if i = 0 then 0 else st.buf i, pix_count := 0 },
      false, true)

/-- The `do ... while (dummy != NULL)` loop of `getLine`. -/
def LZDecoder.drain_loop : Nat → LZDecoder → Option (LZDecoder × Bool)
  | 0, _ => none
  | fuel + 1, st =>
    let r := st.next_code
    if !r.2.2 then some (r.1, false)
    else if r.2.1 then LZDecoder.drain_loop fuel r.1
    else some (r.1, true)

/-- `LZDecoder::getLine`; `lineLen` is the `int` argument.  A code read takes at
least one bit of the stream and a block read at least one byte, which gives the
fuel of the two loops. -/
def LZDecoder.getLine (st : LZDecoder) (lineLen : Int) :
    Option (LZDecoder × List Nat × Bool) :=
  let pc : Nat := (((st.pix_count : Int) - lineLen) % 2 ^ 64).toNat
  let st1 : LZDecoder := { st with pix_count := pc }
  if pc > 0xffff0000 then
    some ({ st1 with f := st1.f.set_error ErrorCode.data_too_big }, [], false)
  else
    match LZDecoder.decode_line (8 * (st1.f.d.bytesLeft + 256) + 32) st1 lineLen.toNat with
    | none => none
    | some r =>
      if !r.2.2 then some r
      else if r.1.pix_count = 0 then
        match LZDecoder.drain_loop (r.1.f.d.bytesLeft + 1) r.1 with
        | none => none
        | some r2 => some (r2.1, r.2.1, r2.2)
      else some r

/-! ## Images -/

/-- `Image`. -/
structure Image where
  interlace : Bool
  exts : List Extension
  rect : Rect
  b : List Nat
  cm : Option ColorMap
  deriving DecidableEq, Repr

/-- Default constructor `Image()`. -/
def Image.new : Image :=
  { interlace := false, exts := [], rect := ⟨⟨0, 0⟩, ⟨0, 0⟩⟩, b := [], cm := none }

/-- Constructor `Image(size)`: a zero filled buffer of `size.area()` bytes. -/
def Image.of_size (size : Size) : Image :=
  { interlace := false, exts := [], rect := ⟨⟨0, 0⟩, size⟩,
    b := List.replicate size.area 0, cm := none }

/-- `Image::set_extensions`. -/
def Image.set_extensions (img : Image) (extensions : List Extension) : Image :=
  { img with exts := extensions }

/-- `get_color_res`: the resolution of the local map, else of the global one, raised
to 2 when it is smaller. -/
def get_color_res (local_cm global_cm : Option ColorMap) : Nat × Bool :=
  match local_cm, global_cm with
  | none, none => (0, false)
  | some l, _ => (if l.r < 2 then 2 else l.r, true)
  | none, some g => (if g.r < 2 then 2 else g.r, true)

/-- The rows `j = start; j < height; j += jump` of one `for` loop over the rows;
`height` iterations cover the loop as the step is positive. -/
def pass_rows : Nat → Nat → Nat → Nat → List Nat
  | 0, _, _, _ => []
  | fuel + 1, j, jump, height =>
    if j < height then j :: pass_rows fuel (j + jump) jump height else []

/-- The array `offset` of `Image::save` and `Image::load`. -/
def interlace_offset : List Nat := [0, 4, 2, 1]

/-- The array `jumps` of `Image::save` and `Image::load`. -/
def interlace_jumps : List Nat := [8, 8, 4, 2]

/-- Row indices in the order of the interlaced double loop. -/
def interlace_rows (height : Nat) : List Nat :=
  (List.range 4).flatMap fun i =>
    pass_rows height (interlace_offset.getD i 0) (interlace_jumps.getD i 0) height

/-- Row indices of the loop `for (i = 0; i < height; i++)`. -/
def plain_rows (height : Nat) : List Nat := List.range height

/-- `Image::save_descr`; the results of the single writes are not looked at. -/
def Image.save_descr (img : Image) (io : GifIO) : GifIO × Bool :=
  let io1 := (io.write_byte Gif_descriptor).1
  let io2 := (io1.write_rect img.rect).1
  let color_map_flag := if img.cm.isSome then 0x80 else 0x00
  let interlace_flag := if img.interlace then 0x40 else 0x00
  let color_res := match img.cm with
    | some cm => (cm.r + 255) % 256
    | none => 0
  let flags := color_map_flag ||| interlace_flag ||| color_res
  let io3 := (io2.write_byte flags).1
  match img.cm with
  | some cm =>
    let r := cm.save io3
    if !r.2 then (r.1, false) else (r.1, true)
  | none => (io3, true)

/-- The `for (auto ext : exts)` loop of `Image::save`. -/
def Image.save_exts : List Extension → GifIO → GifIO × Bool
  | [], io => (io, true)
  | ext :: rest, io =>
    let r := ext.save io
    if !r.2 then (r.1.set_error ErrorCode.write_failed, false)
    else Image.save_exts rest r.1

/-- The row loops of `Image::save`: `put_line(&b[j * width], width)` for the rows
in the given order; the buffer `b` is masked in place. -/
def Image.save_rows :
    List Nat → LZEncoder → List Nat → Nat → Option (LZEncoder × List Nat × Bool)
  | [], enc, b, _ => some (enc, b, true)
  | j :: rest, enc, b, width =>
    match enc.put_line ((b.drop (j * width)).take width) with
    | none => none
    | some r =>
      let b1 := b.take (j * width) ++ r.2.1 ++ b.drop (j * width + width)
      if !r.2.2 then some (r.1, b1, false)
      else Image.save_rows rest r.1 b1 width

/-- `Image::save`. -/
def Image.save (img : Image) (io : GifIO) (global_colormap : Option ColorMap) :
    Option (Image × GifIO × Bool) :=
  if img.rect.area = 0 then some (img, io, true)
  else
    let r1 := Image.save_exts img.exts io
    if !r1.2 then some (img, r1.1, false)
    else
      let r2 := img.save_descr r1.1
      if !r2.2 then some (img, r2.1, false)
      else
        let cr := get_color_res img.cm global_colormap
        if !cr.2 then some (img, r2.1.set_error ErrorCode.no_color_map, false)
        else
          let io3 := (r2.1.write_byte cr.1).1
          let encoder := LZEncoder.new io3 img.rect.area cr.1
          let rows :=
            if img.interlace then interlace_rows img.rect.height
            else plain_rows img.rect.height
          match Image.save_rows rows encoder img.b img.rect.width with
          | none => none
          | some r => some ({ img with b := r.2.1 }, r.1.f, r.2.2)

/-- `Image::load_desc`. -/
def Image.load_desc (img : Image) (io : GifIO) : Image × GifIO × Bool :=
  let r1 := io.read_rect
  if !r1.2.2 then (img, r1.1.set_error ErrorCode.read_failed, false)
  else
    let img1 : Image := { img with rect := r1.2.1 }
    let r2 := r1.1.read_byte
    if !r2.2.2 then (img1, r2.1.set_error ErrorCode.read_failed, false)
    else
      let flags := r2.2.1
      let color_res := (flags &&& 0x07) + 1
      let img2 : Image := { img1 with interlace := (flags &&& 0x40) != 0 }
      if (flags &&& 0x80) != 0 then
        let r3 := (ColorMap.new color_res).load r2.1
        if !r3.2.2 then ({ img2 with cm := none }, r3.2.1, false)
        else ({ img2 with cm := some r3.1 }, r3.2.1, true)
      else (img2, r2.1, true)

/-- The interlaced row loops of `Image::load`: `getLine(&b[j * w], w)`. -/
def Image.load_rows :
    List Nat → LZDecoder → List Nat → Nat → Option (LZDecoder × List Nat × Bool)
  | [], dec, b, _ => some (dec, b, true)
  | j :: rest, dec, b, w =>
    match dec.getLine (toInt32 w) with
    | none => none
    | some r =>
      let b1 := b.take (j * w) ++ r.2.1 ++ b.drop (j * w + r.2.1.length)
      if !r.2.2 then some (r.1, b1, false)
      else Image.load_rows rest r.1 b1 w

/-- `std::vector::resize` with zero fill. -/
def resize (b : List Nat) (n : Nat) : List Nat :=
  b.take n ++ List.replicate (n - b.length) 0

/-- `Image::load`.  The source computes `rect.area()` and, in the interlaced branch,
`j * w` in `int`, and `resize` throws when it gets no memory; the model takes the
products as they are and `resize` to succeed, and stands for the source on frames of
fewer than `2 ^ 31` pixels only, where no product leaves `int`. -/
def Image.load (img : Image) (io : GifIO) : Option (Image × GifIO × Bool) :=
  let r1 := img.load_desc io
  if !r1.2.2 then some r1
  else
    let img1 := r1.1
    let r2 := r1.2.1.read_byte
    if !r2.2.2 then some (img1, r2.1.set_error ErrorCode.read_failed, false)
    else
      let decoder := LZDecoder.new r2.1 img1.rect.area r2.2.1
      let b := resize img1.b img1.rect.area
      if img1.interlace then
        match Image.load_rows (interlace_rows img1.rect.height) decoder b img1.rect.width with
        | none => none
        | some r => some ({ img1 with b := r.2.1 }, r.1.f, r.2.2)
      else
        match decoder.getLine (toInt32 b.length) with
        | none => none
        | some r =>
          some ({ img1 with b := r.2.1 ++ b.drop r.2.1.length }, r.1.f, r.2.2)

/-! ## Container -/

/-- `Gif`. -/
structure Gif where
  sz : Size
  bg : Nat
  imgs : List Image
  exs : List Extension
  cm : Option ColorMap
  deriving DecidableEq, Repr

/-- Constructor `Gif(size, backGround)`. -/
def Gif.new (size : Size) (backGround : Nat) : Gif :=
  { sz := size, bg := backGround, imgs := [], exs := [], cm := none }

/-- `Gif::set_color_map`. -/
def Gif.set_color_map (g : Gif) (color_map : ColorMap) : Gif := { g with cm := some color_map }

/-- `Gif::append`. -/
def Gif.append (g : Gif) (image : Image) : Gif := { g with imgs := g.imgs ++ [image] }

/-- The flags byte of `Gif::save_scr_desc`: `stored_color_res` is the `int`
`color_res() - 1`, which is -1 for a resolution of 0 and then sets every bit. -/
def Gif.scr_flags (cm : Option ColorMap) : Nat :=
  match cm with
  | none => 0
  | some m =>
    if m.r = 0 then 0xff
    else (0x80 ||| ((m.r - 1) <<< 4) ||| (m.r - 1)) % 256

/-- `Gif::save_scr_desc`; only the first write and the colour map are checked. -/
def Gif.save_scr_desc (g : Gif) (io : GifIO) : GifIO × Bool :=
  let r := io.write_bytes [0x47, 0x49, 0x46, 0x38, 0x39, 0x61]
  if !r.2 then (r.1.set_error ErrorCode.write_failed, false)
  else
    let io1 := (r.1.write_size g.sz).1
    let io2 := (io1.write_bytes [Gif.scr_flags g.cm, g.bg, 0]).1
    match g.cm with
    | some cm =>
      let r2 := cm.save io2
      if !r2.2 then (r2.1, false) else (r2.1, true)
    | none => (io2, true)

/-- `Gif::load_scr_desc`. -/
def Gif.load_scr_desc (g : Gif) (io : GifIO) : Gif × GifIO × Bool :=
  let r1 := io.read_size
  if !r1.2.2 then (g, r1.1, false)
  else
    let g1 : Gif := { g with sz := r1.2.1 }
    let r2 := r1.1.read_bytes 3
    if !r2.2.2 then (g1, r2.1, false)
    else
      let color_res := ((r2.2.1.getD 0 0) &&& 0x07) + 1
      let g2 : Gif := { g1 with bg := r2.2.1.getD 1 0 }
      if ((r2.2.1.getD 0 0) &&& 0x80) != 0 then
        let r3 := (ColorMap.new color_res).load r2.1
        if !r3.2.2 then ({ g2 with cm := some r3.1 }, r3.2.1, false)
        else ({ g2 with cm := some r3.1 }, r3.2.1, true)
      else (g2, r2.1, true)

/-- One iteration of the record loop of `Gif::load`; `ext_lists` is the local
accumulator.  The last component is `some b` when the function returns `b` from
this iteration or leaves the loop (`b = true`, record `terminate`), and `none`
when the loop goes on. -/
def Gif.load_record (g : Gif) (io : GifIO) (ext_lists : List Extension) :
    Option (Gif × GifIO × List Extension × Option Bool) :=
  let r := io.read_record
  if !r.2.2 then some (g, r.1.set_error ErrorCode.wrong_record, ext_lists, some false)
  else
    match r.2.1 with
    | GifRecordType.image_desc =>
      match Image.new.load r.1 with
      | none => none
      | some ri =>
        if !ri.2.2 then some (g, ri.2.1, ext_lists, some false)
        else
          let img := if !ext_lists.isEmpty then ri.1.set_extensions ext_lists else ri.1
          some ({ g with imgs := g.imgs ++ [img] }, ri.2.1, [], none)
    | GifRecordType.extension =>
      match Extension.new.load r.1 with
      | none => none
      | some re =>
        if !re.2.2 then some (g, re.2.1, ext_lists, some false)
        else some (g, re.2.1, ext_lists ++ [re.1], none)
    | GifRecordType.terminate => some (g, r.1, ext_lists, some true)
    | _ => some (g, r.1, ext_lists, none)

/-- The record loop of `Gif::load`.  Every iteration reads the tag byte, so the
bytes left plus one bound the iterations. -/
def Gif.load_loop :
    Nat → Gif → GifIO → List Extension → Option (Gif × GifIO × List Extension × Bool)
  | 0, _, _, _ => none
  | fuel + 1, g, io, ext_lists =>
    match Gif.load_record g io ext_lists with
    | none => none
    | some r =>
      match r.2.2.2 with
      | some b => some (r.1, r.2.1, r.2.2.1, b)
      | none => Gif.load_loop fuel r.1 r.2.1 r.2.2.1

/-- `Gif::load` on a device; returns the container, the session and the result. -/
def Gif.load (g : Gif) (dev : MemDevice) : Option (Gif × GifIO × Bool) :=
  let io := GifIO.mk_dev dev
  let r1 := io.probe
  if !r1.2 then some (g, r1.1, false)
  else
    let r2 := g.load_scr_desc r1.1
    if !r2.2.2 then some (r2.1, r2.2.1.set_error ErrorCode.no_scrn_dscr, false)
    else
      match Gif.load_loop (r2.2.1.d.bytesLeft + 1) r2.1 r2.2.1 [] with
      | none => none
      | some r =>
        if !r.2.2.2 then some (r.1, r.2.1, false)
        else
          let g3 : Gif := if !r.2.2.1.isEmpty then { r.1 with exs := r.2.2.1 } else r.1
          some (g3, r.2.1, true)

/-- The `for (auto i : imgs)` loop of `Gif::save`; the images are shared with the
container, so the masking done by `Image::save` stays in it. -/
def Gif.save_imgs :
    List Image → GifIO → Option ColorMap → Option (List Image × GifIO × Bool)
  | [], io, _ => some ([], io, true)
  | i :: rest, io, cm =>
    match i.save io cm with
    | none => none
    | some r =>
      if !r.2.2 then some (r.1 :: rest, r.2.1, false)
      else
        match Gif.save_imgs rest r.2.1 cm with
        | none => none
        | some r2 => some (r.1 :: r2.1, r2.2.1, r2.2.2)

/-- The `for (auto e : exs)` loop of `Gif::save`. -/
def Gif.save_exs : List Extension → GifIO → GifIO × Bool
  | [], io => (io, true)
  | e :: rest, io =>
    let r := e.save io
    if !r.2 then (r.1.set_error ErrorCode.write_failed, false)
    else Gif.save_exs rest r.1

/-- `Gif::save` on a device; returns the container, the session and the result. -/
def Gif.save (g : Gif) (dev : MemDevice) : Option (Gif × GifIO × Bool) :=
  let io := GifIO.mk_dev dev
  let r1 := g.save_scr_desc io
  if !r1.2 then some (g, r1.1, false)
  else
    match Gif.save_imgs g.imgs r1.1 g.cm with
    | none => none
    | some r2 =>
      let g1 : Gif := { g with imgs := r2.1 }
      if !r2.2.2 then some (g1, r2.2.1, false)
      else
        let r3 := Gif.save_exs g.exs r2.2.1
        if !r3.2 then some (g1, r3.1, false)
        else
          let r4 := r3.1.write_terminator
          some (g1, r4.1, r4.2)

end gif

namespace gif

/-! ## Specification level definitions

The definitions of this part are not taken from the source: they describe states
and byte sequences in the statements and proofs below. -/

/-- The device has room for `n` more bytes. -/
def MemDevice.Room (dev : MemDevice) (n : Nat) : Prop := dev.p + n ≤ dev.d.length

instance MemDevice.decRoom (dev : MemDevice) (n : Nat) : Decidable (dev.Room n) :=
  inferInstanceAs (Decidable (dev.p + n ≤ dev.d.length))

/-- The device after `bs` has been written in full at the position. -/
def MemDevice.push (dev : MemDevice) (bs : List Nat) : MemDevice :=
  { dev with d := dev.d.take dev.p ++ bs ++ dev.d.drop (dev.p + bs.length),
             p := dev.p + bs.length }

/-- The device after `n` bytes have been read. -/
def MemDevice.skip (dev : MemDevice) (n : Nat) : MemDevice := { dev with p := dev.p + n }

/-- The session has room for `n` more bytes. -/
def GifIO.Room (io : GifIO) (n : Nat) : Prop := io.d.Room n

instance GifIO.decRoom (io : GifIO) (n : Nat) : Decidable (io.Room n) :=
  inferInstanceAs (Decidable (io.d.Room n))

/-- The session after `bs` has been written in full. -/
def GifIO.push (io : GifIO) (bs : List Nat) : GifIO := { io with d := io.d.push bs }

/-- The session after `n` bytes have been read. -/
def GifIO.skip (io : GifIO) (n : Nat) : GifIO := { io with d := io.d.skip n }

/-- The three bytes G, I, F. -/
def magic : List Nat := [0x47, 0x49, 0x46]

end gif

namespace gif

/-! ### Wire bytes of the records -/

/-- Wire bytes of a 16 bit word: low byte, high byte. -/
def word_bytes (w : Nat) : List Nat := [w &&& 0xff, (w >>> 8) &&& 0xff]

/-- Wire bytes of a `Size`. -/
def size_bytes (s : Size) : List Nat := word_bytes s.wd ++ word_bytes s.ht

/-- Wire bytes of a `Point`. -/
def point_bytes (p : Point) : List Nat := word_bytes p.x_val ++ word_bytes p.y_val

/-- Wire bytes of a `Rect`. -/
def rect_bytes (r : Rect) : List Nat := point_bytes r.p ++ size_bytes r.s

/-- Wire bytes of the entries of a palette. -/
def rgbs_bytes (c : List RGB) : List Nat := c.flatMap fun i => [i.r_val, i.g_val, i.b_val]

/-- Wire bytes of an optional palette. -/
def cm_bytes (cm : Option ColorMap) : List Nat :=
  match cm with
  | some m => rgbs_bytes m.c
  | none => []

/-- Wire bytes of the chunks of an extension. -/
def chunks_bytes (l : List (List Nat)) : List Nat := l.flatMap fun c => (c.length % 256) :: c

/-- Wire bytes of an extension record. -/
def ext_bytes (e : Extension) : List Nat :=
  [Gif_extension, e.fn % 256] ++ chunks_bytes e.list ++ [0]

/-- Wire bytes of a list of extension records. -/
def exts_bytes (l : List Extension) : List Nat := l.flatMap ext_bytes

/-- The flags byte of an image descriptor. -/
def descr_flags (img : Image) : Nat :=
  (if img.cm.isSome then 0x80 else 0x00) ||| (if img.interlace then 0x40 else 0x00) |||
    (match img.cm with
      | some cm => (cm.r + 255) % 256
      | none => 0)

/-- Wire bytes of an image descriptor record with its local palette. -/
def descr_bytes (img : Image) : List Nat :=
  [Gif_descriptor] ++ rect_bytes img.rect ++ [descr_flags img] ++ cm_bytes img.cm

/-- Wire bytes of the header and the screen descriptor with the global palette. -/
def scr_bytes (g : Gif) : List Nat :=
  [0x47, 0x49, 0x46, 0x38, 0x39, 0x61] ++ size_bytes g.sz ++ [Gif.scr_flags g.cm, g.bg, 0] ++
    cm_bytes g.cm

end gif

namespace gif

/-! ### Hash table contents -/

/-- The slot value that `insert` stores for a key and a code. -/
def HashTable.slot (key code : Nat) : Nat := HashTable.put_key key ||| HashTable.put_code code

/-- Number of occupied slots. -/
def HashTable.occ (t : Nat → Nat) : Nat :=
  (List.range 8192).countP fun i => HashTable.get_key (t i) != 0xFFFFF

/-- The table `t` holds exactly the entries `m` (key, code), each reachable from the
hash of its key through occupied slots that hold other keys. -/
structure HTRep (t : Nat → Nat) (m : List (Nat × Nat)) : Prop where
  keys_lt : ∀ e ∈ m, e.1 < 0xFFFFF
  nodup : (m.map Prod.fst).Nodup
  slots : ∀ i, i < 8192 →
    HashTable.get_key (t i) = 0xFFFFF ∨ ∃ e ∈ m, t i = HashTable.slot e.1 e.2
  path : ∀ e ∈ m, ∃ d, d < 8192 ∧
    t ((HashTable.norm_key e.1 + d) % 8192) = HashTable.slot e.1 e.2 ∧
    ∀ d', d' < d →
      HashTable.get_key (t ((HashTable.norm_key e.1 + d') % 8192)) ≠ 0xFFFFF ∧
      HashTable.get_key (t ((HashTable.norm_key e.1 + d') % 8192)) ≠ e.1
  occ : HashTable.occ t = m.length

end gif

namespace gif

/-! ### Pure image of the encoder

`Packer` mirrors the members `crnt_shift_dword`, `crnt_shift_state` and `buf` of
`LZEncoder`; its functions return the bytes that the encoder hands to the session. -/

/-- Shift register and staging block of the encoder. -/
structure Packer where
  dword : Nat
  nbits : Nat
  stg : List Nat

/-- The array `buf` holds the staging block `s`: length in `buf[0]`, bytes after it. -/
def Stg (buf : Nat → Nat) (s : List Nat) : Prop :=
  s.length ≤ 255 ∧ buf 0 = s.length ∧ ∀ i, i < s.length → buf (i + 1) = s.getD i 0

/-- Image of `write_buf(c)` for a byte `c`: a full staging block goes out first. -/
def Packer.put (p : Packer) (c : Nat) : List Nat × Packer :=
  if p.stg.length = 255 then (255 :: p.stg, { p with stg := [c % 256] })
  else ([], { p with stg := p.stg ++ [c % 256] })

/-- Image of the loop `while (crnt_shift_state >= 8)` of `encode`. -/
def Packer.shift : Nat → Packer → List Nat × Packer
  | 0, p => ([], p)
  | fuel + 1, p =>
    if p.nbits ≥ 8 then
      let r := p.put (p.dword &&& 0xff)
      let r2 := Packer.shift fuel { r.2 with dword := p.dword >>> 8, nbits := p.nbits - 8 }
      (r.1 ++ r2.1, r2.2)
    else ([], p)

/-- Image of the packing branch of `encode`: `code` at width `w`. -/
def Packer.emit (p : Packer) (code w : Nat) : List Nat × Packer :=
  Packer.shift (p.nbits + w)
    { p with dword := p.dword ||| (code <<< p.nbits), nbits := p.nbits + w }

/-- Image of the loop `while (crnt_shift_state > 0)` of the flush branch of `encode`. -/
def Packer.drain : Nat → Packer → List Nat × Packer
  | 0, p => ([], p)
  | fuel + 1, p =>
    if p.nbits > 0 then
      let r := p.put (p.dword &&& 0xff)
      let r2 := Packer.drain fuel { r.2 with dword := p.dword >>> 8, nbits := p.nbits - 8 }
      (r.1 ++ r2.1, r2.2)
    else ([], p)

/-- Image of `write_buf(flush_output)`: the staging block, if any, and the zero
length block. -/
def Packer.close (p : Packer) : List Nat × Packer :=
  ((if p.stg.length ≠ 0 then p.stg.length :: p.stg else []) ++ [0], { p with stg := [] })

/-- Image of `encode(flush_output)`. -/
def Packer.flush (p : Packer) : List Nat × Packer :=
  let r := Packer.drain p.nbits p
  let r2 := Packer.close { r.2 with nbits := 0 }
  (r.1 ++ r2.1, r2.2)

end gif

namespace gif

/-- The members of the encoder that `write_buf` and the packing loops leave alone. -/
def LZEncoder.logic (st : LZEncoder) :
    Nat × Nat × Nat × Nat × Nat × Nat × Nat × Nat × HashTable :=
  (st.col_res, st.clear_code, st.eof_code, st.run_code, st.run_bits, st.max_code, st.crnt_code,
    st.pix_count, st.ht)

/-- The shift register and staging block of the encoder are those of the packer. -/
def PkSim (st : LZEncoder) (p : Packer) : Prop :=
  st.crnt_shift_dword = p.dword ∧ st.crnt_shift_state = p.nbits ∧ Stg st.buf p.stg

end gif

namespace gif

/-- Logic state of the encoder without the hash table: `dict` lists the pairs
(current code, pixel) registered since the last clear code, newest first; the pair
at distance `j` from the end has the code `2 ^ cr + 2 + j`. -/
structure AEnc where
  dict : List (Nat × Nat)
  run_bits : Nat
  max_code : Nat
  crnt_code : Nat
  pix_count : Nat
  pk : Packer

/-- Image of the member `run_code`. -/
def AEnc.run_code (cr : Nat) (a : AEnc) : Nat := 2 ^ cr + 2 + a.dict.length

/-- Image of `encode(code)` for a code other than `flush_output`. -/
def AEnc.encode (cr : Nat) (a : AEnc) (code : Nat) : List Nat × AEnc :=
  let r := a.pk.emit code a.run_bits
  (r.1,
    if a.run_code cr ≥ a.max_code && code ≤ LZ.max_code then
      { a with pk := r.2, run_bits := a.run_bits + 1, max_code := 2 ^ (a.run_bits + 1) }
    else { a with pk := r.2 })

/-- The code registered for the pair `(p, x)`, if any. -/
def dlookup (cr : Nat) : List (Nat × Nat) → Nat → Nat → Option Nat
  | [], _, _ => none
  | e :: older, p, x =>
    if e = (p, x) then some (2 ^ cr + 2 + older.length) else dlookup cr older p x

/-- The entries (key, code) that the hash table holds for a dictionary. -/
def hmap (cr : Nat) : List (Nat × Nat) → List (Nat × Nat)
  | [] => []
  | e :: older => ((e.1 <<< 8) + e.2, 2 ^ cr + 2 + older.length) :: hmap cr older

/-- Image of the body of the pixel loop of `encode_line`. -/
def AEnc.pixel (cr : Nat) (a : AEnc) (code pixel : Nat) : List Nat × AEnc × Nat :=
  match dlookup cr a.dict code pixel with
  | some c => ([], a, c)
  | none =>
    let r := a.encode cr code
    if r.2.run_code cr ≥ LZ.max_code then
      let r2 := r.2.encode cr (2 ^ cr)
      (r.1 ++ r2.1,
        { r2.2 with dict := [], run_bits := cr + 1, max_code := 2 ^ (cr + 1) }, pixel)
    else (r.1, { r.2 with dict := (code, pixel) :: r.2.dict }, pixel)

/-- Image of the pixel loop of `encode_line`. -/
def AEnc.loop (cr : Nat) : List Nat → AEnc → Nat → List Nat × AEnc × Nat
  | [], a, code => ([], a, code)
  | x :: rest, a, code =>
    let r := a.pixel cr code x
    let r2 := AEnc.loop cr rest r.2.1 r.2.2
    (r.1 ++ r2.1, r2.2)

/-- Image of the end of the last `encode_line`: pending code, `eof_code`, flush. -/
def AEnc.finish (cr : Nat) (a : AEnc) (code : Nat) : List Nat × AEnc :=
  let r1 := a.encode cr code
  let r2 := r1.2.encode cr (2 ^ cr + 1)
  let r3 := r2.2.pk.flush
  (r1.1 ++ r2.1 ++ r3.1, { r2.2 with pk := r3.2 })

/-- Image of the state after the constructor, which encodes one clear code. -/
def AEnc.init (cr pixel_count : Nat) : List Nat × AEnc :=
  AEnc.encode cr
    { dict := [], run_bits := cr + 1, max_code := 2 ^ (cr + 1),
      crnt_code := LZ.first_code, pix_count := pixel_count,
      pk := { dword := 0, nbits := 0, stg := [] } } (2 ^ cr)

/-- Image of the end of `encode_line`. -/
def AEnc.line_end (cr : Nat) (a : AEnc) : List Nat × AEnc :=
  if a.pix_count = 0 then a.finish cr a.crnt_code else ([], a)

/-- Image of `encode_line`. -/
def AEnc.encode_line (cr : Nat) (a : AEnc) (line : List Nat) : List Nat × AEnc :=
  let r := AEnc.loop cr (LZEncoder.line_start a.crnt_code line).2 a
    (LZEncoder.line_start a.crnt_code line).1
  let e := AEnc.line_end cr { r.2.1 with crnt_code := r.2.2 }
  (r.1 ++ e.1, e.2)

/-- Image of `put_line` for a line that fits the pixel count: bytes, state and the
masked line. -/
def AEnc.put_line (cr : Nat) (a : AEnc) (line : List Nat) : List Nat × AEnc × List Nat :=
  let line1 := line.map (fun b => b &&& LZEncoder.code_mask.getD cr 0)
  let r := AEnc.encode_line cr { a with pix_count := a.pix_count - line.length } line1
  (r.1, r.2, line1)

/-- The encoder `st` is in the logic state `a`. -/
structure EncSim (cr : Nat) (st : LZEncoder) (a : AEnc) : Prop where
  col_res : st.col_res = cr
  clear_code : st.clear_code = 2 ^ cr
  eof_code : st.eof_code = 2 ^ cr + 1
  run_code : st.run_code = a.run_code cr
  run_bits : st.run_bits = a.run_bits
  max_code : st.max_code = a.max_code
  crnt_code : st.crnt_code = a.crnt_code
  pix_count : st.pix_count = a.pix_count
  pk : PkSim st a.pk
  ht : HTRep st.ht.table (hmap cr a.dict)

/-- Ranges of the logic state: pairs of a code below 4095 and a byte, at most 4095
codes in use. -/
def ARange (cr : Nat) (a : AEnc) : Prop :=
  cr ≤ 11 ∧ (∀ e ∈ a.dict, e.1 ≤ 4094 ∧ e.2 < 256) ∧ a.run_code cr ≤ 4095

/-- Image of the row loops of `Image::save`: bytes, state and the masked buffer. -/
def AEnc.save_rows (cr : Nat) : List Nat → AEnc → List Nat → Nat → List Nat × AEnc × List Nat
  | [], a, b, _ => ([], a, b)
  | j :: rest, a, b, width =>
    let r := a.put_line cr ((b.drop (j * width)).take width)
    let b1 := b.take (j * width) ++ r.2.2 ++ b.drop (j * width + width)
    let r2 := AEnc.save_rows cr rest r.2.1 b1 width
    (r.1 ++ r2.1, r2.2)

/-- Row order of an image. -/
def Image.rows (img : Image) : List Nat :=
  if img.interlace then interlace_rows img.rect.height else plain_rows img.rect.height

/-- The LZW data of an image as `Image::save` writes it for the colour resolution
`cr`: what the constructor of the encoder and the row loops hand to the session. -/
def lzw_bytes (cr : Nat) (img : Image) : List Nat :=
  (AEnc.init cr img.rect.area).1 ++
    (AEnc.save_rows cr img.rows (AEnc.init cr img.rect.area).2 img.b img.rect.width).1

/-- The pixel buffer of an image after `Image::save` with colour resolution `cr`. -/
def masked_b (cr : Nat) (img : Image) : List Nat :=
  (AEnc.save_rows cr img.rows (AEnc.init cr img.rect.area).2 img.b img.rect.width).2.2

/-- Wire bytes of an image that resolves a palette: nothing for an empty rect, else
the extension records, the descriptor, the code size byte and the LZW data. -/
def image_bytes (img : Image) (global_cm : Option ColorMap) : List Nat :=
  if img.rect.area = 0 then []
  else
    exts_bytes img.exts ++ descr_bytes img ++ [(get_color_res img.cm global_cm).1] ++
      lzw_bytes (get_color_res img.cm global_cm).1 img

/-- An image as `Image::save` leaves it. -/
def Image.saved (img : Image) (global_cm : Option ColorMap) : Image :=
  if img.rect.area = 0 then img
  else { img with b := masked_b (get_color_res img.cm global_cm).1 img }

/-- Wire bytes of a list of images. -/
def images_bytes (l : List Image) (global_cm : Option ColorMap) : List Nat :=
  l.flatMap fun i => image_bytes i global_cm

/-- Wire bytes of a container. -/
def gif_bytes (g : Gif) : List Nat :=
  scr_bytes g ++ images_bytes g.imgs g.cm ++ exts_bytes g.exs ++ [Gif_terminator]

end gif

namespace gif

/-- The running code of the logic state is the start marker or a code below 4095. -/
def ACrnt (a : AEnc) : Prop := a.crnt_code = LZ.first_code ∨ a.crnt_code ≤ 4094

end gif

namespace gif

/-- An image that `Image::save` can write: 16 bit width and height and, unless the
rect is empty, a palette to resolve, of a colour resolution of at most 11 bits. -/
def Image.Savable (img : Image) (global_cm : Option ColorMap) : Prop :=
  img.rect.s.wd < 65536 ∧ img.rect.s.ht < 65536 ∧
    (img.rect.area = 0 ∨
      ((get_color_res img.cm global_cm).2 = true ∧ (get_color_res img.cm global_cm).1 ≤ 11))

/-- A sequence of `put_line` calls that ends at the first call that fails. -/
def LZEncoder.put_lines : List (List Nat) → LZEncoder → Option (LZEncoder × Bool)
  | [], st => some (st, true)
  | line :: rest, st =>
    match st.put_line line with
    | none => none
    | some r => if !r.2.2 then some (r.1, false) else LZEncoder.put_lines rest r.1

/-- Image of a sequence of `put_line` calls. -/
def AEnc.put_lines (cr : Nat) : List (List Nat) → AEnc → List Nat × AEnc
  | [], a => ([], a)
  | line :: rest, a =>
    let r := a.put_line cr line
    let r2 := AEnc.put_lines cr rest r.2.1
    (r.1 ++ r2.1, r2.2)

/-- Room that covers the save of the images up to the first one that has pixels
and resolves no palette, and the extension and descriptor records of that one. -/
def fail_room : List Image → Nat
  | [] => 0
  | i :: rest =>
    if i.cm = none ∧ i.rect.area ≠ 0 then (exts_bytes i.exts).length + (descr_bytes i).length
    else (image_bytes i none).length + fail_room rest

/-- A frame of 3 x 2 pixels without palette and extensions. -/
def sample_frame : Image :=
  { interlace := false, exts := [], rect := ⟨⟨0, 0⟩, ⟨3, 2⟩⟩, b := [0, 1, 2, 3, 4, 5],
    cm := none }

/-- A container without global palette whose only frame is `sample_frame`. -/
def sample_single : Gif :=
  { sz := ⟨3, 2⟩, bg := 0, imgs := [sample_frame], exs := [], cm := none }

/-- A container without global palette that holds an empty image and `sample_frame`. -/
def sample_pair : Gif :=
  { sz := ⟨3, 2⟩, bg := 0, imgs := [Image.new, sample_frame], exs := [], cm := none }

end gif

namespace gif

/-! ### The code stream

The encoder packs codes of growing width into bytes, the low bits first, and cuts the
bytes into sub-blocks.  `pack` gives the number whose binary digits are the stream. -/

/-- Value of a sequence of (code, width) pairs, the first code in the low bits. -/
def pack : List (Nat × Nat) → Nat
  | [] => 0
  | e :: rest => e.1 + 2 ^ e.2 * pack rest

/-- Number of bits of a sequence of (code, width) pairs. -/
def bitlen : List (Nat × Nat) → Nat
  | [] => 0
  | e :: rest => e.2 + bitlen rest

/-- Little endian value of a sequence of bytes. -/
def le_val : List Nat → Nat
  | [] => 0
  | b :: rest => b + 256 * le_val rest

/-- Every code is below two to its width. -/
def Fits (cw : List (Nat × Nat)) : Prop := ∀ e ∈ cw, e.1 < 2 ^ e.2

/-- Sub-blocks as they stand in the stream: the length byte, then the bytes. -/
def frames (blocks : List (List Nat)) : List Nat := blocks.flatMap fun b => b.length :: b

/-- Sub-blocks of 1 to 255 bytes. -/
def Blocks (blocks : List (List Nat)) : Prop :=
  ∀ b ∈ blocks, 1 ≤ b.length ∧ b.length ≤ 255 ∧ ∀ x ∈ b, x < 256

/-- The bytes `out` handed to the session are full sub-blocks and, with the staging
block `stg`, hold the data bytes `data`. -/
def PkB (out stg data : List Nat) : Prop :=
  ∃ full : List (List Nat), (∀ b ∈ full, b.length = 255) ∧ out = frames full ∧
    data = full.flatten ++ stg ∧ stg.length ≤ 255 ∧ ∀ x ∈ data, x < 256

/-- The bytes `out` handed to the session and the packer `p` hold the codes `cw`. -/
def PkRep (out : List Nat) (p : Packer) (cw : List (Nat × Nat)) : Prop :=
  ∃ data, PkB out p.stg data ∧
    le_val data + 2 ^ (8 * data.length) * p.dword = pack cw ∧
    8 * data.length + p.nbits = bitlen cw ∧ p.dword < 2 ^ p.nbits

/-! ### Strings of codes and the logic of the decoder -/

/-- The pixels that a code stands for in a dictionary (newest pair first): a code
that no pair registers stands for itself. -/
def dstr (cr : Nat) : List (Nat × Nat) → Nat → List Nat
  | [], c => [c]
  | e :: older, c =>
    if c = 2 ^ cr + 2 + older.length then dstr cr older e.1 ++ [e.2] else dstr cr older c

/-- The code is a pixel value or a code that the dictionary registers. -/
def VCode (cr : Nat) (d : List (Nat × Nat)) (c : Nat) : Prop :=
  c < 2 ^ cr ∨ (2 ^ cr + 2 ≤ c ∧ c < 2 ^ cr + 2 + d.length)

instance VCode.dec (cr : Nat) (d : List (Nat × Nat)) (c : Nat) : Decidable (VCode cr d c) :=
  inferInstanceAs (Decidable (c < 2 ^ cr ∨ (2 ^ cr + 2 ≤ c ∧ c < 2 ^ cr + 2 + d.length)))

/-- Every pair of the dictionary extends a code of the older pairs by a pixel value. -/
def DWf (cr : Nat) : List (Nat × Nat) → Prop
  | [] => True
  | e :: older => VCode cr older e.1 ∧ e.2 < 2 ^ cr ∧ DWf cr older

/-- Logic state of the decoder: `tab` lists the pairs (`prefix`, `suffix`) stored
since the last clear code, newest first; `last` is the member `last_code`. -/
structure ADec where
  tab : List (Nat × Nat)
  run_code : Nat
  run_bits : Nat
  max_code : Nat
  last : Nat

/-- Logic state after the constructor and after a clear code. -/
def ADec.init (cr : Nat) : ADec :=
  { tab := [], run_code := 2 ^ cr + 2, run_bits := cr + 1, max_code := 2 ^ (cr + 1),
    last := LZ.no_such_code }

/-- Image of the end of `decode`: the count of codes and the width. -/
def ADec.bump (d : ADec) : ADec :=
  if d.run_code < LZ.max_code + 2 then
    if d.run_code + 1 > d.max_code && d.run_bits < LZ.bits then
      { d with run_code := d.run_code + 1, max_code := d.max_code * 2,
               run_bits := d.run_bits + 1 }
    else { d with run_code := d.run_code + 1 }
  else d

/-- Image of one iteration of the main loop of `decode_line` for the code `c`: the
state after it and the pixels of the code; `none` where the decoder reports a defect
and where the table has no slot left for the pair of the code. -/
def ADec.step (cr : Nat) (d : ADec) (c : Nat) : Option (ADec × List Nat) :=
  if c = 2 ^ cr + 1 then none
  else if c = 2 ^ cr then some (ADec.init cr, [])
  else if 4095 < d.run_code then none
  else if VCode cr d.bump.tab c then
    some ({ d.bump with
              tab := if d.bump.last = LZ.no_such_code then d.bump.tab
                     else (d.bump.last, (dstr cr d.bump.tab c).headD 0) :: d.bump.tab,
              last := c },
      dstr cr d.bump.tab c)
  else if c = d.bump.run_code - 2 ∧ d.bump.last ≠ LZ.no_such_code then
    some ({ d.bump with
              tab := (d.bump.last, (dstr cr d.bump.tab d.bump.last).headD 0) :: d.bump.tab,
              last := c },
      dstr cr d.bump.tab d.bump.last ++ [(dstr cr d.bump.tab d.bump.last).headD 0])
  else none

/-- The decoder logic over a sequence of (code, width) pairs, each read at the
width of the state: the state after the last code and all the pixels. -/
def ADec.run (cr : Nat) : ADec → List (Nat × Nat) → Option (ADec × List Nat)
  | d, [] => some (d, [])
  | d, e :: rest =>
    if e.2 = d.run_bits then
      match d.step cr e.1 with
      | none => none
      | some r =>
        match ADec.run cr r.1 rest with
        | none => none
        | some r2 => some (r2.1, r.2 ++ r2.2)
    else none

/-- The encoder logic `a` with the running code `code` and the decoder logic `d`
that has read every code sent so far agree: the decoder lags by the newest pair,
which it completes with the first pixel of the running code. -/
structure LzSync (cr : Nat) (a : AEnc) (code : Nat) (d : ADec) : Prop where
  wf : DWf cr a.dict
  vcode : VCode cr a.dict code
  tab : d.tab = a.dict.tail
  last : d.last = (a.dict.head?.map Prod.fst).getD LZ.no_such_code
  run_code : d.run_code = 2 ^ cr + 2 + a.dict.length
  run_bits : d.run_bits = a.run_bits
  max_code : d.max_code = a.max_code
  pow : a.max_code = 2 ^ a.run_bits
  bits : a.run_bits ≤ 12
  pos : 0 < a.run_bits
  head : ∀ e ∈ a.dict.head?, e.2 = (dstr cr a.dict code).headD 0
  size : 2 ^ cr + 2 + a.dict.length ≤ 4095
  fit : 2 ^ cr + 2 + a.dict.length ≤ a.max_code

/-- The bytes `out` sent so far hold codes that the decoder logic reads in step with
the encoder logic `a`, and the pixels `px` taken so far are those of the codes sent
and of the running code. -/
def EncTr (cr : Nat) (out : List Nat) (a : AEnc) (code : Nat) (px : List Nat) : Prop :=
  ∃ cw d dout, PkRep out a.pk cw ∧ a.pk.nbits < 8 ∧ Fits cw ∧ (∀ e ∈ cw, 0 < e.2) ∧
    ADec.run cr (ADec.init cr) cw = some (d, dout) ∧ LzSync cr a code d ∧
    dout ++ dstr cr a.dict code = px

/-- The bytes are the LZW data of the pixels `px`: sub-blocks and the zero length
block, whose data bytes hold codes that the decoder logic expands to `px`, followed
by further codes `extra`. -/
def LzwStream (cr : Nat) (bytes px : List Nat) : Prop :=
  ∃ blocks cw extra d, Blocks blocks ∧ bytes = frames blocks ++ [0] ∧
    le_val blocks.flatten = pack (cw ++ extra) ∧
    bitlen (cw ++ extra) ≤ 8 * blocks.flatten.length ∧ Fits (cw ++ extra) ∧
    (∀ e ∈ cw, 0 < e.2) ∧ ADec.run cr (ADec.init cr) cw = some (d, px)

/-- State of the encoder logic between two lines: before the first pixel every
pixel value can start the stream, later the member `crnt_code` is the running code. -/
def LineTr (cr : Nat) (out : List Nat) (a : AEnc) (px : List Nat) : Prop :=
  if a.crnt_code = LZ.first_code then px = [] ∧ ∀ x, x < 2 ^ cr → EncTr cr out a x [x]
  else EncTr cr out a a.crnt_code px

/-! ### The decoder over a stream -/

/-- The members of the decoder that `read_buf` leaves alone. -/
def LZDecoder.logic (st : LZDecoder) :
    (Nat × Nat × Nat × Nat × Nat × Nat × Nat × Nat × Nat × Nat × Nat) ×
      (Nat → Nat) × (Nat → Nat) × (Nat → Nat) :=
  ((st.col_res, st.clear_code, st.eof_code, st.run_code, st.run_bits, st.max_code,
    st.last_code, st.crnt_shift_state, st.crnt_shift_dword, st.pix_count, st.stack_ptr),
    st.stack, st.suffix, st.prefix_)

/-- The unread bytes `cur` of the current sub-block in `buf` and the sub-blocks ahead
in the session hold the data bytes `data`; `tail` follows the zero length block. -/
def DBuf (st : LZDecoder) (data tail : List Nat) : Prop :=
  ∃ (cur : List Nat) (blocks : List (List Nat)), st.buf 0 = cur.length ∧
    (cur ≠ [] → 2 ≤ st.buf 1 ∧ st.buf 1 + cur.length ≤ 256 ∧
      ∀ i, i < cur.length → st.buf (st.buf 1 + i) = cur.getD i 0) ∧
    (∀ x ∈ cur, x < 256) ∧ Blocks blocks ∧
    st.f.d.rest = frames blocks ++ 0 :: tail ∧ data = cur ++ blocks.flatten

/-- The members of the decoder that the reading of bits leaves alone. -/
def LZDecoder.core (st : LZDecoder) :
    (Nat × Nat × Nat × Nat × Nat × Nat × Nat × Nat × Nat) ×
      (Nat → Nat) × (Nat → Nat) × (Nat → Nat) :=
  ((st.col_res, st.clear_code, st.eof_code, st.run_code, st.run_bits, st.max_code,
    st.last_code, st.pix_count, st.stack_ptr), st.stack, st.suffix, st.prefix_)

/-- The shift register of the decoder and the data bytes ahead hold the codes `cw`,
each in full. -/
def DStream (st : LZDecoder) (cw : List (Nat × Nat)) (tail : List Nat) : Prop :=
  ∃ data, DBuf st data tail ∧
    st.crnt_shift_dword + 2 ^ st.crnt_shift_state * le_val data = pack cw ∧
    bitlen cw ≤ st.crnt_shift_state + 8 * data.length ∧
    st.crnt_shift_dword < 2 ^ st.crnt_shift_state ∧ st.crnt_shift_state < 8 ∧ Fits cw

/-- The members of the decoder that `decode` leaves alone. -/
def LZDecoder.tables (st : LZDecoder) :
    (Nat × Nat × Nat × Nat × Nat × Nat) × (Nat → Nat) × (Nat → Nat) × (Nat → Nat) :=
  ((st.col_res, st.clear_code, st.eof_code, st.last_code, st.pix_count, st.stack_ptr),
    st.stack, st.suffix, st.prefix_)

/-- The arrays `prefix` and `suffix` hold the pairs of the table. -/
def TabRep (cr : Nat) (pfx sfx : Nat → Nat) : List (Nat × Nat) → Prop
  | [] => True
  | e :: older =>
    pfx (2 ^ cr + 2 + older.length) = e.1 ∧ sfx (2 ^ cr + 2 + older.length) = e.2 ∧
      TabRep cr pfx sfx older

/-- The decoder `st` is in the logic state `d`. -/
structure DecSim (cr : Nat) (st : LZDecoder) (d : ADec) : Prop where
  col_res : st.col_res = cr
  clear_code : st.clear_code = 2 ^ cr
  eof_code : st.eof_code = 2 ^ cr + 1
  run_code : st.run_code = d.run_code
  run_bits : st.run_bits = d.run_bits
  max_code : st.max_code = d.max_code
  last_code : st.last_code = d.last
  tab : TabRep cr st.prefix_ st.suffix d.tab
  free : ∀ k, ¬ (2 ^ cr + 2 ≤ k ∧ k < 2 ^ cr + 2 + d.tab.length) →
    st.prefix_ k = LZ.no_such_code

/-- Ranges of the decoder logic: the table is well formed, `last` is a code of the
table once a code has been read, and the count of codes follows the table. -/
structure ADecInv (cr : Nat) (d : ADec) : Prop where
  wf : DWf cr d.tab
  fresh : d.last = LZ.no_such_code → d.tab = [] ∧ d.run_code = 2 ^ cr + 2
  going : d.last ≠ LZ.no_such_code →
    VCode cr d.tab d.last ∧ d.run_code = 2 ^ cr + 2 + d.tab.length + 1
  size : d.run_code ≤ 4096
  bits : d.run_bits ≤ 12

/-- The stack of the decoder holds the pixels `u`, the next one to pop first. -/
def StackIs (st : LZDecoder) (u : List Nat) : Prop :=
  st.stack_ptr = u.length ∧ ∀ i, i < u.length → st.stack i = u.reverse.getD i 0

/-- The members of the decoder other than the stack and its pointer. -/
def LZDecoder.unstack (st : LZDecoder) :
    GifIO × (Nat × Nat × Nat × Nat × Nat × Nat × Nat × Nat × Nat × Nat) ×
      (Nat → Nat) × (Nat → Nat) × (Nat → Nat) :=
  (st.f, (st.col_res, st.clear_code, st.eof_code, st.run_code, st.run_bits, st.max_code,
    st.last_code, st.crnt_shift_state, st.crnt_shift_dword, st.pix_count),
    st.buf, st.suffix, st.prefix_)

/-- The members of the decoder that face the stream, and the pixel count. -/
def LZDecoder.wire (st : LZDecoder) : GifIO × (Nat → Nat) × Nat × Nat × Nat :=
  (st.f, st.buf, st.crnt_shift_state, st.crnt_shift_dword, st.pix_count)

/-- State of the decoder between two calls of `getLine`: the pixels `u` wait on the
stack and the codes ahead in the stream decode to the pixels after them. -/
def DecCfg (cr : Nat) (st : LZDecoder) (px tail : List Nat) : Prop :=
  ∃ (d : ADec) (u : List Nat) (cw extra : List (Nat × Nat)) (d1 : ADec) (out : List Nat),
    DecSim cr st d ∧ ADecInv cr d ∧ StackIs st u ∧ (∀ x ∈ u, x < 2 ^ cr) ∧ u.length ≤ 4095 ∧
    DStream st (cw ++ extra) tail ∧ (∀ e ∈ cw, 0 < e.2) ∧
    ADec.run cr d cw = some (d1, out) ∧ px = u ++ out

/-- A sequence of `getLine` calls for lines of the lengths given, each length passed
as an `int`; it ends at the first call that fails.  The state, the lines read and
whether all calls succeeded. -/
def LZDecoder.getLines : List Nat → LZDecoder → Option (LZDecoder × List (List Nat) × Bool)
  | [], st => some (st, [], true)
  | k :: rest, st =>
    match st.getLine (toInt32 k) with
    | none => none
    | some r =>
      if !r.2.2 then some (r.1, [r.2.1], false)
      else
        match LZDecoder.getLines rest r.1 with
        | none => none
        | some r2 => some (r2.1, r.2.1 :: r2.2.1, r2.2.2)

/-- The pixels `px` cut into lines of the lengths `ks`. -/
def cut_lines : List Nat → List Nat → List (List Nat)
  | [], _ => []
  | k :: ks, px => px.take k :: cut_lines ks (px.drop k)

/-! ### Rows of a pixel buffer -/

/-- Row `j` of a buffer of rows of `w` pixels. -/
def row (b : List Nat) (w j : Nat) : List Nat := (b.drop (j * w)).take w

/-- The buffer with `line` in the place of row `j`. -/
def set_row (b : List Nat) (w j : Nat) (line : List Nat) : List Nat :=
  b.take (j * w) ++ line ++ b.drop (j * w + w)

/-! ### Containers of the data model -/

/-- A palette of the data model: a colour resolution of 1 to 8 bits and exactly
`2 ^ r` entries. -/
def ColorMap.Valid (m : ColorMap) : Prop := 1 ≤ m.r ∧ m.r ≤ 8 ∧ m.c.length = 2 ^ m.r

/-- An extension of the data model: an 8 bit function code and chunks of 1 to 255
bytes. -/
def Extension.Valid (e : Extension) : Prop :=
  e.fn < 256 ∧ ∀ ch ∈ e.list, 1 ≤ ch.length ∧ ch.length ≤ 255

/-- A frame of the data model next to the global palette `gcm`: a rect of 16 bit
members, of non-zero width and height, a buffer of area bytes, extensions and a
local palette of the data model, and a palette to resolve. -/
def Image.Valid (img : Image) (gcm : Option ColorMap) : Prop :=
  img.rect.p.x_val < 65536 ∧ img.rect.p.y_val < 65536 ∧
    img.rect.s.wd < 65536 ∧ img.rect.s.ht < 65536 ∧
    0 < img.rect.s.wd ∧ 0 < img.rect.s.ht ∧
    img.b.length = img.rect.s.wd * img.rect.s.ht ∧
    (∀ e ∈ img.exts, e.Valid) ∧ (∀ c, img.cm = some c → c.Valid) ∧
    (img.cm = none → gcm ≠ none)

/-- A container of the data model: a 16 bit screen size, and a global palette,
frames and trailing extensions of the data model. -/
def Gif.Valid (g : Gif) : Prop :=
  g.sz.wd < 65536 ∧ g.sz.ht < 65536 ∧ (∀ c, g.cm = some c → c.Valid) ∧
    (∀ i ∈ g.imgs, i.Valid g.cm) ∧ ∀ e ∈ g.exs, e.Valid

/-- The palette that a frame resolves: the local one if present, else the global
one. -/
def resolved_cm (local_cm global_cm : Option ColorMap) : Option ColorMap :=
  match local_cm with
  | some c => some c
  | none => global_cm

/-- The frame with every pixel masked to the `cr` low bits. -/
def Image.masked (img : Image) (cr : Nat) : Image :=
  { img with b := img.b.map (fun x => x &&& (2 ^ cr - 1)) }

/-! ### Sample containers -/

/-- A container with one frame of 1 x 1 pixels, a global palette of two colours
(colour resolution 1), background index 0, no local palette and no extensions. -/
def one_pixel_gif (s : Size) (p : Point) (il : Bool) (c0 c1 : RGB) (px : Nat) : Gif :=
  { sz := s, bg := 0,
    imgs := [{ interlace := il, exts := [], rect := ⟨p, ⟨1, 1⟩⟩, b := [px], cm := none }],
    exs := [],
    cm := some { r := 1, c := [c0, c1] } }

/-- A container with a global palette of two colours and a local palette of four:
a plain frame with a graphics extension, an interlaced frame with the local palette
and a trailing comment extension. -/
def sample_anim : Gif :=
  { sz := ⟨4, 2⟩, bg := 1,
    imgs :=
      [{ interlace := false, exts := [{ fn := 0xf9, list := [[4, 10, 0, 0]] }],
         rect := ⟨⟨0, 0⟩, ⟨2, 2⟩⟩, b := [0, 1, 1, 0], cm := none },
       { interlace := true, exts := [], rect := ⟨⟨2, 0⟩, ⟨2, 2⟩⟩, b := [3, 2, 1, 0],
         cm := some { r := 2, c := [⟨0, 0, 0⟩, ⟨255, 0, 0⟩, ⟨0, 255, 0⟩, ⟨0, 0, 255⟩] } }],
    exs := [{ fn := 0xfe, list := [[72, 105]] }],
    cm := some { r := 1, c := [⟨0, 0, 0⟩, ⟨255, 255, 255⟩] } }

/-- A container with a global palette of two colours whose frame of 2 x 2 pixels
holds bytes above 1. -/
def sample_wide : Gif :=
  { sz := ⟨2, 2⟩, bg := 0,
    imgs := [{ interlace := false, exts := [], rect := ⟨⟨0, 0⟩, ⟨2, 2⟩⟩, b := [0, 1, 7, 255],
               cm := none }],
    exs := [],
    cm := some { r := 1, c := [⟨0, 0, 0⟩, ⟨255, 255, 255⟩] } }

/-- A frame of 65535 x 32769 pixels, which is `2 ^ 31 + 32767` pixels, without
interlace, every pixel 0. -/
def big_frame : Image :=
  { interlace := false, exts := [], rect := ⟨⟨0, 0⟩, ⟨65535, 32769⟩⟩,
    b := List.replicate (65535 * 32769) 0, cm := none }

/-- A container with a global palette of two colours whose only frame is
`big_frame`. -/
def big_gif : Gif :=
  { sz := ⟨65535, 32769⟩, bg := 0, imgs := [big_frame], exs := [],
    cm := some { r := 1, c := [⟨0, 0, 0⟩, ⟨255, 255, 255⟩] } }

/-- The container of one pixel with the pixel byte 3, outside the range of its
palette of two colours. -/
def one_bit_gif : Gif := one_pixel_gif ⟨1, 1⟩ ⟨0, 0⟩ false ⟨0, 0, 0⟩ ⟨255, 255, 255⟩ 3

/-- A graphics extension whose only chunk is empty. -/
def empty_chunk_ext : Extension := { fn := 0xf9, list := [[]] }

/-- A palette of two colours: colour resolution 1. -/
def two_colours : ColorMap := { r := 1, c := [⟨0, 0, 0⟩, ⟨255, 255, 255⟩] }

/-- A frame of one pixel of value 0 without local palette. -/
def one_pixel_frame : Image :=
  { interlace := false, exts := [], rect := ⟨⟨0, 0⟩, ⟨1, 1⟩⟩, b := [0], cm := none }

/-- The flags byte of the screen descriptor as the specification words it:
(0x80 if a global palette is present, else 0) | ((res - 1) << 4) | (res - 1), where
`res` is the colour resolution of the global palette. -/
def spec_scr_flags (cm : Option ColorMap) : Nat :=
  match cm with
  | some c => 0x80 ||| ((c.r - 1) <<< 4) ||| (c.r - 1)
  | none => 0

/-! ### Sinks of more capacity -/

/-- The device with the bytes `pad` of capacity added at the end of the buffer. -/
def MemDevice.grow (dev : MemDevice) (pad : List Nat) : MemDevice :=
  { dev with d := dev.d ++ pad }

/-- The session over the device with more capacity. -/
def GifIO.grow (io : GifIO) (pad : List Nat) : GifIO := { io with d := io.d.grow pad }

/-- The encoder over the session with more capacity. -/
def LZEncoder.grow (st : LZEncoder) (pad : List Nat) : LZEncoder :=
  { st with f := st.f.grow pad }

/-- The session `io1` is a later state of the sink of `io`: the capacity is the same
and the position has not moved back. -/
def GifIO.Later (io io1 : GifIO) : Prop :=
  io1.d.d.length = io.d.d.length ∧ io.d.p ≤ io1.d.p

end gif

namespace gif

/-! ### Sequences of insertions into the hash table -/

/-- The table after `insert(key, code)` for the pairs of a list, the first pair
first; `none` where an insertion does not return. -/
def HashTable.inserts : List (Nat × Nat) → HashTable → Option HashTable
  | [], h => some h
  | e :: rest, h =>
    match h.insert e.1 e.2 with
    | none => none
    | some h1 => HashTable.inserts rest h1

/-! ### The records of a stream -/

/-- A record of a stream between the screen descriptor and the terminator: an
extension record as `Extension::load` reads it, or an image record as `Image::load`
reads it. -/
inductive Rec
  | ext (e : Extension)
  | img (i : Image)

/-- The record at the cursor of the session, as the tag reader and the `load` of its
object read it, and the session after it; `some (none, io)` at the terminator tag,
`none` where a read fails. -/
def next_record (io : GifIO) : Option (Option Rec × GifIO) :=
  let r := io.read_record
  if !r.2.2 then none
  else
    match r.2.1 with
    | GifRecordType.image_desc =>
      match Image.new.load r.1 with
      | none => none
      | some ri => if !ri.2.2 then none else some (some (Rec.img ri.1), ri.2.1)
    | GifRecordType.extension =>
      match Extension.new.load r.1 with
      | none => none
      | some re => if !re.2.2 then none else some (some (Rec.ext re.1), re.2.1)
    | GifRecordType.terminate => some (none, r.1)
    | _ => none

/-- The records that stand in the stream from the cursor of the session up to the
terminator tag, in stream order, and the session after the terminator tag; `none`
where a read fails. -/
def stream_records : Nat → GifIO → Option (List Rec × GifIO)
  | 0, _ => none
  | fuel + 1, io =>
    match next_record io with
    | none => none
    | some q =>
      match q.1 with
      | none => some ([], q.2)
      | some r =>
        match stream_records fuel q.2 with
        | none => none
        | some q2 => some (r :: q2.1, q2.2)

/-- The frames of a sequence of records: each image record with the extension
records that stand between the image record before it (or the start, where the
extensions `pend` are pending) and itself, in stream order. -/
def frames_of : List Rec → List Extension → List Image
  | [], _ => []
  | Rec.ext e :: rest, pend => frames_of rest (pend ++ [e])
  | Rec.img i :: rest, pend => { i with exts := pend } :: frames_of rest []

/-- The extension records that stand after the last image record of a sequence of
records, in stream order. -/
def trailing_of : List Rec → List Extension → List Extension
  | [], pend => pend
  | Rec.ext e :: rest, pend => trailing_of rest (pend ++ [e])
  | Rec.img _ :: rest, _ => trailing_of rest []

/-! ### The end of the LZW data -/

/-- The bytes after the zero length sub-block that ends a chain of sub-blocks; the
first argument bounds the number of sub-blocks.  `none` where the bytes end before
the zero length sub-block. -/
def lzw_end_aux : Nat → List Nat → Option (List Nat)
  | 0, _ => none
  | _ + 1, [] => none
  | n + 1, b :: rest =>
    if b = 0 then some rest
    else if b ≤ rest.length then lzw_end_aux n (rest.drop b) else none

/-- The bytes that follow the LZW data at the head of `l`: sub-blocks of a length
byte above 0 and that many bytes, up to and including the first zero length
sub-block. -/
def lzw_end (l : List Nat) : Option (List Nat) := lzw_end_aux l.length l

/-- The stream: header, screen 1 x 1, no global palette, and the terminator. -/
def empty_gif_stream : List Nat :=
  [0x47, 0x49, 0x46, 0x38, 0x39, 0x61, 1, 0, 1, 0, 0, 0, 0, 0x3b]

/-- A container that holds a trailing delay mark and no frame. -/
def gif_with_trailer : Gif :=
  { sz := ⟨1, 1⟩, bg := 0, imgs := [], exs := [create_delay_mark 10], cm := none }

/-- The bytes of a frame after the tag 0x2c: rect (0, 0, 1, 1), no flags, code size
2, the LZW data of the single pixel 0, and the terminator of the stream. -/
def frame_one_pixel : List Nat :=
  [0, 0, 0, 0, 1, 0, 1, 0, 0x00, 2, 2, 0x44, 0x01, 0, 0x3b]

/-- A global palette of two colours. -/
def sample_palette : ColorMap := { r := 1, c := [⟨0, 0, 0⟩, ⟨255, 255, 255⟩] }

/-- The bytes of an interlaced frame of 5 x 0 pixels after the tag 0x2c, with LZW
data of one zero length sub-block, and the terminator of the stream. -/
def frame_no_rows : List Nat :=
  [0, 0, 0, 0, 5, 0, 0, 0, 0x40, 2, 0, 0x3b]

/-- The bytes of an interlaced frame of 0 x 2 pixels after the tag 0x2c, with LZW
data of one zero length sub-block; the bytes 1, 7, 0 and the terminator follow. -/
def frame_no_columns : List Nat :=
  [0, 0, 0, 0, 0, 0, 2, 0, 0x40, 2, 0, 1, 7, 0, 0x3b]

/-- The bytes of a frame of 1 x 1 pixels after the tag 0x2c with the code size byte
12, and the terminator of the stream. -/
def frame_wide_code : List Nat :=
  [0, 0, 0, 0, 1, 0, 1, 0, 0x00, 12, 2, 0x44, 0x01, 0, 0x3b]

/-- A decoder after the constructor for code size 2 whose array `prefix` holds the
code 300 at every index: the prefix chain of every code above the clear code never
ends. -/
def cyclic_decoder : LZDecoder :=
  { LZDecoder.new ( GifIO.mk_dev (MemDevice.open_for_read [])) 1 2 with
    prefix_ := fun _ => 300 }

/-! ### The calls of `encode` that pack a code

The lists below hold, in the order of the calls, the state of the encoder at each
call of `encode` with a code other than `flush_output`, and the code passed. -/

/-- The call `encode(clear_code)` of the constructor: the state is the one of the
member initialisers. -/
def LZEncoder.new_call (file : GifIO) (pixel_count color_res : Nat) : LZEncoder × Nat :=
  ({ f := file,
     col_res := color_res,
     clear_code := 2 ^ color_res,
     eof_code := 2 ^ color_res + 1,
     run_code := 2 ^ color_res + 2,
     run_bits := color_res + 1,
     max_code := 2 ^ (color_res + 1),
     crnt_code := LZ.first_code,
     crnt_shift_state := 0,
     crnt_shift_dword := 0,
     pix_count := pixel_count,
     buf := fun _ => 0,
     ht := HashTable.clear }, 2 ^ color_res)

/-- The calls of the body of the pixel loop of `encode_line`: none when the hash
table holds the pair; else `encode(code)` and, when that call succeeds and
`run_code` has reached `LZ::max_code`, `encode(clear_code)`. -/
def LZEncoder.pixel_calls (st : LZEncoder) (code pixel : Nat) : List (LZEncoder × Nat) :=
  match st.ht.get ((code <<< 8) + pixel) with
  | some none =>
    let r := st.encode code
    if !r.2 then [(st, code)]
    else if r.1.run_code ≥ LZ.max_code then [(st, code), (r.1, r.1.clear_code)]
    else [(st, code)]
  | _ => []

/-- The calls of the pixel loop of `encode_line`. -/
def LZEncoder.loop_calls : List Nat → LZEncoder → Nat → List (LZEncoder × Nat)
  | [], _, _ => []
  | pixel :: rest, st, code =>
    st.pixel_calls code pixel ++
      match st.encode_pixel code pixel with
      | none => []
      | some r => if !r.2.2 then [] else LZEncoder.loop_calls rest r.1 r.2.1

/-- The calls of the block `if (pix_count == 0)` of `encode_line` that pack a code:
`encode(code)` and, when that call succeeds, `encode(eof_code)`. -/
def LZEncoder.finish_calls (st : LZEncoder) (code : Nat) : List (LZEncoder × Nat) :=
  let r1 := st.encode code
  if !r1.2 then [(st, code)] else [(st, code), (r1.1, r1.1.eof_code)]

/-- The calls of `encode_line`. -/
def LZEncoder.line_calls (st : LZEncoder) (line : List Nat) : List (LZEncoder × Nat) :=
  let start := LZEncoder.line_start st.crnt_code line
  LZEncoder.loop_calls start.2 st start.1 ++
    match LZEncoder.encode_loop start.2 st start.1 with
    | none => []
    | some (st1, code, ok) =>
      if !ok then []
      else
        let st2 : LZEncoder := { st1 with crnt_code := code }
        if st2.pix_count = 0 then st2.finish_calls code else []

/-- The calls of `put_line`. -/
def LZEncoder.put_line_calls (st : LZEncoder) (line : List Nat) : List (LZEncoder × Nat) :=
  if st.pix_count < line.length then []
  else
    let st1 : LZEncoder := { st with pix_count := st.pix_count - line.length }
    let mask := LZEncoder.code_mask.getD st.col_res 0
    st1.line_calls (line.map (fun b => b &&& mask))

/-- The calls of a sequence of `put_line` calls that ends at the first call that
fails. -/
def LZEncoder.put_lines_calls : List (List Nat) → LZEncoder → List (LZEncoder × Nat)
  | [], _ => []
  | line :: rest, st =>
    st.put_line_calls line ++
      match st.put_line line with
      | none => []
      | some r => if !r.2.2 then [] else LZEncoder.put_lines_calls rest r.1

/-- The packing part of `encode`: the statements before the width is looked at. -/
def LZEncoder.encode_pack (st : LZEncoder) (code : Nat) : LZEncoder × Bool :=
  if code = LZ.flush_output then
    let r1 := LZEncoder.flush_loop st.crnt_shift_state st true
    let st1 : LZEncoder := { r1.1 with crnt_shift_state := 0 }
    let r2 := st1.write_buf LZ.flush_output
    (r2.1, if !r2.2 then false else r1.2)
  else
    let st1 : LZEncoder :=
      { st with crnt_shift_dword := st.crnt_shift_dword ||| (code <<< st.crnt_shift_state),
                crnt_shift_state := st.crnt_shift_state + st.run_bits }
    LZEncoder.pack_loop st1.crnt_shift_state st1 true

/-- Widths and counts of the encoder for the colour resolution `cr` between two
calls: the width is `cr + 1` to 12 bits, `max_code` is two to the width, `run_code`
is at most 4095 and at most `max_code`, and the hash table holds one entry for each
code from `2 ^ cr + 2` up to `run_code`. -/
structure LZEncoder.CodeInv (cr : Nat) (st : LZEncoder) : Prop where
  col_res : st.col_res = cr
  clear_code : st.clear_code = 2 ^ cr
  eof_code : st.eof_code = 2 ^ cr + 1
  bits_lo : cr + 1 ≤ st.run_bits
  bits_hi : st.run_bits ≤ 12
  pow : st.max_code = 2 ^ st.run_bits
  code_lo : 2 ^ cr + 2 ≤ st.run_code
  code_hi : st.run_code ≤ 4095
  fit : st.run_code ≤ st.max_code
  table : ∃ m, HTRep st.ht.table m ∧ m.length + (2 ^ cr + 2) = st.run_code ∧
    ∀ e ∈ m, e.2 < st.run_code

end gif

namespace gif

/-- A call of `encode` at a state in range with a code below two to the width in
force. -/
def CallOk (cr : Nat) (sc : LZEncoder × Nat) : Prop :=
  sc.1.CodeInv cr ∧ sc.2 < 2 ^ sc.1.run_bits

/-- An encoder for colour resolution 2 over a sink of 16 bytes with `run_code` at
4095, the width at 12 bits and `max_code` at 4096, as after 4089 registrations; the
hash table is empty. -/
def encoder_at_4095 : LZEncoder :=
  { LZEncoder.new ( GifIO.mk_dev (MemDevice.open_for_write (List.replicate 16 0))) 4 2 with
    run_code := 4095, run_bits := 12, max_code := 4096 }

/-- The entries (key, code) for the codes 6 to 4094, the key of the code `6 + i`
being `i`. -/
def entries_to_4095 : List (Nat × Nat) := (List.range 4089).map fun i => (i, 6 + i)

/-- The bits that the bytes `out` handed to the session, the staging block and the
shift register of the packer `p` hold begin with the clear code `2 ^ cr` at the width
`cr + 1`. -/
def HeadOk (cr : Nat) (out : List Nat) (p : Packer) : Prop :=
  ∃ data, PkB out p.stg data ∧ cr + 1 ≤ 8 * data.length + p.nbits ∧
    (le_val data + 2 ^ (8 * data.length) * p.dword) % 2 ^ (cr + 1) = 2 ^ cr

/-- The bytes are what the encoder logic has sent up to a state in step with the
pixels `px`, whose stream begins with the clear code, followed by the bytes of the
end of the last `encode_line` from that state. -/
def FinStream (cr : Nat) (bytes px : List Nat) : Prop :=
  ∃ out1 a1 code, bytes = out1 ++ (AEnc.finish cr a1 code).1 ∧ EncTr cr out1 a1 code px ∧
    HeadOk cr out1 a1.pk

end gif

namespace gif

/-! ### The calls of the hash table

The lists below hold, in the order of the calls, the hash table at each call of
`get` and `insert` by `encode_line`, the key passed, and for `insert` the code
passed (`none` for a call of `get`). -/

/-- The calls of the body of the pixel loop of `encode_line`: `get(new_key)` and,
when the key is not found, `encode(code)` succeeds and `run_code` is below
`LZ::max_code`, `insert(new_key, run_code)`. -/
def LZEncoder.pixel_ht_calls (st : LZEncoder) (code pixel : Nat) :
    List (HashTable × Nat × Option Nat) :=
  (st.ht, (code <<< 8) + pixel, none) ::
    match st.ht.get ((code <<< 8) + pixel) with
    | some none =>
      let r := st.encode code
      if !r.2 then []
      else if r.1.run_code ≥ LZ.max_code then []
      else [(r.1.ht, (code <<< 8) + pixel, some r.1.run_code)]
    | _ => []

/-- The hash table calls of the pixel loop of `encode_line`. -/
def LZEncoder.loop_ht_calls :
    List Nat → LZEncoder → Nat → List (HashTable × Nat × Option Nat)
  | [], _, _ => []
  | pixel :: rest, st, code =>
    st.pixel_ht_calls code pixel ++
      match st.encode_pixel code pixel with
      | none => []
      | some r => if !r.2.2 then [] else LZEncoder.loop_ht_calls rest r.1 r.2.1

/-- The hash table calls of `encode_line`. -/
def LZEncoder.line_ht_calls (st : LZEncoder) (line : List Nat) :
    List (HashTable × Nat × Option Nat) :=
  let start := LZEncoder.line_start st.crnt_code line
  LZEncoder.loop_ht_calls start.2 st start.1

/-- The hash table calls of `put_line`. -/
def LZEncoder.put_line_ht_calls (st : LZEncoder) (line : List Nat) :
    List (HashTable × Nat × Option Nat) :=
  if st.pix_count < line.length then []
  else
    let st1 : LZEncoder := { st with pix_count := st.pix_count - line.length }
    let mask := LZEncoder.code_mask.getD st.col_res 0
    st1.line_ht_calls (line.map (fun b => b &&& mask))

/-- The hash table calls of a sequence of `put_line` calls that ends at the first
call that fails. -/
def LZEncoder.put_lines_ht_calls :
    List (List Nat) → LZEncoder → List (HashTable × Nat × Option Nat)
  | [], _ => []
  | line :: rest, st =>
    st.put_line_ht_calls line ++
      match st.put_line line with
      | none => []
      | some r => if !r.2.2 then [] else LZEncoder.put_lines_ht_calls rest r.1

/-- The table holds at most `4095 - (2 ^ cr + 2)` entries, each with a code of at
most 4094, and has an empty slot. -/
def HtFits (cr : Nat) (h : HashTable) : Prop :=
  (∃ m, HTRep h.table m ∧ m.length ≤ 4095 - (2 ^ cr + 2) ∧ ∀ e ∈ m, e.2 ≤ 4094) ∧
    ∃ i, i < 8192 ∧ HashTable.get_key (h.table i) = 0xFFFFF

/-- A call of the hash table in range: the key is below the mark 0xFFFFF of an empty
slot, the table fits, the probe of `get` for the key ends, and for a call of `insert`
the code is at most 4094, the probe ends and the table fits after it. -/
def HtOk (cr : Nat) (c : HashTable × Nat × Option Nat) : Prop :=
  c.2.1 < 0xFFFFF ∧ HtFits cr c.1 ∧ (∃ v, c.1.get c.2.1 = some v) ∧
    ∀ code, c.2.2 = some code →
      code ≤ 4094 ∧ ∃ h1, c.1.insert c.2.1 code = some h1 ∧ HtFits cr h1

/-! ### The encoder logic between two lines -/

/-- The logic state with the members `crnt_code` and `pix_count` set, which the pixel
loop neither reads nor writes. -/
def AEnc.with_line (a : AEnc) (c p : Nat) : AEnc := { a with crnt_code := c, pix_count := p }

/-- The bytes that the encoder logic sends from the state `a` with the pending code
`code` for the pixels `px` that are left, up to the end of the data: the pixel
loop, the pending code, the end code and the flush. -/
def AEnc.rest_bytes (cr : Nat) (a : AEnc) (code : Nat) (px : List Nat) : List Nat :=
  (AEnc.loop cr px a code).1 ++
    (AEnc.finish cr (AEnc.loop cr px a code).2.1 (AEnc.loop cr px a code).2.2).1

/-- The LZW data of the pixels `px` for the colour resolution `cr` and the pixel
count `n`, as the encoder logic sends it when all pixels come in one line. -/
def AEnc.data_bytes (cr n : Nat) (px : List Nat) : List Nat :=
  (AEnc.init cr n).1 ++ AEnc.rest_bytes cr (AEnc.init cr n).2 (px.headD 0) px.tail

end gif

namespace gif

/-! ### The decoder on arbitrary input -/

/-- The members of the decoder that the expansion of a code leaves alone: the
device, the sub-block buffer, the shift register, the width and the counts. -/
def LZDecoder.input (st : LZDecoder) :
    MemDevice × (Nat → Nat) × Nat × Nat × Nat × Nat × Nat × Nat × Nat × Nat × Nat :=
  (st.f.d, st.buf, st.crnt_shift_state, st.crnt_shift_dword, st.run_bits, st.run_code,
    st.max_code, st.col_res, st.clear_code, st.eof_code, st.pix_count)

/-- The bits of input that the decoder has not consumed: those of the shift
register, of the rest of the current sub-block and of the bytes left on the device. -/
def LZDecoder.bits_left (st : LZDecoder) : Nat :=
  st.crnt_shift_state + 8 * st.buf 0 + 8 * st.f.d.bytesLeft

/-- Ranges of the decoder over a device that holds bytes: the count `buf[0]` is a
byte, the shift register holds at most 19 bits and the width is at least 1. -/
structure LZDecoder.Fit (st : LZDecoder) : Prop where
  bytes : ∀ b ∈ st.f.d.d, b < 256
  buf0 : st.buf 0 ≤ 255
  shift : st.crnt_shift_state ≤ 19
  bits : 1 ≤ st.run_bits

/-- Ranges of the codes of the decoder: `run_code` from 2 to `LZ::max_code + 2`,
`eof_code` from 1 to `LZ::max_code`. -/
structure LZDecoder.CodeFit (st : LZDecoder) : Prop where
  code_lo : 2 ≤ st.run_code
  code_hi : st.run_code ≤ 4097
  eof_lo : 1 ≤ st.eof_code
  eof_hi : st.eof_code ≤ 4095

/-- The session `io1` is a later state of the source of `io`: the same bytes and a
position that has not moved back. -/
def GifIO.Ahead (io io1 : GifIO) : Prop := io1.d.d = io.d.d ∧ io.d.p ≤ io1.d.p

/-- An access to an array of the decoder: the array and the index, as an `int`; for
the output line also the length `line_len`. -/
inductive Access
  | prefix_ (i : Int)
  | suffix (i : Int)
  | stack (i : Int)
  | code_masks (i : Int)
  | line (i : Int) (len : Int)
  deriving DecidableEq, Repr

/-- The index is one of the array: `prefix` and `suffix` have `LZ::max_code + 1`
entries, `stack` has `LZ::max_code`, `code_masks` has 13, the line has `len`. -/
def Access.InRange : Access → Prop
  | Access.prefix_ i => 0 ≤ i ∧ i ≤ 4095
  | Access.suffix i => 0 ≤ i ∧ i ≤ 4095
  | Access.stack i => 0 ≤ i ∧ i ≤ 4094
  | Access.code_masks i => 0 ≤ i ∧ i ≤ 12
  | Access.line i len => 0 ≤ i ∧ i < len

/-- The accesses of `clear_prefix`. -/
def LZDecoder.clear_prefix_acc : List Access :=
  (List.range (LZ.max_code + 1)).map fun (i : Nat) => Access.prefix_ (i : Int)

/-- The access of `decode` to `code_masks`, made once the bits are there. -/
def LZDecoder.decode_acc (st : LZDecoder) : List Access :=
  if st.run_bits > LZ.bits then []
  else
    let r := LZDecoder.fill_loop st.run_bits st
    if !r.2 then [] else [Access.code_masks r.1.run_bits]

/-- The accesses of the loop of `prefix_char`. -/
def LZDecoder.prefix_char_acc : Nat → (Nat → Nat) → Nat → Nat → List Access
  | 0, _, _, _ => []
  | n + 1, pfx, code, clear_code =>
    if code > clear_code then
      if code > LZ.max_code then []
      else Access.prefix_ code :: LZDecoder.prefix_char_acc n pfx (pfx code) clear_code
    else []

/-- The accesses of the loops `line[i++] = stack[--stack_ptr]` of `decode_line`. -/
def LZDecoder.pop_acc : Nat → LZDecoder → List Nat → Nat → List Access
  | 0, _, _, _ => []
  | n + 1, st, line, line_len =>
    if st.stack_ptr != 0 && line.length < line_len then
      Access.stack ((st.stack_ptr : Int) - 1) :: Access.line line.length line_len ::
        LZDecoder.pop_acc n { st with stack_ptr := st.stack_ptr - 1 }
          (line ++ [st.stack (st.stack_ptr - 1)]) line_len
    else []

/-- The accesses of the loop of `decode_line` that walks the prefix chain. -/
def LZDecoder.walk_acc : Nat → LZDecoder → Nat → List Access
  | 0, _, _ => []
  | n + 1, st, crnt =>
    if st.stack_ptr < LZ.max_code && crnt > st.clear_code && crnt ≤ LZ.max_code then
      Access.stack st.stack_ptr :: Access.suffix crnt :: Access.prefix_ crnt ::
        LZDecoder.walk_acc n
          { st with stack := fun i => if i = st.stack_ptr then st.suffix crnt else st.stack i,
                    stack_ptr := st.stack_ptr + 1 }
          (st.prefix_ crnt)
    else []

/-- The accesses of the table update at the end of an iteration of `decode_line`:
`prefix[run_code - 2]` is read when `last_code` is a code, and when it holds no
code it is written, `prefix_char` runs and `suffix[run_code - 2]` is written. -/
def LZDecoder.add_entry_acc (st : LZDecoder) (crnt_code : Nat) : List Access :=
  if st.last_code != LZ.no_such_code then
    Access.prefix_ ((st.run_code : Int) - 2) ::
      if st.prefix_ (st.run_code - 2) = LZ.no_such_code then
        let pfx : Nat → Nat := fun i => if i = st.run_code - 2 then st.last_code else st.prefix_ i
        Access.prefix_ ((st.run_code : Int) - 2) ::
          (LZDecoder.prefix_char_acc (LZ.max_code + 1) pfx
              (if crnt_code = st.run_code - 2 then st.last_code else crnt_code) st.clear_code ++
            [Access.suffix ((st.run_code : Int) - 2)])
      else []
  else []

/-- The accesses of the body of the main loop of `decode_line` after a successful
`decode` of a code that is neither `eof_code` nor `clear_code`. -/
def LZDecoder.expand_acc (st0 : LZDecoder) (crnt_code : Nat) (line : List Nat)
    (line_len : Nat) : List Access :=
  if crnt_code < st0.clear_code then
    Access.line line.length line_len :: st0.add_entry_acc crnt_code
  else
    let known := st0.prefix_ crnt_code != LZ.no_such_code
    Access.prefix_ crnt_code ::
      if !known && crnt_code != st0.run_code - 2 then []
      else
        let c := LZDecoder.prefix_char st0.prefix_ st0.last_code st0.clear_code % 256
        let st1 : LZDecoder :=
          if known then st0
          else
            { st0 with
                stack := fun i => if i = st0.stack_ptr then c else st0.stack i,
                stack_ptr := st0.stack_ptr + 1,
                suffix := fun i => if i = st0.run_code - 2 then c else st0.suffix i }
        let first : List Access :=
          if known then []
          else
            LZDecoder.prefix_char_acc (LZ.max_code + 1) st0.prefix_ st0.last_code
                st0.clear_code ++
              [Access.stack st0.stack_ptr, Access.suffix ((st0.run_code : Int) - 2)]
        let w := LZDecoder.walk_loop LZ.max_code st1 (if known then crnt_code else st0.last_code)
        first ++
          LZDecoder.walk_acc LZ.max_code st1 (if known then crnt_code else st0.last_code) ++
          if w.1.stack_ptr ≥ LZ.max_code || w.2 > LZ.max_code then []
          else
            let st2 : LZDecoder :=
              { w.1 with stack := fun i => if i = w.1.stack_ptr then w.2 % 256 else w.1.stack i,
                         stack_ptr := w.1.stack_ptr + 1 }
            let q := LZDecoder.pop_loop st2.stack_ptr st2 line line_len
            Access.stack w.1.stack_ptr ::
              (LZDecoder.pop_acc st2.stack_ptr st2 line line_len ++ q.1.add_entry_acc crnt_code)

/-- The accesses of one iteration of the main loop of `decode_line`. -/
def LZDecoder.decode_step_acc (st : LZDecoder) (line : List Nat) (line_len : Nat) :
    List Access :=
  let r := st.decode
  st.decode_acc ++
    if !r.2.2 then []
    else if r.2.1 = r.1.eof_code then []
    else if r.2.1 = r.1.clear_code then LZDecoder.clear_prefix_acc
    else r.1.expand_acc r.2.1 line line_len

/-- The accesses of the main loop of `decode_line`. -/
def LZDecoder.decode_loop_acc : Nat → LZDecoder → List Nat → Nat → List Access
  | 0, _, _, _ => []
  | fuel + 1, st, line, line_len =>
    if line.length < line_len then
      st.decode_step_acc line line_len ++
        let r := st.decode_step line line_len
        if !r.2.2 then [] else LZDecoder.decode_loop_acc fuel r.1 r.2.1 line_len
    else []

/-- The accesses of `decode_line`. -/
def LZDecoder.decode_line_acc (fuel : Nat) (st : LZDecoder) (line_len : Nat) : List Access :=
  if st.stack_ptr > LZ.max_code then []
  else
    let q := LZDecoder.pop_loop st.stack_ptr st [] line_len
    LZDecoder.pop_acc st.stack_ptr st [] line_len ++
      LZDecoder.decode_loop_acc fuel q.1 q.2 line_len

/-- The accesses of `getLine`. -/
def LZDecoder.getLine_acc (st : LZDecoder) (lineLen : Int) : List Access :=
  let pc : Nat := (((st.pix_count : Int) - lineLen) % 2 ^ 64).toNat
  let st1 : LZDecoder := { st with pix_count := pc }
  if pc > 0xffff0000 then []
  else LZDecoder.decode_line_acc (8 * (st1.f.d.bytesLeft + 256) + 32) st1 lineLen.toNat

/-- The accesses of a sequence of `getLine` calls, whatever the calls return. -/
def LZDecoder.getLines_acc : List Int → LZDecoder → List Access
  | [], _ => []
  | len :: rest, st =>
    st.getLine_acc len ++
      match st.getLine len with
      | none => []
      | some r => LZDecoder.getLines_acc rest r.1

/-- A sequence of `getLine` calls, whatever the calls return: the decoder after
the last one. -/
def LZDecoder.getLines_all : List Int → LZDecoder → Option LZDecoder
  | [], st => some st
  | len :: rest, st =>
    match st.getLine len with
    | none => none
    | some r => LZDecoder.getLines_all rest r.1

end gif

/-!
# The snake game of the repository

The definitions below follow `src/game.h` and `src/game.cpp`.  An `int` that holds a
cell or a coordinate is an integer; the count `sz` of the snake, which indexes the
vector `cs`, is a natural number.  The operators `/` and `%` of C++ round towards
zero (`Int.tdiv`, `Int.tmod`).  The statements below are about fields whose area
plus one is below `2 ^ 31`, where no `int` operation of the game overflows.  The
value that `dist(mt)` returns in `random_free_cell` is an argument of the model.
-/

namespace game

/-- `Size`. -/
structure Size where
  wd : Int
  ht : Int
  deriving DecidableEq, Repr

/-- `Size::width`. -/
def Size.width (s : Size) : Int := s.wd

/-- `Size::height`. -/
def Size.height (s : Size) : Int := s.ht

/-- `Size::area`. -/
def Size.area (s : Size) : Int := s.wd * s.ht

/-- `Dir`. -/
inductive Dir
  | Left
  | Right
  | Up
  | Down
  | Err
  deriving DecidableEq, Repr

/-- `Field`. -/
structure Field where
  sz : Size
  deriving DecidableEq, Repr

/-- `Field::can_move`. -/
def Field.can_move (f : Field) (cell : Int) (dir : Dir) : Bool :=
  match dir with
  | Dir.Left => decide (cell.tmod f.sz.width > 0)
  | Dir.Right => decide (cell.tmod f.sz.width < f.sz.width - 1)
  | Dir.Up => decide (cell > f.sz.width - 1)
  | Dir.Down => decide (cell < f.sz.area - f.sz.width)
  | Dir.Err => false

/-- `Field::x`. -/
def Field.x (f : Field) (cell : Int) : Int := cell.tmod f.sz.width

/-- `Field::y`. -/
def Field.y (f : Field) (cell : Int) : Int := cell.tdiv f.sz.width

/-- `Field::cell`. -/
def Field.cell (f : Field) (x y : Int) : Int := y * f.sz.width + x

/-- `Field::move_value`. -/
def Field.move_value (f : Field) (dir : Dir) : Int :=
  match dir with
  | Dir.Left => -1
  | Dir.Right => 1
  | Dir.Up => -f.sz.width
  | Dir.Down => f.sz.width
  | Dir.Err => 0

/-- `Snake`: the vector `cs`, the count `sz` and the field `f`. -/
structure Snake where
  cs : List Int
  sz : Nat
  f : Field
  deriving DecidableEq, Repr

/-- Constructor `Snake(field)`: a vector of `area + 1` zeros whose first three
entries become the cells `(3, y)`, `(2, y)`, `(1, y)` of the middle row. -/
def Snake.new (field : Field) : Snake :=
  let cs0 : List Int := List.replicate (field.sz.area + 1).toNat 0
  let y := field.sz.height.tdiv 2
  let cs1 := cs0.set 0 (field.cell (3 - 0) y)
  let cs2 := cs1.set 1 (field.cell (3 - 1) y)
  let cs3 := cs2.set 2 (field.cell (3 - 2) y)
  { cs := cs3, sz := 3, f := field }

/-- `Snake::contains`. -/
def Snake.contains (s : Snake) (cell : Int) (test_tail : Bool) : Bool :=
  let e := if test_tail then s.sz else s.sz - 1
  (List.range e).any fun i => s.cs.getD i 0 == cell

/-- `Snake::eats_itself`. -/
def Snake.eats_itself (s : Snake) : Bool :=
  ((List.range s.sz).drop 1).any fun i => s.cs.getD i 0 == s.cs.getD 0 0

/-- `Snake::tail`. -/
def Snake.tail (s : Snake) : Int := s.cs.getD (s.sz - 1) 0

/-- `Snake::head`. -/
def Snake.head (s : Snake) : Int := s.cs.getD 0 0

/-- `Snake::move`: `memmove` shifts the entries 0 to `sz - 1` up by one place, then
the move value is added to the entry 0. -/
def Snake.move (s : Snake) (dir : Dir) : Snake :=
  let cs1 := s.cs.take 1 ++ s.cs.take s.sz ++ s.cs.drop (s.sz + 1)
  { s with cs := cs1.set 0 (cs1.getD 0 0 + s.f.move_value dir) }

/-- `Snake::grow`. -/
def Snake.grow (s : Snake) : Snake :=
  if s.sz < s.cs.length then { s with sz := s.sz + 1 } else s

/-- `Game` without the random number engine `mt`. -/
structure Game where
  f : Field
  s : Snake
  cooky : Int
  scr : Int
  over : Bool
  deriving DecidableEq, Repr

/-- The loop `while (rnd > 0 || used)` of `random_free_cell`. -/
def Game.free_cell_loop (s : Snake) : Nat → Int → Int → Bool → Option Int
  | 0, _, _, _ => none
  | fuel + 1, rnd, res, used =>
    if rnd > 0 || used then
      Game.free_cell_loop s fuel (if !used then rnd - 1 else rnd) (res + 1)
        (s.contains (res + 1) true)
    else some res

/-- `Game::random_free_cell`; `rnd` is the value that `dist(mt)` returns, a number
from 0 to `area - size - 1`.  Every iteration of the loop either counts `rnd` down
or passes a cell of the snake, which bounds the iterations. -/
def Game.random_free_cell (g : Game) (rnd : Int) : Option Int :=
  Game.free_cell_loop g.s (g.s.sz + rnd.toNat + 1) rnd 0 (g.s.contains 0 true)

/-- `Game::new_cookie`. -/
def Game.new_cookie (g : Game) (rnd : Int) : Option Game :=
  match g.random_free_cell rnd with
  | none => none
  | some c => some { g with cooky := c }

/-- Constructor `Game(field_size)`; `rnd` is the draw of the first cookie. -/
def Game.new (field_size : Size) (rnd : Int) : Option Game :=
  let g : Game :=
    { f := { sz := field_size }, s := Snake.new { sz := field_size }, cooky := 0, scr := 0,
      over := false }
  g.new_cookie rnd

/-- `Game::move`; `rnd` is the draw for the next cookie, which the call uses when
the cookie is eaten and the snake does not fill the field.  Returns the game and the
value stored in `*cookie_eaten`, if one is stored. -/
def Game.move (g : Game) (dir : Dir) (rnd : Int) : Option (Game × Option Bool) :=
  if g.over then some (g, none)
  else if !g.f.can_move g.s.head dir ||
      g.s.contains (g.s.head + g.f.move_value dir) false then
    some ({ g with over := true }, none)
  else
    let s1 := g.s.move dir
    let eaten := s1.head == g.cooky
    if eaten then
      let g1 : Game := { g with s := s1.grow, scr := g.scr + 1 }
      if (g1.s.sz : Int) < g1.f.sz.area then
        match g1.new_cookie rnd with
        | none => none
        | some g2 => some (g2, some true)
      else some ({ g1 with over := true }, some true)
    else some ({ g with s := s1 }, some false)

/-- A sequence of `Game::move` calls, each with its direction and its draw. -/
def Game.play : List (Dir × Int) → Game → Option Game
  | [], g => some g
  | m :: rest, g =>
    match g.move m.1 m.2 with
    | none => none
    | some r => Game.play rest r.1

/-! ### Specification level definitions of the game -/

/-- The cells of the snake, head first. -/
def Snake.cells (s : Snake) : List Int := s.cs.take s.sz

/-- The cells of the field that the snake does not occupy, in increasing order. -/
def Game.free_cells (g : Game) : List Int :=
  ((List.range g.f.sz.area.toNat).map fun (c : Nat) => (c : Int)).filter
    fun c => !g.s.contains c true

/-- The draw `rnd` is one that `dist(mt)` can return when a move from the game `g`
draws a cookie: the snake has grown by one cell then. -/
def Game.DrawOk (g : Game) (rnd : Int) : Prop :=
  0 ≤ rnd ∧ ((g.s.sz : Int) + 1 < g.f.sz.area → rnd ≤ g.f.sz.area - (g.s.sz + 1) - 1)

/-- The draws of a sequence of moves can all be returned by `dist(mt)`. -/
def Game.DrawsOk : List (Dir × Int) → Game → Prop
  | [], _ => True
  | m :: rest, g =>
    g.DrawOk m.2 ∧
      match g.move m.1 m.2 with
      | none => True
      | some r => Game.DrawsOk rest r.1

/-- The invariant of the game: the field has a width and a height above 0, the
vector has `area + 1` entries, the snake is at most as long as the field is large, its cells are cells of the field and pairwise
distinct, the length is `3 + score`, and while the game is not over the snake
leaves a cell free and the cookie is a cell of the field that is not one of the
snake. -/
structure Game.Inv (g : Game) : Prop where
  field : g.s.f = g.f
  wd_pos : 0 < g.f.sz.wd
  ht_pos : 0 < g.f.sz.ht
  len : (g.s.cs.length : Int) = g.f.sz.area + 1
  size_lo : 3 ≤ g.s.sz
  size_hi : (g.s.sz : Int) ≤ g.f.sz.area
  cells : ∀ c ∈ g.s.cells, 0 ≤ c ∧ c < g.f.sz.area
  nodup : g.s.cells.Nodup
  score : (g.s.sz : Int) = 3 + g.scr
  cookie : g.over = false →
    (g.s.sz : Int) < g.f.sz.area ∧ g.cooky ∉ g.s.cells ∧ 0 ≤ g.cooky ∧ g.cooky < g.f.sz.area

end game

namespace gif

/-! ### The frames that `Gif::load` reads

`Image::load` passes the product of width and height of the rect that it has read to
`Size::area`, which multiplies in `int`.  The definitions below name the sessions at
which the record loop of `Gif::load` starts an iteration and the product that the
iteration hands to `Size::area`, so that a statement on the load can be made for the
streams whose frames keep the product within `int`. -/

/-- The number of pixels of the frame that the iteration of the record loop of
`Gif::load` starting at `io` loads: the product of width and height of the rect that
`Image::load_desc` reads, when the tag is `image_desc` and `Image::load` gets to
`rect.area()`, that is, when the descriptor and the code size byte are read; 0 when
the iteration does not get there. -/
def GifIO.frame_pixels (io : GifIO) : Nat :=
  let r := io.read_record
  if !r.2.2 then 0
  else
    match r.2.1 with
    | GifRecordType.image_desc =>
      let r1 := Image.new.load_desc r.1
      if !r1.2.2 then 0
      else
        let r2 := r1.2.1.read_byte
        if !r2.2.2 then 0 else r1.1.rect.s.wd * r1.1.rect.s.ht
    | _ => 0

/-- The sessions at the start of the iterations of the record loop of `Gif::load`. -/
def Gif.loop_iters : Nat → Gif → GifIO → List Extension → List GifIO
  | 0, _, _, _ => []
  | fuel + 1, g, io, ext_lists =>
    io ::
      match Gif.load_record g io ext_lists with
      | none => []
      | some r =>
        match r.2.2.2 with
        | some _ => []
        | none => Gif.loop_iters fuel r.1 r.2.1 r.2.2.1

/-- The sessions at the start of the iterations of the record loop in a call of
`Gif::load` on a device. -/
def Gif.load_iters (g : Gif) (dev : MemDevice) : List GifIO :=
  let io := GifIO.mk_dev dev
  let r1 := io.probe
  if !r1.2 then []
  else
    let r2 := g.load_scr_desc r1.1
    if !r2.2.2 then []
    else Gif.loop_iters (r2.2.1.d.bytesLeft + 1) r2.1 r2.2.1 []

/-! ### The codes that the decoder reads -/

/-- The codes that `decode` hands to the main loop of `decode_line`, in the order
in which they are read. -/
def LZDecoder.decode_loop_codes : Nat → LZDecoder → List Nat → Nat → List Nat
  | 0, _, _, _ => []
  | fuel + 1, st, line, line_len =>
    if line.length < line_len then
      let d := st.decode
      (if !d.2.2 then [] else [d.2.1]) ++
        let r := st.decode_step line line_len
        if !r.2.2 then [] else LZDecoder.decode_loop_codes fuel r.1 r.2.1 line_len
    else []

/-- The codes read by `decode_line`. -/
def LZDecoder.decode_line_codes (fuel : Nat) (st : LZDecoder) (line_len : Nat) : List Nat :=
  if st.stack_ptr > LZ.max_code then []
  else
    let q := LZDecoder.pop_loop st.stack_ptr st [] line_len
    LZDecoder.decode_loop_codes fuel q.1 q.2 line_len

/-- The codes read by `getLine`. -/
def LZDecoder.getLine_codes (st : LZDecoder) (lineLen : Int) : List Nat :=
  let pc : Nat := (((st.pix_count : Int) - lineLen) % 2 ^ 64).toNat
  let st1 : LZDecoder := { st with pix_count := pc }
  if pc > 0xffff0000 then []
  else LZDecoder.decode_line_codes (8 * (st1.f.d.bytesLeft + 256) + 32) st1 lineLen.toNat

/-- The codes read by the row loops of `Image::load`. -/
def Image.load_rows_codes : List Nat → LZDecoder → Nat → List Nat
  | [], _, _ => []
  | _ :: rest, dec, w =>
    dec.getLine_codes (toInt32 w) ++
      match dec.getLine (toInt32 w) with
      | none => []
      | some r => if !r.2.2 then [] else Image.load_rows_codes rest r.1 w

/-- The codes read by `Image::load`. -/
def Image.load_codes (img : Image) (io : GifIO) : List Nat :=
  let r1 := img.load_desc io
  if !r1.2.2 then []
  else
    let img1 := r1.1
    let r2 := r1.2.1.read_byte
    if !r2.2.2 then []
    else
      let decoder := LZDecoder.new r2.1 img1.rect.area r2.2.1
      let b := resize img1.b img1.rect.area
      if img1.interlace then
        Image.load_rows_codes (interlace_rows img1.rect.height) decoder img1.rect.width
      else decoder.getLine_codes (toInt32 b.length)

/-! ### The codes that the encoder logic packs

The lists below hold, in the order of the calls, the code and the width in force of
each `encode` of the encoder logic with a code other than `flush_output`. -/

/-- The code and the width of a call of `encode`: the code passed and the member
`run_bits` at the call. -/
def LZEncoder.call_code (sc : LZEncoder × Nat) : Nat × Nat := (sc.2, sc.1.run_bits)

/-- The codes of the body of the pixel loop: none when the dictionary holds the
pair; else the running code and, when `run_code` has reached `LZ::max_code`, the
clear code. -/
def AEnc.pixel_codes (cr : Nat) (a : AEnc) (code pixel : Nat) : List (Nat × Nat) :=
  match dlookup cr a.dict code pixel with
  | some _ => []
  | none =>
    let r := a.encode cr code
    if r.2.run_code cr ≥ LZ.max_code then [(code, a.run_bits), (2 ^ cr, r.2.run_bits)]
    else [(code, a.run_bits)]

/-- The codes of the pixel loop. -/
def AEnc.loop_codes (cr : Nat) : List Nat → AEnc → Nat → List (Nat × Nat)
  | [], _, _ => []
  | x :: rest, a, code =>
    a.pixel_codes cr code x ++
      AEnc.loop_codes cr rest (a.pixel cr code x).2.1 (a.pixel cr code x).2.2

/-- The codes of the end of the last `encode_line`: the pending code and the end
code. -/
def AEnc.finish_codes (cr : Nat) (a : AEnc) (code : Nat) : List (Nat × Nat) :=
  [(code, a.run_bits), (2 ^ cr + 1, (a.encode cr code).2.run_bits)]

/-- The codes of the end of `encode_line`. -/
def AEnc.line_end_codes (cr : Nat) (a : AEnc) : List (Nat × Nat) :=
  if a.pix_count = 0 then a.finish_codes cr a.crnt_code else []

/-- The codes of `encode_line`. -/
def AEnc.encode_line_codes (cr : Nat) (a : AEnc) (line : List Nat) : List (Nat × Nat) :=
  let r := AEnc.loop cr (LZEncoder.line_start a.crnt_code line).2 a
    (LZEncoder.line_start a.crnt_code line).1
  AEnc.loop_codes cr (LZEncoder.line_start a.crnt_code line).2 a
      (LZEncoder.line_start a.crnt_code line).1 ++
    AEnc.line_end_codes cr { r.2.1 with crnt_code := r.2.2 }

/-- The codes of `put_line` for a line that fits the pixel count. -/
def AEnc.put_line_codes (cr : Nat) (a : AEnc) (line : List Nat) : List (Nat × Nat) :=
  AEnc.encode_line_codes cr { a with pix_count := a.pix_count - line.length }
    (line.map (fun b => b &&& LZEncoder.code_mask.getD cr 0))

/-- The codes of a sequence of `put_line` calls. -/
def AEnc.put_lines_codes (cr : Nat) : List (List Nat) → AEnc → List (Nat × Nat)
  | [], _ => []
  | line :: rest, a =>
    a.put_line_codes cr line ++ AEnc.put_lines_codes cr rest (a.put_line cr line).2.1

end gif

namespace gif

/-! ## Devices -/

theorem MemDevice_write_room (dev : MemDevice) (bs : List Nat) (h : dev.Room bs.length) :
    dev.write bs = (dev.push bs, bs.length) := by
  unfold MemDevice.Room at h
  have h1 : ¬ bs.length > dev.bytesLeft := by
    unfold MemDevice.bytesLeft MemDevice.l; omega
  simp only [MemDevice.write, if_neg h1, MemDevice.push, List.take_length]

theorem MemDevice_write_short (dev : MemDevice) (bs : List Nat) (h : ¬ dev.Room bs.length)
    (hp : dev.p ≤ dev.d.length) : (dev.write bs).2 ≠ bs.length := by
  unfold MemDevice.Room at h
  have h1 : bs.length > dev.bytesLeft := by
    unfold MemDevice.bytesLeft MemDevice.l; omega
  simp only [MemDevice.write, if_pos h1]
  omega

theorem MemDevice_push_p (dev : MemDevice) (bs : List Nat) :
    (dev.push bs).p = dev.p + bs.length := rfl

theorem MemDevice_push_length (dev : MemDevice) (bs : List Nat) (h : dev.Room bs.length) :
    (dev.push bs).d.length = dev.d.length := by
  unfold MemDevice.Room at h
  simp only [MemDevice.push, List.length_append, List.length_take, List.length_drop]
  omega

theorem MemDevice_push_nil (dev : MemDevice) (h : dev.Room 0) : dev.push [] = dev := by
  unfold MemDevice.Room at h
  cases dev with
  | mk d p m =>
    simp only [MemDevice.push, List.append_nil, List.length_nil, Nat.add_zero,
      List.take_append_drop]

theorem MemDevice_push_push (dev : MemDevice) (a b : List Nat) (h : dev.Room a.length) :
    (dev.push a).push b = dev.push (a ++ b) := by
  unfold MemDevice.Room at h
  cases dev with
  | mk d p m =>
    simp only at h
    have e1 : (List.take p d ++ a ++ List.drop (p + a.length) d).take (p + a.length)
        = List.take p d ++ a := by
      rw [List.take_append_eq_append_take]
      have : (List.take p d ++ a).length = p + a.length := by
        simp only [List.length_append, List.length_take]; omega
      rw [this, Nat.sub_self, List.take_zero, List.append_nil, List.take_of_length_le]
      omega
    have e2 : (List.take p d ++ a ++ List.drop (p + a.length) d).drop (p + a.length + b.length)
        = List.drop (p + (a.length + b.length)) d := by
      rw [List.drop_append_eq_append_drop]
      have : (List.take p d ++ a).length = p + a.length := by
        simp only [List.length_append, List.length_take]; omega
      rw [this, List.drop_of_length_le (by omega), List.nil_append, List.drop_drop]
      congr 1; omega
    simp only [MemDevice.push]
    rw [e1, e2]
    simp only [List.length_append, List.append_assoc, Nat.add_assoc]

theorem MemDevice_push_room (dev : MemDevice) (a : List Nat) (n : Nat)
    (h : dev.Room (a.length + n)) : (dev.push a).Room n := by
  have h0 : dev.Room a.length := by unfold MemDevice.Room at h ⊢; omega
  unfold MemDevice.Room
  rw [MemDevice_push_length dev a h0, MemDevice_push_p]
  unfold MemDevice.Room at h; omega

theorem MemDevice_push_written (dev : MemDevice) (a : List Nat) (h : dev.Room a.length) :
    (dev.push a).written = dev.written ++ a := by
  unfold MemDevice.Room at h
  simp only [MemDevice.written, MemDevice.push]
  rw [List.take_append_eq_append_take]
  have : (List.take dev.p dev.d ++ a).length = dev.p + a.length := by
    simp only [List.length_append, List.length_take]; omega
  rw [this, Nat.sub_self, List.take_zero, List.append_nil, List.take_of_length_le]
  omega

theorem MemDevice_Room_mono (dev : MemDevice) {n k : Nat} (h : dev.Room n) (hk : k ≤ n) :
    dev.Room k := by
  unfold MemDevice.Room at h ⊢; omega

/-! ### Reading -/

theorem MemDevice_skip_rest (dev : MemDevice) (n : Nat) :
    (dev.skip n).rest = dev.rest.drop n := by
  simp only [MemDevice.rest, MemDevice.skip, List.drop_drop]

theorem MemDevice_read_rest (dev : MemDevice) (bs tl : List Nat) (h : dev.rest = bs ++ tl) :
    dev.read bs.length = (dev.skip bs.length, bs) := by
  have hl : bs.length ≤ dev.bytesLeft := by
    have := congrArg List.length h
    simp only [MemDevice.rest, List.length_drop, List.length_append] at this
    unfold MemDevice.bytesLeft MemDevice.l; omega
  have h1 : ¬ bs.length > dev.bytesLeft := by omega
  simp only [MemDevice.read, if_neg h1, MemDevice.skip]
  unfold MemDevice.rest at h
  rw [h, List.take_left' rfl]

theorem MemDevice_skip_rest_of (dev : MemDevice) (bs tl : List Nat) (h : dev.rest = bs ++ tl) :
    (dev.skip bs.length).rest = tl := by
  rw [MemDevice_skip_rest, h, List.drop_left' rfl]

theorem MemDevice_bytesLeft_eq (dev : MemDevice) : dev.bytesLeft = dev.rest.length := by
  simp only [MemDevice.bytesLeft, MemDevice.l, MemDevice.rest, List.length_drop]

end gif

namespace gif

/-! ## Session: writing -/

theorem GifIO_write_bytes_room (io : GifIO) (bs : List Nat) (h : io.Room bs.length) :
    io.write_bytes bs = (io.push bs, true) := by
  simp only [ GifIO.write_bytes, MemDevice_write_room io.d bs h, GifIO.push, beq_self_eq_true]

theorem GifIO_write_byte_room (io : GifIO) (b : Nat) (h : io.Room 1) :
    io.write_byte b = (io.push [b], true) := by
  have h1 : io.d.Room [b].length := h
  simp only [ GifIO.write_byte, MemDevice_write_room io.d [b] h1, GifIO.push, List.length_cons,
    List.length_nil, beq_self_eq_true]

theorem GifIO_write_terminator_room (io : GifIO) (h : io.Room 1) :
    io.write_terminator = (io.push [Gif_terminator], true) := by
  have h1 : io.d.Room [Gif_terminator].length := h
  simp only [ GifIO.write_terminator, MemDevice_write_room io.d _ h1, GifIO.push,
    List.length_cons, List.length_nil, beq_self_eq_true]

theorem GifIO_write_word_room (io : GifIO) (w : Nat) (h : io.Room 2) :
    io.write_word w = (io.push [w &&& 0xff, (w >>> 8) &&& 0xff], true) := by
  have h1 : io.d.Room [w &&& 0xff, (w >>> 8) &&& 0xff].length := h
  simp only [ GifIO.write_word, MemDevice_write_room io.d _ h1, GifIO.push, List.length_cons,
    List.length_nil, beq_self_eq_true]

theorem GifIO_push_e (io : GifIO) (bs : List Nat) : (io.push bs).e = io.e := rfl

theorem GifIO_push_d (io : GifIO) (bs : List Nat) : (io.push bs).d = io.d.push bs := rfl

theorem GifIO_push_push (io : GifIO) (a b : List Nat) (h : io.Room a.length) :
    (io.push a).push b = io.push (a ++ b) := by
  simp only [ GifIO.push, MemDevice_push_push io.d a b h]

theorem GifIO_push_nil (io : GifIO) (h : io.Room 0) : io.push [] = io := by
  cases io with
  | mk e d => simp only [ GifIO.push, MemDevice_push_nil d h]

theorem GifIO_push_room (io : GifIO) (a : List Nat) (n : Nat) (h : io.Room (a.length + n)) :
    (io.push a).Room n := MemDevice_push_room io.d a n h

theorem GifIO_Room_mono (io : GifIO) {n k : Nat} (h : io.Room n) (hk : k ≤ n) : io.Room k :=
  MemDevice_Room_mono io.d h hk

theorem GifIO_set_error_push (io : GifIO) (bs : List Nat) (c : ErrorCode) :
    (io.push bs).set_error c = (io.set_error c).push bs := rfl

theorem GifIO_set_error_room (io : GifIO) (n : Nat) (c : ErrorCode) :
    (io.set_error c).Room n ↔ io.Room n := Iff.rfl

theorem GifIO_write_size_room (io : GifIO) (s : Size) (h : io.Room 4) :
    io.write_size s =
      (io.push [s.wd &&& 0xff, (s.wd >>> 8) &&& 0xff, s.ht &&& 0xff, (s.ht >>> 8) &&& 0xff],
        true) := by
  have h2 : io.Room 2 := GifIO_Room_mono io h (by omega)
  have h3 : (io.push [s.wd &&& 0xff, (s.wd >>> 8) &&& 0xff]).Room 2 :=
    GifIO_push_room io _ 2 h
  simp only [ GifIO.write_size, GifIO_write_word_room io s.wd h2, Bool.not_true,
    Bool.false_eq_true, if_false, GifIO_write_word_room _ s.ht h3]
  rw [ GifIO_push_push io [s.wd &&& 0xff, (s.wd >>> 8) &&& 0xff] _ h2]
  rfl

theorem GifIO_write_point_room (io : GifIO) (s : Point) (h : io.Room 4) :
    io.write_point s =
      (io.push [s.x_val &&& 0xff, (s.x_val >>> 8) &&& 0xff, s.y_val &&& 0xff,
        (s.y_val >>> 8) &&& 0xff], true) := by
  have h2 : io.Room 2 := GifIO_Room_mono io h (by omega)
  have h3 : (io.push [s.x_val &&& 0xff, (s.x_val >>> 8) &&& 0xff]).Room 2 :=
    GifIO_push_room io _ 2 h
  simp only [ GifIO.write_point, GifIO_write_word_room io s.x_val h2, Bool.not_true,
    Bool.false_eq_true, if_false, GifIO_write_word_room _ s.y_val h3]
  rw [ GifIO_push_push io [s.x_val &&& 0xff, (s.x_val >>> 8) &&& 0xff] _ h2]
  rfl

/-- Wire bytes of a 16 bit word. -/
theorem word_bytes_length (w : Nat) : [w &&& 0xff, (w >>> 8) &&& 0xff].length = 2 := rfl

/-! ## Session: reading -/

theorem GifIO_skip_e (io : GifIO) (n : Nat) : (io.skip n).e = io.e := rfl

theorem GifIO_skip_rest_of (io : GifIO) (bs tl : List Nat) (h : io.d.rest = bs ++ tl) :
    (io.skip bs.length).d.rest = tl := MemDevice_skip_rest_of io.d bs tl h

theorem GifIO_skip_skip (io : GifIO) (a b : Nat) : (io.skip a).skip b = io.skip (a + b) := by
  simp only [ GifIO.skip, MemDevice.skip, Nat.add_assoc]

theorem GifIO_read_bytes_rest (io : GifIO) (bs tl : List Nat) (h : io.d.rest = bs ++ tl) :
    io.read_bytes bs.length = (io.skip bs.length, bs, true) := by
  simp only [ GifIO.read_bytes, MemDevice_read_rest io.d bs tl h, GifIO.skip, beq_self_eq_true]

theorem GifIO_read_byte_rest (io : GifIO) (b : Nat) (tl : List Nat) (h : io.d.rest = b :: tl) :
    io.read_byte = (io.skip 1, b, true) := by
  have h1 : io.d.rest = [b] ++ tl := h
  have := MemDevice_read_rest io.d [b] tl h1
  simp only [List.length_cons, List.length_nil, Nat.zero_add] at this
  simp only [ GifIO.read_byte, this, GifIO.skip, List.headD_cons, List.length_cons,
    List.length_nil, Nat.zero_add, beq_self_eq_true]

theorem GifIO_read_byte_nil (io : GifIO) (h : io.d.rest = []) :
    io.read_byte = (io, 0, false) := by
  have hb : io.d.bytesLeft = 0 := by rw [MemDevice_bytesLeft_eq, h]; rfl
  have hr : io.d.rest = io.d.d.drop io.d.p := rfl
  cases io with
  | mk e d =>
    cases d with
    | mk dd p m =>
      simp only [MemDevice.rest] at h
      simp only at hb
      simp [ GifIO.read_byte, MemDevice.read, hb, h]

end gif

namespace gif

/-! ## Interlace order -/

theorem pass_rows_mem (jump : Nat) (hj : jump = 8 ∨ jump = 4 ∨ jump = 2) (H x : Nat) :
    ∀ fuel j, H ≤ j + fuel →
      (x ∈ pass_rows fuel j jump H ↔ j ≤ x ∧ x < H ∧ (x - j) % jump = 0) := by
  intro fuel
  induction fuel with
  | zero =>
    intro j h
    simp only [pass_rows, List.not_mem_nil, false_iff]
    omega
  | succ n ih =>
    intro j h
    unfold pass_rows
    by_cases hlt : j < H
    · rw [if_pos hlt, List.mem_cons, ih (j + jump) (by omega)]
      rcases hj with rfl | rfl | rfl <;> omega
    · rw [if_neg hlt]
      simp only [List.not_mem_nil, false_iff]
      omega

theorem pass_rows_nodup (jump : Nat) (hj : jump = 8 ∨ jump = 4 ∨ jump = 2) (H : Nat) :
    ∀ fuel j, H ≤ j + fuel → (pass_rows fuel j jump H).Nodup := by
  intro fuel
  induction fuel with
  | zero => intro j _; simp [pass_rows]
  | succ n ih =>
    intro j h
    unfold pass_rows
    by_cases hlt : j < H
    · rw [if_pos hlt, List.nodup_cons]
      refine ⟨?_, ih (j + jump) (by omega)⟩
      rw [pass_rows_mem jump hj H j n (j + jump) (by omega)]
      omega
    · rw [if_neg hlt]; exact List.nodup_nil

theorem interlace_rows_eq (H : Nat) :
    interlace_rows H =
      pass_rows H 0 8 H ++ (pass_rows H 4 8 H ++ (pass_rows H 2 4 H ++ pass_rows H 1 2 H)) := by
  simp [interlace_rows, List.range_succ, List.flatMap, interlace_offset, interlace_jumps]

theorem interlace_rows_mem (H x : Nat) : x ∈ interlace_rows H ↔ x < H := by
  have m0 := pass_rows_mem 8 (Or.inl rfl) H x H 0 (by omega)
  have m1 := pass_rows_mem 8 (Or.inl rfl) H x H 4 (by omega)
  have m2 := pass_rows_mem 4 (Or.inr (Or.inl rfl)) H x H 2 (by omega)
  have m3 := pass_rows_mem 2 (Or.inr (Or.inr rfl)) H x H 1 (by omega)
  rw [interlace_rows_eq]
  simp only [List.mem_append, m0, m1, m2, m3]
  omega

theorem interlace_rows_nodup (H : Nat) : (interlace_rows H).Nodup := by
  have m0 := fun x => pass_rows_mem 8 (Or.inl rfl) H x H 0 (by omega)
  have m1 := fun x => pass_rows_mem 8 (Or.inl rfl) H x H 4 (by omega)
  have m2 := fun x => pass_rows_mem 4 (Or.inr (Or.inl rfl)) H x H 2 (by omega)
  have m3 := fun x => pass_rows_mem 2 (Or.inr (Or.inr rfl)) H x H 1 (by omega)
  have n0 := pass_rows_nodup 8 (Or.inl rfl) H H 0 (by omega)
  have n1 := pass_rows_nodup 8 (Or.inl rfl) H H 4 (by omega)
  have n2 := pass_rows_nodup 4 (Or.inr (Or.inl rfl)) H H 2 (by omega)
  have n3 := pass_rows_nodup 2 (Or.inr (Or.inr rfl)) H H 1 (by omega)
  rw [interlace_rows_eq]
  refine List.Nodup.append n0 (List.Nodup.append n1 (List.Nodup.append n2 n3 ?_) ?_) ?_
  · intro a h2 h3
    rw [m2] at h2; rw [m3] at h3; omega
  · intro a h1 h23
    rw [m1] at h1; rw [List.mem_append, m2, m3] at h23; omega
  · intro a h0 h
    rw [m0] at h0; simp only [List.mem_append, m1, m2, m3] at h; omega

theorem interlace_rows_perm_range (H : Nat) : (interlace_rows H).Perm (List.range H) := by
  rw [List.perm_ext_iff_of_nodup (interlace_rows_nodup H) (List.nodup_range H)]
  intro a
  rw [interlace_rows_mem, List.mem_range]

/-- C4.  For every height `H` the rows visited by the four interlace passes of
`Image::save` and `Image::load`, in pass order, are a permutation of `[0, H)`:
every row below `H` occurs exactly once and no other row occurs. -/
theorem interlace_coverage (H : Nat) :
    (interlace_rows H).Perm (List.range H) ∧
      ∀ j, (interlace_rows H).count j = if j < H then 1 else 0 := by
  refine ⟨interlace_rows_perm_range H, fun j => ?_⟩
  by_cases h : j < H
  · rw [if_pos h]
    exact List.count_eq_one_of_mem (interlace_rows_nodup H) ((interlace_rows_mem H j).2 h)
  · rw [if_neg h]
    exact List.count_eq_zero_of_not_mem (fun hm => h ((interlace_rows_mem H j).1 hm))

/-! ## Magic probe -/

theorem probe_six (io : GifIO) (bytes tl : List Nat) (hl : bytes.length = 6)
    (h : io.d.rest = bytes ++ tl) :
    io.probe =
      if bytes.take 3 = magic then (io.skip 6, true)
      else ((io.skip 6).set_error ErrorCode.not_gif_file, false) := by
  have hr := MemDevice_read_rest io.d bytes tl h
  rw [hl] at hr
  simp only [ GifIO.probe, hr, hl, bne_self_eq_false, Bool.false_eq_true, if_false, magic]
  by_cases hm : List.take 3 bytes = [0x47, 0x49, 0x46]
  · simp [hm, GifIO.skip]
  · simp [hm, GifIO.skip]

theorem open_for_read_rest (bytes : List Nat) :
    ( GifIO.mk_dev (MemDevice.open_for_read bytes)).d.rest = bytes := rfl

/-- C7, as amended.  For every stream of at least six bytes the magic probe
consumes exactly six bytes; when the first three bytes are the ASCII bytes GIF
it succeeds, whatever the three version bytes are, and otherwise `Gif::load`
fails with `not_gif_file`, the position being 6. -/
theorem magic_probe_six (g : Gif) (bytes : List Nat) (h : 6 ≤ bytes.length) :
    (( GifIO.mk_dev (MemDevice.open_for_read bytes)).probe).1.d.p = 6 ∧
      if bytes.take 3 = magic then
        (( GifIO.mk_dev (MemDevice.open_for_read bytes)).probe).2 = true ∧
          (( GifIO.mk_dev (MemDevice.open_for_read bytes)).probe).1.e = ErrorCode.ok
      else
        ∃ io, Gif.load g (MemDevice.open_for_read bytes) = some (g, io, false) ∧
          io.e = ErrorCode.not_gif_file ∧ io.d.p = 6 := by
  have hsplit : ( GifIO.mk_dev (MemDevice.open_for_read bytes)).d.rest
      = bytes.take 6 ++ bytes.drop 6 := by
    rw [open_for_read_rest, List.take_append_drop]
  have hl : (bytes.take 6).length = 6 := by
    rw [List.length_take]; omega
  have hp := probe_six _ _ _ hl hsplit
  have ht : (bytes.take 6).take 3 = bytes.take 3 := by
    rw [List.take_take]; rfl
  rw [ht] at hp
  by_cases hm : bytes.take 3 = magic
  · rw [if_pos hm] at hp
    rw [if_pos hm, hp]
    exact ⟨rfl, rfl, rfl⟩
  · rw [if_neg hm] at hp
    rw [if_neg hm, hp]
    refine ⟨rfl, (( GifIO.mk_dev (MemDevice.open_for_read bytes)).skip 6).set_error
      ErrorCode.not_gif_file, ?_, rfl, rfl⟩
    simp only [Gif.load, hp, Bool.not_false, if_true]

/-- Witness of C7: a six byte stream that does not start with GIF. -/
theorem magic_probe_six_witness :
    ∃ io, Gif.load (Gif.new ⟨0, 0⟩ 0) (MemDevice.open_for_read [78, 79, 84, 71, 73, 70])
        = some (Gif.new ⟨0, 0⟩ 0, io, false) ∧
      io.e = ErrorCode.not_gif_file ∧ io.d.p = 6 := by
  have h := (magic_probe_six (Gif.new ⟨0, 0⟩ 0) [78, 79, 84, 71, 73, 70] (by decide)).2
  rw [if_neg (by decide)] at h
  exact h

/-- Counterexample of C7 as stated: on the two byte stream `AB`, which does not
start with GIF, `Gif::load` fails with `read_failed` after consuming two bytes; and on
the three byte stream `GIF` the probe fails. -/
theorem magic_probe_short_stream :
    ([0x41, 0x42] : List Nat).take 3 ≠ magic ∧
      Gif.load (Gif.new ⟨0, 0⟩ 0) (MemDevice.open_for_read [0x41, 0x42]) =
        some (Gif.new ⟨0, 0⟩ 0,
          { e := ErrorCode.read_failed,
            d := { d := [0x41, 0x42], p := 2, m := OpenMode.read_only } }, false) ∧
      (( GifIO.mk_dev (MemDevice.open_for_read [0x47, 0x49, 0x46])).probe).2 = false := by
  decide

/-! ## Error code of the session -/

/-- Divergence for C10 (the code of the first failure is overwritten).  The stream
ends where the first record tag is expected.  The tag read `GifIO::read` sets
`read_failed`, the first failure of the session; `Gif::load` then sets
`wrong_record` over it, and that is the code held when the load returns. -/
theorem error_code_overwritten :
    (( GifIO.read_record
        { e := ErrorCode.ok,
          d := { d := [0x47, 0x49, 0x46, 0x38, 0x39, 0x61, 1, 0, 1, 0, 0, 0, 0], p := 13,
                 m := OpenMode.read_only } }).1.e = ErrorCode.read_failed) ∧
      (Gif.load (Gif.new ⟨0, 0⟩ 0)
        (MemDevice.open_for_read [0x47, 0x49, 0x46, 0x38, 0x39, 0x61, 1, 0, 1, 0, 0, 0, 0])).map
          (fun r => (r.2.1.e, r.2.1.d.p, r.2.2)) = some (ErrorCode.wrong_record, 13, false) := by
  decide

/-! ## Saving without a palette: counterexamples -/

/-- Counterexample of C8 as stated: a container without global palette whose only
frame is 1 x 1 and has no local palette.  The save fails with `no_color_map` when
the ten bytes of the image descriptor record (leader 0x2c, rect, flags) already stand
in the sink after the thirteen bytes of the header and screen descriptor. -/
theorem no_color_map_after_descriptor :
    (Gif.save
        { sz := ⟨1, 1⟩, bg := 0,
          imgs := [{ interlace := false, exts := [], rect := ⟨⟨0, 0⟩, ⟨1, 1⟩⟩, b := [0],
                     cm := none }],
          exs := [], cm := none }
        (MemDevice.open_for_write (List.replicate 64 0))).map
          (fun r => (r.2.2, r.2.1.e, r.2.1.d.written)) =
      some (false, ErrorCode.no_color_map,
        [0x47, 0x49, 0x46, 0x38, 0x39, 0x61, 1, 0, 1, 0, 0, 0, 0,
         0x2c, 0, 0, 0, 0, 1, 0, 1, 0, 0]) := by
  decide

/-- Counterexample of C9 as stated: a container without global palette that holds
one image without local palette, of zero area (a default constructed `Image`).
`Gif::save` succeeds and the error code stays `ok`. -/
theorem save_zero_area_without_palette :
    (Gif.save { sz := ⟨1, 1⟩, bg := 0, imgs := [Image.new], exs := [], cm := none }
        (MemDevice.open_for_write (List.replicate 64 0))).map
          (fun r => (r.2.2, r.2.1.e, r.2.1.d.written)) =
      some (true, ErrorCode.ok,
        [0x47, 0x49, 0x46, 0x38, 0x39, 0x61, 1, 0, 1, 0, 0, 0, 0, 0x3b]) := by
  decide

end gif

namespace gif

/-! ## Saving records into a session with room -/

theorem word_bytes_len (w : Nat) : (word_bytes w).length = 2 := rfl

theorem size_bytes_len (s : Size) : (size_bytes s).length = 4 := rfl

theorem point_bytes_len (p : Point) : (point_bytes p).length = 4 := rfl

theorem rect_bytes_len (r : Rect) : (rect_bytes r).length = 8 := rfl

theorem GifIO_write_size_bytes (io : GifIO) (s : Size) (h : io.Room 4) :
    io.write_size s = (io.push (size_bytes s), true) := GifIO_write_size_room io s h

theorem GifIO_write_point_bytes (io : GifIO) (s : Point) (h : io.Room 4) :
    io.write_point s = (io.push (point_bytes s), true) := GifIO_write_point_room io s h

theorem GifIO_write_rect_bytes (io : GifIO) (r : Rect) (h : io.Room 8) :
    io.write_rect r = (io.push (rect_bytes r), true) := by
  have h4 : io.Room 4 := GifIO_Room_mono io h (by omega)
  have h5 : (io.push (point_bytes r.p)).Room 4 := GifIO_push_room io _ 4 h
  simp only [ GifIO.write_rect, GifIO_write_point_bytes io r.p h4, Bool.not_true, Bool.false_eq_true,
    if_false, GifIO_write_size_bytes _ r.s h5]
  rw [ GifIO_push_push io (point_bytes r.p) _ h4]
  rfl

theorem GifIO_write_rgb_room (io : GifIO) (c : RGB) (h : io.Room 3) :
    io.write_rgb c = (io.push [c.r_val, c.g_val, c.b_val], true) :=
  GifIO_write_bytes_room io [c.r_val, c.g_val, c.b_val] h

theorem rgbs_bytes_cons (i : RGB) (rest : List RGB) :
    rgbs_bytes (i :: rest) = [i.r_val, i.g_val, i.b_val] ++ rgbs_bytes rest := rfl

theorem rgbs_bytes_len (c : List RGB) : (rgbs_bytes c).length = 3 * c.length := by
  induction c with
  | nil => rfl
  | cons i rest ih =>
    rw [rgbs_bytes_cons, List.length_append, ih, List.length_cons, List.length_cons,
      List.length_cons, List.length_cons, List.length_nil]
    omega

theorem ColorMap_save_loop_room (c : List RGB) :
    ∀ io : GifIO, io.Room (rgbs_bytes c).length →
      ColorMap.save_loop c io = (io.push (rgbs_bytes c), true) := by
  induction c with
  | nil =>
    intro io h
    simp only [ColorMap.save_loop, rgbs_bytes, List.flatMap_nil]
    rw [ GifIO_push_nil io h]
  | cons i rest ih =>
    intro io h
    rw [rgbs_bytes_cons, List.length_append] at h
    have h3 : io.Room 3 := GifIO_Room_mono io h (by simp <;> omega)
    have hr : (io.push [i.r_val, i.g_val, i.b_val]).Room (rgbs_bytes rest).length :=
      GifIO_push_room io _ _ h
    simp only [ColorMap.save_loop, GifIO_write_rgb_room io i h3, Bool.not_true, Bool.false_eq_true,
      if_false, ih _ hr]
    rw [ GifIO_push_push io [i.r_val, i.g_val, i.b_val] _ h3, rgbs_bytes_cons]

theorem ColorMap_save_room (cm : ColorMap) (io : GifIO) (h : io.Room (rgbs_bytes cm.c).length) :
    cm.save io = (io.push (rgbs_bytes cm.c), true) :=
  ColorMap_save_loop_room cm.c io h

theorem chunks_bytes_cons (c : List Nat) (rest : List (List Nat)) :
    chunks_bytes (c :: rest) = ((c.length % 256) :: c) ++ chunks_bytes rest := rfl

theorem Extension_save_chunk_room (io : GifIO) (c : List Nat) (h : io.Room (c.length + 1)) :
    Extension.save_chunk io c = (io.push ((c.length % 256) :: c), true) := by
  have h1 : io.Room 1 := GifIO_Room_mono io h (by omega)
  have h2 : (io.push [c.length % 256]).Room c.length :=
    GifIO_push_room io [c.length % 256] c.length (by simpa [Nat.add_comm] using h)
  simp only [Extension.save_chunk, GifIO_write_byte_room io _ h1, Bool.not_true, Bool.false_eq_true,
    if_false, GifIO_write_bytes_room _ c h2]
  rw [ GifIO_push_push io [c.length % 256] c h1]
  rfl

theorem Extension_save_chunks_room (l : List (List Nat)) :
    ∀ io : GifIO, io.Room (chunks_bytes l).length →
      Extension.save_chunks l io = (io.push (chunks_bytes l), true) := by
  induction l with
  | nil =>
    intro io h
    simp only [Extension.save_chunks, chunks_bytes, List.flatMap_nil]
    rw [ GifIO_push_nil io h]
  | cons c rest ih =>
    intro io h
    rw [chunks_bytes_cons, List.length_append] at h
    have hc : io.Room (c.length + 1) := GifIO_Room_mono io h (by simp <;> omega)
    have hc1 : io.Room ((c.length % 256) :: c).length := by simpa using hc
    have hr : (io.push ((c.length % 256) :: c)).Room (chunks_bytes rest).length :=
      GifIO_push_room io _ _ h
    simp only [Extension.save_chunks, Extension_save_chunk_room io c hc, Bool.not_true,
      Bool.false_eq_true, if_false, ih _ hr]
    rw [ GifIO_push_push io _ _ hc1, chunks_bytes_cons]

theorem ext_bytes_len (e : Extension) :
    (ext_bytes e).length = 2 + (chunks_bytes e.list).length + 1 := by
  simp only [ext_bytes, List.length_append, List.length_cons, List.length_nil]

theorem Extension_save_room (e : Extension) (io : GifIO) (h : io.Room (ext_bytes e).length) :
    e.save io = (io.push (ext_bytes e), true) := by
  rw [ext_bytes_len] at h
  have h2 : io.Room [Gif_extension, e.fn % 256].length := GifIO_Room_mono io h (by simp <;> omega)
  have h3 : (io.push [Gif_extension, e.fn % 256]).Room (chunks_bytes e.list).length :=
    GifIO_push_room io _ _ (GifIO_Room_mono io h (by simp <;> omega))
  have h23 : io.Room ([Gif_extension, e.fn % 256] ++ chunks_bytes e.list).length :=
    GifIO_Room_mono io h (by simp <;> omega)
  have h4 : (io.push ([Gif_extension, e.fn % 256] ++ chunks_bytes e.list)).Room 1 :=
    GifIO_push_room io _ _ (GifIO_Room_mono io h (by simp <;> omega))
  simp only [Extension.save, Extension.save_leader, GifIO_write_bytes_room io _ h2, Bool.not_true,
    Bool.false_eq_true, if_false, Extension_save_chunks_room _ _ h3, Extension.save_trailer]
  rw [ GifIO_push_push io _ _ h2, GifIO_write_byte_room _ 0 h4, GifIO_push_push io _ _ h23]
  rfl

theorem exts_bytes_cons (e : Extension) (rest : List Extension) :
    exts_bytes (e :: rest) = ext_bytes e ++ exts_bytes rest := rfl

theorem Image_save_exts_room (l : List Extension) :
    ∀ io : GifIO, io.Room (exts_bytes l).length →
      Image.save_exts l io = (io.push (exts_bytes l), true) := by
  induction l with
  | nil =>
    intro io h
    simp only [Image.save_exts, exts_bytes, List.flatMap_nil]
    rw [ GifIO_push_nil io h]
  | cons e rest ih =>
    intro io h
    rw [exts_bytes_cons, List.length_append] at h
    have he : io.Room (ext_bytes e).length := GifIO_Room_mono io h (by simp <;> omega)
    have hr : (io.push (ext_bytes e)).Room (exts_bytes rest).length := GifIO_push_room io _ _ h
    simp only [Image.save_exts, Extension_save_room e io he, Bool.not_true, Bool.false_eq_true, if_false,
      ih _ hr]
    rw [ GifIO_push_push io _ _ he, exts_bytes_cons]

theorem Gif_save_exs_room (l : List Extension) :
    ∀ io : GifIO, io.Room (exts_bytes l).length →
      Gif.save_exs l io = (io.push (exts_bytes l), true) := by
  induction l with
  | nil =>
    intro io h
    simp only [Gif.save_exs, exts_bytes, List.flatMap_nil]
    rw [ GifIO_push_nil io h]
  | cons e rest ih =>
    intro io h
    rw [exts_bytes_cons, List.length_append] at h
    have he : io.Room (ext_bytes e).length := GifIO_Room_mono io h (by simp <;> omega)
    have hr : (io.push (ext_bytes e)).Room (exts_bytes rest).length := GifIO_push_room io _ _ h
    simp only [Gif.save_exs, Extension_save_room e io he, Bool.not_true, Bool.false_eq_true, if_false,
      ih _ hr]
    rw [ GifIO_push_push io _ _ he, exts_bytes_cons]

theorem descr_bytes_len (img : Image) :
    (descr_bytes img).length = 10 + (cm_bytes img.cm).length := by
  simp only [descr_bytes, List.length_append, List.length_cons, List.length_nil, rect_bytes_len]

theorem Image_save_descr_room (img : Image) (io : GifIO)
    (h : io.Room (descr_bytes img).length) :
    img.save_descr io = (io.push (descr_bytes img), true) := by
  rw [descr_bytes_len] at h
  have h1 : io.Room [Gif_descriptor].length := GifIO_Room_mono io h (by simp <;> omega)
  have h2 : (io.push [Gif_descriptor]).Room 8 :=
    GifIO_push_room io _ _ (GifIO_Room_mono io h (by simp <;> omega))
  have h12 : io.Room ([Gif_descriptor] ++ rect_bytes img.rect).length :=
    GifIO_Room_mono io h (by simp [rect_bytes_len] <;> omega)
  have h3 : (io.push ([Gif_descriptor] ++ rect_bytes img.rect)).Room 1 :=
    GifIO_push_room io _ _ (GifIO_Room_mono io h (by simp [rect_bytes_len] <;> omega))
  have h123 : io.Room ([Gif_descriptor] ++ rect_bytes img.rect ++ [descr_flags img]).length :=
    GifIO_Room_mono io h (by simp [rect_bytes_len] <;> omega)
  have h4 : (io.push ([Gif_descriptor] ++ rect_bytes img.rect ++ [descr_flags img])).Room
      (cm_bytes img.cm).length :=
    GifIO_push_room io _ _ (GifIO_Room_mono io h (by simp [rect_bytes_len] <;> omega))
  have e1 : (io.write_byte Gif_descriptor).1 = io.push [Gif_descriptor] := by
    rw [GifIO_write_byte_room io _ h1]
  have e2 : ((io.push [Gif_descriptor]).write_rect img.rect).1
      = io.push ([Gif_descriptor] ++ rect_bytes img.rect) := by
    rw [ GifIO_write_rect_bytes _ _ h2, GifIO_push_push io _ _ h1]
  have e3 : ((io.push ([Gif_descriptor] ++ rect_bytes img.rect)).write_byte (descr_flags img)).1
      = io.push ([Gif_descriptor] ++ rect_bytes img.rect ++ [descr_flags img]) := by
    rw [ GifIO_write_byte_room _ _ h3, GifIO_push_push io _ _ h12]
  unfold Image.save_descr
  simp only [e1, e2]
  cases hcm : img.cm with
  | none =>
    have hf : descr_flags img = (0 ||| (if img.interlace then 0x40 else 0x00) ||| 0) := by
      simp only [descr_flags, hcm, Option.isSome_none, Bool.false_eq_true, if_false]
    simp only [Option.isSome_none, Bool.false_eq_true, if_false]
    rw [← hf, e3]
    simp only [descr_bytes, hcm, cm_bytes, List.append_nil]
  | some cm =>
    have hf : descr_flags img
        = (0x80 ||| (if img.interlace then 0x40 else 0x00) ||| (cm.r + 255) % 256) := by
      simp only [descr_flags, hcm, Option.isSome_some, if_true]
    simp only [Option.isSome_some, if_true]
    rw [← hf, e3]
    rw [hcm] at h4
    simp only [cm_bytes] at h4
    rw [ColorMap_save_room cm _ h4, GifIO_push_push io _ _ h123]
    simp only [descr_bytes, hcm, cm_bytes, Bool.not_true, Bool.false_eq_true, if_false]

theorem scr_bytes_len (g : Gif) : (scr_bytes g).length = 13 + (cm_bytes g.cm).length := by
  simp only [scr_bytes, List.length_append, List.length_cons, List.length_nil, size_bytes_len]

theorem Gif_save_scr_desc_room (g : Gif) (io : GifIO) (h : io.Room (scr_bytes g).length) :
    g.save_scr_desc io = (io.push (scr_bytes g), true) := by
  rw [scr_bytes_len] at h
  have h1 : io.Room [0x47, 0x49, 0x46, 0x38, 0x39, 0x61].length := GifIO_Room_mono io h (by simp <;> omega)
  have h2 : (io.push [0x47, 0x49, 0x46, 0x38, 0x39, 0x61]).Room 4 :=
    GifIO_push_room io _ _ (GifIO_Room_mono io h (by simp <;> omega))
  have h12 : io.Room ([0x47, 0x49, 0x46, 0x38, 0x39, 0x61] ++ size_bytes g.sz).length :=
    GifIO_Room_mono io h (by simp [size_bytes_len] <;> omega)
  have h3 : (io.push ([0x47, 0x49, 0x46, 0x38, 0x39, 0x61] ++ size_bytes g.sz)).Room
      [Gif.scr_flags g.cm, g.bg, 0].length :=
    GifIO_push_room io _ _ (GifIO_Room_mono io h (by simp [size_bytes_len] <;> omega))
  have h123 : io.Room ([0x47, 0x49, 0x46, 0x38, 0x39, 0x61] ++ size_bytes g.sz ++
      [Gif.scr_flags g.cm, g.bg, 0]).length :=
    GifIO_Room_mono io h (by simp [size_bytes_len] <;> omega)
  have h4 : (io.push ([0x47, 0x49, 0x46, 0x38, 0x39, 0x61] ++ size_bytes g.sz ++
      [Gif.scr_flags g.cm, g.bg, 0])).Room (cm_bytes g.cm).length :=
    GifIO_push_room io _ _ (GifIO_Room_mono io h (by simp [size_bytes_len] <;> omega))
  unfold Gif.save_scr_desc
  simp only [GifIO_write_bytes_room io _ h1, Bool.not_true, Bool.false_eq_true, if_false,
    GifIO_write_size_bytes _ _ h2]
  rw [ GifIO_push_push io _ _ h1, GifIO_write_bytes_room _ _ h3, GifIO_push_push io _ _ h12]
  cases hcm : g.cm with
  | none =>
    simp only [scr_bytes, hcm, cm_bytes, List.append_nil]
  | some cm =>
    rw [hcm] at h4 h123
    simp only [cm_bytes] at h4
    simp only
    rw [ColorMap_save_room cm _ h4, GifIO_push_push io _ _ h123]
    simp only [scr_bytes, hcm, cm_bytes, Bool.not_true, Bool.false_eq_true, if_false]

end gif

namespace gif

/-! ## Hash table -/

theorem ht_put_key (key : Nat) (h : key < 2 ^ 20) : HashTable.put_key key = 2 ^ 12 * key := by
  unfold HashTable.put_key
  rw [Nat.shiftLeft_eq, Nat.mod_eq_of_lt (by omega)]
  omega

theorem ht_put_code (code : Nat) : HashTable.put_code code = code % 2 ^ 12 := by
  unfold HashTable.put_code
  exact Nat.and_pow_two_sub_one_eq_mod code 12

theorem ht_slot_eq (key code : Nat) (h : key < 2 ^ 20) :
    HashTable.slot key code = 2 ^ 12 * key + code % 2 ^ 12 := by
  unfold HashTable.slot
  rw [ht_put_key key h, ht_put_code]
  exact (Nat.mul_add_lt_is_or (Nat.mod_lt _ (by norm_num)) key).symm

theorem ht_slot_key (key code : Nat) (h : key < 2 ^ 20) :
    HashTable.get_key (HashTable.slot key code) = key := by
  rw [ht_slot_eq key code h]
  unfold HashTable.get_key
  rw [Nat.shiftRight_eq_div_pow]
  omega

theorem ht_slot_code (key code : Nat) (h : key < 2 ^ 20) :
    HashTable.get_code (HashTable.slot key code) = code % 2 ^ 12 := by
  rw [ht_slot_eq key code h]
  unfold HashTable.get_code
  have : (0x0FFF : Nat) = 2 ^ 12 - 1 := by norm_num
  rw [this, Nat.and_pow_two_sub_one_eq_mod]
  omega

theorem ht_next (n : Nat) : (n + 1) &&& HashTable.key_mask = (n + 1) % 8192 := by
  have : HashTable.key_mask = 2 ^ 13 - 1 := by norm_num [HashTable.key_mask]
  rw [this, Nat.and_pow_two_sub_one_eq_mod]

theorem ht_norm_key_lt (key : Nat) : HashTable.norm_key key < 8192 := by
  unfold HashTable.norm_key
  have : HashTable.key_mask = 2 ^ 13 - 1 := by norm_num [HashTable.key_mask]
  rw [this, Nat.and_pow_two_sub_one_eq_mod]
  exact Nat.mod_lt _ (by norm_num)

/-- Probe of `get` for a key that no occupied slot holds. -/
theorem ht_get_probe_absent (t : Nat → Nat) (key : Nat)
    (hk : ∀ i, i < 8192 → HashTable.get_key (t i) ≠ 0xFFFFF → HashTable.get_key (t i) ≠ key) :
    ∀ fuel n, n < 8192 →
      (∃ d, d < fuel ∧ HashTable.get_key (t ((n + d) % 8192)) = 0xFFFFF) →
      HashTable.get_probe fuel t key n = some none := by
  intro fuel
  induction fuel with
  | zero => intro n _ h; obtain ⟨d, hd, _⟩ := h; omega
  | succ f ih =>
    intro n hn h
    obtain ⟨d, hd, he⟩ := h
    unfold HashTable.get_probe
    by_cases hemp : HashTable.get_key (t n) = 0xFFFFF
    · simp only [hemp, bne_self_eq_false, Bool.false_eq_true, if_false]
    · have hne : (HashTable.get_key (t n) != 0xFFFFF) = true := by
        simpa [bne_iff_ne] using hemp
      have hkey : ¬ key = HashTable.get_key (t n) := fun h => hk n hn hemp h.symm
      rw [if_pos hne, if_neg hkey, ht_next]
      apply ih _ (Nat.mod_lt _ (by norm_num))
      have hd0 : d ≠ 0 := by
        intro h0
        rw [h0, Nat.add_zero, Nat.mod_eq_of_lt hn] at he
        exact hemp he
      refine ⟨d - 1, by omega, ?_⟩
      have : ((n + 1) % 8192 + (d - 1)) % 8192 = (n + d) % 8192 := by omega
      rw [this]; exact he

/-- Probe of `get` for a key that stands at distance `d` on its probe path. -/
theorem ht_get_probe_present (t : Nat → Nat) (key v : Nat) :
    ∀ d fuel n, n < 8192 → d < fuel →
      t ((n + d) % 8192) = v → HashTable.get_key v = key → key ≠ 0xFFFFF →
      (∀ d', d' < d → HashTable.get_key (t ((n + d') % 8192)) ≠ 0xFFFFF ∧
        HashTable.get_key (t ((n + d') % 8192)) ≠ key) →
      HashTable.get_probe fuel t key n = some (some (HashTable.get_code v)) := by
  intro d
  induction d with
  | zero =>
    intro fuel n hn hf hv hkv hk _
    cases fuel with
    | zero => omega
    | succ f =>
      rw [Nat.add_zero, Nat.mod_eq_of_lt hn] at hv
      unfold HashTable.get_probe
      have hne : (HashTable.get_key (t n) != 0xFFFFF) = true := by
        rw [hv, hkv]; simpa [bne_iff_ne] using hk
      rw [if_pos hne, if_pos (by rw [hv, hkv]), hv]
  | succ d ih =>
    intro fuel n hn hf hv hkv hk hpath
    cases fuel with
    | zero => omega
    | succ f =>
      have h0 := hpath 0 (by omega)
      rw [Nat.add_zero, Nat.mod_eq_of_lt hn] at h0
      unfold HashTable.get_probe
      have hne : (HashTable.get_key (t n) != 0xFFFFF) = true := by
        simpa [bne_iff_ne] using h0.1
      rw [if_pos hne, if_neg (fun h => h0.2 h.symm), ht_next]
      apply ih f _ (Nat.mod_lt _ (by norm_num)) (by omega) _ hkv hk
      · intro d' hd'
        have := hpath (d' + 1) (by omega)
        have e : ((n + 1) % 8192 + d') % 8192 = (n + (d' + 1)) % 8192 := by omega
        rw [e]; exact this
      · have e : ((n + 1) % 8192 + d) % 8192 = (n + (d + 1)) % 8192 := by omega
        rw [e]; exact hv

/-- Probe of `insert`: the first empty slot on the path. -/
theorem ht_insert_probe (t : Nat → Nat) :
    ∀ fuel n, n < 8192 →
      (∃ d, d < fuel ∧ HashTable.get_key (t ((n + d) % 8192)) = 0xFFFFF) →
      ∃ d, d < fuel ∧ HashTable.insert_probe fuel t n = some ((n + d) % 8192) ∧
        HashTable.get_key (t ((n + d) % 8192)) = 0xFFFFF ∧
        ∀ d', d' < d → HashTable.get_key (t ((n + d') % 8192)) ≠ 0xFFFFF := by
  intro fuel
  induction fuel with
  | zero => intro n _ h; obtain ⟨d, hd, _⟩ := h; omega
  | succ f ih =>
    intro n hn h
    obtain ⟨d, hd, he⟩ := h
    unfold HashTable.insert_probe
    by_cases hemp : HashTable.get_key (t n) = 0xFFFFF
    · refine ⟨0, by omega, ?_, ?_, ?_⟩
      · simp only [hemp, bne_self_eq_false, Bool.false_eq_true, if_false, Nat.add_zero,
          Nat.mod_eq_of_lt hn]
      · rw [Nat.add_zero, Nat.mod_eq_of_lt hn]; exact hemp
      · intro d' hd'; omega
    · have hne : (HashTable.get_key (t n) != 0xFFFFF) = true := by
        simpa [bne_iff_ne] using hemp
      rw [if_pos hne, ht_next]
      have hd0 : d ≠ 0 := by
        intro h0
        rw [h0, Nat.add_zero, Nat.mod_eq_of_lt hn] at he
        exact hemp he
      have hex : ∃ d1, d1 < f ∧
          HashTable.get_key (t (((n + 1) % 8192 + d1) % 8192)) = 0xFFFFF := by
        refine ⟨d - 1, by omega, ?_⟩
        have : ((n + 1) % 8192 + (d - 1)) % 8192 = (n + d) % 8192 := by omega
        rw [this]; exact he
      obtain ⟨d1, hd1, hp, hempty, hfull⟩ := ih _ (Nat.mod_lt _ (by norm_num)) hex
      have e1 : ((n + 1) % 8192 + d1) % 8192 = (n + (d1 + 1)) % 8192 := by omega
      refine ⟨d1 + 1, by omega, ?_, ?_, ?_⟩
      · rw [hp, e1]
      · rw [← e1]; exact hempty
      · intro d' hd'
        cases d' with
        | zero => rw [Nat.add_zero, Nat.mod_eq_of_lt hn]; exact hemp
        | succ k =>
          have := hfull k (by omega)
          have e2 : ((n + 1) % 8192 + k) % 8192 = (n + (k + 1)) % 8192 := by omega
          rw [← e2]; exact this

theorem countP_range_update (f g : Nat → Bool) (s : Nat) :
    ∀ n, s < n → (∀ i, i ≠ s → f i = g i) → f s = false → g s = true →
      (List.range n).countP g = (List.range n).countP f + 1 := by
  intro n
  induction n with
  | zero => intro h; omega
  | succ n ih =>
    intro hs hfg hf hg
    rw [List.range_succ, List.countP_append, List.countP_append]
    by_cases hsn : s = n
    · subst hsn
      have hsame : (List.range s).countP g = (List.range s).countP f := by
        apply List.countP_congr
        intro i hi
        rw [List.mem_range] at hi
        rw [hfg i (by omega)]
      simp [hsame, hf, hg]
    · have := ih (by omega) hfg hf hg
      have hn : f n = g n := hfg n (fun h => hsn h.symm)
      have h1 : List.countP g [n] = List.countP f [n] := by
        simp only [List.countP_cons, List.countP_nil, hn]
      rw [this, h1]
      omega

theorem ht_exists_empty (t : Nat → Nat) (h : HashTable.occ t < 8192) :
    ∃ i, i < 8192 ∧ HashTable.get_key (t i) = 0xFFFFF := by
  by_contra hcon
  have hall : ∀ i ∈ List.range 8192, (HashTable.get_key (t i) != 0xFFFFF) = true := by
    intro i hi
    rw [List.mem_range] at hi
    have : ¬ HashTable.get_key (t i) = 0xFFFFF := fun he => hcon ⟨i, hi, he⟩
    simpa [bne_iff_ne] using this
  have : HashTable.occ t = 8192 := by
    unfold HashTable.occ
    rw [List.countP_eq_length.2 hall, List.length_range]
  omega

theorem ht_exists_empty_from (t : Nat → Nat) (h : HashTable.occ t < 8192) (n : Nat)
    (hn : n < 8192) :
    ∃ d, d < 8192 ∧ HashTable.get_key (t ((n + d) % 8192)) = 0xFFFFF := by
  obtain ⟨i, hi, he⟩ := ht_exists_empty t h
  refine ⟨(i + 8192 - n) % 8192, Nat.mod_lt _ (by norm_num), ?_⟩
  have : (n + (i + 8192 - n) % 8192) % 8192 = i := by omega
  rw [this]; exact he

theorem ht_clear_key (i : Nat) : HashTable.get_key (HashTable.clear.table i) = 0xFFFFF := by
  simp only [HashTable.clear, HashTable.get_key, Nat.shiftRight_eq_div_pow]

theorem ht_clear_rep : HTRep HashTable.clear.table [] := by
  refine ⟨?_, ?_, ?_, ?_, ?_⟩
  · intro e he; cases he
  · exact List.nodup_nil
  · intro i _; left; exact ht_clear_key i
  · intro e he; cases he
  · unfold HashTable.occ
    rw [List.length_nil, List.countP_eq_zero]
    intro i _
    rw [ht_clear_key]
    simp

theorem ht_get_absent (t : Nat → Nat) (m : List (Nat × Nat)) (h : HTRep t m)
    (hlen : m.length < 8192) (key : Nat) (hk : key ∉ m.map Prod.fst) :
    HashTable.get ⟨t⟩ key = some none := by
  unfold HashTable.get
  apply ht_get_probe_absent t key _ 8192 _ (ht_norm_key_lt key)
  · exact ht_exists_empty_from t (by rw [h.occ]; exact hlen) _ (ht_norm_key_lt key)
  · intro i hi hne hkey
    rcases h.slots i hi with he | ⟨e, hem, hte⟩
    · exact hne he
    · apply hk
      rw [hte, ht_slot_key _ _ (by have := h.keys_lt e hem; omega)] at hkey
      rw [List.mem_map]
      exact ⟨e, hem, hkey⟩

theorem ht_get_present (t : Nat → Nat) (m : List (Nat × Nat)) (h : HTRep t m)
    (key code : Nat) (hk : (key, code) ∈ m) (hc : code < 4096) :
    HashTable.get ⟨t⟩ key = some (some code) := by
  unfold HashTable.get
  obtain ⟨d, hd, hslot, hpath⟩ := h.path (key, code) hk
  have hlt := h.keys_lt (key, code) hk
  simp only at hlt hslot hpath
  have hkey20 : key < 2 ^ 20 := by omega
  have := ht_get_probe_present t key (HashTable.slot key code) d 8192 _ (ht_norm_key_lt key) hd
    hslot (ht_slot_key key code hkey20) (by omega) hpath
  rw [this, ht_slot_code key code hkey20, Nat.mod_eq_of_lt (by omega)]

theorem ht_insert_rep (t : Nat → Nat) (m : List (Nat × Nat)) (h : HTRep t m)
    (hlen : m.length < 8192) (key code : Nat) (hk : key ∉ m.map Prod.fst)
    (hkey : key < 0xFFFFF) :
    ∃ t1, HashTable.insert ⟨t⟩ key code = some ⟨t1⟩ ∧ HTRep t1 ((key, code) :: m) := by
  have hkey20 : key < 2 ^ 20 := by omega
  obtain ⟨d, hd, hp, hempty, hfull⟩ := ht_insert_probe t 8192 _ (ht_norm_key_lt key)
    (ht_exists_empty_from t (by rw [h.occ]; exact hlen) _ (ht_norm_key_lt key))
  have hs : (HashTable.norm_key key + d) % 8192 < 8192 := Nat.mod_lt _ (by norm_num)
  refine ⟨fun i => if i = (HashTable.norm_key key + d) % 8192 then
      HashTable.put_key key ||| HashTable.put_code code else t i, ?_, ?_⟩
  · simp only [HashTable.insert, hp]
  · have hnew : HashTable.get_key (HashTable.slot key code) ≠ 0xFFFFF := by
      rw [ht_slot_key key code hkey20]; omega
    refine ⟨?_, ?_, ?_, ?_, ?_⟩
    · intro e he
      rcases List.mem_cons.1 he with rfl | he
      · exact hkey
      · exact h.keys_lt e he
    · rw [List.map_cons, List.nodup_cons]
      exact ⟨hk, h.nodup⟩
    · intro i hi
      by_cases his : i = (HashTable.norm_key key + d) % 8192
      · right
        exact ⟨(key, code), List.mem_cons_self _ _, by simp only [his, if_true, HashTable.slot]⟩
      · rcases h.slots i hi with he | ⟨e, hem, hte⟩
        · left; simp only [his, if_false]; exact he
        · right
          exact ⟨e, List.mem_cons_of_mem _ hem, by simp only [his, if_false]; exact hte⟩
    · intro e he
      rcases List.mem_cons.1 he with rfl | he
      · refine ⟨d, hd, by simp only [if_true, HashTable.slot], ?_⟩
        intro d' hd'
        have hne := hfull d' hd'
        have hdiff : (HashTable.norm_key key + d') % 8192
            ≠ (HashTable.norm_key key + d) % 8192 := by
          intro heq; rw [heq] at hne; exact hne hempty
        simp only [hdiff, if_false]
        refine ⟨hne, ?_⟩
        rcases h.slots _ (Nat.mod_lt (HashTable.norm_key key + d') (by norm_num)) with he | ⟨e, hem, hte⟩
        · exact absurd he hne
        · rw [hte, ht_slot_key _ _ (by have := h.keys_lt e hem; omega)]
          intro heq
          apply hk
          rw [List.mem_map]
          exact ⟨e, hem, heq⟩
      · obtain ⟨d0, hd0, hslot, hpath⟩ := h.path e he
        have hslotne : HashTable.get_key (t ((HashTable.norm_key e.1 + d0) % 8192)) ≠ 0xFFFFF := by
          rw [hslot, ht_slot_key _ _ (by have := h.keys_lt e he; omega)]
          have := h.keys_lt e he; omega
        refine ⟨d0, hd0, ?_, ?_⟩
        · have hdiff : (HashTable.norm_key e.1 + d0) % 8192
              ≠ (HashTable.norm_key key + d) % 8192 := by
            intro heq; rw [heq] at hslotne; exact hslotne hempty
          simp only [hdiff, if_false]; exact hslot
        · intro d' hd'
          have hp' := hpath d' hd'
          have hdiff : (HashTable.norm_key e.1 + d') % 8192
              ≠ (HashTable.norm_key key + d) % 8192 := by
            intro heq; rw [heq] at hp'; exact hp'.1 hempty
          simp only [hdiff, if_false]; exact hp'
    · unfold HashTable.occ
      rw [List.length_cons, ← h.occ]
      unfold HashTable.occ
      apply countP_range_update _ _ ((HashTable.norm_key key + d) % 8192) 8192 hs
      · intro i hi; simp only [hi, if_false]
      · simp only [hempty, bne_self_eq_false]
      · simp only [if_true]
        have : HashTable.get_key (HashTable.put_key key ||| HashTable.put_code code) ≠ 0xFFFFF :=
          hnew
        simpa [bne_iff_ne] using this

end gif

namespace gif

/-! ## Encoder: staging block and shift register -/

theorem map_getD_range (s : List Nat) (g : Nat → Nat) (h : ∀ i, i < s.length → g i = s.getD i 0) :
    (List.range s.length).map g = s := by
  apply List.ext_getElem
  · simp
  · intro i h1 h2
    simp only [List.getElem_map, List.getElem_range]
    rw [h i h2, List.getD_eq_getElem _ _ h2]

theorem stg_bytes (buf : Nat → Nat) (s : List Nat) (h : Stg buf s) :
    arr_bytes buf (buf 0 + 1) = s.length :: s := by
  obtain ⟨_, h0, hi⟩ := h
  unfold arr_bytes
  rw [h0, List.range_succ_eq_map, List.map_cons, List.map_map, h0]
  congr 1
  exact map_getD_range s _ hi

theorem stg_nil (buf : Nat → Nat) (h : buf 0 = 0) : Stg buf [] :=
  ⟨by simp, h, fun i hi => by simp at hi⟩

/-- `write_buf(c)` for a byte `c`, the session having room for what goes out. -/
theorem enc_write_buf (st : LZEncoder) (p : Packer) (c : Nat) (hc : c < 256)
    (hs : PkSim st p) (hroom : st.f.Room (p.put c).1.length) :
    ∃ st1, st.write_buf c = (st1, true) ∧ st1.f = st.f.push (p.put c).1 ∧
      PkSim st1 (p.put c).2 ∧ st1.logic = st.logic := by
  have hcf : ¬ c = LZ.flush_output := by unfold LZ.flush_output; omega
  obtain ⟨hd, hn, hlen, h0, hi⟩ := hs
  unfold LZEncoder.write_buf
  rw [if_neg hcf]
  by_cases hfull : p.stg.length = 255
  · have hb : st.buf 0 = 255 := by rw [h0, hfull]
    have hput : p.put c = (255 :: p.stg, { p with stg := [c % 256] }) := by
      unfold Packer.put; rw [if_pos hfull]
    rw [hput] at hroom ⊢
    have hbytes := stg_bytes st.buf p.stg ⟨hlen, h0, hi⟩
    rw [hfull] at hbytes
    rw [if_pos hb, hbytes]
    simp only [List.length_cons] at hroom
    rw [GifIO_write_bytes_room st.f (255 :: p.stg) (by simpa using hroom)]
    refine ⟨_, rfl, rfl, ⟨hd, hn, ?_, ?_, ?_⟩, rfl⟩
    · simp
    · simp
    · intro i hi'
      simp only [List.length_cons, List.length_nil] at hi'
      have : i = 0 := by omega
      subst this
      simp [Nat.mod_eq_of_lt hc]
  · have hb : ¬ st.buf 0 = 255 := by rw [h0]; exact hfull
    have hput : p.put c = ([], { p with stg := p.stg ++ [c % 256] }) := by
      unfold Packer.put; rw [if_neg hfull]
    rw [hput] at hroom ⊢
    rw [if_neg hb]
    have hlt : p.stg.length + 1 < 256 := by omega
    have hpush : st.f.push [] = st.f := GifIO_push_nil st.f (by simpa using hroom)
    refine ⟨_, rfl, hpush.symm, ⟨hd, hn, ?_, ?_, ?_⟩, rfl⟩
    · simp only [List.length_append, List.length_cons, List.length_nil]; omega
    · simp only [if_true, h0, Nat.mod_eq_of_lt hlt, List.length_append, List.length_cons,
        List.length_nil]
    · intro i hi'
      simp only [List.length_append, List.length_cons, List.length_nil] at hi'
      have hne : ¬ i + 1 = 0 := by omega
      simp only [hne, if_false, h0, Nat.mod_eq_of_lt hlt]
      by_cases hil : i = p.stg.length
      · subst hil
        simp [List.getD_eq_getElem?_getD]
      · have hil2 : i < p.stg.length := by omega
        have hne2 : ¬ i + 1 = p.stg.length + 1 := by omega
        rw [if_neg hne2, hi i hil2]
        simp only [List.getD_eq_getElem?_getD]
        rw [List.getElem?_append_left hil2]

theorem and_ff_lt (x : Nat) : x &&& 0xff < 256 := by
  have : (0xff : Nat) = 2 ^ 8 - 1 := by norm_num
  rw [this, Nat.and_pow_two_sub_one_eq_mod]
  exact Nat.mod_lt _ (by norm_num)

/-- `write_buf(flush_output)`. -/
theorem enc_write_flush (st : LZEncoder) (p : Packer) (hs : PkSim st p)
    (hroom : st.f.Room p.close.1.length) :
    ∃ st1, st.write_buf LZ.flush_output = (st1, true) ∧ st1.f = st.f.push p.close.1 ∧
      PkSim st1 p.close.2 ∧ st1.logic = st.logic := by
  obtain ⟨hd, hn, hlen, h0, hi⟩ := hs
  unfold LZEncoder.write_buf
  rw [if_pos rfl]
  have hone : arr_bytes (fun i => if i = 0 then 0 else st.buf i) 1 = [0] := by
    simp [arr_bytes, List.range_succ]
  by_cases hz : p.stg.length = 0
  · have hb : st.buf 0 = 0 := by rw [h0, hz]
    have hcl : p.close.1 = [0] := by
      simp only [Packer.close, hz, ne_eq, not_true_eq_false, if_false, List.nil_append]
    rw [hcl] at hroom ⊢
    simp only [hb, bne_self_eq_false, Bool.false_eq_true, if_false, Bool.false_and, hone]
    rw [GifIO_write_bytes_room st.f [0] hroom]
    exact ⟨_, rfl, rfl, ⟨hd, hn, stg_nil _ (by simp)⟩, rfl⟩
  · have hb : ¬ st.buf 0 = 0 := by rw [h0]; exact hz
    have hcl : p.close.1 = (p.stg.length :: p.stg) ++ [0] := by
      simp only [Packer.close, ne_eq, hz, not_false_eq_true, if_true]
    rw [hcl] at hroom ⊢
    have hbytes := stg_bytes st.buf p.stg ⟨hlen, h0, hi⟩
    have hne : (st.buf 0 != 0) = true := by simpa [bne_iff_ne] using hb
    have hr1 : st.f.Room (p.stg.length :: p.stg).length :=
      GifIO_Room_mono st.f hroom (by simp)
    have hr2 : (st.f.push (p.stg.length :: p.stg)).Room [0].length :=
      GifIO_push_room st.f _ _ (by simpa using hroom)
    simp only [hne, if_true, hbytes, GifIO_write_bytes_room st.f _ hr1, Bool.not_true,
      Bool.and_false, Bool.false_eq_true, if_false, hone, GifIO_write_bytes_room _ _ hr2]
    rw [GifIO_push_push st.f _ _ hr1]
    exact ⟨_, rfl, rfl, ⟨hd, hn, stg_nil _ (by simp)⟩, rfl⟩

theorem packer_put_dword (p : Packer) (c : Nat) : (p.put c).2.dword = p.dword := by
  unfold Packer.put; split <;> rfl

theorem packer_put_nbits (p : Packer) (c : Nat) : (p.put c).2.nbits = p.nbits := by
  unfold Packer.put; split <;> rfl

/-- The loop `while (crnt_shift_state >= 8)`. -/
theorem enc_pack_loop :
    ∀ (fuel : Nat) (st : LZEncoder) (p : Packer) (res : Bool),
      PkSim st p → st.f.Room (Packer.shift fuel p).1.length →
      ∃ st1, LZEncoder.pack_loop fuel st res = (st1, res) ∧
        st1.f = st.f.push (Packer.shift fuel p).1 ∧
        PkSim st1 (Packer.shift fuel p).2 ∧ st1.logic = st.logic := by
  intro fuel
  induction fuel with
  | zero =>
    intro st p res hs hroom
    exact ⟨st, rfl, (GifIO_push_nil st.f (by simpa [Packer.shift] using hroom)).symm, hs, rfl⟩
  | succ fuel ih =>
    intro st p res hs hroom
    by_cases h8 : p.nbits ≥ 8
    · have hsh : Packer.shift (fuel + 1) p =
          ((p.put (p.dword &&& 0xff)).1 ++
            (Packer.shift fuel { (p.put (p.dword &&& 0xff)).2 with
              dword := p.dword >>> 8, nbits := p.nbits - 8 }).1,
           (Packer.shift fuel { (p.put (p.dword &&& 0xff)).2 with
              dword := p.dword >>> 8, nbits := p.nbits - 8 }).2) := by
        simp only [Packer.shift, h8, if_true]
      rw [hsh] at hroom ⊢
      simp only [List.length_append] at hroom
      have hra := GifIO_Room_mono st.f hroom (Nat.le_add_right _ _)
      obtain ⟨st1, hw, hf1, hs1, hl1⟩ := enc_write_buf st p (p.dword &&& 0xff) (and_ff_lt _) hs hra
      have hroom2 := GifIO_push_room st.f _ _ hroom
      rw [← hf1] at hroom2
      obtain ⟨hd, hn, hstg⟩ := hs
      obtain ⟨hd1, hn1, hstg1⟩ := hs1
      rw [packer_put_dword] at hd1
      rw [packer_put_nbits] at hn1
      obtain ⟨st2, hl, hf2, hs2, hl2⟩ := ih
        { st1 with crnt_shift_dword := st1.crnt_shift_dword >>> 8,
                   crnt_shift_state := st1.crnt_shift_state - 8 }
        { (p.put (p.dword &&& 0xff)).2 with dword := p.dword >>> 8, nbits := p.nbits - 8 }
        res ⟨by simp only [hd1], by simp only [hn1], hstg1⟩ hroom2
      refine ⟨st2, ?_, ?_, hs2, ?_⟩
      · have h8s : st.crnt_shift_state ≥ 8 := by rw [hn]; exact h8
        unfold LZEncoder.pack_loop
        rw [if_pos h8s, hd, hw]
        simp only [Bool.not_true, Bool.false_eq_true, if_false]
        exact hl
      · rw [hf2]
        simp only [hf1]
        exact GifIO_push_push st.f _ _ hra
      · rw [hl2, ← hl1]; rfl
    · have hsh : Packer.shift (fuel + 1) p = ([], p) := by
        simp only [Packer.shift, h8, if_false]
      rw [hsh] at hroom ⊢
      have h8s : ¬ st.crnt_shift_state ≥ 8 := by rw [hs.2.1]; exact h8
      refine ⟨st, ?_, (GifIO_push_nil st.f (by simpa using hroom)).symm, hs, rfl⟩
      unfold LZEncoder.pack_loop
      rw [if_neg h8s]

/-- The loop `while (crnt_shift_state > 0)`. -/
theorem enc_flush_loop :
    ∀ (fuel : Nat) (st : LZEncoder) (p : Packer) (res : Bool),
      PkSim st p → st.f.Room (Packer.drain fuel p).1.length →
      ∃ st1, LZEncoder.flush_loop fuel st res = (st1, res) ∧
        st1.f = st.f.push (Packer.drain fuel p).1 ∧
        PkSim st1 (Packer.drain fuel p).2 ∧ st1.logic = st.logic := by
  intro fuel
  induction fuel with
  | zero =>
    intro st p res hs hroom
    exact ⟨st, rfl, (GifIO_push_nil st.f (by simpa [Packer.drain] using hroom)).symm, hs, rfl⟩
  | succ fuel ih =>
    intro st p res hs hroom
    by_cases h8 : p.nbits > 0
    · have hsh : Packer.drain (fuel + 1) p =
          ((p.put (p.dword &&& 0xff)).1 ++
            (Packer.drain fuel { (p.put (p.dword &&& 0xff)).2 with
              dword := p.dword >>> 8, nbits := p.nbits - 8 }).1,
           (Packer.drain fuel { (p.put (p.dword &&& 0xff)).2 with
              dword := p.dword >>> 8, nbits := p.nbits - 8 }).2) := by
        simp only [Packer.drain, h8, if_true]
      rw [hsh] at hroom ⊢
      simp only [List.length_append] at hroom
      have hra := GifIO_Room_mono st.f hroom (Nat.le_add_right _ _)
      obtain ⟨st1, hw, hf1, hs1, hl1⟩ := enc_write_buf st p (p.dword &&& 0xff) (and_ff_lt _) hs hra
      have hroom2 := GifIO_push_room st.f _ _ hroom
      rw [← hf1] at hroom2
      obtain ⟨hd, hn, hstg⟩ := hs
      obtain ⟨hd1, hn1, hstg1⟩ := hs1
      rw [packer_put_dword] at hd1
      rw [packer_put_nbits] at hn1
      obtain ⟨st2, hl, hf2, hs2, hl2⟩ := ih
        { st1 with crnt_shift_dword := st1.crnt_shift_dword >>> 8,
                   crnt_shift_state := st1.crnt_shift_state - 8 }
        { (p.put (p.dword &&& 0xff)).2 with dword := p.dword >>> 8, nbits := p.nbits - 8 }
        res ⟨by simp only [hd1], by simp only [hn1], hstg1⟩ hroom2
      refine ⟨st2, ?_, ?_, hs2, ?_⟩
      · have h8s : st.crnt_shift_state > 0 := by rw [hn]; exact h8
        unfold LZEncoder.flush_loop
        rw [if_pos h8s, hd, hw]
        simp only [Bool.not_true, Bool.false_eq_true, if_false]
        exact hl
      · rw [hf2]
        simp only [hf1]
        exact GifIO_push_push st.f _ _ hra
      · rw [hl2, ← hl1]; rfl
    · have hsh : Packer.drain (fuel + 1) p = ([], p) := by
        simp only [Packer.drain, h8, if_false]
      rw [hsh] at hroom ⊢
      have h8s : ¬ st.crnt_shift_state > 0 := by rw [hs.2.1]; exact h8
      refine ⟨st, ?_, (GifIO_push_nil st.f (by simpa using hroom)).symm, hs, rfl⟩
      unfold LZEncoder.flush_loop
      rw [if_neg h8s]

end gif

namespace gif

/-! ## Encoder: logic -/

theorem enc_logic_eq (st1 st : LZEncoder) (h : st1.logic = st.logic) :
    st1.col_res = st.col_res ∧ st1.clear_code = st.clear_code ∧ st1.eof_code = st.eof_code ∧
      st1.run_code = st.run_code ∧ st1.run_bits = st.run_bits ∧ st1.max_code = st.max_code ∧
      st1.crnt_code = st.crnt_code ∧ st1.pix_count = st.pix_count ∧ st1.ht = st.ht := by
  simpa only [LZEncoder.logic, Prod.mk.injEq] using h

/-- `encode(code)` for a code other than `flush_output`. -/
theorem enc_encode (cr : Nat) (st : LZEncoder) (a : AEnc) (code : Nat) (hsim : EncSim cr st a)
    (hcode : code ≤ 4095) (hroom : st.f.Room (a.encode cr code).1.length) :
    ∃ st1, st.encode code = (st1, true) ∧ st1.f = st.f.push (a.encode cr code).1 ∧
      EncSim cr st1 (a.encode cr code).2 := by
  have hcf : ¬ code = LZ.flush_output := by unfold LZ.flush_output; omega
  obtain ⟨hd, hn, hstg⟩ := hsim.pk
  have hfuel : st.crnt_shift_state + st.run_bits = a.pk.nbits + a.run_bits := by
    rw [hn, hsim.run_bits]
  have hemit : a.pk.emit code a.run_bits =
      Packer.shift (st.crnt_shift_state + st.run_bits)
        { a.pk with dword := a.pk.dword ||| (code <<< a.pk.nbits),
                    nbits := a.pk.nbits + a.run_bits } := by
    rw [hfuel]; rfl
  have hroom1 : st.f.Room (a.pk.emit code a.run_bits).1.length := hroom
  rw [hemit] at hroom1
  obtain ⟨st1, hl, hf1, hs1, hl1⟩ := enc_pack_loop (st.crnt_shift_state + st.run_bits)
    { st with crnt_shift_dword := st.crnt_shift_dword ||| (code <<< st.crnt_shift_state),
              crnt_shift_state := st.crnt_shift_state + st.run_bits }
    { a.pk with dword := a.pk.dword ||| (code <<< a.pk.nbits),
                nbits := a.pk.nbits + a.run_bits } true
    ⟨by simp only [hd, hn], by simp only [hn, hsim.run_bits], hstg⟩ hroom1
  rw [← hemit] at hf1 hs1
  obtain ⟨e1, e2, e3, e4, e5, e6, e7, e8, e9⟩ := enc_logic_eq _ _ hl1
  simp only at e1 e2 e3 e4 e5 e6 e7 e8 e9 hf1
  have hcm : code ≤ LZ.max_code := hcode
  unfold LZEncoder.encode
  simp only [hcf, if_false, hl]
  by_cases hg : st.run_code ≥ st.max_code
  · have hg1 : st1.run_code ≥ st1.max_code := by rw [e4, e6]; exact hg
    have hga : a.run_code cr ≥ a.max_code := by
      rw [← hsim.run_code, ← hsim.max_code]; exact hg
    have hae : (a.encode cr code) = ((a.pk.emit code a.run_bits).1,
        { a with pk := (a.pk.emit code a.run_bits).2, run_bits := a.run_bits + 1,
                 max_code := 2 ^ (a.run_bits + 1) }) := by
      simp only [AEnc.encode, hga, hcm, decide_True, Bool.and_self, if_true]
    simp only [hg1, hcm, decide_True, Bool.and_self, if_true]
    refine ⟨_, rfl, ?_, ?_⟩
    · rw [hae]; exact hf1
    · rw [hae]
      exact ⟨e1.trans hsim.col_res, e2.trans hsim.clear_code, e3.trans hsim.eof_code,
        e4.trans hsim.run_code, by simp only [e5, hsim.run_bits],
        by simp only [e5, hsim.run_bits], e7.trans hsim.crnt_code, e8.trans hsim.pix_count,
        hs1, by rw [e9]; exact hsim.ht⟩
  · have hg1 : ¬ st1.run_code ≥ st1.max_code := by rw [e4, e6]; exact hg
    have hga : ¬ a.run_code cr ≥ a.max_code := by
      rw [← hsim.run_code, ← hsim.max_code]; exact hg
    have hae : (a.encode cr code) = ((a.pk.emit code a.run_bits).1,
        { a with pk := (a.pk.emit code a.run_bits).2 }) := by
      simp only [AEnc.encode, hga, decide_False, Bool.false_and, Bool.false_eq_true, if_false]
    simp only [hg1, decide_False, Bool.false_and, Bool.false_eq_true, if_false]
    refine ⟨_, rfl, ?_, ?_⟩
    · rw [hae]; exact hf1
    · rw [hae]
      exact ⟨e1.trans hsim.col_res, e2.trans hsim.clear_code, e3.trans hsim.eof_code,
        e4.trans hsim.run_code, e5.trans hsim.run_bits, e6.trans hsim.max_code,
        e7.trans hsim.crnt_code, e8.trans hsim.pix_count, hs1, by rw [e9]; exact hsim.ht⟩

/-- `encode(flush_output)`. -/
theorem enc_encode_flush (cr : Nat) (st : LZEncoder) (a : AEnc) (hsim : EncSim cr st a)
    (hroom : st.f.Room a.pk.flush.1.length) :
    ∃ st1, st.encode LZ.flush_output = (st1, true) ∧ st1.f = st.f.push a.pk.flush.1 ∧
      EncSim cr st1 { a with pk := a.pk.flush.2 } := by
  obtain ⟨hd, hn, hstg⟩ := hsim.pk
  have hfl : a.pk.flush = ((Packer.drain a.pk.nbits a.pk).1 ++
      (Packer.close { (Packer.drain a.pk.nbits a.pk).2 with nbits := 0 }).1,
      (Packer.close { (Packer.drain a.pk.nbits a.pk).2 with nbits := 0 }).2) := rfl
  rw [hfl] at hroom ⊢
  simp only [List.length_append] at hroom
  have hra := GifIO_Room_mono st.f hroom (Nat.le_add_right _ _)
  rw [← hn] at hra
  obtain ⟨st1, hl, hf1, hs1, hl1⟩ := enc_flush_loop st.crnt_shift_state st a.pk true hsim.pk hra
  rw [hn] at hf1 hs1 hra
  have hroom2 := GifIO_push_room st.f _ _ hroom
  rw [← hf1] at hroom2
  have hs1' : PkSim { st1 with crnt_shift_state := 0 }
      { (Packer.drain a.pk.nbits a.pk).2 with nbits := 0 } := ⟨hs1.1, rfl, hs1.2.2⟩
  obtain ⟨st2, hw, hf2, hs2, hl2⟩ := enc_write_flush { st1 with crnt_shift_state := 0 }
    { (Packer.drain a.pk.nbits a.pk).2 with nbits := 0 } hs1' hroom2
  have hl2' : st2.logic = st.logic := by rw [hl2, ← hl1]; rfl
  obtain ⟨e1, e2, e3, e4, e5, e6, e7, e8, e9⟩ := enc_logic_eq _ _ hl2'
  have hnf : ¬ LZ.flush_output ≤ LZ.max_code := by unfold LZ.flush_output LZ.max_code; omega
  unfold LZEncoder.encode
  simp only [if_true, hl, hw, Bool.not_true, Bool.false_eq_true, if_false, hnf, decide_False,
    Bool.and_false]
  refine ⟨st2, rfl, ?_, ?_⟩
  · rw [hf2]; simp only [hf1]
    exact GifIO_push_push st.f _ _ hra
  · exact ⟨e1.trans hsim.col_res, e2.trans hsim.clear_code, e3.trans hsim.eof_code,
      e4.trans hsim.run_code, e5.trans hsim.run_bits, e6.trans hsim.max_code,
      e7.trans hsim.crnt_code, e8.trans hsim.pix_count, hs2, by rw [e9]; exact hsim.ht⟩

end gif

namespace gif

theorem key_eq (p x : Nat) : (p <<< 8) + x = p * 256 + x := by
  rw [Nat.shiftLeft_eq]

theorem hmap_length (cr : Nat) (dict : List (Nat × Nat)) : (hmap cr dict).length = dict.length := by
  induction dict with
  | nil => rfl
  | cons e older ih => simp only [hmap, List.length_cons, ih]

theorem dlookup_lt (cr : Nat) (dict : List (Nat × Nat)) (p x c : Nat)
    (h : dlookup cr dict p x = some c) : c < 2 ^ cr + 2 + dict.length := by
  induction dict with
  | nil => simp [dlookup] at h
  | cons e older ih =>
    unfold dlookup at h
    by_cases he : e = (p, x)
    · rw [if_pos he] at h
      simp only [Option.some.injEq] at h
      simp only [List.length_cons]; omega
    · rw [if_neg he] at h
      have := ih h
      simp only [List.length_cons]; omega

theorem dlookup_ge (cr : Nat) (dict : List (Nat × Nat)) (p x c : Nat)
    (h : dlookup cr dict p x = some c) : 2 ^ cr + 2 ≤ c := by
  induction dict with
  | nil => simp [dlookup] at h
  | cons e older ih =>
    unfold dlookup at h
    by_cases he : e = (p, x)
    · rw [if_pos he] at h
      simp only [Option.some.injEq] at h
      omega
    · rw [if_neg he] at h
      exact ih h

theorem hmap_mem_of_lookup (cr : Nat) (dict : List (Nat × Nat)) (p x c : Nat)
    (h : dlookup cr dict p x = some c) : ((p <<< 8) + x, c) ∈ hmap cr dict := by
  induction dict with
  | nil => simp [dlookup] at h
  | cons e older ih =>
    unfold dlookup at h
    by_cases he : e = (p, x)
    · rw [if_pos he] at h
      simp only [Option.some.injEq] at h
      subst he
      simp only [hmap, List.mem_cons, Prod.mk.injEq, true_and]
      left; exact h.symm
    · rw [if_neg he] at h
      simp only [hmap, List.mem_cons]
      right; exact ih h

theorem hmap_not_mem (cr : Nat) (dict : List (Nat × Nat)) (p x : Nat)
    (hd : ∀ e ∈ dict, e.2 < 256) (hx : x < 256) (h : dlookup cr dict p x = none) :
    (p <<< 8) + x ∉ (hmap cr dict).map Prod.fst := by
  induction dict with
  | nil => simp [hmap]
  | cons e older ih =>
    unfold dlookup at h
    by_cases he : e = (p, x)
    · rw [if_pos he] at h; cases h
    · rw [if_neg he] at h
      simp only [hmap, List.map_cons, List.mem_cons, not_or]
      refine ⟨?_, ih (fun e' he' => hd e' (List.mem_cons_of_mem _ he')) h⟩
      intro hkey
      rw [key_eq, key_eq] at hkey
      have h2 := hd e (List.mem_cons_self _ _)
      apply he
      have h1 : e.1 = p := by omega
      have h3 : e.2 = x := by omega
      exact Prod.ext h1 h3

theorem key_lt (p x : Nat) (hp : p ≤ 4094) (hx : x < 256) : (p <<< 8) + x < 0xFFFFF := by
  rw [key_eq]; omega

/-- The body of the pixel loop. -/
theorem enc_encode_pixel (cr : Nat) (st : LZEncoder) (a : AEnc) (code pixel : Nat)
    (hsim : EncSim cr st a) (hr : ARange cr a) (hcode : code ≤ 4094) (hpix : pixel < 256)
    (hroom : st.f.Room (a.pixel cr code pixel).1.length) :
    ∃ st1, st.encode_pixel code pixel = some (st1, (a.pixel cr code pixel).2.2, true) ∧
      st1.f = st.f.push (a.pixel cr code pixel).1 ∧
      EncSim cr st1 (a.pixel cr code pixel).2.1 := by
  obtain ⟨hcr, hent, hrc⟩ := hr
  have hrc' : 2 ^ cr + 2 + a.dict.length ≤ 4095 := hrc
  have hdl : a.dict.length ≤ 4095 := le_trans (Nat.le_add_left _ _) hrc'
  have hlen : (hmap cr a.dict).length < 8192 := by rw [hmap_length]; omega
  cases hlk : dlookup cr a.dict code pixel with
  | some c =>
    have hpx : a.pixel cr code pixel = ([], a, c) := by simp only [AEnc.pixel, hlk]
    rw [hpx] at hroom ⊢
    have hget := ht_get_present st.ht.table _ hsim.ht _ c (hmap_mem_of_lookup cr _ _ _ _ hlk)
      (by have := dlookup_lt cr _ _ _ _ hlk; omega)
    refine ⟨st, ?_, (GifIO_push_nil st.f (by simpa using hroom)).symm, hsim⟩
    simp only [LZEncoder.encode_pixel, hget]
  | none =>
    have hget := ht_get_absent st.ht.table _ hsim.ht hlen _
      (hmap_not_mem cr _ code pixel (fun e he => (hent e he).2) hpix hlk)
    by_cases hfull : (a.encode cr code).2.run_code cr ≥ LZ.max_code
    · have hpx : a.pixel cr code pixel =
          ((a.encode cr code).1 ++ ((a.encode cr code).2.encode cr (2 ^ cr)).1,
            { ((a.encode cr code).2.encode cr (2 ^ cr)).2 with
                dict := [], run_bits := cr + 1, max_code := 2 ^ (cr + 1) }, pixel) := by
        simp only [AEnc.pixel, hlk, hfull, if_true]
      rw [hpx] at hroom ⊢
      simp only [List.length_append] at hroom
      have hra := GifIO_Room_mono st.f hroom (Nat.le_add_right _ _)
      obtain ⟨st1, he1, hf1, hs1⟩ := enc_encode cr st a code hsim (by omega) hra
      have hroom2 := GifIO_push_room st.f _ _ hroom
      rw [← hf1] at hroom2
      have hcl : 2 ^ cr ≤ 4095 := by
        have : 2 ^ cr ≤ 2 ^ 11 := Nat.pow_le_pow_right (by norm_num) hcr
        omega
      obtain ⟨st2, he2, hf2, hs2⟩ := enc_encode cr st1 _ (2 ^ cr) hs1 hcl hroom2
      have hfull1 : st1.run_code ≥ LZ.max_code := by rw [hs1.run_code]; exact hfull
      refine ⟨{ st2 with run_code := st2.eof_code + 1, run_bits := st2.col_res + 1,
                         max_code := 2 ^ (st2.col_res + 1), ht := HashTable.clear }, ?_, ?_, ?_⟩
      · simp only [LZEncoder.encode_pixel, hget, he1, Bool.not_true, Bool.false_eq_true, if_false,
          hfull1, if_true, hs1.clear_code, he2]
      · simp only [hf2, hf1]
        exact GifIO_push_push st.f _ _ hra
      · exact ⟨hs2.col_res, hs2.clear_code, hs2.eof_code,
          by simp only [hs2.eof_code, AEnc.run_code, List.length_nil, Nat.add_zero],
          by simp only [hs2.col_res], by simp only [hs2.col_res], hs2.crnt_code, hs2.pix_count,
          hs2.pk, ht_clear_rep⟩
    · have hpx : a.pixel cr code pixel =
          ((a.encode cr code).1,
            { (a.encode cr code).2 with dict := (code, pixel) :: (a.encode cr code).2.dict },
            pixel) := by
        simp only [AEnc.pixel, hlk, hfull, if_false]
      rw [hpx] at hroom ⊢
      obtain ⟨st1, he1, hf1, hs1⟩ := enc_encode cr st a code hsim (by omega) hroom
      have hfull1 : ¬ st1.run_code ≥ LZ.max_code := by rw [hs1.run_code]; exact hfull
      have hdict : (a.encode cr code).2.dict = a.dict := by
        unfold AEnc.encode; split <;> rfl
      have hht := hs1.ht
      rw [hdict] at hht
      obtain ⟨t1, hins, hrep⟩ := ht_insert_rep st1.ht.table _ hht hlen ((code <<< 8) + pixel)
        st1.run_code (hmap_not_mem cr _ code pixel (fun e he => (hent e he).2) hpix hlk)
        (key_lt code pixel hcode hpix)
      refine ⟨{ st1 with ht := ⟨t1⟩, run_code := st1.run_code + 1 }, ?_, hf1, ?_⟩
      · simp only [LZEncoder.encode_pixel, hget, he1, Bool.not_true, Bool.false_eq_true, if_false,
          hfull1, hins]
      · have hrc1 : st1.run_code = 2 ^ cr + 2 + a.dict.length := by
          rw [hs1.run_code, AEnc.run_code, hdict]
        refine ⟨hs1.col_res, hs1.clear_code, hs1.eof_code, ?_, hs1.run_bits, hs1.max_code,
          hs1.crnt_code, hs1.pix_count, hs1.pk, ?_⟩
        · simp only [hrc1, AEnc.run_code, List.length_cons, hdict]; omega
        · simp only [hdict, hmap]
          rw [← hrc1]; exact hrep

end gif

namespace gif

/-! ## Encoder: lines -/

theorem aenc_encode_dict (cr : Nat) (a : AEnc) (code : Nat) :
    (a.encode cr code).2.dict = a.dict := by
  unfold AEnc.encode; split <;> rfl

theorem aenc_encode_crnt (cr : Nat) (a : AEnc) (code : Nat) :
    (a.encode cr code).2.crnt_code = a.crnt_code := by
  unfold AEnc.encode; split <;> rfl

theorem aenc_encode_pix (cr : Nat) (a : AEnc) (code : Nat) :
    (a.encode cr code).2.pix_count = a.pix_count := by
  unfold AEnc.encode; split <;> rfl

theorem aenc_encode_range (cr : Nat) (a : AEnc) (code : Nat) (h : ARange cr a) :
    ARange cr (a.encode cr code).2 := by
  obtain ⟨h1, h2, h3⟩ := h
  refine ⟨h1, ?_, ?_⟩
  · rw [aenc_encode_dict]; exact h2
  · unfold AEnc.run_code at h3 ⊢; rw [aenc_encode_dict]; exact h3

theorem two_pow_le_of_le_11 (cr : Nat) (h : cr ≤ 11) : 2 ^ cr ≤ 2048 := by
  have : 2 ^ cr ≤ 2 ^ 11 := Nat.pow_le_pow_right (by norm_num) h
  simpa using this

theorem aenc_pixel_range (cr : Nat) (a : AEnc) (code pixel : Nat) (h : ARange cr a)
    (hcode : code ≤ 4094) (hpix : pixel < 256) :
    ARange cr (a.pixel cr code pixel).2.1 ∧ (a.pixel cr code pixel).2.2 ≤ 4094 := by
  cases hlk : dlookup cr a.dict code pixel with
  | some c =>
    have hpx : a.pixel cr code pixel = ([], a, c) := by simp only [AEnc.pixel, hlk]
    rw [hpx]
    refine ⟨h, ?_⟩
    have := dlookup_lt cr _ _ _ _ hlk
    have h3 : 2 ^ cr + 2 + a.dict.length ≤ 4095 := h.2.2
    simp only; omega
  | none =>
    have hr1 := aenc_encode_range cr a code h
    by_cases hfull : (a.encode cr code).2.run_code cr ≥ LZ.max_code
    · have hpx : a.pixel cr code pixel =
          ((a.encode cr code).1 ++ ((a.encode cr code).2.encode cr (2 ^ cr)).1,
            { ((a.encode cr code).2.encode cr (2 ^ cr)).2 with
                dict := [], run_bits := cr + 1, max_code := 2 ^ (cr + 1) }, pixel) := by
        simp only [AEnc.pixel, hlk, hfull, if_true]
      rw [hpx]
      refine ⟨⟨h.1, ?_, ?_⟩, by simp only; omega⟩
      · intro e he; simp at he
      · have := two_pow_le_of_le_11 cr h.1
        simp only [AEnc.run_code, List.length_nil]; omega
    · have hpx : a.pixel cr code pixel =
          ((a.encode cr code).1,
            { (a.encode cr code).2 with dict := (code, pixel) :: (a.encode cr code).2.dict },
            pixel) := by
        simp only [AEnc.pixel, hlk, hfull, if_false]
      rw [hpx]
      refine ⟨⟨h.1, ?_, ?_⟩, by simp only; omega⟩
      · intro e he
        simp only [List.mem_cons] at he
        rcases he with rfl | he
        · exact ⟨hcode, hpix⟩
        · exact hr1.2.1 e he
      · unfold AEnc.run_code LZ.max_code at hfull
        simp only [AEnc.run_code, List.length_cons]
        omega

theorem aenc_loop_range (cr : Nat) :
    ∀ (pixels : List Nat) (a : AEnc) (code : Nat), ARange cr a → code ≤ 4094 →
      (∀ x ∈ pixels, x < 256) →
      ARange cr (AEnc.loop cr pixels a code).2.1 ∧ (AEnc.loop cr pixels a code).2.2 ≤ 4094 := by
  intro pixels
  induction pixels with
  | nil => intro a code h hc _; exact ⟨h, hc⟩
  | cons x rest ih =>
    intro a code h hc hp
    have h1 := aenc_pixel_range cr a code x h hc (hp x (List.mem_cons_self _ _))
    exact ih _ _ h1.1 h1.2 (fun y hy => hp y (List.mem_cons_of_mem _ hy))

/-- The pixel loop of `encode_line`. -/
theorem enc_encode_loop (cr : Nat) :
    ∀ (pixels : List Nat) (st : LZEncoder) (a : AEnc) (code : Nat),
      EncSim cr st a → ARange cr a → code ≤ 4094 → (∀ x ∈ pixels, x < 256) →
      st.f.Room (AEnc.loop cr pixels a code).1.length →
      ∃ st1, LZEncoder.encode_loop pixels st code =
          some (st1, (AEnc.loop cr pixels a code).2.2, true) ∧
        st1.f = st.f.push (AEnc.loop cr pixels a code).1 ∧
        EncSim cr st1 (AEnc.loop cr pixels a code).2.1 := by
  intro pixels
  induction pixels with
  | nil =>
    intro st a code hsim _ _ _ hroom
    exact ⟨st, rfl, (GifIO_push_nil st.f (by simpa [AEnc.loop] using hroom)).symm, hsim⟩
  | cons x rest ih =>
    intro st a code hsim hr hc hp hroom
    have hlp : AEnc.loop cr (x :: rest) a code =
        ((a.pixel cr code x).1 ++
          (AEnc.loop cr rest (a.pixel cr code x).2.1 (a.pixel cr code x).2.2).1,
         (AEnc.loop cr rest (a.pixel cr code x).2.1 (a.pixel cr code x).2.2).2) := rfl
    rw [hlp] at hroom ⊢
    simp only [List.length_append] at hroom
    have hra := GifIO_Room_mono st.f hroom (Nat.le_add_right _ _)
    have hx := hp x (List.mem_cons_self _ _)
    obtain ⟨st1, he1, hf1, hs1⟩ := enc_encode_pixel cr st a code x hsim hr hc hx hra
    have hroom2 := GifIO_push_room st.f _ _ hroom
    rw [← hf1] at hroom2
    have hr1 := aenc_pixel_range cr a code x hr hc hx
    obtain ⟨st2, he2, hf2, hs2⟩ := ih st1 _ _ hs1 hr1.1 hr1.2
      (fun y hy => hp y (List.mem_cons_of_mem _ hy)) hroom2
    refine ⟨st2, ?_, ?_, hs2⟩
    · simp only [LZEncoder.encode_loop, he1, Bool.not_true, Bool.false_eq_true, if_false, he2]
    · simp only [hf2, hf1]
      exact GifIO_push_push st.f _ _ hra

theorem aenc_finish_eq (cr : Nat) (a : AEnc) (code : Nat) :
    a.finish cr code =
      ((a.encode cr code).1 ++ ((a.encode cr code).2.encode cr (2 ^ cr + 1)).1 ++
          ((a.encode cr code).2.encode cr (2 ^ cr + 1)).2.pk.flush.1,
        { ((a.encode cr code).2.encode cr (2 ^ cr + 1)).2 with
            pk := ((a.encode cr code).2.encode cr (2 ^ cr + 1)).2.pk.flush.2 }) := rfl

/-- The end of the last `encode_line`: pending code, `eof_code`, flush. -/
theorem enc_finish (cr : Nat) (st : LZEncoder) (a : AEnc) (code : Nat) (hsim : EncSim cr st a)
    (hr : ARange cr a) (hc : code ≤ 4094) (hroom : st.f.Room (a.finish cr code).1.length) :
    ∃ st1 st2 st3, st.encode code = (st1, true) ∧ st1.encode st1.eof_code = (st2, true) ∧
      st2.encode LZ.flush_output = (st3, true) ∧
      st3.f = st.f.push (a.finish cr code).1 ∧ EncSim cr st3 (a.finish cr code).2 := by
  rw [aenc_finish_eq] at hroom ⊢
  simp only [List.length_append] at hroom
  have hra := GifIO_Room_mono st.f hroom (by omega :
    (a.encode cr code).1.length ≤ _)
  obtain ⟨st1, he1, hf1, hs1⟩ := enc_encode cr st a code hsim (by omega) hra
  have hrb : st.f.Room ((a.encode cr code).1 ++
      ((a.encode cr code).2.encode cr (2 ^ cr + 1)).1).length := by
    rw [List.length_append]; exact GifIO_Room_mono st.f hroom (by omega)
  have hroom2 : st1.f.Room ((a.encode cr code).2.encode cr (2 ^ cr + 1)).1.length := by
    rw [hf1]
    exact GifIO_push_room st.f _ _ (by rw [List.length_append] at hrb; exact hrb)
  have heof : 2 ^ cr + 1 ≤ 4095 := by
    have := two_pow_le_of_le_11 cr hr.1; omega
  obtain ⟨st2, he2, hf2, hs2⟩ := enc_encode cr st1 _ (2 ^ cr + 1) hs1 heof hroom2
  have hf2' : st2.f = st.f.push ((a.encode cr code).1 ++
      ((a.encode cr code).2.encode cr (2 ^ cr + 1)).1) := by
    rw [hf2, hf1]; exact GifIO_push_push st.f _ _ hra
  have hroom3 : st2.f.Room ((a.encode cr code).2.encode cr (2 ^ cr + 1)).2.pk.flush.1.length := by
    rw [hf2']
    exact GifIO_push_room st.f _ _ (by rw [List.length_append]; exact hroom)
  obtain ⟨st3, he3, hf3, hs3⟩ := enc_encode_flush cr st2 _ hs2 hroom3
  refine ⟨st1, st2, st3, he1, ?_, he3, ?_, hs3⟩
  · rw [hs1.eof_code]; exact he2
  · rw [hf3, hf2']; exact GifIO_push_push st.f _ _ hrb

end gif

namespace gif

theorem enc_sim_set_crnt (cr : Nat) (st : LZEncoder) (a : AEnc) (code : Nat)
    (h : EncSim cr st a) :
    EncSim cr { st with crnt_code := code } { a with crnt_code := code } :=
  ⟨h.col_res, h.clear_code, h.eof_code, h.run_code, h.run_bits, h.max_code, rfl, h.pix_count,
    h.pk, h.ht⟩

theorem enc_sim_set_pix (cr : Nat) (st : LZEncoder) (a : AEnc) (n : Nat)
    (h : EncSim cr st a) :
    EncSim cr { st with pix_count := n } { a with pix_count := n } :=
  ⟨h.col_res, h.clear_code, h.eof_code, h.run_code, h.run_bits, h.max_code, h.crnt_code, rfl,
    h.pk, h.ht⟩

theorem aenc_set_crnt_range (cr : Nat) (a : AEnc) (code : Nat) (h : ARange cr a) :
    ARange cr { a with crnt_code := code } := h

theorem aenc_set_pix_range (cr : Nat) (a : AEnc) (n : Nat) (h : ARange cr a) :
    ARange cr { a with pix_count := n } := h

theorem aenc_loop_pix (cr : Nat) :
    ∀ (pixels : List Nat) (a : AEnc) (code : Nat),
      (AEnc.loop cr pixels a code).2.1.pix_count = a.pix_count ∧
      (AEnc.loop cr pixels a code).2.1.crnt_code = a.crnt_code := by
  intro pixels
  induction pixels with
  | nil => intro a code; exact ⟨rfl, rfl⟩
  | cons x rest ih =>
    intro a code
    have h := ih (a.pixel cr code x).2.1 (a.pixel cr code x).2.2
    have hp : (a.pixel cr code x).2.1.pix_count = a.pix_count ∧
        (a.pixel cr code x).2.1.crnt_code = a.crnt_code := by
      cases hlk : dlookup cr a.dict code x with
      | some c =>
        have hpx : a.pixel cr code x = ([], a, c) := by simp only [AEnc.pixel, hlk]
        rw [hpx]; exact ⟨rfl, rfl⟩
      | none =>
        by_cases hfull : (a.encode cr code).2.run_code cr ≥ LZ.max_code
        · have hpx : a.pixel cr code x =
              ((a.encode cr code).1 ++ ((a.encode cr code).2.encode cr (2 ^ cr)).1,
                { ((a.encode cr code).2.encode cr (2 ^ cr)).2 with
                    dict := [], run_bits := cr + 1, max_code := 2 ^ (cr + 1) }, x) := by
            simp only [AEnc.pixel, hlk, hfull, if_true]
          rw [hpx]
          simp only [aenc_encode_pix, aenc_encode_crnt, and_self]
        · have hpx : a.pixel cr code x =
              ((a.encode cr code).1,
                { (a.encode cr code).2 with dict := (code, x) :: (a.encode cr code).2.dict },
                x) := by
            simp only [AEnc.pixel, hlk, hfull, if_false]
          rw [hpx]
          simp only [aenc_encode_pix, aenc_encode_crnt, and_self]
    exact ⟨h.1.trans hp.1, h.2.trans hp.2⟩

theorem aenc_finish_range (cr : Nat) (a : AEnc) (code : Nat) (h : ARange cr a) :
    ARange cr (a.finish cr code).2 := by
  rw [aenc_finish_eq]
  exact aenc_encode_range cr _ _ (aenc_encode_range cr _ _ h)

theorem aenc_finish_crnt (cr : Nat) (a : AEnc) (code : Nat) :
    (a.finish cr code).2.crnt_code = a.crnt_code ∧
      (a.finish cr code).2.pix_count = a.pix_count := by
  rw [aenc_finish_eq]
  simp only [aenc_encode_crnt, aenc_encode_pix, and_self]

/-- The block at the end of `encode_line`. -/
theorem enc_line_end (cr : Nat) (st : LZEncoder) (a : AEnc) (hsim : EncSim cr st a)
    (hr : ARange cr a) (hc : a.crnt_code ≤ 4094)
    (hroom : st.f.Room (a.line_end cr).1.length) :
    ∃ st1, (if st.pix_count = 0 then some (st.finish a.crnt_code) else some (st, true)) =
        some (st1, true) ∧
      st1.f = st.f.push (a.line_end cr).1 ∧ EncSim cr st1 (a.line_end cr).2 := by
  by_cases hz : a.pix_count = 0
  · have hle : a.line_end cr = a.finish cr a.crnt_code := by
      simp only [AEnc.line_end, hz, if_true]
    rw [hle] at hroom ⊢
    obtain ⟨st1, st2, st3, he1, he2, he3, hf3, hs3⟩ :=
      enc_finish cr st a a.crnt_code hsim hr hc hroom
    refine ⟨st3, ?_, hf3, hs3⟩
    rw [if_pos (hsim.pix_count.trans hz)]
    simp only [LZEncoder.finish, he1, he2, he3, Bool.not_true, Bool.false_eq_true, if_false]
  · have hle : a.line_end cr = ([], a) := by
      simp only [AEnc.line_end, hz, if_false]
    rw [hle] at hroom ⊢
    refine ⟨st, ?_, (GifIO_push_nil st.f (by simpa using hroom)).symm, hsim⟩
    rw [if_neg (fun h => hz (hsim.pix_count.symm.trans h))]

theorem line_start_bound (crnt : Nat) (line : List Nat) (hp : ∀ x ∈ line, x < 256)
    (hc : crnt = LZ.first_code ∨ crnt ≤ 4094) :
    (LZEncoder.line_start crnt line).1 ≤ 4094 ∧
      ∀ x ∈ (LZEncoder.line_start crnt line).2, x < 256 := by
  unfold LZEncoder.line_start
  by_cases h : crnt = LZ.first_code
  · rw [if_pos h]
    refine ⟨?_, fun x hx => hp x (List.mem_of_mem_tail hx)⟩
    cases line with
    | nil => simp
    | cons y ys =>
      have := hp y (List.mem_cons_self _ _)
      simp only [List.headD_cons]; omega
  · rw [if_neg h]
    rcases hc with hc | hc
    · exact absurd hc h
    · exact ⟨hc, hp⟩

/-- `encode_line`. -/
theorem enc_encode_line (cr : Nat) (st : LZEncoder) (a : AEnc) (line : List Nat)
    (hsim : EncSim cr st a) (hr : ARange cr a) (hc : ACrnt a) (hp : ∀ x ∈ line, x < 256)
    (hroom : st.f.Room (a.encode_line cr line).1.length) :
    ∃ st1, st.encode_line line = some (st1, true) ∧
      st1.f = st.f.push (a.encode_line cr line).1 ∧
      EncSim cr st1 (a.encode_line cr line).2 := by
  have hb := line_start_bound a.crnt_code line hp hc
  have hlr := aenc_loop_range cr _ a _ hr hb.1 hb.2
  have hel : a.encode_line cr line =
      ((AEnc.loop cr (LZEncoder.line_start a.crnt_code line).2 a
          (LZEncoder.line_start a.crnt_code line).1).1 ++
        (AEnc.line_end cr
          { (AEnc.loop cr (LZEncoder.line_start a.crnt_code line).2 a
              (LZEncoder.line_start a.crnt_code line).1).2.1 with
            crnt_code := (AEnc.loop cr (LZEncoder.line_start a.crnt_code line).2 a
              (LZEncoder.line_start a.crnt_code line).1).2.2 }).1,
       (AEnc.line_end cr
          { (AEnc.loop cr (LZEncoder.line_start a.crnt_code line).2 a
              (LZEncoder.line_start a.crnt_code line).1).2.1 with
            crnt_code := (AEnc.loop cr (LZEncoder.line_start a.crnt_code line).2 a
              (LZEncoder.line_start a.crnt_code line).1).2.2 }).2) := rfl
  rw [hel] at hroom ⊢
  simp only [List.length_append] at hroom
  have hra := GifIO_Room_mono st.f hroom (Nat.le_add_right _ _)
  obtain ⟨st1, he1, hf1, hs1⟩ := enc_encode_loop cr _ st a _ hsim hr hb.1 hb.2 hra
  have hroom2 := GifIO_push_room st.f _ _ hroom
  rw [← hf1] at hroom2
  have hs2 := enc_sim_set_crnt cr st1 _ (AEnc.loop cr (LZEncoder.line_start a.crnt_code line).2 a
    (LZEncoder.line_start a.crnt_code line).1).2.2 hs1
  obtain ⟨st3, he3, hf3, hs3⟩ := enc_line_end cr _ _ hs2 (aenc_set_crnt_range cr _ _ hlr.1)
    hlr.2 hroom2
  refine ⟨st3, ?_, ?_, hs3⟩
  · unfold LZEncoder.encode_line
    rw [hsim.crnt_code]
    simp only [he1, Bool.not_true, Bool.false_eq_true, if_false]
    exact he3
  · rw [hf3]
    simp only [hf1]
    exact GifIO_push_push st.f _ _ hra

end gif

namespace gif

/-! ## Encoder: `put_line` and the constructor -/

theorem code_mask_le (cr : Nat) : LZEncoder.code_mask.getD cr 0 ≤ 255 := by
  by_cases h : cr < 9
  · interval_cases cr <;> decide
  · have : LZEncoder.code_mask.length ≤ cr := by
      simp only [LZEncoder.code_mask, List.length_cons, List.length_nil]; omega
    rw [List.getD_eq_default _ _ this]
    omega

theorem masked_lt (cr : Nat) (line : List Nat) :
    ∀ x ∈ line.map (fun b => b &&& LZEncoder.code_mask.getD cr 0), x < 256 := by
  intro x hx
  rw [List.mem_map] at hx
  obtain ⟨b, _, rfl⟩ := hx
  have h1 : b &&& LZEncoder.code_mask.getD cr 0 ≤ LZEncoder.code_mask.getD cr 0 :=
    Nat.and_le_right
  have h2 := code_mask_le cr
  omega

theorem aenc_line_end_props (cr : Nat) (a : AEnc) (h : ARange cr a) :
    ARange cr (a.line_end cr).2 ∧ (a.line_end cr).2.crnt_code = a.crnt_code ∧
      (a.line_end cr).2.pix_count = a.pix_count := by
  unfold AEnc.line_end
  by_cases hz : a.pix_count = 0
  · rw [if_pos hz]
    exact ⟨aenc_finish_range cr a _ h, (aenc_finish_crnt cr a _).1, (aenc_finish_crnt cr a _).2⟩
  · rw [if_neg hz]; exact ⟨h, rfl, rfl⟩

theorem aenc_encode_line_props (cr : Nat) (a : AEnc) (line : List Nat) (hr : ARange cr a)
    (hc : ACrnt a) (hp : ∀ x ∈ line, x < 256) :
    ARange cr (a.encode_line cr line).2 ∧ (a.encode_line cr line).2.crnt_code ≤ 4094 ∧
      (a.encode_line cr line).2.pix_count = a.pix_count := by
  have hb := line_start_bound a.crnt_code line hp hc
  have hlr := aenc_loop_range cr _ a _ hr hb.1 hb.2
  have hlp := aenc_loop_pix cr (LZEncoder.line_start a.crnt_code line).2 a
    (LZEncoder.line_start a.crnt_code line).1
  have he := aenc_line_end_props cr
    { (AEnc.loop cr (LZEncoder.line_start a.crnt_code line).2 a
        (LZEncoder.line_start a.crnt_code line).1).2.1 with
      crnt_code := (AEnc.loop cr (LZEncoder.line_start a.crnt_code line).2 a
        (LZEncoder.line_start a.crnt_code line).1).2.2 }
    (aenc_set_crnt_range cr _ _ hlr.1)
  refine ⟨he.1, ?_, ?_⟩
  · have := he.2.1
    simp only at this
    show (AEnc.line_end cr _).2.crnt_code ≤ 4094
    rw [this]; exact hlr.2
  · have := he.2.2
    simp only at this
    show (AEnc.line_end cr _).2.pix_count = a.pix_count
    rw [this]; exact hlp.1

theorem aenc_put_line_props (cr : Nat) (a : AEnc) (line : List Nat) (hr : ARange cr a)
    (hc : ACrnt a) :
    ARange cr (a.put_line cr line).2.1 ∧ ACrnt (a.put_line cr line).2.1 ∧
      (a.put_line cr line).2.1.pix_count = a.pix_count - line.length ∧
      (a.put_line cr line).2.2 = line.map (fun b => b &&& LZEncoder.code_mask.getD cr 0) := by
  have h := aenc_encode_line_props cr { a with pix_count := a.pix_count - line.length }
    (line.map (fun b => b &&& LZEncoder.code_mask.getD cr 0)) (aenc_set_pix_range cr a _ hr) hc
    (masked_lt cr line)
  exact ⟨h.1, Or.inr h.2.1, h.2.2, rfl⟩

/-- `put_line` for a line that fits the pixel count. -/
theorem enc_put_line (cr : Nat) (st : LZEncoder) (a : AEnc) (line : List Nat)
    (hsim : EncSim cr st a) (hr : ARange cr a) (hc : ACrnt a)
    (hfit : line.length ≤ a.pix_count)
    (hroom : st.f.Room (a.put_line cr line).1.length) :
    ∃ st1, st.put_line line = some (st1, (a.put_line cr line).2.2, true) ∧
      st1.f = st.f.push (a.put_line cr line).1 ∧ EncSim cr st1 (a.put_line cr line).2.1 := by
  have hs1 := enc_sim_set_pix cr st a (a.pix_count - line.length) hsim
  obtain ⟨st1, he, hf, hs⟩ := enc_encode_line cr _ _
    (line.map (fun b => b &&& LZEncoder.code_mask.getD cr 0)) hs1 (aenc_set_pix_range cr a _ hr)
    hc (masked_lt cr line) hroom
  refine ⟨st1, ?_, hf, hs⟩
  have hnlt : ¬ st.pix_count < line.length := by rw [hsim.pix_count]; omega
  unfold LZEncoder.put_line
  rw [if_neg hnlt]
  have hm : LZEncoder.code_mask.getD st.col_res 0 = LZEncoder.code_mask.getD cr 0 := by
    rw [hsim.col_res]
  simp only [hsim.pix_count, hm, he]
  rfl

/-- `put_line` for a line that exceeds the pixel count. -/
theorem enc_put_line_big (st : LZEncoder) (line : List Nat) (h : st.pix_count < line.length) :
    st.put_line line =
      some ({ st with f := st.f.set_error ErrorCode.data_too_big }, line, false) := by
  unfold LZEncoder.put_line
  rw [if_pos h]

theorem aenc_init_props (cr n : Nat) (hcr : cr ≤ 11) :
    ARange cr (AEnc.init cr n).2 ∧ ACrnt (AEnc.init cr n).2 ∧
      (AEnc.init cr n).2.pix_count = n := by
  have h0 : ARange cr
      { dict := [], run_bits := cr + 1, max_code := 2 ^ (cr + 1),
        crnt_code := LZ.first_code, pix_count := n,
        pk := { dword := 0, nbits := 0, stg := [] } } := by
    refine ⟨hcr, fun e he => by simp at he, ?_⟩
    have := two_pow_le_of_le_11 cr hcr
    simp only [AEnc.run_code, List.length_nil]; omega
  refine ⟨aenc_encode_range cr _ _ h0, Or.inl ?_, ?_⟩
  · unfold AEnc.init; rw [aenc_encode_crnt]
  · unfold AEnc.init; rw [aenc_encode_pix]

/-- The constructor of the encoder. -/
theorem enc_new (cr n : Nat) (io : GifIO) (hcr : cr ≤ 11)
    (hroom : io.Room (AEnc.init cr n).1.length) :
    (LZEncoder.new io n cr).f = io.push (AEnc.init cr n).1 ∧
      EncSim cr (LZEncoder.new io n cr) (AEnc.init cr n).2 := by
  have hsim0 : EncSim cr
      { f := io, col_res := cr, clear_code := 2 ^ cr, eof_code := 2 ^ cr + 1,
        run_code := 2 ^ cr + 2, run_bits := cr + 1, max_code := 2 ^ (cr + 1),
        crnt_code := LZ.first_code, crnt_shift_state := 0, crnt_shift_dword := 0,
        pix_count := n, buf := fun _ => 0, ht := HashTable.clear }
      { dict := [], run_bits := cr + 1, max_code := 2 ^ (cr + 1),
        crnt_code := LZ.first_code, pix_count := n,
        pk := { dword := 0, nbits := 0, stg := [] } } :=
    ⟨rfl, rfl, rfl, rfl, rfl, rfl, rfl, rfl, ⟨rfl, rfl, stg_nil _ rfl⟩, ht_clear_rep⟩
  have hcl : 2 ^ cr ≤ 4095 := by
    have := two_pow_le_of_le_11 cr hcr; omega
  obtain ⟨st1, he, hf, hs⟩ := enc_encode cr _ _ (2 ^ cr) hsim0 hcl hroom
  have hnew : LZEncoder.new io n cr = st1 := by
    unfold LZEncoder.new
    simp only [he]
  rw [hnew]
  exact ⟨hf, hs⟩

end gif

namespace gif

/-! ## Saving images and containers into a session with room -/

/-- The row loops of `Image::save`. -/
theorem img_save_rows (cr : Nat) :
    ∀ (rows : List Nat) (st : LZEncoder) (a : AEnc) (b : List Nat) (width : Nat),
      EncSim cr st a → ARange cr a → ACrnt a → rows.length * width ≤ a.pix_count →
      st.f.Room (AEnc.save_rows cr rows a b width).1.length →
      ∃ st1, Image.save_rows rows st b width =
          some (st1, (AEnc.save_rows cr rows a b width).2.2, true) ∧
        st1.f = st.f.push (AEnc.save_rows cr rows a b width).1 ∧
        EncSim cr st1 (AEnc.save_rows cr rows a b width).2.1 := by
  intro rows
  induction rows with
  | nil =>
    intro st a b width hsim _ _ _ hroom
    exact ⟨st, rfl, (GifIO_push_nil st.f (by simpa [AEnc.save_rows] using hroom)).symm, hsim⟩
  | cons j rest ih =>
    intro st a b width hsim hr hc hfit hroom
    have hsr : AEnc.save_rows cr (j :: rest) a b width =
        ((a.put_line cr ((b.drop (j * width)).take width)).1 ++
          (AEnc.save_rows cr rest (a.put_line cr ((b.drop (j * width)).take width)).2.1
            (b.take (j * width) ++ (a.put_line cr ((b.drop (j * width)).take width)).2.2 ++
              b.drop (j * width + width)) width).1,
         (AEnc.save_rows cr rest (a.put_line cr ((b.drop (j * width)).take width)).2.1
            (b.take (j * width) ++ (a.put_line cr ((b.drop (j * width)).take width)).2.2 ++
              b.drop (j * width + width)) width).2) := rfl
    rw [hsr] at hroom ⊢
    simp only [List.length_append] at hroom
    have hra := GifIO_Room_mono st.f hroom (Nat.le_add_right _ _)
    have hlen : ((b.drop (j * width)).take width).length ≤ width := by
      rw [List.length_take]; omega
    simp only [List.length_cons, Nat.add_mul, Nat.one_mul] at hfit
    obtain ⟨st1, he1, hf1, hs1⟩ := enc_put_line cr st a _ hsim hr hc (by omega) hra
    have hroom2 := GifIO_push_room st.f _ _ hroom
    rw [← hf1] at hroom2
    have hp := aenc_put_line_props cr a ((b.drop (j * width)).take width) hr hc
    obtain ⟨st2, he2, hf2, hs2⟩ := ih st1 _ _ width hs1 hp.1 hp.2.1
      (by rw [hp.2.2.1]; omega) hroom2
    refine ⟨st2, ?_, ?_, hs2⟩
    · simp only [Image.save_rows, he1, Bool.not_true, Bool.false_eq_true, if_false]
      exact he2
    · rw [hf2]; simp only [hf1]
      exact GifIO_push_push st.f _ _ hra

theorem rows_length (img : Image) : img.rows.length = img.rect.height := by
  unfold Image.rows
  by_cases h : img.interlace
  · rw [if_pos h, (interlace_rows_perm_range _).length_eq, List.length_range]
  · rw [if_neg h, plain_rows, List.length_range]

theorem area_eq (r : Rect) (hw : r.s.wd < 65536) (hh : r.s.ht < 65536) :
    r.area = r.s.wd * r.s.ht := by
  unfold Rect.area Size.area
  apply Nat.mod_eq_of_lt
  have : r.s.wd * r.s.ht ≤ 65535 * 65535 := Nat.mul_le_mul (by omega) (by omega)
  omega

theorem image_bytes_pos (img : Image) (gcm : Option ColorMap) (h : ¬ img.rect.area = 0) :
    image_bytes img gcm =
      exts_bytes img.exts ++ descr_bytes img ++ [(get_color_res img.cm gcm).1] ++
        lzw_bytes (get_color_res img.cm gcm).1 img := by
  unfold image_bytes; rw [if_neg h]

/-- `Image::save` of an image that resolves a palette. -/
theorem img_save_room (img : Image) (io : GifIO) (gcm : Option ColorMap)
    (hs : img.Savable gcm) (hroom : io.Room (image_bytes img gcm).length) :
    img.save io gcm = some (img.saved gcm, io.push (image_bytes img gcm), true) := by
  obtain ⟨hw, hh, hpal⟩ := hs
  by_cases ha : img.rect.area = 0
  · have hb : image_bytes img gcm = [] := by unfold image_bytes; rw [if_pos ha]
    rw [hb] at hroom ⊢
    rw [GifIO_push_nil io hroom]
    simp only [Image.save, ha, if_true, Image.saved]
  · rcases hpal with hz | ⟨hok, hcr⟩
    · exact absurd hz ha
    · rw [image_bytes_pos img gcm ha] at hroom ⊢
      simp only [List.length_append, List.length_singleton] at hroom
      have hr1 : io.Room (exts_bytes img.exts).length := GifIO_Room_mono io hroom (by omega)
      have hr12 : io.Room (exts_bytes img.exts ++ descr_bytes img).length := by
        rw [List.length_append]; exact GifIO_Room_mono io hroom (by omega)
      have hr2 : (io.push (exts_bytes img.exts)).Room (descr_bytes img).length :=
        GifIO_push_room io _ _ (by rw [List.length_append] at hr12; exact hr12)
      have hr123 : io.Room (exts_bytes img.exts ++ descr_bytes img ++
          [(get_color_res img.cm gcm).1]).length := by
        simp only [List.length_append, List.length_singleton]
        exact GifIO_Room_mono io hroom (by omega)
      have hr123' : io.Room ((exts_bytes img.exts ++ descr_bytes img).length + 1) := by
        rw [List.length_append]; exact GifIO_Room_mono io hroom (by omega)
      have hr3 : (io.push (exts_bytes img.exts ++ descr_bytes img)).Room 1 :=
        GifIO_push_room io _ _ hr123'
      have hr4 : (io.push (exts_bytes img.exts ++ descr_bytes img ++
          [(get_color_res img.cm gcm).1])).Room (lzw_bytes (get_color_res img.cm gcm).1 img).length :=
        GifIO_push_room io _ _ (by
          simp only [List.length_append, List.length_singleton]
          exact hroom)
      unfold lzw_bytes at hr4
      rw [List.length_append] at hr4
      have hr4a := GifIO_Room_mono _ hr4 (Nat.le_add_right _ _)
      obtain ⟨hnf, hnsim⟩ := enc_new (get_color_res img.cm gcm).1 img.rect.area _ hcr hr4a
      have hip := aenc_init_props (get_color_res img.cm gcm).1 img.rect.area hcr
      have hr5 := GifIO_push_room _ _ _ hr4
      rw [← hnf] at hr5
      have hfit : img.rows.length * img.rect.width ≤
          (AEnc.init (get_color_res img.cm gcm).1 img.rect.area).2.pix_count := by
        rw [hip.2.2, rows_length, area_eq img.rect hw hh, Nat.mul_comm]
        exact Nat.le_refl _
      obtain ⟨st1, he, hf, _⟩ := img_save_rows (get_color_res img.cm gcm).1 img.rows _ _ img.b
        img.rect.width hnsim hip.1 hip.2.1 hfit hr5
      have hrows : (if img.interlace then interlace_rows img.rect.height
          else plain_rows img.rect.height) = img.rows := rfl
      simp only [Image.save, ha, if_false, Image_save_exts_room img.exts io hr1, Bool.not_true,
        Bool.false_eq_true, Image_save_descr_room img _ hr2, hok,
        GifIO_write_byte_room _ _ hr3, hrows]
      rw [GifIO_push_push io _ _ hr1, GifIO_write_byte_room _ _ hr3]
      simp only [Bool.not_true, Bool.false_eq_true, if_false]
      rw [GifIO_push_push io _ _ hr12, he]
      simp only [hf, hnf, Image.saved, ha, if_false, masked_b, Option.some.injEq, Prod.mk.injEq,
        true_and, and_true]
      rw [GifIO_push_push _ _ _ hr4a, GifIO_push_push io _ _ hr123]
      rfl

/-- `Image::save` of an image with pixels that resolves no palette. -/
theorem img_save_no_palette (img : Image) (io : GifIO) (hcm : img.cm = none)
    (ha : img.rect.area ≠ 0)
    (hroom : io.Room ((exts_bytes img.exts).length + (descr_bytes img).length)) :
    img.save io none =
      some (img, (io.push (exts_bytes img.exts ++ descr_bytes img)).set_error
        ErrorCode.no_color_map, false) := by
  have hr1 : io.Room (exts_bytes img.exts).length := GifIO_Room_mono io hroom (by omega)
  have hr2 : (io.push (exts_bytes img.exts)).Room (descr_bytes img).length :=
    GifIO_push_room io _ _ hroom
  simp only [Image.save, ha, if_false, Image_save_exts_room img.exts io hr1, Bool.not_true,
    Bool.false_eq_true, Image_save_descr_room img _ hr2, hcm, get_color_res, Bool.not_false,
    if_true]
  rw [GifIO_push_push io _ _ hr1]

theorem images_bytes_cons (i : Image) (rest : List Image) (cm : Option ColorMap) :
    images_bytes (i :: rest) cm = image_bytes i cm ++ images_bytes rest cm := rfl

/-- The image loop of `Gif::save`. -/
theorem gif_save_imgs_room (cm : Option ColorMap) :
    ∀ (imgs : List Image) (io : GifIO), (∀ i ∈ imgs, i.Savable cm) →
      io.Room (images_bytes imgs cm).length →
      Gif.save_imgs imgs io cm =
        some (imgs.map (fun i => i.saved cm), io.push (images_bytes imgs cm), true) := by
  intro imgs
  induction imgs with
  | nil =>
    intro io _ hroom
    simp only [Gif.save_imgs, List.map_nil, images_bytes, List.flatMap_nil]
    rw [GifIO_push_nil io hroom]
  | cons i rest ih =>
    intro io hs hroom
    rw [images_bytes_cons, List.length_append] at hroom
    have hr1 := GifIO_Room_mono io hroom (Nat.le_add_right _ _)
    have hr2 := GifIO_push_room io _ _ hroom
    simp only [Gif.save_imgs, img_save_room i io cm (hs i (List.mem_cons_self _ _)) hr1,
      Bool.not_true, Bool.false_eq_true, if_false,
      ih _ (fun j hj => hs j (List.mem_cons_of_mem _ hj)) hr2, List.map_cons]
    rw [GifIO_push_push io _ _ hr1, images_bytes_cons]

/-- `Gif::save` of a container whose images all resolve a palette. -/
theorem gif_save_room (g : Gif) (dev : MemDevice) (hs : ∀ i ∈ g.imgs, i.Savable g.cm)
    (hroom : dev.Room (gif_bytes g).length) :
    Gif.save g dev =
      some ({ g with imgs := g.imgs.map (fun i => i.saved g.cm) },
        ( GifIO.mk_dev dev).push (gif_bytes g), true) := by
  have hio : ( GifIO.mk_dev dev).Room (gif_bytes g).length := hroom
  unfold gif_bytes at hio ⊢
  simp only [List.length_append, List.length_singleton] at hio
  have hr1 : ( GifIO.mk_dev dev).Room (scr_bytes g).length := GifIO_Room_mono _ hio (by omega)
  have hr12 : ( GifIO.mk_dev dev).Room (scr_bytes g ++ images_bytes g.imgs g.cm).length := by
    rw [List.length_append]; exact GifIO_Room_mono _ hio (by omega)
  have hr2 := GifIO_push_room ( GifIO.mk_dev dev) (scr_bytes g) (images_bytes g.imgs g.cm).length
    (by rw [List.length_append] at hr12; exact hr12)
  have hr123 : ( GifIO.mk_dev dev).Room
      (scr_bytes g ++ images_bytes g.imgs g.cm ++ exts_bytes g.exs).length := by
    simp only [List.length_append]; exact GifIO_Room_mono _ hio (by omega)
  have hr3 := GifIO_push_room ( GifIO.mk_dev dev) (scr_bytes g ++ images_bytes g.imgs g.cm)
    (exts_bytes g.exs).length (by simp only [List.length_append] at hr123 ⊢; exact hr123)
  have hr4 := GifIO_push_room ( GifIO.mk_dev dev)
    (scr_bytes g ++ images_bytes g.imgs g.cm ++ exts_bytes g.exs) 1
    (by simp only [List.length_append] at hio ⊢; exact hio)
  simp only [Gif.save, Gif_save_scr_desc_room g _ hr1, Bool.not_true, Bool.false_eq_true,
    if_false, gif_save_imgs_room g.cm g.imgs _ hs hr2]
  rw [GifIO_push_push _ _ _ hr1, Gif_save_exs_room g.exs _ hr3]
  simp only [Bool.not_true, Bool.false_eq_true, if_false]
  rw [GifIO_push_push _ _ _ hr12, GifIO_write_terminator_room _ hr4, GifIO_push_push _ _ _ hr123]

end gif

namespace gif

/-! ## Saving without a palette -/

theorem gif_save_imgs_no_palette (img : Image) (rest : List Image) (io : GifIO)
    (hcm : img.cm = none) (ha : img.rect.area ≠ 0)
    (hroom : io.Room ((exts_bytes img.exts).length + (descr_bytes img).length)) :
    Gif.save_imgs (img :: rest) io none =
      some (img :: rest, (io.push (exts_bytes img.exts ++ descr_bytes img)).set_error
        ErrorCode.no_color_map, false) := by
  simp only [Gif.save_imgs, img_save_no_palette img io hcm ha hroom, Bool.not_false, if_true]

theorem savable_of_local (i : Image) (hw : i.rect.s.wd < 65536) (hh : i.rect.s.ht < 65536)
    (hc : ∀ c, i.cm = some c → c.r ≤ 8) (hgood : ¬ (i.cm = none ∧ i.rect.area ≠ 0)) :
    i.Savable none := by
  refine ⟨hw, hh, ?_⟩
  cases hcm : i.cm with
  | none =>
    left
    by_contra h
    exact hgood ⟨hcm, h⟩
  | some c =>
    right
    have := hc c hcm
    simp only [get_color_res, true_and]
    split <;> omega

/-- The image loop of `Gif::save` stops at the first image that has pixels and no
palette. -/
theorem gif_save_imgs_fail :
    ∀ (imgs : List Image) (io : GifIO),
      (∀ i ∈ imgs, i.rect.s.wd < 65536 ∧ i.rect.s.ht < 65536 ∧ ∀ c, i.cm = some c → c.r ≤ 8) →
      (∃ i ∈ imgs, i.cm = none ∧ i.rect.area ≠ 0) → io.Room (fail_room imgs) →
      ∃ imgs1 io1, Gif.save_imgs imgs io none = some (imgs1, io1, false) ∧
        io1.e = ErrorCode.no_color_map := by
  intro imgs
  induction imgs with
  | nil =>
    intro io _ hbad _
    obtain ⟨i, hi, _⟩ := hbad
    exact absurd hi (List.not_mem_nil i)
  | cons i rest ih =>
    intro io hwf hbad hroom
    by_cases hb : i.cm = none ∧ i.rect.area ≠ 0
    · simp only [fail_room, if_pos hb] at hroom
      exact ⟨_, _, gif_save_imgs_no_palette i rest io hb.1 hb.2 hroom, rfl⟩
    · simp only [fail_room, if_neg hb] at hroom
      have hwi := hwf i (List.mem_cons_self _ _)
      have hsv := savable_of_local i hwi.1 hwi.2.1 hwi.2.2 hb
      have hr1 := GifIO_Room_mono io hroom (Nat.le_add_right _ _)
      have hr2 := GifIO_push_room io _ _ hroom
      have hbad2 : ∃ j ∈ rest, j.cm = none ∧ j.rect.area ≠ 0 := by
        obtain ⟨j, hj, hjb⟩ := hbad
        rcases List.mem_cons.mp hj with rfl | hj2
        · exact absurd hjb hb
        · exact ⟨j, hj2, hjb⟩
      obtain ⟨imgs1, io1, he, hio⟩ := ih (io.push (image_bytes i none))
        (fun j hj => hwf j (List.mem_cons_of_mem _ hj)) hbad2 hr2
      refine ⟨i.saved none :: imgs1, io1, ?_, hio⟩
      simp only [Gif.save_imgs, img_save_room i io none hsv hr1, Bool.not_true,
        Bool.false_eq_true, if_false, he]

theorem scr_bytes_room (g : Gif) (dev : MemDevice) (n : Nat)
    (hroom : dev.Room ((scr_bytes g).length + n)) :
    g.save_scr_desc ( GifIO.mk_dev dev) = (( GifIO.mk_dev dev).push (scr_bytes g), true) ∧
      (( GifIO.mk_dev dev).push (scr_bytes g)).Room n := by
  have hio : ( GifIO.mk_dev dev).Room ((scr_bytes g).length + n) := hroom
  exact ⟨Gif_save_scr_desc_room g _ (GifIO_Room_mono _ hio (Nat.le_add_right _ _)),
    GifIO_push_room _ _ _ hio⟩

/-- C8, amended: saving a container without global palette whose only frame has
pixels and no local palette, into a sink with room for the records that precede the
failure, fails with `no_color_map`, and at that moment the sink holds the header
and screen descriptor followed by the extension records of the frame and its image
descriptor record. -/
theorem no_palette_fails_after_descriptor (g : Gif) (img : Image) (dev : MemDevice)
    (hg : g.cm = none) (himgs : g.imgs = [img]) (hcm : img.cm = none)
    (ha : img.rect.area ≠ 0)
    (hroom : dev.Room ((scr_bytes g).length +
      ((exts_bytes img.exts).length + (descr_bytes img).length))) :
    ∃ g1 io, Gif.save g dev = some (g1, io, false) ∧ io.e = ErrorCode.no_color_map ∧
      io.d.written = dev.written ++ scr_bytes g ++ exts_bytes img.exts ++ descr_bytes img := by
  obtain ⟨h1, h2⟩ := scr_bytes_room g dev _ hroom
  have h3 := gif_save_imgs_no_palette img [] _ hcm ha h2
  have hd1 : dev.Room (scr_bytes g).length := MemDevice_Room_mono dev hroom (Nat.le_add_right _ _)
  have hd2 : (dev.push (scr_bytes g)).Room (exts_bytes img.exts ++ descr_bytes img).length := by
    rw [List.length_append]; exact h2
  refine ⟨{ g with imgs := [img] },
    ((( GifIO.mk_dev dev).push (scr_bytes g)).push
      (exts_bytes img.exts ++ descr_bytes img)).set_error ErrorCode.no_color_map, ?_, ?_, ?_⟩
  · simp only [Gif.save, h1, Bool.not_true, Bool.false_eq_true, if_false, himgs, hg, h3,
      Bool.not_false, if_true]
  · rfl
  · show ((dev.push (scr_bytes g)).push (exts_bytes img.exts ++ descr_bytes img)).written = _
    rw [MemDevice_push_written _ _ hd2, MemDevice_push_written _ _ hd1]
    simp only [List.append_assoc]

theorem no_palette_fails_after_descriptor_witness :
    ∃ g1 io,
      Gif.save sample_single (MemDevice.open_for_write (List.replicate 40 0)) =
        some (g1, io, false) ∧
      io.e = ErrorCode.no_color_map ∧
      io.d.written =
        (MemDevice.open_for_write (List.replicate 40 0)).written ++ scr_bytes sample_single ++
          exts_bytes sample_frame.exts ++ descr_bytes sample_frame :=
  no_palette_fails_after_descriptor sample_single sample_frame
    (MemDevice.open_for_write (List.replicate 40 0)) rfl rfl rfl (by decide) (by decide)

/-- C9, amended: for every container without global palette that holds an image of
non-zero area without local palette (rects of 16 bit width and height, local
palettes of a colour resolution of at most 8), `Gif::save` into a sink with room for
the bytes that precede the failure returns failure with error code `no_color_map`. -/
theorem save_unresolved_palette_fails (g : Gif) (dev : MemDevice) (hg : g.cm = none)
    (hwf : ∀ i ∈ g.imgs,
      i.rect.s.wd < 65536 ∧ i.rect.s.ht < 65536 ∧ ∀ c, i.cm = some c → c.r ≤ 8)
    (hbad : ∃ i ∈ g.imgs, i.cm = none ∧ i.rect.area ≠ 0)
    (hroom : dev.Room ((scr_bytes g).length + fail_room g.imgs)) :
    ∃ g1 io, Gif.save g dev = some (g1, io, false) ∧ io.e = ErrorCode.no_color_map := by
  obtain ⟨h1, h2⟩ := scr_bytes_room g dev _ hroom
  obtain ⟨imgs1, io1, he, hio⟩ := gif_save_imgs_fail g.imgs _ hwf hbad h2
  refine ⟨{ g with imgs := imgs1 }, io1, ?_, hio⟩
  simp only [Gif.save, h1, Bool.not_true, Bool.false_eq_true, if_false, hg, he,
    Bool.not_false, if_true]

theorem save_unresolved_palette_fails_witness :
    ∃ g1 io,
      Gif.save sample_pair (MemDevice.open_for_write (List.replicate 40 0)) =
        some (g1, io, false) ∧
      io.e = ErrorCode.no_color_map :=
  save_unresolved_palette_fails sample_pair (MemDevice.open_for_write (List.replicate 40 0)) rfl
    (by
      intro i hi
      simp only [sample_pair, List.mem_cons, List.mem_singleton, List.not_mem_nil,
        or_false] at hi
      rcases hi with rfl | rfl
      · exact ⟨by decide, by decide, fun c hc => by simp [Image.new] at hc⟩
      · exact ⟨by decide, by decide, fun c hc => by simp [sample_frame] at hc⟩)
    ⟨sample_frame, by simp [sample_pair], rfl, by decide⟩ (by decide)

/-! ## The pixel count of an encoder session -/

theorem aenc_put_lines_cons (cr : Nat) (line : List Nat) (rest : List (List Nat)) (a : AEnc) :
    AEnc.put_lines cr (line :: rest) a =
      ((a.put_line cr line).1 ++ (AEnc.put_lines cr rest (a.put_line cr line).2.1).1,
        (AEnc.put_lines cr rest (a.put_line cr line).2.1).2) := rfl

theorem aenc_put_lines_append (cr : Nat) :
    ∀ (l1 l2 : List (List Nat)) (a : AEnc),
      (AEnc.put_lines cr (l1 ++ l2) a).1 =
        (AEnc.put_lines cr l1 a).1 ++ (AEnc.put_lines cr l2 (AEnc.put_lines cr l1 a).2).1 := by
  intro l1
  induction l1 with
  | nil => intro l2 a; rfl
  | cons x xs ih =>
    intro l2 a
    simp only [List.cons_append, aenc_put_lines_cons, ih, List.append_assoc]

/-- A sequence of `put_line` calls whose total stays within the pixel count. -/
theorem enc_put_lines (cr : Nat) :
    ∀ (lines : List (List Nat)) (st : LZEncoder) (a : AEnc),
      EncSim cr st a → ARange cr a → ACrnt a →
      (lines.map List.length).sum ≤ a.pix_count →
      st.f.Room (AEnc.put_lines cr lines a).1.length →
      ∃ st1, st.put_lines lines = some (st1, true) ∧
        st1.f = st.f.push (AEnc.put_lines cr lines a).1 ∧
        EncSim cr st1 (AEnc.put_lines cr lines a).2 ∧
        ARange cr (AEnc.put_lines cr lines a).2 ∧ ACrnt (AEnc.put_lines cr lines a).2 ∧
        (AEnc.put_lines cr lines a).2.pix_count = a.pix_count - (lines.map List.length).sum := by
  intro lines
  induction lines with
  | nil =>
    intro st a hsim hr hc _ hroom
    exact ⟨st, rfl, (GifIO_push_nil st.f (by simpa [AEnc.put_lines] using hroom)).symm, hsim,
      hr, hc, rfl⟩
  | cons line rest ih =>
    intro st a hsim hr hc hfit hroom
    rw [aenc_put_lines_cons] at hroom ⊢
    simp only [List.length_append] at hroom
    simp only [List.map_cons, List.sum_cons] at hfit ⊢
    have hra := GifIO_Room_mono st.f hroom (Nat.le_add_right _ _)
    obtain ⟨st1, he1, hf1, hs1⟩ := enc_put_line cr st a line hsim hr hc (by omega) hra
    have hroom2 := GifIO_push_room st.f _ _ hroom
    rw [← hf1] at hroom2
    have hp := aenc_put_line_props cr a line hr hc
    obtain ⟨st2, he2, hf2, hs2, hr2, hc2, hp2⟩ := ih st1 _ hs1 hp.1 hp.2.1
      (by rw [hp.2.2.1]; omega) hroom2
    refine ⟨st2, ?_, ?_, hs2, hr2, hc2, ?_⟩
    · simp only [LZEncoder.put_lines, he1, Bool.not_true, Bool.false_eq_true, if_false]
      exact he2
    · rw [hf2]; simp only [hf1]
      exact GifIO_push_push st.f _ _ hra
    · rw [hp2, hp.2.2.1]; omega

/-- C5: for an encoder constructed with pixel count `n` and colour resolution `cr`
of at most 8 over a sink with enough room, after any sequence of `put_line` calls
whose total is at most `n`, all of which succeed, the next `put_line` call fails if
and only if the total submitted, that call included, exceeds `n`, and then the error
code is `data_too_big`. -/
theorem put_line_pixel_count_boundary (cr n : Nat) (hcr : cr ≤ 8) (lines : List (List Nat))
    (line : List Nat) (hprev : (lines.map List.length).sum ≤ n) :
    ∃ N, ∀ io : GifIO, io.Room N →
      ∃ st r, (LZEncoder.new io n cr).put_lines lines = some (st, true) ∧
        st.put_line line = some r ∧
        (r.2.2 = false ↔ n < (lines.map List.length).sum + line.length) ∧
        (r.2.2 = false → r.1.f.e = ErrorCode.data_too_big) := by
  refine ⟨(AEnc.init cr n).1.length +
    ((AEnc.put_lines cr lines (AEnc.init cr n).2).1.length +
      ((AEnc.put_lines cr lines (AEnc.init cr n).2).2.put_line cr line).1.length), ?_⟩
  intro io hroom
  have hcr11 : cr ≤ 11 := by omega
  have hr0 := GifIO_Room_mono io hroom (Nat.le_add_right _ _)
  obtain ⟨hnf, hnsim⟩ := enc_new cr n io hcr11 hr0
  have hip := aenc_init_props cr n hcr11
  have hr1 := GifIO_push_room io _ _ hroom
  rw [← hnf] at hr1
  obtain ⟨st, he, hf, hsim, hr, hc, hpc⟩ := enc_put_lines cr lines _ _ hnsim hip.1 hip.2.1
    (by rw [hip.2.2]; exact hprev) (GifIO_Room_mono _ hr1 (Nat.le_add_right _ _))
  have hr2 := GifIO_push_room _ _ _ hr1
  rw [← hf] at hr2
  rw [hip.2.2] at hpc
  by_cases hbig : n < (lines.map List.length).sum + line.length
  · have hlt : st.pix_count < line.length := by rw [hsim.pix_count, hpc]; omega
    exact ⟨st, _, he, enc_put_line_big st line hlt, ⟨fun _ => hbig, fun _ => rfl⟩, fun _ => rfl⟩
  · obtain ⟨st1, he1, _, _⟩ := enc_put_line cr st _ line hsim hr hc (by rw [hpc]; omega) hr2
    exact ⟨st, _, he, he1, ⟨fun h => by simp at h, fun h => absurd h hbig⟩,
      fun h => by simp at h⟩

theorem put_line_pixel_count_boundary_witness :
    ∃ N, ∀ io : GifIO, io.Room N →
      ∃ st r, (LZEncoder.new io 5 2).put_lines [[0, 1], [2, 3]] = some (st, true) ∧
        st.put_line [3] = some r ∧
        (r.2.2 = false ↔ 5 < ([[0, 1], [2, 3]].map List.length).sum + [3].length) ∧
        (r.2.2 = false → r.1.f.e = ErrorCode.data_too_big) :=
  put_line_pixel_count_boundary 2 5 (by decide) [[0, 1], [2, 3]] [3] (by decide)

end gif

namespace gif

/-! ## Packing of codes into sub-blocks -/

theorem pack_append (a b : List (Nat × Nat)) :
    pack (a ++ b) = pack a + 2 ^ bitlen a * pack b := by
  induction a with
  | nil => simp [pack, bitlen]
  | cons e rest ih =>
    show e.1 + 2 ^ e.2 * pack (rest ++ b) =
      (e.1 + 2 ^ e.2 * pack rest) + 2 ^ (e.2 + bitlen rest) * pack b
    rw [ih, Nat.pow_add]
    ring

theorem bitlen_append (a b : List (Nat × Nat)) : bitlen (a ++ b) = bitlen a + bitlen b := by
  induction a with
  | nil => simp [bitlen]
  | cons e rest ih =>
    show e.2 + bitlen (rest ++ b) = e.2 + bitlen rest + bitlen b
    rw [ih]; omega

theorem pack_lt (a : List (Nat × Nat)) (h : Fits a) : pack a < 2 ^ bitlen a := by
  induction a with
  | nil => simp [pack, bitlen]
  | cons e rest ih =>
    have h1 : e.1 < 2 ^ e.2 := h e (List.mem_cons_self _ _)
    have h2 := ih (fun x hx => h x (List.mem_cons_of_mem _ hx))
    simp only [pack, bitlen, Nat.pow_add]
    calc e.1 + 2 ^ e.2 * pack rest < 2 ^ e.2 + 2 ^ e.2 * pack rest := by omega
      _ = 2 ^ e.2 * (pack rest + 1) := by ring
      _ ≤ 2 ^ e.2 * 2 ^ bitlen rest := Nat.mul_le_mul_left _ h2

theorem fits_append (a b : List (Nat × Nat)) (ha : Fits a) (hb : Fits b) : Fits (a ++ b) := by
  intro e he
  rcases List.mem_append.mp he with h | h
  · exact ha e h
  · exact hb e h

theorem le_val_append (a b : List Nat) :
    le_val (a ++ b) = le_val a + 2 ^ (8 * a.length) * le_val b := by
  induction a with
  | nil => simp [le_val]
  | cons x rest ih =>
    show x + 256 * le_val (rest ++ b) =
      (x + 256 * le_val rest) + 2 ^ (8 * (rest.length + 1)) * le_val b
    have e : 2 ^ (8 * (rest.length + 1)) = 256 * 2 ^ (8 * rest.length) := by
      rw [Nat.mul_add, Nat.pow_add]; norm_num; ring
    rw [ih, e]
    ring

theorem frames_append (a b : List (List Nat)) : frames (a ++ b) = frames a ++ frames b := by
  simp only [frames, List.flatMap_append]

theorem frames_nil : frames [] = [] := rfl

theorem frames_cons (b : List Nat) (rest : List (List Nat)) :
    frames (b :: rest) = b.length :: b ++ frames rest := rfl

/-- `write_buf(c)` for a byte: the data grows by the byte. -/
theorem pkb_put (out data : List Nat) (p : Packer) (c : Nat) (h : PkB out p.stg data) :
    PkB (out ++ (p.put c).1) (p.put c).2.stg (data ++ [c % 256]) := by
  obtain ⟨full, hf, ho, hd, hl, hx⟩ := h
  have hx2 : ∀ x ∈ data ++ [c % 256], x < 256 := by
    intro x hm
    rcases List.mem_append.mp hm with h1 | h1
    · exact hx x h1
    · rw [List.mem_singleton.mp h1]; exact Nat.mod_lt _ (by norm_num)
  unfold Packer.put
  by_cases h255 : p.stg.length = 255
  · rw [if_pos h255]
    refine ⟨full ++ [p.stg], ?_, ?_, ?_, by simp, hx2⟩
    · intro b hb
      rcases List.mem_append.mp hb with h1 | h1
      · exact hf b h1
      · rw [List.mem_singleton.mp h1]; exact h255
    · rw [frames_append, ho, frames_cons, frames_nil, h255, List.append_nil]
    · simp only [hd, List.flatten_append, List.flatten_cons, List.flatten_nil, List.append_nil,
        List.append_assoc]
  · rw [if_neg h255]
    refine ⟨full, hf, by simp [ho], by simp [hd], ?_, hx2⟩
    simp only [List.length_append, List.length_singleton]; omega

theorem and_ff_mod (x : Nat) : x &&& 0xff = x % 256 := by
  have : (0xff : Nat) = 2 ^ 8 - 1 := by norm_num
  rw [this, Nat.and_pow_two_sub_one_eq_mod]

theorem div_lt_pow_sub (x n k : Nat) (h : x < 2 ^ n) (hk : k ≤ n) : x / 2 ^ k < 2 ^ (n - k) := by
  rw [Nat.div_lt_iff_lt_mul (Nat.two_pow_pos k), ← Nat.pow_add]
  rwa [Nat.sub_add_cancel hk]

/-- The loop `while (crnt_shift_state >= 8)`: the value of the data and the shift
register together stays, less than 8 bits stay in the register. -/
theorem pk_shift :
    ∀ (fuel : Nat) (p : Packer) (out data : List Nat),
      PkB out p.stg data → p.nbits ≤ 8 * fuel + 7 → p.dword < 2 ^ p.nbits →
      ∃ data1, PkB (out ++ (Packer.shift fuel p).1) (Packer.shift fuel p).2.stg data1 ∧
        le_val data1 + 2 ^ (8 * data1.length) * (Packer.shift fuel p).2.dword =
          le_val data + 2 ^ (8 * data.length) * p.dword ∧
        8 * data1.length + (Packer.shift fuel p).2.nbits = 8 * data.length + p.nbits ∧
        (Packer.shift fuel p).2.dword < 2 ^ (Packer.shift fuel p).2.nbits ∧
        (Packer.shift fuel p).2.nbits < 8 := by
  intro fuel
  induction fuel with
  | zero =>
    intro p out data hb hn hd
    exact ⟨data, by simpa [Packer.shift] using hb, rfl, rfl, hd,
      by show p.nbits < 8; omega⟩
  | succ fuel ih =>
    intro p out data hb hn hd
    by_cases h8 : p.nbits ≥ 8
    · have hb1 := pkb_put out data p (p.dword &&& 0xff) hb
      have hd1 : p.dword >>> 8 < 2 ^ (p.nbits - 8) := by
        rw [Nat.shiftRight_eq_div_pow]; exact div_lt_pow_sub _ _ _ hd h8
      obtain ⟨data1, hb2, hv, hl, hdw, hnb⟩ := ih
        { (p.put (p.dword &&& 0xff)).2 with dword := p.dword >>> 8, nbits := p.nbits - 8 }
        (out ++ (p.put (p.dword &&& 0xff)).1) (data ++ [(p.dword &&& 0xff) % 256]) hb1
        (by simp only; omega) hd1
      have hsh : Packer.shift (fuel + 1) p =
          ((p.put (p.dword &&& 0xff)).1 ++ (Packer.shift fuel
            { (p.put (p.dword &&& 0xff)).2 with dword := p.dword >>> 8,
                                                 nbits := p.nbits - 8 }).1,
            (Packer.shift fuel
              { (p.put (p.dword &&& 0xff)).2 with dword := p.dword >>> 8,
                                                   nbits := p.nbits - 8 }).2) := by
        simp only [Packer.shift, if_pos h8]
      rw [hsh]
      refine ⟨data1, by rw [← List.append_assoc]; exact hb2, ?_, ?_, hdw, hnb⟩
      · rw [hv, le_val_append]
        have e1 : 2 ^ (8 * (data ++ [(p.dword &&& 0xff) % 256]).length) =
            2 ^ (8 * data.length) * 256 := by
          simp only [List.length_append, List.length_singleton, Nat.mul_add, Nat.pow_add]
        have e2 : (2 : Nat) ^ 8 = 256 := by norm_num
        have e3 : p.dword = 256 * (p.dword / 256) + p.dword % 256 :=
          (Nat.div_add_mod _ _).symm
        rw [e1]
        simp only [le_val, and_ff_mod, Nat.mod_mod, Nat.shiftRight_eq_div_pow, e2]
        conv_rhs => rw [e3]
        ring
      · rw [hl]; simp only [List.length_append, List.length_singleton]; omega
    · have hsh : Packer.shift (fuel + 1) p = ([], p) := by
        simp only [Packer.shift, if_neg h8]
      rw [hsh]
      exact ⟨data, by simpa using hb, rfl, rfl, hd, by show p.nbits < 8; omega⟩

theorem pack_snoc (cw : List (Nat × Nat)) (c w : Nat) :
    pack (cw ++ [(c, w)]) = pack cw + 2 ^ bitlen cw * c := by
  rw [pack_append]; simp [pack]

theorem bitlen_snoc (cw : List (Nat × Nat)) (c w : Nat) :
    bitlen (cw ++ [(c, w)]) = bitlen cw + w := by
  rw [bitlen_append]; simp [bitlen]

/-- The packing branch of `encode`: the code joins the codes held. -/
theorem pk_emit (out : List Nat) (p : Packer) (cw : List (Nat × Nat)) (c w : Nat)
    (h : PkRep out p cw) (hc : c < 2 ^ w) :
    PkRep (out ++ (p.emit c w).1) (p.emit c w).2 (cw ++ [(c, w)]) ∧
      (p.emit c w).2.nbits < 8 := by
  obtain ⟨data, hb, hv, hl, hd⟩ := h
  have hor : p.dword ||| (c <<< p.nbits) = p.dword + 2 ^ p.nbits * c := by
    rw [Nat.shiftLeft_eq, Nat.mul_comm c, Nat.lor_comm, ← Nat.mul_add_lt_is_or hd]
    omega
  have hd2 : p.dword ||| (c <<< p.nbits) < 2 ^ (p.nbits + w) := by
    rw [hor, Nat.pow_add]
    calc p.dword + 2 ^ p.nbits * c < 2 ^ p.nbits + 2 ^ p.nbits * c := by omega
      _ = 2 ^ p.nbits * (c + 1) := by ring
      _ ≤ 2 ^ p.nbits * 2 ^ w := Nat.mul_le_mul_left _ hc
  obtain ⟨data1, hb1, hv1, hl1, hd1, hn1⟩ := pk_shift (p.nbits + w)
    { p with dword := p.dword ||| (c <<< p.nbits), nbits := p.nbits + w } out data hb
    (by simp only; omega) hd2
  refine ⟨⟨data1, hb1, ?_, ?_, hd1⟩, hn1⟩
  · show le_val data1 + 2 ^ (8 * data1.length) * (p.emit c w).2.dword = _
    unfold Packer.emit
    rw [hv1, pack_snoc, ← hv, ← hl]
    simp only [hor, Nat.pow_add]
    ring
  · show 8 * data1.length + (p.emit c w).2.nbits = _
    unfold Packer.emit
    rw [hl1, bitlen_snoc, ← hl]
    simp only; omega

theorem pk_drain_zero (fuel : Nat) (p : Packer) (h : p.nbits = 0) :
    Packer.drain fuel p = ([], p) := by
  cases fuel with
  | zero => rfl
  | succ n => simp only [Packer.drain, h, gt_iff_lt, Nat.lt_irrefl, if_false]

theorem pk_flush_flatten (full : List (List Nat)) (stg data1 : List Nat)
    (hd1 : data1 = full.flatten ++ stg) :
    (full ++ (if stg.length ≠ 0 then [stg] else [])).flatten = data1 := by
  rw [hd1, List.flatten_append]
  by_cases hs : stg.length ≠ 0
  · rw [if_pos hs]; simp
  · rw [if_neg hs]
    have : stg = [] := by apply List.eq_nil_of_length_eq_zero; omega
    rw [this]; simp

/-- `encode(flush_output)`: what went to the session is a sequence of sub-blocks and
the zero length block, and the bytes in the blocks hold the codes. -/
theorem pk_flush (out : List Nat) (p : Packer) (cw : List (Nat × Nat))
    (h : PkRep out p cw) (hn : p.nbits < 8) :
    ∃ blocks, Blocks blocks ∧ out ++ p.flush.1 = frames blocks ++ [0] ∧
      le_val blocks.flatten = pack cw ∧ bitlen cw ≤ 8 * blocks.flatten.length := by
  obtain ⟨data, hb, hv, hl, hd⟩ := h
  have key : ∃ data1, PkB (out ++ (Packer.drain p.nbits p).1) (Packer.drain p.nbits p).2.stg
      data1 ∧ le_val data1 = pack cw ∧ bitlen cw ≤ 8 * data1.length := by
    by_cases h0 : p.nbits = 0
    · rw [pk_drain_zero _ _ h0]
      rw [h0] at hd hl
      have hz : p.dword = 0 := by simpa using hd
      rw [hz] at hv
      exact ⟨data, by simpa using hb, by simpa using hv, by omega⟩
    · obtain ⟨n, hn1⟩ : ∃ n, p.nbits = n + 1 := ⟨p.nbits - 1, by omega⟩
      have hdr : Packer.drain p.nbits p =
          ((p.put (p.dword &&& 0xff)).1,
            { (p.put (p.dword &&& 0xff)).2 with dword := p.dword >>> 8,
                                                 nbits := p.nbits - 8 }) := by
        have hpos : p.nbits > 0 := by omega
        have hz : p.nbits - 8 = 0 := by omega
        rw [hn1]
        simp only [Packer.drain]
        rw [← hn1, if_pos hpos]
        rw [pk_drain_zero n _ hz]
        simp only [List.append_nil]
      rw [hdr]
      have hlt : p.dword < 256 := by
        have : 2 ^ p.nbits ≤ 2 ^ 8 := Nat.pow_le_pow_right (by norm_num) (by omega)
        omega
      refine ⟨data ++ [(p.dword &&& 0xff) % 256], pkb_put out data p _ hb, ?_, ?_⟩
      · rw [le_val_append, ← hv, and_ff_mod, Nat.mod_mod, Nat.mod_eq_of_lt hlt]
        simp [le_val]
      · rw [← hl]; simp only [List.length_append, List.length_singleton]; omega
  obtain ⟨data1, ⟨full, hf, ho, hd1, hl1, hx⟩, hv1, hb1⟩ := key
  refine ⟨full ++ (if (Packer.drain p.nbits p).2.stg.length ≠ 0
      then [(Packer.drain p.nbits p).2.stg] else []), ?_, ?_, ?_, ?_⟩
  · intro b hb2
    rcases List.mem_append.mp hb2 with h1 | h1
    · refine ⟨by rw [hf b h1]; norm_num, by rw [hf b h1], fun x hx2 => hx x ?_⟩
      rw [hd1]
      exact List.mem_append_left _ (List.mem_flatten.mpr ⟨b, h1, hx2⟩)
    · by_cases hs : (Packer.drain p.nbits p).2.stg.length ≠ 0
      · rw [if_pos hs] at h1
        rw [List.mem_singleton.mp h1]
        refine ⟨by omega, hl1, fun x hx2 => hx x ?_⟩
        rw [hd1]; exact List.mem_append_right _ hx2
      · rw [if_neg hs] at h1
        exact absurd h1 (List.not_mem_nil _)
  · unfold Packer.flush Packer.close
    simp only [← List.append_assoc, ho, frames_append]
    by_cases hs : (Packer.drain p.nbits p).2.stg.length ≠ 0
    · simp only [if_pos hs, frames_cons, frames_nil, List.append_nil, List.append_assoc,
        List.cons_append]
    · simp only [if_neg hs, frames_nil, List.append_nil, List.nil_append]
  · rw [← hv1, pk_flush_flatten full _ data1 hd1]
  · rw [pk_flush_flatten full _ data1 hd1]; exact hb1

end gif

namespace gif

/-! ## Strings of codes -/

theorem dstr_lit (cr : Nat) (c : Nat) (hc : c < 2 ^ cr) :
    ∀ d : List (Nat × Nat), dstr cr d c = [c] := by
  intro d
  induction d with
  | nil => rfl
  | cons e older ih =>
    have : ¬ c = 2 ^ cr + 2 + older.length := by omega
    simp only [dstr, if_neg this, ih]

theorem dstr_cons_of_vcode (cr : Nat) (e : Nat × Nat) (older : List (Nat × Nat)) (c : Nat)
    (h : VCode cr older c) : dstr cr (e :: older) c = dstr cr older c := by
  have : ¬ c = 2 ^ cr + 2 + older.length := by
    rcases h with h | h <;> omega
  simp only [dstr, if_neg this]

theorem dstr_cons_new (cr : Nat) (e : Nat × Nat) (older : List (Nat × Nat)) :
    dstr cr (e :: older) (2 ^ cr + 2 + older.length) = dstr cr older e.1 ++ [e.2] := by
  simp only [dstr, if_true]

theorem vcode_mono (cr : Nat) (newer older : List (Nat × Nat)) (c : Nat)
    (h : VCode cr older c) : VCode cr (newer ++ older) c := by
  rcases h with h | h
  · exact Or.inl h
  · exact Or.inr ⟨h.1, by rw [List.length_append]; omega⟩

theorem dstr_older (cr : Nat) (older : List (Nat × Nat)) (c : Nat) (h : VCode cr older c) :
    ∀ newer : List (Nat × Nat), dstr cr (newer ++ older) c = dstr cr older c := by
  intro newer
  induction newer with
  | nil => rfl
  | cons e n ih =>
    rw [List.cons_append, dstr_cons_of_vcode cr e _ c (vcode_mono cr n older c h), ih]

theorem dstr_ne_nil (cr : Nat) : ∀ (d : List (Nat × Nat)) (c : Nat), dstr cr d c ≠ [] := by
  intro d
  induction d with
  | nil => intro c; simp [dstr]
  | cons e older ih =>
    intro c
    by_cases h : c = 2 ^ cr + 2 + older.length
    · simp only [dstr, if_pos h]; simp
    · simp only [dstr, if_neg h]; exact ih c

theorem dwf_older (cr : Nat) (older : List (Nat × Nat)) :
    ∀ newer : List (Nat × Nat), DWf cr (newer ++ older) → DWf cr older := by
  intro newer
  induction newer with
  | nil => intro h; exact h
  | cons e n ih => intro h; exact ih h.2.2

theorem vcode_cases (cr : Nat) (e : Nat × Nat) (older : List (Nat × Nat)) (c : Nat)
    (h : VCode cr (e :: older) c) : VCode cr older c ∨ c = 2 ^ cr + 2 + older.length := by
  rcases h with h | h
  · exact Or.inl (Or.inl h)
  · rw [List.length_cons] at h
    by_cases hc : c = 2 ^ cr + 2 + older.length
    · exact Or.inr hc
    · exact Or.inl (Or.inr ⟨h.1, by omega⟩)

/-- The pixels of a registered code are pixel values. -/
theorem dstr_lt (cr : Nat) :
    ∀ (d : List (Nat × Nat)) (c : Nat), DWf cr d → VCode cr d c → ∀ x ∈ dstr cr d c, x < 2 ^ cr := by
  intro d
  induction d with
  | nil =>
    intro c _ hv x hx
    rcases hv with hv | hv
    · simp only [dstr, List.mem_singleton] at hx; omega
    · simp only [List.length_nil] at hv; omega
  | cons e older ih =>
    intro c hw hv x hx
    rcases vcode_cases cr e older c hv with h | h
    · rw [dstr_cons_of_vcode cr e older c h] at hx
      exact ih c hw.2.2 h x hx
    · rw [h, dstr_cons_new] at hx
      rcases List.mem_append.mp hx with h1 | h1
      · exact ih e.1 hw.2.2 hw.1 x h1
      · rw [List.mem_singleton.mp h1]; exact hw.2.1

/-- A registered code stands for at most one pixel per older pair and one more. -/
theorem dstr_length (cr : Nat) :
    ∀ (d : List (Nat × Nat)) (c : Nat), DWf cr d → VCode cr d c →
      (dstr cr d c).length ≤ d.length + 1 := by
  intro d
  induction d with
  | nil => intro c _ _; simp [dstr]
  | cons e older ih =>
    intro c hw hv
    rcases vcode_cases cr e older c hv with h | h
    · rw [dstr_cons_of_vcode cr e older c h]
      have := ih c hw.2.2 h
      simp only [List.length_cons]; omega
    · rw [h, dstr_cons_new]
      have := ih e.1 hw.2.2 hw.1
      simp only [List.length_append, List.length_cons, List.length_nil]; omega

theorem dlookup_some (cr : Nat) :
    ∀ (d : List (Nat × Nat)) (p x c : Nat), dlookup cr d p x = some c →
      ∃ newer older, d = newer ++ (p, x) :: older ∧ c = 2 ^ cr + 2 + older.length := by
  intro d
  induction d with
  | nil => intro p x c h; simp [dlookup] at h
  | cons e older ih =>
    intro p x c h
    by_cases he : e = (p, x)
    · simp only [dlookup, if_pos he, Option.some.injEq] at h
      exact ⟨[], older, by rw [he]; rfl, h.symm⟩
    · simp only [dlookup, if_neg he] at h
      obtain ⟨n, o, hd, hc⟩ := ih p x c h
      exact ⟨e :: n, o, by rw [hd]; rfl, hc⟩

/-- A pair found in the dictionary: its code stands for the pixels of the running
code and the pixel. -/
theorem dlookup_dstr (cr : Nat) (d : List (Nat × Nat)) (p x c : Nat) (hw : DWf cr d)
    (h : dlookup cr d p x = some c) :
    VCode cr d c ∧ dstr cr d c = dstr cr d p ++ [x] := by
  obtain ⟨newer, older, hd, hc⟩ := dlookup_some cr d p x c h
  subst hd
  have hw2 := dwf_older cr _ newer hw
  have hvc : VCode cr ((p, x) :: older) c := Or.inr ⟨by omega, by simp [hc]⟩
  refine ⟨vcode_mono cr newer _ c hvc, ?_⟩
  rw [dstr_older cr _ c hvc newer, hc, dstr_cons_new]
  have hvp : VCode cr ((p, x) :: older) p := vcode_mono cr [(p, x)] older p hw2.1
  rw [dstr_older cr _ p hvp newer, dstr_cons_of_vcode cr _ older p hw2.1]

/-! ## The decoder logic over the codes of the encoder -/

theorem adec_run_cons (cr : Nat) (d : ADec) (e : Nat × Nat) (rest : List (Nat × Nat)) :
    ADec.run cr d (e :: rest) =
      if e.2 = d.run_bits then
        match d.step cr e.1 with
        | none => none
        | some r =>
          match ADec.run cr r.1 rest with
          | none => none
          | some r2 => some (r2.1, r.2 ++ r2.2)
      else none := rfl

theorem adec_run_snoc (cr : Nat) (c w : Nat) (d1 : ADec) (o : List Nat) :
    ∀ (cw : List (Nat × Nat)) (d0 d : ADec) (out : List Nat),
      ADec.run cr d0 cw = some (d, out) → w = d.run_bits → d.step cr c = some (d1, o) →
      ADec.run cr d0 (cw ++ [(c, w)]) = some (d1, out ++ o) := by
  intro cw
  induction cw with
  | nil =>
    intro d0 d out h hw hs
    simp only [ADec.run, Option.some.injEq, Prod.mk.injEq] at h
    obtain ⟨rfl, rfl⟩ := h
    simp only [List.nil_append, ADec.run, hw, if_true, hs, List.append_nil]
  | cons e rest ih =>
    intro d0 d out h hw hs
    by_cases he : e.2 = d0.run_bits
    · simp only [ADec.run, if_pos he] at h
      cases h1 : d0.step cr e.1 with
      | none => rw [h1] at h; simp at h
      | some r =>
        rw [h1] at h
        simp only at h
        cases h2 : ADec.run cr r.1 rest with
        | none => rw [h2] at h; simp at h
        | some r2 =>
          rw [h2] at h
          simp only [Option.some.injEq, Prod.mk.injEq] at h
          obtain ⟨hd, ho⟩ := h
          have h3 := ih r.1 r2.1 r2.2 h2 (by rw [hd]; exact hw) (by rw [hd]; exact hs)
          rw [List.cons_append, adec_run_cons, if_pos he, h1]
          simp only [h3, ← ho, List.append_assoc]
    · simp only [ADec.run, if_neg he] at h
      simp at h

end gif

namespace gif

/-! ## Encoder and decoder logic in step -/

theorem adec_bump_props (d : ADec) (h : d.run_code < 4097) :
    d.bump.tab = d.tab ∧ d.bump.last = d.last ∧ d.bump.run_code = d.run_code + 1 ∧
      ((d.run_code + 1 > d.max_code ∧ d.run_bits < 12) →
        d.bump.run_bits = d.run_bits + 1 ∧ d.bump.max_code = d.max_code * 2) ∧
      (¬ (d.run_code + 1 > d.max_code ∧ d.run_bits < 12) →
        d.bump.run_bits = d.run_bits ∧ d.bump.max_code = d.max_code) := by
  have h1 : d.run_code < LZ.max_code + 2 := h
  unfold ADec.bump
  rw [if_pos h1]
  by_cases hg : d.run_code + 1 > d.max_code ∧ d.run_bits < 12
  · have hg2 : (decide (d.run_code + 1 > d.max_code) && decide (d.run_bits < LZ.bits)) = true := by
      simp only [Bool.and_eq_true, decide_eq_true_eq]; exact hg
    rw [if_pos hg2]
    exact ⟨rfl, rfl, rfl, fun _ => ⟨rfl, rfl⟩, fun hn => absurd hg hn⟩
  · have hg2 : ¬ (decide (d.run_code + 1 > d.max_code) && decide (d.run_bits < LZ.bits)) = true := by
      simp only [Bool.and_eq_true, decide_eq_true_eq]; exact hg
    rw [if_neg hg2]
    exact ⟨rfl, rfl, rfl, fun hp => absurd hp hg, fun _ => ⟨rfl, rfl⟩⟩

theorem aenc_encode_props (cr : Nat) (a : AEnc) (code : Nat) (hc : code ≤ 4095) :
    (a.encode cr code).1 = (a.pk.emit code a.run_bits).1 ∧
      (a.encode cr code).2.pk = (a.pk.emit code a.run_bits).2 ∧
      (a.encode cr code).2.dict = a.dict ∧
      (a.run_code cr ≥ a.max_code →
        (a.encode cr code).2.run_bits = a.run_bits + 1 ∧
          (a.encode cr code).2.max_code = 2 ^ (a.run_bits + 1)) ∧
      (¬ a.run_code cr ≥ a.max_code →
        (a.encode cr code).2.run_bits = a.run_bits ∧
          (a.encode cr code).2.max_code = a.max_code) := by
  have hc2 : code ≤ LZ.max_code := hc
  refine ⟨rfl, ?_, ?_, ?_, ?_⟩
  · unfold AEnc.encode; simp only []; split <;> rfl
  · unfold AEnc.encode; simp only []; split <;> rfl
  · intro hg
    have hg2 : (decide (a.run_code cr ≥ a.max_code) && decide (code ≤ LZ.max_code)) = true := by
      simp only [Bool.and_eq_true, decide_eq_true_eq]; exact ⟨hg, hc2⟩
    unfold AEnc.encode; simp only []; rw [if_pos hg2]; exact ⟨rfl, rfl⟩
  · intro hg
    have hg2 : ¬ (decide (a.run_code cr ≥ a.max_code) && decide (code ≤ LZ.max_code)) = true := by
      simp only [Bool.and_eq_true, decide_eq_true_eq]; exact fun h => hg h.1
    unfold AEnc.encode; simp only []; rw [if_neg hg2]; exact ⟨rfl, rfl⟩

theorem adec_step_known (cr : Nat) (d : ADec) (c : Nat) (h1 : ¬ c = 2 ^ cr + 1)
    (h2 : ¬ c = 2 ^ cr) (h3 : ¬ 4095 < d.run_code) (hv : VCode cr d.bump.tab c) :
    ∃ d1, d.step cr c = some (d1, dstr cr d.bump.tab c) ∧
      d1.tab = (if d.bump.last = LZ.no_such_code then d.bump.tab
                else (d.bump.last, (dstr cr d.bump.tab c).headD 0) :: d.bump.tab) ∧
      d1.last = c ∧ d1.run_code = d.bump.run_code ∧ d1.run_bits = d.bump.run_bits ∧
      d1.max_code = d.bump.max_code :=
  ⟨{ d.bump with
      tab := if d.bump.last = LZ.no_such_code then d.bump.tab
             else (d.bump.last, (dstr cr d.bump.tab c).headD 0) :: d.bump.tab,
      last := c },
    by unfold ADec.step; rw [if_neg h1, if_neg h2, if_neg h3, if_pos hv], rfl, rfl, rfl, rfl, rfl⟩

theorem adec_step_kw (cr : Nat) (d : ADec) (c : Nat) (h1 : ¬ c = 2 ^ cr + 1)
    (h2 : ¬ c = 2 ^ cr) (h3 : ¬ 4095 < d.run_code) (hv : ¬ VCode cr d.bump.tab c)
    (hk : c = d.bump.run_code - 2 ∧ d.bump.last ≠ LZ.no_such_code) :
    ∃ d1, d.step cr c =
        some (d1, dstr cr d.bump.tab d.bump.last ++ [(dstr cr d.bump.tab d.bump.last).headD 0]) ∧
      d1.tab = (d.bump.last, (dstr cr d.bump.tab d.bump.last).headD 0) :: d.bump.tab ∧
      d1.last = c ∧ d1.run_code = d.bump.run_code ∧ d1.run_bits = d.bump.run_bits ∧
      d1.max_code = d.bump.max_code :=
  ⟨{ d.bump with
      tab := (d.bump.last, (dstr cr d.bump.tab d.bump.last).headD 0) :: d.bump.tab,
      last := c },
    by unfold ADec.step; rw [if_neg h1, if_neg h2, if_neg h3, if_neg hv, if_pos hk],
    rfl, rfl, rfl, rfl, rfl⟩

theorem headD_append_of_ne_nil (l m : List Nat) (h : l ≠ []) :
    (l ++ m).headD 0 = l.headD 0 := by
  cases l with
  | nil => exact absurd rfl h
  | cons x xs => rfl

theorem two_pow_le_256 (cr : Nat) (h : cr ≤ 8) : 2 ^ cr ≤ 256 :=
  calc 2 ^ cr ≤ 2 ^ 8 := Nat.pow_le_pow_right (by norm_num) h
    _ = 256 := by norm_num

/-- The encoder sends its running code: the decoder logic reads it at the same
width, expands it to the pixels of the running code and completes its newest pair. -/
theorem lz_emit (cr : Nat) (hcr : cr ≤ 8) (a : AEnc) (code : Nat) (d : ADec)
    (h : LzSync cr a code d) :
    ∃ d1, d.step cr code = some (d1, dstr cr a.dict code) ∧ d1.tab = a.dict ∧
      d1.last = code ∧ d1.run_code = 2 ^ cr + 2 + a.dict.length + 1 ∧
      d1.run_bits = (a.encode cr code).2.run_bits ∧
      d1.max_code = (a.encode cr code).2.max_code ∧
      (a.encode cr code).2.max_code = 2 ^ (a.encode cr code).2.run_bits ∧
      (a.encode cr code).2.run_bits ≤ 12 ∧ 0 < (a.encode cr code).2.run_bits ∧
      2 ^ cr + 2 + a.dict.length + 1 ≤ (a.encode cr code).2.max_code ∧
      code < 2 ^ a.run_bits ∧ code ≤ 4094 := by
  have h256 := two_pow_le_256 cr hcr
  have hcode : code < 2 ^ cr + 2 + a.dict.length := by
    rcases h.vcode with hv | hv <;> omega
  have hsz := h.size
  have hfit := h.fit
  have hc95 : code ≤ 4095 := by omega
  obtain ⟨_, _, _, hgrow, hstay⟩ := aenc_encode_props cr a code hc95
  obtain ⟨hbt, hbl, hbr, hbgrow, hbstay⟩ := adec_bump_props d (by rw [h.run_code]; omega)
  have hrc : a.run_code cr = 2 ^ cr + 2 + a.dict.length := rfl
  -- the widths after the code
  have hw : d.bump.run_bits = (a.encode cr code).2.run_bits ∧
      d.bump.max_code = (a.encode cr code).2.max_code ∧
      (a.encode cr code).2.max_code = 2 ^ (a.encode cr code).2.run_bits ∧
      (a.encode cr code).2.run_bits ≤ 12 ∧ 0 < (a.encode cr code).2.run_bits ∧
      2 ^ cr + 2 + a.dict.length + 1 ≤ (a.encode cr code).2.max_code := by
    by_cases hg : a.run_code cr ≥ a.max_code
    · have hlt : a.run_bits < 12 := by
        by_contra hn
        have : 2 ^ 12 ≤ 2 ^ a.run_bits := Nat.pow_le_pow_right (by norm_num) (by omega)
        rw [hrc, h.pow] at hg
        omega
      obtain ⟨e1, e2⟩ := hgrow hg
      obtain ⟨e3, e4⟩ := hbgrow ⟨by rw [h.run_code, h.max_code]; rw [hrc] at hg; omega,
        by rw [h.run_bits]; exact hlt⟩
      rw [e1, e2, e3, e4, h.run_bits, h.max_code, h.pow]
      refine ⟨rfl, by rw [Nat.pow_succ], rfl, by omega, by omega, ?_⟩
      rw [Nat.pow_succ, ← h.pow]; rw [hrc] at hg; omega
    · obtain ⟨e1, e2⟩ := hstay hg
      obtain ⟨e3, e4⟩ := hbstay (by
        rw [h.run_code, h.max_code]; rw [hrc] at hg; omega)
      rw [e1, e2, e3, e4, h.run_bits, h.max_code]
      refine ⟨rfl, rfl, h.pow, h.bits, h.pos, ?_⟩
      rw [hrc] at hg; omega
  have hne1 : ¬ code = 2 ^ cr + 1 := by rcases h.vcode with hv | hv <;> omega
  have hne2 : ¬ code = 2 ^ cr := by rcases h.vcode with hv | hv <;> omega
  have hne3 : ¬ 4095 < d.run_code := by rw [h.run_code]; omega
  have hclt : code < 2 ^ a.run_bits := by rw [← h.pow]; omega
  have hstep : ∃ d1, d.step cr code = some (d1, dstr cr a.dict code) ∧ d1.tab = a.dict ∧
      d1.last = code ∧ d1.run_code = d.bump.run_code ∧ d1.run_bits = d.bump.run_bits ∧
      d1.max_code = d.bump.max_code := by
    cases hdict : a.dict with
    | nil =>
      have hlast : d.last = LZ.no_such_code := by rw [h.last, hdict]; rfl
      have htab : d.tab = [] := by rw [h.tab, hdict]; rfl
      have hv : VCode cr d.bump.tab code := by
        rw [hbt, htab]
        rcases h.vcode with hv | hv
        · exact Or.inl hv
        · rw [hdict] at hv; simp only [List.length_nil] at hv; omega
      obtain ⟨d1, e1, e2, e3, e4, e5, e6⟩ := adec_step_known cr d code hne1 hne2 hne3 hv
      refine ⟨d1, ?_, ?_, e3, e4, e5, e6⟩
      · rw [e1, hbt, htab]
      · rw [e2, hbl, hlast, if_pos rfl, hbt, htab]
    | cons e older =>
      have hwf : DWf cr (e :: older) := by rw [← hdict]; exact h.wf
      have hlast : d.last = e.1 := by rw [h.last, hdict]; rfl
      have htab : d.tab = older := by rw [h.tab, hdict]; rfl
      have hsz2 : 2 ^ cr + 2 + older.length + 1 ≤ 4095 := by
        rw [hdict] at hsz; simpa [Nat.add_assoc] using hsz
      have he1 : e.1 ≠ LZ.no_such_code := by
        have : e.1 < 4098 := by rcases hwf.1 with hv | hv <;> omega
        show e.1 ≠ 4098
        omega
      have hhead : e.2 = (dstr cr (e :: older) code).headD 0 := by
        have := h.head e (by rw [hdict]; rfl)
        rw [hdict] at this; exact this
      have hvc : VCode cr (e :: older) code := by rw [← hdict]; exact h.vcode
      have hrc2 : d.bump.run_code = 2 ^ cr + 2 + (e :: older).length + 1 := by
        rw [hbr, h.run_code, hdict]
      rcases vcode_cases cr e older code hvc with hk | hk
      · have hv : VCode cr d.bump.tab code := by rw [hbt, htab]; exact hk
        obtain ⟨d1, e1, e2, e3, e4, e5, e6⟩ := adec_step_known cr d code hne1 hne2 hne3 hv
        refine ⟨d1, ?_, ?_, e3, e4, e5, e6⟩
        · rw [e1, hbt, htab, dstr_cons_of_vcode cr e older code hk]
        · rw [dstr_cons_of_vcode cr e older code hk] at hhead
          rw [e2, hbl, hlast, if_neg he1, hbt, htab, ← hhead]
      · have hv : ¬ VCode cr d.bump.tab code := by
          rw [hbt, htab]
          intro hv
          rcases hv with hv | hv <;> omega
        have hkw : code = d.bump.run_code - 2 ∧ d.bump.last ≠ LZ.no_such_code := by
          refine ⟨?_, by rw [hbl, hlast]; exact he1⟩
          rw [hrc2, hk]; simp only [List.length_cons]; omega
        have hs : dstr cr (e :: older) code = dstr cr older e.1 ++ [e.2] := by
          rw [hk, dstr_cons_new]
        have hhead2 : e.2 = (dstr cr older e.1).headD 0 := by
          rw [hs, headD_append_of_ne_nil _ _ (dstr_ne_nil cr older e.1)] at hhead
          exact hhead
        obtain ⟨d1, e1, e2, e3, e4, e5, e6⟩ := adec_step_kw cr d code hne1 hne2 hne3 hv hkw
        refine ⟨d1, ?_, ?_, e3, e4, e5, e6⟩
        · rw [e1, hbt, htab, hbl, hlast, hs, ← hhead2]
        · rw [e2, hbl, hlast, hbt, htab, ← hhead2]
  obtain ⟨d1, hs1, ht1, hl1, hr1, hb1, hm1⟩ := hstep
  exact ⟨d1, hs1, ht1, hl1, by rw [hr1, hbr, h.run_code], by rw [hb1]; exact hw.1,
    by rw [hm1]; exact hw.2.1, hw.2.2.1, hw.2.2.2.1, hw.2.2.2.2.1, hw.2.2.2.2.2, hclt,
    by omega⟩

end gif

namespace gif

/-! ## The codes of the encoder decode to the pixels -/

theorem lzsync_init (cr : Nat) (hcr1 : 1 ≤ cr) (hcr : cr ≤ 8) (a : AEnc) (x : Nat)
    (hx : x < 2 ^ cr) (hd : a.dict = []) (hb : a.run_bits = cr + 1)
    (hm : a.max_code = 2 ^ (cr + 1)) : LzSync cr a x (ADec.init cr) := by
  have h256 := two_pow_le_256 cr hcr
  have h2 : 2 ≤ 2 ^ cr := by
    calc 2 = 2 ^ 1 := by norm_num
      _ ≤ 2 ^ cr := Nat.pow_le_pow_right (by norm_num) hcr1
  refine ⟨by rw [hd]; trivial, Or.inl hx, by rw [hd]; rfl, by rw [hd]; rfl, by rw [hd]; rfl,
    by rw [hb]; rfl, by rw [hm]; rfl, by rw [hm, hb], by omega, by omega, ?_, ?_, ?_⟩
  · intro e he; rw [hd] at he; simp at he
  · rw [hd]; simp only [List.length_nil]; omega
  · rw [hd, hm, Nat.pow_succ]; simp only [List.length_nil]; omega

theorem adec_step_clear (cr : Nat) (d : ADec) : d.step cr (2 ^ cr) = some (ADec.init cr, []) := by
  unfold ADec.step
  rw [if_neg (by omega), if_pos rfl]

/-- One pixel of the pixel loop of `encode_line`. -/
theorem lz_pixel (cr : Nat) (hcr1 : 1 ≤ cr) (hcr : cr ≤ 8) (out : List Nat) (a : AEnc)
    (code : Nat) (px : List Nat) (x : Nat) (hx : x < 2 ^ cr) (h : EncTr cr out a code px) :
    EncTr cr (out ++ (a.pixel cr code x).1) (a.pixel cr code x).2.1 (a.pixel cr code x).2.2
      (px ++ [x]) := by
  obtain ⟨cw, d, dout, hpk, hnb, hfits, hpos, hrun, hsync, hpx⟩ := h
  cases hlk : dlookup cr a.dict code x with
  | some c =>
    have hpix : a.pixel cr code x = ([], a, c) := by unfold AEnc.pixel; rw [hlk]
    rw [hpix]
    obtain ⟨hv, hs⟩ := dlookup_dstr cr a.dict code x c hsync.wf hlk
    refine ⟨cw, d, dout, by simpa using hpk, hnb, hfits, hpos, hrun,
      { hsync with vcode := hv, head := ?_ }, ?_⟩
    · intro e he
      rw [hsync.head e he, hs, headD_append_of_ne_nil _ _ (dstr_ne_nil cr a.dict code)]
    · show dout ++ dstr cr a.dict c = px ++ [x]
      rw [hs, ← List.append_assoc, hpx]
  | none =>
    obtain ⟨d1, hs1, ht1, hl1, hr1, hb1, hm1, hpow1, hbits1, hpos1, hfit1, hclt, hc94⟩ :=
      lz_emit cr hcr a code d hsync
    obtain ⟨e1, e2, e3, _, _⟩ := aenc_encode_props cr a code (by omega)
    obtain ⟨hpk1, hnb1⟩ := pk_emit out a.pk cw code a.run_bits hpk hclt
    have hrun1 := adec_run_snoc cr code a.run_bits d1 _ cw _ d dout hrun hsync.run_bits.symm hs1
    have hfits1 : Fits (cw ++ [(code, a.run_bits)]) :=
      fits_append _ _ hfits (by intro e he; rw [List.mem_singleton.mp he]; exact hclt)
    have hpos1w : ∀ e ∈ cw ++ [(code, a.run_bits)], 0 < e.2 := by
      intro e he
      rcases List.mem_append.mp he with h1 | h1
      · exact hpos e h1
      · rw [List.mem_singleton.mp h1]; exact hsync.pos
    by_cases hfull : (a.encode cr code).2.run_code cr ≥ LZ.max_code
    · have hpix : a.pixel cr code x =
          ((a.encode cr code).1 ++ ((a.encode cr code).2.encode cr (2 ^ cr)).1,
            { ((a.encode cr code).2.encode cr (2 ^ cr)).2 with
                dict := [], run_bits := cr + 1, max_code := 2 ^ (cr + 1) }, x) := by
        unfold AEnc.pixel; rw [hlk]; simp only []; rw [if_pos hfull]
      rw [hpix]
      have h256 := two_pow_le_256 cr hcr
      obtain ⟨f1, f2, _, _, _⟩ := aenc_encode_props cr (a.encode cr code).2 (2 ^ cr) (by omega)
      have hclr : 2 ^ cr < 2 ^ (a.encode cr code).2.run_bits := by rw [← hpow1]; omega
      rw [← e2] at hpk1
      obtain ⟨hpk2, hnb2⟩ := pk_emit _ _ _ (2 ^ cr) (a.encode cr code).2.run_bits hpk1 hclr
      have hrun2 := adec_run_snoc cr (2 ^ cr) (a.encode cr code).2.run_bits _ _ _ _ d1 _ hrun1
        hb1.symm (adec_step_clear cr d1)
      refine ⟨_, _, _, ?_, ?_, ?_, ?_, hrun2, lzsync_init cr hcr1 hcr _ x hx rfl rfl rfl, ?_⟩
      · rw [← List.append_assoc, f1, e1]
        show PkRep _ ((a.encode cr code).2.encode cr (2 ^ cr)).2.pk _
        rw [f2]; exact hpk2
      · show ((a.encode cr code).2.encode cr (2 ^ cr)).2.pk.nbits < 8
        rw [f2]; exact hnb2
      · exact fits_append _ _ hfits1 (by
          intro e he; rw [List.mem_singleton.mp he]; exact hclr)
      · intro e he
        rcases List.mem_append.mp he with h1 | h1
        · exact hpos1w e h1
        · rw [List.mem_singleton.mp h1]; exact hpos1
      · show (dout ++ dstr cr a.dict code ++ []) ++ dstr cr [] x = px ++ [x]
        rw [List.append_nil, hpx]; rfl
    · have hpix : a.pixel cr code x =
          ((a.encode cr code).1,
            { (a.encode cr code).2 with dict := (code, x) :: (a.encode cr code).2.dict }, x) := by
        unfold AEnc.pixel; rw [hlk]; simp only []; rw [if_neg hfull]
      rw [hpix]
      have hnf : 2 ^ cr + 2 + a.dict.length < 4095 := by
        have : ¬ 2 ^ cr + 2 + (a.encode cr code).2.dict.length ≥ 4095 := hfull
        rw [e3] at this; omega
      refine ⟨_, d1, _, ?_, ?_, hfits1, hpos1w, hrun1, ?_, ?_⟩
      · rw [e1]
        show PkRep _ (a.encode cr code).2.pk _
        rw [e2]; exact hpk1
      · show (a.encode cr code).2.pk.nbits < 8
        rw [e2]; exact hnb1
      · refine ⟨?_, Or.inl hx, ?_, ?_, ?_, hb1, hm1, hpow1, hbits1, hpos1, ?_, ?_, ?_⟩
        · show DWf cr ((code, x) :: (a.encode cr code).2.dict)
          rw [e3]; exact ⟨hsync.vcode, hx, hsync.wf⟩
        · show d1.tab = (a.encode cr code).2.dict
          rw [e3]; exact ht1
        · show d1.last = code
          exact hl1
        · show d1.run_code = 2 ^ cr + 2 + ((code, x) :: (a.encode cr code).2.dict).length
          rw [e3, hr1, List.length_cons]; omega
        · intro e he
          have : e = (code, x) := by
            simp only [List.head?_cons, Option.mem_def, Option.some.injEq] at he
            exact he.symm
          rw [this, dstr_lit cr x hx]; rfl
        · show 2 ^ cr + 2 + ((code, x) :: (a.encode cr code).2.dict).length ≤ 4095
          rw [e3]; simp only [List.length_cons]; omega
        · show 2 ^ cr + 2 + ((code, x) :: (a.encode cr code).2.dict).length ≤
            (a.encode cr code).2.max_code
          rw [e3]; simp only [List.length_cons]; omega
      · show (dout ++ dstr cr a.dict code) ++ dstr cr ((code, x) :: (a.encode cr code).2.dict) x
          = px ++ [x]
        rw [dstr_lit cr x hx, hpx]

/-- The pixel loop of `encode_line`. -/
theorem lz_loop (cr : Nat) (hcr1 : 1 ≤ cr) (hcr : cr ≤ 8) :
    ∀ (line : List Nat) (out : List Nat) (a : AEnc) (code : Nat) (px : List Nat),
      (∀ x ∈ line, x < 2 ^ cr) → EncTr cr out a code px →
      EncTr cr (out ++ (AEnc.loop cr line a code).1) (AEnc.loop cr line a code).2.1
        (AEnc.loop cr line a code).2.2 (px ++ line) := by
  intro line
  induction line with
  | nil =>
    intro out a code px _ h
    simpa [AEnc.loop] using h
  | cons x rest ih =>
    intro out a code px hx h
    have h1 := lz_pixel cr hcr1 hcr out a code px x (hx x (List.mem_cons_self _ _)) h
    have h2 := ih _ _ _ _ (fun y hy => hx y (List.mem_cons_of_mem _ hy)) h1
    have hl : AEnc.loop cr (x :: rest) a code =
        ((a.pixel cr code x).1 ++
          (AEnc.loop cr rest (a.pixel cr code x).2.1 (a.pixel cr code x).2.2).1,
          (AEnc.loop cr rest (a.pixel cr code x).2.1 (a.pixel cr code x).2.2).2) := rfl
    rw [hl]
    simpa [List.append_assoc] using h2

end gif

namespace gif

/-! ## The stream of an encoder session -/

theorem enctr_congr (cr : Nat) (out : List Nat) (a b : AEnc) (code : Nat) (px : List Nat)
    (h1 : b.pk = a.pk) (h2 : b.dict = a.dict) (h3 : b.run_bits = a.run_bits)
    (h4 : b.max_code = a.max_code) (h : EncTr cr out a code px) : EncTr cr out b code px := by
  obtain ⟨cw, d, dout, hpk, hnb, hfits, hpos, hrun, hsync, hpx⟩ := h
  refine ⟨cw, d, dout, by rw [h1]; exact hpk, by rw [h1]; exact hnb, hfits, hpos, hrun, ?_,
    by rw [h2]; exact hpx⟩
  obtain ⟨s1, s2, s3, s4, s5, s6, s7, s8, s9, s10, s11, s12, s13⟩ := hsync
  exact ⟨by rw [h2]; exact s1, by rw [h2]; exact s2, by rw [h2]; exact s3,
    by rw [h2]; exact s4, by rw [h2]; exact s5, by rw [h3]; exact s6, by rw [h4]; exact s7,
    by rw [h4, h3]; exact s8, by rw [h3]; exact s9, by rw [h3]; exact s10,
    by rw [h2]; exact s11, by rw [h2]; exact s12, by rw [h2, h4]; exact s13⟩

theorem enctr_code_le (cr : Nat) (hcr : cr ≤ 8) (out : List Nat) (a : AEnc) (code : Nat)
    (px : List Nat) (h : EncTr cr out a code px) : code ≤ 4094 := by
  obtain ⟨_, _, _, _, _, _, _, _, hsync, _⟩ := h
  have := hsync.size
  have h256 := two_pow_le_256 cr hcr
  rcases hsync.vcode with hv | hv <;> omega

/-- The end of the last `encode_line`: the running code, `eof_code` and the flush
complete the LZW data of the pixels. -/
theorem lz_finish (cr : Nat) (hcr : cr ≤ 8) (out : List Nat) (a : AEnc) (code : Nat)
    (px : List Nat) (h : EncTr cr out a code px) :
    LzwStream cr (out ++ (a.finish cr code).1) px := by
  obtain ⟨cw, d, dout, hpk, hnb, hfits, hpos, hrun, hsync, hpx⟩ := h
  obtain ⟨d1, hs1, ht1, hl1, hr1, hb1, hm1, hpow1, hbits1, hpos1, hfit1, hclt, hc94⟩ :=
    lz_emit cr hcr a code d hsync
  obtain ⟨e1, e2, e3, _, _⟩ := aenc_encode_props cr a code (by omega)
  obtain ⟨hpk1, hnb1⟩ := pk_emit out a.pk cw code a.run_bits hpk hclt
  have hrun1 := adec_run_snoc cr code a.run_bits d1 _ cw _ d dout hrun hsync.run_bits.symm hs1
  have hfits1 : Fits (cw ++ [(code, a.run_bits)]) :=
    fits_append _ _ hfits (by intro e he; rw [List.mem_singleton.mp he]; exact hclt)
  have hpos1w : ∀ e ∈ cw ++ [(code, a.run_bits)], 0 < e.2 := by
    intro e he
    rcases List.mem_append.mp he with h1 | h1
    · exact hpos e h1
    · rw [List.mem_singleton.mp h1]; exact hsync.pos
  have h256 := two_pow_le_256 cr hcr
  obtain ⟨f1, f2, _, _, _⟩ := aenc_encode_props cr (a.encode cr code).2 (2 ^ cr + 1) (by omega)
  have heof : 2 ^ cr + 1 < 2 ^ (a.encode cr code).2.run_bits := by rw [← hpow1]; omega
  rw [← e2] at hpk1
  obtain ⟨hpk2, hnb2⟩ := pk_emit _ _ _ (2 ^ cr + 1) (a.encode cr code).2.run_bits hpk1 heof
  rw [← f2] at hpk2 hnb2
  obtain ⟨blocks, hbl, hout, hval, hlen⟩ := pk_flush _ _ _ hpk2 hnb2
  have hfin : a.finish cr code =
      ((a.encode cr code).1 ++ ((a.encode cr code).2.encode cr (2 ^ cr + 1)).1 ++
        ((a.encode cr code).2.encode cr (2 ^ cr + 1)).2.pk.flush.1,
        { ((a.encode cr code).2.encode cr (2 ^ cr + 1)).2 with
          pk := ((a.encode cr code).2.encode cr (2 ^ cr + 1)).2.pk.flush.2 }) := rfl
  rw [hfin]
  refine ⟨blocks, cw ++ [(code, a.run_bits)], [(2 ^ cr + 1, (a.encode cr code).2.run_bits)], d1,
    hbl, ?_, hval, hlen, ?_, hpos1w, ?_⟩
  · rw [← hout, f1, e1]; simp only [List.append_assoc]
  · exact fits_append _ _ hfits1 (by intro e he; rw [List.mem_singleton.mp he]; exact heof)
  · rw [hrun1, hpx]

theorem pkrep_nil : PkRep [] { dword := 0, nbits := 0, stg := [] } [] :=
  ⟨[], ⟨[], by simp, rfl, rfl, by simp, by simp⟩, by simp [le_val, pack], by simp [bitlen],
    by simp⟩

theorem two_lt_two_pow (cr : Nat) (h : 2 ≤ cr) : 4 ≤ 2 ^ cr :=
  calc 4 = 2 ^ 2 := by norm_num
    _ ≤ 2 ^ cr := Nat.pow_le_pow_right (by norm_num) h

/-- The state after the constructor of the encoder: the clear code is out and any
pixel value can start the stream. -/
theorem lz_init (cr n : Nat) (hcr2 : 2 ≤ cr) (hcr : cr ≤ 8) :
    LineTr cr (AEnc.init cr n).1 (AEnc.init cr n).2 [] ∧
      (AEnc.init cr n).2.crnt_code = LZ.first_code := by
  have h256 := two_pow_le_256 cr hcr
  have h4 := two_lt_two_pow cr hcr2
  obtain ⟨e1, e2, e3, _, hstay⟩ := aenc_encode_props cr
    { dict := [], run_bits := cr + 1, max_code := 2 ^ (cr + 1),
      crnt_code := LZ.first_code, pix_count := n,
      pk := { dword := 0, nbits := 0, stg := [] } } (2 ^ cr) (by omega)
  have hng : ¬ AEnc.run_code cr
      { dict := [], run_bits := cr + 1, max_code := 2 ^ (cr + 1),
        crnt_code := LZ.first_code, pix_count := n,
        pk := { dword := 0, nbits := 0, stg := [] } } ≥ 2 ^ (cr + 1) := by
    show ¬ 2 ^ cr + 2 + 0 ≥ 2 ^ (cr + 1)
    rw [Nat.pow_succ]; omega
  obtain ⟨e4, e5⟩ := hstay hng
  have hcrnt : (AEnc.init cr n).2.crnt_code = LZ.first_code := by
    unfold AEnc.init AEnc.encode; simp only []; split <;> rfl
  have hclr : 2 ^ cr < 2 ^ (cr + 1) := by rw [Nat.pow_succ]; omega
  obtain ⟨hpk, hnb⟩ := pk_emit [] _ [] (2 ^ cr) (cr + 1) pkrep_nil hclr
  have hrun : ADec.run cr (ADec.init cr) ([] ++ [(2 ^ cr, cr + 1)]) = some (ADec.init cr, []) :=
    adec_run_snoc cr (2 ^ cr) (cr + 1) _ _ [] _ (ADec.init cr) [] rfl rfl
      (adec_step_clear cr _)
  refine ⟨?_, hcrnt⟩
  unfold LineTr
  rw [if_pos hcrnt]
  refine ⟨rfl, fun x hx => ?_⟩
  refine ⟨[] ++ [(2 ^ cr, cr + 1)], ADec.init cr, [], ?_, ?_, ?_, ?_, hrun,
    lzsync_init cr (by omega) hcr _ x hx e3 e4 e5, ?_⟩
  · have : (AEnc.init cr n).1 = [] ++ (AEnc.init cr n).1 := rfl
    rw [this]
    unfold AEnc.init
    rw [e1, e2]; exact hpk
  · unfold AEnc.init
    rw [e2]; exact hnb
  · intro e he
    simp only [List.nil_append, List.mem_singleton] at he
    rw [he]; exact hclr
  · intro e he
    simp only [List.nil_append, List.mem_singleton] at he
    rw [he]; exact Nat.succ_pos _
  · show [] ++ dstr cr (AEnc.init cr n).2.dict x = [x]
    unfold AEnc.init
    rw [e3]; rfl

end gif

namespace gif

/-! ## Lines -/

theorem code_mask_eq (cr : Nat) (h : cr ≤ 8) : LZEncoder.code_mask.getD cr 0 = 2 ^ cr - 1 := by
  interval_cases cr <;> rfl

theorem mask_lt (cr : Nat) (h : cr ≤ 8) (b : Nat) :
    b &&& LZEncoder.code_mask.getD cr 0 < 2 ^ cr := by
  rw [code_mask_eq cr h, Nat.and_pow_two_sub_one_eq_mod]
  exact Nat.mod_lt _ (Nat.two_pow_pos cr)

theorem mask_id (cr : Nat) (h : cr ≤ 8) (b : Nat) (hb : b < 2 ^ cr) :
    b &&& LZEncoder.code_mask.getD cr 0 = b := by
  rw [code_mask_eq cr h, Nat.and_pow_two_sub_one_eq_mod]
  exact Nat.mod_eq_of_lt hb

theorem linetr_congr (cr : Nat) (out : List Nat) (a b : AEnc) (px : List Nat)
    (h1 : b.pk = a.pk) (h2 : b.dict = a.dict) (h3 : b.run_bits = a.run_bits)
    (h4 : b.max_code = a.max_code) (h5 : b.crnt_code = a.crnt_code)
    (h : LineTr cr out a px) : LineTr cr out b px := by
  unfold LineTr at h ⊢
  rw [h5]
  by_cases hc : a.crnt_code = LZ.first_code
  · rw [if_pos hc] at h ⊢
    exact ⟨h.1, fun x hx => enctr_congr cr out a b x [x] h1 h2 h3 h4 (h.2 x hx)⟩
  · rw [if_neg hc] at h ⊢
    exact enctr_congr cr out a b _ px h1 h2 h3 h4 h

/-- `encode_line` for a line that is not empty: it completes the LZW data when the
pixel count is used up, and else leaves the running code in `crnt_code`. -/
theorem lz_encode_line (cr : Nat) (hcr2 : 2 ≤ cr) (hcr : cr ≤ 8) (out : List Nat) (a : AEnc)
    (px line : List Nat) (hne : line ≠ []) (hx : ∀ x ∈ line, x < 2 ^ cr)
    (h : LineTr cr out a px) :
    (a.pix_count = 0 → LzwStream cr (out ++ (a.encode_line cr line).1) (px ++ line)) ∧
      (a.pix_count ≠ 0 →
        LineTr cr (out ++ (a.encode_line cr line).1) (a.encode_line cr line).2 (px ++ line) ∧
        (a.encode_line cr line).2.pix_count = a.pix_count) := by
  have hcr1 : 1 ≤ cr := by omega
  -- the state after the pixel loop
  have hloop : EncTr cr
      (out ++ (AEnc.loop cr (LZEncoder.line_start a.crnt_code line).2 a
        (LZEncoder.line_start a.crnt_code line).1).1)
      (AEnc.loop cr (LZEncoder.line_start a.crnt_code line).2 a
        (LZEncoder.line_start a.crnt_code line).1).2.1
      (AEnc.loop cr (LZEncoder.line_start a.crnt_code line).2 a
        (LZEncoder.line_start a.crnt_code line).1).2.2 (px ++ line) := by
    unfold LineTr at h
    by_cases hc : a.crnt_code = LZ.first_code
    · rw [if_pos hc] at h
      cases line with
      | nil => exact absurd rfl hne
      | cons x rest =>
        have hs : LZEncoder.line_start a.crnt_code (x :: rest) = (x, rest) := by
          unfold LZEncoder.line_start; rw [if_pos hc]; rfl
        rw [hs, h.1]
        exact lz_loop cr hcr1 hcr rest out a x [x]
          (fun y hy => hx y (List.mem_cons_of_mem _ hy)) (h.2 x (hx x (List.mem_cons_self _ _)))
    · rw [if_neg hc] at h
      have hs : LZEncoder.line_start a.crnt_code line = (a.crnt_code, line) := by
        unfold LZEncoder.line_start; rw [if_neg hc]
      rw [hs]
      exact lz_loop cr hcr1 hcr line out a _ px hx h
  have hpix := (aenc_loop_pix cr (LZEncoder.line_start a.crnt_code line).2 a
    (LZEncoder.line_start a.crnt_code line).1).1
  have hle := enctr_code_le cr hcr _ _ _ _ hloop
  have hel : a.encode_line cr line =
      ((AEnc.loop cr (LZEncoder.line_start a.crnt_code line).2 a
          (LZEncoder.line_start a.crnt_code line).1).1 ++
        (AEnc.line_end cr
          { (AEnc.loop cr (LZEncoder.line_start a.crnt_code line).2 a
              (LZEncoder.line_start a.crnt_code line).1).2.1 with
            crnt_code := (AEnc.loop cr (LZEncoder.line_start a.crnt_code line).2 a
              (LZEncoder.line_start a.crnt_code line).1).2.2 }).1,
        (AEnc.line_end cr
          { (AEnc.loop cr (LZEncoder.line_start a.crnt_code line).2 a
              (LZEncoder.line_start a.crnt_code line).1).2.1 with
            crnt_code := (AEnc.loop cr (LZEncoder.line_start a.crnt_code line).2 a
              (LZEncoder.line_start a.crnt_code line).1).2.2 }).2) := rfl
  rw [hel]
  generalize AEnc.loop cr (LZEncoder.line_start a.crnt_code line).2 a
    (LZEncoder.line_start a.crnt_code line).1 = r at hloop hpix hle
  have hloop2 : EncTr cr (out ++ r.1) { r.2.1 with crnt_code := r.2.2 } r.2.2 (px ++ line) :=
    enctr_congr cr _ r.2.1 _ _ _ rfl rfl rfl rfl hloop
  constructor
  · intro hz
    have hz2 : ({ r.2.1 with crnt_code := r.2.2 } : AEnc).pix_count = 0 := by
      show r.2.1.pix_count = 0
      rw [hpix]; exact hz
    unfold AEnc.line_end
    rw [if_pos hz2, ← List.append_assoc]
    exact lz_finish cr hcr _ _ _ _ hloop2
  · intro hz
    have hz2 : ¬ ({ r.2.1 with crnt_code := r.2.2 } : AEnc).pix_count = 0 := by
      show ¬ r.2.1.pix_count = 0
      rw [hpix]; exact hz
    unfold AEnc.line_end
    rw [if_neg hz2, List.append_nil]
    refine ⟨?_, hpix⟩
    unfold LineTr
    have hnf : ¬ ({ r.2.1 with crnt_code := r.2.2 } : AEnc).crnt_code = LZ.first_code := by
      show ¬ r.2.2 = 4097
      omega
    rw [if_neg hnf]
    exact hloop2

/-- `put_line` masks the line and encodes it. -/
theorem lz_put_line (cr : Nat) (hcr2 : 2 ≤ cr) (hcr : cr ≤ 8) (out : List Nat) (a : AEnc)
    (px line : List Nat) (hne : line ≠ []) (h : LineTr cr out a px) :
    (a.pix_count - line.length = 0 →
      LzwStream cr (out ++ (a.put_line cr line).1)
        (px ++ line.map (fun b => b &&& LZEncoder.code_mask.getD cr 0))) ∧
      (a.pix_count - line.length ≠ 0 →
        LineTr cr (out ++ (a.put_line cr line).1) (a.put_line cr line).2.1
          (px ++ line.map (fun b => b &&& LZEncoder.code_mask.getD cr 0)) ∧
        (a.put_line cr line).2.1.pix_count = a.pix_count - line.length) := by
  have hm : ∀ x ∈ line.map (fun b => b &&& LZEncoder.code_mask.getD cr 0), x < 2 ^ cr := by
    intro x hx
    rw [List.mem_map] at hx
    obtain ⟨b, _, rfl⟩ := hx
    exact mask_lt cr hcr b
  have hne2 : line.map (fun b => b &&& LZEncoder.code_mask.getD cr 0) ≠ [] := by
    intro hn; exact hne (List.map_eq_nil_iff.mp hn)
  exact lz_encode_line cr hcr2 hcr out { a with pix_count := a.pix_count - line.length } px _
    hne2 hm (linetr_congr cr out a _ px rfl rfl rfl rfl rfl h)

theorem sum_pos_of_ne_nil (lines : List (List Nat)) (hne : ∀ l ∈ lines, l ≠ [])
    (h : lines ≠ []) : 0 < (lines.map List.length).sum := by
  cases lines with
  | nil => exact absurd rfl h
  | cons l rest =>
    have : l ≠ [] := hne l (List.mem_cons_self _ _)
    have : 0 < l.length := List.length_pos.mpr this
    simp only [List.map_cons, List.sum_cons]; omega

/-- A sequence of `put_line` calls with lines that are not empty and use up the
pixel count completes the LZW data of the masked pixels. -/
theorem lz_put_lines (cr : Nat) (hcr2 : 2 ≤ cr) (hcr : cr ≤ 8) :
    ∀ (lines : List (List Nat)) (out : List Nat) (a : AEnc) (px : List Nat),
      (∀ l ∈ lines, l ≠ []) → lines ≠ [] → (lines.map List.length).sum = a.pix_count →
      LineTr cr out a px →
      LzwStream cr (out ++ (AEnc.put_lines cr lines a).1)
        (px ++ lines.flatten.map (fun b => b &&& LZEncoder.code_mask.getD cr 0)) := by
  intro lines
  induction lines with
  | nil => intro out a px _ h; exact absurd rfl h
  | cons l rest ih =>
    intro out a px hne _ hsum h
    have hl : l ≠ [] := hne l (List.mem_cons_self _ _)
    obtain ⟨hz, hnz⟩ := lz_put_line cr hcr2 hcr out a px l hl h
    simp only [List.map_cons, List.sum_cons] at hsum
    rw [aenc_put_lines_cons, List.flatten_cons, List.map_append]
    by_cases hr : rest = []
    · subst hr
      simp only [List.map_nil, List.sum_nil, Nat.add_zero] at hsum
      have := hz (by omega)
      simpa [AEnc.put_lines] using this
    · have hp := sum_pos_of_ne_nil rest (fun m hm => hne m (List.mem_cons_of_mem _ hm)) hr
      obtain ⟨h1, h2⟩ := hnz (by omega)
      have := ih (out ++ (a.put_line cr l).1) (a.put_line cr l).2.1 _
        (fun m hm => hne m (List.mem_cons_of_mem _ hm)) hr (by rw [h2]; omega) h1
      simpa [List.append_assoc] using this

/-- The bytes of an encoder session with pixel count `n` whose lines are not empty
and hold `n` pixels in all are the LZW data of the masked pixels. -/
theorem enc_lzw_stream (cr n : Nat) (hcr2 : 2 ≤ cr) (hcr : cr ≤ 8) (lines : List (List Nat))
    (hne : ∀ l ∈ lines, l ≠ []) (hl : lines ≠ []) (hsum : (lines.map List.length).sum = n) :
    LzwStream cr ((AEnc.init cr n).1 ++ (AEnc.put_lines cr lines (AEnc.init cr n).2).1)
      (lines.flatten.map (fun b => b &&& LZEncoder.code_mask.getD cr 0)) := by
  have hi := lz_init cr n hcr2 hcr
  have hp := (aenc_init_props cr n (by omega)).2.2
  have := lz_put_lines cr hcr2 hcr lines _ _ [] hne hl (by rw [hp]; exact hsum) hi.1
  simpa using this

end gif

namespace gif

/-! ## Decoder: bytes of the stream -/

/-- `read_buf` hands out the next data byte. -/
theorem dec_read_buf (st : LZDecoder) (x : Nat) (data tail : List Nat)
    (h : DBuf st (x :: data) tail) :
    ∃ st1, st.read_buf = (st1, x, true) ∧ DBuf st1 data tail ∧ st1.logic = st.logic ∧
      st1.f.e = st.f.e := by
  obtain ⟨cur, blocks, hb0, hcur, hx, hbl, hrest, hdata⟩ := h
  cases cur with
  | nil =>
    simp only [List.length_nil] at hb0
    simp only [List.nil_append] at hdata
    cases blocks with
    | nil => simp at hdata
    | cons b bs =>
      obtain ⟨hb1, hb255, hbx⟩ := hbl b (List.mem_cons_self _ _)
      cases b with
      | nil => simp at hb1
      | cons y b1 =>
        simp only [List.flatten_cons, List.cons_append, List.cons.injEq] at hdata
        obtain ⟨rfl, hdata⟩ := hdata
        have hrest1 : st.f.d.rest = [(x :: b1).length] ++ ((x :: b1) ++ (frames bs ++ 0 :: tail)) := by
          rw [hrest, frames_cons]; simp only [List.append_assoc, List.cons_append, List.nil_append]
        have hr1 := GifIO_read_bytes_rest st.f _ _ hrest1
        have hrest2 := GifIO_skip_rest_of st.f _ _ hrest1
        have hr2 := GifIO_read_bytes_rest (st.f.skip 1) _ _ hrest2
        simp only [List.length_singleton] at hr1
        simp only [List.length_cons] at hr2
        have hlen : (x :: b1).length ≠ 0 := by simp
        refine ⟨{ st with
            f := (st.f.skip 1).skip (x :: b1).length,
            buf := fun i =>
              if i = 0 then (x :: b1).length - 1
              else if i = 1 then 2
              else if 1 ≤ i ∧ i < 1 + (x :: b1).length then (x :: b1).getD (i - 1) 0
              else if i = 0 ∧ [(x :: b1).length] ≠ [] then (x :: b1).length else st.buf i },
          ?_, ?_, rfl, rfl⟩
        · unfold LZDecoder.read_buf
          rw [if_pos hb0]
          simp only [hr1, Bool.not_true, Bool.false_eq_true, if_false, true_and, ne_eq,
            List.cons_ne_self, not_false_eq_true, and_true, if_true, List.headD_cons, hlen, hr2,
            List.length_cons, Nat.le_refl, Nat.lt_add_left_iff_pos, Nat.zero_lt_succ,
            Nat.sub_self, List.getD_cons_zero, Nat.add_one_ne_zero, Nat.add_sub_cancel,
            Nat.lt_irrefl, and_false, one_ne_zero, false_and, reduceCtorEq]
          have e1 : ¬ (1 ≤ 0 ∧ 0 < 1 + (b1.length + 1)) := by omega
          have e2 : 1 < 1 + (b1.length + 1) := by omega
          simp only [e1, e2, if_true, if_false, Nat.add_sub_cancel]
        · refine ⟨b1, bs, by simp, ?_, fun z hz => hbx z (List.mem_cons_of_mem _ hz),
            fun b hb => hbl b (List.mem_cons_of_mem _ hb), ?_, hdata⟩
          · intro hne
            simp only [List.length_cons] at hb255
            refine ⟨by simp, by simp; omega, fun i hi => ?_⟩
            have h1 : ¬ (2 + i = 0) := by omega
            have h2 : ¬ (2 + i = 1) := by omega
            have h3 : 1 ≤ 2 + i ∧ 2 + i < 1 + (x :: b1).length := by
              simp only [List.length_cons]; omega
            simp only [if_true, one_ne_zero, if_false, h1, h2, h3, and_self]
            have : 2 + i - 1 = i + 1 := by omega
            rw [this, List.getD_cons_succ]
          · show ((st.f.skip 1).skip (x :: b1).length).d.rest = _
            exact GifIO_skip_rest_of (st.f.skip 1) _ _ hrest2
  | cons y cur1 =>
    simp only [List.cons_append, List.cons.injEq] at hdata
    obtain ⟨rfl, hdata⟩ := hdata
    obtain ⟨h2, h256, hi⟩ := hcur (by simp)
    simp only [List.length_cons] at hb0 h256
    have hne : ¬ st.buf 0 = 0 := by omega
    refine ⟨{ st with buf := fun i =>
        if i = 0 then st.buf 0 - 1
        else if i = 1 then (st.buf 1 + 1) % 256 else st.buf i }, ?_, ?_, rfl, rfl⟩
    · unfold LZDecoder.read_buf
      rw [if_neg hne]
      have := hi 0 (by simp)
      simp only [Nat.add_zero, List.getD_cons_zero] at this
      rw [this]
    · refine ⟨cur1, blocks, by simp only [if_true]; omega, ?_,
        fun z hz => hx z (List.mem_cons_of_mem _ hz), hbl, hrest, hdata⟩
      intro hne1
      have hpos : 0 < cur1.length := List.length_pos.mpr hne1
      have hm : (st.buf 1 + 1) % 256 = st.buf 1 + 1 := Nat.mod_eq_of_lt (by omega)
      simp only [one_ne_zero, if_false, if_true, hm]
      refine ⟨by omega, by omega, fun i hi1 => ?_⟩
      have h1 : ¬ (st.buf 1 + 1 + i = 0) := by omega
      have h3 : ¬ (st.buf 1 + 1 + i = 1) := by omega
      simp only [h1, h3, if_false]
      have := hi (i + 1) (by simp only [List.length_cons]; omega)
      rw [List.getD_cons_succ] at this
      rw [← this]; congr 1; omega

end gif

namespace gif

/-! ## Decoder: codes of the stream -/

theorem dbuf_lt (st : LZDecoder) (data tail : List Nat) (h : DBuf st data tail) :
    ∀ x ∈ data, x < 256 := by
  obtain ⟨cur, blocks, _, _, hx, hbl, _, hdata⟩ := h
  intro x hm
  rw [hdata] at hm
  rcases List.mem_append.mp hm with h1 | h1
  · exact hx x h1
  · obtain ⟨b, hb, hxb⟩ := List.mem_flatten.mp h1
    exact (hbl b hb).2.2 x hxb

theorem core_of_logic (st1 st : LZDecoder) (h : st1.logic = st.logic) : st1.core = st.core := by
  simp only [LZDecoder.logic, Prod.mk.injEq] at h
  simp only [LZDecoder.core, Prod.mk.injEq]
  obtain ⟨⟨h1, h2, h3, h4, h5, h6, h7, _, _, h10, h11⟩, h12, h13, h14⟩ := h
  exact ⟨⟨h1, h2, h3, h4, h5, h6, h7, h10, h11⟩, h12, h13, h14⟩

/-- The loop `while (crnt_shift_state < run_bits)` of `decode`. -/
theorem dec_fill_loop (tail : List Nat) :
    ∀ (fuel : Nat) (st : LZDecoder) (data : List Nat),
      DBuf st data tail → st.run_bits ≤ st.crnt_shift_state + 8 * data.length →
      st.run_bits ≤ st.crnt_shift_state + 8 * fuel → st.crnt_shift_state < st.run_bits + 8 →
      st.crnt_shift_dword < 2 ^ st.crnt_shift_state →
      ∃ st1 data1, LZDecoder.fill_loop fuel st = (st1, true) ∧ DBuf st1 data1 tail ∧
        st1.crnt_shift_dword + 2 ^ st1.crnt_shift_state * le_val data1 =
          st.crnt_shift_dword + 2 ^ st.crnt_shift_state * le_val data ∧
        st1.crnt_shift_state + 8 * data1.length = st.crnt_shift_state + 8 * data.length ∧
        st.run_bits ≤ st1.crnt_shift_state ∧ st1.crnt_shift_state < st.run_bits + 8 ∧
        st1.crnt_shift_dword < 2 ^ st1.crnt_shift_state ∧ st1.core = st.core ∧
        st1.f.e = st.f.e := by
  intro fuel
  induction fuel with
  | zero =>
    intro st data hb _ hf hs hd
    exact ⟨st, data, rfl, hb, rfl, rfl, by omega, hs, hd, rfl, rfl⟩
  | succ fuel ih =>
    intro st data hb ha hf hs hd
    by_cases hlt : st.crnt_shift_state < st.run_bits
    · cases data with
      | nil => simp only [List.length_nil] at ha; omega
      | cons x data1 =>
        have hx := dbuf_lt st _ tail hb x (List.mem_cons_self _ _)
        obtain ⟨st1, hr, hb1, hlog, he⟩ := dec_read_buf st x data1 tail hb
        have hcore := core_of_logic st1 st hlog
        simp only [LZDecoder.logic, Prod.mk.injEq] at hlog
        obtain ⟨⟨_, _, _, _, hrb, _, _, hss, hsd, _, _⟩, _, _, _⟩ := hlog
        have hor : st1.crnt_shift_dword ||| (x <<< st1.crnt_shift_state) =
            st.crnt_shift_dword + 2 ^ st.crnt_shift_state * x := by
          rw [hss, hsd, Nat.shiftLeft_eq, Nat.mul_comm x, Nat.lor_comm,
            ← Nat.mul_add_lt_is_or hd]
          omega
        have hd2 : st.crnt_shift_dword + 2 ^ st.crnt_shift_state * x <
            2 ^ (st.crnt_shift_state + 8) := by
          rw [Nat.pow_add]
          calc st.crnt_shift_dword + 2 ^ st.crnt_shift_state * x
              < 2 ^ st.crnt_shift_state + 2 ^ st.crnt_shift_state * x := by omega
            _ = 2 ^ st.crnt_shift_state * (x + 1) := by ring
            _ ≤ 2 ^ st.crnt_shift_state * 2 ^ 8 := Nat.mul_le_mul_left _ (by omega)
        obtain ⟨st2, data2, hfl, hb2, hv2, hl2, hge2, hlt2, hd3, hcore2, he2⟩ := ih
          { st1 with
              crnt_shift_dword := st1.crnt_shift_dword ||| (x <<< st1.crnt_shift_state),
              crnt_shift_state := st1.crnt_shift_state + 8 } data1 hb1
          (by show st1.run_bits ≤ st1.crnt_shift_state + 8 + 8 * data1.length
              rw [hrb, hss]; simp only [List.length_cons] at ha; omega)
          (by show st1.run_bits ≤ st1.crnt_shift_state + 8 + 8 * fuel
              rw [hrb, hss]; omega)
          (by show st1.crnt_shift_state + 8 < st1.run_bits + 8
              rw [hrb, hss]; omega)
          (by show st1.crnt_shift_dword ||| (x <<< st1.crnt_shift_state) <
                2 ^ (st1.crnt_shift_state + 8)
              rw [hor, hss]; exact hd2)
        refine ⟨st2, data2, ?_, hb2, ?_, ?_, ?_, ?_, hd3, ?_, ?_⟩
        · simp only [LZDecoder.fill_loop, if_pos hlt, hr, Bool.not_true, Bool.false_eq_true,
            if_false]
          exact hfl
        · rw [hv2]
          show (st1.crnt_shift_dword ||| (x <<< st1.crnt_shift_state)) +
            2 ^ (st1.crnt_shift_state + 8) * le_val data1 = _
          rw [hor, hss, Nat.pow_add]
          simp only [le_val]
          ring
        · rw [hl2]
          show st1.crnt_shift_state + 8 + 8 * data1.length = _
          rw [hss]; simp only [List.length_cons]; omega
        · have : st1.run_bits ≤ st2.crnt_shift_state := hge2
          rw [hrb] at this; exact this
        · have : st2.crnt_shift_state < st1.run_bits + 8 := hlt2
          rw [hrb] at this; exact this
        · rw [hcore2, ← hcore]; rfl
        · rw [he2, ← he]
    · refine ⟨st, data, ?_, hb, rfl, rfl, by omega, hs, hd, rfl, rfl⟩
      simp only [LZDecoder.fill_loop, if_neg hlt]

end gif

namespace gif

theorem code_masks_eq (w : Nat) (h : w ≤ 12) : LZDecoder.code_masks.getD w 0 = 2 ^ w - 1 := by
  interval_cases w <;> rfl

theorem pack_cons_mod (c w : Nat) (cw : List (Nat × Nat)) (hc : c < 2 ^ w) :
    pack ((c, w) :: cw) % 2 ^ w = c ∧ pack ((c, w) :: cw) / 2 ^ w = pack cw := by
  show (c + 2 ^ w * pack cw) % 2 ^ w = c ∧ (c + 2 ^ w * pack cw) / 2 ^ w = pack cw
  constructor
  · rw [Nat.add_mul_mod_self_left, Nat.mod_eq_of_lt hc]
  · rw [Nat.add_mul_div_left _ _ (Nat.two_pow_pos w), Nat.div_eq_of_lt hc, Nat.zero_add]

theorem split_low (dw s w L : Nat) (hw : w ≤ s) :
    (dw + 2 ^ s * L) % 2 ^ w = dw % 2 ^ w ∧
      (dw + 2 ^ s * L) / 2 ^ w = dw / 2 ^ w + 2 ^ (s - w) * L := by
  have e : 2 ^ s = 2 ^ w * 2 ^ (s - w) := by rw [← Nat.pow_add]; congr 1; omega
  rw [e, Nat.mul_assoc]
  exact ⟨Nat.add_mul_mod_self_left _ _ _, Nat.add_mul_div_left _ _ (Nat.two_pow_pos w)⟩

/-- `decode` hands out the next code of the stream and counts it. -/
theorem dec_decode (st : LZDecoder) (c w : Nat) (cw : List (Nat × Nat)) (tail : List Nat)
    (d : ADec) (hs : DStream st ((c, w) :: cw) tail) (hw : st.run_bits = w) (hw12 : w ≤ 12)
    (hrc : st.run_code = d.run_code) (hrb : st.run_bits = d.run_bits)
    (hmc : st.max_code = d.max_code) :
    ∃ st1, st.decode = (st1, c, true) ∧ DStream st1 cw tail ∧
      st1.run_code = d.bump.run_code ∧ st1.run_bits = d.bump.run_bits ∧
      st1.max_code = d.bump.max_code ∧ st1.tables = st.tables ∧ st1.f.e = st.f.e := by
  obtain ⟨data, hb, hv, hl, hd, hs8, hfits⟩ := hs
  have hcw : c < 2 ^ w := hfits (c, w) (List.mem_cons_self _ _)
  have hfits2 : Fits cw := fun e he => hfits e (List.mem_cons_of_mem _ he)
  have hbl : bitlen ((c, w) :: cw) = w + bitlen cw := rfl
  rw [hbl] at hl
  obtain ⟨st1, data1, hfl, hb1, hv1, hl1, hge1, hlt1, hd1, hcore1, he1⟩ :=
    dec_fill_loop tail st.run_bits st data hb (by omega) (by omega) (by omega) hd
  simp only [LZDecoder.core, Prod.mk.injEq] at hcore1
  obtain ⟨⟨c1, c2, c3, c4, c5, c6, c7, c8, c9⟩, c10, c11, c12⟩ := hcore1
  have hng : ¬ st.run_bits > LZ.bits := by
    show ¬ st.run_bits > 12
    omega
  rw [hw] at hge1 hlt1
  obtain ⟨hm1, hm2⟩ := split_low st1.crnt_shift_dword st1.crnt_shift_state w (le_val data1) hge1
  rw [hv1, hv] at hm1 hm2
  obtain ⟨hp1, hp2⟩ := pack_cons_mod c w cw hcw
  rw [hp1] at hm1
  rw [hp2] at hm2
  have hcode : st1.crnt_shift_dword &&& LZDecoder.code_masks.getD st1.run_bits 0 = c := by
    rw [c5, hw, code_masks_eq w hw12, Nat.and_pow_two_sub_one_eq_mod]
    exact hm1.symm
  have hsh : st1.crnt_shift_dword >>> st1.run_bits = st1.crnt_shift_dword / 2 ^ w := by
    rw [c5, hw, Nat.shiftRight_eq_div_pow]
  have hdw : st1.crnt_shift_dword / 2 ^ w < 2 ^ (st1.crnt_shift_state - w) :=
    div_lt_pow_sub _ _ _ hd1 hge1
  -- the stream after the code, for any state with these members
  have hstream : ∀ st2 : LZDecoder, st2.buf = st1.buf → st2.f = st1.f →
      st2.crnt_shift_dword = st1.crnt_shift_dword / 2 ^ w →
      st2.crnt_shift_state = st1.crnt_shift_state - w → DStream st2 cw tail := by
    intro st2 e1 e2 e3 e4
    refine ⟨data1, ?_, by rw [e3, e4]; exact hm2.symm, by rw [e4]; omega,
      by rw [e3, e4]; exact hdw, by rw [e4]; omega, hfits2⟩
    obtain ⟨cur, blocks, h1, h2, h3, h4, h5, h6⟩ := hb1
    exact ⟨cur, blocks, by rw [e1]; exact h1, by rw [e1]; exact h2, h3, h4,
      by rw [e2]; exact h5, h6⟩
  have hdec : st.decode =
      (if st1.run_code < LZ.max_code + 2 then
        (if (decide (st1.run_code + 1 > st1.max_code) && decide (st1.run_bits < LZ.bits)) = true
          then
            ({ st1 with crnt_shift_dword := st1.crnt_shift_dword >>> st1.run_bits,
                        crnt_shift_state := st1.crnt_shift_state - st1.run_bits,
                        run_code := st1.run_code + 1,
                        max_code := st1.max_code * 2,
                        run_bits := st1.run_bits + 1 }, c, true)
          else
            ({ st1 with crnt_shift_dword := st1.crnt_shift_dword >>> st1.run_bits,
                        crnt_shift_state := st1.crnt_shift_state - st1.run_bits,
                        run_code := st1.run_code + 1 }, c, true))
      else
        ({ st1 with crnt_shift_dword := st1.crnt_shift_dword >>> st1.run_bits,
                    crnt_shift_state := st1.crnt_shift_state - st1.run_bits }, c, true)) := by
    unfold LZDecoder.decode
    rw [if_neg hng]
    simp only [hfl, Bool.not_true, Bool.false_eq_true, if_false, hcode]
  rw [hdec]
  have hrc1 : st1.run_code = d.run_code := by rw [c4, hrc]
  have hrb1 : st1.run_bits = d.run_bits := by rw [c5, hrb]
  have hmc1 : st1.max_code = d.max_code := by rw [c6, hmc]
  have htab : ∀ st2 : LZDecoder, st2.col_res = st1.col_res → st2.clear_code = st1.clear_code →
      st2.eof_code = st1.eof_code → st2.last_code = st1.last_code →
      st2.pix_count = st1.pix_count → st2.stack_ptr = st1.stack_ptr → st2.stack = st1.stack →
      st2.suffix = st1.suffix → st2.prefix_ = st1.prefix_ → st2.tables = st.tables := by
    intro st2 e1 e2 e3 e4 e5 e6 e7 e8 e9
    simp only [LZDecoder.tables, e1, e2, e3, e4, e5, e6, e7, e8, e9, c1, c2, c3, c7, c8, c9, c10,
      c11, c12]
  unfold ADec.bump
  by_cases hg1 : st1.run_code < LZ.max_code + 2
  · have hg1d : d.run_code < LZ.max_code + 2 := by rw [← hrc1]; exact hg1
    rw [if_pos hg1, if_pos hg1d]
    by_cases hg2 : (decide (st1.run_code + 1 > st1.max_code) && decide (st1.run_bits < LZ.bits)) = true
    · have hg2d : (decide (d.run_code + 1 > d.max_code) && decide (d.run_bits < LZ.bits)) = true := by
        rw [← hrc1, ← hrb1, ← hmc1]; exact hg2
      rw [if_pos hg2, if_pos hg2d]
      refine ⟨_, rfl, hstream _ rfl rfl ?_ ?_, by rw [← hrc1], by rw [← hrb1], by rw [← hmc1],
        htab _ rfl rfl rfl rfl rfl rfl rfl rfl rfl, he1⟩
      · exact hsh
      · show st1.crnt_shift_state - st1.run_bits = _
        rw [c5, hw]
    · have hg2d : ¬ (decide (d.run_code + 1 > d.max_code) && decide (d.run_bits < LZ.bits)) = true := by
        rw [← hrc1, ← hrb1, ← hmc1]; exact hg2
      rw [if_neg hg2, if_neg hg2d]
      refine ⟨_, rfl, hstream _ rfl rfl ?_ ?_, by rw [← hrc1], by rw [← hrb1], by rw [← hmc1],
        htab _ rfl rfl rfl rfl rfl rfl rfl rfl rfl, he1⟩
      · exact hsh
      · show st1.crnt_shift_state - st1.run_bits = _
        rw [c5, hw]
  · have hg1d : ¬ d.run_code < LZ.max_code + 2 := by rw [← hrc1]; exact hg1
    rw [if_neg hg1, if_neg hg1d]
    refine ⟨_, rfl, hstream _ rfl rfl ?_ ?_, hrc1, hrb1, hmc1,
      htab _ rfl rfl rfl rfl rfl rfl rfl rfl rfl, he1⟩
    · exact hsh
    · show st1.crnt_shift_state - st1.run_bits = _
      rw [c5, hw]

end gif

namespace gif

/-! ## Decoder: table and stack -/

theorem tabrep_congr (cr : Nat) (pfx sfx pfx1 sfx1 : Nat → Nat) :
    ∀ tab : List (Nat × Nat),
      (∀ k, 2 ^ cr + 2 ≤ k → k < 2 ^ cr + 2 + tab.length → pfx1 k = pfx k ∧ sfx1 k = sfx k) →
      TabRep cr pfx sfx tab → TabRep cr pfx1 sfx1 tab := by
  intro tab
  induction tab with
  | nil => intro _ _; trivial
  | cons e older ih =>
    intro hk h
    have h1 := hk (2 ^ cr + 2 + older.length) (by omega) (by simp)
    exact ⟨by rw [h1.1]; exact h.1, by rw [h1.2]; exact h.2.1,
      ih (fun k hk1 hk2 => hk k hk1 (by simp only [List.length_cons]; omega)) h.2.2⟩

/-- The loop of `prefix_char` finds the first pixel of a code. -/
theorem dec_prefix_char_loop (cr : Nat) (pfx sfx : Nat → Nat) :
    ∀ (tab : List (Nat × Nat)) (c n : Nat), TabRep cr pfx sfx tab → DWf cr tab →
      VCode cr tab c → 2 ^ cr + 2 + tab.length ≤ 4096 → tab.length ≤ n →
      LZDecoder.prefix_char_loop n pfx c (2 ^ cr) = (dstr cr tab c).headD 0 := by
  intro tab
  induction tab with
  | nil =>
    intro c n _ _ hv _ _
    have hc : c < 2 ^ cr := by
      rcases hv with hv | hv
      · exact hv
      · simp only [List.length_nil] at hv; omega
    have hng : ¬ c > 2 ^ cr := by omega
    cases n with
    | zero => rfl
    | succ m => simp only [LZDecoder.prefix_char_loop, if_neg hng, dstr, List.headD_cons]
  | cons e older ih =>
    intro c n ht hw hv hsz hn
    simp only [List.length_cons] at hsz hn
    rcases vcode_cases cr e older c hv with hk | hk
    · rw [dstr_cons_of_vcode cr e older c hk]
      exact ih c n ht.2.2 hw.2.2 hk (by omega) (by omega)
    · obtain ⟨m, rfl⟩ : ∃ m, n = m + 1 := ⟨n - 1, by omega⟩
      have hgt : c > 2 ^ cr := by omega
      have hle : ¬ c > LZ.max_code := by
        show ¬ c > 4095
        omega
      simp only [LZDecoder.prefix_char_loop, if_pos hgt, if_neg hle]
      rw [hk, ht.1, dstr_cons_new, headD_append_of_ne_nil _ _ (dstr_ne_nil cr older e.1)]
      exact ih e.1 m ht.2.2 hw.2.2 hw.1 (by omega) (by omega)

theorem stack_push (st : LZDecoder) (u : List Nat) (x : Nat) (h : StackIs st u) :
    StackIs { st with stack := fun i => if i = st.stack_ptr then x else st.stack i,
                      stack_ptr := st.stack_ptr + 1 } (x :: u) := by
  obtain ⟨hp, hi⟩ := h
  refine ⟨by simp only [List.length_cons, hp], fun i hlt => ?_⟩
  simp only [List.length_cons] at hlt
  simp only [List.reverse_cons]
  by_cases he : i = st.stack_ptr
  · rw [if_pos he, he, hp, List.getD_eq_getElem?_getD,
      List.getElem?_append_right (by simp)]
    simp
  · rw [if_neg he, hi i (by omega), List.getD_eq_getElem?_getD, List.getD_eq_getElem?_getD,
      List.getElem?_append_left (by simp; omega)]

/-- The loops that pop the stack into the line. -/
theorem dec_pop_loop (line_len : Nat) :
    ∀ (u : List Nat) (n : Nat) (st : LZDecoder) (line : List Nat), StackIs st u →
      u.length ≤ n →
      ∃ st1, LZDecoder.pop_loop n st line line_len =
          (st1, line ++ u.take (line_len - line.length)) ∧
        StackIs st1 (u.drop (line_len - line.length)) ∧ st1.unstack = st.unstack := by
  intro u
  induction u with
  | nil =>
    intro n st line h _
    have hz : st.stack_ptr = 0 := h.1
    refine ⟨st, ?_, by simpa using h, rfl⟩
    cases n with
    | zero => simp [LZDecoder.pop_loop]
    | succ m => simp [LZDecoder.pop_loop, hz]
  | cons x u1 ih =>
    intro n st line h hn
    simp only [List.length_cons] at hn
    obtain ⟨m, rfl⟩ : ∃ m, n = m + 1 := ⟨n - 1, by omega⟩
    have hp : st.stack_ptr = u1.length + 1 := h.1
    by_cases hl : line.length < line_len
    · have hx : st.stack (st.stack_ptr - 1) = x := by
        rw [h.2 (st.stack_ptr - 1) (by simp only [List.length_cons]; omega), hp,
          List.reverse_cons, List.getD_eq_getElem?_getD,
          List.getElem?_append_right (by simp)]
        simp
      have h1 : StackIs { st with stack_ptr := st.stack_ptr - 1 } u1 := by
        refine ⟨by show st.stack_ptr - 1 = u1.length; omega, fun i hi => ?_⟩
        show st.stack i = _
        rw [h.2 i (by simp only [List.length_cons]; omega), List.reverse_cons,
          List.getD_eq_getElem?_getD, List.getD_eq_getElem?_getD,
          List.getElem?_append_left (by simp; omega)]
      obtain ⟨st1, he, hs, hu⟩ := ih m _ (line ++ [x]) h1 (by omega)
      have hcond : (st.stack_ptr != 0 && decide (line.length < line_len)) = true := by
        simp only [Bool.and_eq_true, bne_iff_ne, ne_eq, decide_eq_true_eq]
        exact ⟨by omega, hl⟩
      obtain ⟨k, hk⟩ : ∃ k, line_len - line.length = k + 1 :=
        ⟨line_len - line.length - 1, by omega⟩
      have hk2 : line_len - (line ++ [x]).length = k := by
        simp only [List.length_append, List.length_singleton]; omega
      refine ⟨st1, ?_, ?_, hu⟩
      · simp only [LZDecoder.pop_loop, hcond, if_true, hx]
        rw [he, hk, hk2, List.take_succ_cons, List.append_assoc]
        rfl
      · rw [hk, List.drop_succ_cons, ← hk2]; exact hs
    · have hcond : ¬ (st.stack_ptr != 0 && decide (line.length < line_len)) = true := by
        simp only [Bool.and_eq_true, bne_iff_ne, ne_eq, decide_eq_true_eq]
        exact fun hh => hl hh.2
      have hz : line_len - line.length = 0 := by omega
      refine ⟨st, ?_, by rw [hz]; exact h, rfl⟩
      simp only [LZDecoder.pop_loop, hcond, if_false, hz, List.take_zero, List.append_nil,
        Bool.false_eq_true]

end gif

namespace gif

/-- The loop of `decode_line` that walks the chain of a code: the pixels of the
code but the first go onto the stack, the first pixel is the value left. -/
theorem dec_walk_loop (cr : Nat) :
    ∀ (tab : List (Nat × Nat)) (c n : Nat) (st : LZDecoder) (u : List Nat),
      TabRep cr st.prefix_ st.suffix tab → DWf cr tab → VCode cr tab c →
      st.clear_code = 2 ^ cr → StackIs st u → u.length + (dstr cr tab c).length ≤ 4095 →
      2 ^ cr + 2 + tab.length ≤ 4096 → tab.length ≤ n →
      ∃ st1 root rest, LZDecoder.walk_loop n st c = (st1, root) ∧
        dstr cr tab c = root :: rest ∧ root < 2 ^ cr ∧ StackIs st1 (rest ++ u) ∧
        st1.unstack = st.unstack := by
  intro tab
  induction tab with
  | nil =>
    intro c n st u _ _ hv hcl hs _ _ _
    have hc : c < 2 ^ cr := by
      rcases hv with hv | hv
      · exact hv
      · simp only [List.length_nil] at hv; omega
    refine ⟨st, c, [], ?_, rfl, hc, by simpa using hs, rfl⟩
    cases n with
    | zero => rfl
    | succ m =>
      have hcond : ¬ (decide (st.stack_ptr < LZ.max_code) && decide (c > st.clear_code) &&
          decide (c ≤ LZ.max_code)) = true := by
        simp only [Bool.and_eq_true, decide_eq_true_eq, hcl]
        omega
      simp only [LZDecoder.walk_loop, hcond, if_false, Bool.false_eq_true]
  | cons e older ih =>
    intro c n st u ht hw hv hcl hs hlen hsz hn
    simp only [List.length_cons] at hsz hn
    rcases vcode_cases cr e older c hv with hk | hk
    · rw [dstr_cons_of_vcode cr e older c hk] at hlen ⊢
      exact ih c n st u ht.2.2 hw.2.2 hk hcl hs hlen (by omega) (by omega)
    · obtain ⟨m, rfl⟩ : ∃ m, n = m + 1 := ⟨n - 1, by omega⟩
      have hd : dstr cr (e :: older) c = dstr cr older e.1 ++ [e.2] := by
        rw [hk, dstr_cons_new]
      rw [hd] at hlen ⊢
      simp only [List.length_append, List.length_singleton] at hlen
      have hpos : 0 < (dstr cr older e.1).length :=
        List.length_pos.mpr (dstr_ne_nil cr older e.1)
      have hcond : (decide (st.stack_ptr < LZ.max_code) && decide (c > st.clear_code) &&
          decide (c ≤ LZ.max_code)) = true := by
        simp only [Bool.and_eq_true, decide_eq_true_eq, hcl, hs.1]
        refine ⟨⟨?_, by omega⟩, ?_⟩
        · show u.length < 4095
          omega
        · show c ≤ 4095
          omega
      have hpf : st.prefix_ c = e.1 := by rw [hk]; exact ht.1
      have hsf : st.suffix c = e.2 := by rw [hk]; exact ht.2.1
      obtain ⟨st1, root, rest, he, hds, hr, hst, hun⟩ := ih e.1 m
        { st with stack := fun i => if i = st.stack_ptr then e.2 else st.stack i,
                  stack_ptr := st.stack_ptr + 1 } (e.2 :: u) ht.2.2 hw.2.2 hw.1 hcl
        (stack_push st u e.2 hs) (by simp only [List.length_cons]; omega) (by omega) (by omega)
      refine ⟨st1, root, rest ++ [e.2], ?_, by rw [hds]; rfl, hr, ?_, ?_⟩
      · simp only [LZDecoder.walk_loop, hcond, if_true, hpf, hsf]
        exact he
      · rw [List.append_assoc]; exact hst
      · rw [hun]; rfl

end gif

namespace gif

/-! ## Decoder: one code -/

theorem decsim_congr (cr : Nat) (st1 st : LZDecoder) (d : ADec)
    (h : st1.unstack = st.unstack) (hs : DecSim cr st d) : DecSim cr st1 d := by
  simp only [LZDecoder.unstack, Prod.mk.injEq] at h
  obtain ⟨_, ⟨h1, h2, h3, h4, h5, h6, h7, _, _, _⟩, _, h12, h13⟩ := h
  exact ⟨by rw [h1]; exact hs.col_res, by rw [h2]; exact hs.clear_code,
    by rw [h3]; exact hs.eof_code, by rw [h4]; exact hs.run_code,
    by rw [h5]; exact hs.run_bits, by rw [h6]; exact hs.max_code,
    by rw [h7]; exact hs.last_code, by rw [h13, h12]; exact hs.tab,
    by rw [h13]; exact hs.free⟩

theorem wire_of_unstack (st1 st : LZDecoder) (h : st1.unstack = st.unstack) :
    st1.wire = st.wire := by
  simp only [LZDecoder.unstack, Prod.mk.injEq] at h
  obtain ⟨h0, ⟨_, _, _, _, _, _, _, h8, h9, h10⟩, h11, _, _⟩ := h
  simp only [LZDecoder.wire, h0, h8, h9, h10, h11]

theorem headD_mem (l : List Nat) (h : l ≠ []) : l.headD 0 ∈ l := by
  cases l with
  | nil => exact absurd rfl h
  | cons x xs => simp

theorem dstr_head_lt (cr : Nat) (d : List (Nat × Nat)) (c : Nat) (hw : DWf cr d)
    (hv : VCode cr d c) : (dstr cr d c).headD 0 < 2 ^ cr :=
  dstr_lt cr d c hw hv _ (headD_mem _ (dstr_ne_nil cr d c))

/-- The table update at the end of an iteration: the pair of the code before and
the first pixel `h` of this code joins the table. -/
theorem dec_add_entry (cr : Nat) (hcr : cr ≤ 8) (st : LZDecoder) (db : ADec) (c h : Nat)
    (hsim : DecSim cr st db) (hwf : DWf cr db.tab) (hsz : 2 ^ cr + 2 + db.tab.length ≤ 4095)
    (hlast : db.last ≠ LZ.no_such_code →
      VCode cr db.tab db.last ∧ db.run_code = 2 ^ cr + 2 + db.tab.length + 2 ∧
      h = (dstr cr db.tab (if c = db.run_code - 2 then db.last else c)).headD 0 ∧
      (c ≠ db.run_code - 2 → VCode cr db.tab c)) :
    DecSim cr (st.add_entry c)
        { db with tab := if db.last = LZ.no_such_code then db.tab else (db.last, h) :: db.tab,
                  last := c } ∧
      (st.add_entry c).wire = st.wire ∧ (st.add_entry c).stack = st.stack ∧
      (st.add_entry c).stack_ptr = st.stack_ptr := by
  have h256 := two_pow_le_256 cr hcr
  have hpos := Nat.two_pow_pos cr
  by_cases hl : db.last = LZ.no_such_code
  · have hcond : ¬ (st.last_code != LZ.no_such_code &&
        decide (st.prefix_ (st.run_code - 2) = LZ.no_such_code)) = true := by
      simp only [Bool.and_eq_true, bne_iff_ne, ne_eq, decide_eq_true_eq, hsim.last_code, hl,
        not_true_eq_false, false_and, not_false_eq_true]
    have ha : st.add_entry c = { st with last_code := c } := by
      unfold LZDecoder.add_entry
      simp only [hcond, if_false, Bool.false_eq_true]
    rw [ha, if_pos hl]
    exact ⟨⟨hsim.col_res, hsim.clear_code, hsim.eof_code, hsim.run_code, hsim.run_bits,
      hsim.max_code, rfl, hsim.tab, hsim.free⟩, rfl, rfl, rfl⟩
  · obtain ⟨hvl, hrc, hh, hvc⟩ := hlast hl
    have hidx : st.run_code - 2 = 2 ^ cr + 2 + db.tab.length := by
      rw [hsim.run_code, hrc]; omega
    have hfree : st.prefix_ (st.run_code - 2) = LZ.no_such_code := by
      rw [hidx]; exact hsim.free _ (by omega)
    have hcond : (st.last_code != LZ.no_such_code &&
        decide (st.prefix_ (st.run_code - 2) = LZ.no_such_code)) = true := by
      simp only [Bool.and_eq_true, bne_iff_ne, ne_eq, decide_eq_true_eq, hsim.last_code]
      exact ⟨hl, hfree⟩
    -- the first pixel found through the new prefix array
    have htab1 : TabRep cr (fun i => if i = st.run_code - 2 then st.last_code else st.prefix_ i)
        st.suffix db.tab :=
      tabrep_congr cr st.prefix_ st.suffix _ _ db.tab
        (fun k _ hk2 => ⟨by beta_reduce; rw [if_neg (by omega)], rfl⟩) hsim.tab
    have hpc : ∀ x, VCode cr db.tab x →
        LZDecoder.prefix_char (fun i => if i = st.run_code - 2 then st.last_code
          else st.prefix_ i) x st.clear_code = (dstr cr db.tab x).headD 0 := by
      intro x hx
      unfold LZDecoder.prefix_char
      rw [hsim.clear_code]
      exact dec_prefix_char_loop cr _ _ db.tab x _ htab1 hwf hx (by omega) (by
        show db.tab.length ≤ 4095 + 1
        omega)
    have hcval : (if c = st.run_code - 2 then
          LZDecoder.prefix_char (fun i => if i = st.run_code - 2 then st.last_code
            else st.prefix_ i) st.last_code st.clear_code
        else LZDecoder.prefix_char (fun i => if i = st.run_code - 2 then st.last_code
            else st.prefix_ i) c st.clear_code) % 256 = h := by
      rw [hh, ← hsim.run_code]
      by_cases hc : c = st.run_code - 2
      · rw [if_pos hc, if_pos hc, hpc st.last_code (by rw [hsim.last_code]; exact hvl),
          hsim.last_code]
        exact Nat.mod_eq_of_lt (by have := dstr_head_lt cr db.tab db.last hwf hvl; omega)
      · have hvc2 := hvc (by rw [← hsim.run_code]; exact hc)
        rw [if_neg hc, if_neg hc, hpc _ hvc2]
        exact Nat.mod_eq_of_lt (by have := dstr_head_lt cr db.tab c hwf hvc2; omega)
    have ha : st.add_entry c =
        { st with prefix_ := fun i => if i = st.run_code - 2 then st.last_code else st.prefix_ i,
                  suffix := fun i => if i = st.run_code - 2 then h else st.suffix i,
                  last_code := c } := by
      unfold LZDecoder.add_entry
      simp only [hcond, if_true, hcval]
    rw [ha, if_neg hl]
    refine ⟨⟨hsim.col_res, hsim.clear_code, hsim.eof_code, hsim.run_code, hsim.run_bits,
      hsim.max_code, rfl, ?_, ?_⟩, rfl, rfl, rfl⟩
    · refine ⟨?_, ?_, ?_⟩
      · show (if 2 ^ cr + 2 + db.tab.length = st.run_code - 2 then st.last_code
          else st.prefix_ (2 ^ cr + 2 + db.tab.length)) = db.last
        rw [if_pos hidx.symm, hsim.last_code]
      · show (if 2 ^ cr + 2 + db.tab.length = st.run_code - 2 then h
          else st.suffix (2 ^ cr + 2 + db.tab.length)) = h
        rw [if_pos hidx.symm]
      · exact tabrep_congr cr st.prefix_ st.suffix _ _ db.tab
          (fun k _ hk2 =>
            ⟨by show (if k = st.run_code - 2 then st.last_code else st.prefix_ k) = st.prefix_ k
                rw [if_neg (by omega)],
             by show (if k = st.run_code - 2 then h else st.suffix k) = st.suffix k
                rw [if_neg (by omega)]⟩) hsim.tab
    · intro k hk
      show (if k = st.run_code - 2 then st.last_code else st.prefix_ k) = LZ.no_such_code
      simp only [List.length_cons] at hk
      rw [if_neg (by omega)]
      exact hsim.free k (by omega)

end gif

namespace gif

theorem tabrep_prefix_ne (cr : Nat) (hcr : cr ≤ 8) (pfx sfx : Nat → Nat) :
    ∀ (tab : List (Nat × Nat)) (c : Nat), TabRep cr pfx sfx tab → DWf cr tab →
      2 ^ cr + 2 + tab.length ≤ 4096 → 2 ^ cr + 2 ≤ c → c < 2 ^ cr + 2 + tab.length →
      pfx c ≠ LZ.no_such_code := by
  have h256 := two_pow_le_256 cr hcr
  intro tab
  induction tab with
  | nil => intro c _ _ _ h1 h2; simp only [List.length_nil] at h2; omega
  | cons e older ih =>
    intro c ht hw hsz h1 h2
    simp only [List.length_cons] at hsz h2
    by_cases hc : c = 2 ^ cr + 2 + older.length
    · rw [hc, ht.1]
      show e.1 ≠ 4098
      rcases hw.1 with hv | hv <;> omega
    · exact ih c ht.2.2 hw.2.2 (by omega) h1 (by omega)

/-- The walk of a chain, the push of its first pixel and the pop into the line. -/
theorem dec_walk_pop (cr : Nat) (hcr : cr ≤ 8) (st1 : LZDecoder) (tab : List (Nat × Nat))
    (x : Nat) (u line : List Nat) (len : Nat) (ht : TabRep cr st1.prefix_ st1.suffix tab)
    (hw : DWf cr tab) (hv : VCode cr tab x) (hcl : st1.clear_code = 2 ^ cr)
    (hs : StackIs st1 u) (hlen : u.length + (dstr cr tab x).length ≤ 4094)
    (hsz : 2 ^ cr + 2 + tab.length ≤ 4096) :
    ∃ stw root q, LZDecoder.walk_loop LZ.max_code st1 x = (stw, root) ∧
      ¬ stw.stack_ptr ≥ LZ.max_code ∧ ¬ root > LZ.max_code ∧ root % 256 = root ∧
      LZDecoder.pop_loop (stw.stack_ptr + 1)
        { stw with stack := fun i => if i = stw.stack_ptr then root else stw.stack i,
                   stack_ptr := stw.stack_ptr + 1 } line len =
        (q, line ++ (dstr cr tab x ++ u).take (len - line.length)) ∧
      StackIs q ((dstr cr tab x ++ u).drop (len - line.length)) ∧
      q.unstack = st1.unstack := by
  have h256 := two_pow_le_256 cr hcr
  obtain ⟨stw, root, rest, hwalk, hd, hr, hsw, hun⟩ :=
    dec_walk_loop cr tab x LZ.max_code st1 u ht hw hv hcl hs (by omega) hsz (by
      show tab.length ≤ 4095
      omega)
  have hlen2 : (rest ++ u).length + 1 ≤ 4094 := by
    rw [hd] at hlen
    simp only [List.length_cons, List.length_append] at hlen ⊢
    omega
  have hsp : stw.stack_ptr = (rest ++ u).length := hsw.1
  have hpush := stack_push stw (rest ++ u) root hsw
  obtain ⟨q, hq, hsq, huq⟩ := dec_pop_loop len (root :: (rest ++ u)) (stw.stack_ptr + 1) _ line
    hpush (by simp only [List.length_cons]; omega)
  refine ⟨stw, root, q, hwalk, ?_, ?_, Nat.mod_eq_of_lt (by omega), ?_, ?_, ?_⟩
  · show ¬ stw.stack_ptr ≥ 4095
    omega
  · show ¬ root > 4095
    omega
  · rw [hq, hd]; rfl
  · rw [hd]; exact hsq
  · rw [huq, ← hun]; rfl

/-- The body of the main loop for a code of the table. -/
theorem dec_expand_known (cr : Nat) (hcr : cr ≤ 8) (st : LZDecoder) (db : ADec) (c : Nat)
    (line : List Nat) (len : Nat) (hsim : DecSim cr st db) (hst : StackIs st [])
    (hwf : DWf cr db.tab) (hsz : 2 ^ cr + 2 + db.tab.length ≤ 4095)
    (hlast : db.last ≠ LZ.no_such_code →
      VCode cr db.tab db.last ∧ db.run_code = 2 ^ cr + 2 + db.tab.length + 2)
    (hv : VCode cr db.tab c) (hl : line.length < len) :
    ∃ st1, st.expand c line len =
        (st1, line ++ (dstr cr db.tab c).take (len - line.length), true) ∧
      DecSim cr st1
        { db with tab := if db.last = LZ.no_such_code then db.tab
                         else (db.last, (dstr cr db.tab c).headD 0) :: db.tab,
                  last := c } ∧
      StackIs st1 ((dstr cr db.tab c).drop (len - line.length)) ∧ st1.wire = st.wire := by
  have h256 := two_pow_le_256 cr hcr
  have hpos := Nat.two_pow_pos cr
  have hcrun : db.last ≠ LZ.no_such_code → ¬ c = db.run_code - 2 := by
    intro hl1
    have := (hlast hl1).2
    rcases hv with hv | hv <;> omega
  have hadd : ∀ q : LZDecoder, DecSim cr q db →
      DecSim cr (q.add_entry c)
        { db with tab := if db.last = LZ.no_such_code then db.tab
                         else (db.last, (dstr cr db.tab c).headD 0) :: db.tab,
                  last := c } ∧
      (q.add_entry c).wire = q.wire ∧ (q.add_entry c).stack = q.stack ∧
      (q.add_entry c).stack_ptr = q.stack_ptr := by
    intro q hq
    exact dec_add_entry cr hcr q db c _ hq hwf hsz (fun hl1 =>
      ⟨(hlast hl1).1, (hlast hl1).2, by rw [if_neg (hcrun hl1)], fun _ => hv⟩)
  obtain ⟨k, hk⟩ : ∃ k, len - line.length = k + 1 := ⟨len - line.length - 1, by omega⟩
  by_cases hlit : c < 2 ^ cr
  · have hc : c < st.clear_code := by rw [hsim.clear_code]; exact hlit
    obtain ⟨a1, a2, a3, a4⟩ := hadd st hsim
    refine ⟨st.add_entry c, ?_, a1, ?_, a2⟩
    · unfold LZDecoder.expand
      rw [if_pos hc, dstr_lit cr c hlit, hk, Nat.mod_eq_of_lt (by omega)]
      simp
    · rw [dstr_lit cr c hlit, hk]
      exact ⟨by rw [a4]; simpa using hst.1, fun i hi => by simp at hi⟩
  · have hc : ¬ c < st.clear_code := by rw [hsim.clear_code]; exact hlit
    have hrange : 2 ^ cr + 2 ≤ c ∧ c < 2 ^ cr + 2 + db.tab.length := by
      rcases hv with hv | hv
      · exact absurd hv hlit
      · exact hv
    have hknown : (st.prefix_ c != LZ.no_such_code) = true := by
      rw [bne_iff_ne]
      exact tabrep_prefix_ne cr hcr _ _ db.tab c hsim.tab hwf (by omega) hrange.1 hrange.2
    have hdl := dstr_length cr db.tab c hwf hv
    obtain ⟨stw, root, q, hwalk, hn1, hn2, hmod, hpop, hsq, huq⟩ :=
      dec_walk_pop cr hcr st db.tab c [] line len hsim.tab hwf hv hsim.clear_code hst
        (by simp only [List.length_nil]; omega) (by omega)
    rw [List.append_nil] at hpop hsq
    obtain ⟨a1, a2, a3, a4⟩ := hadd q (decsim_congr cr q st db huq hsim)
    refine ⟨q.add_entry c, ?_, a1, ⟨by rw [a4]; exact hsq.1, fun i hi => by
      rw [a3]; exact hsq.2 i hi⟩, by rw [a2]; exact wire_of_unstack q st huq⟩
    unfold LZDecoder.expand
    rw [if_neg hc]
    simp only [hknown, Bool.not_true, Bool.false_and, Bool.false_eq_true, if_false, if_true,
      hwalk]
    have hchk : ¬ (decide (stw.stack_ptr ≥ LZ.max_code) || decide (root > LZ.max_code)) = true := by
      simp only [Bool.or_eq_true, decide_eq_true_eq]
      exact fun h => h.elim hn1 hn2
    rw [if_neg hchk]
    simp only [hmod, hpop]

end gif

namespace gif

theorem adec_bump_tab (d : ADec) : d.bump.tab = d.tab ∧ d.bump.last = d.last := by
  unfold ADec.bump
  split
  · split <;> exact ⟨rfl, rfl⟩
  · exact ⟨rfl, rfl⟩

theorem adec_bump_bits (d : ADec) (h : d.run_bits ≤ 12) : d.bump.run_bits ≤ 12 := by
  unfold ADec.bump
  split
  · split
    · rename_i hg
      simp only [Bool.and_eq_true, decide_eq_true_eq] at hg
      have : d.run_bits < 12 := hg.2
      show d.run_bits + 1 ≤ 12
      omega
    · exact h
  · exact h

theorem adec_init_inv (cr : Nat) (hcr : cr ≤ 8) : ADecInv cr (ADec.init cr) := by
  have h256 := two_pow_le_256 cr hcr
  refine ⟨trivial, fun _ => ⟨rfl, rfl⟩, fun h => absurd rfl h, ?_, ?_⟩
  · show 2 ^ cr + 2 ≤ 4096
    omega
  · show cr + 1 ≤ 12
    omega

/-- The cases of a step of the decoder logic that succeeds. -/
theorem adec_step_cases (cr : Nat) (d : ADec) (c : Nat) (d1 : ADec) (o : List Nat)
    (h : d.step cr c = some (d1, o)) :
    c ≠ 2 ^ cr + 1 ∧
      ((c = 2 ^ cr ∧ d1 = ADec.init cr ∧ o = []) ∨
       (c ≠ 2 ^ cr ∧ ¬ 4095 < d.run_code ∧ VCode cr d.bump.tab c ∧
          d1 = { d.bump with
              tab := if d.bump.last = LZ.no_such_code then d.bump.tab
                     else (d.bump.last, (dstr cr d.bump.tab c).headD 0) :: d.bump.tab,
              last := c } ∧
          o = dstr cr d.bump.tab c) ∨
       (c ≠ 2 ^ cr ∧ ¬ 4095 < d.run_code ∧ ¬ VCode cr d.bump.tab c ∧
          c = d.bump.run_code - 2 ∧ d.bump.last ≠ LZ.no_such_code ∧
          d1 = { d.bump with
              tab := (d.bump.last, (dstr cr d.bump.tab d.bump.last).headD 0) :: d.bump.tab,
              last := c } ∧
          o = dstr cr d.bump.tab d.bump.last ++
            [(dstr cr d.bump.tab d.bump.last).headD 0])) := by
  unfold ADec.step at h
  by_cases h1 : c = 2 ^ cr + 1
  · rw [if_pos h1] at h; simp at h
  · rw [if_neg h1] at h
    refine ⟨h1, ?_⟩
    by_cases h2 : c = 2 ^ cr
    · rw [if_pos h2] at h
      simp only [Option.some.injEq, Prod.mk.injEq] at h
      exact Or.inl ⟨h2, h.1.symm, h.2.symm⟩
    · rw [if_neg h2] at h
      by_cases h3 : 4095 < d.run_code
      · rw [if_pos h3] at h; simp at h
      · rw [if_neg h3] at h
        by_cases h4 : VCode cr d.bump.tab c
        · rw [if_pos h4] at h
          simp only [Option.some.injEq, Prod.mk.injEq] at h
          exact Or.inr (Or.inl ⟨h2, h3, h4, h.1.symm, h.2.symm⟩)
        · rw [if_neg h4] at h
          by_cases h5 : c = d.bump.run_code - 2 ∧ d.bump.last ≠ LZ.no_such_code
          · rw [if_pos h5] at h
            simp only [Option.some.injEq, Prod.mk.injEq] at h
            exact Or.inr (Or.inr ⟨h2, h3, h4, h5.1, h5.2, h.1.symm, h.2.symm⟩)
          · rw [if_neg h5] at h; simp at h

/-- What the ranges of the decoder logic give for a code other than the clear code:
room in the table and the count of codes after `decode`. -/
theorem adec_inv_bump (cr : Nat) (hcr : cr ≤ 8) (d : ADec) (hinv : ADecInv cr d)
    (h3 : ¬ 4095 < d.run_code) :
    DWf cr d.bump.tab ∧ 2 ^ cr + 2 + d.bump.tab.length ≤ 4095 ∧
      d.bump.run_code = d.run_code + 1 ∧ d.bump.run_bits ≤ 12 ∧
      (d.bump.last ≠ LZ.no_such_code →
        VCode cr d.bump.tab d.bump.last ∧
          d.bump.run_code = 2 ^ cr + 2 + d.bump.tab.length + 2) ∧
      (d.bump.last = LZ.no_such_code → d.bump.tab = [] ∧ d.bump.run_code = 2 ^ cr + 2 + 1) := by
  have h256 := two_pow_le_256 cr hcr
  obtain ⟨hbt, hbl⟩ := adec_bump_tab d
  obtain ⟨_, _, hbr, _, _⟩ := adec_bump_props d (by omega)
  rw [hbt, hbl, hbr]
  refine ⟨hinv.wf, ?_, rfl, adec_bump_bits d hinv.bits, ?_, ?_⟩
  · by_cases hl : d.last = LZ.no_such_code
    · rw [(hinv.fresh hl).1]; simp only [List.length_nil]; omega
    · have := (hinv.going hl).2; omega
  · intro hl
    exact ⟨(hinv.going hl).1, by rw [(hinv.going hl).2]⟩
  · intro hl
    exact ⟨(hinv.fresh hl).1, by rw [(hinv.fresh hl).2]⟩

/-- A step of the decoder logic keeps its ranges and yields pixel values. -/
theorem adec_step_inv (cr : Nat) (hcr : cr ≤ 8) (d : ADec) (c : Nat) (d1 : ADec)
    (o : List Nat) (hinv : ADecInv cr d) (h : d.step cr c = some (d1, o)) :
    ADecInv cr d1 ∧ ∀ x ∈ o, x < 2 ^ cr := by
  have h256 := two_pow_le_256 cr hcr
  have hpos := Nat.two_pow_pos cr
  obtain ⟨_, hc⟩ := adec_step_cases cr d c d1 o h
  rcases hc with ⟨_, hd1, ho⟩ | ⟨_, h3, hv, hd1, ho⟩ | ⟨_, h3, hnv, hck, hln, hd1, ho⟩
  · rw [hd1, ho]
    exact ⟨adec_init_inv cr hcr, fun x hx => by simp at hx⟩
  · obtain ⟨hwf, hsz, hrc, hbits, hgo, hfr⟩ := adec_inv_bump cr hcr d hinv h3
    have hc98 : c ≠ LZ.no_such_code := by
      show c ≠ 4098
      rcases hv with hv | hv <;> omega
    rw [hd1, ho]
    refine ⟨⟨?_, fun hl => absurd hl hc98, fun _ => ⟨?_, ?_⟩, ?_, hbits⟩,
      dstr_lt cr _ c hwf hv⟩
    · by_cases hl : d.bump.last = LZ.no_such_code
      · simp only [hl, if_true]; exact hwf
      · simp only [hl, if_false]
        exact ⟨(hgo hl).1, dstr_head_lt cr _ c hwf hv, hwf⟩
    · by_cases hl : d.bump.last = LZ.no_such_code
      · simp only [hl, if_true]; exact hv
      · simp only [hl, if_false]
        exact vcode_mono cr [_] _ c hv
    · by_cases hl : d.bump.last = LZ.no_such_code
      · simp only [hl, if_true]
        rw [(hfr hl).1, (hfr hl).2]; rfl
      · simp only [hl, if_false, List.length_cons]
        rw [(hgo hl).2]; omega
    · show d.bump.run_code ≤ 4096
      omega
  · obtain ⟨hwf, hsz, hrc, hbits, hgo, hfr⟩ := adec_inv_bump cr hcr d hinv h3
    obtain ⟨hvl, hrc2⟩ := hgo hln
    have hc98 : c ≠ LZ.no_such_code := by
      show c ≠ 4098
      omega
    rw [hd1, ho]
    refine ⟨⟨⟨hvl, dstr_head_lt cr _ _ hwf hvl, hwf⟩, fun hl => absurd hl hc98,
      fun _ => ⟨?_, ?_⟩, ?_, hbits⟩, ?_⟩
    · show VCode cr ((d.bump.last, (dstr cr d.bump.tab d.bump.last).headD 0) :: d.bump.tab) c
      exact Or.inr ⟨by omega, by simp only [List.length_cons]; omega⟩
    · show d.bump.run_code =
        2 ^ cr + 2 + ((d.bump.last, (dstr cr d.bump.tab d.bump.last).headD 0) ::
          d.bump.tab).length + 1
      simp only [List.length_cons]; omega
    · show d.bump.run_code ≤ 4096
      omega
    · intro x hx
      rcases List.mem_append.mp hx with h1 | h1
      · exact dstr_lt cr _ _ hwf hvl x h1
      · rw [List.mem_singleton.mp h1]; exact dstr_head_lt cr _ _ hwf hvl

end gif

namespace gif

/-- The body of the main loop for the code that the table is about to register:
its pixels are those of the code before and the first of them again. -/
theorem dec_expand_kw (cr : Nat) (hcr : cr ≤ 8) (st : LZDecoder) (db : ADec) (c : Nat)
    (line : List Nat) (len : Nat) (hsim : DecSim cr st db) (hst : StackIs st [])
    (hwf : DWf cr db.tab) (hsz : 2 ^ cr + 2 + db.tab.length ≤ 4095)
    (hln : db.last ≠ LZ.no_such_code) (hvl : VCode cr db.tab db.last)
    (hrc : db.run_code = 2 ^ cr + 2 + db.tab.length + 2) (hc : c = db.run_code - 2)
    (hl : line.length < len) :
    ∃ st1, st.expand c line len =
        (st1, line ++ (dstr cr db.tab db.last ++
          [(dstr cr db.tab db.last).headD 0]).take (len - line.length), true) ∧
      DecSim cr st1
        { db with tab := (db.last, (dstr cr db.tab db.last).headD 0) :: db.tab, last := c } ∧
      StackIs st1 ((dstr cr db.tab db.last ++
        [(dstr cr db.tab db.last).headD 0]).drop (len - line.length)) ∧
      st1.wire = st.wire := by
  have h256 := two_pow_le_256 cr hcr
  have hpos := Nat.two_pow_pos cr
  have hcv : c = 2 ^ cr + 2 + db.tab.length := by omega
  have hidx : st.run_code - 2 = 2 ^ cr + 2 + db.tab.length := by
    rw [hsim.run_code, hrc]; omega
  have hnc : ¬ c < st.clear_code := by rw [hsim.clear_code]; omega
  have hfree : st.prefix_ c = LZ.no_such_code := by
    rw [hcv]; exact hsim.free _ (by omega)
  have hknown : (st.prefix_ c != LZ.no_such_code) = false := by
    rw [hfree]; exact bne_self_eq_false _
  have hceq : (c != st.run_code - 2) = false := by
    rw [hidx, hcv]; exact bne_self_eq_false _
  have hh : LZDecoder.prefix_char st.prefix_ st.last_code st.clear_code % 256 =
      (dstr cr db.tab db.last).headD 0 := by
    unfold LZDecoder.prefix_char
    rw [hsim.clear_code, hsim.last_code,
      dec_prefix_char_loop cr _ _ db.tab db.last _ hsim.tab hwf hvl (by omega) (by
        show db.tab.length ≤ 4095 + 1
        omega)]
    exact Nat.mod_eq_of_lt (by have := dstr_head_lt cr db.tab db.last hwf hvl; omega)
  -- the state after the first push
  have hsim1 : DecSim cr
      { st with
          stack := fun i => if i = st.stack_ptr then (dstr cr db.tab db.last).headD 0
                            else st.stack i,
          stack_ptr := st.stack_ptr + 1,
          suffix := fun i => if i = st.run_code - 2 then (dstr cr db.tab db.last).headD 0
                             else st.suffix i } db :=
    ⟨hsim.col_res, hsim.clear_code, hsim.eof_code, hsim.run_code, hsim.run_bits,
      hsim.max_code, hsim.last_code,
      tabrep_congr cr st.prefix_ st.suffix _ _ db.tab
        (fun k _ hk2 =>
          ⟨rfl, by show (if k = st.run_code - 2 then _ else st.suffix k) = st.suffix k
                   rw [if_neg (by omega)]⟩) hsim.tab,
      hsim.free⟩
  have hst1 : StackIs
      { st with
          stack := fun i => if i = st.stack_ptr then (dstr cr db.tab db.last).headD 0
                            else st.stack i,
          stack_ptr := st.stack_ptr + 1,
          suffix := fun i => if i = st.run_code - 2 then (dstr cr db.tab db.last).headD 0
                             else st.suffix i } [(dstr cr db.tab db.last).headD 0] :=
    stack_push st [] _ hst
  have hdl := dstr_length cr db.tab db.last hwf hvl
  obtain ⟨stw, root, q, hwalk, hn1, hn2, hmod, hpop, hsq, huq⟩ :=
    dec_walk_pop cr hcr _ db.tab st.last_code [(dstr cr db.tab db.last).headD 0] line len
      hsim1.tab hwf (by rw [hsim.last_code]; exact hvl) hsim.clear_code hst1
      (by rw [hsim.last_code]; simp only [List.length_singleton]; omega) (by omega)
  rw [hsim.last_code] at hpop hsq
  obtain ⟨a1, a2, a3, a4⟩ := dec_add_entry cr hcr q db c ((dstr cr db.tab db.last).headD 0)
    (decsim_congr cr q _ db huq hsim1) hwf hsz
    (fun _ => ⟨hvl, hrc, by rw [if_pos hc], fun hne => absurd hc hne⟩)
  rw [if_neg hln] at a1
  refine ⟨q.add_entry c, ?_, a1, ⟨by rw [a4]; exact hsq.1, fun i hi => by
    rw [a3]; exact hsq.2 i hi⟩, by rw [a2, wire_of_unstack q _ huq]; rfl⟩
  unfold LZDecoder.expand
  rw [if_neg hnc]
  simp only [hknown, hceq, Bool.not_false, Bool.and_false, Bool.false_eq_true, if_false, hh,
    hwalk]
  have hchk : ¬ (decide (stw.stack_ptr ≥ LZ.max_code) || decide (root > LZ.max_code)) = true := by
    simp only [Bool.or_eq_true, decide_eq_true_eq]
    exact fun h => h.elim hn1 hn2
  rw [if_neg hchk]
  simp only [hmod, hpop]

end gif

namespace gif

theorem dstream_congr (st1 st : LZDecoder) (cw : List (Nat × Nat)) (tail : List Nat)
    (h : st1.wire = st.wire) (hs : DStream st cw tail) : DStream st1 cw tail := by
  simp only [LZDecoder.wire, Prod.mk.injEq] at h
  obtain ⟨h1, h2, h3, h4, _⟩ := h
  obtain ⟨data, ⟨cur, blocks, b1, b2, b3, b4, b5, b6⟩, hv, hl, hd, h8, hf⟩ := hs
  exact ⟨data, ⟨cur, blocks, by rw [h2]; exact b1, by rw [h2]; exact b2, b3, b4,
    by rw [h1]; exact b5, b6⟩, by rw [h3, h4]; exact hv, by rw [h3]; exact hl,
    by rw [h3, h4]; exact hd, by rw [h3]; exact h8, hf⟩

/-- One iteration of the main loop of `decode_line`: the decoder follows its logic. -/
theorem dec_decode_step (cr : Nat) (hcr : cr ≤ 8) (st : LZDecoder) (d : ADec) (c w : Nat)
    (cw : List (Nat × Nat)) (tail : List Nat) (d1 : ADec) (o line : List Nat) (len : Nat)
    (hsim : DecSim cr st d) (hinv : ADecInv cr d) (hst : StackIs st [])
    (hstream : DStream st ((c, w) :: cw) tail) (hw : w = d.run_bits)
    (hstep : d.step cr c = some (d1, o)) (hl : line.length < len) :
    ∃ st1, st.decode_step line len = (st1, line ++ o.take (len - line.length), true) ∧
      DecSim cr st1 d1 ∧ StackIs st1 (o.drop (len - line.length)) ∧ DStream st1 cw tail ∧
      st1.pix_count = st.pix_count ∧ st1.f.e = st.f.e := by
  have h256 := two_pow_le_256 cr hcr
  have hpos := Nat.two_pow_pos cr
  obtain ⟨st0, hdec, hstr0, r1, r2, r3, htab, he⟩ :=
    dec_decode st c w cw tail d hstream (by rw [hsim.run_bits, hw])
      (by rw [hw]; exact hinv.bits) hsim.run_code hsim.run_bits hsim.max_code
  simp only [LZDecoder.tables, Prod.mk.injEq] at htab
  obtain ⟨⟨t1, t2, t3, t4, t5, t6⟩, t7, t8, t9⟩ := htab
  obtain ⟨hbt, hbl⟩ := adec_bump_tab d
  have hsim0 : DecSim cr st0 d.bump :=
    ⟨by rw [t1]; exact hsim.col_res, by rw [t2]; exact hsim.clear_code,
      by rw [t3]; exact hsim.eof_code, r1, r2, r3, by rw [t4, hbl]; exact hsim.last_code,
      by rw [t9, t8, hbt]; exact hsim.tab, by rw [t9, hbt]; exact hsim.free⟩
  have hst0 : StackIs st0 [] := ⟨by rw [t6]; exact hst.1, fun i hi => by simp at hi⟩
  obtain ⟨hne, hc⟩ := adec_step_cases cr d c d1 o hstep
  have hneof : ¬ c = st0.eof_code := by rw [hsim0.eof_code]; exact hne
  have hds : st.decode_step line len =
      if c = st0.clear_code then
        ({ st0 with prefix_ := fun _ => LZ.no_such_code,
                    run_code := st0.eof_code + 1,
                    run_bits := st0.col_res + 1,
                    max_code := 2 ^ (st0.col_res + 1),
                    last_code := LZ.no_such_code }, line, true)
      else st0.expand c line len := by
    unfold LZDecoder.decode_step
    simp only [hdec, Bool.not_true, Bool.false_eq_true, if_false, hneof]
  rw [hds]
  rcases hc with ⟨hcl, hd1, ho⟩ | ⟨hcl, h3, hv, hd1, ho⟩ | ⟨hcl, h3, hnv, hck, hln, hd1, ho⟩
  · have hcc : c = st0.clear_code := by rw [hsim0.clear_code]; exact hcl
    rw [if_pos hcc, hd1, ho]
    refine ⟨{ st0 with prefix_ := fun _ => LZ.no_such_code,
                       run_code := st0.eof_code + 1,
                       run_bits := st0.col_res + 1,
                       max_code := 2 ^ (st0.col_res + 1),
                       last_code := LZ.no_such_code }, by simp, ?_,
      ⟨by rw [List.drop_nil]; exact hst0.1, fun i hi => by simp at hi⟩,
      dstream_congr _ st0 cw tail rfl hstr0, t5, he⟩
    refine ⟨hsim0.col_res, hsim0.clear_code, hsim0.eof_code, ?_, ?_, ?_, rfl, trivial,
      fun k _ => rfl⟩
    · show st0.eof_code + 1 = 2 ^ cr + 2
      rw [hsim0.eof_code]
    · show st0.col_res + 1 = cr + 1
      rw [hsim0.col_res]
    · show 2 ^ (st0.col_res + 1) = 2 ^ (cr + 1)
      rw [hsim0.col_res]
  · have hcc : ¬ c = st0.clear_code := by rw [hsim0.clear_code]; exact hcl
    obtain ⟨hwf, hsz, hrc, hbits, hgo, hfr⟩ := adec_inv_bump cr hcr d hinv h3
    obtain ⟨st1, hex, hs1, hk1, hw1⟩ :=
      dec_expand_known cr hcr st0 d.bump c line len hsim0 hst0 hwf hsz hgo hv hl
    rw [if_neg hcc, hd1, ho]
    have hw2 := hw1
    simp only [LZDecoder.wire, Prod.mk.injEq] at hw2
    exact ⟨st1, hex, hs1, hk1, dstream_congr st1 st0 cw tail hw1 hstr0,
      by rw [hw2.2.2.2.2, t5], by rw [hw2.1, he]⟩
  · have hcc : ¬ c = st0.clear_code := by rw [hsim0.clear_code]; exact hcl
    obtain ⟨hwf, hsz, hrc, hbits, hgo, hfr⟩ := adec_inv_bump cr hcr d hinv h3
    obtain ⟨st1, hex, hs1, hk1, hw1⟩ :=
      dec_expand_kw cr hcr st0 d.bump c line len hsim0 hst0 hwf hsz hln (hgo hln).1 (hgo hln).2
        hck hl
    rw [if_neg hcc, hd1, ho]
    have hw2 := hw1
    simp only [LZDecoder.wire, Prod.mk.injEq] at hw2
    exact ⟨st1, hex, hs1, hk1, dstream_congr st1 st0 cw tail hw1 hstr0,
      by rw [hw2.2.2.2.2, t5], by rw [hw2.1, he]⟩

end gif

namespace gif

/-! ## Decoder: lines -/

theorem adec_step_len (cr : Nat) (hcr : cr ≤ 8) (d : ADec) (c : Nat) (d1 : ADec)
    (o : List Nat) (hinv : ADecInv cr d) (h : d.step cr c = some (d1, o)) :
    o.length ≤ 4095 := by
  have hpos := Nat.two_pow_pos cr
  obtain ⟨_, hc⟩ := adec_step_cases cr d c d1 o h
  rcases hc with ⟨_, _, ho⟩ | ⟨_, h3, hv, _, ho⟩ | ⟨_, h3, _, _, hln, _, ho⟩
  · rw [ho]; simp
  · obtain ⟨hwf, hsz, _, _, _, _⟩ := adec_inv_bump cr hcr d hinv h3
    have := dstr_length cr _ c hwf hv
    rw [ho]; omega
  · obtain ⟨hwf, hsz, _, _, hgo, _⟩ := adec_inv_bump cr hcr d hinv h3
    have := dstr_length cr _ _ hwf (hgo hln).1
    rw [ho]; simp only [List.length_append, List.length_singleton]; omega

theorem adec_run_cons_some (cr : Nat) (d : ADec) (c w : Nat) (rest : List (Nat × Nat))
    (d1 : ADec) (out : List Nat) (h : ADec.run cr d ((c, w) :: rest) = some (d1, out)) :
    w = d.run_bits ∧ ∃ dd o out2, d.step cr c = some (dd, o) ∧
      ADec.run cr dd rest = some (d1, out2) ∧ out = o ++ out2 := by
  rw [adec_run_cons] at h
  by_cases hw : w = d.run_bits
  · rw [if_pos hw] at h
    refine ⟨hw, ?_⟩
    cases h1 : d.step cr c with
    | none => rw [h1] at h; simp at h
    | some r =>
      rw [h1] at h
      simp only at h
      cases h2 : ADec.run cr r.1 rest with
      | none => rw [h2] at h; simp at h
      | some r2 =>
        rw [h2] at h
        simp only [Option.some.injEq, Prod.mk.injEq] at h
        exact ⟨r.1, r.2, r2.2, rfl, by rw [h2, ← h.1], h.2.symm⟩
  · rw [if_neg hw] at h; simp at h

/-- The main loop of `decode_line` fills the line from the codes ahead. -/
theorem dec_decode_loop (cr : Nat) (hcr : cr ≤ 8) (tail : List Nat) (extra : List (Nat × Nat))
    (len : Nat) :
    ∀ (cw : List (Nat × Nat)) (fuel : Nat) (st : LZDecoder) (d : ADec) (line : List Nat)
      (d1 : ADec) (out : List Nat),
      DecSim cr st d → ADecInv cr d → StackIs st [] → DStream st (cw ++ extra) tail →
      (∀ e ∈ cw, 0 < e.2) → ADec.run cr d cw = some (d1, out) → line.length ≤ len →
      len ≤ line.length + out.length → cw.length < fuel →
      ∃ st1, LZDecoder.decode_loop fuel st line len = some (st1, (line ++ out).take len, true) ∧
        DecCfg cr st1 ((line ++ out).drop len) tail ∧ st1.pix_count = st.pix_count ∧
        st1.f.e = st.f.e := by
  intro cw
  induction cw with
  | nil =>
    intro fuel st d line d1 out hsim hinv hst hstr hpos hrun hle hge hf
    simp only [ADec.run, Option.some.injEq, Prod.mk.injEq] at hrun
    obtain ⟨rfl, rfl⟩ := hrun
    simp only [List.length_nil, Nat.add_zero] at hge
    obtain ⟨f, rfl⟩ : ∃ f, fuel = f + 1 := ⟨fuel - 1, by simp at hf; omega⟩
    have hnl : ¬ line.length < len := by omega
    refine ⟨st, ?_, ?_, rfl, rfl⟩
    · simp only [LZDecoder.decode_loop, if_neg hnl, List.append_nil]
      rw [List.take_of_length_le hle]
    · rw [List.append_nil, List.drop_of_length_le hle]
      exact ⟨d, [], [], extra, d, [], hsim, hinv, hst, by simp, by simp, hstr, by simp, rfl, rfl⟩
  | cons e rest ih =>
    intro fuel st d line d1 out hsim hinv hst hstr hpos hrun hle hge hf
    obtain ⟨c, w⟩ := e
    simp only [List.length_cons] at hf
    obtain ⟨f, rfl⟩ : ∃ f, fuel = f + 1 := ⟨fuel - 1, by omega⟩
    by_cases hl : line.length < len
    · obtain ⟨hw, dd, o, out2, hstep, hrun2, hout⟩ := adec_run_cons_some cr d c w rest d1 out hrun
      obtain ⟨st1, hds, hsim1, hst1, hstr1, hpc1, he1⟩ :=
        dec_decode_step cr hcr st d c w (rest ++ extra) tail dd o line len hsim hinv hst hstr hw
          hstep hl
      obtain ⟨hinv1, hox⟩ := adec_step_inv cr hcr d c dd o hinv hstep
      have holen := adec_step_len cr hcr d c dd o hinv hstep
      have hloop : LZDecoder.decode_loop (f + 1) st line len =
          LZDecoder.decode_loop f st1 (line ++ o.take (len - line.length)) len := by
        simp only [LZDecoder.decode_loop, if_pos hl, hds, Bool.not_true, Bool.false_eq_true,
          if_false]
      rw [hloop, hout]
      by_cases hfit : o.length ≤ len - line.length
      · rw [List.take_of_length_le hfit] at hloop ⊢
        rw [List.drop_of_length_le hfit] at hst1
        obtain ⟨st2, h2, hc2, hpc2, he2⟩ := ih f st1 dd (line ++ o) d1 out2 hsim1 hinv1 hst1 hstr1
          (fun e he => hpos e (List.mem_cons_of_mem _ he)) hrun2
          (by simp only [List.length_append]; omega)
          (by rw [hout] at hge; simp only [List.length_append] at hge ⊢; omega) (by omega)
        refine ⟨st2, ?_, ?_, by rw [hpc2, hpc1], by rw [he2, he1]⟩
        · rw [h2, List.append_assoc]
        · rw [← List.append_assoc]; exact hc2
      · obtain ⟨g, rfl⟩ : ∃ g, f = g + 1 := ⟨f - 1, by omega⟩
        have hlen1 : (line ++ o.take (len - line.length)).length = len := by
          simp only [List.length_append, List.length_take]; omega
        have hnl : ¬ (line ++ o.take (len - line.length)).length < len := by omega
        have htake : (line ++ (o ++ out2)).take len = line ++ o.take (len - line.length) := by
          rw [List.take_append_eq_append_take, List.take_of_length_le hle,
            List.take_append_eq_append_take]
          have : len - line.length - o.length = 0 := by omega
          rw [this, List.take_zero, List.append_nil]
        have hdrop : (line ++ (o ++ out2)).drop len = o.drop (len - line.length) ++ out2 := by
          rw [List.drop_append_eq_append_drop, List.drop_of_length_le hle, List.nil_append,
            List.drop_append_eq_append_drop]
          have : len - line.length - o.length = 0 := by omega
          rw [this, List.drop_zero]
        refine ⟨st1, ?_, ?_, hpc1, he1⟩
        · simp only [LZDecoder.decode_loop, if_neg hnl, htake]
        · rw [hdrop]
          exact ⟨dd, o.drop (len - line.length), rest, extra, d1, out2, hsim1, hinv1, hst1,
            fun x hx => hox x (List.mem_of_mem_drop hx),
            by rw [List.length_drop]; omega, hstr1,
            fun e he => hpos e (List.mem_cons_of_mem _ he), hrun2, rfl⟩
    · have hlen : line.length = len := by omega
      refine ⟨st, ?_, ?_, rfl, rfl⟩
      · simp only [LZDecoder.decode_loop, if_neg hl]
        rw [List.take_append_eq_append_take, List.take_of_length_le hle]
        have : len - line.length = 0 := by omega
        rw [this, List.take_zero, List.append_nil]
      · rw [List.drop_append_eq_append_drop, List.drop_of_length_le hle]
        have : len - line.length = 0 := by omega
        rw [this, List.drop_zero, List.nil_append]
        exact ⟨d, [], (c, w) :: rest, extra, d1, out, hsim, hinv, hst, by simp, by simp, hstr,
          hpos, hrun, rfl⟩

end gif

namespace gif

theorem frames_length (blocks : List (List Nat)) :
    (frames blocks).length = blocks.length + blocks.flatten.length := by
  induction blocks with
  | nil => rfl
  | cons b rest ih =>
    rw [frames_cons]
    simp only [List.length_append, List.length_cons, List.flatten_cons, ih]
    omega

theorem len_le_bitlen (cw : List (Nat × Nat)) (h : ∀ e ∈ cw, 0 < e.2) :
    cw.length ≤ bitlen cw := by
  induction cw with
  | nil => simp [bitlen]
  | cons e rest ih =>
    have h1 := h e (List.mem_cons_self _ _)
    have h2 := ih (fun x hx => h x (List.mem_cons_of_mem _ hx))
    simp only [List.length_cons, bitlen]; omega

/-- The fuel that `getLine` gives to the main loop covers the codes ahead. -/
theorem dstream_fuel (st : LZDecoder) (cw extra : List (Nat × Nat)) (tail : List Nat)
    (hs : DStream st (cw ++ extra) tail) (hpos : ∀ e ∈ cw, 0 < e.2) :
    cw.length < 8 * (st.f.d.bytesLeft + 256) + 32 := by
  obtain ⟨data, ⟨cur, blocks, b1, b2, _, _, b5, b6⟩, _, hl, _, h8, _⟩ := hs
  have h1 := len_le_bitlen cw hpos
  rw [bitlen_append] at hl
  have hcur : cur.length ≤ 255 := by
    by_cases hc : cur = []
    · rw [hc]; simp
    · have := b2 hc; omega
  have hrest : st.f.d.bytesLeft = (frames blocks).length + (tail.length + 1) := by
    rw [MemDevice_bytesLeft_eq, b5]; simp
  have hfl := frames_length blocks
  have hd : data.length = cur.length + blocks.flatten.length := by rw [b6]; simp
  omega

/-- `decode_line` hands out the next pixels. -/
theorem dec_decode_line (cr : Nat) (hcr : cr ≤ 8) (st : LZDecoder) (px tail : List Nat)
    (k fuel : Nat) (h : DecCfg cr st px tail) (hk : k ≤ px.length)
    (hf : 8 * (st.f.d.bytesLeft + 256) + 32 ≤ fuel) :
    ∃ st1, LZDecoder.decode_line fuel st k = some (st1, px.take k, true) ∧
      DecCfg cr st1 (px.drop k) tail ∧ st1.pix_count = st.pix_count ∧ st1.f.e = st.f.e := by
  obtain ⟨d, u, cw, extra, d1, out, hsim, hinv, hst, hux, hul, hstr, hpos, hrun, hpx⟩ := h
  have hfuel := dstream_fuel st cw extra tail hstr hpos
  have hng : ¬ st.stack_ptr > LZ.max_code := by
    rw [hst.1]
    show ¬ u.length > 4095
    omega
  obtain ⟨q, hq, hsq, huq⟩ := dec_pop_loop k u st.stack_ptr st [] hst (by rw [hst.1])
  simp only [List.length_nil, Nat.sub_zero, List.nil_append] at hq hsq
  have hwq := wire_of_unstack q st huq
  have hsimq := decsim_congr cr q st d huq hsim
  have hstrq := dstream_congr q st (cw ++ extra) tail hwq hstr
  have hwq2 := hwq
  simp only [LZDecoder.wire, Prod.mk.injEq] at hwq2
  have hdl : LZDecoder.decode_line fuel st k = LZDecoder.decode_loop fuel q (u.take k) k := by
    unfold LZDecoder.decode_line
    rw [if_neg hng]
    simp only [hq]
  rw [hdl, hpx]
  by_cases hfit : u.length < k
  · rw [List.take_of_length_le (by omega)] at hdl ⊢
    rw [List.drop_of_length_le (by omega)] at hsq
    rw [hpx, List.length_append] at hk
    obtain ⟨st1, h1, hc1, hp1, he1⟩ := dec_decode_loop cr hcr tail extra k cw fuel q d u d1 out
      hsimq hinv hsq hstrq hpos hrun (by omega) hk (by omega)
    exact ⟨st1, h1, hc1, by rw [hp1, hwq2.2.2.2.2], by rw [he1, hwq2.1]⟩
  · obtain ⟨g, rfl⟩ : ∃ g, fuel = g + 1 := ⟨fuel - 1, by omega⟩
    have hlen : (u.take k).length = k := by rw [List.length_take]; omega
    have hnl : ¬ (u.take k).length < k := by omega
    refine ⟨q, ?_, ?_, hwq2.2.2.2.2, by rw [hwq2.1]⟩
    · simp only [LZDecoder.decode_loop, if_neg hnl]
      rw [List.take_append_eq_append_take]
      have : k - u.length = 0 := by omega
      rw [this, List.take_zero, List.append_nil]
    · rw [List.drop_append_eq_append_drop]
      have : k - u.length = 0 := by omega
      rw [this, List.drop_zero]
      exact ⟨d, u.drop k, cw, extra, d1, out, hsimq, hinv, hsq,
        fun x hx => hux x (List.mem_of_mem_drop hx), by rw [List.length_drop]; omega, hstrq,
        hpos, hrun, rfl⟩

/-- The loop at the end of `getLine` reads the sub-blocks left and the zero length
block. -/
theorem dec_drain_loop (tail : List Nat) :
    ∀ (blocks : List (List Nat)) (fuel : Nat) (st : LZDecoder), Blocks blocks →
      st.f.d.rest = frames blocks ++ 0 :: tail → blocks.length < fuel →
      ∃ st1, LZDecoder.drain_loop fuel st = some (st1, true) ∧ st1.f.d.rest = tail ∧
        st1.f.e = st.f.e ∧ st1.pix_count = 0 := by
  intro blocks
  induction blocks with
  | nil =>
    intro fuel st _ hrest hf
    obtain ⟨g, rfl⟩ : ∃ g, fuel = g + 1 := ⟨fuel - 1, by simp at hf; omega⟩
    have hr : st.f.d.rest = 0 :: tail := by rw [hrest]; rfl
    have h1 := GifIO_read_byte_rest st.f 0 tail hr
    have h2 : (st.f.skip 1).d.rest = tail := GifIO_skip_rest_of st.f [0] tail hr
    refine ⟨{ st with f := st.f.skip 1, buf := fun i => if i = 0 then 0 else st.buf i,
                      pix_count := 0 }, ?_, h2, rfl, rfl⟩
    simp only [LZDecoder.drain_loop, LZDecoder.next_code, h1, Bool.not_true, Bool.false_eq_true,
      if_false, gt_iff_lt, Nat.lt_irrefl]
  | cons b rest ih =>
    intro fuel st hbl hrest hf
    simp only [List.length_cons] at hf
    obtain ⟨g, rfl⟩ : ∃ g, fuel = g + 1 := ⟨fuel - 1, by omega⟩
    obtain ⟨hb1, hb255, _⟩ := hbl b (List.mem_cons_self _ _)
    have hr : st.f.d.rest = b.length :: (b ++ (frames rest ++ 0 :: tail)) := by
      rw [hrest, frames_cons]; simp
    have h1 := GifIO_read_byte_rest st.f b.length _ hr
    have h2 : (st.f.skip 1).d.rest = b ++ (frames rest ++ 0 :: tail) :=
      GifIO_skip_rest_of st.f [b.length] _ hr
    have h3 := GifIO_read_bytes_rest (st.f.skip 1) b _ h2
    have h4 : ((st.f.skip 1).skip b.length).d.rest = frames rest ++ 0 :: tail :=
      GifIO_skip_rest_of (st.f.skip 1) b _ h2
    have hpos : b.length > 0 := by omega
    obtain ⟨st1, hd, hr1, he1, hp1⟩ := ih g
      { st with f := (st.f.skip 1).skip b.length,
                buf := fun i =>
                  if i = 0 then b.length
                  else if 1 ≤ i ∧ i < 1 + b.length then b.getD (i - 1) 0 else st.buf i }
      (fun x hx => hbl x (List.mem_cons_of_mem _ hx)) h4 (by omega)
    refine ⟨st1, ?_, hr1, by rw [he1]; rfl, hp1⟩
    simp only [LZDecoder.drain_loop, LZDecoder.next_code, h1, Bool.not_true, Bool.false_eq_true,
      if_false, hpos, if_true, h3]
    exact hd

end gif

namespace gif

/-! ## Decoder: `getLine` -/

theorem deccfg_set_pix (cr : Nat) (st : LZDecoder) (px tail : List Nat) (pc : Nat)
    (h : DecCfg cr st px tail) : DecCfg cr { st with pix_count := pc } px tail := by
  obtain ⟨d, u, cw, extra, d1, out, hsim, hinv, hst, hux, hul, hstr, hpos, hrun, hpx⟩ := h
  obtain ⟨data, hb, hv, hl, hd, h8, hf⟩ := hstr
  exact ⟨d, u, cw, extra, d1, out,
    ⟨hsim.col_res, hsim.clear_code, hsim.eof_code, hsim.run_code, hsim.run_bits, hsim.max_code,
      hsim.last_code, hsim.tab, hsim.free⟩, hinv, hst, hux, hul,
    ⟨data, hb, hv, hl, hd, h8, hf⟩, hpos, hrun, hpx⟩

theorem pix_sub (p k : Nat) (hk : k ≤ p) (hp : p - k < 2 ^ 64) :
    (((p : Int) - (k : Int)) % 2 ^ 64).toNat = p - k := by
  rw [← Int.ofNat_sub hk]
  have h1 : ((p - k : Nat) : Int) % 2 ^ 64 = ((p - k : Nat) : Int) := by
    apply Int.emod_eq_of_lt
    · exact Int.ofNat_nonneg _
    · exact_mod_cast hp
  rw [h1]
  exact Int.toNat_ofNat _

/-- `getLine` hands out the next pixels and, when the pixel count is used up, reads
the stream to the end of the LZW data. -/
theorem dec_getLine (cr : Nat) (hcr : cr ≤ 8) (st : LZDecoder) (px tail : List Nat) (k : Nat)
    (h : DecCfg cr st px tail) (hk : k ≤ px.length) (hpc : st.pix_count = px.length)
    (hbig : px.length - k ≤ 0xffff0000) :
    ∃ st1, st.getLine (k : Int) = some (st1, px.take k, true) ∧ st1.f.e = st.f.e ∧
      st1.pix_count = px.length - k ∧ (k < px.length → DecCfg cr st1 (px.drop k) tail) ∧
      (k = px.length → st1.f.d.rest = tail) := by
  have hpcv : (((st.pix_count : Int) - (k : Int)) % 2 ^ 64).toNat = px.length - k := by
    rw [hpc]; exact pix_sub _ _ hk (by omega)
  have hng : ¬ px.length - k > 0xffff0000 := by omega
  obtain ⟨st1, hdl, hc1, hp1, he1⟩ := dec_decode_line cr hcr
    { st with pix_count := px.length - k } px tail k
    (8 * (st.f.d.bytesLeft + 256) + 32) (deccfg_set_pix cr st px tail _ h) hk (Nat.le_refl _)
  have hp1' : st1.pix_count = px.length - k := hp1
  have he1' : st1.f.e = st.f.e := he1
  by_cases hz : px.length - k = 0
  · -- the last line: drain
    obtain ⟨d, u, cw, extra, d1, out, _, _, _, _, _, hstr, _, _, _⟩ := hc1
    obtain ⟨data, ⟨cur, blocks, _, _, _, hbl, hrest, _⟩, _, _, _, _, _⟩ := hstr
    have hbytes : blocks.length < st1.f.d.bytesLeft + 1 := by
      rw [MemDevice_bytesLeft_eq, hrest]
      have := frames_length blocks
      simp only [List.length_append, List.length_cons]; omega
    obtain ⟨st2, hdr, hr2, he2, hp2⟩ := dec_drain_loop tail blocks _ st1 hbl hrest hbytes
    have hpz : st1.pix_count = 0 := by rw [hp1', hz]
    refine ⟨st2, ?_, by rw [he2, he1'], by rw [hp2, hz], fun hlt => by omega, fun _ => hr2⟩
    unfold LZDecoder.getLine
    simp only [hpcv, hng, if_false, Int.toNat_ofNat, hdl, Bool.not_true, Bool.false_eq_true,
      hpz, if_true, hdr]
  · refine ⟨st1, ?_, he1', hp1', fun _ => hc1, fun he => by omega⟩
    unfold LZDecoder.getLine
    simp only [hpcv, hng, if_false, Int.toNat_ofNat, hdl, Bool.not_true, Bool.false_eq_true,
      hp1', hz]

end gif

namespace gif

theorem toInt32_small (k : Nat) (h : k < 2 ^ 31) : toInt32 k = (k : Int) := by
  have h1 : k % 2 ^ 32 = k := Nat.mod_eq_of_lt (by omega)
  unfold toInt32
  rw [h1, if_pos h]

/-- The state after the constructor of the decoder over the LZW data of `px`. -/
theorem dec_new_cfg (cr : Nat) (hcr : cr ≤ 8) (io : GifIO) (n : Nat)
    (bytes px tail : List Nat) (hs : LzwStream cr bytes px) (hrest : io.d.rest = bytes ++ tail) :
    DecCfg cr (LZDecoder.new io n cr) px tail := by
  obtain ⟨blocks, cw, extra, d, hbl, hb, hv, hl, hf, hpos, hrun⟩ := hs
  refine ⟨ADec.init cr, [], cw, extra, d, px, ?_, adec_init_inv cr hcr, ⟨rfl, fun i hi => by
    simp at hi⟩, by simp, by simp, ?_, hpos, hrun, rfl⟩
  · exact ⟨rfl, rfl, rfl, rfl, rfl, rfl, rfl, trivial, fun _ _ => rfl⟩
  · refine ⟨blocks.flatten, ⟨[], blocks, rfl, fun h => absurd rfl h, by simp, hbl, ?_, rfl⟩,
      ?_, ?_, ?_, ?_, hf⟩
    · show io.d.rest = _
      rw [hrest, hb]; simp
    · show 0 + 2 ^ 0 * le_val blocks.flatten = _
      rw [← hv]; simp
    · show bitlen (cw ++ extra) ≤ 0 + 8 * blocks.flatten.length
      omega
    · show 0 < 2 ^ 0
      norm_num
    · show 0 < 8
      norm_num

theorem sum_pos_of_pos (ks : List Nat) (h : ∀ k ∈ ks, 0 < k) (hne : ks ≠ []) : 0 < ks.sum := by
  cases ks with
  | nil => exact absurd rfl hne
  | cons k rest =>
    have := h k (List.mem_cons_self _ _)
    simp only [List.sum_cons]; omega

/-- A sequence of `getLine` calls that reads all the pixels. -/
theorem dec_getLines (cr : Nat) (hcr : cr ≤ 8) (tail : List Nat) :
    ∀ (ks : List Nat) (st : LZDecoder) (px : List Nat), DecCfg cr st px tail →
      st.pix_count = px.length → (∀ k ∈ ks, 0 < k ∧ k < 2 ^ 31) → ks.sum = px.length →
      ks ≠ [] → px.length - ks.headD 0 ≤ 0xffff0000 →
      ∃ st1, st.getLines ks = some (st1, cut_lines ks px, true) ∧ st1.f.d.rest = tail ∧
        st1.f.e = st.f.e := by
  intro ks
  induction ks with
  | nil => intro st px _ _ _ _ hne; exact absurd rfl hne
  | cons k rest ih =>
    intro st px hc hpc hks hsum _ hbig
    simp only [List.sum_cons] at hsum
    simp only [List.headD_cons] at hbig
    obtain ⟨hk0, hk31⟩ := hks k (List.mem_cons_self _ _)
    obtain ⟨st1, hg, he1, hp1, hcfg, hend⟩ :=
      dec_getLine cr hcr st px tail k hc (by omega) hpc hbig
    rw [← toInt32_small k hk31] at hg
    by_cases hr : rest = []
    · subst hr
      simp only [List.sum_nil, Nat.add_zero] at hsum
      refine ⟨st1, ?_, hend hsum, he1⟩
      simp only [LZDecoder.getLines, hg, Bool.not_true, Bool.false_eq_true, if_false, cut_lines]
    · have hpos := sum_pos_of_pos rest (fun j hj => (hks j (List.mem_cons_of_mem _ hj)).1) hr
      obtain ⟨st2, hg2, hr2, he2⟩ := ih st1 (px.drop k) (hcfg (by omega))
        (by rw [hp1, List.length_drop])
        (fun j hj => hks j (List.mem_cons_of_mem _ hj))
        (by rw [List.length_drop]; omega) hr (by rw [List.length_drop]; omega)
      refine ⟨st2, ?_, hr2, by rw [he2, he1]⟩
      simp only [LZDecoder.getLines, hg, Bool.not_true, Bool.false_eq_true, if_false, hg2,
        cut_lines]

/-- The decoder over the LZW data of `px` reads `px`. -/
theorem dec_lzw_stream (cr : Nat) (hcr : cr ≤ 8) (io : GifIO) (bytes px tail : List Nat)
    (ks : List Nat) (hs : LzwStream cr bytes px) (hrest : io.d.rest = bytes ++ tail)
    (hks : ∀ k ∈ ks, 0 < k ∧ k < 2 ^ 31) (hsum : ks.sum = px.length) (hne : ks ≠ [])
    (hbig : px.length - ks.headD 0 ≤ 0xffff0000) :
    ∃ st1, (LZDecoder.new io px.length cr).getLines ks = some (st1, cut_lines ks px, true) ∧
      st1.f.d.rest = tail ∧ st1.f.e = io.e :=
  dec_getLines cr hcr tail ks _ px (dec_new_cfg cr hcr io _ bytes px tail hs hrest) rfl hks hsum
    hne hbig

end gif

namespace gif

/-! ## LZW round trip -/

/-- An encoder session over a session with room: the bytes that go out are the LZW
data of the masked pixels. -/
theorem enc_session (cr n : Nat) (hcr2 : 2 ≤ cr) (hcr : cr ≤ 8) (io : GifIO)
    (lines : List (List Nat)) (hne : ∀ l ∈ lines, l ≠ []) (hl : lines ≠ [])
    (hsum : (lines.map List.length).sum = n)
    (hroom : io.Room ((AEnc.init cr n).1 ++
      (AEnc.put_lines cr lines (AEnc.init cr n).2).1).length) :
    ∃ st, (LZEncoder.new io n cr).put_lines lines = some (st, true) ∧
      st.f = io.push ((AEnc.init cr n).1 ++ (AEnc.put_lines cr lines (AEnc.init cr n).2).1) ∧
      LzwStream cr ((AEnc.init cr n).1 ++ (AEnc.put_lines cr lines (AEnc.init cr n).2).1)
        (lines.flatten.map (fun b => b &&& LZEncoder.code_mask.getD cr 0)) := by
  rw [List.length_append] at hroom
  have hr0 := GifIO_Room_mono io hroom (Nat.le_add_right _ _)
  obtain ⟨hnf, hnsim⟩ := enc_new cr n io (by omega) hr0
  have hip := aenc_init_props cr n (by omega)
  have hr1 := GifIO_push_room io _ _ hroom
  rw [← hnf] at hr1
  obtain ⟨st, he, hf, _⟩ := enc_put_lines cr lines _ _ hnsim hip.1 hip.2.1
    (by rw [hip.2.2, hsum]) hr1
  refine ⟨st, he, ?_, enc_lzw_stream cr n hcr2 hcr lines hne hl hsum⟩
  rw [hf, hnf, GifIO_push_push io _ _ hr0]

theorem map_mask_id (cr : Nat) (hcr : cr ≤ 8) (px : List Nat) (h : ∀ x ∈ px, x < 2 ^ cr) :
    px.map (fun b => b &&& LZEncoder.code_mask.getD cr 0) = px := by
  induction px with
  | nil => rfl
  | cons x rest ih =>
    rw [List.map_cons, mask_id cr hcr x (h x (List.mem_cons_self _ _)),
      ih (fun y hy => h y (List.mem_cons_of_mem _ hy))]

theorem ne_nil_of_sum_pos (ks : List Nat) (h : 0 < ks.sum) : ks ≠ [] := by
  intro hn; rw [hn] at h; simp at h

theorem flatten_length_sum (lines : List (List Nat)) :
    lines.flatten.length = (lines.map List.length).sum := by
  induction lines with
  | nil => rfl
  | cons l rest ih => simp only [List.flatten_cons, List.length_append, List.map_cons,
      List.sum_cons, ih]

/-- C2, amended: for colour resolutions 2 to 8 and a pixel count `n` of at least 1,
pixels below `2 ^ cr` that go to an encoder of pixel count `n` in lines that are not
empty and are read back from the bytes written by a decoder of pixel count `n` in
calls of 1 to `2 ^ 31 - 1` pixels, with at most `0xffff0000` pixels left after the
first call, come back as they went in, every call succeeding; growth of the code
width and clear codes in the stream are covered by the range of `n`. -/
theorem lzw_round_trip (cr n : Nat) (hcr2 : 2 ≤ cr) (hcr : cr ≤ 8) (hn : 1 ≤ n)
    (lines : List (List Nat)) (ks : List Nat)
    (hlines : ∀ l ∈ lines, l ≠ [] ∧ ∀ x ∈ l, x < 2 ^ cr)
    (hsum : (lines.map List.length).sum = n) (hks : ∀ k ∈ ks, 0 < k ∧ k < 2 ^ 31)
    (hksum : ks.sum = n) (hbig : n - ks.headD 0 ≤ 0xffff0000) :
    ∃ N, ∀ buf : List Nat, N ≤ buf.length →
      ∃ st_e st_d,
        (LZEncoder.new ( GifIO.mk_dev (MemDevice.open_for_write buf)) n cr).put_lines lines =
          some (st_e, true) ∧
        (LZDecoder.new ( GifIO.mk_dev (MemDevice.open_for_read st_e.f.d.written)) n cr).getLines ks
          = some (st_d, cut_lines ks lines.flatten, true) ∧
        st_d.f.e = ErrorCode.ok := by
  refine ⟨((AEnc.init cr n).1 ++ (AEnc.put_lines cr lines (AEnc.init cr n).2).1).length, ?_⟩
  intro buf hbuf
  have hlne : lines ≠ [] := by
    intro h; rw [h] at hsum; simp at hsum; omega
  have hroom : ( GifIO.mk_dev (MemDevice.open_for_write buf)).Room
      ((AEnc.init cr n).1 ++ (AEnc.put_lines cr lines (AEnc.init cr n).2).1).length := by
    show 0 + _ ≤ buf.length
    omega
  obtain ⟨st_e, he, hf, hs⟩ := enc_session cr n hcr2 hcr _ lines (fun l hl => (hlines l hl).1)
    hlne hsum hroom
  have hmask : lines.flatten.map (fun b => b &&& LZEncoder.code_mask.getD cr 0) =
      lines.flatten :=
    map_mask_id cr hcr _ (fun x hx => by
      obtain ⟨l, hl, hxl⟩ := List.mem_flatten.mp hx
      exact (hlines l hl).2 x hxl)
  rw [hmask] at hs
  have hw : st_e.f.d.written =
      (AEnc.init cr n).1 ++ (AEnc.put_lines cr lines (AEnc.init cr n).2).1 := by
    rw [hf]
    show (MemDevice.push _ _).written = _
    rw [MemDevice_push_written _ _ hroom]
    rfl
  have hlen : lines.flatten.length = n := by rw [flatten_length_sum, hsum]
  obtain ⟨st_d, hd, _, hde⟩ := dec_lzw_stream cr hcr
    ( GifIO.mk_dev (MemDevice.open_for_read st_e.f.d.written)) _ lines.flatten [] ks hs
    (by rw [open_for_read_rest, hw, List.append_nil]) hks (by rw [hlen, hksum])
    (ne_nil_of_sum_pos ks (by omega)) (by rw [hlen]; exact hbig)
  rw [hlen] at hd
  exact ⟨st_e, st_d, he, hd, hde⟩

theorem lzw_round_trip_witness :
    ∃ N, ∀ buf : List Nat, N ≤ buf.length →
      ∃ st_e st_d,
        (LZEncoder.new ( GifIO.mk_dev (MemDevice.open_for_write buf)) 5 2).put_lines
          [[0, 1, 0], [1, 3]] = some (st_e, true) ∧
        (LZDecoder.new ( GifIO.mk_dev (MemDevice.open_for_read st_e.f.d.written)) 5 2).getLines
          [1, 4] = some (st_d, cut_lines [1, 4] [[0, 1, 0], [1, 3]].flatten, true) ∧
        st_d.f.e = ErrorCode.ok :=
  lzw_round_trip 2 5 (by decide) (by decide) (by decide) [[0, 1, 0], [1, 3]] [1, 4]
    (by decide) (by decide) (by decide) (by decide) (by decide)

/-- Counterexample of C2 as stated, at the pixel count `n = 2 ^ 33` and colour
resolution 2: whatever the stream holds, so also over the bytes of an encoder of that
pixel count, the first `getLine` call of a decoder of pixel count `n` fails with
`data_too_big` for every line length that an `int` can hold, since more than
`0xffff0000` pixels are left. -/
theorem lzw_round_trip_count_limit :
    ¬ ∃ (io : GifIO) (k : Nat), k < 2 ^ 31 ∧
      ((LZDecoder.new io (2 ^ 33) 2).getLine (toInt32 k)).map (fun r => (r.2.2, r.1.f.e)) ≠
        some (false, ErrorCode.data_too_big) := by
  rintro ⟨io, k, hk, hne⟩
  apply hne
  have hpc : ((((2 ^ 33 : Nat) : Int) - (k : Int)) % 2 ^ 64).toNat = 2 ^ 33 - k :=
    pix_sub (2 ^ 33) k (by omega) (by omega)
  have hbig : 2 ^ 33 - k > 0xffff0000 := by omega
  rw [toInt32_small k hk]
  unfold LZDecoder.getLine
  have hpc2 : (LZDecoder.new io (2 ^ 33) 2).pix_count = 2 ^ 33 := rfl
  simp only [hpc2, hpc, hbig, if_true, Option.map_some']
  rfl

end gif

namespace gif

/-! ## Rows of a pixel buffer -/

theorem row_bound (w j h : Nat) (hj : j < h) : j * w + w ≤ h * w := by
  have : (j + 1) * w ≤ h * w := Nat.mul_le_mul_right w hj
  rw [Nat.add_mul, Nat.one_mul] at this
  exact this

theorem row_length (b : List Nat) (w j : Nat) (h : j * w + w ≤ b.length) :
    (row b w j).length = w := by
  unfold row
  rw [List.length_take, List.length_drop]; omega

theorem set_row_length (b : List Nat) (w j : Nat) (ln : List Nat)
    (h : j * w + w ≤ b.length) (hl : ln.length = w) :
    (set_row b w j ln).length = b.length := by
  unfold set_row
  simp only [List.length_append, List.length_take, List.length_drop]; omega

theorem getElem?_row (b : List Nat) (w j i : Nat) :
    (row b w j)[i]? = if i < w then b[j * w + i]? else none := by
  unfold row
  rw [List.getElem?_take, List.getElem?_drop]

theorem getElem?_set_row (b : List Nat) (w j : Nat) (ln : List Nat)
    (h : j * w + w ≤ b.length) (hl : ln.length = w) (k : Nat) :
    (set_row b w j ln)[k]? =
      if k < j * w then b[k]? else if k < j * w + w then ln[k - j * w]? else b[k]? := by
  unfold set_row
  have hlt : (b.take (j * w)).length = j * w := by rw [List.length_take]; omega
  by_cases h1 : k < j * w
  · rw [if_pos h1, List.append_assoc, List.getElem?_append_left (by omega),
      List.getElem?_take_of_lt h1]
  · rw [if_neg h1, List.append_assoc, List.getElem?_append_right (by omega), hlt]
    by_cases h2 : k < j * w + w
    · rw [if_pos h2, List.getElem?_append_left (by omega)]
    · rw [if_neg h2, List.getElem?_append_right (by omega), List.getElem?_drop, hl]
      congr 1; omega

theorem row_set_row_same (b : List Nat) (w j : Nat) (ln : List Nat)
    (h : j * w + w ≤ b.length) (hl : ln.length = w) : row (set_row b w j ln) w j = ln := by
  apply List.ext_getElem?
  intro i
  rw [getElem?_row, getElem?_set_row b w j ln h hl]
  by_cases hi : i < w
  · rw [if_pos hi, if_neg (by omega), if_pos (by omega)]
    congr 1; omega
  · rw [if_neg hi]
    exact (List.getElem?_eq_none (by omega : ln.length ≤ i)).symm

theorem row_set_row_other (b : List Nat) (w j j1 : Nat) (ln : List Nat)
    (h : j * w + w ≤ b.length) (hl : ln.length = w) (hne : j1 ≠ j) :
    row (set_row b w j ln) w j1 = row b w j1 := by
  apply List.ext_getElem?
  intro i
  rw [getElem?_row, getElem?_row, getElem?_set_row b w j ln h hl]
  by_cases hi : i < w
  · rw [if_pos hi, if_pos hi]
    rcases Nat.lt_or_gt_of_ne hne with hlt | hgt
    · have := row_bound w j1 j hlt
      rw [if_pos (by omega)]
    · have := row_bound w j j1 hgt
      rw [if_neg (by omega), if_neg (by omega)]
  · rw [if_neg hi, if_neg hi]

theorem row_map (f : Nat → Nat) (b : List Nat) (w j : Nat) :
    row (b.map f) w j = (row b w j).map f := by
  unfold row
  rw [List.map_take, List.map_drop]

/-- Two buffers of `h` rows with the same rows are equal. -/
theorem buffer_ext (b1 b2 : List Nat) (w h : Nat) (h1 : b1.length = h * w)
    (h2 : b2.length = h * w) (hr : ∀ j, j < h → row b1 w j = row b2 w j) : b1 = b2 := by
  apply List.ext_getElem?
  intro k
  by_cases hk : k < h * w
  · have hw : 0 < w := by
      rcases Nat.eq_zero_or_pos w with h0 | h0
      · rw [h0] at hk; simp at hk
      · exact h0
    have hj : k / w < h := (Nat.div_lt_iff_lt_mul hw).mpr hk
    have hi : k % w < w := Nat.mod_lt k hw
    have hk2 : k / w * w + k % w = k := Nat.div_add_mod' k w
    have e1 := getElem?_row b1 w (k / w) (k % w)
    have e2 := getElem?_row b2 w (k / w) (k % w)
    rw [if_pos hi, hk2] at e1 e2
    rw [← e1, ← e2, hr _ hj]
  · rw [List.getElem?_eq_none (by omega), List.getElem?_eq_none (by omega)]

theorem flatMap_rows (b : List Nat) (w : Nat) :
    ∀ h : Nat, (List.range h).flatMap (row b w) = b.take (h * w) := by
  intro h
  induction h with
  | zero => simp
  | succ n ih =>
    rw [List.range_succ, List.flatMap_append, ih, Nat.add_mul, Nat.one_mul, List.take_add]
    simp [row]

theorem mask_idem (cr : Nat) (x : Nat) :
    (x &&& LZEncoder.code_mask.getD cr 0) &&& LZEncoder.code_mask.getD cr 0 =
      x &&& LZEncoder.code_mask.getD cr 0 := by
  rw [Nat.and_assoc, Nat.and_self]

theorem map_mask_idem (cr : Nat) (l : List Nat) :
    (l.map (fun b => b &&& LZEncoder.code_mask.getD cr 0)).map
        (fun b => b &&& LZEncoder.code_mask.getD cr 0) =
      l.map (fun b => b &&& LZEncoder.code_mask.getD cr 0) := by
  rw [List.map_map]
  apply List.map_congr_left
  intro x _
  exact mask_idem cr x

end gif

namespace gif

/-! ## The LZW data of an image -/

theorem aenc_save_rows_cons (cr : Nat) (j : Nat) (rest : List Nat) (a : AEnc) (b : List Nat)
    (w : Nat) :
    AEnc.save_rows cr (j :: rest) a b w =
      ((a.put_line cr (row b w j)).1 ++
        (AEnc.save_rows cr rest (a.put_line cr (row b w j)).2.1
          (set_row b w j ((row b w j).map (fun x => x &&& LZEncoder.code_mask.getD cr 0))) w).1,
        (AEnc.save_rows cr rest (a.put_line cr (row b w j)).2.1
          (set_row b w j ((row b w j).map (fun x => x &&& LZEncoder.code_mask.getD cr 0))) w).2) :=
  rfl

/-- The row loops of `Image::save` complete the LZW data of the masked rows and
leave the masked rows in the buffer. -/
theorem lz_save_rows (cr : Nat) (hcr2 : 2 ≤ cr) (hcr : cr ≤ 8) (w h : Nat) (hw : 0 < w)
    (b0 : List Nat) :
    ∀ (rows S : List Nat) (out : List Nat) (a : AEnc) (px b : List Nat),
      LineTr cr out a px → (∀ j ∈ rows, j < h) → rows ≠ [] → rows.length * w = a.pix_count →
      b.length = h * w →
      (∀ j, j < h → row b w j =
        if j ∈ S then (row b0 w j).map (fun x => x &&& LZEncoder.code_mask.getD cr 0)
        else row b0 w j) →
      LzwStream cr (out ++ (AEnc.save_rows cr rows a b w).1)
          (px ++ rows.flatMap
            (fun j => (row b0 w j).map (fun x => x &&& LZEncoder.code_mask.getD cr 0))) ∧
        (AEnc.save_rows cr rows a b w).2.2.length = h * w ∧
        ∀ j, j < h → row (AEnc.save_rows cr rows a b w).2.2 w j =
          if j ∈ rows ++ S then
            (row b0 w j).map (fun x => x &&& LZEncoder.code_mask.getD cr 0)
          else row b0 w j := by
  intro rows
  induction rows with
  | nil => intro S out a px b _ _ hne; exact absurd rfl hne
  | cons j rest ih =>
    intro S out a px b hlt hjs _ hpc hbl hrows
    have hj : j < h := hjs j (List.mem_cons_self _ _)
    have hjb : j * w + w ≤ b.length := by rw [hbl]; exact row_bound w j h hj
    have hrl := row_length b w j hjb
    have hne : row b w j ≠ [] := by
      intro hn; rw [hn] at hrl; simp at hrl; omega
    have hmj : (row b w j).map (fun x => x &&& LZEncoder.code_mask.getD cr 0) =
        (row b0 w j).map (fun x => x &&& LZEncoder.code_mask.getD cr 0) := by
      rw [hrows j hj]
      by_cases hS : j ∈ S
      · rw [if_pos hS, map_mask_idem]
      · rw [if_neg hS]
    have hml : ((row b w j).map (fun x => x &&& LZEncoder.code_mask.getD cr 0)).length = w := by
      rw [List.length_map, hrl]
    have hb1 := set_row_length b w j _ hjb hml
    have hrows1 : ∀ j1, j1 < h →
        row (set_row b w j ((row b w j).map (fun x => x &&& LZEncoder.code_mask.getD cr 0)))
          w j1 =
        if j1 ∈ j :: S then
          (row b0 w j1).map (fun x => x &&& LZEncoder.code_mask.getD cr 0)
        else row b0 w j1 := by
      intro j1 hj1
      by_cases he : j1 = j
      · rw [he, row_set_row_same b w j _ hjb hml, if_pos (List.mem_cons_self _ _), hmj]
      · rw [row_set_row_other b w j j1 _ hjb hml he, hrows j1 hj1]
        by_cases hS : j1 ∈ S
        · rw [if_pos hS, if_pos (List.mem_cons_of_mem _ hS)]
        · rw [if_neg hS, if_neg (by
            intro hm
            rcases List.mem_cons.mp hm with h1 | h1
            · exact he h1
            · exact hS h1)]
    obtain ⟨hz, hnz⟩ := lz_put_line cr hcr2 hcr out a px (row b w j) hne hlt
    rw [hrl] at hz hnz
    simp only [List.length_cons] at hpc
    rw [aenc_save_rows_cons, List.flatMap_cons, ← hmj]
    by_cases hr : rest = []
    · subst hr
      simp only [List.length_nil, Nat.zero_add, Nat.one_mul] at hpc
      have hs := hz (by omega)
      refine ⟨by simpa [AEnc.save_rows] using hs, ?_, ?_⟩
      · show (set_row b w j _).length = h * w
        rw [hb1, hbl]
      · intro j1 hj1
        show row (set_row b w j _) w j1 = _
        rw [hrows1 j1 hj1]
        rfl
    · have hpos : 0 < rest.length := List.length_pos.mpr hr
      have hnzw : a.pix_count - w ≠ 0 := by
        rw [← hpc, Nat.add_mul, Nat.one_mul, Nat.add_sub_cancel]
        exact Nat.ne_of_gt (Nat.mul_pos hpos hw)
      obtain ⟨h1, h2⟩ := hnz hnzw
      obtain ⟨i1, i2, i3⟩ := ih (j :: S) (out ++ (a.put_line cr (row b w j)).1)
        (a.put_line cr (row b w j)).2.1 _ _ h1
        (fun k hk => hjs k (List.mem_cons_of_mem _ hk)) hr
        (by rw [h2, ← hpc, Nat.add_mul, Nat.one_mul, Nat.add_sub_cancel])
        (by rw [hb1, hbl]) hrows1
      rw [List.append_assoc, List.append_assoc] at i1
      dsimp only
      refine ⟨i1, i2, ?_⟩
      intro j1 hj1
      rw [i3 j1 hj1]
      have hiff : j1 ∈ rest ++ j :: S ↔ j1 ∈ j :: rest ++ S := by
        simp only [List.mem_append, List.mem_cons]
        constructor
        · rintro (h3 | h3 | h3)
          · exact Or.inl (Or.inr h3)
          · exact Or.inl (Or.inl h3)
          · exact Or.inr h3
        · rintro ((h3 | h3) | h3)
          · exact Or.inr (Or.inl h3)
          · exact Or.inl h3
          · exact Or.inr (Or.inr h3)
      by_cases hm : j1 ∈ rest ++ j :: S
      · rw [if_pos hm, if_pos (hiff.mp hm)]
      · rw [if_neg hm, if_neg (fun hh => hm (hiff.mpr hh))]

end gif

namespace gif

/-! ## The LZW data of an image, continued -/

theorem rows_mem (img : Image) (j : Nat) : j ∈ img.rows ↔ j < img.rect.height := by
  unfold Image.rows
  by_cases h : img.interlace
  · rw [if_pos h, interlace_rows_mem]
  · rw [if_neg h, plain_rows, List.mem_range]

/-- The LZW data that `Image::save` writes is a stream of the masked rows in the
order of the row loops, and the buffer is left with every byte masked. -/
theorem img_lzw_stream (cr : Nat) (hcr2 : 2 ≤ cr) (hcr : cr ≤ 8) (img : Image)
    (hw : 0 < img.rect.s.wd) (hh : 0 < img.rect.s.ht) (hw16 : img.rect.s.wd < 65536)
    (hh16 : img.rect.s.ht < 65536) (hb : img.b.length = img.rect.s.ht * img.rect.s.wd) :
    LzwStream cr (lzw_bytes cr img)
        (img.rows.flatMap (fun j =>
          row (img.b.map (fun x => x &&& LZEncoder.code_mask.getD cr 0)) img.rect.s.wd j)) ∧
      masked_b cr img = img.b.map (fun x => x &&& LZEncoder.code_mask.getD cr 0) := by
  have hi := lz_init cr img.rect.area hcr2 hcr
  have hp := (aenc_init_props cr img.rect.area (by omega)).2.2
  have hne : img.rows ≠ [] := by
    intro hn
    have := rows_length img
    rw [hn] at this
    simp only [List.length_nil, Rect.height] at this
    omega
  obtain ⟨h1, h2, h3⟩ := lz_save_rows cr hcr2 hcr img.rect.s.wd img.rect.s.ht hw img.b
    img.rows [] (AEnc.init cr img.rect.area).1 (AEnc.init cr img.rect.area).2 [] img.b hi.1
    (fun j hj => (rows_mem img j).mp hj) hne
    (by rw [hp, rows_length, area_eq img.rect hw16 hh16, Nat.mul_comm]; rfl) hb
    (fun j _ => by rw [if_neg (List.not_mem_nil _)])
  constructor
  · have he : (fun j => row (img.b.map (fun x => x &&& LZEncoder.code_mask.getD cr 0))
          img.rect.s.wd j) =
        (fun j => (row img.b img.rect.s.wd j).map
          (fun x => x &&& LZEncoder.code_mask.getD cr 0)) := by
      funext j
      exact row_map _ _ _ _
    rw [he]
    simpa [lzw_bytes, Rect.width] using h1
  · apply buffer_ext _ _ img.rect.s.wd img.rect.s.ht h2 (by rw [List.length_map, hb])
    intro j hj
    show row (AEnc.save_rows cr img.rows (AEnc.init cr img.rect.area).2 img.b
      img.rect.s.wd).2.2 img.rect.s.wd j = _
    rw [h3 j hj, if_pos (by
      rw [List.append_nil]
      exact (rows_mem img j).mpr hj), row_map]

end gif

namespace gif

/-! ## Decoder: the row loops of `Image::load` -/

theorem flatMap_rows_length (bm : List Nat) (w h : Nat) (hbm : bm.length = h * w) :
    ∀ rows : List Nat, (∀ j ∈ rows, j < h) →
      (rows.flatMap (row bm w)).length = rows.length * w := by
  intro rows
  induction rows with
  | nil => intro _; simp
  | cons j rest ih =>
    intro hj
    rw [List.flatMap_cons, List.length_append, ih (fun k hk => hj k (List.mem_cons_of_mem _ hk)),
      row_length bm w j (by rw [hbm]; exact row_bound w j h (hj j (List.mem_cons_self _ _))),
      List.length_cons, Nat.add_mul, Nat.one_mul, Nat.add_comm]

/-- The interlaced row loops of `Image::load` on a stream of the rows of `bm`: every
row listed is stored at its place in the buffer. -/
theorem dec_load_rows (cr : Nat) (hcr : cr ≤ 8) (w h : Nat) (hw : 0 < w) (hw16 : w < 65536)
    (bm tail : List Nat) (hbm : bm.length = h * w) :
    ∀ (rows : List Nat) (st : LZDecoder) (b : List Nat),
      rows ≠ [] → (∀ j ∈ rows, j < h) → DecCfg cr st (rows.flatMap (row bm w)) tail →
      st.pix_count = rows.length * w → rows.length * w ≤ 0xffff0000 → b.length = h * w →
      ∃ st1 b1, Image.load_rows rows st b w = some (st1, b1, true) ∧ st1.f.d.rest = tail ∧
        st1.f.e = st.f.e ∧ b1.length = h * w ∧
        ∀ j, j < h → row b1 w j = if j ∈ rows then row bm w j else row b w j := by
  intro rows
  induction rows with
  | nil => intro st b hne; exact absurd rfl hne
  | cons j rest ih =>
    intro st b _ hjs hcfg hpc hbig hbl
    have hj : j < h := hjs j (List.mem_cons_self _ _)
    have hrest : ∀ k ∈ rest, k < h := fun k hk => hjs k (List.mem_cons_of_mem _ hk)
    have hjb : j * w + w ≤ b.length := by rw [hbl]; exact row_bound w j h hj
    have hrl : (row bm w j).length = w :=
      row_length bm w j (by rw [hbm]; exact row_bound w j h hj)
    have hpl : ((j :: rest).flatMap (row bm w)).length = (rest.length + 1) * w := by
      rw [flatMap_rows_length bm w h hbm (j :: rest) hjs, List.length_cons]
    have hrestl := flatMap_rows_length bm w h hbm rest hrest
    simp only [List.length_cons] at hpc hbig
    have hmul : (rest.length + 1) * w = rest.length * w + w := by
      rw [Nat.add_mul, Nat.one_mul]
    obtain ⟨st1, hg, he, hp1, hlt, heq⟩ := dec_getLine cr hcr st
      ((j :: rest).flatMap (row bm w)) tail w hcfg (by rw [hpl]; omega) (by rw [hpl, hpc])
      (by rw [hpl]; omega)
    have htake : ((j :: rest).flatMap (row bm w)).take w = row bm w j := by
      rw [List.flatMap_cons, List.take_left' hrl]
    have hdrop : ((j :: rest).flatMap (row bm w)).drop w = rest.flatMap (row bm w) := by
      rw [List.flatMap_cons, List.drop_left' hrl]
    rw [htake] at hg
    rw [hdrop] at hlt
    have hb1 : b.take (j * w) ++ row bm w j ++ b.drop (j * w + (row bm w j).length) =
        set_row b w j (row bm w j) := by
      rw [hrl]; rfl
    have hb1l := set_row_length b w j (row bm w j) hjb hrl
    have hrows1 : ∀ j1, j1 < h → row (set_row b w j (row bm w j)) w j1 =
        if j1 = j then row bm w j else row b w j1 := by
      intro j1 _
      by_cases hq : j1 = j
      · rw [if_pos hq, hq, row_set_row_same b w j _ hjb hrl]
      · rw [if_neg hq, row_set_row_other b w j j1 _ hjb hrl hq]
    have hstep : Image.load_rows (j :: rest) st b w =
        Image.load_rows rest st1 (set_row b w j (row bm w j)) w := by
      rw [Image.load_rows, toInt32_small w (by omega), hg]
      simp only [hb1, Bool.not_true, Bool.false_eq_true, if_false]
    rw [hstep]
    by_cases hr : rest = []
    · subst hr
      simp only [List.length_nil, Nat.zero_mul, Nat.zero_add] at hpl
      refine ⟨st1, set_row b w j (row bm w j), rfl, heq (by rw [hpl]; omega), he,
        by rw [hb1l, hbl], ?_⟩
      intro j1 hj1
      rw [hrows1 j1 hj1]
      by_cases hq : j1 = j
      · rw [if_pos hq, if_pos (by rw [hq]; exact List.mem_cons_self _ _), hq]
      · rw [if_neg hq, if_neg (by
          intro hm
          rcases List.mem_cons.mp hm with h1 | h1
          · exact hq h1
          · exact absurd h1 (List.not_mem_nil _))]
    · have hpos : 0 < rest.length := List.length_pos.mpr hr
      have hposw : 0 < rest.length * w := Nat.mul_pos hpos hw
      obtain ⟨st2, b2, i1, i2, i3, i4, i5⟩ := ih st1 (set_row b w j (row bm w j)) hr hrest
        (hlt (by rw [hpl]; omega)) (by rw [hp1, hpl]; omega) (by omega) (by rw [hb1l, hbl])
      refine ⟨st2, b2, i1, i2, by rw [i3, he], i4, ?_⟩
      intro j1 hj1
      rw [i5 j1 hj1, hrows1 j1 hj1]
      by_cases hm : j1 ∈ rest
      · rw [if_pos hm, if_pos (List.mem_cons_of_mem _ hm)]
      · rw [if_neg hm]
        by_cases hq : j1 = j
        · rw [if_pos hq, if_pos (by rw [hq]; exact List.mem_cons_self _ _), hq]
        · rw [if_neg hq, if_neg (by
            intro hm2
            rcases List.mem_cons.mp hm2 with h1 | h1
            · exact hq h1
            · exact hm h1)]

end gif

namespace gif

/-! ## Session: reading the records -/

theorem MemDevice_read_n (dev : MemDevice) (n : Nat) (bs tl : List Nat) (hl : bs.length = n)
    (h : dev.rest = bs ++ tl) : dev.read n = (dev.skip n, bs) := by
  subst hl
  exact MemDevice_read_rest dev bs tl h

theorem GifIO_skip_rest_n (io : GifIO) (n : Nat) (bs tl : List Nat) (hl : bs.length = n)
    (h : io.d.rest = bs ++ tl) : (io.skip n).d.rest = tl := by
  subst hl
  exact GifIO_skip_rest_of io bs tl h

/-- The two bytes of a 16 bit word give the word back. -/
theorem word_value (w : Nat) (hw : w < 65536) :
    (w &&& 0xff) ||| (((w >>> 8) &&& 0xff) <<< 8) = w := by
  have h1 : w &&& 0xff = w % 2 ^ 8 := Nat.and_pow_two_sub_one_eq_mod w 8
  have h2 : (w >>> 8) &&& 0xff = (w >>> 8) % 2 ^ 8 := Nat.and_pow_two_sub_one_eq_mod _ 8
  have h3 : w >>> 8 = w / 2 ^ 8 := Nat.shiftRight_eq_div_pow w 8
  have h4 : w / 2 ^ 8 < 2 ^ 8 := by omega
  have h5 : w % 2 ^ 8 < 2 ^ 8 := Nat.mod_lt _ (by norm_num)
  rw [h1, h2, h3, Nat.mod_eq_of_lt h4, Nat.lor_comm, Nat.shiftLeft_eq, Nat.mul_comm,
    ← Nat.mul_add_lt_is_or h5]
  omega

theorem GifIO_read_word_rest (io : GifIO) (w : Nat) (tl : List Nat) (hw : w < 65536)
    (h : io.d.rest = word_bytes w ++ tl) : io.read_word = (io.skip 2, w, true) := by
  have hr := MemDevice_read_n io.d 2 (word_bytes w) tl rfl h
  unfold GifIO.read_word
  rw [hr]
  have hv := word_value w hw
  simp only [word_bytes, List.length_cons, List.length_nil, Nat.zero_add, bne_self_eq_false,
    Bool.false_eq_true, if_false, List.getD_cons_zero, List.getD_cons_succ, hv, GifIO.skip]

theorem GifIO_read_size_rest (io : GifIO) (s : Size) (tl : List Nat) (hw : s.wd < 65536)
    (hh : s.ht < 65536) (h : io.d.rest = size_bytes s ++ tl) :
    io.read_size = (io.skip 4, s, true) := by
  have h1 : io.d.rest = word_bytes s.wd ++ (word_bytes s.ht ++ tl) := by
    rw [h, size_bytes, List.append_assoc]
  have h2 := GifIO_skip_rest_n io 2 (word_bytes s.wd) _ rfl h1
  unfold GifIO.read_size
  rw [GifIO_read_word_rest io s.wd _ hw h1]
  simp only [Bool.not_true, Bool.false_eq_true, if_false]
  rw [GifIO_read_word_rest (io.skip 2) s.ht _ hh h2, GifIO_skip_skip]
  simp only [Bool.not_true, Bool.false_eq_true, if_false]

theorem GifIO_read_point_rest (io : GifIO) (p : Point) (tl : List Nat) (hx : p.x_val < 65536)
    (hy : p.y_val < 65536) (h : io.d.rest = point_bytes p ++ tl) :
    io.read_point = (io.skip 4, p, true) := by
  have h1 : io.d.rest = word_bytes p.x_val ++ (word_bytes p.y_val ++ tl) := by
    rw [h, point_bytes, List.append_assoc]
  have h2 := GifIO_skip_rest_n io 2 (word_bytes p.x_val) _ rfl h1
  unfold GifIO.read_point
  rw [GifIO_read_word_rest io p.x_val _ hx h1]
  simp only [Bool.not_true, Bool.false_eq_true, if_false]
  rw [GifIO_read_word_rest (io.skip 2) p.y_val _ hy h2, GifIO_skip_skip]
  simp only [Bool.not_true, Bool.false_eq_true, if_false]

/-- A rect of 16 bit members. -/
theorem GifIO_read_rect_rest (io : GifIO) (r : Rect) (tl : List Nat) (hx : r.p.x_val < 65536)
    (hy : r.p.y_val < 65536) (hw : r.s.wd < 65536) (hh : r.s.ht < 65536)
    (h : io.d.rest = rect_bytes r ++ tl) : io.read_rect = (io.skip 8, r, true) := by
  have h1 : io.d.rest = point_bytes r.p ++ (size_bytes r.s ++ tl) := by
    rw [h, rect_bytes, List.append_assoc]
  have h2 := GifIO_skip_rest_n io 4 (point_bytes r.p) _ rfl h1
  unfold GifIO.read_rect
  rw [GifIO_read_point_rest io r.p _ hx hy h1]
  simp only [Bool.not_true, Bool.false_eq_true, if_false]
  rw [GifIO_read_size_rest (io.skip 4) r.s _ hw hh h2, GifIO_skip_skip]
  simp only [Bool.not_true, Bool.false_eq_true, if_false]

theorem GifIO_read_rgb_rest (io : GifIO) (c : RGB) (tl : List Nat)
    (h : io.d.rest = [c.r_val, c.g_val, c.b_val] ++ tl) :
    io.read_rgb = (io.skip 3, c, true) := by
  have hr := MemDevice_read_n io.d 3 [c.r_val, c.g_val, c.b_val] tl rfl h
  unfold GifIO.read_rgb
  rw [hr]
  simp only [List.length_cons, List.length_nil, Nat.zero_add, bne_self_eq_false,
    Bool.false_eq_true, if_false, List.getD_cons_zero, List.getD_cons_succ, GifIO.skip]

/-- The tag byte of a record. -/
theorem GifIO_read_record_rest (io : GifIO) (b : Nat) (tl : List Nat) (h : io.d.rest = b :: tl) :
    io.read_record =
      if b = Gif_descriptor then (io.skip 1, GifRecordType.image_desc, true)
      else if b = Gif_extension then (io.skip 1, GifRecordType.extension, true)
      else if b = Gif_terminator then (io.skip 1, GifRecordType.terminate, true)
      else ((io.skip 1).set_error ErrorCode.wrong_record, GifRecordType.undefined, false) := by
  unfold GifIO.read_record
  rw [GifIO_read_byte_rest io b tl h]
  simp only [Bool.not_true, Bool.false_eq_true, if_false]

/-! ### Palettes -/

theorem cm_load_loop (c : List RGB) :
    ∀ (cm : ColorMap) (io : GifIO) (tl : List Nat), io.d.rest = rgbs_bytes c ++ tl →
      ∃ io1, ColorMap.load_loop c.length cm io = ({ cm with c := cm.c ++ c }, io1, true) ∧
        io1.d.rest = tl ∧ io1.e = io.e := by
  induction c with
  | nil =>
    intro cm io tl h
    refine ⟨io, ?_, by simpa [rgbs_bytes] using h, rfl⟩
    simp only [List.length_nil, ColorMap.load_loop, List.append_nil]
  | cons x rest ih =>
    intro cm io tl h
    have h1 : io.d.rest = [x.r_val, x.g_val, x.b_val] ++ (rgbs_bytes rest ++ tl) := by
      rw [h, rgbs_bytes_cons, List.append_assoc]
    have h2 := GifIO_skip_rest_n io 3 [x.r_val, x.g_val, x.b_val] _ rfl h1
    obtain ⟨io1, e1, e2, e3⟩ := ih { cm with c := cm.c ++ [x] } (io.skip 3) tl h2
    refine ⟨io1, ?_, e2, e3⟩
    rw [List.length_cons, ColorMap.load_loop, GifIO_read_rgb_rest io x _ h1]
    simp only [Bool.not_true, Bool.false_eq_true, if_false]
    rw [e1]
    simp only [List.append_assoc, List.singleton_append]

/-- `ColorMap::load` of a palette that holds exactly `2 ^ r` entries. -/
theorem cm_load (m : ColorMap) (hl : m.c.length = 2 ^ m.r) (io : GifIO) (tl : List Nat)
    (h : io.d.rest = rgbs_bytes m.c ++ tl) :
    ∃ io1, (ColorMap.new m.r).load io = (m, io1, true) ∧ io1.d.rest = tl ∧ io1.e = io.e := by
  obtain ⟨io1, e1, e2, e3⟩ := cm_load_loop m.c (ColorMap.new m.r) io tl h
  refine ⟨io1, ?_, e2, e3⟩
  unfold ColorMap.load
  have hr : (ColorMap.new m.r).r = m.r := rfl
  rw [hr, ← hl, e1]
  simp only [ColorMap.new, List.nil_append]

end gif

namespace gif

/-! ## Extensions: loading -/

theorem ext_load_chunk (io : GifIO) (ch tl : List Nat) (h1 : 1 ≤ ch.length)
    (h2 : ch.length ≤ 255) (h : io.d.rest = (ch.length % 256) :: (ch ++ tl)) :
    ∃ io1, Extension.load_chunk io = (io1, ch, false, true) ∧ io1.d.rest = tl ∧
      io1.e = io.e := by
  have hm : ch.length % 256 = ch.length := Nat.mod_eq_of_lt (by omega)
  rw [hm] at h
  have hs : (io.skip 1).d.rest = ch ++ tl := GifIO_skip_rest_n io 1 [ch.length] _ rfl h
  refine ⟨(io.skip 1).skip ch.length, ?_, GifIO_skip_rest_of _ ch tl hs, rfl⟩
  unfold Extension.load_chunk
  rw [GifIO_read_byte_rest io _ _ h]
  have hne : ¬ ch.length = 0 := by omega
  simp only [Bool.not_true, Bool.false_eq_true, if_false, hne]
  rw [GifIO_read_bytes_rest (io.skip 1) ch tl hs]
  simp only [Bool.not_true, Bool.false_eq_true, if_false]

theorem ext_load_chunk_end (io : GifIO) (tl : List Nat) (h : io.d.rest = 0 :: tl) :
    Extension.load_chunk io = (io.skip 1, [], true, true) := by
  unfold Extension.load_chunk
  rw [GifIO_read_byte_rest io _ _ h]
  simp only [Bool.not_true, Bool.false_eq_true, if_false, if_true]

theorem ext_load_loop (tl : List Nat) (l : List (List Nat)) :
    ∀ (ext : Extension) (io : GifIO) (fuel : Nat),
      (∀ ch ∈ l, 1 ≤ ch.length ∧ ch.length ≤ 255) →
      io.d.rest = chunks_bytes l ++ 0 :: tl → l.length < fuel →
      ∃ io1, Extension.load_loop fuel ext io =
          some ({ ext with list := ext.list ++ l }, io1, true) ∧
        io1.d.rest = tl ∧ io1.e = io.e := by
  induction l with
  | nil =>
    intro ext io fuel _ h hf
    have h1 : io.d.rest = 0 :: tl := by simpa [chunks_bytes] using h
    obtain ⟨n, rfl⟩ : ∃ n, fuel = n + 1 := ⟨fuel - 1, by omega⟩
    refine ⟨io.skip 1, ?_, GifIO_skip_rest_n io 1 [0] _ rfl h1, rfl⟩
    rw [Extension.load_loop, ext_load_chunk_end io tl h1]
    simp only [Bool.not_true, Bool.false_eq_true, if_false, if_true, List.append_nil]
  | cons ch rest ih =>
    intro ext io fuel hv h hf
    obtain ⟨n, rfl⟩ : ∃ n, fuel = n + 1 := ⟨fuel - 1, by omega⟩
    obtain ⟨hc1, hc2⟩ := hv ch (List.mem_cons_self _ _)
    have h1 : io.d.rest = (ch.length % 256) :: (ch ++ (chunks_bytes rest ++ 0 :: tl)) := by
      rw [h, chunks_bytes_cons]
      simp only [List.cons_append, List.append_assoc]
    obtain ⟨io1, e1, e2, e3⟩ := ext_load_chunk io ch _ hc1 hc2 h1
    obtain ⟨io2, f1, f2, f3⟩ := ih { ext with list := ext.list ++ [ch] } io1 n
      (fun c hc => hv c (List.mem_cons_of_mem _ hc)) e2
      (by simp only [List.length_cons] at hf; omega)
    refine ⟨io2, ?_, f2, by rw [f3, e3]⟩
    rw [Extension.load_loop, e1]
    simp only [Bool.not_true, Bool.false_eq_true, if_false]
    rw [f1]
    simp only [List.append_assoc, List.singleton_append]

theorem chunks_bytes_length (l : List (List Nat)) : l.length ≤ (chunks_bytes l).length := by
  induction l with
  | nil => simp
  | cons c rest ih =>
    rw [chunks_bytes_cons]
    simp only [List.length_cons, List.length_append]
    omega

/-- `Extension::load` after the tag byte of an extension record. -/
theorem ext_load (e : Extension) (hv : e.Valid) (io : GifIO) (tl : List Nat)
    (h : io.d.rest = (e.fn % 256) :: (chunks_bytes e.list ++ 0 :: tl)) :
    ∃ io1, Extension.new.load io = some (e, io1, true) ∧ io1.d.rest = tl ∧ io1.e = io.e := by
  obtain ⟨hfn, hch⟩ := hv
  have hm : e.fn % 256 = e.fn := Nat.mod_eq_of_lt hfn
  rw [hm] at h
  have hs : (io.skip 1).d.rest = chunks_bytes e.list ++ 0 :: tl :=
    GifIO_skip_rest_n io 1 [e.fn] _ rfl h
  have hfuel : e.list.length < (io.skip 1).d.bytesLeft + 1 := by
    rw [MemDevice_bytesLeft_eq, hs, List.length_append]
    have := chunks_bytes_length e.list
    omega
  obtain ⟨io1, e1, e2, e3⟩ := ext_load_loop tl e.list { Extension.new with fn := e.fn }
    (io.skip 1) _ hch hs hfuel
  refine ⟨io1, ?_, e2, e3⟩
  unfold Extension.load
  rw [GifIO_read_byte_rest io _ _ h]
  simp only [Bool.not_true, Bool.false_eq_true, if_false]
  rw [e1]
  simp only [Extension.new, List.nil_append]

end gif

namespace gif

/-! ## Images: loading -/

/-- The bits of the flags byte of a descriptor with a local palette. -/
theorem descr_flag_bits_some (il : Bool) (r : Nat) (h1 : 1 ≤ r) (h8 : r ≤ 8) :
    (((0x80 ||| (if il = true then 0x40 else 0x00) ||| ((r + 255) % 256)) &&& 0x80) != 0) = true ∧
      (((0x80 ||| (if il = true then 0x40 else 0x00) ||| ((r + 255) % 256)) &&& 0x40) != 0) = il ∧
      ((0x80 ||| (if il = true then 0x40 else 0x00) ||| ((r + 255) % 256)) &&& 0x07) + 1 = r := by
  interval_cases r <;> cases il <;> decide

/-- The bits of the flags byte of a descriptor without local palette. -/
theorem descr_flag_bits_none (il : Bool) :
    (((0x00 ||| (if il = true then 0x40 else 0x00) ||| 0) &&& 0x80) != 0) = false ∧
      (((0x00 ||| (if il = true then 0x40 else 0x00) ||| 0) &&& 0x40) != 0) = il := by
  cases il <;> decide

/-- `Image::load_desc` after the tag byte of a descriptor record. -/
theorem img_load_desc (img : Image) (hx : img.rect.p.x_val < 65536)
    (hy : img.rect.p.y_val < 65536) (hw : img.rect.s.wd < 65536) (hh : img.rect.s.ht < 65536)
    (hcm : ∀ c, img.cm = some c → c.Valid) (io : GifIO) (tl : List Nat)
    (h : io.d.rest = rect_bytes img.rect ++ descr_flags img :: (cm_bytes img.cm ++ tl)) :
    ∃ io1, Image.new.load_desc io =
        ({ interlace := img.interlace, exts := [], rect := img.rect, b := [], cm := img.cm },
          io1, true) ∧
      io1.d.rest = tl ∧ io1.e = io.e := by
  have h2 : (io.skip 8).d.rest = descr_flags img :: (cm_bytes img.cm ++ tl) :=
    GifIO_skip_rest_n io 8 (rect_bytes img.rect) _ rfl h
  have h3 : ((io.skip 8).skip 1).d.rest = cm_bytes img.cm ++ tl :=
    GifIO_skip_rest_n (io.skip 8) 1 [descr_flags img] _ rfl h2
  unfold Image.load_desc
  rw [GifIO_read_rect_rest io img.rect _ hx hy hw hh h]
  simp only [Bool.not_true, Bool.false_eq_true, if_false]
  rw [GifIO_read_byte_rest (io.skip 8) _ _ h2]
  simp only [Bool.not_true, Bool.false_eq_true, if_false]
  cases hc : img.cm with
  | none =>
    obtain ⟨f1, f2⟩ := descr_flag_bits_none img.interlace
    have hf : descr_flags img = (0x00 ||| (if img.interlace = true then 0x40 else 0x00) ||| 0) := by
      simp only [descr_flags, hc, Option.isSome_none, Bool.false_eq_true, if_false]
    rw [hc] at h3
    refine ⟨(io.skip 8).skip 1, ?_, by simpa [cm_bytes] using h3, rfl⟩
    rw [hf, f1, f2]
    simp only [Bool.false_eq_true, if_false, Image.new]
  | some c =>
    obtain ⟨c1, c8, cl⟩ := hcm c hc
    obtain ⟨f1, f2, f3⟩ := descr_flag_bits_some img.interlace c.r c1 c8
    have hf : descr_flags img =
        (0x80 ||| (if img.interlace = true then 0x40 else 0x00) ||| ((c.r + 255) % 256)) := by
      simp only [descr_flags, hc, Option.isSome_some, if_true]
    rw [hc] at h3
    obtain ⟨io1, e1, e2, e3⟩ := cm_load c cl ((io.skip 8).skip 1) tl
      (by simpa [cm_bytes] using h3)
    refine ⟨io1, ?_, e2, e3⟩
    rw [hf, f1, f2, f3]
    simp only [if_true, e1, Bool.not_true, Bool.false_eq_true, if_false, Image.new]

end gif

namespace gif

/-! ## Images: loading the pixels -/

theorem resize_nil (n : Nat) : resize [] n = List.replicate n 0 := by
  simp [resize]

/-- The interlaced branch of `Image::load` on the LZW data of the image. -/
theorem img_load_interlaced (cr : Nat) (hcr2 : 2 ≤ cr) (hcr : cr ≤ 8) (img : Image)
    (hi : img.interlace = true)
    (hw : 0 < img.rect.s.wd) (hh : 0 < img.rect.s.ht) (hw16 : img.rect.s.wd < 65536)
    (hh16 : img.rect.s.ht < 65536) (hb : img.b.length = img.rect.s.wd * img.rect.s.ht)
    (hlim : img.rect.s.wd * img.rect.s.ht < 2 ^ 31) (io : GifIO) (tl : List Nat)
    (h : io.d.rest = lzw_bytes cr img ++ tl) :
    ∃ st1, Image.load_rows (interlace_rows img.rect.s.ht)
          (LZDecoder.new io (img.rect.s.wd * img.rect.s.ht) cr)
          (List.replicate (img.rect.s.wd * img.rect.s.ht) 0) img.rect.s.wd =
        some (st1, img.b.map (fun x => x &&& LZEncoder.code_mask.getD cr 0), true) ∧
      st1.f.d.rest = tl ∧ st1.f.e = io.e := by
  have hb2 : img.b.length = img.rect.s.ht * img.rect.s.wd := by rw [hb, Nat.mul_comm]
  obtain ⟨hs, _⟩ := img_lzw_stream cr hcr2 hcr img hw hh hw16 hh16 hb2
  have hrows : img.rows = interlace_rows img.rect.s.ht := by
    unfold Image.rows
    rw [if_pos hi]; rfl
  rw [hrows] at hs
  have hcfg := dec_new_cfg cr hcr io (img.rect.s.wd * img.rect.s.ht) _ _ tl hs h
  have hlen : (interlace_rows img.rect.s.ht).length = img.rect.s.ht := by
    rw [(interlace_rows_perm_range _).length_eq, List.length_range]
  have hne : interlace_rows img.rect.s.ht ≠ [] := by
    intro hn
    rw [hn] at hlen
    simp only [List.length_nil] at hlen
    omega
  obtain ⟨st1, b1, e1, e2, e3, e4, e5⟩ := dec_load_rows cr hcr img.rect.s.wd img.rect.s.ht hw
    hw16 (img.b.map (fun x => x &&& LZEncoder.code_mask.getD cr 0)) tl
    (by rw [List.length_map, hb2]) (interlace_rows img.rect.s.ht)
    (LZDecoder.new io (img.rect.s.wd * img.rect.s.ht) cr)
    (List.replicate (img.rect.s.wd * img.rect.s.ht) 0) hne
    (fun j hj => (interlace_rows_mem _ j).mp hj) hcfg
    (by rw [hlen, Nat.mul_comm]; rfl) (by rw [hlen, Nat.mul_comm]; omega)
    (by rw [List.length_replicate, Nat.mul_comm])
  have hb1 : b1 = img.b.map (fun x => x &&& LZEncoder.code_mask.getD cr 0) := by
    apply buffer_ext _ _ img.rect.s.wd img.rect.s.ht e4 (by rw [List.length_map, hb2])
    intro j hj
    rw [e5 j hj, if_pos ((interlace_rows_mem _ j).mpr hj)]
  rw [hb1] at e1
  exact ⟨st1, e1, e2, e3⟩

/-- The plain branch of `Image::load` on the LZW data of the image. -/
theorem img_load_plain (cr : Nat) (hcr2 : 2 ≤ cr) (hcr : cr ≤ 8) (img : Image)
    (hi : img.interlace = false)
    (hw : 0 < img.rect.s.wd) (hh : 0 < img.rect.s.ht) (hw16 : img.rect.s.wd < 65536)
    (hh16 : img.rect.s.ht < 65536) (hb : img.b.length = img.rect.s.wd * img.rect.s.ht)
    (hlim : img.rect.s.wd * img.rect.s.ht < 2 ^ 31) (io : GifIO) (tl : List Nat)
    (h : io.d.rest = lzw_bytes cr img ++ tl) :
    ∃ st1, (LZDecoder.new io (img.rect.s.wd * img.rect.s.ht) cr).getLine
          (toInt32 (img.rect.s.wd * img.rect.s.ht)) =
        some (st1, img.b.map (fun x => x &&& LZEncoder.code_mask.getD cr 0), true) ∧
      st1.f.d.rest = tl ∧ st1.f.e = io.e := by
  have hb2 : img.b.length = img.rect.s.ht * img.rect.s.wd := by rw [hb, Nat.mul_comm]
  obtain ⟨hs, _⟩ := img_lzw_stream cr hcr2 hcr img hw hh hw16 hh16 hb2
  have hrows : img.rows = List.range img.rect.s.ht := by
    unfold Image.rows
    rw [hi]; rfl
  have hpx : (List.range img.rect.s.ht).flatMap
      (fun j => row (img.b.map (fun x => x &&& LZEncoder.code_mask.getD cr 0))
        img.rect.s.wd j) = img.b.map (fun x => x &&& LZEncoder.code_mask.getD cr 0) := by
    have := flatMap_rows (img.b.map (fun x => x &&& LZEncoder.code_mask.getD cr 0))
      img.rect.s.wd img.rect.s.ht
    rw [List.take_of_length_le (by rw [List.length_map, hb2])] at this
    exact this
  rw [hrows, hpx] at hs
  have hcfg := dec_new_cfg cr hcr io (img.rect.s.wd * img.rect.s.ht) _ _ tl hs h
  have hlen : (img.b.map (fun x => x &&& LZEncoder.code_mask.getD cr 0)).length =
      img.rect.s.wd * img.rect.s.ht := by rw [List.length_map, hb]
  obtain ⟨st1, e1, e2, _, _, e5⟩ := dec_getLine cr hcr
    (LZDecoder.new io (img.rect.s.wd * img.rect.s.ht) cr) _ tl (img.rect.s.wd * img.rect.s.ht)
    hcfg (by rw [hlen]) (by rw [hlen]; rfl) (by rw [hlen]; omega)
  rw [toInt32_small _ hlim]
  refine ⟨st1, ?_, e5 hlen.symm, e2⟩
  rw [e1, List.take_of_length_le (by rw [hlen])]

end gif

namespace gif

/-! ## Images: `Image::load` -/

/-- `Image::load` after the tag byte of a descriptor record, on the bytes that
`Image::save` wrote with the code size `cr`: the frame comes back without
extensions and with every pixel masked. -/
theorem img_load (cr : Nat) (hcr2 : 2 ≤ cr) (hcr : cr ≤ 8) (img : Image)
    (gcm : Option ColorMap) (hv : img.Valid gcm)
    (hlim : img.rect.s.wd * img.rect.s.ht < 2 ^ 31) (io : GifIO) (tl : List Nat)
    (h : io.d.rest = rect_bytes img.rect ++
      descr_flags img :: (cm_bytes img.cm ++ cr :: (lzw_bytes cr img ++ tl))) :
    ∃ io1, Image.new.load io =
        some ({ img with exts := [],
                         b := img.b.map (fun x => x &&& LZEncoder.code_mask.getD cr 0) },
          io1, true) ∧
      io1.d.rest = tl ∧ io1.e = io.e := by
  obtain ⟨hx, hy, hw16, hh16, hw, hh, hb, _, hcm, _⟩ := hv
  obtain ⟨io1, e1, e2, e3⟩ := img_load_desc img hx hy hw16 hh16 hcm io _ h
  have h2 : (io1.skip 1).d.rest = lzw_bytes cr img ++ tl :=
    GifIO_skip_rest_n io1 1 [cr] _ rfl e2
  have ha : img.rect.area = img.rect.s.wd * img.rect.s.ht := area_eq img.rect hw16 hh16
  unfold Image.load
  rw [e1]
  simp only [Bool.not_true, Bool.false_eq_true, if_false]
  rw [GifIO_read_byte_rest io1 cr _ e2]
  simp only [Bool.not_true, Bool.false_eq_true, if_false, ha, resize_nil, Rect.height,
    Rect.width, List.length_replicate]
  cases hi : img.interlace with
  | true =>
    obtain ⟨st1, f1, f2, f3⟩ := img_load_interlaced cr hcr2 hcr img hi hw hh hw16 hh16 hb hlim
      (io1.skip 1) tl h2
    simp only [if_true, f1]
    refine ⟨st1.f, ?_, f2, by rw [f3]; exact e3⟩
    cases img with
    | mk il ex re bb cc =>
      simp only at hi
      rw [hi]
  | false =>
    obtain ⟨st1, f1, f2, f3⟩ := img_load_plain cr hcr2 hcr img hi hw hh hw16 hh16 hb hlim
      (io1.skip 1) tl h2
    simp only [Bool.false_eq_true, if_false, f1]
    refine ⟨st1.f, ?_, f2, by rw [f3]; exact e3⟩
    have hd : (List.replicate (img.rect.s.wd * img.rect.s.ht) 0).drop
        (img.b.map (fun x => x &&& LZEncoder.code_mask.getD cr 0)).length = [] := by
      apply List.drop_of_length_le
      rw [List.length_replicate, List.length_map, hb]
    rw [hd, List.append_nil]

end gif

namespace gif

/-! ## Container: loading the records -/

/-- The bits of the flags byte of the screen descriptor with a global palette. -/
theorem scr_flag_bits (r : Nat) (h1 : 1 ≤ r) (h8 : r ≤ 8) :
    ((((0x80 ||| ((r - 1) <<< 4) ||| (r - 1)) % 256) &&& 0x80) != 0) = true ∧
      (((0x80 ||| ((r - 1) <<< 4) ||| (r - 1)) % 256) &&& 0x07) + 1 = r := by
  interval_cases r <;> decide

/-- `Gif::load_scr_desc` after the six bytes of the header. -/
theorem gif_load_scr_desc (g g0 : Gif) (hw : g.sz.wd < 65536) (hh : g.sz.ht < 65536)
    (hcm : ∀ c, g.cm = some c → c.Valid) (h0 : g0.cm = none) (io : GifIO) (tl : List Nat)
    (h : io.d.rest = size_bytes g.sz ++ ([Gif.scr_flags g.cm, g.bg, 0] ++ (cm_bytes g.cm ++ tl))) :
    ∃ io1, g0.load_scr_desc io = ({ g0 with sz := g.sz, bg := g.bg, cm := g.cm }, io1, true) ∧
      io1.d.rest = tl ∧ io1.e = io.e := by
  have h2 : (io.skip 4).d.rest = [Gif.scr_flags g.cm, g.bg, 0] ++ (cm_bytes g.cm ++ tl) :=
    GifIO_skip_rest_n io 4 (size_bytes g.sz) _ rfl h
  have h3 : ((io.skip 4).skip 3).d.rest = cm_bytes g.cm ++ tl :=
    GifIO_skip_rest_n (io.skip 4) 3 [Gif.scr_flags g.cm, g.bg, 0] _ rfl h2
  have hrd := GifIO_read_bytes_rest (io.skip 4) [Gif.scr_flags g.cm, g.bg, 0] _ h2
  simp only [List.length_cons, List.length_nil, Nat.zero_add] at hrd
  unfold Gif.load_scr_desc
  rw [GifIO_read_size_rest io g.sz _ hw hh h]
  simp only [Bool.not_true, Bool.false_eq_true, if_false]
  rw [hrd]
  simp only [Bool.not_true, Bool.false_eq_true, if_false, List.getD_cons_zero,
    List.getD_cons_succ]
  cases hc : g.cm with
  | none =>
    rw [hc] at h3
    refine ⟨(io.skip 4).skip 3, ?_, by simpa [cm_bytes] using h3, rfl⟩
    have hf : ((Gif.scr_flags none &&& 0x80) != 0) = false := by decide
    rw [hf]
    simp only [Bool.false_eq_true, if_false, h0]
  | some c =>
    obtain ⟨c1, c8, cl⟩ := hcm c hc
    obtain ⟨f1, f2⟩ := scr_flag_bits c.r c1 c8
    have hf : Gif.scr_flags (some c) = (0x80 ||| ((c.r - 1) <<< 4) ||| (c.r - 1)) % 256 := by
      have hne : ¬ c.r = 0 := by omega
      simp only [Gif.scr_flags, hne, if_false]
    rw [hc] at h3
    obtain ⟨io1, e1, e2, e3⟩ := cm_load c cl ((io.skip 4).skip 3) tl
      (by simpa [cm_bytes] using h3)
    refine ⟨io1, ?_, e2, e3⟩
    rw [hf, f1, f2]
    simp only [if_true, e1, Bool.not_true, Bool.false_eq_true, if_false]

/-- The colour resolution that `Image::save` passes to the encoder is 2 to 8 bits. -/
theorem color_res_range (img : Image) (gcm : Option ColorMap)
    (hcm : ∀ c, img.cm = some c → c.Valid) (hg : ∀ c, gcm = some c → c.Valid)
    (hres : img.cm = none → gcm ≠ none) :
    (get_color_res img.cm gcm).2 = true ∧ 2 ≤ (get_color_res img.cm gcm).1 ∧
      (get_color_res img.cm gcm).1 ≤ 8 := by
  cases hl : img.cm with
  | some c =>
    obtain ⟨_, c8, _⟩ := hcm c hl
    simp only [get_color_res]
    refine ⟨trivial, ?_, ?_⟩ <;> split <;> omega
  | none =>
    cases hgc : gcm with
    | none => exact absurd hgc (hres hl)
    | some c =>
      obtain ⟨_, c8, _⟩ := hg c hgc
      simp only [get_color_res]
      refine ⟨trivial, ?_, ?_⟩ <;> split <;> omega

theorem area_ne_zero (img : Image) (hw : 0 < img.rect.s.wd) (hh : 0 < img.rect.s.ht)
    (hw16 : img.rect.s.wd < 65536) (hh16 : img.rect.s.ht < 65536) : ¬ img.rect.area = 0 := by
  rw [area_eq img.rect hw16 hh16]
  exact Nat.ne_of_gt (Nat.mul_pos hw hh)

/-- A frame of the data model after `Image::save`: every pixel is masked to the low
bits of the colour resolution in use. -/
theorem img_saved_eq (img : Image) (gcm : Option ColorMap) (hv : img.Valid gcm)
    (hg : ∀ c, gcm = some c → c.Valid) :
    img.saved gcm = img.masked (get_color_res img.cm gcm).1 := by
  obtain ⟨_, _, hw16, hh16, hw, hh, hb, _, hcm, hres⟩ := hv
  obtain ⟨_, hcr2, hcr⟩ := color_res_range img gcm hcm hg hres
  have hm := (img_lzw_stream _ hcr2 hcr img hw hh hw16 hh16 (by rw [hb, Nat.mul_comm])).2
  unfold Image.saved Image.masked
  rw [if_neg (area_ne_zero img hw hh hw16 hh16), hm, code_mask_eq _ hcr]

end gif

namespace gif

/-! ## Container: the record loop of `Gif::load` -/

theorem read_record_ext (io : GifIO) (tl : List Nat) (h : io.d.rest = Gif_extension :: tl) :
    io.read_record = (io.skip 1, GifRecordType.extension, true) := by
  rw [GifIO_read_record_rest io _ _ h]; rfl

theorem read_record_desc (io : GifIO) (tl : List Nat) (h : io.d.rest = Gif_descriptor :: tl) :
    io.read_record = (io.skip 1, GifRecordType.image_desc, true) := by
  rw [GifIO_read_record_rest io _ _ h]; rfl

theorem read_record_term (io : GifIO) (tl : List Nat) (h : io.d.rest = Gif_terminator :: tl) :
    io.read_record = (io.skip 1, GifRecordType.terminate, true) := by
  rw [GifIO_read_record_rest io _ _ h]; rfl

/-- An extension record joins the pending extensions. -/
theorem gif_load_record_ext (g : Gif) (io : GifIO) (xs : List Extension) (e : Extension)
    (tl : List Nat) (hv : e.Valid) (h : io.d.rest = ext_bytes e ++ tl) :
    ∃ io1, Gif.load_record g io xs = some (g, io1, xs ++ [e], none) ∧ io1.d.rest = tl ∧
      io1.e = io.e := by
  have h1 : io.d.rest = Gif_extension :: ((e.fn % 256) :: (chunks_bytes e.list ++ 0 :: tl)) := by
    rw [h, ext_bytes]
    simp only [List.cons_append, List.nil_append, List.append_assoc]
  have h2 : (io.skip 1).d.rest = (e.fn % 256) :: (chunks_bytes e.list ++ 0 :: tl) :=
    GifIO_skip_rest_n io 1 [Gif_extension] _ rfl h1
  obtain ⟨io1, e1, e2, e3⟩ := ext_load e hv (io.skip 1) tl h2
  refine ⟨io1, ?_, e2, e3⟩
  unfold Gif.load_record
  rw [read_record_ext io _ h1]
  simp only [Bool.not_true, Bool.false_eq_true, if_false, e1]

/-- An image record takes the pending extensions and joins the frames. -/
theorem gif_load_record_img (cr : Nat) (hcr2 : 2 ≤ cr) (hcr : cr ≤ 8) (img : Image)
    (gcm : Option ColorMap) (hv : img.Valid gcm)
    (hlim : img.rect.s.wd * img.rect.s.ht < 2 ^ 31) (g : Gif) (io : GifIO)
    (xs : List Extension) (tl : List Nat)
    (h : io.d.rest = descr_bytes img ++ cr :: (lzw_bytes cr img ++ tl)) :
    ∃ io1, Gif.load_record g io xs =
        some ({ g with imgs := g.imgs ++
                  [{ img with exts := xs,
                              b := img.b.map (fun x => x &&& LZEncoder.code_mask.getD cr 0) }] },
          io1, [], none) ∧
      io1.d.rest = tl ∧ io1.e = io.e := by
  have h1 : io.d.rest = Gif_descriptor :: (rect_bytes img.rect ++
      descr_flags img :: (cm_bytes img.cm ++ cr :: (lzw_bytes cr img ++ tl))) := by
    rw [h, descr_bytes]
    simp only [List.cons_append, List.nil_append, List.append_assoc]
  have h2 := GifIO_skip_rest_n io 1 [Gif_descriptor] _ rfl h1
  obtain ⟨io1, e1, e2, e3⟩ := img_load cr hcr2 hcr img gcm hv hlim (io.skip 1) tl h2
  refine ⟨io1, ?_, e2, e3⟩
  unfold Gif.load_record
  rw [read_record_desc io _ h1]
  simp only [Bool.not_true, Bool.false_eq_true, if_false, e1]
  cases xs with
  | nil => rfl
  | cons x rest => rfl

theorem gif_load_loop_exts (tl : List Nat) (l : List Extension) :
    ∀ (xs : List Extension) (fuel : Nat) (g : Gif) (io : GifIO),
      (∀ e ∈ l, e.Valid) → io.d.rest = exts_bytes l ++ tl →
      ∃ io1, Gif.load_loop (fuel + l.length) g io xs = Gif.load_loop fuel g io1 (xs ++ l) ∧
        io1.d.rest = tl ∧ io1.e = io.e := by
  induction l with
  | nil =>
    intro xs fuel g io _ h
    exact ⟨io, by simp, by simpa [exts_bytes] using h, rfl⟩
  | cons e rest ih =>
    intro xs fuel g io hv h
    have h1 : io.d.rest = ext_bytes e ++ (exts_bytes rest ++ tl) := by
      rw [h, exts_bytes_cons, List.append_assoc]
    obtain ⟨io1, e1, e2, e3⟩ := gif_load_record_ext g io xs e _
      (hv e (List.mem_cons_self _ _)) h1
    obtain ⟨io2, f1, f2, f3⟩ := ih (xs ++ [e]) fuel g io1
      (fun x hx => hv x (List.mem_cons_of_mem _ hx)) e2
    refine ⟨io2, ?_, f2, by rw [f3, e3]⟩
    have hf : fuel + (e :: rest).length = (fuel + rest.length) + 1 := by
      simp only [List.length_cons]; omega
    rw [hf, Gif.load_loop, e1]
    simp only []
    rw [f1]
    simp only [List.append_assoc, List.singleton_append]

/-- The records of one frame in the record loop: the frame comes back as
`Image::save` left it. -/
theorem gif_load_loop_img (img : Image) (gcm : Option ColorMap) (hv : img.Valid gcm)
    (hg : ∀ c, gcm = some c → c.Valid) (hlim : img.rect.s.wd * img.rect.s.ht < 2 ^ 31)
    (g : Gif) (io : GifIO) (fuel : Nat) (tl : List Nat)
    (h : io.d.rest = image_bytes img gcm ++ tl) :
    ∃ io1, Gif.load_loop (fuel + (img.exts.length + 1)) g io [] =
        Gif.load_loop fuel { g with imgs := g.imgs ++ [img.saved gcm] } io1 [] ∧
      io1.d.rest = tl ∧ io1.e = io.e := by
  have hv0 := hv
  obtain ⟨_, _, hw16, hh16, hw, hh, hb, hex, hcm, hres⟩ := hv
  obtain ⟨_, hcr2, hcr⟩ := color_res_range img gcm hcm hg hres
  have hne := area_ne_zero img hw hh hw16 hh16
  have h1 : io.d.rest = exts_bytes img.exts ++ (descr_bytes img ++
      (get_color_res img.cm gcm).1 :: (lzw_bytes (get_color_res img.cm gcm).1 img ++ tl)) := by
    rw [h, image_bytes_pos img gcm hne]
    simp only [List.cons_append, List.nil_append, List.append_assoc]
  obtain ⟨io1, e1, e2, e3⟩ := gif_load_loop_exts _ img.exts [] (fuel + 1) g io hex h1
  obtain ⟨io2, f1, f2, f3⟩ := gif_load_record_img _ hcr2 hcr img gcm hv0 hlim g io1
    ([] ++ img.exts) tl e2
  refine ⟨io2, ?_, f2, by rw [f3, e3]⟩
  have hf : fuel + (img.exts.length + 1) = (fuel + 1) + img.exts.length := by omega
  rw [hf, e1, Gif.load_loop, f1]
  simp only []
  have hm := (img_lzw_stream _ hcr2 hcr img hw hh hw16 hh16 (by rw [hb, Nat.mul_comm])).2
  have hs : img.saved gcm =
      { img with
        exts := [] ++ img.exts,
        b := img.b.map
          (fun x => x &&& LZEncoder.code_mask.getD (get_color_res img.cm gcm).1 0) } := by
    unfold Image.saved
    rw [if_neg hne, hm]
    rfl
  rw [hs]

theorem gif_load_loop_imgs (gcm : Option ColorMap) (hg : ∀ c, gcm = some c → c.Valid)
    (tl : List Nat) (imgs : List Image) :
    ∀ (g : Gif) (io : GifIO) (fuel : Nat),
      (∀ i ∈ imgs, i.Valid gcm ∧ i.rect.s.wd * i.rect.s.ht < 2 ^ 31) →
      io.d.rest = images_bytes imgs gcm ++ tl →
      ∃ io1, Gif.load_loop (fuel + (imgs.map (fun i => i.exts.length + 1)).sum) g io [] =
          Gif.load_loop fuel { g with imgs := g.imgs ++ imgs.map (fun i => i.saved gcm) } io1 [] ∧
        io1.d.rest = tl ∧ io1.e = io.e := by
  induction imgs with
  | nil =>
    intro g io fuel _ h
    refine ⟨io, ?_, by simpa [images_bytes] using h, rfl⟩
    simp only [List.map_nil, List.sum_nil, Nat.add_zero, List.append_nil]
  | cons i rest ih =>
    intro g io fuel hv h
    obtain ⟨hvi, hli⟩ := hv i (List.mem_cons_self _ _)
    have h1 : io.d.rest = image_bytes i gcm ++ (images_bytes rest gcm ++ tl) := by
      rw [h, images_bytes_cons, List.append_assoc]
    obtain ⟨io1, e1, e2, e3⟩ := gif_load_loop_img i gcm hvi hg hli g io
      (fuel + (rest.map (fun i => i.exts.length + 1)).sum) _ h1
    obtain ⟨io2, f1, f2, f3⟩ := ih { g with imgs := g.imgs ++ [i.saved gcm] } io1 fuel
      (fun x hx => hv x (List.mem_cons_of_mem _ hx)) e2
    refine ⟨io2, ?_, f2, by rw [f3, e3]⟩
    have hf : fuel + ((i :: rest).map (fun i => i.exts.length + 1)).sum =
        (fuel + (rest.map (fun i => i.exts.length + 1)).sum) + (i.exts.length + 1) := by
      simp only [List.map_cons, List.sum_cons]; omega
    rw [hf, e1, f1]
    simp only [List.append_assoc, List.singleton_append, List.map_cons]

end gif

namespace gif

/-! ## Container: `Gif::load` on the bytes of `Gif::save` -/

theorem exts_bytes_length (l : List Extension) : l.length ≤ (exts_bytes l).length := by
  induction l with
  | nil => simp
  | cons e rest ih =>
    rw [exts_bytes_cons]
    simp only [List.length_cons, List.length_append, ext_bytes]
    omega

theorem images_bytes_length (gcm : Option ColorMap) (imgs : List Image)
    (h : ∀ i ∈ imgs, ¬ i.rect.area = 0) :
    (imgs.map (fun i => i.exts.length + 1)).sum ≤ (images_bytes imgs gcm).length := by
  induction imgs with
  | nil => simp
  | cons i rest ih =>
    have h1 := ih (fun x hx => h x (List.mem_cons_of_mem _ hx))
    have h2 := exts_bytes_length i.exts
    rw [images_bytes_cons, image_bytes_pos i gcm (h i (List.mem_cons_self _ _))]
    simp only [List.map_cons, List.sum_cons, List.length_append, List.length_cons, descr_bytes]
    omega

/-- The record loop of `Gif::load` on the records that `Gif::save` writes after the
screen descriptor. -/
theorem gif_load_loop_all (g : Gif) (hv : g.Valid)
    (hlim : ∀ i ∈ g.imgs, i.rect.s.wd * i.rect.s.ht < 2 ^ 31) (g0 : Gif) (io : GifIO)
    (tl : List Nat) (fuel : Nat)
    (h : io.d.rest = images_bytes g.imgs g.cm ++ (exts_bytes g.exs ++ Gif_terminator :: tl))
    (hf : (g.imgs.map (fun i => i.exts.length + 1)).sum + g.exs.length < fuel) :
    ∃ io1, Gif.load_loop fuel g0 io [] =
        some ({ g0 with imgs := g0.imgs ++ g.imgs.map (fun i => i.saved g.cm) }, io1, g.exs,
          true) ∧
      io1.d.rest = tl ∧ io1.e = io.e := by
  obtain ⟨_, _, hcm, himgs, hexs⟩ := hv
  obtain ⟨k, hk⟩ : ∃ k, fuel =
      ((k + 1) + g.exs.length) + (g.imgs.map (fun i => i.exts.length + 1)).sum :=
    ⟨fuel - 1 - g.exs.length - (g.imgs.map (fun i => i.exts.length + 1)).sum, by omega⟩
  obtain ⟨io1, e1, e2, e3⟩ := gif_load_loop_imgs g.cm hcm _ g.imgs g0 io ((k + 1) + g.exs.length)
    (fun i hi => ⟨himgs i hi, hlim i hi⟩) h
  obtain ⟨io2, f1, f2, f3⟩ := gif_load_loop_exts _ g.exs [] (k + 1)
    { g0 with imgs := g0.imgs ++ g.imgs.map (fun i => i.saved g.cm) } io1 hexs e2
  refine ⟨io2.skip 1, ?_, GifIO_skip_rest_n io2 1 [Gif_terminator] _ rfl f2, by
    rw [GifIO_skip_e, f3, e3]⟩
  rw [hk, e1, f1, Gif.load_loop, Gif.load_record, read_record_term io2 _ f2]
  simp only [Bool.not_true, Bool.false_eq_true, if_false, List.nil_append]

/-- A frame of the data model is one that `Image::save` can write. -/
theorem savable_of_valid (img : Image) (gcm : Option ColorMap) (hv : img.Valid gcm)
    (hg : ∀ c, gcm = some c → c.Valid) : img.Savable gcm := by
  obtain ⟨_, _, hw16, hh16, _, _, _, _, hcm, hres⟩ := hv
  obtain ⟨hok, _, hcr⟩ := color_res_range img gcm hcm hg hres
  exact ⟨hw16, hh16, Or.inr ⟨hok, by omega⟩⟩

/-- `Gif::load` into a fresh container on the bytes of `Gif::save`: the container
comes back as `Gif::save` left it. -/
theorem gif_load_bytes (g : Gif) (hv : g.Valid)
    (hlim : ∀ i ∈ g.imgs, i.rect.s.wd * i.rect.s.ht < 2 ^ 31) (s0 : Size) (b0 : Nat)
    (dev : MemDevice) (tl : List Nat) (h : dev.rest = gif_bytes g ++ tl) :
    ∃ io1, Gif.load (Gif.new s0 b0) dev =
        some ({ g with imgs := g.imgs.map (fun i => i.saved g.cm) }, io1, true) ∧
      io1.d.rest = tl ∧ io1.e = ErrorCode.ok := by
  have hv0 := hv
  obtain ⟨hw, hh, hcm, himgs, hexs⟩ := hv
  have h1 : ( GifIO.mk_dev dev).d.rest = [0x47, 0x49, 0x46, 0x38, 0x39, 0x61] ++
      (size_bytes g.sz ++ ([Gif.scr_flags g.cm, g.bg, 0] ++ (cm_bytes g.cm ++
        (images_bytes g.imgs g.cm ++ (exts_bytes g.exs ++ Gif_terminator :: tl))))) := by
    show dev.rest = _
    rw [h, gif_bytes, scr_bytes]
    simp only [List.cons_append, List.nil_append, List.append_assoc]
  have h2 := GifIO_skip_rest_n ( GifIO.mk_dev dev) 6 [0x47, 0x49, 0x46, 0x38, 0x39, 0x61] _ rfl h1
  obtain ⟨io1, e1, e2, e3⟩ := gif_load_scr_desc g (Gif.new s0 b0) hw hh hcm rfl
    (( GifIO.mk_dev dev).skip 6) _ h2
  have hfuel : (g.imgs.map (fun i => i.exts.length + 1)).sum + g.exs.length <
      io1.d.bytesLeft + 1 := by
    rw [MemDevice_bytesLeft_eq, e2]
    have a1 := images_bytes_length g.cm g.imgs (fun i hi => by
      obtain ⟨_, _, hw16, hh16, hw1, hh1, _⟩ := himgs i hi
      exact area_ne_zero i hw1 hh1 hw16 hh16)
    have a2 := exts_bytes_length g.exs
    simp only [List.length_append, List.length_cons]
    omega
  have e1' : (Gif.new s0 b0).load_scr_desc (( GifIO.mk_dev dev).skip 6) =
      ({ sz := g.sz, bg := g.bg, imgs := [], exs := [], cm := g.cm }, io1, true) := e1
  obtain ⟨io2, f1, f2, f3⟩ := gif_load_loop_all g hv0 hlim
    { sz := g.sz, bg := g.bg, imgs := [], exs := [], cm := g.cm } io1 tl _ e2 hfuel
  refine ⟨io2, ?_, f2, by rw [f3, e3]; rfl⟩
  have hp := probe_six ( GifIO.mk_dev dev) [0x47, 0x49, 0x46, 0x38, 0x39, 0x61] _ rfl h1
  have hm : List.take 3 [0x47, 0x49, 0x46, 0x38, 0x39, 0x61] = magic := rfl
  rw [if_pos hm] at hp
  simp only [Gif.load, hp, Bool.not_true, Bool.false_eq_true, if_false, e1', f1,
    List.nil_append]
  cases hx : g.exs with
  | nil => simp
  | cons x rest => simp

/-- Save into a buffer with room and load of the written bytes: both succeed and
the container loaded is the container as `Gif::save` left it. -/
theorem gif_save_load (g : Gif) (hv : g.Valid)
    (hlim : ∀ i ∈ g.imgs, i.rect.s.wd * i.rect.s.ht < 2 ^ 31) (dst : List Nat)
    (hroom : (gif_bytes g).length ≤ dst.length) (s0 : Size) (b0 : Nat) :
    ∃ io1 io2,
      Gif.save g (MemDevice.open_for_write dst) =
        some ({ g with imgs := g.imgs.map (fun i => i.saved g.cm) }, io1, true) ∧
      Gif.load (Gif.new s0 b0) (MemDevice.open_for_read io1.d.written) =
        some ({ g with imgs := g.imgs.map (fun i => i.saved g.cm) }, io2, true) ∧
      io1.e = ErrorCode.ok ∧ io2.e = ErrorCode.ok ∧ io1.d.written = gif_bytes g := by
  obtain ⟨_, _, hcm, himgs, _⟩ := id hv
  have hr : (MemDevice.open_for_write dst).Room (gif_bytes g).length := by
    unfold MemDevice.Room MemDevice.open_for_write
    simp only [Nat.zero_add]
    exact hroom
  have hs := gif_save_room g (MemDevice.open_for_write dst)
    (fun i hi => savable_of_valid i g.cm (himgs i hi) hcm) hr
  have hwr : ((( GifIO.mk_dev (MemDevice.open_for_write dst)).push (gif_bytes g)).d).written =
      gif_bytes g := by
    show ((MemDevice.open_for_write dst).push (gif_bytes g)).written = _
    rw [MemDevice_push_written _ _ hr]
    rfl
  obtain ⟨io2, e1, _, e3⟩ := gif_load_bytes g hv hlim s0 b0
    (MemDevice.open_for_read (gif_bytes g)) [] (by
      rw [List.append_nil]; rfl)
  exact ⟨_, io2, hs, by rw [hwr]; exact e1, rfl, e3, hwr⟩

end gif

namespace gif

/-! ## Line lengths of `2 ^ 31` and more -/

theorem toInt32_big (n : Nat) (h1 : 2 ^ 31 ≤ n) (h2 : n < 2 ^ 32) :
    toInt32 n = (n : Int) - 2 ^ 32 := by
  unfold toInt32
  have hm : n % 2 ^ 32 = n := Nat.mod_eq_of_lt h2
  rw [hm, if_neg (by omega)]

/-- A line length of `2 ^ 31` or more arrives as a negative `int`: the pixel count
left is then `2 ^ 32`, above the limit of `getLine`. -/
theorem dec_getLine_too_big (st : LZDecoder) (n : Nat) (hpc : st.pix_count = n)
    (h1 : 2 ^ 31 ≤ n) (h2 : n < 2 ^ 32) :
    st.getLine (toInt32 n) =
      some ({ st with pix_count := 2 ^ 32, f := st.f.set_error ErrorCode.data_too_big }, [],
        false) := by
  have hv : ((((n : Nat) : Int) - ((n : Int) - 2 ^ 32)) % 2 ^ 64).toNat = 2 ^ 32 := by
    have : ((n : Nat) : Int) - ((n : Int) - 2 ^ 32) = 2 ^ 32 := by omega
    rw [this]; rfl
  rw [toInt32_big n h1 h2]
  unfold LZDecoder.getLine
  rw [hpc, hv]
  simp only [gt_iff_lt, Nat.reducePow, Nat.reduceLT, if_true]

end gif

namespace gif

/-! ## Save and load of a container -/

/-- The code size that `Image::save` uses is the colour resolution of the palette
resolved, raised to 2 when it is 1. -/
theorem color_res_max (l g : Option ColorMap) (c : ColorMap) (h : resolved_cm l g = some c) :
    (get_color_res l g).1 = max c.r 2 := by
  cases l with
  | some m =>
    simp only [resolved_cm, Option.some.injEq] at h
    subst h
    simp only [get_color_res]
    split <;> omega
  | none =>
    simp only [resolved_cm] at h
    subst h
    simp only [get_color_res]
    split <;> omega

theorem resolved_some (img : Image) (gcm : Option ColorMap) (hres : img.cm = none → gcm ≠ none) :
    ∃ c, resolved_cm img.cm gcm = some c := by
  cases hl : img.cm with
  | some m => exact ⟨m, rfl⟩
  | none =>
    cases hg : gcm with
    | none => exact absurd hg (hres hl)
    | some m => exact ⟨m, rfl⟩

/-- A frame whose pixels are below `2 ^ r` for the palette resolved is left as it is
by `Image::save`. -/
theorem img_saved_id (img : Image) (gcm : Option ColorMap) (hv : img.Valid gcm)
    (hg : ∀ c, gcm = some c → c.Valid)
    (hpix : ∀ c, resolved_cm img.cm gcm = some c → ∀ x ∈ img.b, x < 2 ^ c.r) :
    img.saved gcm = img := by
  rw [img_saved_eq img gcm hv hg]
  obtain ⟨_, _, _, _, _, _, _, _, _, hres⟩ := hv
  obtain ⟨c, hc⟩ := resolved_some img gcm hres
  have hm := color_res_max img.cm gcm c hc
  have hb : img.b.map (fun x => x &&& (2 ^ (get_color_res img.cm gcm).1 - 1)) = img.b := by
    have : ∀ x ∈ img.b, (fun x => x &&& (2 ^ (get_color_res img.cm gcm).1 - 1)) x = id x := by
      intro x hx
      show x &&& (2 ^ (get_color_res img.cm gcm).1 - 1) = x
      rw [Nat.and_pow_two_sub_one_eq_mod]
      apply Nat.mod_eq_of_lt
      have h1 := hpix c hc x hx
      have h2 : 2 ^ c.r ≤ 2 ^ (get_color_res img.cm gcm).1 :=
        Nat.pow_le_pow_right (by norm_num) (by rw [hm]; exact Nat.le_max_left _ _)
      omega
    rw [List.map_congr_left this, List.map_id]
  unfold Image.masked
  rw [hb]

/-- `Gif::save` of a container of the data model into a buffer with room. -/
theorem gif_save_written (g : Gif) (hv : g.Valid) (dst : List Nat)
    (hroom : (gif_bytes g).length ≤ dst.length) :
    ∃ io1, Gif.save g (MemDevice.open_for_write dst) =
        some ({ g with imgs := g.imgs.map (fun i => i.saved g.cm) }, io1, true) ∧
      io1.e = ErrorCode.ok ∧ io1.d.written = gif_bytes g := by
  obtain ⟨_, _, hcm, himgs, _⟩ := hv
  have hr : (MemDevice.open_for_write dst).Room (gif_bytes g).length := by
    unfold MemDevice.Room MemDevice.open_for_write
    simp only [Nat.zero_add]
    exact hroom
  have hs := gif_save_room g (MemDevice.open_for_write dst)
    (fun i hi => savable_of_valid i g.cm (himgs i hi) hcm) hr
  refine ⟨_, hs, rfl, ?_⟩
  show ((MemDevice.open_for_write dst).push (gif_bytes g)).written = _
  rw [MemDevice_push_written _ _ hr]
  rfl

/-- Save and load of a container of the data model with frames below `2 ^ 31`
pixels: the frames come back with every pixel masked to the code size. -/
theorem gif_round_trip_masked (g : Gif) (hv : g.Valid)
    (hlim : ∀ i ∈ g.imgs, i.rect.s.wd * i.rect.s.ht < 2 ^ 31) (dst : List Nat)
    (hroom : (gif_bytes g).length ≤ dst.length) (s0 : Size) (b0 : Nat) :
    ∃ io1 io2,
      Gif.save g (MemDevice.open_for_write dst) =
        some ({ g with imgs := g.imgs.map (fun i => i.masked (get_color_res i.cm g.cm).1) },
          io1, true) ∧
      Gif.load (Gif.new s0 b0) (MemDevice.open_for_read io1.d.written) =
        some ({ g with imgs := g.imgs.map (fun i => i.masked (get_color_res i.cm g.cm).1) },
          io2, true) ∧
      io1.e = ErrorCode.ok ∧ io2.e = ErrorCode.ok ∧ io1.d.written = gif_bytes g := by
  obtain ⟨io1, io2, e1, e2, e3, e4, e5⟩ := gif_save_load g hv hlim dst hroom s0 b0
  obtain ⟨_, _, hcm, himgs, _⟩ := hv
  have hm : g.imgs.map (fun i => i.saved g.cm) =
      g.imgs.map (fun i => i.masked (get_color_res i.cm g.cm).1) :=
    List.map_congr_left (fun i hi => img_saved_eq i g.cm (himgs i hi) hcm)
  rw [hm] at e1 e2
  exact ⟨io1, io2, e1, e2, e3, e4, e5⟩

/-- Save and load of a container of the data model with frames below `2 ^ 31`
pixels whose pixels are in the range of the palettes: both succeed and the
container comes back as it was. -/
theorem gif_round_trip_id (g : Gif) (hv : g.Valid)
    (hpix : ∀ i ∈ g.imgs, ∀ c, resolved_cm i.cm g.cm = some c → ∀ x ∈ i.b, x < 2 ^ c.r)
    (hlim : ∀ i ∈ g.imgs, i.rect.s.wd * i.rect.s.ht < 2 ^ 31) (dst : List Nat)
    (hroom : (gif_bytes g).length ≤ dst.length) (s0 : Size) (b0 : Nat) :
    ∃ io1 io2,
      Gif.save g (MemDevice.open_for_write dst) = some (g, io1, true) ∧
      Gif.load (Gif.new s0 b0) (MemDevice.open_for_read io1.d.written) = some (g, io2, true) ∧
      io1.e = ErrorCode.ok ∧ io2.e = ErrorCode.ok ∧ io1.d.written = gif_bytes g := by
  obtain ⟨io1, io2, e1, e2, e3, e4, e5⟩ := gif_save_load g hv hlim dst hroom s0 b0
  obtain ⟨_, _, hcm, himgs, _⟩ := hv
  have hm : g.imgs.map (fun i => i.saved g.cm) = g.imgs := by
    have : ∀ i ∈ g.imgs, (fun i => i.saved g.cm) i = id i :=
      fun i hi => img_saved_id i g.cm (himgs i hi) hcm (hpix i hi)
    rw [List.map_congr_left this, List.map_id]
  have hg : ({ g with imgs := g.imgs.map (fun i => i.saved g.cm) } : Gif) = g := by
    rw [hm]
  rw [hg] at e1 e2
  exact ⟨io1, io2, e1, e2, e3, e4, e5⟩

/-! ### The container of one pixel -/

theorem one_pixel_lzw_length (p : Point) (il : Bool) (px : Nat) (hpx : px = 0 ∨ px = 1) :
    (lzw_bytes 2
      { interlace := il, exts := [], rect := ⟨p, ⟨1, 1⟩⟩, b := [px], cm := none }).length = 4 := by
  have h : lzw_bytes 2
        { interlace := il, exts := [], rect := ⟨p, ⟨1, 1⟩⟩, b := [px], cm := none } =
      lzw_bytes 2
        { interlace := il, exts := [], rect := ⟨⟨0, 0⟩, ⟨1, 1⟩⟩, b := [px], cm := none } := by
    simp only [lzw_bytes, Image.rows, Rect.area, Rect.width, Rect.height]
  rw [h]
  rcases hpx with rfl | rfl <;> cases il <;> decide

/-- `Gif::save` writes 35 bytes for the container of one pixel. -/
theorem one_pixel_bytes_length (s : Size) (p : Point) (il : Bool) (c0 c1 : RGB) (px : Nat)
    (hpx : px = 0 ∨ px = 1) : (gif_bytes (one_pixel_gif s p il c0 c1 px)).length = 35 := by
  have h := one_pixel_lzw_length p il px hpx
  have ha : ¬ (Rect.area ⟨p, ⟨1, 1⟩⟩) = 0 := by
    show ¬ ((1 * 1) % 2 ^ 32 = 0)
    decide
  simp only [gif_bytes, one_pixel_gif, scr_bytes, images_bytes, List.flatMap_cons,
    List.flatMap_nil, image_bytes, ha, if_false, exts_bytes, descr_bytes, rect_bytes,
    point_bytes, size_bytes, word_bytes, cm_bytes, rgbs_bytes, get_color_res,
    List.length_append, List.length_cons, List.length_nil, List.append_nil]
  simp only [Nat.lt_irrefl, Nat.one_lt_ofNat, if_true] at h ⊢
  omega

/-- The container of one pixel is a container of the data model. -/
theorem one_pixel_valid (s : Size) (p : Point) (il : Bool) (c0 c1 : RGB) (px : Nat)
    (hs : s.wd < 65536 ∧ s.ht < 65536) (hp : p.x_val < 65536 ∧ p.y_val < 65536) :
    (one_pixel_gif s p il c0 c1 px).Valid := by
  refine ⟨hs.1, hs.2, ?_, ?_, ?_⟩
  · intro c hc
    simp only [one_pixel_gif, Option.some.injEq] at hc
    subst hc
    exact ⟨Nat.le_refl 1, (by decide : 1 ≤ 8), rfl⟩
  · intro i hi
    simp only [one_pixel_gif, List.mem_singleton] at hi
    subst hi
    refine ⟨hp.1, hp.2, (by decide : 1 < 65536), (by decide : 1 < 65536),
      (by decide : 0 < 1), (by decide : 0 < 1), rfl, ?_, ?_, ?_⟩
    · intro e he
      exact absurd he (List.not_mem_nil _)
    · intro c hc
      exact absurd hc (by simp)
    · intro _ hn
      exact absurd hn (by simp [one_pixel_gif])
  · intro e he
    exact absurd he (List.not_mem_nil _)

end gif

namespace gif

/-! ## Round trip of a container -/

/-- C1.  Container round trip, for frames of fewer than `2 ^ 31` pixels, where the
product of `Size::area` is within `int`: for every container of the data model (a 16
bit screen size, a background index, an optional global palette of colour
resolution 1 to 8 with exactly `2 ^ r` entries, frames of non-zero width and height
with a rect of 16 bit members, an interlace flag, an optional local palette, a
buffer of rect-area bytes each below `2 ^ r` of the palette that the frame resolves,
extensions of an 8 bit function code and chunks of 1 to 255 bytes, and trailing
extensions, every frame resolving a palette) whose frames hold fewer than `2 ^ 31`
pixels each, `Gif::save` into a memory buffer with room for the bytes written
succeeds and leaves the container as it is, and `Gif::load` of the written bytes
into a fresh container succeeds and gives the same container back: screen size,
background index, global palette, the frames with rect, interlace flag, pixel
bytes, local palette and extensions, and the trailing extensions. -/
theorem container_round_trip (g : Gif) (dst : List Nat) (s0 : Size) (b0 : Nat)
    (hv : g.Valid)
    (hpix : ∀ i ∈ g.imgs, ∀ c, resolved_cm i.cm g.cm = some c → ∀ x ∈ i.b, x < 2 ^ c.r)
    (hlim : ∀ i ∈ g.imgs, i.rect.s.wd * i.rect.s.ht < 2 ^ 31)
    (hroom : (gif_bytes g).length ≤ dst.length) :
    ∃ io1 io2,
      Gif.save g (MemDevice.open_for_write dst) = some (g, io1, true) ∧
      io1.d.written = gif_bytes g ∧
      Gif.load (Gif.new s0 b0) (MemDevice.open_for_read io1.d.written) = some (g, io2, true) ∧
      io2.e = ErrorCode.ok := by
  obtain ⟨io1, io2, e1, e2, _, e4, e5⟩ := gif_round_trip_id g hv hpix hlim dst hroom s0 b0
  exact ⟨io1, io2, e1, e5, e2, e4⟩

theorem container_round_trip_witness :
    ∃ io1 io2,
      Gif.save sample_anim (MemDevice.open_for_write (List.replicate 100 0)) =
        some (sample_anim, io1, true) ∧
      io1.d.written = gif_bytes sample_anim ∧
      Gif.load (Gif.new ⟨0, 0⟩ 0) (MemDevice.open_for_read io1.d.written) =
        some (sample_anim, io2, true) ∧
      io2.e = ErrorCode.ok :=
  container_round_trip sample_anim (List.replicate 100 0) ⟨0, 0⟩ 0
    (by simp [Gif.Valid, Image.Valid, ColorMap.Valid, Extension.Valid, sample_anim])
    (by simp [resolved_cm, sample_anim])
    (by simp [sample_anim])
    (by decide)

/-- Divergence for C1 (frames of `2 ^ 31` pixels and more).  The container `big_gif`
is a container of the data model: a global palette of two colours and one frame of
65535 x 32769 pixels without interlace, every pixel 0.  The frame holds
`2 ^ 31 + 32767` pixels: the product of width and height is above the largest
`int`, so that the multiplication of `Size::area` overflows, and the buffer size,
passed to the `int` parameter of `getLine`, is the negative number -2147450881. -/
theorem frame_area_over_int_max :
    big_gif.Valid ∧ (∀ i ∈ big_gif.imgs, ∀ x ∈ i.b, x < 2 ^ 1) ∧
      big_gif.imgs = [big_frame] ∧ big_frame.interlace = false ∧
      big_frame.rect.s.wd * big_frame.rect.s.ht = 2 ^ 31 + 32767 ∧
      toInt32 (big_frame.rect.s.wd * big_frame.rect.s.ht) = -2147450881 := by
  have hfv : big_frame.Valid big_gif.cm := by
    refine ⟨(by decide : 0 < 65536), (by decide : 0 < 65536), (by decide : 65535 < 65536),
      (by decide : 32769 < 65536), (by decide : 0 < 65535), (by decide : 0 < 32769), ?_, ?_, ?_,
      ?_⟩
    · exact List.length_replicate _ _
    · intro e he
      exact absurd he (List.not_mem_nil _)
    · intro c hc
      have hc2 : (none : Option ColorMap) = some c := hc
      exact Option.noConfusion hc2
    · intro _ hn
      have hn2 : (some { r := 1, c := [⟨0, 0, 0⟩, ⟨255, 255, 255⟩] } : Option ColorMap) = none := hn
      exact Option.noConfusion hn2
  have hv : big_gif.Valid := by
    refine ⟨(by decide : 65535 < 65536), (by decide : 32769 < 65536), ?_, ?_, ?_⟩
    · intro c hc
      simp only [big_gif, Option.some.injEq] at hc
      subst hc
      exact ⟨Nat.le_refl 1, (by decide : 1 ≤ 8), rfl⟩
    · intro i hi
      have hi2 : i = big_frame := List.mem_singleton.mp hi
      rw [hi2]
      exact hfv
    · intro e he
      exact absurd he (List.not_mem_nil _)
  refine ⟨hv, ?_, rfl, rfl, ?_, ?_⟩
  · intro i hi x hx
    have hi2 : i = big_frame := List.mem_singleton.mp hi
    rw [hi2] at hx
    have hx0 : x = 0 := List.eq_of_mem_replicate hx
    rw [hx0]
    decide
  · show (65535 : Nat) * 32769 = 2 ^ 31 + 32767
    norm_num
  · show toInt32 (65535 * 32769) = -2147450881
    rw [toInt32_big (65535 * 32769) (by norm_num) (by norm_num)]
    norm_num

/-- C3.  Concrete scenario: for the container with one frame of 1 x 1 pixels (at
any position, with or without interlace), a global palette of two colours (colour
resolution 1, two entries), background index 0, no local palette and no
extensions, and a pixel value of 0 or 1, `Gif::save` into a buffer of at least 35
bytes succeeds, and `Gif::load` of the written bytes into a fresh container
succeeds and yields the same container: the same screen size, background index 0,
exactly one frame, whose single pixel has the original value and whose extension
list is empty, and an empty trailing extension list. -/
theorem one_pixel_round_trip (s : Size) (p : Point) (il : Bool) (c0 c1 : RGB) (px : Nat)
    (dst : List Nat) (s0 : Size) (b0 : Nat)
    (hs : s.wd < 65536 ∧ s.ht < 65536) (hp : p.x_val < 65536 ∧ p.y_val < 65536)
    (hpx : px = 0 ∨ px = 1) (hroom : 35 ≤ dst.length) :
    ∃ io1 io2 g2,
      Gif.save (one_pixel_gif s p il c0 c1 px) (MemDevice.open_for_write dst) =
        some (one_pixel_gif s p il c0 c1 px, io1, true) ∧
      Gif.load (Gif.new s0 b0) (MemDevice.open_for_read io1.d.written) =
        some (g2, io2, true) ∧
      g2 = one_pixel_gif s p il c0 c1 px ∧ g2.sz = s ∧ g2.bg = 0 ∧
      g2.imgs.map (fun i => i.b) = [[px]] ∧ g2.imgs.map (fun i => i.exts) = [[]] ∧
      g2.exs = [] := by
  have hv := one_pixel_valid s p il c0 c1 px hs hp
  have hpix : ∀ i ∈ (one_pixel_gif s p il c0 c1 px).imgs, ∀ c,
      resolved_cm i.cm (one_pixel_gif s p il c0 c1 px).cm = some c → ∀ x ∈ i.b, x < 2 ^ c.r := by
    intro i hi c hc x hx
    simp only [one_pixel_gif, List.mem_singleton] at hi
    subst hi
    simp only [one_pixel_gif, resolved_cm, Option.some.injEq] at hc
    subst hc
    simp only [List.mem_singleton] at hx
    show x < 2 ^ 1
    omega
  have hlim : ∀ i ∈ (one_pixel_gif s p il c0 c1 px).imgs,
      i.rect.s.wd * i.rect.s.ht < 2 ^ 31 := by
    intro i hi
    simp only [one_pixel_gif, List.mem_singleton] at hi
    subst hi
    show 1 * 1 < 2 ^ 31
    decide
  obtain ⟨io1, io2, e1, e2, _, _, _⟩ := gif_round_trip_id (one_pixel_gif s p il c0 c1 px) hv
    hpix hlim dst (by rw [one_pixel_bytes_length s p il c0 c1 px hpx]; exact hroom) s0 b0
  exact ⟨io1, io2, _, e1, e2, rfl, rfl, rfl, rfl, rfl, rfl⟩

theorem one_pixel_round_trip_witness :
    ∃ io1 io2 g2,
      Gif.save (one_pixel_gif ⟨8, 8⟩ ⟨3, 4⟩ false ⟨0, 0, 0⟩ ⟨255, 255, 255⟩ 1)
          (MemDevice.open_for_write (List.replicate 35 0)) =
        some (one_pixel_gif ⟨8, 8⟩ ⟨3, 4⟩ false ⟨0, 0, 0⟩ ⟨255, 255, 255⟩ 1, io1, true) ∧
      Gif.load (Gif.new ⟨0, 0⟩ 0) (MemDevice.open_for_read io1.d.written) =
        some (g2, io2, true) ∧
      g2 = one_pixel_gif ⟨8, 8⟩ ⟨3, 4⟩ false ⟨0, 0, 0⟩ ⟨255, 255, 255⟩ 1 ∧
      g2.sz = ⟨8, 8⟩ ∧ g2.bg = 0 ∧
      g2.imgs.map (fun i => i.b) = [[1]] ∧ g2.imgs.map (fun i => i.exts) = [[]] ∧
      g2.exs = [] :=
  one_pixel_round_trip ⟨8, 8⟩ ⟨3, 4⟩ false ⟨0, 0, 0⟩ ⟨255, 255, 255⟩ 1 (List.replicate 35 0)
    ⟨0, 0⟩ 0 (by decide) (by decide) (by decide) (by decide)

/-- C6, amended.  Masking: when a container of the data model whose frames hold
fewer than `2 ^ 31` pixels is saved into a buffer with room, every pixel byte of a
frame is masked to the `k` low bits before it is encoded, `k` being the code size of
`get_color_res`, which for a resolved palette of colour resolution `r` is `max r 2`:
the buffers of the container saved and the frames that `Gif::load` decodes from the
written bytes hold `pixel & (2 ^ k - 1)` for every pixel.  For `r` from 2 to 8 this
is `pixel & (2 ^ r - 1)`; for `r = 1` the mask is 3, not 1. -/
theorem save_masks_pixels (g : Gif) (dst : List Nat) (s0 : Size) (b0 : Nat) (hv : g.Valid)
    (hlim : ∀ i ∈ g.imgs, i.rect.s.wd * i.rect.s.ht < 2 ^ 31)
    (hroom : (gif_bytes g).length ≤ dst.length) :
    ∃ g1 io1 g2 io2,
      Gif.save g (MemDevice.open_for_write dst) = some (g1, io1, true) ∧
      Gif.load (Gif.new s0 b0) (MemDevice.open_for_read io1.d.written) =
        some (g2, io2, true) ∧
      g1.imgs = g.imgs.map (fun i => i.masked (get_color_res i.cm g.cm).1) ∧
      g2.imgs = g.imgs.map (fun i => i.masked (get_color_res i.cm g.cm).1) ∧
      ∀ i ∈ g.imgs, ∀ c, resolved_cm i.cm g.cm = some c →
        (get_color_res i.cm g.cm).1 = max c.r 2 := by
  obtain ⟨io1, io2, e1, e2, _, _, _⟩ := gif_round_trip_masked g hv hlim dst hroom s0 b0
  exact ⟨_, io1, _, io2, e1, e2, rfl, rfl, fun i _ c hc => color_res_max i.cm g.cm c hc⟩

theorem save_masks_pixels_witness :
    ∃ g1 io1 g2 io2,
      Gif.save sample_wide (MemDevice.open_for_write (List.replicate 40 0)) =
        some (g1, io1, true) ∧
      Gif.load (Gif.new ⟨0, 0⟩ 0) (MemDevice.open_for_read io1.d.written) =
        some (g2, io2, true) ∧
      g1.imgs = sample_wide.imgs.map (fun i => i.masked (get_color_res i.cm sample_wide.cm).1) ∧
      g2.imgs = sample_wide.imgs.map (fun i => i.masked (get_color_res i.cm sample_wide.cm).1) ∧
      ∀ i ∈ sample_wide.imgs, ∀ c, resolved_cm i.cm sample_wide.cm = some c →
        (get_color_res i.cm sample_wide.cm).1 = max c.r 2 :=
  save_masks_pixels sample_wide (List.replicate 40 0) ⟨0, 0⟩ 0
    (by simp [Gif.Valid, Image.Valid, ColorMap.Valid, Extension.Valid, sample_wide])
    (by simp [sample_wide])
    (by decide)

/-- Counterexample of C6 as stated.  The container `one_bit_gif` has a palette of
colour resolution 1 and one pixel of value 3.  Save and load succeed and the pixel
decoded is 3, a value outside `[0, 2 ^ 1)`, whereas `3 & (2 ^ 1 - 1)` is 1. -/
theorem one_bit_palette_keeps_two_bits :
    ∃ g1 io1 g2 io2,
      Gif.save one_bit_gif (MemDevice.open_for_write (List.replicate 35 0)) =
        some (g1, io1, true) ∧
      Gif.load (Gif.new ⟨0, 0⟩ 0) (MemDevice.open_for_read io1.d.written) =
        some (g2, io2, true) ∧
      g2.imgs.map (fun i => i.b) = [[3]] ∧ [3].map (fun x => x &&& (2 ^ 1 - 1)) = [1] := by
  obtain ⟨io1, io2, e1, e2, _, _, _⟩ := gif_round_trip_masked one_bit_gif
    (one_pixel_valid _ _ _ _ _ _ (by decide) (by decide))
    (by
      intro i hi
      simp only [one_bit_gif, one_pixel_gif, List.mem_singleton] at hi
      subst hi
      show 1 * 1 < 2 ^ 31
      decide)
    (List.replicate 35 0) (by decide) ⟨0, 0⟩ 0
  exact ⟨_, io1, _, io2, e1, e2, by decide, by decide⟩

end gif

namespace gif

/-! ## Scalar codec and markers -/

theorem lo_byte_eq (w : Nat) : lo_byte w = w % 256 :=
  Nat.and_pow_two_sub_one_eq_mod w 8

theorem hi_byte_eq (w : Nat) (hw : w < 65536) : hi_byte w = w / 256 := by
  unfold hi_byte
  have h2 : (w >>> 8) &&& 0xff = (w >>> 8) % 2 ^ 8 := Nat.and_pow_two_sub_one_eq_mod _ 8
  have h3 : w >>> 8 = w / 2 ^ 8 := Nat.shiftRight_eq_div_pow w 8
  rw [h2, h3]
  omega

theorem word_bytes_eq (w : Nat) (hw : w < 65536) : word_bytes w = [w % 256, w / 256] := by
  have h1 := lo_byte_eq w
  have h2 := hi_byte_eq w hw
  unfold lo_byte at h1
  unfold hi_byte at h2
  unfold word_bytes
  rw [h1, h2]

theorem GifIO_push_written (io : GifIO) (bs : List Nat) (h : io.Room bs.length) :
    (io.push bs).d.written = io.d.written ++ bs :=
  MemDevice_push_written io.d bs h

/-- C13.  Scalar codec round trip: for every 16 bit word `w`, `GifIO::write(w)` into a
sink with room emits exactly the two bytes `w mod 256` (low byte first) and
`w div 256`, and `GifIO::read` of those two bytes returns `w` and consumes exactly
them; likewise an RGB (three bytes r, g, b), a Size (width, height), a Point (x, y)
and a Rect (x, y, width, height), whose members are 16 bit words written low byte
first: the read after the write returns the same value and consumes exactly the
bytes written. -/
theorem scalar_codec_round_trip (io ior : GifIO) (tl : List Nat) (w : Nat) (c : RGB)
    (s : Size) (p : Point) (r : Rect) (hroom : io.Room 8) (hw : w < 65536)
    (hs : s.wd < 65536 ∧ s.ht < 65536) (hp : p.x_val < 65536 ∧ p.y_val < 65536)
    (hr : r.p.x_val < 65536 ∧ r.p.y_val < 65536 ∧ r.s.wd < 65536 ∧ r.s.ht < 65536) :
    (∃ io1, io.write_word w = (io1, true) ∧
        io1.d.written = io.d.written ++ [w % 256, w / 256] ∧
        (ior.d.rest = [w % 256, w / 256] ++ tl →
          ∃ ior1, ior.read_word = (ior1, w, true) ∧ ior1.d.rest = tl)) ∧
      (∃ io1, io.write_rgb c = (io1, true) ∧
        io1.d.written = io.d.written ++ [c.r_val, c.g_val, c.b_val] ∧
        (ior.d.rest = [c.r_val, c.g_val, c.b_val] ++ tl →
          ∃ ior1, ior.read_rgb = (ior1, c, true) ∧ ior1.d.rest = tl)) ∧
      (∃ io1, io.write_size s = (io1, true) ∧
        io1.d.written = io.d.written ++ [s.wd % 256, s.wd / 256, s.ht % 256, s.ht / 256] ∧
        (ior.d.rest = [s.wd % 256, s.wd / 256, s.ht % 256, s.ht / 256] ++ tl →
          ∃ ior1, ior.read_size = (ior1, s, true) ∧ ior1.d.rest = tl)) ∧
      (∃ io1, io.write_point p = (io1, true) ∧
        io1.d.written =
          io.d.written ++ [p.x_val % 256, p.x_val / 256, p.y_val % 256, p.y_val / 256] ∧
        (ior.d.rest = [p.x_val % 256, p.x_val / 256, p.y_val % 256, p.y_val / 256] ++ tl →
          ∃ ior1, ior.read_point = (ior1, p, true) ∧ ior1.d.rest = tl)) ∧
      (∃ io1, io.write_rect r = (io1, true) ∧
        io1.d.written =
          io.d.written ++ [r.p.x_val % 256, r.p.x_val / 256, r.p.y_val % 256, r.p.y_val / 256,
            r.s.wd % 256, r.s.wd / 256, r.s.ht % 256, r.s.ht / 256] ∧
        (ior.d.rest = [r.p.x_val % 256, r.p.x_val / 256, r.p.y_val % 256, r.p.y_val / 256,
            r.s.wd % 256, r.s.wd / 256, r.s.ht % 256, r.s.ht / 256] ++ tl →
          ∃ ior1, ior.read_rect = (ior1, r, true) ∧ ior1.d.rest = tl)) := by
  have r2 : io.Room 2 := GifIO_Room_mono io hroom (by omega)
  have r3 : io.Room 3 := GifIO_Room_mono io hroom (by omega)
  have r4 : io.Room 4 := GifIO_Room_mono io hroom (by omega)
  have ew := word_bytes_eq w hw
  have esz : size_bytes s = [s.wd % 256, s.wd / 256, s.ht % 256, s.ht / 256] := by
    rw [size_bytes, word_bytes_eq _ hs.1, word_bytes_eq _ hs.2]; rfl
  have ept : point_bytes p = [p.x_val % 256, p.x_val / 256, p.y_val % 256, p.y_val / 256] := by
    rw [point_bytes, word_bytes_eq _ hp.1, word_bytes_eq _ hp.2]; rfl
  have erc : rect_bytes r = [r.p.x_val % 256, r.p.x_val / 256, r.p.y_val % 256, r.p.y_val / 256,
      r.s.wd % 256, r.s.wd / 256, r.s.ht % 256, r.s.ht / 256] := by
    rw [rect_bytes, point_bytes, size_bytes, word_bytes_eq _ hr.1, word_bytes_eq _ hr.2.1,
      word_bytes_eq _ hr.2.2.1, word_bytes_eq _ hr.2.2.2]; rfl
  refine ⟨?_, ?_, ?_, ?_, ?_⟩
  · refine ⟨io.push (word_bytes w), GifIO_write_word_room io w r2, ?_, ?_⟩
    · rw [GifIO_push_written io (word_bytes w) r2, ew]
    · intro h
      rw [← ew] at h
      exact ⟨ior.skip 2, GifIO_read_word_rest ior w tl hw h,
        GifIO_skip_rest_n ior 2 (word_bytes w) tl rfl h⟩
  · refine ⟨io.push [c.r_val, c.g_val, c.b_val], GifIO_write_rgb_room io c r3,
      GifIO_push_written io _ r3, ?_⟩
    intro h
    exact ⟨ior.skip 3, GifIO_read_rgb_rest ior c tl h,
      GifIO_skip_rest_n ior 3 [c.r_val, c.g_val, c.b_val] tl rfl h⟩
  · refine ⟨io.push (size_bytes s), GifIO_write_size_bytes io s r4, ?_, ?_⟩
    · rw [GifIO_push_written io (size_bytes s) r4, esz]
    · intro h
      rw [← esz] at h
      exact ⟨ior.skip 4, GifIO_read_size_rest ior s tl hs.1 hs.2 h,
        GifIO_skip_rest_n ior 4 (size_bytes s) tl rfl h⟩
  · refine ⟨io.push (point_bytes p), GifIO_write_point_bytes io p r4, ?_, ?_⟩
    · rw [GifIO_push_written io (point_bytes p) r4, ept]
    · intro h
      rw [← ept] at h
      exact ⟨ior.skip 4, GifIO_read_point_rest ior p tl hp.1 hp.2 h,
        GifIO_skip_rest_n ior 4 (point_bytes p) tl rfl h⟩
  · refine ⟨io.push (rect_bytes r), GifIO_write_rect_bytes io r hroom, ?_, ?_⟩
    · rw [GifIO_push_written io (rect_bytes r) hroom, erc]
    · intro h
      rw [← erc] at h
      exact ⟨ior.skip 8, GifIO_read_rect_rest ior r tl hr.1 hr.2.1 hr.2.2.1 hr.2.2.2 h,
        GifIO_skip_rest_n ior 8 (rect_bytes r) tl rfl h⟩

theorem scalar_codec_round_trip_witness :
    ∃ io1, ( GifIO.mk_dev (MemDevice.open_for_write (List.replicate 8 0))).write_word 0x1234 =
        (io1, true) ∧
      io1.d.written =
        ( GifIO.mk_dev (MemDevice.open_for_write (List.replicate 8 0))).d.written ++
          [0x34, 0x12] ∧
      (( GifIO.mk_dev (MemDevice.open_for_read [0x34, 0x12, 7])).d.rest = [0x34, 0x12] ++ [7] →
        ∃ ior1, ( GifIO.mk_dev (MemDevice.open_for_read [0x34, 0x12, 7])).read_word =
            (ior1, 0x1234, true) ∧ ior1.d.rest = [7]) :=
  (scalar_codec_round_trip ( GifIO.mk_dev (MemDevice.open_for_write (List.replicate 8 0)))
    ( GifIO.mk_dev (MemDevice.open_for_read [0x34, 0x12, 7])) [7] 0x1234 ⟨1, 2, 3⟩ ⟨640, 480⟩
    ⟨10, 20⟩ ⟨⟨10, 20⟩, ⟨640, 480⟩⟩ (by decide) (by decide) (by decide) (by decide)
    (by decide)).1

/-! ### Markers -/

/-- C19, amended.  Delay marker: for every requested duration `d` (a 16 bit value),
`create_delay_mark(d)` returns a graphics control extension (function code 0xf9)
with exactly one chunk of exactly four bytes `4, lo, hi, 0`, where the wire delay
`lo + 256 * hi` is `d + 2` reduced modulo `2 ^ 16`: it equals `d + 2` for every `d`
up to 65533, and is 0 and 1 for the durations 65534 and 65535. -/
theorem delay_mark_chunk (d : Nat) (hd : d < 65536) :
    ∃ lo hi, create_delay_mark d = { fn := 0xf9, list := [[4, lo, hi, 0]] } ∧
      lo < 256 ∧ hi < 256 ∧ lo + 256 * hi = (d + 2) % 65536 ∧
      (d ≤ 65533 → lo + 256 * hi = d + 2) := by
  have hm : (d + 2) % 2 ^ 16 < 65536 := Nat.mod_lt _ (by norm_num)
  refine ⟨((d + 2) % 2 ^ 16) % 256, ((d + 2) % 2 ^ 16) / 256, ?_, ?_, ?_, ?_, ?_⟩
  · simp only [create_delay_mark, Extension.append, Extension.graphics, List.nil_append,
      lo_byte_eq, hi_byte_eq _ hm]
  · omega
  · omega
  · omega
  · intro h
    omega

theorem delay_mark_chunk_witness :
    ∃ lo hi, create_delay_mark 98 = { fn := 0xf9, list := [[4, lo, hi, 0]] } ∧
      lo < 256 ∧ hi < 256 ∧ lo + 256 * hi = (98 + 2) % 65536 ∧
      (98 ≤ 65533 → lo + 256 * hi = 98 + 2) :=
  delay_mark_chunk 98 (by decide)

/-- Counterexample of C19 as stated: for the duration 65535 the chunk is
`4, 1, 0, 0`, a wire delay of 1, not 65537. -/
theorem delay_mark_wraps :
    create_delay_mark 65535 = { fn := 0xf9, list := [[4, 1, 0, 0]] } ∧
      1 + 256 * 0 ≠ 65535 + 2 := by
  decide

/-- C20.  Animation marker: for every 16 bit replay count `n`,
`create_animation_mark(n)` returns an application extension (function code 0xff)
with exactly two chunks, the first being the 11 ASCII bytes of the text NETSCAPE2.0
and the second the three bytes `1, n mod 256, n div 256`. -/
theorem animation_mark_chunks (n : Nat) (hn : n < 65536) :
    create_animation_mark n =
        { fn := 0xff,
          list := [[0x4e, 0x45, 0x54, 0x53, 0x43, 0x41, 0x50, 0x45, 0x32, 0x2e, 0x30],
            [1, n % 256, n / 256]] } ∧
      [0x4e, 0x45, 0x54, 0x53, 0x43, 0x41, 0x50, 0x45, 0x32, 0x2e, 0x30] =
        "NETSCAPE2.0".toList.map Char.toNat := by
  constructor
  · simp only [create_animation_mark, Extension.append, Extension.application, List.nil_append,
      lo_byte_eq, hi_byte_eq _ hn, List.cons_append]
  · decide

theorem animation_mark_chunks_witness :
    create_animation_mark 0x0102 =
        { fn := 0xff,
          list := [[0x4e, 0x45, 0x54, 0x53, 0x43, 0x41, 0x50, 0x45, 0x32, 0x2e, 0x30],
            [1, 0x0102 % 256, 0x0102 / 256]] } ∧
      [0x4e, 0x45, 0x54, 0x53, 0x43, 0x41, 0x50, 0x45, 0x32, 0x2e, 0x30] =
        "NETSCAPE2.0".toList.map Char.toNat :=
  animation_mark_chunks 0x0102 (by decide)

end gif

namespace gif

/-! ## Record tags -/

theorem read_record_bad (io : GifIO) (b : Nat) (tl : List Nat) (h : io.d.rest = b :: tl)
    (h1 : b ≠ 0x21) (h2 : b ≠ 0x2c) (h3 : b ≠ 0x3b) :
    io.read_record =
      ((io.skip 1).set_error ErrorCode.wrong_record, GifRecordType.undefined, false) := by
  rw [GifIO_read_record_rest io b tl h]
  have e1 : ¬ b = Gif_descriptor := h2
  have e2 : ¬ b = Gif_extension := h1
  have e3 : ¬ b = Gif_terminator := h3
  rw [if_neg e1, if_neg e2, if_neg e3]

/-- An unknown tag ends the record loop of `Gif::load` at once. -/
theorem gif_load_loop_bad (g : Gif) (io : GifIO) (xs : List Extension) (fuel : Nat) (b : Nat)
    (tl : List Nat) (h : io.d.rest = b :: tl) (h1 : b ≠ 0x21) (h2 : b ≠ 0x2c)
    (h3 : b ≠ 0x3b) :
    ∃ io1, Gif.load_loop (fuel + 1) g io xs = some (g, io1, xs, false) ∧
      io1.e = ErrorCode.wrong_record ∧ io1.d.rest = tl := by
  refine ⟨((io.skip 1).set_error ErrorCode.wrong_record).set_error ErrorCode.wrong_record, ?_,
    rfl, GifIO_skip_rest_n io 1 [b] tl rfl h⟩
  rw [Gif.load_loop, Gif.load_record, read_record_bad io b tl h h1 h2 h3]
  simp only [Bool.not_false, if_true]

/-- The record loop of `Gif::load` over the records of the frames and of the
trailing extensions of a container. -/
theorem gif_load_loop_records (g : Gif) (hv : g.Valid)
    (hlim : ∀ i ∈ g.imgs, i.rect.s.wd * i.rect.s.ht < 2 ^ 31) (g0 : Gif) (io : GifIO)
    (after : List Nat) (k : Nat)
    (h : io.d.rest = images_bytes g.imgs g.cm ++ (exts_bytes g.exs ++ after)) :
    ∃ io1, Gif.load_loop
          ((k + g.exs.length) + (g.imgs.map (fun i => i.exts.length + 1)).sum) g0 io [] =
        Gif.load_loop k { g0 with imgs := g0.imgs ++ g.imgs.map (fun i => i.saved g.cm) } io1
          g.exs ∧
      io1.d.rest = after ∧ io1.e = io.e := by
  obtain ⟨_, _, hcm, himgs, hexs⟩ := hv
  obtain ⟨io1, e1, e2, e3⟩ := gif_load_loop_imgs g.cm hcm _ g.imgs g0 io (k + g.exs.length)
    (fun i hi => ⟨himgs i hi, hlim i hi⟩) h
  obtain ⟨io2, f1, f2, f3⟩ := gif_load_loop_exts _ g.exs [] k
    { g0 with imgs := g0.imgs ++ g.imgs.map (fun i => i.saved g.cm) } io1 hexs e2
  refine ⟨io2, ?_, f2, by rw [f3, e3]⟩
  rw [e1, f1, List.nil_append]

/-- `Gif::load` on a stream that holds, after the header, the screen descriptor and
the records of a container, a byte that is no record tag. -/
theorem gif_load_bad_tag (g : Gif) (hv : g.Valid)
    (hlim : ∀ i ∈ g.imgs, i.rect.s.wd * i.rect.s.ht < 2 ^ 31) (s0 : Size) (b0 : Nat)
    (dev : MemDevice) (b : Nat) (tl : List Nat)
    (h : dev.rest = scr_bytes g ++ (images_bytes g.imgs g.cm ++ (exts_bytes g.exs ++ b :: tl)))
    (h1 : b ≠ 0x21) (h2 : b ≠ 0x2c) (h3 : b ≠ 0x3b) :
    ∃ io1, Gif.load (Gif.new s0 b0) dev =
        some ({ g with imgs := g.imgs.map (fun i => i.saved g.cm), exs := [] }, io1, false) ∧
      io1.e = ErrorCode.wrong_record ∧ io1.d.rest = tl := by
  have hv0 := hv
  obtain ⟨hw, hh, hcm, himgs, hexs⟩ := hv
  have hh1 : ( GifIO.mk_dev dev).d.rest = [0x47, 0x49, 0x46, 0x38, 0x39, 0x61] ++
      (size_bytes g.sz ++ ([Gif.scr_flags g.cm, g.bg, 0] ++ (cm_bytes g.cm ++
        (images_bytes g.imgs g.cm ++ (exts_bytes g.exs ++ b :: tl))))) := by
    show dev.rest = _
    rw [h, scr_bytes]
    simp only [List.cons_append, List.nil_append, List.append_assoc]
  have hh2 := GifIO_skip_rest_n ( GifIO.mk_dev dev) 6 [0x47, 0x49, 0x46, 0x38, 0x39, 0x61] _ rfl hh1
  obtain ⟨io1, e1, e2, e3⟩ := gif_load_scr_desc g (Gif.new s0 b0) hw hh hcm rfl
    (( GifIO.mk_dev dev).skip 6) _ hh2
  have e1' : (Gif.new s0 b0).load_scr_desc (( GifIO.mk_dev dev).skip 6) =
      ({ sz := g.sz, bg := g.bg, imgs := [], exs := [], cm := g.cm }, io1, true) := e1
  obtain ⟨k, hk⟩ : ∃ k, io1.d.bytesLeft + 1 =
      (((k + 1) + g.exs.length) + (g.imgs.map (fun i => i.exts.length + 1)).sum) := by
    refine ⟨io1.d.bytesLeft - g.exs.length - (g.imgs.map (fun i => i.exts.length + 1)).sum, ?_⟩
    rw [MemDevice_bytesLeft_eq, e2]
    have a1 := images_bytes_length g.cm g.imgs (fun i hi => by
      obtain ⟨_, _, hw16, hh16, hw1, hh1, _⟩ := himgs i hi
      exact area_ne_zero i hw1 hh1 hw16 hh16)
    have a2 := exts_bytes_length g.exs
    simp only [List.length_append, List.length_cons]
    omega
  obtain ⟨io2, f1, f2, f3⟩ := gif_load_loop_records g hv0 hlim
    { sz := g.sz, bg := g.bg, imgs := [], exs := [], cm := g.cm } io1 (b :: tl) (k + 1) e2
  obtain ⟨io3, i1, i2, i3⟩ := gif_load_loop_bad
    { sz := g.sz, bg := g.bg, imgs := [] ++ g.imgs.map (fun i => i.saved g.cm), exs := [],
      cm := g.cm } io2 g.exs k b tl f2 h1 h2 h3
  have hloop : Gif.load_loop (io1.d.bytesLeft + 1)
      { sz := g.sz, bg := g.bg, imgs := [], exs := [], cm := g.cm } io1 [] =
      some ({ sz := g.sz, bg := g.bg, imgs := [] ++ g.imgs.map (fun i => i.saved g.cm),
              exs := [], cm := g.cm }, io3, g.exs, false) := by
    rw [hk, f1]
    exact i1
  have hp := probe_six ( GifIO.mk_dev dev) [0x47, 0x49, 0x46, 0x38, 0x39, 0x61] _ rfl hh1
  have hm : List.take 3 [0x47, 0x49, 0x46, 0x38, 0x39, 0x61] = magic := rfl
  rw [if_pos hm] at hp
  refine ⟨io3, ?_, i2, i3⟩
  unfold Gif.load
  simp only [hp, Bool.not_true, Bool.false_eq_true, if_false, e1', hloop, Bool.not_false,
    if_true, List.nil_append]

/-- C12.  Record-tag decode: reading a record tag maps the wire byte 0x21 to
`extension`, 0x2c to `image_desc` and 0x3b to `terminate` and succeeds, consuming
that byte; for every other byte value it fails with the error code `wrong_record`,
the record loop of `Gif::load` ends there with failure, and `Gif::load` on a stream
that holds such a byte after the header, the screen descriptor and any records of
frames and extensions returns failure with `wrong_record` right after that byte,
without consuming any further byte. -/
theorem record_tag_decode (io : GifIO) (b : Nat) (tl : List Nat) (h : io.d.rest = b :: tl) :
    (b = 0x21 → ∃ io1, io.read_record = (io1, GifRecordType.extension, true) ∧
        io1.d.rest = tl ∧ io1.e = io.e) ∧
      (b = 0x2c → ∃ io1, io.read_record = (io1, GifRecordType.image_desc, true) ∧
        io1.d.rest = tl ∧ io1.e = io.e) ∧
      (b = 0x3b → ∃ io1, io.read_record = (io1, GifRecordType.terminate, true) ∧
        io1.d.rest = tl ∧ io1.e = io.e) ∧
      (b ≠ 0x21 → b ≠ 0x2c → b ≠ 0x3b →
        (∃ io1, io.read_record = (io1, GifRecordType.undefined, false) ∧
          io1.d.rest = tl ∧ io1.e = ErrorCode.wrong_record) ∧
        (∀ (g : Gif) (xs : List Extension) (fuel : Nat),
          ∃ io1, Gif.load_loop (fuel + 1) g io xs = some (g, io1, xs, false) ∧
            io1.e = ErrorCode.wrong_record ∧ io1.d.rest = tl) ∧
        (∀ (g : Gif) (s0 : Size) (b0 : Nat) (dev : MemDevice), g.Valid →
          (∀ i ∈ g.imgs, i.rect.s.wd * i.rect.s.ht < 2 ^ 31) →
          dev.rest =
            scr_bytes g ++ (images_bytes g.imgs g.cm ++ (exts_bytes g.exs ++ b :: tl)) →
          ∃ g1 io1, Gif.load (Gif.new s0 b0) dev = some (g1, io1, false) ∧
            io1.e = ErrorCode.wrong_record ∧ io1.d.rest = tl)) := by
  have hs := GifIO_skip_rest_n io 1 [b] tl rfl h
  refine ⟨?_, ?_, ?_, ?_⟩
  · intro hb
    subst hb
    exact ⟨io.skip 1, read_record_ext io tl h, hs, rfl⟩
  · intro hb
    subst hb
    exact ⟨io.skip 1, read_record_desc io tl h, hs, rfl⟩
  · intro hb
    subst hb
    exact ⟨io.skip 1, read_record_term io tl h, hs, rfl⟩
  · intro h1 h2 h3
    refine ⟨⟨_, read_record_bad io b tl h h1 h2 h3, hs, rfl⟩, ?_, ?_⟩
    · intro g xs fuel
      exact gif_load_loop_bad g io xs fuel b tl h h1 h2 h3
    · intro g s0 b0 dev hv hlim hd
      obtain ⟨io1, e1, e2, e3⟩ := gif_load_bad_tag g hv hlim s0 b0 dev b tl hd h1 h2 h3
      exact ⟨_, io1, e1, e2, e3⟩

theorem record_tag_decode_witness :
    (0x2d = 0x21 → ∃ io1, ( GifIO.mk_dev (MemDevice.open_for_read [0x2d, 1, 2])).read_record =
          (io1, GifRecordType.extension, true) ∧
        io1.d.rest = [1, 2] ∧ io1.e = ( GifIO.mk_dev (MemDevice.open_for_read [0x2d, 1, 2])).e) ∧
      (0x2d = 0x2c → ∃ io1, ( GifIO.mk_dev (MemDevice.open_for_read [0x2d, 1, 2])).read_record =
          (io1, GifRecordType.image_desc, true) ∧
        io1.d.rest = [1, 2] ∧ io1.e = ( GifIO.mk_dev (MemDevice.open_for_read [0x2d, 1, 2])).e) ∧
      (0x2d = 0x3b → ∃ io1, ( GifIO.mk_dev (MemDevice.open_for_read [0x2d, 1, 2])).read_record =
          (io1, GifRecordType.terminate, true) ∧
        io1.d.rest = [1, 2] ∧ io1.e = ( GifIO.mk_dev (MemDevice.open_for_read [0x2d, 1, 2])).e) ∧
      (0x2d ≠ 0x21 → 0x2d ≠ 0x2c → 0x2d ≠ 0x3b →
        (∃ io1, ( GifIO.mk_dev (MemDevice.open_for_read [0x2d, 1, 2])).read_record =
            (io1, GifRecordType.undefined, false) ∧
          io1.d.rest = [1, 2] ∧ io1.e = ErrorCode.wrong_record) ∧
        (∀ (g : Gif) (xs : List Extension) (fuel : Nat),
          ∃ io1, Gif.load_loop (fuel + 1) g
              ( GifIO.mk_dev (MemDevice.open_for_read [0x2d, 1, 2])) xs =
              some (g, io1, xs, false) ∧
            io1.e = ErrorCode.wrong_record ∧ io1.d.rest = [1, 2]) ∧
        (∀ (g : Gif) (s0 : Size) (b0 : Nat) (dev : MemDevice), g.Valid →
          (∀ i ∈ g.imgs, i.rect.s.wd * i.rect.s.ht < 2 ^ 31) →
          dev.rest =
            scr_bytes g ++ (images_bytes g.imgs g.cm ++ (exts_bytes g.exs ++ 0x2d :: [1, 2])) →
          ∃ g1 io1, Gif.load (Gif.new s0 b0) dev = some (g1, io1, false) ∧
            io1.e = ErrorCode.wrong_record ∧ io1.d.rest = [1, 2])) :=
  record_tag_decode ( GifIO.mk_dev (MemDevice.open_for_read [0x2d, 1, 2])) 0x2d [1, 2] rfl

end gif

namespace gif

/-! ## Image descriptor -/

theorem rect_bytes_eq (r : Rect) (hx : r.p.x_val < 65536) (hy : r.p.y_val < 65536)
    (hw : r.s.wd < 65536) (hh : r.s.ht < 65536) :
    rect_bytes r = [r.p.x_val % 256, r.p.x_val / 256, r.p.y_val % 256, r.p.y_val / 256,
      r.s.wd % 256, r.s.wd / 256, r.s.ht % 256, r.s.ht / 256] := by
  rw [rect_bytes, point_bytes, size_bytes, word_bytes_eq _ hx, word_bytes_eq _ hy,
    word_bytes_eq _ hw, word_bytes_eq _ hh]
  rfl

/-- The flags byte of a descriptor in the terms of the colour resolution. -/
theorem descr_flags_eq (img : Image) (hcm : ∀ c, img.cm = some c → c.Valid) :
    descr_flags img =
      (if img.cm.isSome then 0x80 else 0x00) ||| (if img.interlace then 0x40 else 0x00) |||
        (match img.cm with
          | some c => c.r - 1
          | none => 0) := by
  unfold descr_flags
  cases hc : img.cm with
  | none => rfl
  | some c =>
    obtain ⟨c1, c8, _⟩ := hcm c hc
    have : (c.r + 255) % 256 = c.r - 1 := by omega
    simp only [this]

/-- C15.  Image descriptor round trip: for every image with a rect `R` of 16 bit
members, an interlace flag and an optional local palette of colour resolution `r`
from 1 to 8 that holds `2 ^ r` entries, `save_descr` into a sink with room writes
the leader 0x2c, then `R` as four little-endian words (x, y, width, height), then
one flags byte equal to (0x80 if a local palette is present) | (0x40 if interlaced)
| (r - 1), then the entries of the local palette if present; and `load_desc`
applied to the bytes that follow the leader succeeds, consumes exactly them and
recovers the same rect and interlace flag, the same presence of a local palette,
the colour resolution `(flags & 7) + 1 = r` and the same palette entries. -/
theorem descriptor_round_trip (img : Image) (io ior : GifIO) (tl : List Nat)
    (hrect : img.rect.p.x_val < 65536 ∧ img.rect.p.y_val < 65536 ∧
      img.rect.s.wd < 65536 ∧ img.rect.s.ht < 65536)
    (hcm : ∀ c, img.cm = some c → c.Valid) (hroom : io.Room (descr_bytes img).length) :
    ∃ io1 flags,
      img.save_descr io = (io1, true) ∧
      io1.d.written = io.d.written ++
        ([0x2c] ++
          [img.rect.p.x_val % 256, img.rect.p.x_val / 256, img.rect.p.y_val % 256,
            img.rect.p.y_val / 256, img.rect.s.wd % 256, img.rect.s.wd / 256,
            img.rect.s.ht % 256, img.rect.s.ht / 256] ++
          [flags] ++ cm_bytes img.cm) ∧
      flags =
        ((if img.cm.isSome then 0x80 else 0x00) ||| (if img.interlace then 0x40 else 0x00) |||
          (match img.cm with
            | some c => c.r - 1
            | none => 0)) ∧
      (∀ c, img.cm = some c →
        (flags &&& 0x07) + 1 = c.r ∧ cm_bytes img.cm = rgbs_bytes c.c ∧
          (cm_bytes img.cm).length = 3 * 2 ^ c.r) ∧
      (ior.d.rest =
          ([img.rect.p.x_val % 256, img.rect.p.x_val / 256, img.rect.p.y_val % 256,
            img.rect.p.y_val / 256, img.rect.s.wd % 256, img.rect.s.wd / 256,
            img.rect.s.ht % 256, img.rect.s.ht / 256] ++
          [flags] ++ cm_bytes img.cm) ++ tl →
        ∃ ior1, Image.new.load_desc ior =
            ({ interlace := img.interlace, exts := [], rect := img.rect, b := [],
               cm := img.cm }, ior1, true) ∧
          ior1.d.rest = tl ∧ ior1.e = ior.e) := by
  obtain ⟨hx, hy, hw, hh⟩ := hrect
  have erc := rect_bytes_eq img.rect hx hy hw hh
  have efl := descr_flags_eq img hcm
  refine ⟨io.push (descr_bytes img), descr_flags img, Image_save_descr_room img io hroom, ?_,
    efl, ?_, ?_⟩
  · rw [GifIO_push_written io (descr_bytes img) hroom, descr_bytes, erc]
    rfl
  · intro c hc
    obtain ⟨c1, c8, cl⟩ := hcm c hc
    obtain ⟨_, _, f3⟩ := descr_flag_bits_some img.interlace c.r c1 c8
    have hf : descr_flags img =
        (0x80 ||| (if img.interlace = true then 0x40 else 0x00) ||| ((c.r + 255) % 256)) := by
      simp only [descr_flags, hc, Option.isSome_some, if_true]
    refine ⟨by rw [hf]; exact f3, by rw [hc]; rfl, ?_⟩
    rw [hc]
    show (rgbs_bytes c.c).length = _
    rw [rgbs_bytes_len, cl]
  · intro h
    rw [← erc] at h
    exact img_load_desc img hx hy hw hh hcm ior tl (by
      rw [h]
      simp only [List.cons_append, List.nil_append, List.append_assoc])

theorem descriptor_round_trip_witness :
    ∃ io1 flags,
      (sample_anim.imgs.getD 1 Image.new).save_descr
          ( GifIO.mk_dev (MemDevice.open_for_write (List.replicate 22 0))) = (io1, true) ∧
      io1.d.written =
        ( GifIO.mk_dev (MemDevice.open_for_write (List.replicate 22 0))).d.written ++
        ([0x2c] ++ [2, 0, 0, 0, 2, 0, 2, 0] ++ [flags] ++
          cm_bytes (sample_anim.imgs.getD 1 Image.new).cm) ∧
      flags = 0xc1 ∧
      (( GifIO.mk_dev (MemDevice.open_for_read
          [2, 0, 0, 0, 2, 0, 2, 0, 0xc1, 0, 0, 0, 255, 0, 0, 0, 255, 0, 0, 0, 255, 9])).d.rest =
          ([2, 0, 0, 0, 2, 0, 2, 0] ++ [flags] ++
            cm_bytes (sample_anim.imgs.getD 1 Image.new).cm) ++ [9] →
        ∃ ior1, Image.new.load_desc ( GifIO.mk_dev (MemDevice.open_for_read
            [2, 0, 0, 0, 2, 0, 2, 0, 0xc1, 0, 0, 0, 255, 0, 0, 0, 255, 0, 0, 0, 255, 9])) =
            ({ interlace := true, exts := [], rect := ⟨⟨2, 0⟩, ⟨2, 2⟩⟩, b := [],
               cm := (sample_anim.imgs.getD 1 Image.new).cm }, ior1, true) ∧
          ior1.d.rest = [9] ∧ ior1.e = ErrorCode.ok) := by
  obtain ⟨io1, flags, e1, e2, e3, _, e5⟩ := descriptor_round_trip
    (sample_anim.imgs.getD 1 Image.new)
    ( GifIO.mk_dev (MemDevice.open_for_write (List.replicate 22 0)))
    ( GifIO.mk_dev (MemDevice.open_for_read
      [2, 0, 0, 0, 2, 0, 2, 0, 0xc1, 0, 0, 0, 255, 0, 0, 0, 255, 0, 0, 0, 255, 9])) [9]
    (by decide)
    (by
      intro c hc
      have hc2 : c = { r := 2, c := [⟨0, 0, 0⟩, ⟨255, 0, 0⟩, ⟨0, 255, 0⟩, ⟨0, 0, 255⟩] } :=
        (Option.some.inj hc).symm
      rw [hc2]
      exact ⟨by decide, by decide, rfl⟩)
    (by decide)
  exact ⟨io1, flags, e1, e2, e3, e5⟩

end gif

namespace gif

/-! ## Extension records -/

theorem chunks_bytes_eq (l : List (List Nat)) (h : ∀ ch ∈ l, 1 ≤ ch.length ∧ ch.length ≤ 255) :
    chunks_bytes l = l.flatMap (fun c => c.length :: c) := by
  induction l with
  | nil => rfl
  | cons c rest ih =>
    have hc := h c (List.mem_cons_self _ _)
    rw [chunks_bytes_cons, ih (fun x hx => h x (List.mem_cons_of_mem _ hx)), List.flatMap_cons,
      Nat.mod_eq_of_lt (by omega)]

theorem ext_bytes_eq (e : Extension) (hv : e.Valid) :
    ext_bytes e = [0x21, e.fn] ++ e.list.flatMap (fun c => c.length :: c) ++ [0] := by
  rw [ext_bytes, chunks_bytes_eq e.list hv.2, Nat.mod_eq_of_lt hv.1]
  rfl

/-- C17, amended.  Extension round trip: for every extension with an 8 bit function
code `f` and an ordered list of chunks of 1 to 255 bytes each, `Extension::save`
into a sink with room writes the leader byte 0x21, the byte `f`, then for each chunk
one length byte followed by the bytes of the chunk, then one terminating zero byte;
and `Extension::load` applied to the bytes that follow the leader succeeds, consumes
exactly those bytes and yields the same function code and the same ordered chunk
list.  (An empty chunk is written as a zero length byte, which is the terminator of
the record.) -/
theorem extension_round_trip (e : Extension) (io ior : GifIO) (tl : List Nat) (hv : e.Valid)
    (hroom : io.Room (ext_bytes e).length) :
    ∃ io1, e.save io = (io1, true) ∧
      ext_bytes e = [0x21, e.fn] ++ e.list.flatMap (fun c => c.length :: c) ++ [0] ∧
      io1.d.written =
        io.d.written ++ ([0x21, e.fn] ++ e.list.flatMap (fun c => c.length :: c) ++ [0]) ∧
      (ior.d.rest = ([e.fn] ++ e.list.flatMap (fun c => c.length :: c) ++ [0]) ++ tl →
        ∃ ior1, Extension.new.load ior = some (e, ior1, true) ∧ ior1.d.rest = tl ∧
          ior1.e = ior.e) := by
  have he := ext_bytes_eq e hv
  refine ⟨io.push (ext_bytes e), Extension_save_room e io hroom, he, ?_, ?_⟩
  · rw [GifIO_push_written io (ext_bytes e) hroom, he]
  · intro h
    apply ext_load e hv ior tl
    rw [h, Nat.mod_eq_of_lt hv.1, chunks_bytes_eq e.list hv.2]
    simp only [List.cons_append, List.nil_append, List.append_assoc]

theorem extension_round_trip_witness :
    ∃ io1, (create_delay_mark 98).save
          ( GifIO.mk_dev (MemDevice.open_for_write (List.replicate 8 0))) = (io1, true) ∧
      ext_bytes (create_delay_mark 98) =
        [0x21, (create_delay_mark 98).fn] ++
          (create_delay_mark 98).list.flatMap (fun c => c.length :: c) ++ [0] ∧
      io1.d.written =
        ( GifIO.mk_dev (MemDevice.open_for_write (List.replicate 8 0))).d.written ++
          ([0x21, (create_delay_mark 98).fn] ++
            (create_delay_mark 98).list.flatMap (fun c => c.length :: c) ++ [0]) ∧
      (( GifIO.mk_dev (MemDevice.open_for_read [0xf9, 4, 4, 100, 0, 0, 0, 0x3b])).d.rest =
          ([(create_delay_mark 98).fn] ++
            (create_delay_mark 98).list.flatMap (fun c => c.length :: c) ++ [0]) ++ [0x3b] →
        ∃ ior1, Extension.new.load
              ( GifIO.mk_dev (MemDevice.open_for_read [0xf9, 4, 4, 100, 0, 0, 0, 0x3b])) =
            some (create_delay_mark 98, ior1, true) ∧
          ior1.d.rest = [0x3b] ∧
          ior1.e = ( GifIO.mk_dev (MemDevice.open_for_read [0xf9, 4, 4, 100, 0, 0, 0, 0x3b])).e) :=
  extension_round_trip (create_delay_mark 98)
    ( GifIO.mk_dev (MemDevice.open_for_write (List.replicate 8 0)))
    ( GifIO.mk_dev (MemDevice.open_for_read [0xf9, 4, 4, 100, 0, 0, 0, 0x3b])) [0x3b]
    (by unfold Extension.Valid; decide) (by decide)

/-- Counterexample of C17 as stated, at the extension with the function code 0xf9
and one chunk of no bytes: `Extension::save` writes 0x21, 0xf9, 0, 0 and succeeds;
`Extension::load` of the three bytes after the leader succeeds with an empty chunk
list and leaves the last byte unread. -/
theorem extension_empty_chunk_lost :
    (empty_chunk_ext.save ( GifIO.mk_dev (MemDevice.open_for_write (List.replicate 4 0)))).2 =
        true ∧
      (empty_chunk_ext.save
        ( GifIO.mk_dev (MemDevice.open_for_write (List.replicate 4 0)))).1.d.written =
        [0x21, 0xf9, 0, 0] ∧
      (Extension.new.load ( GifIO.mk_dev (MemDevice.open_for_read [0xf9, 0, 0]))).map
          (fun r => (r.1.fn, r.1.list, r.2.1.d.rest, r.2.2)) =
        some (0xf9, [], [0], true) ∧
      empty_chunk_ext.list ≠ [] := by
  decide

end gif

namespace gif

/-! ## Palettes: what a successful load has read -/

theorem MemDevice_read_full (dev : MemDevice) (n : Nat) (h : (dev.read n).2.length = n) :
    (dev.read n).1 = dev.skip n ∧ dev.rest = (dev.read n).2 ++ (dev.skip n).rest := by
  unfold MemDevice.read at h ⊢
  simp only [List.length_take, List.length_drop] at h
  have hb : dev.bytesLeft = dev.d.length - dev.p := rfl
  by_cases hn : n > dev.bytesLeft
  · rw [if_pos hn] at h
    omega
  · simp only [if_neg hn, MemDevice.skip, MemDevice.rest, true_and]
    rw [← List.drop_drop, List.take_append_drop]

theorem GifIO_read_rgb_ok (io : GifIO) (h : io.read_rgb.2.2 = true) :
    io.read_rgb.1 = io.skip 3 ∧
      io.d.rest = [io.read_rgb.2.1.r_val, io.read_rgb.2.1.g_val, io.read_rgb.2.1.b_val] ++
        (io.skip 3).d.rest := by
  unfold GifIO.read_rgb at h ⊢
  by_cases hl : (io.d.read 3).2.length = 3
  · obtain ⟨e1, e2⟩ := MemDevice_read_full io.d 3 hl
    have hb : ((io.d.read 3).2.length != 3) = false := by simp [hl]
    simp only [hb, Bool.false_eq_true, if_false]
    refine ⟨by rw [e1]; rfl, ?_⟩
    obtain ⟨x, y, z, hxyz⟩ : ∃ x y z, (io.d.read 3).2 = [x, y, z] := by
      match hm : (io.d.read 3).2, hl with
      | [x, y, z], _ => exact ⟨x, y, z, rfl⟩
    rw [hxyz] at e2 ⊢
    exact e2
  · have hb : ((io.d.read 3).2.length != 3) = true := by simp [hl]
    simp only [hb, if_true] at h
    exact absurd h (by decide)

theorem cm_load_loop_ok :
    ∀ (n : Nat) (cm : ColorMap) (io : GifIO), (ColorMap.load_loop n cm io).2.2 = true →
      ∃ c : List RGB, c.length = n ∧
        (ColorMap.load_loop n cm io).1 = { cm with c := cm.c ++ c } ∧
        io.d.rest = rgbs_bytes c ++ (ColorMap.load_loop n cm io).2.1.d.rest ∧
        (ColorMap.load_loop n cm io).2.1.e = io.e := by
  intro n
  induction n with
  | zero =>
    intro cm io _
    exact ⟨[], rfl, by simp [ColorMap.load_loop], by simp [ColorMap.load_loop, rgbs_bytes], rfl⟩
  | succ n ih =>
    intro cm io h
    rw [ColorMap.load_loop] at h ⊢
    by_cases hr : io.read_rgb.2.2 = true
    · obtain ⟨e1, e2⟩ := GifIO_read_rgb_ok io hr
      simp only [hr, Bool.not_true, Bool.false_eq_true, if_false] at h ⊢
      obtain ⟨c, c1, c2, c3, c4⟩ := ih _ _ h
      refine ⟨io.read_rgb.2.1 :: c, by rw [List.length_cons, c1], ?_, ?_, ?_⟩
      · rw [c2]
        simp only [List.append_assoc, List.singleton_append]
      · rw [e2, rgbs_bytes_cons, List.append_assoc]
        congr 1
        rw [← e1]
        exact c3
      · rw [c4, e1]
        rfl
    · have hf : io.read_rgb.2.2 = false := by
        cases hq : io.read_rgb.2.2 with
        | true => exact absurd hq hr
        | false => rfl
      simp only [hf, Bool.not_false, if_true] at h
      exact absurd h (by decide)

/-- C18, amended.  Palette size: `ColorMap::save` into a sink with room writes
exactly the entries that the map holds, three bytes (r, g, b) each, unprefixed and in
order, which is `3 * 2 ^ r` bytes when the map holds `2 ^ r` entries; a successful
`ColorMap::load` into a newly constructed map of colour resolution `r` consumes
exactly `3 * 2 ^ r` bytes and leaves the map holding exactly the `2 ^ r` entries read
in wire order, and on a stream that starts with `2 ^ r` entries it succeeds.  (A map
that was constructed and not loaded holds no entries.) -/
theorem palette_save_load (cm : ColorMap) (io : GifIO) (r : Nat) (ior : GifIO)
    (hroom : io.Room (3 * cm.c.length)) :
    (∃ io1, cm.save io = (io1, true) ∧
        io1.d.written = io.d.written ++ cm.c.flatMap (fun e => [e.r_val, e.g_val, e.b_val]) ∧
        (cm.c.flatMap (fun e => [e.r_val, e.g_val, e.b_val])).length = 3 * cm.c.length ∧
        (cm.c.length = 2 ^ cm.r →
          (cm.c.flatMap (fun e => [e.r_val, e.g_val, e.b_val])).length = 3 * 2 ^ cm.r)) ∧
      (((ColorMap.new r).load ior).2.2 = true →
        ∃ c : List RGB, c.length = 2 ^ r ∧
          ((ColorMap.new r).load ior).1 = { r := r, c := c } ∧
          ior.d.rest = c.flatMap (fun e => [e.r_val, e.g_val, e.b_val]) ++
            ((ColorMap.new r).load ior).2.1.d.rest ∧
          (c.flatMap (fun e => [e.r_val, e.g_val, e.b_val])).length = 3 * 2 ^ r) ∧
      (∀ (c : List RGB) (tl : List Nat), c.length = 2 ^ r →
        ior.d.rest = c.flatMap (fun e => [e.r_val, e.g_val, e.b_val]) ++ tl →
        ∃ ior1, (ColorMap.new r).load ior = ({ r := r, c := c }, ior1, true) ∧
          ior1.d.rest = tl) ∧
      (ColorMap.new r).c = [] := by
  have hl := rgbs_bytes_len cm.c
  have hroom2 : io.Room (rgbs_bytes cm.c).length := by rw [hl]; exact hroom
  refine ⟨⟨io.push (rgbs_bytes cm.c), ColorMap_save_room cm io hroom2,
    GifIO_push_written io (rgbs_bytes cm.c) hroom2, hl, fun h => by rw [← h]; exact hl⟩,
    ?_, ?_, rfl⟩
  · intro h
    obtain ⟨c, c1, c2, c3, _⟩ := cm_load_loop_ok (2 ^ r) (ColorMap.new r) ior h
    refine ⟨c, c1, ?_, c3, ?_⟩
    · have hq : ((ColorMap.new r).load ior).1 =
          (ColorMap.load_loop (2 ^ r) (ColorMap.new r) ior).1 := rfl
      rw [hq, c2]
      simp only [ColorMap.new, List.nil_append]
    · have := rgbs_bytes_len c
      rw [c1] at this
      exact this
  · intro c tl hc hrest
    obtain ⟨ior1, e1, e2, _⟩ := cm_load { r := r, c := c } hc ior tl hrest
    exact ⟨ior1, e1, e2⟩

theorem palette_save_load_witness :
    (∃ io1, ({ r := 1, c := [⟨0, 0, 0⟩, ⟨255, 255, 255⟩] } : ColorMap).save
          ( GifIO.mk_dev (MemDevice.open_for_write (List.replicate 6 0))) = (io1, true) ∧
        io1.d.written = [0, 0, 0, 255, 255, 255]) ∧
      (∀ (c : List RGB) (tl : List Nat), c.length = 2 ^ 1 →
        ( GifIO.mk_dev (MemDevice.open_for_read [1, 2, 3, 4, 5, 6, 7])).d.rest =
          c.flatMap (fun e => [e.r_val, e.g_val, e.b_val]) ++ tl →
        ∃ ior1, (ColorMap.new 1).load
            ( GifIO.mk_dev (MemDevice.open_for_read [1, 2, 3, 4, 5, 6, 7])) =
            ({ r := 1, c := c }, ior1, true) ∧
          ior1.d.rest = tl) := by
  obtain ⟨⟨io1, e1, e2, _⟩, _, e3, _⟩ := palette_save_load
    { r := 1, c := [⟨0, 0, 0⟩, ⟨255, 255, 255⟩] }
    ( GifIO.mk_dev (MemDevice.open_for_write (List.replicate 6 0))) 1
    ( GifIO.mk_dev (MemDevice.open_for_read [1, 2, 3, 4, 5, 6, 7])) (by decide)
  exact ⟨⟨io1, e1, e2⟩, e3⟩

/-- Counterexample of C18 as stated: the map that `ColorMap(1)` constructs has the
colour resolution 1 and holds no entries, and `ColorMap::save` of it succeeds
writing no byte, where `3 * 2 ^ 1` is 6. -/
theorem fresh_palette_saves_nothing :
    (ColorMap.new 1).r = 1 ∧ (ColorMap.new 1).c.length = 0 ∧
      ((ColorMap.new 1).save
        ( GifIO.mk_dev (MemDevice.open_for_write (List.replicate 6 0)))).2 = true ∧
      ((ColorMap.new 1).save
        ( GifIO.mk_dev (MemDevice.open_for_write (List.replicate 6 0)))).1.d.written = [] := by
  decide

end gif

namespace gif

/-! ## The code size byte -/

/-- C16, amended.  Local palette overrides global: for every image of non-zero area
whose palette resolved, the local one when present and the global one otherwise, has
a colour resolution `r` from 1 to 8, the code size that `Image::save` computes, runs
the LZW encoder with (the LZW data written is that of the encoder for this code
size) and writes as the byte right after the descriptor is `max r 2`: it is `r` for
every `r` from 2 to 8, and 2 for `r = 1`. -/
theorem palette_override (img : Image) (gcm : Option ColorMap) (io : GifIO) (c : ColorMap)
    (hw : img.rect.s.wd < 65536) (hh : img.rect.s.ht < 65536) (ha : img.rect.area ≠ 0)
    (hc : resolved_cm img.cm gcm = some c) (hr : 1 ≤ c.r ∧ c.r ≤ 8)
    (hroom : io.Room (image_bytes img gcm).length) :
    (img.cm = some c ∨ (img.cm = none ∧ gcm = some c)) ∧
      get_color_res img.cm gcm = (max c.r 2, true) ∧
      (2 ≤ c.r → max c.r 2 = c.r) ∧
      ∃ img1 io1, img.save io gcm = some (img1, io1, true) ∧
        io1.d.written = io.d.written ++
          (exts_bytes img.exts ++ descr_bytes img ++ [max c.r 2] ++ lzw_bytes (max c.r 2) img) := by
  have hm := color_res_max img.cm gcm c hc
  have hok : (get_color_res img.cm gcm).2 = true := by
    cases hl : img.cm with
    | some m => rfl
    | none =>
      rw [hl] at hc
      simp only [resolved_cm] at hc
      rw [hc]
      rfl
  have hsav : img.Savable gcm := ⟨hw, hh, Or.inr ⟨hok, by rw [hm]; omega⟩⟩
  refine ⟨?_, Prod.ext hm hok, fun h => Nat.max_eq_left h, _, _,
    img_save_room img io gcm hsav hroom, ?_⟩
  · cases hl : img.cm with
    | some m =>
      rw [hl] at hc
      exact Or.inl hc
    | none =>
      rw [hl] at hc
      exact Or.inr ⟨rfl, hc⟩
  · rw [GifIO_push_written io _ hroom, image_bytes_pos img gcm ha, hm]

theorem palette_override_witness :
    ((sample_anim.imgs.getD 1 Image.new).cm = some ⟨2, [⟨0, 0, 0⟩, ⟨255, 0, 0⟩, ⟨0, 255, 0⟩,
          ⟨0, 0, 255⟩]⟩ ∨
        ((sample_anim.imgs.getD 1 Image.new).cm = none ∧
          sample_anim.cm = some ⟨2, [⟨0, 0, 0⟩, ⟨255, 0, 0⟩, ⟨0, 255, 0⟩, ⟨0, 0, 255⟩]⟩)) ∧
      get_color_res (sample_anim.imgs.getD 1 Image.new).cm sample_anim.cm = (2, true) :=
  ⟨(palette_override (sample_anim.imgs.getD 1 Image.new) sample_anim.cm
      ( GifIO.mk_dev (MemDevice.open_for_write (List.replicate 40 0)))
      ⟨2, [⟨0, 0, 0⟩, ⟨255, 0, 0⟩, ⟨0, 255, 0⟩, ⟨0, 0, 255⟩]⟩
      (by decide) (by decide) (by decide) (by decide) (by decide) (by decide)).1,
    (palette_override (sample_anim.imgs.getD 1 Image.new) sample_anim.cm
      ( GifIO.mk_dev (MemDevice.open_for_write (List.replicate 40 0)))
      ⟨2, [⟨0, 0, 0⟩, ⟨255, 0, 0⟩, ⟨0, 255, 0⟩, ⟨0, 0, 255⟩]⟩
      (by decide) (by decide) (by decide) (by decide) (by decide) (by decide)).2.1⟩

/-- Counterexample of C16 as stated: a frame of one pixel without local palette next
to a global palette of colour resolution 1.  `Image::save` succeeds and the byte
that follows the ten bytes of the descriptor record is 2, not 1. -/
theorem code_size_of_one_bit_palette :
    two_colours.r = 1 ∧ resolved_cm one_pixel_frame.cm (some two_colours) = some two_colours ∧
      (get_color_res one_pixel_frame.cm (some two_colours)).1 = 2 ∧
      (one_pixel_frame.save ( GifIO.mk_dev (MemDevice.open_for_write (List.replicate 15 0)))
          (some two_colours)).map (fun r => (r.2.1.d.written, r.2.2)) =
        some ([0x2c, 0, 0, 0, 0, 1, 0, 1, 0, 0x00, 2, 2, 68, 1, 0], true) := by
  refine ⟨rfl, rfl, rfl, ?_⟩
  rw [img_save_room one_pixel_frame _ (some two_colours)
    ⟨by decide, by decide, Or.inr ⟨rfl, by decide⟩⟩ (by decide)]
  decide

end gif

namespace gif

/-! ## Failures and the error code -/

/-- Divergence for C11 (the code leaves the error code `ok` on two failure paths).
`Gif::save` of the empty container of 1 x 1 into a sink of 13 bytes writes the header
and the screen descriptor, fails at the terminator byte, for which no room is left,
and returns failure with the error code `ok`, as `write_terminator` sets no code.
`Gif::load` of a stream that ends right after the flags byte 0x80 of an image
descriptor fails in the read of the local palette and returns failure with the error
code `ok`, as `ColorMap::load` and `Image::load_desc` set no code there. -/
theorem failure_without_error_code :
    (Gif.save (Gif.new ⟨1, 1⟩ 0) (MemDevice.open_for_write (List.replicate 13 0))).map
        (fun r => (r.2.2, r.2.1.e, r.2.1.d.written)) =
      some (false, ErrorCode.ok, [0x47, 0x49, 0x46, 0x38, 0x39, 0x61, 1, 0, 1, 0, 0, 0, 0]) ∧
      (Gif.load (Gif.new ⟨0, 0⟩ 0) (MemDevice.open_for_read
          [0x47, 0x49, 0x46, 0x38, 0x39, 0x61, 1, 0, 1, 0, 0, 0, 0,
            0x2c, 0, 0, 0, 0, 1, 0, 1, 0, 0x80])).map
        (fun r => (r.2.2, r.2.1.e, r.2.1.d.rest)) =
      some (false, ErrorCode.ok, []) := by
  decide

/-! ## Wire layout of the container -/

theorem scr_flags_eq (cm : Option ColorMap) (hcm : ∀ c, cm = some c → 1 ≤ c.r ∧ c.r ≤ 8) :
    Gif.scr_flags cm = spec_scr_flags cm := by
  cases hc : cm with
  | none => rfl
  | some c =>
    obtain ⟨c1, c8⟩ := hcm c (by rw [hc])
    have hne : ¬ c.r = 0 := by omega
    simp only [Gif.scr_flags, spec_scr_flags, hne, if_false]
    have hr : c.r = 1 ∨ c.r = 2 ∨ c.r = 3 ∨ c.r = 4 ∨ c.r = 5 ∨ c.r = 6 ∨ c.r = 7 ∨ c.r = 8 := by
      omega
    rcases hr with h | h | h | h | h | h | h | h <;> rw [h] <;> decide

theorem size_bytes_eq (s : Size) (hw : s.wd < 65536) (hh : s.ht < 65536) :
    size_bytes s = [s.wd % 256, s.wd / 256, s.ht % 256, s.ht / 256] := by
  rw [size_bytes, word_bytes_eq _ hw, word_bytes_eq _ hh]
  rfl

/-- The bytes of a container in the terms of the wire format. -/
theorem gif_bytes_eq (g : Gif) (hw : g.sz.wd < 65536) (hh : g.sz.ht < 65536)
    (hcm : ∀ c, g.cm = some c → 1 ≤ c.r ∧ c.r ≤ 8) :
    gif_bytes g =
      [0x47, 0x49, 0x46, 0x38, 0x39, 0x61] ++
        [g.sz.wd % 256, g.sz.wd / 256, g.sz.ht % 256, g.sz.ht / 256] ++
        [spec_scr_flags g.cm, g.bg, 0] ++
        cm_bytes g.cm ++ g.imgs.flatMap (fun i => image_bytes i g.cm) ++
        g.exs.flatMap ext_bytes ++ [0x3b] := by
  rw [gif_bytes, scr_bytes, size_bytes_eq g.sz hw hh, scr_flags_eq g.cm hcm]
  rfl

theorem getLast_append_singleton (l : List Nat) (x : Nat) : (l ++ [x]).getLast? = some x := by
  simp

end gif

namespace gif

/-! ## Sinks of more capacity: the session -/

theorem later_refl (io : GifIO) : io.Later io := ⟨rfl, Nat.le_refl _⟩

theorem later_trans {a b c : GifIO} (h1 : a.Later b) (h2 : b.Later c) : a.Later c :=
  ⟨h2.1.trans h1.1, Nat.le_trans h1.2 h2.2⟩

theorem later_room {a b : GifIO} (h : a.Later b) {k : Nat} (hr : b.Room k) : a.Room k := by
  unfold GifIO.Room MemDevice.Room at hr ⊢
  have h1 := h.1
  have h2 := h.2
  omega

theorem later_set_error (io : GifIO) (e : ErrorCode) : io.Later (io.set_error e) :=
  ⟨rfl, Nat.le_refl _⟩

theorem later_of_set_error {a b : GifIO} (e : ErrorCode) (h : a.Later b) :
    a.Later (b.set_error e) := ⟨h.1, h.2⟩

theorem grow_set_error (io : GifIO) (e : ErrorCode) (pad : List Nat) :
    (io.set_error e).grow pad = (io.grow pad).set_error e := rfl

theorem room_set_error (io : GifIO) (e : ErrorCode) (k : Nat) :
    (io.set_error e).Room k ↔ io.Room k := Iff.rfl

theorem later_write_bytes (io : GifIO) (bs : List Nat) : io.Later (io.write_bytes bs).1 := by
  unfold GifIO.Later GifIO.write_bytes MemDevice.write MemDevice.bytesLeft MemDevice.l
  simp only [List.length_append, List.length_take, List.length_drop]
  constructor
  · split <;> omega
  · omega

/-- A write that leaves room has written all its bytes, and does the same in a sink
of more capacity. -/
theorem grow_write_bytes (io : GifIO) (bs pad : List Nat) (h : (io.write_bytes bs).1.Room 1) :
    (io.grow pad).write_bytes bs = ((io.write_bytes bs).1.grow pad, (io.write_bytes bs).2) := by
  unfold GifIO.Room MemDevice.Room GifIO.write_bytes MemDevice.write MemDevice.bytesLeft
    MemDevice.l at h
  simp only [List.length_append, List.length_take, List.length_drop] at h
  have hle : ¬ bs.length > io.d.d.length - io.d.p := by
    intro hgt
    rw [if_pos hgt] at h
    omega
  rw [if_neg hle] at h
  have hle2 : ¬ bs.length > (io.d.d ++ pad).length - io.d.p := by
    rw [List.length_append]; omega
  have hp : io.d.p ≤ io.d.d.length := by omega
  have hp2 : io.d.p + bs.length ≤ io.d.d.length := by omega
  simp only [ GifIO.write_bytes, MemDevice.write, MemDevice.bytesLeft, MemDevice.l, GifIO.grow,
    MemDevice.grow, if_neg hle, if_neg hle2, List.take_length]
  rw [List.take_append_of_le_length hp, List.drop_append_of_le_length hp2]
  simp only [List.append_assoc]

theorem later_write_byte (io : GifIO) (b : Nat) : io.Later (io.write_byte b).1 :=
  later_write_bytes io [b]

theorem grow_write_byte (io : GifIO) (b : Nat) (pad : List Nat) (h : (io.write_byte b).1.Room 1) :
    (io.grow pad).write_byte b = ((io.write_byte b).1.grow pad, (io.write_byte b).2) :=
  grow_write_bytes io [b] pad h

theorem later_write_terminator (io : GifIO) : io.Later io.write_terminator.1 :=
  later_write_bytes io [Gif_terminator]

theorem later_write_word (io : GifIO) (w : Nat) : io.Later (io.write_word w).1 :=
  later_write_bytes io [w &&& 0xff, (w >>> 8) &&& 0xff]

theorem grow_write_word (io : GifIO) (w : Nat) (pad : List Nat) (h : (io.write_word w).1.Room 1) :
    (io.grow pad).write_word w = ((io.write_word w).1.grow pad, (io.write_word w).2) :=
  grow_write_bytes io [w &&& 0xff, (w >>> 8) &&& 0xff] pad h

theorem later_write_rgb (io : GifIO) (c : RGB) : io.Later (io.write_rgb c).1 :=
  later_write_bytes io _

theorem grow_write_rgb (io : GifIO) (c : RGB) (pad : List Nat) (h : (io.write_rgb c).1.Room 1) :
    (io.grow pad).write_rgb c = ((io.write_rgb c).1.grow pad, (io.write_rgb c).2) :=
  grow_write_bytes io _ pad h

end gif

namespace gif

/-! ## Sinks of more capacity: the records -/

/-- The later state of a checked sequence of two writers. -/
theorem later_seq (f1 f2 : GifIO → GifIO × Bool) (fail : GifIO → GifIO)
    (l1 : ∀ io : GifIO, io.Later (f1 io).1) (l2 : ∀ io : GifIO, io.Later (f2 io).1)
    (lf : ∀ io : GifIO, io.Later (fail io)) (io : GifIO) :
    io.Later (if !(f1 io).2 then (fail (f1 io).1, false) else f2 (f1 io).1).1 := by
  cases h : (f1 io).2 with
  | false =>
    simp only [Bool.not_false, if_true]
    exact later_trans (l1 io) (lf _)
  | true =>
    simp only [Bool.not_true, Bool.false_eq_true, if_false]
    exact later_trans (l1 io) (l2 _)

/-- A checked sequence of two writers in a sink of more capacity. -/
theorem grow_seq (f1 f2 : GifIO → GifIO × Bool) (fail : GifIO → GifIO)
    (l2 : ∀ io : GifIO, io.Later (f2 io).1) (lf : ∀ io : GifIO, io.Later (fail io))
    (g1 : ∀ (io : GifIO) (pad : List Nat), (f1 io).1.Room 1 → f1 (io.grow pad) = ((f1 io).1.grow pad, (f1 io).2))
    (g2 : ∀ (io : GifIO) (pad : List Nat), (f2 io).1.Room 1 → f2 (io.grow pad) = ((f2 io).1.grow pad, (f2 io).2))
    (gf : ∀ (io : GifIO) (pad : List Nat), fail (io.grow pad) = (fail io).grow pad)
    (io : GifIO) (pad : List Nat)
    (h : (if !(f1 io).2 then (fail (f1 io).1, false) else f2 (f1 io).1).1.Room 1) :
    (if !(f1 (io.grow pad)).2 then (fail (f1 (io.grow pad)).1, false)
      else f2 (f1 (io.grow pad)).1) =
      ((if !(f1 io).2 then (fail (f1 io).1, false) else f2 (f1 io).1).1.grow pad,
        (if !(f1 io).2 then (fail (f1 io).1, false) else f2 (f1 io).1).2) := by
  cases h1 : (f1 io).2 with
  | false =>
    simp only [h1, Bool.not_false, if_true] at h ⊢
    have hr : (f1 io).1.Room 1 := later_room (lf _) h
    rw [g1 io pad hr]
    simp only [h1, Bool.not_false, if_true, gf]
  | true =>
    simp only [h1, Bool.not_true, Bool.false_eq_true, if_false] at h ⊢
    have hr : (f1 io).1.Room 1 := later_room (l2 _) h
    rw [g1 io pad hr]
    simp only [h1, Bool.not_true, Bool.false_eq_true, if_false]
    exact g2 _ pad h

theorem later_write_size (io : GifIO) (s : Size) : io.Later (io.write_size s).1 :=
  later_seq (fun io => io.write_word s.wd) (fun io => io.write_word s.ht) id
    (fun io => later_write_word io _) (fun io => later_write_word io _) later_refl io

theorem grow_write_size (io : GifIO) (s : Size) (pad : List Nat) (h : (io.write_size s).1.Room 1) :
    (io.grow pad).write_size s = ((io.write_size s).1.grow pad, (io.write_size s).2) :=
  grow_seq (fun io => io.write_word s.wd) (fun io => io.write_word s.ht) id
    (fun io => later_write_word io _) later_refl (fun io pad => grow_write_word io _ pad)
    (fun io pad => grow_write_word io _ pad) (fun _ _ => rfl) io pad h

theorem later_write_point (io : GifIO) (s : Point) : io.Later (io.write_point s).1 :=
  later_seq (fun io => io.write_word s.x_val) (fun io => io.write_word s.y_val) id
    (fun io => later_write_word io _) (fun io => later_write_word io _) later_refl io

theorem grow_write_point (io : GifIO) (s : Point) (pad : List Nat)
    (h : (io.write_point s).1.Room 1) :
    (io.grow pad).write_point s = ((io.write_point s).1.grow pad, (io.write_point s).2) :=
  grow_seq (fun io => io.write_word s.x_val) (fun io => io.write_word s.y_val) id
    (fun io => later_write_word io _) later_refl (fun io pad => grow_write_word io _ pad)
    (fun io pad => grow_write_word io _ pad) (fun _ _ => rfl) io pad h

theorem later_write_rect (io : GifIO) (r : Rect) : io.Later (io.write_rect r).1 :=
  later_seq (fun io => io.write_point r.p) (fun io => io.write_size r.s) id
    (fun io => later_write_point io _) (fun io => later_write_size io _) later_refl io

theorem grow_write_rect (io : GifIO) (r : Rect) (pad : List Nat) (h : (io.write_rect r).1.Room 1) :
    (io.grow pad).write_rect r = ((io.write_rect r).1.grow pad, (io.write_rect r).2) :=
  grow_seq (fun io => io.write_point r.p) (fun io => io.write_size r.s) id
    (fun io => later_write_size io _) later_refl (fun io pad => grow_write_point io _ pad)
    (fun io pad => grow_write_size io _ pad) (fun _ _ => rfl) io pad h

/-! ### Palettes -/

theorem later_cm_save_loop (c : List RGB) : ∀ io : GifIO, io.Later (ColorMap.save_loop c io).1 := by
  induction c with
  | nil => intro io; exact later_refl io
  | cons x rest ih =>
    intro io
    exact later_seq (fun io => io.write_rgb x) (fun io => ColorMap.save_loop rest io)
      (fun io => io.set_error ErrorCode.write_failed) (fun io => later_write_rgb io x) ih
      (fun io => later_set_error io _) io

theorem grow_cm_save_loop (c : List RGB) :
    ∀ (io : GifIO) (pad : List Nat), (ColorMap.save_loop c io).1.Room 1 →
      ColorMap.save_loop c (io.grow pad) =
        ((ColorMap.save_loop c io).1.grow pad, (ColorMap.save_loop c io).2) := by
  induction c with
  | nil => intro io pad _; rfl
  | cons x rest ih =>
    intro io pad h
    exact grow_seq (fun io => io.write_rgb x) (fun io => ColorMap.save_loop rest io)
      (fun io => io.set_error ErrorCode.write_failed) (later_cm_save_loop rest)
      (fun io => later_set_error io _) (fun io pad => grow_write_rgb io x pad) ih
      (fun _ _ => rfl) io pad h

theorem later_cm_save (cm : ColorMap) (io : GifIO) : io.Later (cm.save io).1 :=
  later_cm_save_loop cm.c io

theorem grow_cm_save (cm : ColorMap) (io : GifIO) (pad : List Nat) (h : (cm.save io).1.Room 1) :
    cm.save (io.grow pad) = ((cm.save io).1.grow pad, (cm.save io).2) :=
  grow_cm_save_loop cm.c io pad h

/-! ### Extensions -/

theorem later_save_chunk (c : List Nat) (io : GifIO) : io.Later (Extension.save_chunk io c).1 :=
  later_seq (fun io => io.write_byte (c.length % 256)) (fun io => io.write_bytes c) id
    (fun io => later_write_byte io _) (fun io => later_write_bytes io _) later_refl io

theorem grow_save_chunk (c : List Nat) (io : GifIO) (pad : List Nat)
    (h : (Extension.save_chunk io c).1.Room 1) :
    Extension.save_chunk (io.grow pad) c =
      ((Extension.save_chunk io c).1.grow pad, (Extension.save_chunk io c).2) :=
  grow_seq (fun io => io.write_byte (c.length % 256)) (fun io => io.write_bytes c) id
    (fun io => later_write_bytes io _) later_refl (fun io pad => grow_write_byte io _ pad)
    (fun io pad => grow_write_bytes io _ pad) (fun _ _ => rfl) io pad h

theorem later_save_chunks (l : List (List Nat)) :
    ∀ io : GifIO, io.Later (Extension.save_chunks l io).1 := by
  induction l with
  | nil => intro io; exact later_refl io
  | cons c rest ih =>
    intro io
    exact later_seq (fun io => Extension.save_chunk io c)
      (fun io => Extension.save_chunks rest io) id (later_save_chunk c) ih later_refl io

theorem grow_save_chunks (l : List (List Nat)) :
    ∀ (io : GifIO) (pad : List Nat), (Extension.save_chunks l io).1.Room 1 →
      Extension.save_chunks l (io.grow pad) =
        ((Extension.save_chunks l io).1.grow pad, (Extension.save_chunks l io).2) := by
  induction l with
  | nil => intro io pad _; rfl
  | cons c rest ih =>
    intro io pad h
    exact grow_seq (fun io => Extension.save_chunk io c)
      (fun io => Extension.save_chunks rest io) id (later_save_chunks rest) later_refl
      (grow_save_chunk c) ih (fun _ _ => rfl) io pad h

theorem later_ext_save (e : Extension) (io : GifIO) : io.Later (e.save io).1 :=
  later_seq (fun io => e.save_leader io)
    (fun io => if !(Extension.save_chunks e.list io).2 then
        ((Extension.save_chunks e.list io).1, false)
      else Extension.save_trailer (Extension.save_chunks e.list io).1) id
    (fun io => later_write_bytes io _)
    (later_seq (fun io => Extension.save_chunks e.list io) (fun io => Extension.save_trailer io)
      id (later_save_chunks e.list) (fun io => later_write_byte io 0) later_refl)
    later_refl io

theorem grow_ext_save (e : Extension) (io : GifIO) (pad : List Nat) (h : (e.save io).1.Room 1) :
    e.save (io.grow pad) = ((e.save io).1.grow pad, (e.save io).2) :=
  grow_seq (fun io => e.save_leader io)
    (fun io => if !(Extension.save_chunks e.list io).2 then
        ((Extension.save_chunks e.list io).1, false)
      else Extension.save_trailer (Extension.save_chunks e.list io).1) id
    (later_seq (fun io => Extension.save_chunks e.list io) (fun io => Extension.save_trailer io)
      id (later_save_chunks e.list) (fun io => later_write_byte io 0) later_refl)
    later_refl (fun io pad => grow_write_bytes io _ pad)
    (grow_seq (fun io => Extension.save_chunks e.list io) (fun io => Extension.save_trailer io)
      id (fun io => later_write_byte io 0) later_refl (grow_save_chunks e.list)
      (fun io pad => grow_write_byte io 0 pad) (fun _ _ => rfl))
    (fun _ _ => rfl) io pad h

theorem later_save_exts (l : List Extension) : ∀ io : GifIO, io.Later (Image.save_exts l io).1 := by
  induction l with
  | nil => intro io; exact later_refl io
  | cons e rest ih =>
    intro io
    exact later_seq (fun io => e.save io) (fun io => Image.save_exts rest io)
      (fun io => io.set_error ErrorCode.write_failed) (later_ext_save e) ih
      (fun io => later_set_error io _) io

theorem grow_save_exts (l : List Extension) :
    ∀ (io : GifIO) (pad : List Nat), (Image.save_exts l io).1.Room 1 →
      Image.save_exts l (io.grow pad) =
        ((Image.save_exts l io).1.grow pad, (Image.save_exts l io).2) := by
  induction l with
  | nil => intro io pad _; rfl
  | cons e rest ih =>
    intro io pad h
    exact grow_seq (fun io => e.save io) (fun io => Image.save_exts rest io)
      (fun io => io.set_error ErrorCode.write_failed) (later_save_exts rest)
      (fun io => later_set_error io _) (grow_ext_save e) ih (fun _ _ => rfl) io pad h

theorem later_save_exs (l : List Extension) : ∀ io : GifIO, io.Later (Gif.save_exs l io).1 := by
  induction l with
  | nil => intro io; exact later_refl io
  | cons e rest ih =>
    intro io
    exact later_seq (fun io => e.save io) (fun io => Gif.save_exs rest io)
      (fun io => io.set_error ErrorCode.write_failed) (later_ext_save e) ih
      (fun io => later_set_error io _) io

theorem grow_save_exs (l : List Extension) :
    ∀ (io : GifIO) (pad : List Nat), (Gif.save_exs l io).1.Room 1 →
      Gif.save_exs l (io.grow pad) =
        ((Gif.save_exs l io).1.grow pad, (Gif.save_exs l io).2) := by
  induction l with
  | nil => intro io pad _; rfl
  | cons e rest ih =>
    intro io pad h
    exact grow_seq (fun io => e.save io) (fun io => Gif.save_exs rest io)
      (fun io => io.set_error ErrorCode.write_failed) (later_save_exs rest)
      (fun io => later_set_error io _) (grow_ext_save e) ih (fun _ _ => rfl) io pad h

end gif

namespace gif

/-! ## Sinks of more capacity: the encoder -/

theorem later_write_buf (st : LZEncoder) (c : Nat) : st.f.Later (st.write_buf c).1.f := by
  unfold LZEncoder.write_buf
  by_cases hc : c = LZ.flush_output
  · simp only [if_pos hc]
    cases hb : (st.buf 0 != 0) with
    | false =>
      simp only [Bool.false_and, Bool.false_eq_true, if_false]
      split_ifs
      · exact later_of_set_error _ (later_write_bytes _ _)
      · exact later_write_bytes _ _
    | true =>
      simp only [Bool.true_and, if_true]
      split_ifs
      · exact later_of_set_error _ (later_write_bytes _ _)
      · exact later_of_set_error _ (later_trans (later_write_bytes _ _) (later_write_bytes _ _))
      · exact later_trans (later_write_bytes _ _) (later_write_bytes _ _)
  · simp only [if_neg hc]
    split_ifs
    · exact later_of_set_error _ (later_write_bytes _ _)
    · exact later_write_bytes _ _
    · exact later_refl _

theorem grow_write_buf (st : LZEncoder) (c : Nat) (pad : List Nat)
    (h : (st.write_buf c).1.f.Room 1) :
    (st.grow pad).write_buf c = ((st.write_buf c).1.grow pad, (st.write_buf c).2) := by
  unfold LZEncoder.write_buf at h ⊢
  simp only [LZEncoder.grow] at h ⊢
  by_cases hc : c = LZ.flush_output
  · simp only [if_pos hc] at h ⊢
    cases hb : (st.buf 0 != 0) with
    | false =>
      simp only [hb, Bool.false_and, Bool.false_eq_true, if_false] at h ⊢
      cases h2 : (st.f.write_bytes (arr_bytes (fun i => if i = 0 then 0 else st.buf i) 1)).2 with
      | false =>
        simp only [h2, Bool.not_false, if_true] at h ⊢
        rw [grow_write_bytes _ _ pad h]
        simp only [h2, Bool.not_false, if_true]
        rfl
      | true =>
        simp only [h2, Bool.not_true, Bool.false_eq_true, if_false] at h ⊢
        rw [grow_write_bytes _ _ pad h]
        simp only [h2, Bool.not_true, Bool.false_eq_true, if_false]
    | true =>
      simp only [hb, Bool.true_and, if_true] at h ⊢
      cases h1 : (st.f.write_bytes (arr_bytes st.buf (st.buf 0 + 1))).2 with
      | false =>
        simp only [h1, Bool.not_false, if_true] at h ⊢
        rw [grow_write_bytes _ _ pad h]
        simp only [h1, Bool.not_false, if_true]
        rfl
      | true =>
        simp only [h1, Bool.not_true, Bool.false_eq_true, if_false] at h ⊢
        cases h2 : ((st.f.write_bytes (arr_bytes st.buf (st.buf 0 + 1))).1.write_bytes
            (arr_bytes (fun i => if i = 0 then 0 else st.buf i) 1)).2 with
        | false =>
          simp only [h2, Bool.not_false, if_true] at h ⊢
          have hr : (st.f.write_bytes (arr_bytes st.buf (st.buf 0 + 1))).1.Room 1 :=
            later_room (later_write_bytes _ _) h
          rw [grow_write_bytes _ _ pad hr]
          simp only [h1, Bool.not_true, Bool.false_eq_true, if_false]
          rw [grow_write_bytes _ _ pad h]
          simp only [h2, Bool.not_false, if_true]
          rfl
        | true =>
          simp only [h2, Bool.not_true, Bool.false_eq_true, if_false] at h ⊢
          have hr : (st.f.write_bytes (arr_bytes st.buf (st.buf 0 + 1))).1.Room 1 :=
            later_room (later_write_bytes _ _) h
          rw [grow_write_bytes _ _ pad hr]
          simp only [h1, Bool.not_true, Bool.false_eq_true, if_false]
          rw [grow_write_bytes _ _ pad h]
          simp only [h2, Bool.not_true, Bool.false_eq_true, if_false]
  · simp only [if_neg hc] at h ⊢
    by_cases h255 : st.buf 0 = 255
    · simp only [if_pos h255] at h ⊢
      cases h1 : (st.f.write_bytes (arr_bytes st.buf (st.buf 0 + 1))).2 with
      | false =>
        simp only [h1, Bool.not_false, if_true] at h ⊢
        rw [grow_write_bytes _ _ pad h]
        simp only [h1, Bool.not_false, if_true]
        rfl
      | true =>
        simp only [h1, Bool.not_true, Bool.false_eq_true, if_false] at h ⊢
        rw [grow_write_bytes _ _ pad h]
        simp only [h1, Bool.not_true, Bool.false_eq_true, if_false]
    · simp only [if_neg h255] at h ⊢



theorem later_flush_loop : ∀ (fuel : Nat) (st : LZEncoder) (res : Bool),
    st.f.Later (LZEncoder.flush_loop fuel st res).1.f := by
  intro fuel
  induction fuel with
  | zero => intro st res; exact later_refl _
  | succ n ih =>
    intro st res
    unfold LZEncoder.flush_loop
    by_cases hs : st.crnt_shift_state > 0
    · simp only [if_pos hs]
      exact later_trans (later_write_buf st _) (ih _ _)
    · simp only [if_neg hs]
      exact later_refl _

theorem grow_flush_loop : ∀ (fuel : Nat) (st : LZEncoder) (res : Bool) (pad : List Nat),
    (LZEncoder.flush_loop fuel st res).1.f.Room 1 →
    LZEncoder.flush_loop fuel (st.grow pad) res =
      ((LZEncoder.flush_loop fuel st res).1.grow pad, (LZEncoder.flush_loop fuel st res).2) := by
  intro fuel
  induction fuel with
  | zero => intro st res pad _; rfl
  | succ n ih =>
    intro st res pad h
    by_cases hs : st.crnt_shift_state > 0
    · have u : ∀ s : LZEncoder, s.crnt_shift_state = st.crnt_shift_state →
          LZEncoder.flush_loop (n + 1) s res =
            LZEncoder.flush_loop n
              { (s.write_buf (s.crnt_shift_dword &&& 0xff)).1 with
                crnt_shift_dword := (s.write_buf (s.crnt_shift_dword &&& 0xff)).1.crnt_shift_dword >>> 8,
                crnt_shift_state := (s.write_buf (s.crnt_shift_dword &&& 0xff)).1.crnt_shift_state - 8 }
              (if !(s.write_buf (s.crnt_shift_dword &&& 0xff)).2 then false else res) := by
        intro s hss
        have hs2 : ( s.crnt_shift_state > 0) := by rw [hss]; exact hs
        rw [LZEncoder.flush_loop]
        simp only [if_pos hs2]
      rw [u st rfl] at h ⊢
      rw [u (st.grow pad) rfl]
      have hr0 := later_room (later_flush_loop n _ _) h
      have hr : (st.write_buf (st.crnt_shift_dword &&& 0xff)).1.f.Room 1 := hr0
      have e : (st.grow pad).write_buf ((st.grow pad).crnt_shift_dword &&& 0xff) =
          ((st.write_buf (st.crnt_shift_dword &&& 0xff)).1.grow pad,
            (st.write_buf (st.crnt_shift_dword &&& 0xff)).2) :=
        grow_write_buf st (st.crnt_shift_dword &&& 0xff) pad hr
      rw [e]
      exact ih _ _ pad h
    · have u : ∀ s : LZEncoder, s.crnt_shift_state = st.crnt_shift_state →
          LZEncoder.flush_loop (n + 1) s res = (s, res) := by
        intro s hss
        have hs2 : ¬ ( s.crnt_shift_state > 0) := by rw [hss]; exact hs
        rw [LZEncoder.flush_loop]
        simp only [if_neg hs2]
      rw [u st rfl, u (st.grow pad) rfl]

theorem later_pack_loop : ∀ (fuel : Nat) (st : LZEncoder) (res : Bool),
    st.f.Later (LZEncoder.pack_loop fuel st res).1.f := by
  intro fuel
  induction fuel with
  | zero => intro st res; exact later_refl _
  | succ n ih =>
    intro st res
    unfold LZEncoder.pack_loop
    by_cases hs : st.crnt_shift_state ≥ 8
    · simp only [if_pos hs]
      exact later_trans (later_write_buf st _) (ih _ _)
    · simp only [if_neg hs]
      exact later_refl _

theorem grow_pack_loop : ∀ (fuel : Nat) (st : LZEncoder) (res : Bool) (pad : List Nat),
    (LZEncoder.pack_loop fuel st res).1.f.Room 1 →
    LZEncoder.pack_loop fuel (st.grow pad) res =
      ((LZEncoder.pack_loop fuel st res).1.grow pad, (LZEncoder.pack_loop fuel st res).2) := by
  intro fuel
  induction fuel with
  | zero => intro st res pad _; rfl
  | succ n ih =>
    intro st res pad h
    by_cases hs : st.crnt_shift_state ≥ 8
    · have u : ∀ s : LZEncoder, s.crnt_shift_state = st.crnt_shift_state →
          LZEncoder.pack_loop (n + 1) s res =
            LZEncoder.pack_loop n
              { (s.write_buf (s.crnt_shift_dword &&& 0xff)).1 with
                crnt_shift_dword := (s.write_buf (s.crnt_shift_dword &&& 0xff)).1.crnt_shift_dword >>> 8,
                crnt_shift_state := (s.write_buf (s.crnt_shift_dword &&& 0xff)).1.crnt_shift_state - 8 }
              (if !(s.write_buf (s.crnt_shift_dword &&& 0xff)).2 then false else res) := by
        intro s hss
        have hs2 : ( s.crnt_shift_state ≥ 8) := by rw [hss]; exact hs
        rw [LZEncoder.pack_loop]
        simp only [if_pos hs2]
      rw [u st rfl] at h ⊢
      rw [u (st.grow pad) rfl]
      have hr0 := later_room (later_pack_loop n _ _) h
      have hr : (st.write_buf (st.crnt_shift_dword &&& 0xff)).1.f.Room 1 := hr0
      have e : (st.grow pad).write_buf ((st.grow pad).crnt_shift_dword &&& 0xff) =
          ((st.write_buf (st.crnt_shift_dword &&& 0xff)).1.grow pad,
            (st.write_buf (st.crnt_shift_dword &&& 0xff)).2) :=
        grow_write_buf st (st.crnt_shift_dword &&& 0xff) pad hr
      rw [e]
      exact ih _ _ pad h
    · have u : ∀ s : LZEncoder, s.crnt_shift_state = st.crnt_shift_state →
          LZEncoder.pack_loop (n + 1) s res = (s, res) := by
        intro s hss
        have hs2 : ¬ ( s.crnt_shift_state ≥ 8) := by rw [hss]; exact hs
        rw [LZEncoder.pack_loop]
        simp only [if_neg hs2]
      rw [u st rfl, u (st.grow pad) rfl]



theorem ite_fst_f (C : Prop) [Decidable C] (a b : LZEncoder × Bool) (hab : a.1.f = b.1.f) :
    (if C then a else b).1.f = b.1.f := by
  split
  · exact hab
  · rfl

theorem encode_flush (s : LZEncoder) :
    s.encode LZ.flush_output =
      ((({ (LZEncoder.flush_loop s.crnt_shift_state s true).1 with
            crnt_shift_state := 0 } : LZEncoder).write_buf LZ.flush_output).1,
        if !(({ (LZEncoder.flush_loop s.crnt_shift_state s true).1 with
            crnt_shift_state := 0 } : LZEncoder).write_buf LZ.flush_output).2 then false
        else (LZEncoder.flush_loop s.crnt_shift_state s true).2) := by
  have hd : ∀ b : Bool, (b && decide (LZ.flush_output ≤ LZ.max_code)) = false := by
    intro b; cases b <;> rfl
  unfold LZEncoder.encode
  rw [if_pos rfl]
  simp only [hd, Bool.false_eq_true, if_false]

theorem encode_f (s : LZEncoder) (code : Nat) (hc : code ≠ LZ.flush_output) :
    (s.encode code).1.f =
      (LZEncoder.pack_loop (s.crnt_shift_state + s.run_bits)
        { s with crnt_shift_dword := s.crnt_shift_dword ||| (code <<< s.crnt_shift_state),
                 crnt_shift_state := s.crnt_shift_state + s.run_bits } true).1.f := by
  unfold LZEncoder.encode
  rw [if_neg hc]
  exact ite_fst_f _ _ _ rfl

theorem adj_grow (R : LZEncoder × Bool) (code : Nat) (pad : List Nat) :
    (let r : LZEncoder × Bool := (R.1.grow pad, R.2)
     if r.1.run_code ≥ r.1.max_code && code ≤ LZ.max_code then
       ({ r.1 with run_bits := r.1.run_bits + 1, max_code := 2 ^ (r.1.run_bits + 1) }, r.2)
     else r) =
      ((let r : LZEncoder × Bool := R
        if r.1.run_code ≥ r.1.max_code && code ≤ LZ.max_code then
          ({ r.1 with run_bits := r.1.run_bits + 1, max_code := 2 ^ (r.1.run_bits + 1) }, r.2)
        else r).1.grow pad,
       (let r : LZEncoder × Bool := R
        if r.1.run_code ≥ r.1.max_code && code ≤ LZ.max_code then
          ({ r.1 with run_bits := r.1.run_bits + 1, max_code := 2 ^ (r.1.run_bits + 1) }, r.2)
        else r).2) := by
  cases R with
  | mk s b =>
    simp only [LZEncoder.grow]
    split <;> rfl

theorem later_encode (st : LZEncoder) (code : Nat) : st.f.Later (st.encode code).1.f := by
  by_cases hc : code = LZ.flush_output
  · subst hc
    rw [encode_flush]
    exact later_trans (later_flush_loop _ st true) (later_write_buf _ _)
  · rw [encode_f st code hc]
    exact later_pack_loop _ _ _

theorem grow_encode (st : LZEncoder) (code : Nat) (pad : List Nat)
    (h : (st.encode code).1.f.Room 1) :
    (st.grow pad).encode code = ((st.encode code).1.grow pad, (st.encode code).2) := by
  by_cases hc : code = LZ.flush_output
  · subst hc
    rw [encode_flush] at h ⊢
    rw [encode_flush]
    have h1 := later_room (later_write_buf _ _) h
    have e1 : LZEncoder.flush_loop (st.grow pad).crnt_shift_state (st.grow pad) true = _ :=
      grow_flush_loop st.crnt_shift_state st true pad h1
    have e2 := grow_write_buf _ _ pad h
    rw [e1]
    exact congrArg (fun r : LZEncoder × Bool =>
      (r.1, if !r.2 then false else (LZEncoder.flush_loop st.crnt_shift_state st true).2)) e2
  · rw [encode_f st code hc] at h
    have e1 : LZEncoder.pack_loop ((st.grow pad).crnt_shift_state + (st.grow pad).run_bits)
        { st.grow pad with
          crnt_shift_dword := (st.grow pad).crnt_shift_dword ||| (code <<< (st.grow pad).crnt_shift_state),
          crnt_shift_state := (st.grow pad).crnt_shift_state + (st.grow pad).run_bits } true = _ :=
      grow_pack_loop _ _ _ pad h
    unfold LZEncoder.encode
    rw [if_neg hc, if_neg hc, e1]
    exact adj_grow _ code pad



theorem later_new (file : GifIO) (pc cr : Nat) : file.Later (LZEncoder.new file pc cr).f :=
  later_encode _ _

theorem grow_new (file : GifIO) (pc cr : Nat) (pad : List Nat)
    (h : (LZEncoder.new file pc cr).f.Room 1) :
    LZEncoder.new (file.grow pad) pc cr = (LZEncoder.new file pc cr).grow pad :=
  congrArg Prod.fst (grow_encode _ _ pad h)

theorem later_encode_pixel (st : LZEncoder) (code px : Nat) (r : LZEncoder × Nat × Bool)
    (h : st.encode_pixel code px = some r) : st.f.Later r.1.f := by
  unfold LZEncoder.encode_pixel at h
  simp only [] at h
  cases hg : st.ht.get ((code <<< 8) + px) with
  | none => simp only [hg] at h; cases h
  | some o =>
    cases o with
    | some nc =>
      simp only [hg] at h
      cases h
      exact later_refl _
    | none =>
      simp only [hg] at h
      split_ifs at h with h1 h2 h3
      · cases h; exact later_of_set_error _ (later_encode _ _)
      · cases h
        exact later_of_set_error _ (later_trans (later_encode _ _) (later_encode _ _))
      · cases h
        exact later_trans (later_encode _ _) (later_encode _ _)
      · cases hi : (st.encode code).1.ht.insert ((code <<< 8) + px) (st.encode code).1.run_code with
        | none => simp only [hi] at h; cases h
        | some t =>
          simp only [hi] at h
          cases h
          exact later_encode _ _



theorem grow_encode_pixel (st : LZEncoder) (code px : Nat) (pad : List Nat)
    (r : LZEncoder × Nat × Bool) (h : st.encode_pixel code px = some r) (hr : r.1.f.Room 1) :
    (st.grow pad).encode_pixel code px = some (r.1.grow pad, r.2) := by
  unfold LZEncoder.encode_pixel at h ⊢
  simp only [] at h ⊢
  have hht : (st.grow pad).ht = st.ht := rfl
  rw [hht]
  cases hg : st.ht.get ((code <<< 8) + px) with
  | none => simp only [hg] at h; cases h
  | some o =>
    cases o with
    | some nc =>
      simp only [hg] at h ⊢
      cases h
      rfl
    | none =>
      simp only [hg] at h ⊢
      cases h1 : (st.encode code).2 with
      | false =>
        simp only [h1, Bool.not_false, if_true] at h
        cases h
        rw [grow_encode st code pad hr]
        simp only [h1, Bool.not_false, if_true]
        rfl
      | true =>
        simp only [h1, Bool.not_true, Bool.false_eq_true, if_false] at h
        by_cases h2 : (st.encode code).1.run_code ≥ LZ.max_code
        · have h2g : ((st.encode code).1.grow pad).run_code ≥ LZ.max_code := h2
          simp only [if_pos h2] at h
          cases h3 : ((st.encode code).1.encode (st.encode code).1.clear_code).2 with
          | false =>
            simp only [h3, Bool.not_false, if_true] at h
            cases h
            have hr1 : (st.encode code).1.f.Room 1 := later_room (later_encode _ _) hr
            rw [grow_encode st code pad hr1]
            simp only [h1, Bool.not_true, Bool.false_eq_true, if_false, if_pos h2g]
            have e2 : ((st.encode code).1.grow pad).encode ((st.encode code).1.grow pad).clear_code
                = _ := grow_encode (st.encode code).1 (st.encode code).1.clear_code pad hr
            rw [e2]
            simp only [h3, Bool.not_false, if_true]
            rfl
          | true =>
            simp only [h3, Bool.not_true, Bool.false_eq_true, if_false] at h
            cases h
            have hr2 : ((st.encode code).1.encode (st.encode code).1.clear_code).1.f.Room 1 := hr
            have hr1 : (st.encode code).1.f.Room 1 := later_room (later_encode _ _) hr2
            rw [grow_encode st code pad hr1]
            simp only [h1, Bool.not_true, Bool.false_eq_true, if_false, if_pos h2g]
            have e2 : ((st.encode code).1.grow pad).encode ((st.encode code).1.grow pad).clear_code
                = _ := grow_encode (st.encode code).1 (st.encode code).1.clear_code pad hr2
            rw [e2]
            simp only [h3, Bool.not_true, Bool.false_eq_true, if_false]
            rfl
        · have h2g : ¬ ((st.encode code).1.grow pad).run_code ≥ LZ.max_code := h2
          simp only [if_neg h2] at h
          cases hi : (st.encode code).1.ht.insert ((code <<< 8) + px) (st.encode code).1.run_code with
          | none => simp only [hi] at h; cases h
          | some t =>
            simp only [hi] at h
            cases h
            have hr1 : (st.encode code).1.f.Room 1 := hr
            rw [grow_encode st code pad hr1]
            simp only [h1, Bool.not_true, Bool.false_eq_true, if_false, if_neg h2g]
            have hi2 : ((st.encode code).1.grow pad).ht.insert ((code <<< 8) + px)
                ((st.encode code).1.grow pad).run_code = some t := hi
            simp only [hi2]
            rfl


end gif

namespace gif

/-! ## Sinks of more capacity: lines -/

theorem later_encode_loop (l : List Nat) :
    ∀ (st : LZEncoder) (code : Nat) (r : LZEncoder × Nat × Bool),
      LZEncoder.encode_loop l st code = some r → st.f.Later r.1.f := by
  induction l with
  | nil =>
    intro st code r h
    cases h
    exact later_refl _
  | cons px rest ih =>
    intro st code r h
    rw [LZEncoder.encode_loop] at h
    cases hp : st.encode_pixel code px with
    | none => simp only [hp] at h; cases h
    | some r1 =>
      simp only [hp] at h
      have l1 := later_encode_pixel st code px r1 hp
      cases hb : r1.2.2 with
      | false =>
        simp only [hb, Bool.not_false, if_true] at h
        cases h
        exact l1
      | true =>
        simp only [hb, Bool.not_true, Bool.false_eq_true, if_false] at h
        exact later_trans l1 (ih _ _ _ h)

theorem grow_encode_loop (l : List Nat) (pad : List Nat) :
    ∀ (st : LZEncoder) (code : Nat) (r : LZEncoder × Nat × Bool),
      LZEncoder.encode_loop l st code = some r → r.1.f.Room 1 →
        LZEncoder.encode_loop l (st.grow pad) code = some (r.1.grow pad, r.2) := by
  induction l with
  | nil =>
    intro st code r h _
    cases h
    rfl
  | cons px rest ih =>
    intro st code r h hr
    rw [LZEncoder.encode_loop] at h ⊢
    cases hp : st.encode_pixel code px with
    | none => simp only [hp] at h; cases h
    | some r1 =>
      simp only [hp] at h
      cases hb : r1.2.2 with
      | false =>
        simp only [hb, Bool.not_false, if_true] at h
        cases h
        rw [grow_encode_pixel st code px pad _ hp hr]
        simp only [hb, Bool.not_false, if_true]
      | true =>
        simp only [hb, Bool.not_true, Bool.false_eq_true, if_false] at h
        have hr1 : r1.1.f.Room 1 := later_room (later_encode_loop rest _ _ _ h) hr
        rw [grow_encode_pixel st code px pad r1 hp hr1]
        simp only [hb, Bool.not_true, Bool.false_eq_true, if_false]
        exact ih _ _ _ h hr

/-- The later state of a checked sequence of two encoder steps. -/
theorem later_seqE (f1 f2 : LZEncoder → LZEncoder × Bool) (fail : LZEncoder → LZEncoder)
    (l1 : ∀ s : LZEncoder, s.f.Later (f1 s).1.f) (l2 : ∀ s : LZEncoder, s.f.Later (f2 s).1.f)
    (lf : ∀ s : LZEncoder, s.f.Later (fail s).f) (s : LZEncoder) :
    s.f.Later (if !(f1 s).2 then (fail (f1 s).1, false) else f2 (f1 s).1).1.f := by
  cases h : (f1 s).2 with
  | false =>
    simp only [Bool.not_false, if_true]
    exact later_trans (l1 s) (lf _)
  | true =>
    simp only [Bool.not_true, Bool.false_eq_true, if_false]
    exact later_trans (l1 s) (l2 _)

/-- A checked sequence of two encoder steps in a sink of more capacity. -/
theorem grow_seqE (f1 f2 : LZEncoder → LZEncoder × Bool) (fail : LZEncoder → LZEncoder)
    (l2 : ∀ s : LZEncoder, s.f.Later (f2 s).1.f) (lf : ∀ s : LZEncoder, s.f.Later (fail s).f)
    (g1 : ∀ (s : LZEncoder) (pad : List Nat), (f1 s).1.f.Room 1 →
      f1 (s.grow pad) = ((f1 s).1.grow pad, (f1 s).2))
    (g2 : ∀ (s : LZEncoder) (pad : List Nat), (f2 s).1.f.Room 1 →
      f2 (s.grow pad) = ((f2 s).1.grow pad, (f2 s).2))
    (gf : ∀ (s : LZEncoder) (pad : List Nat), fail (s.grow pad) = (fail s).grow pad)
    (s : LZEncoder) (pad : List Nat)
    (h : (if !(f1 s).2 then (fail (f1 s).1, false) else f2 (f1 s).1).1.f.Room 1) :
    (if !(f1 (s.grow pad)).2 then (fail (f1 (s.grow pad)).1, false)
      else f2 (f1 (s.grow pad)).1) =
      ((if !(f1 s).2 then (fail (f1 s).1, false) else f2 (f1 s).1).1.grow pad,
        (if !(f1 s).2 then (fail (f1 s).1, false) else f2 (f1 s).1).2) := by
  cases h1 : (f1 s).2 with
  | false =>
    simp only [h1, Bool.not_false, if_true] at h ⊢
    have hr : (f1 s).1.f.Room 1 := later_room (lf _) h
    rw [g1 s pad hr]
    simp only [h1, Bool.not_false, if_true, gf]
  | true =>
    simp only [h1, Bool.not_true, Bool.false_eq_true, if_false] at h ⊢
    have hr : (f1 s).1.f.Room 1 := later_room (l2 _) h
    rw [g1 s pad hr]
    simp only [h1, Bool.not_true, Bool.false_eq_true, if_false]
    exact g2 _ pad h

theorem later_finish (st : LZEncoder) (code : Nat) : st.f.Later (st.finish code).1.f :=
  later_seqE (fun s => s.encode code)
    (fun s => if !(s.encode s.eof_code).2 then
        ({ (s.encode s.eof_code).1 with
            f := (s.encode s.eof_code).1.f.set_error ErrorCode.write_failed }, false)
      else if !((s.encode s.eof_code).1.encode LZ.flush_output).2 then
        ({ ((s.encode s.eof_code).1.encode LZ.flush_output).1 with
            f := ((s.encode s.eof_code).1.encode LZ.flush_output).1.f.set_error
              ErrorCode.write_failed }, false)
      else (((s.encode s.eof_code).1.encode LZ.flush_output).1, true))
    (fun s => { s with f := s.f.set_error ErrorCode.write_failed })
    (fun s => later_encode s code)
    (later_seqE (fun s => s.encode s.eof_code)
      (fun s => if !(s.encode LZ.flush_output).2 then
          ({ (s.encode LZ.flush_output).1 with
              f := (s.encode LZ.flush_output).1.f.set_error ErrorCode.write_failed }, false)
        else ((s.encode LZ.flush_output).1, true))
      (fun s => { s with f := s.f.set_error ErrorCode.write_failed })
      (fun s => later_encode s _)
      (later_seqE (fun s => s.encode LZ.flush_output) (fun s => (s, true))
        (fun s => { s with f := s.f.set_error ErrorCode.write_failed })
        (fun s => later_encode s _) (fun s => later_refl _) (fun s => later_set_error _ _))
      (fun s => later_set_error _ _))
    (fun s => later_set_error _ _) st


/-- The block at the end of `encode_line` over any code writer that commutes with
the growth of the sink. -/
theorem grow_finish_of (enc : LZEncoder → Nat → LZEncoder × Bool)
    (hl : ∀ (s : LZEncoder) (c : Nat), s.f.Later (enc s c).1.f)
    (hg : ∀ (s : LZEncoder) (c : Nat) (pad : List Nat), (enc s c).1.f.Room 1 →
      enc (s.grow pad) c = ((enc s c).1.grow pad, (enc s c).2))
    (st : LZEncoder) (code : Nat) (pad : List Nat)
    (h : (let r1 := enc st code
      if !r1.2 then ({ r1.1 with f := r1.1.f.set_error ErrorCode.write_failed }, false)
      else
        let r2 := enc r1.1 r1.1.eof_code
        if !r2.2 then ({ r2.1 with f := r2.1.f.set_error ErrorCode.write_failed }, false)
        else
          let r3 := enc r2.1 LZ.flush_output
          if !r3.2 then ({ r3.1 with f := r3.1.f.set_error ErrorCode.write_failed }, false)
          else (r3.1, true)).1.f.Room 1) :
    (let r1 := enc (st.grow pad) code
      if !r1.2 then ({ r1.1 with f := r1.1.f.set_error ErrorCode.write_failed }, false)
      else
        let r2 := enc r1.1 r1.1.eof_code
        if !r2.2 then ({ r2.1 with f := r2.1.f.set_error ErrorCode.write_failed }, false)
        else
          let r3 := enc r2.1 LZ.flush_output
          if !r3.2 then ({ r3.1 with f := r3.1.f.set_error ErrorCode.write_failed }, false)
          else (r3.1, true)) =
      ((let r1 := enc st code
        if !r1.2 then ({ r1.1 with f := r1.1.f.set_error ErrorCode.write_failed }, false)
        else
          let r2 := enc r1.1 r1.1.eof_code
          if !r2.2 then ({ r2.1 with f := r2.1.f.set_error ErrorCode.write_failed }, false)
          else
            let r3 := enc r2.1 LZ.flush_output
            if !r3.2 then ({ r3.1 with f := r3.1.f.set_error ErrorCode.write_failed }, false)
            else (r3.1, true)).1.grow pad,
       (let r1 := enc st code
        if !r1.2 then ({ r1.1 with f := r1.1.f.set_error ErrorCode.write_failed }, false)
        else
          let r2 := enc r1.1 r1.1.eof_code
          if !r2.2 then ({ r2.1 with f := r2.1.f.set_error ErrorCode.write_failed }, false)
          else
            let r3 := enc r2.1 LZ.flush_output
            if !r3.2 then ({ r3.1 with f := r3.1.f.set_error ErrorCode.write_failed }, false)
            else (r3.1, true)).2) := by
  simp only [] at h ⊢
  cases h1 : (enc st code).2 with
  | false =>
    simp only [h1, Bool.not_false, if_true] at h
    rw [hg st code pad h]
    simp only [h1, Bool.not_false, if_true]
    rfl
  | true =>
    simp only [h1, Bool.not_true, Bool.false_eq_true, if_false] at h
    cases h2 : (enc (enc st code).1 (enc st code).1.eof_code).2 with
    | false =>
      simp only [h2, Bool.not_false, if_true] at h
      have hr1 : (enc st code).1.f.Room 1 := later_room (hl _ _) h
      rw [hg st code pad hr1]
      simp only [h1, Bool.not_true, Bool.false_eq_true, if_false]
      have e2 : enc ((enc st code).1.grow pad) ((enc st code).1.grow pad).eof_code
          = _ := hg (enc st code).1 (enc st code).1.eof_code pad h
      rw [e2]
      simp only [h2, Bool.not_false, if_true]
      rfl
    | true =>
      simp only [h2, Bool.not_true, Bool.false_eq_true, if_false] at h
      cases h3 : (enc (enc (enc st code).1 (enc st code).1.eof_code).1 LZ.flush_output).2 with
      | false =>
        simp only [h3, Bool.not_false, if_true] at h
        have hr3 : (enc (enc (enc st code).1 (enc st code).1.eof_code).1
            LZ.flush_output).1.f.Room 1 := h
        have hr2 : (enc (enc st code).1 (enc st code).1.eof_code).1.f.Room 1 :=
          later_room (hl _ _) hr3
        have hr1 : (enc st code).1.f.Room 1 := later_room (hl _ _) hr2
        rw [hg st code pad hr1]
        simp only [h1, Bool.not_true, Bool.false_eq_true, if_false]
        have e2 : enc ((enc st code).1.grow pad) ((enc st code).1.grow pad).eof_code
            = _ := hg (enc st code).1 (enc st code).1.eof_code pad hr2
        rw [e2]
        simp only [h2, Bool.not_true, Bool.false_eq_true, if_false]
        rw [hg _ LZ.flush_output pad hr3]
        simp only [h3, Bool.not_false, if_true]
        rfl
      | true =>
        simp only [h3, Bool.not_true, Bool.false_eq_true, if_false] at h
        have hr3 : (enc (enc (enc st code).1 (enc st code).1.eof_code).1
            LZ.flush_output).1.f.Room 1 := h
        have hr2 : (enc (enc st code).1 (enc st code).1.eof_code).1.f.Room 1 :=
          later_room (hl _ _) hr3
        have hr1 : (enc st code).1.f.Room 1 := later_room (hl _ _) hr2
        rw [hg st code pad hr1]
        simp only [h1, Bool.not_true, Bool.false_eq_true, if_false]
        have e2 : enc ((enc st code).1.grow pad) ((enc st code).1.grow pad).eof_code
            = _ := hg (enc st code).1 (enc st code).1.eof_code pad hr2
        rw [e2]
        simp only [h2, Bool.not_true, Bool.false_eq_true, if_false]
        rw [hg _ LZ.flush_output pad hr3]
        simp only [h3, Bool.not_true, Bool.false_eq_true, if_false]

theorem grow_finish (st : LZEncoder) (code : Nat) (pad : List Nat)
    (h : (st.finish code).1.f.Room 1) :
    (st.grow pad).finish code = ((st.finish code).1.grow pad, (st.finish code).2) :=
  grow_finish_of LZEncoder.encode later_encode grow_encode st code pad h



theorem later_encode_line (st : LZEncoder) (line : List Nat) (r : LZEncoder × Bool)
    (h : st.encode_line line = some r) : st.f.Later r.1.f := by
  unfold LZEncoder.encode_line at h
  simp only [] at h
  cases hl : LZEncoder.encode_loop (LZEncoder.line_start st.crnt_code line).2 st
      (LZEncoder.line_start st.crnt_code line).1 with
  | none => simp only [hl] at h; cases h
  | some q =>
    obtain ⟨st1, code, ok⟩ := q
    have l1 : st.f.Later st1.f := later_encode_loop _ _ _ _ hl
    simp only [hl] at h
    cases ok with
    | false =>
      simp only [Bool.not_false, if_true] at h
      cases h
      exact l1
    | true =>
      simp only [Bool.not_true, Bool.false_eq_true, if_false] at h
      by_cases hp : st1.pix_count = 0
      · simp only [if_pos hp] at h
        cases h
        exact later_trans l1 (later_finish { st1 with crnt_code := code } code)
      · simp only [if_neg hp] at h
        cases h
        exact l1

theorem grow_encode_line (st : LZEncoder) (line : List Nat) (pad : List Nat)
    (r : LZEncoder × Bool) (h : st.encode_line line = some r) (hr : r.1.f.Room 1) :
    (st.grow pad).encode_line line = some (r.1.grow pad, r.2) := by
  unfold LZEncoder.encode_line at h ⊢
  simp only [] at h ⊢
  have hcc : (st.grow pad).crnt_code = st.crnt_code := rfl
  rw [hcc]
  cases hl : LZEncoder.encode_loop (LZEncoder.line_start st.crnt_code line).2 st
      (LZEncoder.line_start st.crnt_code line).1 with
  | none => simp only [hl] at h; cases h
  | some q =>
    obtain ⟨st1, code, ok⟩ := q
    simp only [hl] at h
    cases ok with
    | false =>
      simp only [Bool.not_false, if_true] at h
      cases h
      rw [grow_encode_loop _ pad _ _ _ hl hr]
      simp only [Bool.not_false, if_true]
    | true =>
      simp only [Bool.not_true, Bool.false_eq_true, if_false] at h
      by_cases hp : st1.pix_count = 0
      · simp only [if_pos hp] at h
        cases h
        have hr1 : st1.f.Room 1 :=
          later_room (later_finish { st1 with crnt_code := code } code) hr
        rw [grow_encode_loop _ pad _ _ _ hl hr1]
        have hp2 : (st1.grow pad).pix_count = 0 := hp
        simp only [Bool.not_true, Bool.false_eq_true, if_false, if_pos hp2]
        exact congrArg some (grow_finish { st1 with crnt_code := code } code pad hr)
      · simp only [if_neg hp] at h
        cases h
        rw [grow_encode_loop _ pad _ _ _ hl hr]
        have hp2 : ¬ (st1.grow pad).pix_count = 0 := hp
        simp only [Bool.not_true, Bool.false_eq_true, if_false, if_neg hp2]
        rfl

theorem later_put_line (st : LZEncoder) (line : List Nat) (r : LZEncoder × List Nat × Bool)
    (h : st.put_line line = some r) : st.f.Later r.1.f := by
  unfold LZEncoder.put_line at h
  by_cases hp : st.pix_count < line.length
  · simp only [if_pos hp] at h
    cases h
    exact later_set_error _ _
  · simp only [if_neg hp] at h
    cases he : ({ st with pix_count := st.pix_count - line.length } : LZEncoder).encode_line
        (line.map (fun b => b &&& LZEncoder.code_mask.getD st.col_res 0)) with
    | none => simp only [he] at h; cases h
    | some q =>
      simp only [he] at h
      cases h
      exact later_encode_line { st with pix_count := st.pix_count - line.length } _ _ he

theorem grow_put_line (st : LZEncoder) (line : List Nat) (pad : List Nat)
    (r : LZEncoder × List Nat × Bool) (h : st.put_line line = some r) (hr : r.1.f.Room 1) :
    (st.grow pad).put_line line = some (r.1.grow pad, r.2) := by
  unfold LZEncoder.put_line at h ⊢
  by_cases hp : st.pix_count < line.length
  · have hp2 : (st.grow pad).pix_count < line.length := hp
    simp only [if_pos hp] at h
    simp only [if_pos hp2]
    cases h
    rfl
  · have hp2 : ¬ (st.grow pad).pix_count < line.length := hp
    simp only [if_neg hp] at h
    simp only [if_neg hp2]
    cases he : ({ st with pix_count := st.pix_count - line.length } : LZEncoder).encode_line
        (line.map (fun b => b &&& LZEncoder.code_mask.getD st.col_res 0)) with
    | none => simp only [he] at h; cases h
    | some q =>
      simp only [he] at h
      cases h
      have e := grow_encode_line { st with pix_count := st.pix_count - line.length } _ pad _ he hr
      have e2 : ({ st.grow pad with pix_count := (st.grow pad).pix_count - line.length } :
          LZEncoder).encode_line
          (line.map (fun b => b &&& LZEncoder.code_mask.getD (st.grow pad).col_res 0)) =
          some (q.1.grow pad, q.2) := e
      rw [e2]
      rfl


end gif

namespace gif

/-! ## Sinks of more capacity: images and the container -/

theorem later_save_rows (width : Nat) (rows : List Nat) :
    ∀ (enc : LZEncoder) (b : List Nat) (r : LZEncoder × List Nat × Bool),
      Image.save_rows rows enc b width = some r → enc.f.Later r.1.f := by
  induction rows with
  | nil =>
    intro enc b r h
    cases h
    exact later_refl _
  | cons j rest ih =>
    intro enc b r h
    rw [Image.save_rows] at h
    cases hp : enc.put_line ((b.drop (j * width)).take width) with
    | none => simp only [hp] at h; cases h
    | some q =>
      simp only [hp] at h
      have l1 := later_put_line enc _ q hp
      cases hb : q.2.2 with
      | false =>
        simp only [hb, Bool.not_false, if_true] at h
        cases h
        exact l1
      | true =>
        simp only [hb, Bool.not_true, Bool.false_eq_true, if_false] at h
        exact later_trans l1 (ih _ _ _ h)

theorem grow_save_rows (width : Nat) (pad : List Nat) (rows : List Nat) :
    ∀ (enc : LZEncoder) (b : List Nat) (r : LZEncoder × List Nat × Bool),
      Image.save_rows rows enc b width = some r → r.1.f.Room 1 →
        Image.save_rows rows (enc.grow pad) b width = some (r.1.grow pad, r.2) := by
  induction rows with
  | nil =>
    intro enc b r h _
    cases h
    rfl
  | cons j rest ih =>
    intro enc b r h hr
    rw [Image.save_rows] at h ⊢
    cases hp : enc.put_line ((b.drop (j * width)).take width) with
    | none => simp only [hp] at h; cases h
    | some q =>
      simp only [hp] at h
      cases hb : q.2.2 with
      | false =>
        simp only [hb, Bool.not_false, if_true] at h
        cases h
        rw [grow_put_line enc _ pad q hp hr]
        simp only [hb, Bool.not_false, if_true]
      | true =>
        simp only [hb, Bool.not_true, Bool.false_eq_true, if_false] at h
        have hr1 : q.1.f.Room 1 := later_room (later_save_rows width rest _ _ _ h) hr
        rw [grow_put_line enc _ pad q hp hr1]
        simp only [hb, Bool.not_true, Bool.false_eq_true, if_false]
        exact ih _ _ _ h hr

theorem later_save_descr (img : Image) (io : GifIO) : io.Later (img.save_descr io).1 := by
  unfold Image.save_descr
  simp only []
  have l3 : ∀ fl : Nat, io.Later
      ((((io.write_byte Gif_descriptor).1.write_rect img.rect).1.write_byte fl).1) := fun fl =>
    later_trans (later_trans (later_write_byte io _) (later_write_rect _ _))
      (later_write_byte _ _)
  cases hcm : img.cm with
  | none => exact l3 _
  | some cm =>
    simp only []
    split_ifs <;> exact later_trans (l3 _) (later_cm_save cm _)

theorem grow_save_descr (img : Image) (io : GifIO) (pad : List Nat)
    (h : (img.save_descr io).1.Room 1) :
    img.save_descr (io.grow pad) = ((img.save_descr io).1.grow pad, (img.save_descr io).2) := by
  have g3 : ∀ fl : Nat,
      ((((io.write_byte Gif_descriptor).1.write_rect img.rect).1.write_byte fl).1).Room 1 →
      ((((io.grow pad).write_byte Gif_descriptor).1.write_rect img.rect).1.write_byte fl).1 =
        ((((io.write_byte Gif_descriptor).1.write_rect img.rect).1.write_byte fl).1).grow pad := by
    intro fl h3
    have h2 : ((io.write_byte Gif_descriptor).1.write_rect img.rect).1.Room 1 :=
      later_room (later_write_byte _ _) h3
    have h1 : (io.write_byte Gif_descriptor).1.Room 1 := later_room (later_write_rect _ _) h2
    rw [grow_write_byte io _ pad h1, grow_write_rect _ _ pad h2, grow_write_byte _ _ pad h3]
  unfold Image.save_descr at h ⊢
  simp only [] at h ⊢
  rw [g3]
  · generalize (((io.write_byte Gif_descriptor).1.write_rect img.rect).1.write_byte _).1 = io3
      at h ⊢
    cases hcm : img.cm with
    | none => rfl
    | some cm =>
      simp only [hcm] at h ⊢
      have hs : (cm.save io3).1.Room 1 := by
        split_ifs at h <;> exact h
      rw [grow_cm_save cm _ pad hs]
      split_ifs <;> rfl
  · generalize (((io.write_byte Gif_descriptor).1.write_rect img.rect).1.write_byte _).1 = io3
      at h ⊢
    cases hcm : img.cm with
    | none =>
      simp only [hcm] at h
      exact h
    | some cm =>
      simp only [hcm] at h
      have hs : (cm.save io3).1.Room 1 := by
        split_ifs at h <;> exact h
      exact later_room (later_cm_save cm _) hs


theorem later_img_save (img : Image) (io : GifIO) (gcm : Option ColorMap)
    (r : Image × GifIO × Bool) (h : img.save io gcm = some r) : io.Later r.2.1 := by
  unfold Image.save at h
  by_cases ha : img.rect.area = 0
  · simp only [if_pos ha] at h
    cases h
    exact later_refl _
  · simp only [if_neg ha] at h
    have l1 := later_save_exts img.exts io
    cases h1 : (Image.save_exts img.exts io).2 with
    | false =>
      simp only [h1, Bool.not_false, if_true] at h
      cases h
      exact l1
    | true =>
      simp only [h1, Bool.not_true, Bool.false_eq_true, if_false] at h
      have l2 := later_trans l1 (later_save_descr img (Image.save_exts img.exts io).1)
      cases h2 : (img.save_descr (Image.save_exts img.exts io).1).2 with
      | false =>
        simp only [h2, Bool.not_false, if_true] at h
        cases h
        exact l2
      | true =>
        simp only [h2, Bool.not_true, Bool.false_eq_true, if_false] at h
        cases h3 : (get_color_res img.cm gcm).2 with
        | false =>
          simp only [h3, Bool.not_false, if_true] at h
          cases h
          exact later_of_set_error _ l2
        | true =>
          simp only [h3, Bool.not_true, Bool.false_eq_true, if_false] at h
          have l3 := later_trans l2 (later_write_byte
            (img.save_descr (Image.save_exts img.exts io).1).1 (get_color_res img.cm gcm).1)
          have l4 := later_trans l3 (later_new
            ((img.save_descr (Image.save_exts img.exts io).1).1.write_byte
              (get_color_res img.cm gcm).1).1 img.rect.area (get_color_res img.cm gcm).1)
          cases hs : Image.save_rows
              (if img.interlace then interlace_rows img.rect.height else plain_rows img.rect.height)
              (LZEncoder.new ((img.save_descr (Image.save_exts img.exts io).1).1.write_byte
                (get_color_res img.cm gcm).1).1 img.rect.area (get_color_res img.cm gcm).1)
              img.b img.rect.width with
          | none => simp only [hs] at h; cases h
          | some q =>
            simp only [hs] at h
            cases h
            exact later_trans l4 (later_save_rows _ _ _ _ q hs)

theorem grow_img_save (img : Image) (io : GifIO) (gcm : Option ColorMap) (pad : List Nat)
    (r : Image × GifIO × Bool) (h : img.save io gcm = some r) (hr : r.2.1.Room 1) :
    img.save (io.grow pad) gcm = some (r.1, r.2.1.grow pad, r.2.2) := by
  unfold Image.save at h ⊢
  by_cases ha : img.rect.area = 0
  · simp only [if_pos ha] at h ⊢
    cases h
    rfl
  · simp only [if_neg ha] at h ⊢
    cases h1 : (Image.save_exts img.exts io).2 with
    | false =>
      simp only [h1, Bool.not_false, if_true] at h
      cases h
      rw [grow_save_exts img.exts io pad hr]
      simp only [h1, Bool.not_false, if_true]
    | true =>
      simp only [h1, Bool.not_true, Bool.false_eq_true, if_false] at h
      cases h2 : (img.save_descr (Image.save_exts img.exts io).1).2 with
      | false =>
        simp only [h2, Bool.not_false, if_true] at h
        cases h
        have hr1 := later_room (later_save_descr img (Image.save_exts img.exts io).1) hr
        rw [grow_save_exts img.exts io pad hr1]
        simp only [h1, Bool.not_true, Bool.false_eq_true, if_false]
        rw [grow_save_descr img _ pad hr]
        simp only [h2, Bool.not_false, if_true]
      | true =>
        simp only [h2, Bool.not_true, Bool.false_eq_true, if_false] at h
        cases h3 : (get_color_res img.cm gcm).2 with
        | false =>
          simp only [h3, Bool.not_false, if_true] at h
          cases h
          have hr2 : (img.save_descr (Image.save_exts img.exts io).1).1.Room 1 := hr
          have hr1 := later_room (later_save_descr img (Image.save_exts img.exts io).1) hr2
          rw [grow_save_exts img.exts io pad hr1]
          simp only [h1, Bool.not_true, Bool.false_eq_true, if_false]
          rw [grow_save_descr img _ pad hr2]
          simp only [h2, Bool.not_true, Bool.false_eq_true, if_false, Bool.not_false, if_true]
          rfl
        | true =>
          simp only [h3, Bool.not_true, Bool.false_eq_true, if_false] at h
          cases hs : Image.save_rows
              (if img.interlace then interlace_rows img.rect.height else plain_rows img.rect.height)
              (LZEncoder.new ((img.save_descr (Image.save_exts img.exts io).1).1.write_byte
                (get_color_res img.cm gcm).1).1 img.rect.area (get_color_res img.cm gcm).1)
              img.b img.rect.width with
          | none => simp only [hs] at h; cases h
          | some q =>
            simp only [hs] at h
            cases h
            have hr5 : q.1.f.Room 1 := hr
            have hr4 := later_room (later_save_rows _ _ _ _ q hs) hr5
            have hr3 := later_room (later_new
              ((img.save_descr (Image.save_exts img.exts io).1).1.write_byte
                (get_color_res img.cm gcm).1).1 img.rect.area (get_color_res img.cm gcm).1) hr4
            have hr2 := later_room (later_write_byte
              (img.save_descr (Image.save_exts img.exts io).1).1 (get_color_res img.cm gcm).1) hr3
            have hr1 := later_room (later_save_descr img (Image.save_exts img.exts io).1) hr2
            rw [grow_save_exts img.exts io pad hr1]
            simp only [h1, Bool.not_true, Bool.false_eq_true, if_false]
            rw [grow_save_descr img _ pad hr2]
            simp only [h2, Bool.not_true, Bool.false_eq_true, if_false]
            rw [grow_write_byte _ _ pad hr3, grow_new _ _ _ pad hr4,
              grow_save_rows _ pad _ _ _ q hs hr5]
            rfl

theorem later_save_scr_desc (g : Gif) (io : GifIO) : io.Later (g.save_scr_desc io).1 := by
  unfold Gif.save_scr_desc
  simp only []
  have l0 := later_write_bytes io [0x47, 0x49, 0x46, 0x38, 0x39, 0x61]
  cases h1 : (io.write_bytes [0x47, 0x49, 0x46, 0x38, 0x39, 0x61]).2 with
  | false =>
    simp only [Bool.not_false, if_true]
    exact later_of_set_error _ l0
  | true =>
    simp only [Bool.not_true, Bool.false_eq_true, if_false]
    have l2 := later_trans (later_trans l0 (later_write_size _ g.sz))
      (later_write_bytes ((io.write_bytes [0x47, 0x49, 0x46, 0x38, 0x39, 0x61]).1.write_size
        g.sz).1 [Gif.scr_flags g.cm, g.bg, 0])
    cases hcm : g.cm with
    | none =>
      rw [hcm] at l2
      exact l2
    | some cm =>
      rw [hcm] at l2
      simp only []
      split_ifs <;> exact later_trans l2 (later_cm_save cm _)

theorem grow_save_scr_desc (g : Gif) (io : GifIO) (pad : List Nat)
    (h : (g.save_scr_desc io).1.Room 1) :
    g.save_scr_desc (io.grow pad) = ((g.save_scr_desc io).1.grow pad, (g.save_scr_desc io).2) := by
  unfold Gif.save_scr_desc at h ⊢
  simp only [] at h ⊢
  cases h1 : (io.write_bytes [0x47, 0x49, 0x46, 0x38, 0x39, 0x61]).2 with
  | false =>
    simp only [h1, Bool.not_false, if_true] at h
    rw [grow_write_bytes io _ pad h]
    simp only [h1, Bool.not_false, if_true]
    rfl
  | true =>
    simp only [h1, Bool.not_true, Bool.false_eq_true, if_false] at h
    have key : (((io.write_bytes [0x47, 0x49, 0x46, 0x38, 0x39, 0x61]).1.write_size
        g.sz).1.write_bytes [Gif.scr_flags g.cm, g.bg, 0]).1.Room 1 := by
      cases hcm : g.cm with
      | none =>
        simp only [hcm] at h
        exact h
      | some cm =>
        simp only [hcm] at h
        have hs : (cm.save (((io.write_bytes [0x47, 0x49, 0x46, 0x38, 0x39, 0x61]).1.write_size
            g.sz).1.write_bytes [Gif.scr_flags (some cm), g.bg, 0]).1).1.Room 1 := by
          split_ifs at h <;> exact h
        exact later_room (later_cm_save cm _) hs
    have k2 := later_room (later_write_bytes _ _) key
    have k1 := later_room (later_write_size _ _) k2
    rw [grow_write_bytes io _ pad k1]
    simp only [h1, Bool.not_true, Bool.false_eq_true, if_false]
    rw [grow_write_size _ _ pad k2, grow_write_bytes _ _ pad key]
    cases hcm : g.cm with
    | none => rfl
    | some cm =>
      simp only [hcm] at h ⊢
      have hs : (cm.save (((io.write_bytes [0x47, 0x49, 0x46, 0x38, 0x39, 0x61]).1.write_size
          g.sz).1.write_bytes [Gif.scr_flags (some cm), g.bg, 0]).1).1.Room 1 := by
        split_ifs at h <;> exact h
      rw [grow_cm_save cm _ pad hs]
      split_ifs <;> rfl

theorem later_save_imgs (cm : Option ColorMap) (l : List Image) :
    ∀ (io : GifIO) (r : List Image × GifIO × Bool),
      Gif.save_imgs l io cm = some r → io.Later r.2.1 := by
  induction l with
  | nil =>
    intro io r h
    cases h
    exact later_refl _
  | cons i rest ih =>
    intro io r h
    rw [Gif.save_imgs] at h
    cases hi : i.save io cm with
    | none => simp only [hi] at h; cases h
    | some q =>
      simp only [hi] at h
      have l1 := later_img_save i io cm q hi
      cases hb : q.2.2 with
      | false =>
        simp only [hb, Bool.not_false, if_true] at h
        cases h
        exact l1
      | true =>
        simp only [hb, Bool.not_true, Bool.false_eq_true, if_false] at h
        cases hr : Gif.save_imgs rest q.2.1 cm with
        | none => simp only [hr] at h; cases h
        | some q2 =>
          simp only [hr] at h
          cases h
          exact later_trans l1 (ih _ q2 hr)

theorem grow_save_imgs (cm : Option ColorMap) (pad : List Nat) (l : List Image) :
    ∀ (io : GifIO) (r : List Image × GifIO × Bool),
      Gif.save_imgs l io cm = some r → r.2.1.Room 1 →
        Gif.save_imgs l (io.grow pad) cm = some (r.1, r.2.1.grow pad, r.2.2) := by
  induction l with
  | nil =>
    intro io r h _
    cases h
    rfl
  | cons i rest ih =>
    intro io r h hroom
    rw [Gif.save_imgs] at h ⊢
    cases hi : i.save io cm with
    | none => simp only [hi] at h; cases h
    | some q =>
      simp only [hi] at h
      cases hb : q.2.2 with
      | false =>
        simp only [hb, Bool.not_false, if_true] at h
        cases h
        rw [grow_img_save i io cm pad q hi hroom]
        simp only [hb, Bool.not_false, if_true]
      | true =>
        simp only [hb, Bool.not_true, Bool.false_eq_true, if_false] at h
        cases hr : Gif.save_imgs rest q.2.1 cm with
        | none => simp only [hr] at h; cases h
        | some q2 =>
          simp only [hr] at h
          cases h
          have hroom2 : q2.2.1.Room 1 := hroom
          have hr1 := later_room (later_save_imgs cm rest _ _ hr) hroom2
          rw [grow_img_save i io cm pad q hi hr1]
          simp only [hb, Bool.not_true, Bool.false_eq_true, if_false]
          rw [ih _ q2 hr hroom2]


end gif

namespace gif

/-! ## A save that succeeds had room -/

theorem write_terminator_room (io : GifIO) (h : io.write_terminator.2 = true) : io.Room 1 := by
  unfold GifIO.write_terminator MemDevice.write MemDevice.bytesLeft MemDevice.l at h
  unfold GifIO.Room MemDevice.Room
  simp only [List.length_singleton] at h
  by_cases hgt : 1 > io.d.d.length - io.d.p
  · rw [if_pos hgt] at h
    have h0 : io.d.d.length - io.d.p = 0 := by omega
    rw [h0] at h
    exact absurd h (by decide)
  · omega

theorem write_terminator_pos (io : GifIO) (h : io.Room 1) :
    io.write_terminator.1.d.p = io.d.p + 1 := by
  unfold GifIO.Room MemDevice.Room at h
  unfold GifIO.write_terminator MemDevice.write MemDevice.bytesLeft MemDevice.l
  simp only [List.length_singleton]
  have hgt : ¬ 1 > io.d.d.length - io.d.p := by omega
  rw [if_neg hgt]

theorem room_grow (io : GifIO) (pad : List Nat) (k : Nat) (h : io.Room k) :
    (io.grow pad).Room (k + pad.length) := by
  unfold GifIO.Room MemDevice.Room at h ⊢
  simp only [ GifIO.grow, MemDevice.grow, List.length_append]
  omega

/-- A `Gif::save` that returns true found room for all the bytes of the container:
the terminator, the last byte, has been written in full, and up to it the session
wrote what it writes in a sink of more capacity. -/
theorem gif_save_needs_room (g : Gif) (dev : MemDevice) (hs : ∀ i ∈ g.imgs, i.Savable g.cm)
    (g1 : Gif) (io1 : GifIO) (h : Gif.save g dev = some (g1, io1, true)) :
    dev.Room (gif_bytes g).length := by
  unfold Gif.save at h
  simp only [] at h
  cases h1 : (g.save_scr_desc ( GifIO.mk_dev dev)).2 with
  | false =>
    simp only [h1, Bool.not_false, if_true] at h
    cases h
  | true =>
    simp only [h1, Bool.not_true, Bool.false_eq_true, if_false] at h
    cases h2 : Gif.save_imgs g.imgs (g.save_scr_desc ( GifIO.mk_dev dev)).1 g.cm with
    | none => simp only [h2] at h; cases h
    | some r2 =>
      simp only [h2] at h
      cases h2b : r2.2.2 with
      | false =>
        simp only [h2b, Bool.not_false, if_true] at h
        cases h
      | true =>
        simp only [h2b, Bool.not_true, Bool.false_eq_true, if_false] at h
        cases h3 : (Gif.save_exs g.exs r2.2.1).2 with
        | false =>
          simp only [h3, Bool.not_false, if_true] at h
          cases h
        | true =>
          simp only [h3, Bool.not_true, Bool.false_eq_true, if_false] at h
          have h4 : (Gif.save_exs g.exs r2.2.1).1.write_terminator.2 = true :=
            congrArg (fun r => r.2.2) (Option.some.inj h)
          have k3 : (Gif.save_exs g.exs r2.2.1).1.Room 1 := write_terminator_room _ h4
          have k2 : r2.2.1.Room 1 := later_room (later_save_exs g.exs r2.2.1) k3
          have k1 : (g.save_scr_desc ( GifIO.mk_dev dev)).1.Room 1 :=
            later_room (later_save_imgs g.cm g.imgs _ r2 h2) k2
          have l1 := later_save_scr_desc g ( GifIO.mk_dev dev)
          have l2 := later_save_imgs g.cm g.imgs _ r2 h2
          have l3 := later_save_exs g.exs r2.2.1
          have l13 := later_trans (later_trans l1 l2) l3
          have k0 : ( GifIO.mk_dev dev).Room 1 := later_room l13 k3
          have hroomg : (MemDevice.grow dev (List.replicate (gif_bytes g).length 0)).Room
              (gif_bytes g).length := by
            have := room_grow ( GifIO.mk_dev dev) (List.replicate (gif_bytes g).length 0) 1 k0
            unfold GifIO.Room MemDevice.Room at this
            unfold MemDevice.Room
            simp only [List.length_replicate] at this
            have e : (( GifIO.mk_dev dev).grow (List.replicate (gif_bytes g).length 0)).d =
              MemDevice.grow dev (List.replicate (gif_bytes g).length 0) := rfl
            rw [e] at this
            omega
          have hbig := gif_save_room g _ hs hroomg
          have e1 : g.save_scr_desc
              ( GifIO.mk_dev (MemDevice.grow dev (List.replicate (gif_bytes g).length 0))) =
              ((g.save_scr_desc ( GifIO.mk_dev dev)).1.grow
                (List.replicate (gif_bytes g).length 0), true) := by
            have := grow_save_scr_desc g ( GifIO.mk_dev dev)
              (List.replicate (gif_bytes g).length 0) k1
            rw [h1] at this
            exact this
          have e2 := grow_save_imgs g.cm (List.replicate (gif_bytes g).length 0) g.imgs _ r2 h2 k2
          have e3 := grow_save_exs g.exs r2.2.1 (List.replicate (gif_bytes g).length 0) k3
          rw [h3] at e3
          unfold Gif.save at hbig
          simp only [] at hbig
          rw [e1] at hbig
          simp only [Bool.not_true, Bool.false_eq_true, if_false, e2, h2b, e3] at hbig
          have hp := congrArg (fun r : Gif × GifIO × Bool => r.2.1.d.p) (Option.some.inj hbig)
          simp only [] at hp
          have k3g := room_grow _ (List.replicate (gif_bytes g).length 0) 1 k3
          have k3g1 : ((Gif.save_exs g.exs r2.2.1).1.grow
              (List.replicate (gif_bytes g).length 0)).Room 1 := by
            unfold GifIO.Room MemDevice.Room at k3g ⊢
            omega
          rw [write_terminator_pos _ k3g1] at hp
          have hp2 : (( GifIO.mk_dev (MemDevice.grow dev
              (List.replicate (gif_bytes g).length 0))).push (gif_bytes g)).d.p =
              dev.p + (gif_bytes g).length := rfl
          rw [hp2] at hp
          have hp3 : ((Gif.save_exs g.exs r2.2.1).1.grow
              (List.replicate (gif_bytes g).length 0)).d.p = (Gif.save_exs g.exs r2.2.1).1.d.p := rfl
          rw [hp3] at hp
          unfold GifIO.Room MemDevice.Room at k3
          have hlen := l13.1
          have hlen2 : ( GifIO.mk_dev dev).d.d.length = dev.d.length := rfl
          unfold MemDevice.Room
          omega

end gif

namespace gif

/-! ## Wire layout of the container: the claim -/

/-- C14.  Container wire layout: for every container (16 bit screen size, a global
palette, if present, of colour resolution 1 to 8, frames that `Image::save` can write
with local palettes of colour resolution at most 8), `Gif::save` succeeds exactly when
the sink has room for the bytes of the container, and a successful `Gif::save` has
written, in this order, the six ASCII bytes GIF89a, the screen width and height as
little-endian 16 bit words, one flags byte equal to
(0x80 if a global palette is present, else 0) | ((res - 1) << 4) | (res - 1) where
`res` is the colour resolution of the global palette, the background index, one zero
byte, the entries of the global palette if present, then the bytes of every frame in
insertion order, then every trailing extension record in order, and finally the
single terminator byte 0x3b as the last byte written. -/
theorem container_wire_layout (g : Gif) (dev : MemDevice)
    (hsz : g.sz.wd < 65536 ∧ g.sz.ht < 65536)
    (hcm : ∀ c, g.cm = some c → 1 ≤ c.r ∧ c.r ≤ 8)
    (himgs : ∀ i ∈ g.imgs, i.Savable g.cm ∧ ∀ c, i.cm = some c → c.r ≤ 8) :
    ((∃ g1 io1, Gif.save g dev = some (g1, io1, true)) ↔ dev.Room (gif_bytes g).length) ∧
    ∀ g1 io1, Gif.save g dev = some (g1, io1, true) →
      io1.d.written = dev.written ++
        ([0x47, 0x49, 0x46, 0x38, 0x39, 0x61] ++
          [g.sz.wd % 256, g.sz.wd / 256, g.sz.ht % 256, g.sz.ht / 256] ++
          [spec_scr_flags g.cm, g.bg, 0] ++
          cm_bytes g.cm ++ g.imgs.flatMap (fun i => image_bytes i g.cm) ++
          g.exs.flatMap ext_bytes ++ [0x3b]) ∧
      [0x47, 0x49, 0x46, 0x38, 0x39, 0x61] = "GIF89a".toList.map Char.toNat ∧
      io1.d.written.getLast? = some 0x3b := by
  have hneed : ∀ g1 io1, Gif.save g dev = some (g1, io1, true) →
      dev.Room (gif_bytes g).length := fun g1 io1 h =>
    gif_save_needs_room g dev (fun i hi => (himgs i hi).1) g1 io1 h
  refine ⟨⟨fun ⟨g1, io1, h⟩ => hneed g1 io1 h, fun hroom =>
    ⟨_, _, gif_save_room g dev (fun i hi => (himgs i hi).1) hroom⟩⟩, ?_⟩
  intro g1 io1 h
  have hroom := hneed g1 io1 h
  have hs := gif_save_room g dev (fun i hi => (himgs i hi).1) hroom
  have hio : io1 = ( GifIO.mk_dev dev).push (gif_bytes g) := by
    rw [hs] at h
    exact (congrArg (fun r : Gif × GifIO × Bool => r.2.1) (Option.some.inj h)).symm
  have hb := gif_bytes_eq g hsz.1 hsz.2 hcm
  have hw : (( GifIO.mk_dev dev).push (gif_bytes g)).d.written = dev.written ++ gif_bytes g :=
    MemDevice_push_written dev (gif_bytes g) hroom
  rw [hio]
  refine ⟨by rw [hw, hb], by decide, ?_⟩
  rw [hw, hb, ← List.append_assoc]
  exact getLast_append_singleton _ _

theorem container_wire_layout_witness :
    ∃ g1 io1,
      Gif.save sample_anim (MemDevice.open_for_write (List.replicate 100 0)) =
        some (g1, io1, true) ∧
      io1.d.written = (MemDevice.open_for_write (List.replicate 100 0)).written ++
        ([0x47, 0x49, 0x46, 0x38, 0x39, 0x61] ++
          [sample_anim.sz.wd % 256, sample_anim.sz.wd / 256, sample_anim.sz.ht % 256,
            sample_anim.sz.ht / 256] ++
          [spec_scr_flags sample_anim.cm, sample_anim.bg, 0] ++
          cm_bytes sample_anim.cm ++
          sample_anim.imgs.flatMap (fun i => image_bytes i sample_anim.cm) ++
          sample_anim.exs.flatMap ext_bytes ++ [0x3b]) ∧
      [0x47, 0x49, 0x46, 0x38, 0x39, 0x61] = "GIF89a".toList.map Char.toNat ∧
      io1.d.written.getLast? = some 0x3b := by
  have t := container_wire_layout sample_anim (MemDevice.open_for_write (List.replicate 100 0))
    (by decide)
    (by
      intro c hc
      have hc2 : c = { r := 1, c := [⟨0, 0, 0⟩, ⟨255, 255, 255⟩] } := (Option.some.inj hc).symm
      rw [hc2]
      exact ⟨by decide, by decide⟩)
    (by simp [sample_anim, Image.Savable, get_color_res, Rect.area, Size.area])
  obtain ⟨g1, io1, hs⟩ := t.1.mpr (by decide)
  exact ⟨g1, io1, hs, t.2 g1 io1 hs⟩

end gif

namespace gif

/-! ## The memory device -/

theorem getElem?_write (d buf : List Nat) (p k : Nat) (hk : k ≤ buf.length)
    (hp : p + k ≤ d.length) (i : Nat) :
    (d.take p ++ buf.take k ++ d.drop (p + k))[i]? =
      if i < p then d[i]? else if i < p + k then buf[i - p]? else d[i]? := by
  have hl1 : (d.take p).length = p := by rw [List.length_take]; omega
  have hl2 : (buf.take k).length = k := by rw [List.length_take]; omega
  by_cases h1 : i < p
  · rw [if_pos h1, List.append_assoc, List.getElem?_append_left (by omega),
      List.getElem?_take_of_lt h1]
  · rw [if_neg h1]
    by_cases h2 : i < p + k
    · rw [if_pos h2, List.getElem?_append_left (by rw [List.length_append]; omega),
        List.getElem?_append_right (by omega), hl1, List.getElem?_take_of_lt (by omega)]
    · rw [if_neg h2, List.getElem?_append_right (by rw [List.length_append]; omega),
        List.length_append, hl1, hl2, List.getElem?_drop]
      congr 1
      omega

/-- C25.  Memory device truncation: for a device of capacity `l` at a position
`p ≤ l`, a write of the bytes `buf` transfers exactly `min (len, l - p)` bytes: it
returns that number, advances the position by it, keeps the capacity, stores the
first bytes of `buf` at the offsets from `p` on and leaves every byte of the buffer
outside `[p, p + min (len, l - p))` unchanged; a read of `len` bytes returns the
`min (len, l - p)` bytes that stand at the position, advances the position by that
number and leaves the buffer as it is; after either the position does not exceed the
capacity; and a device opened for reading on the written buffer reads the bytes
written back from the same offsets. -/
theorem mem_device_truncation (dev : MemDevice) (buf : List Nat) (len : Nat)
    (hp : dev.p ≤ dev.l) :
    ((dev.write buf).2 = min buf.length (dev.l - dev.p) ∧
      (dev.write buf).1.p = dev.p + min buf.length (dev.l - dev.p) ∧
      (dev.write buf).1.l = dev.l ∧
      (∀ i, i < min buf.length (dev.l - dev.p) → (dev.write buf).1.d[dev.p + i]? = buf[i]?) ∧
      (∀ i, i < dev.p ∨ dev.p + min buf.length (dev.l - dev.p) ≤ i →
        (dev.write buf).1.d[i]? = dev.d[i]?) ∧
      (dev.write buf).1.p ≤ (dev.write buf).1.l) ∧
    ((dev.read len).2 = (dev.d.drop dev.p).take (min len (dev.l - dev.p)) ∧
      (dev.read len).2.length = min len (dev.l - dev.p) ∧
      (dev.read len).1.p = dev.p + min len (dev.l - dev.p) ∧
      (dev.read len).1.d = dev.d ∧
      (dev.read len).1.p ≤ (dev.read len).1.l) ∧
    (((MemDevice.open_for_read (dev.write buf).1.d).read dev.p).1.read buf.length).2 =
      buf.take (min buf.length (dev.l - dev.p)) := by
  unfold MemDevice.l at hp
  have hk : (if buf.length > dev.bytesLeft then dev.bytesLeft else buf.length) =
      min buf.length (dev.l - dev.p) := by
    unfold MemDevice.bytesLeft
    split <;> omega
  have hk2 : (if len > dev.bytesLeft then dev.bytesLeft else len) = min len (dev.l - dev.p) := by
    unfold MemDevice.bytesLeft
    split <;> omega
  have hkb : min buf.length (dev.l - dev.p) ≤ buf.length := Nat.min_le_left _ _
  have hkl : dev.p + min buf.length (dev.l - dev.p) ≤ dev.d.length := by
    unfold MemDevice.l; omega
  have hd : (dev.write buf).1.d = dev.d.take dev.p ++ buf.take (min buf.length (dev.l - dev.p)) ++
      dev.d.drop (dev.p + min buf.length (dev.l - dev.p)) := by
    unfold MemDevice.write
    simp only [hk]
  have hlen : (dev.write buf).1.d.length = dev.d.length := by
    rw [hd]
    simp only [List.length_append, List.length_take, List.length_drop]
    omega
  have hget := getElem?_write dev.d buf dev.p _ hkb hkl
  refine ⟨⟨?_, ?_, ?_, ?_, ?_, ?_⟩, ⟨?_, ?_, ?_, ?_, ?_⟩, ?_⟩
  · unfold MemDevice.write; simp only [hk]
  · unfold MemDevice.write; simp only [hk]
  · unfold MemDevice.l; exact hlen
  · intro i hi
    rw [hd, hget, if_neg (by omega), if_pos (by omega)]
    congr 1
    omega
  · intro i hi
    rw [hd, hget]
    rcases hi with h1 | h1
    · rw [if_pos h1]
    · rw [if_neg (by omega), if_neg (by omega)]
  · have e1 : (dev.write buf).1.p = dev.p + min buf.length (dev.l - dev.p) := by
      unfold MemDevice.write; simp only [hk]
    unfold MemDevice.l
    rw [e1, hlen]
    exact hkl
  · unfold MemDevice.read; simp only [hk2]
  · unfold MemDevice.read
    simp only [hk2, List.length_take, List.length_drop]
    unfold MemDevice.l
    omega
  · unfold MemDevice.read; simp only [hk2]
  · rfl
  · have e1 : (dev.read len).1.p = dev.p + min len (dev.l - dev.p) := by
      unfold MemDevice.read; simp only [hk2]
    have e2 : (dev.read len).1.d = dev.d := rfl
    unfold MemDevice.l
    rw [e1, e2]
    unfold MemDevice.l
    omega
  · have hr1 : ((MemDevice.open_for_read (dev.write buf).1.d).read dev.p).1 =
        { d := (dev.write buf).1.d, p := dev.p, m := OpenMode.read_only } := by
      unfold MemDevice.read MemDevice.open_for_read MemDevice.bytesLeft MemDevice.l
      simp only [Nat.sub_zero, Nat.zero_add]
      rw [if_neg (by rw [hlen]; omega)]
    rw [hr1]
    unfold MemDevice.read MemDevice.bytesLeft MemDevice.l
    simp only [hlen]
    have hk3 : (if buf.length > dev.d.length - dev.p then dev.d.length - dev.p else buf.length) =
        min buf.length (dev.l - dev.p) := by
      unfold MemDevice.l
      split <;> omega
    rw [hk3]
    unfold MemDevice.l at hd hget hkb ⊢
    apply List.ext_getElem?
    intro i
    rw [List.getElem?_take, List.getElem?_take]
    by_cases hi : i < min buf.length (dev.d.length - dev.p)
    · rw [if_pos hi, if_pos hi, List.getElem?_drop, hd, hget, if_neg (by omega),
        if_pos (by omega)]
      congr 1
      omega
    · rw [if_neg hi, if_neg hi]

theorem mem_device_truncation_witness :
    (((MemDevice.mk [1, 2, 3, 4, 5] 3 OpenMode.write_only).write [7, 8, 9]).2 =
        min [7, 8, 9].length
          ((MemDevice.mk [1, 2, 3, 4, 5] 3 OpenMode.write_only).l -
            (MemDevice.mk [1, 2, 3, 4, 5] 3 OpenMode.write_only).p) ∧
      ((MemDevice.mk [1, 2, 3, 4, 5] 3 OpenMode.write_only).write [7, 8, 9]).1.d =
        [1, 2, 3, 7, 8]) ∧
    (((MemDevice.open_for_read
        ((MemDevice.mk [1, 2, 3, 4, 5] 3 OpenMode.write_only).write [7, 8, 9]).1.d).read 3).1.read
          3).2 = [7, 8] :=
  ⟨⟨(mem_device_truncation (MemDevice.mk [1, 2, 3, 4, 5] 3 OpenMode.write_only) [7, 8, 9] 2
      (by decide)).1.1, by decide⟩,
    (mem_device_truncation (MemDevice.mk [1, 2, 3, 4, 5] 3 OpenMode.write_only) [7, 8, 9] 2
      (by decide)).2.2⟩

end gif

namespace gif

/-! ## The hash table: lookup after insertions -/

theorem ht_inserts_rep :
    ∀ (l : List (Nat × Nat)) (t : Nat → Nat) (m : List (Nat × Nat)), HTRep t m →
      ((l.reverse ++ m).map Prod.fst).Nodup → (∀ e ∈ l, e.1 < 0xFFFFF) →
      m.length + l.length < 8192 →
      ∃ t1, HashTable.inserts l ⟨t⟩ = some ⟨t1⟩ ∧ HTRep t1 (l.reverse ++ m) := by
  intro l
  induction l with
  | nil =>
    intro t m h _ _ _
    exact ⟨t, rfl, by simpa using h⟩
  | cons e rest ih =>
    intro t m h hnd hk hlen
    simp only [List.length_cons] at hlen
    have hnd2 : ((rest.reverse ++ (e :: m)).map Prod.fst).Nodup := by
      simpa [List.reverse_cons, List.append_assoc] using hnd
    have hem : e.1 ∉ m.map Prod.fst := by
      have h3 := (List.nodup_append.mp (by simpa [List.map_append] using hnd2)).2.1
      simp only [List.map_cons] at h3
      exact (List.nodup_cons.mp h3).1
    obtain ⟨t1, hi, hr⟩ := ht_insert_rep t m h (by omega) e.1 e.2 hem
      (hk e (List.mem_cons_self _ _))
    obtain ⟨t2, hi2, hr2⟩ := ih t1 (e :: m) hr hnd2
      (fun x hx => hk x (List.mem_cons_of_mem _ hx)) (by simp only [List.length_cons]; omega)
    refine ⟨t2, ?_, ?_⟩
    · simp only [HashTable.inserts, hi, hi2]
    · simpa [List.reverse_cons, List.append_assoc] using hr2

/-- C28.  Hash table lookup contract: for every sequence of insertions of pairwise
distinct keys into the table after `clear()`, each key below `0xFFFFF`, each code
below 4096 and fewer than 8192 entries in all, every insertion returns, `get(k)`
returns the code inserted with `k` for every key `k` inserted and not-found (the
`-1` of the source) for every key that was not inserted; and after `clear()` `get`
returns not-found for every key. -/
theorem hash_table_lookup (l : List (Nat × Nat)) (hnd : (l.map Prod.fst).Nodup)
    (hkeys : ∀ e ∈ l, e.1 < 0xFFFFF) (hcodes : ∀ e ∈ l, e.2 < 4096) (hlen : l.length < 8192) :
    (∃ h, HashTable.inserts l HashTable.clear = some h ∧
      (∀ e ∈ l, h.get e.1 = some (some e.2)) ∧
      ∀ k, k ∉ l.map Prod.fst → h.get k = some none) ∧
    ∀ k, HashTable.clear.get k = some none := by
  have hc : ∀ k, HashTable.clear.get k = some none := fun k =>
    ht_get_absent HashTable.clear.table [] ht_clear_rep (by simp) k (by simp)
  refine ⟨?_, hc⟩
  obtain ⟨t1, hi, hr⟩ := ht_inserts_rep l HashTable.clear.table [] ht_clear_rep
    (by simpa [List.map_reverse] using hnd) hkeys (by simpa using hlen)
  rw [List.append_nil] at hr
  refine ⟨⟨t1⟩, hi, ?_, ?_⟩
  · intro e he
    exact ht_get_present t1 l.reverse hr e.1 e.2 (List.mem_reverse.mpr he) (hcodes e he)
  · intro k hk
    exact ht_get_absent t1 l.reverse hr (by simpa using hlen) k
      (by simpa [List.map_reverse] using hk)

theorem hash_table_lookup_witness :
    (∃ h, HashTable.inserts [(1, 258), (0x2003, 259), (0x10203, 4095)] HashTable.clear = some h ∧
      (∀ e ∈ [(1, 258), (0x2003, 259), (0x10203, 4095)], h.get e.1 = some (some e.2)) ∧
      ∀ k, k ∉ [(1, 258), (0x2003, 259), (0x10203, 4095)].map Prod.fst → h.get k = some none) ∧
    ∀ k, HashTable.clear.get k = some none :=
  hash_table_lookup [(1, 258), (0x2003, 259), (0x10203, 4095)] (by decide) (by decide)
    (by decide) (by decide)

end gif

namespace gif

/-! ## The record loop of `Gif::load` -/

theorem read_record_type (io : GifIO) (h : io.read_record.2.2 = true) :
    io.read_record.2.1 = GifRecordType.image_desc ∨
      io.read_record.2.1 = GifRecordType.extension ∨
      io.read_record.2.1 = GifRecordType.terminate := by
  unfold GifIO.read_record at h ⊢
  simp only [] at h ⊢
  split_ifs at h ⊢ <;> simp_all

theorem load_desc_exts (img : Image) (io : GifIO) : (img.load_desc io).1.exts = img.exts := by
  unfold Image.load_desc
  simp only []
  split_ifs <;> rfl

/-- `Image::load` leaves the extensions of the image alone. -/
theorem img_load_exts (img : Image) (io : GifIO) (r : Image × GifIO × Bool)
    (h : img.load io = some r) : r.1.exts = img.exts := by
  unfold Image.load at h
  simp only [] at h
  have hd := load_desc_exts img io
  split_ifs at h with h1 h2 h3
  · cases h; exact hd
  · cases h; exact hd
  · cases hl : Image.load_rows (interlace_rows (img.load_desc io).1.rect.height)
        (LZDecoder.new ((img.load_desc io).2.1.read_byte).1 (img.load_desc io).1.rect.area
          ((img.load_desc io).2.1.read_byte).2.1)
        (resize (img.load_desc io).1.b (img.load_desc io).1.rect.area)
        (img.load_desc io).1.rect.width with
    | none => rw [hl] at h; cases h
    | some q => rw [hl] at h; cases h; exact hd
  · cases hl : (LZDecoder.new ((img.load_desc io).2.1.read_byte).1 (img.load_desc io).1.rect.area
        ((img.load_desc io).2.1.read_byte).2.1).getLine
        (toInt32 (resize (img.load_desc io).1.b (img.load_desc io).1.rect.area).length) with
    | none => rw [hl] at h; cases h
    | some q => rw [hl] at h; cases h; exact hd


theorem set_exts_eq (i : Image) (pend : List Extension) (h : i.exts = []) :
    (if !pend.isEmpty then i.set_extensions pend else i) = { i with exts := pend } := by
  cases pend with
  | nil =>
    simp only [List.isEmpty_nil, Bool.not_true, Bool.false_eq_true, if_false]
    cases i
    simp only [Image.mk.injEq, true_and] at h ⊢
    simpa using h
  | cons e rest => rfl

/-- The record loop of `Gif::load` that ends at the terminator: the frames of the
records join the frames of the container and the extension records after the last
image record are the accumulator left. -/
theorem load_loop_stream_records :
    ∀ (fuel : Nat) (g : Gif) (io : GifIO) (pend : List Extension) (g1 : Gif) (io1 : GifIO)
      (pend1 : List Extension),
      Gif.load_loop fuel g io pend = some (g1, io1, pend1, true) →
      ∃ recs, stream_records fuel io = some (recs, io1) ∧
        g1 = { g with imgs := g.imgs ++ frames_of recs pend } ∧
        pend1 = trailing_of recs pend := by
  intro fuel
  induction fuel with
  | zero =>
    intro g io pend g1 io1 pend1 h
    rw [Gif.load_loop] at h
    cases h
  | succ n ih =>
    intro g io pend g1 io1 pend1 h
    rw [Gif.load_loop] at h
    rw [stream_records]
    unfold Gif.load_record at h
    unfold next_record
    simp only [] at h ⊢
    cases hr2 : io.read_record.2.2 with
    | false =>
      simp only [hr2, Bool.not_false, if_true] at h
      cases h
    | true =>
      simp only [hr2, Bool.not_true, Bool.false_eq_true, if_false] at h ⊢
      rcases read_record_type io hr2 with ht | ht | ht
      · simp only [ht] at h ⊢
        cases hi : Image.new.load io.read_record.1 with
        | none => simp only [hi] at h; cases h
        | some ri =>
          simp only [hi] at h ⊢
          have hex : ri.1.exts = [] := img_load_exts _ _ _ hi
          cases hb : ri.2.2 with
          | false =>
            simp only [hb, Bool.not_false, if_true] at h
            cases h
          | true =>
            simp only [hb, Bool.not_true, Bool.false_eq_true, if_false] at h ⊢
            rw [set_exts_eq ri.1 pend hex] at h
            obtain ⟨recs, h1, h2, h3⟩ := ih _ _ _ _ _ _ h
            refine ⟨Rec.img ri.1 :: recs, ?_, ?_, ?_⟩
            · simp only [h1]
            · rw [h2]
              simp only [frames_of, List.append_assoc, List.singleton_append]
            · rw [h3]; rfl
      · simp only [ht] at h ⊢
        cases hi : Extension.new.load io.read_record.1 with
        | none => simp only [hi] at h; cases h
        | some re =>
          simp only [hi] at h ⊢
          cases hb : re.2.2 with
          | false =>
            simp only [hb, Bool.not_false, if_true] at h
            cases h
          | true =>
            simp only [hb, Bool.not_true, Bool.false_eq_true, if_false] at h ⊢
            obtain ⟨recs, h1, h2, h3⟩ := ih _ _ _ _ _ _ h
            refine ⟨Rec.ext re.1 :: recs, ?_, ?_, ?_⟩
            · simp only [h1]
            · rw [h2]; rfl
            · rw [h3]; rfl
      · simp only [ht] at h ⊢
        cases h
        exact ⟨[], rfl, by simp [frames_of], rfl⟩


theorem load_scr_desc_lists (g : Gif) (io : GifIO) :
    (g.load_scr_desc io).1.imgs = g.imgs ∧ (g.load_scr_desc io).1.exs = g.exs := by
  unfold Gif.load_scr_desc
  simp only []
  split_ifs <;> exact ⟨rfl, rfl⟩

/-- C21, amended.  Load record state machine: whenever `Gif::load` succeeds on a
stream, the records between the screen descriptor and the terminator are read in
stream order (`stream_records`), and the session ends right after the terminator;
the frames loaded are the image records of the stream in stream order and follow
the frames that the container held before; each frame loaded carries exactly the
extension records that stand between the image record before it (or the screen
descriptor) and its own image record, in stream order; and the trailing extension
list of the container is the list of the extension records after the last image
record when there is one, and is left as it was before the load when there is none.
For a container that held no frame and no trailing extension before the load, as a
constructed one, the frames and the trailing list are exactly those of the stream,
the trailing list empty if the stream has none. -/
theorem load_record_state_machine (g : Gif) (dev : MemDevice) (g1 : Gif) (io1 : GifIO)
    (h : Gif.load g dev = some (g1, io1, true)) :
    ∃ recs,
      stream_records ((g.load_scr_desc ( GifIO.mk_dev dev).probe.1).2.1.d.bytesLeft + 1)
        (g.load_scr_desc ( GifIO.mk_dev dev).probe.1).2.1 = some (recs, io1) ∧
      g1.imgs = g.imgs ++ frames_of recs [] ∧
      g1.exs = (if (trailing_of recs []).isEmpty then g.exs else trailing_of recs []) ∧
      (g.imgs = [] → g.exs = [] →
        g1.imgs = frames_of recs [] ∧ g1.exs = trailing_of recs []) := by
  unfold Gif.load at h
  simp only [] at h
  cases hp : ( GifIO.mk_dev dev).probe.2 with
  | false =>
    simp only [hp, Bool.not_false, if_true] at h
    cases h
  | true =>
    simp only [hp, Bool.not_true, Bool.false_eq_true, if_false] at h
    cases hs : (g.load_scr_desc ( GifIO.mk_dev dev).probe.1).2.2 with
    | false =>
      simp only [hs, Bool.not_false, if_true] at h
      cases h
    | true =>
      simp only [hs, Bool.not_true, Bool.false_eq_true, if_false] at h
      cases hl : Gif.load_loop ((g.load_scr_desc ( GifIO.mk_dev dev).probe.1).2.1.d.bytesLeft + 1)
          (g.load_scr_desc ( GifIO.mk_dev dev).probe.1).1
          (g.load_scr_desc ( GifIO.mk_dev dev).probe.1).2.1 [] with
      | none => simp only [hl] at h; cases h
      | some r =>
        simp only [hl] at h
        obtain ⟨g2, io2, pend2, ok⟩ := r
        cases ok with
        | false =>
          simp only [Bool.not_false, if_true] at h
          cases h
        | true =>
          simp only [Bool.not_true, Bool.false_eq_true, if_false] at h
          obtain ⟨recs, h1, h2, h3⟩ := load_loop_stream_records _ _ _ _ _ _ _ hl
          obtain ⟨hi, he⟩ := load_scr_desc_lists g ( GifIO.mk_dev dev).probe.1
          have hg1 : g1 = (if !pend2.isEmpty then { g2 with exs := pend2 } else g2) :=
            (congrArg (fun r : Gif × GifIO × Bool => r.1) (Option.some.inj h)).symm
          have hio : io1 = io2 :=
            (congrArg (fun r : Gif × GifIO × Bool => r.2.1) (Option.some.inj h)).symm
          have himgs : g1.imgs = g.imgs ++ frames_of recs [] := by
            rw [hg1, ← hi]
            split_ifs <;> rw [h2]
          have hexs : g1.exs =
              (if (trailing_of recs []).isEmpty then g.exs else trailing_of recs []) := by
            rw [hg1, ← h3, ← he]
            cases hpe : pend2.isEmpty with
            | false =>
              simp only [Bool.not_false, if_true, Bool.false_eq_true, if_false]
            | true =>
              simp only [Bool.not_true, Bool.false_eq_true, if_false, if_true]
              rw [h2]
          refine ⟨recs, by rw [hio]; exact h1, himgs, hexs, ?_⟩
          intro e1 e2
          rw [himgs, hexs, e1, e2]
          refine ⟨rfl, ?_⟩
          cases ht : trailing_of recs [] with
          | nil => rfl
          | cons a b => rfl

theorem load_record_state_machine_witness :
    ∃ (io1 : GifIO) (recs : List Rec),
      Gif.load (Gif.new ⟨0, 0⟩ 0) (MemDevice.open_for_read (gif_bytes sample_anim)) =
        some (sample_anim, io1, true) ∧
      sample_anim.imgs = (Gif.new ⟨0, 0⟩ 0).imgs ++ frames_of recs [] ∧
      sample_anim.exs =
        (if (trailing_of recs []).isEmpty then (Gif.new ⟨0, 0⟩ 0).exs
          else trailing_of recs []) := by
  obtain ⟨io1, io2, _, hl, _, _, hw⟩ := gif_round_trip_id sample_anim
    (by simp [Gif.Valid, Image.Valid, ColorMap.Valid, Extension.Valid, sample_anim])
    (by simp [resolved_cm, sample_anim]) (by simp [sample_anim]) (List.replicate 100 0)
    (by decide) ⟨0, 0⟩ 0
  rw [hw] at hl
  obtain ⟨recs, _, h2, h3, _⟩ := load_record_state_machine _ _ _ _ hl
  exact ⟨io2, recs, hl, h2, h3⟩

/-- Counterexample of C21 as stated: a container that holds a trailing extension, as
a load leaves it, loads the stream of header, screen descriptor and terminator, in
which no extension record stands; the load succeeds and the trailing extension list
is not empty: it is the list held before. -/
theorem load_keeps_trailing_list :
    (Gif.load gif_with_trailer (MemDevice.open_for_read empty_gif_stream)).map
        (fun r => (r.1.exs, r.2.2)) = some ([create_delay_mark 10], true) ∧
      (stream_records 2 ( GifIO.mk_dev
          { d := empty_gif_stream, p := 13, m := OpenMode.read_only })).map
        (fun q => (q.1.length, q.2.d.p)) = some (0, 14) := by
  decide

end gif

namespace gif

/-! ## The cursor after the LZW data -/

theorem lzw_end_aux_fuel :
    ∀ (n : Nat) (l : List Nat), l.length ≤ n → lzw_end_aux n l = lzw_end_aux l.length l := by
  intro n
  induction n using Nat.strong_induction_on with
  | _ n ih =>
    intro l hl
    cases l with
    | nil =>
      cases n with
      | zero => rfl
      | succ m => rfl
    | cons b rest =>
      cases n with
      | zero => simp at hl
      | succ m =>
        simp only [List.length_cons] at hl ⊢
        simp only [lzw_end_aux]
        by_cases hb : b = 0
        · rw [if_pos hb, if_pos hb]
        · rw [if_neg hb, if_neg hb]
          by_cases hr : b ≤ rest.length
          · rw [if_pos hr, if_pos hr]
            have hd : (rest.drop b).length ≤ rest.length := by
              rw [List.length_drop]; omega
            rw [ih m (by omega) _ (by omega)]
            by_cases hm : rest.length = m
            · rw [hm]
              exact (ih m (by omega) _ (by omega)).symm
            · rw [ih rest.length (by omega) _ hd]
          · rw [if_neg hr, if_neg hr]

theorem lzw_end_zero (t : List Nat) : lzw_end (0 :: t) = some t := by
  simp [lzw_end, lzw_end_aux]

theorem lzw_end_block (b : Nat) (more : List Nat) (hb : b ≠ 0) (hl : b ≤ more.length) :
    lzw_end (b :: more) = lzw_end (more.drop b) := by
  unfold lzw_end
  simp only [List.length_cons, lzw_end_aux, if_neg hb, if_pos hl]
  exact lzw_end_aux_fuel _ _ (by rw [List.length_drop]; omega)

/-- A read of `n` bytes that succeeds hands out the next `n` bytes of the stream. -/
theorem read_bytes_ok (io : GifIO) (n : Nat) (h : (io.read_bytes n).2.2 = true) :
    io.d.rest = (io.read_bytes n).2.1 ++ (io.read_bytes n).1.d.rest ∧
      (io.read_bytes n).2.1.length = n ∧ (io.read_bytes n).1.e = io.e := by
  unfold GifIO.read_bytes at h ⊢
  simp only [beq_iff_eq] at h ⊢
  obtain ⟨h1, h2⟩ := MemDevice_read_full io.d n h
  refine ⟨?_, h, trivial⟩
  rw [h1]
  exact h2

theorem read_byte_ok (io : GifIO) (h : io.read_byte.2.2 = true) :
    io.d.rest = io.read_byte.2.1 :: io.read_byte.1.d.rest ∧ io.read_byte.1.e = io.e := by
  unfold GifIO.read_byte at h ⊢
  simp only [beq_iff_eq] at h ⊢
  obtain ⟨h1, h2⟩ := MemDevice_read_full io.d 1 h
  refine ⟨?_, trivial⟩
  rw [h1]
  cases hr : (io.d.read 1).2 with
  | nil => rw [hr] at h; simp at h
  | cons a t =>
    rw [hr] at h h2
    have ht : t = [] := by
      simp only [List.length_cons] at h
      exact List.eq_nil_of_length_eq_zero (by omega)
    rw [ht] at h2
    rw [h2]
    rfl


/-- A call of `read_buf` that succeeds leaves the end of the LZW data where it is:
it takes a byte of the current sub-block or reads one sub-block of a length above 0
in full. -/
theorem read_buf_end (st : LZDecoder) (h : st.read_buf.2.2 = true) :
    lzw_end st.read_buf.1.f.d.rest = lzw_end st.f.d.rest ∧
      st.read_buf.1.pix_count = st.pix_count ∧ st.read_buf.1.run_bits = st.run_bits := by
  unfold LZDecoder.read_buf at h ⊢
  by_cases hb : st.buf 0 = 0
  · simp only [if_pos hb] at h ⊢
    cases h1 : (st.f.read_bytes 1).2.2 with
    | false =>
      simp only [h1, Bool.not_false, if_true] at h
      cases h
    | true =>
      simp only [h1, Bool.not_true, Bool.false_eq_true, if_false] at h ⊢
      obtain ⟨e1, e2, _⟩ := read_bytes_ok st.f 1 h1
      obtain ⟨x, hx⟩ : ∃ x, (st.f.read_bytes 1).2.1 = [x] := by
        cases hr : (st.f.read_bytes 1).2.1 with
        | nil => rw [hr] at e2; simp at e2
        | cons a t =>
          rw [hr] at e2
          have ht : t = [] := by
            simp only [List.length_cons] at e2
            exact List.eq_nil_of_length_eq_zero (by omega)
          exact ⟨a, by rw [ht]⟩
      simp only [hx, List.headD_cons, ne_eq, List.cons_ne_nil, not_false_eq_true, and_true,
        if_true] at h ⊢
      by_cases hx0 : x = 0
      · simp only [if_pos hx0] at h
        cases h
      · simp only [if_neg hx0] at h ⊢
        cases h2 : ((st.f.read_bytes 1).1.read_bytes x).2.2 with
        | false =>
          simp only [h2, Bool.not_false, if_true] at h
          cases h
        | true =>
          simp only [h2, Bool.not_true, Bool.false_eq_true, if_false] at h ⊢
          obtain ⟨f1, f2, _⟩ := read_bytes_ok (st.f.read_bytes 1).1 x h2
          refine ⟨?_, trivial, trivial⟩
          rw [e1, hx, f1]
          simp only [List.singleton_append]
          rw [lzw_end_block x _ hx0 (by rw [List.length_append]; omega),
            List.drop_left' f2]
  · simp only [if_neg hb] at h ⊢
    exact ⟨trivial, trivial, trivial⟩


end gif

namespace gif

theorem fill_loop_end :
    ∀ (fuel : Nat) (st : LZDecoder), (LZDecoder.fill_loop fuel st).2 = true →
      lzw_end (LZDecoder.fill_loop fuel st).1.f.d.rest = lzw_end st.f.d.rest ∧
        (LZDecoder.fill_loop fuel st).1.pix_count = st.pix_count ∧
        (LZDecoder.fill_loop fuel st).1.run_bits = st.run_bits := by
  intro fuel
  induction fuel with
  | zero =>
    intro st _
    exact ⟨rfl, rfl, rfl⟩
  | succ n ih =>
    intro st h
    rw [LZDecoder.fill_loop] at h ⊢
    by_cases hs : st.crnt_shift_state < st.run_bits
    · rw [if_pos hs] at h ⊢
      cases hr : st.read_buf.2.2 with
      | false =>
        simp only [hr, Bool.not_false, if_true] at h
        cases h
      | true =>
        obtain ⟨e1, e2, e3⟩ := read_buf_end st hr
        have hstep : ∀ X : LZDecoder × Bool,
            (let r := st.read_buf
             if !r.2.2 then (r.1, false) else X) = X := by
          intro X
          simp only [hr, Bool.not_true, Bool.false_eq_true, if_false]
        rw [hstep] at h ⊢
        obtain ⟨f1, f2, f3⟩ := ih
          { st.read_buf.1 with
              crnt_shift_dword := st.read_buf.1.crnt_shift_dword |||
                (st.read_buf.2.1 <<< st.read_buf.1.crnt_shift_state),
              crnt_shift_state := st.read_buf.1.crnt_shift_state + 8 } h
        exact ⟨f1.trans e1, f2.trans e2, f3.trans e3⟩
    · rw [if_neg hs] at h ⊢
      exact ⟨rfl, rfl, rfl⟩

/-- A call of `decode` that succeeds leaves the end of the LZW data where it is. -/
theorem decode_end (st : LZDecoder) (h : st.decode.2.2 = true) :
    lzw_end st.decode.1.f.d.rest = lzw_end st.f.d.rest ∧
      st.decode.1.pix_count = st.pix_count := by
  unfold LZDecoder.decode at h ⊢
  by_cases hb : st.run_bits > LZ.bits
  · rw [if_pos hb] at h
    cases h
  · rw [if_neg hb] at h ⊢
    cases hf : (LZDecoder.fill_loop st.run_bits st).2 with
    | false =>
      simp only [hf, Bool.not_false, if_true] at h
      cases h
    | true =>
      obtain ⟨f1, f2, _⟩ := fill_loop_end st.run_bits st hf
      simp only [hf, Bool.not_true, Bool.false_eq_true, if_false]
      split_ifs
      · exact ⟨f1, f2⟩
      · exact ⟨f1, f2⟩
      · exact ⟨f1, f2⟩

theorem walk_loop_f :
    ∀ (n : Nat) (st : LZDecoder) (c : Nat),
      (LZDecoder.walk_loop n st c).1.f = st.f ∧
        (LZDecoder.walk_loop n st c).1.pix_count = st.pix_count := by
  intro n
  induction n with
  | zero => intro st c; exact ⟨rfl, rfl⟩
  | succ n ih =>
    intro st c
    rw [LZDecoder.walk_loop]
    split_ifs
    · exact ih
        { st with stack := fun i => if i = st.stack_ptr then st.suffix c else st.stack i,
                  stack_ptr := st.stack_ptr + 1 } (st.prefix_ c)
    · exact ⟨rfl, rfl⟩

theorem pop_loop_f :
    ∀ (n : Nat) (st : LZDecoder) (line : List Nat) (len : Nat),
      (LZDecoder.pop_loop n st line len).1.f = st.f ∧
        (LZDecoder.pop_loop n st line len).1.pix_count = st.pix_count := by
  intro n
  induction n with
  | zero => intro st line len; exact ⟨rfl, rfl⟩
  | succ n ih =>
    intro st line len
    rw [LZDecoder.pop_loop]
    split_ifs
    · exact ih { st with stack_ptr := st.stack_ptr - 1 }
        (line ++ [st.stack (st.stack_ptr - 1)]) len
    · exact ⟨rfl, rfl⟩

theorem add_entry_f (st : LZDecoder) (c : Nat) :
    (st.add_entry c).f = st.f ∧ (st.add_entry c).pix_count = st.pix_count := by
  unfold LZDecoder.add_entry
  simp only []
  split_ifs <;> exact ⟨rfl, rfl⟩

theorem expand_tail (w : LZDecoder × Nat) (c : Nat) (line : List Nat) (len : Nat)
    (st : LZDecoder) (w1 : w.1.f = st.f) (w2 : w.1.pix_count = st.pix_count) :
    (if w.1.stack_ptr ≥ LZ.max_code || w.2 > LZ.max_code then
        (({ w.1 with f := w.1.f.set_error ErrorCode.image_defect } : LZDecoder), line, false)
      else
        let st2 : LZDecoder :=
          { w.1 with stack := fun i => if i = w.1.stack_ptr then w.2 % 256 else w.1.stack i,
                     stack_ptr := w.1.stack_ptr + 1 }
        let q := LZDecoder.pop_loop st2.stack_ptr st2 line len
        (q.1.add_entry c, q.2, true)).1.f.d = st.f.d ∧
    (if w.1.stack_ptr ≥ LZ.max_code || w.2 > LZ.max_code then
        (({ w.1 with f := w.1.f.set_error ErrorCode.image_defect } : LZDecoder), line, false)
      else
        let st2 : LZDecoder :=
          { w.1 with stack := fun i => if i = w.1.stack_ptr then w.2 % 256 else w.1.stack i,
                     stack_ptr := w.1.stack_ptr + 1 }
        let q := LZDecoder.pop_loop st2.stack_ptr st2 line len
        (q.1.add_entry c, q.2, true)).1.pix_count = st.pix_count := by
  by_cases hc : (w.1.stack_ptr ≥ LZ.max_code || w.2 > LZ.max_code) = true
  · rw [if_pos hc]
    have e : (w.1.f.set_error ErrorCode.image_defect).d = st.f.d := by
      show w.1.f.d = st.f.d
      rw [w1]
    exact ⟨e, w2⟩
  · rw [if_neg hc]
    have a := add_entry_f (LZDecoder.pop_loop (w.1.stack_ptr + 1)
      { w.1 with stack := fun i => if i = w.1.stack_ptr then w.2 % 256 else w.1.stack i,
                 stack_ptr := w.1.stack_ptr + 1 } line len).1 c
    have p := pop_loop_f (w.1.stack_ptr + 1)
      { w.1 with stack := fun i => if i = w.1.stack_ptr then w.2 % 256 else w.1.stack i,
                 stack_ptr := w.1.stack_ptr + 1 } line len
    exact ⟨congrArg GifIO.d (a.1.trans (p.1.trans w1)), a.2.trans (p.2.trans w2)⟩

/-- The expansion of a code reads nothing: the session keeps its device and the
count of pixels is left as it is. -/
theorem expand_f (st : LZDecoder) (c : Nat) (line : List Nat) (len : Nat) :
    (st.expand c line len).1.f.d = st.f.d ∧
      (st.expand c line len).1.pix_count = st.pix_count := by
  unfold LZDecoder.expand
  by_cases h1 : c < st.clear_code
  · rw [if_pos h1]
    exact ⟨congrArg GifIO.d (add_entry_f st c).1, (add_entry_f st c).2⟩
  · rw [if_neg h1]
    cases hk : (st.prefix_ c != LZ.no_such_code) with
    | true =>
      simp only [hk, Bool.not_true, Bool.false_and, Bool.false_eq_true, if_false, if_true]
      obtain ⟨w1, w2⟩ := walk_loop_f LZ.max_code st c
      exact expand_tail (LZDecoder.walk_loop LZ.max_code st c) c line len st w1 w2
    | false =>
      simp only [hk, Bool.not_false, Bool.true_and, Bool.false_eq_true, if_false]
      by_cases h2 : (c != st.run_code - 2) = true
      · rw [if_pos h2]
        exact ⟨rfl, rfl⟩
      · rw [if_neg h2]
        obtain ⟨w1, w2⟩ := walk_loop_f LZ.max_code
          { st with
              stack := fun i => if i = st.stack_ptr then
                LZDecoder.prefix_char st.prefix_ st.last_code st.clear_code % 256 else st.stack i,
              stack_ptr := st.stack_ptr + 1,
              suffix := fun i => if i = st.run_code - 2 then
                LZDecoder.prefix_char st.prefix_ st.last_code st.clear_code % 256
                else st.suffix i } st.last_code
        exact expand_tail _ c line len st w1 w2

/-- An iteration of the main loop of `decode_line` that succeeds leaves the end of
the LZW data where it is. -/
theorem decode_step_end (st : LZDecoder) (line : List Nat) (len : Nat)
    (h : (st.decode_step line len).2.2 = true) :
    lzw_end (st.decode_step line len).1.f.d.rest = lzw_end st.f.d.rest ∧
      (st.decode_step line len).1.pix_count = st.pix_count := by
  unfold LZDecoder.decode_step at h ⊢
  cases hd : st.decode.2.2 with
  | false =>
    simp only [hd, Bool.not_false, if_true] at h
    cases h
  | true =>
    obtain ⟨d1, d2⟩ := decode_end st hd
    simp only [hd, Bool.not_true, Bool.false_eq_true, if_false] at h ⊢
    by_cases he : st.decode.2.1 = st.decode.1.eof_code
    · rw [if_pos he] at h
      cases h
    · rw [if_neg he] at h ⊢
      by_cases hc : st.decode.2.1 = st.decode.1.clear_code
      · rw [if_pos hc]
        exact ⟨d1, d2⟩
      · rw [if_neg hc]
        obtain ⟨x1, x2⟩ := expand_f st.decode.1 st.decode.2.1 line len
        rw [x1, x2]
        exact ⟨d1, d2⟩

theorem decode_loop_end :
    ∀ (fuel : Nat) (st : LZDecoder) (line : List Nat) (len : Nat)
      (r : LZDecoder × List Nat × Bool),
      LZDecoder.decode_loop fuel st line len = some r → r.2.2 = true →
      lzw_end r.1.f.d.rest = lzw_end st.f.d.rest ∧ r.1.pix_count = st.pix_count := by
  intro fuel
  induction fuel with
  | zero =>
    intro st line len r h
    rw [LZDecoder.decode_loop] at h
    cases h
  | succ n ih =>
    intro st line len r h hr
    rw [LZDecoder.decode_loop] at h
    by_cases hl : line.length < len
    · rw [if_pos hl] at h
      cases hs : (st.decode_step line len).2.2 with
      | false =>
        simp only [hs, Bool.not_false, if_true, Option.some.injEq] at h
        rw [← h, hs] at hr
        cases hr
      | true =>
        simp only [hs, Bool.not_true, Bool.false_eq_true, if_false] at h
        obtain ⟨s1, s2⟩ := decode_step_end st line len hs
        obtain ⟨i1, i2⟩ := ih (st.decode_step line len).1 (st.decode_step line len).2.1 len r h hr
        exact ⟨i1.trans s1, i2.trans s2⟩
    · rw [if_neg hl] at h
      cases h
      exact ⟨rfl, rfl⟩

theorem decode_line_end (fuel : Nat) (st : LZDecoder) (len : Nat)
    (r : LZDecoder × List Nat × Bool)
    (h : LZDecoder.decode_line fuel st len = some r) (hr : r.2.2 = true) :
    lzw_end r.1.f.d.rest = lzw_end st.f.d.rest ∧ r.1.pix_count = st.pix_count := by
  unfold LZDecoder.decode_line at h
  by_cases hs : st.stack_ptr > LZ.max_code
  · rw [if_pos hs] at h
    cases h
    cases hr
  · rw [if_neg hs] at h
    obtain ⟨p1, p2⟩ := pop_loop_f st.stack_ptr st [] len
    obtain ⟨i1, i2⟩ := decode_loop_end fuel (LZDecoder.pop_loop st.stack_ptr st [] len).1
      (LZDecoder.pop_loop st.stack_ptr st [] len).2 len r h hr
    rw [p1] at i1
    exact ⟨i1, i2.trans p2⟩

/-- The loop at the end of `getLine`, when it succeeds, stops right after the zero
length block that ends the LZW data. -/
theorem drain_loop_end :
    ∀ (fuel : Nat) (st : LZDecoder) (r : LZDecoder × Bool),
      LZDecoder.drain_loop fuel st = some r → r.2 = true →
      lzw_end st.f.d.rest = some r.1.f.d.rest := by
  intro fuel
  induction fuel with
  | zero =>
    intro st r h
    rw [LZDecoder.drain_loop] at h
    cases h
  | succ n ih =>
    intro st r h hr
    rw [LZDecoder.drain_loop] at h
    unfold LZDecoder.next_code at h
    cases h1 : st.f.read_byte.2.2 with
    | false =>
      simp only [h1, Bool.not_false, if_true, Option.some.injEq] at h
      rw [← h] at hr
      cases hr
    | true =>
      obtain ⟨e1, _⟩ := read_byte_ok st.f h1
      simp only [h1, Bool.not_true, Bool.false_eq_true, if_false] at h
      by_cases hx : st.f.read_byte.2.1 > 0
      · simp only [if_pos hx] at h
        cases h2 : (st.f.read_byte.1.read_bytes st.f.read_byte.2.1).2.2 with
        | false =>
          simp only [h2, Bool.not_false, if_true, Option.some.injEq] at h
          rw [← h] at hr
          cases hr
        | true =>
          simp only [h2, Bool.not_true, Bool.false_eq_true, if_false, if_true] at h
          obtain ⟨f1, f2, _⟩ := read_bytes_ok st.f.read_byte.1 st.f.read_byte.2.1 h2
          have hi := ih _ r h hr
          rw [e1, lzw_end_block _ _ (by omega) (by rw [f1, List.length_append]; omega)]
          rw [← hi]
          show _ = lzw_end (st.f.read_byte.1.read_bytes st.f.read_byte.2.1).1.d.rest
          conv_lhs => rw [f1]
          rw [List.drop_left' f2]
      · simp only [if_neg hx, Bool.not_true, Bool.false_eq_true, if_false,
          Option.some.injEq] at h
        have hz : st.f.read_byte.2.1 = 0 := by omega
        rw [e1, hz, lzw_end_zero, ← h]

/-- A call of `getLine` that succeeds: when it uses up the count of pixels it stops
right after the zero length block that ends the LZW data, else it leaves that end
where it is and keeps the count of the pixels that are left. -/
theorem getLine_end (st : LZDecoder) (len : Int) (r : LZDecoder × List Nat × Bool)
    (h : st.getLine len = some r) (hr : r.2.2 = true) :
    ((((st.pix_count : Int) - len) % 2 ^ 64).toNat = 0 →
        lzw_end st.f.d.rest = some r.1.f.d.rest) ∧
      ((((st.pix_count : Int) - len) % 2 ^ 64).toNat ≠ 0 →
        lzw_end r.1.f.d.rest = lzw_end st.f.d.rest ∧
          r.1.pix_count = (((st.pix_count : Int) - len) % 2 ^ 64).toNat) := by
  unfold LZDecoder.getLine at h
  generalize hpc : (((st.pix_count : Int) - len) % 2 ^ 64).toNat = pc at h ⊢
  simp only [] at h
  by_cases hbig : pc > 0xffff0000
  · rw [if_pos hbig] at h
    cases h
    cases hr
  · rw [if_neg hbig] at h
    cases hdl : LZDecoder.decode_line (8 * (st.f.d.bytesLeft + 256) + 32)
        { st with pix_count := pc } len.toNat with
    | none =>
      rw [hdl] at h
      cases h
    | some q =>
      rw [hdl] at h
      simp only [] at h
      cases hq : q.2.2 with
      | false =>
        simp only [hq, Bool.not_false, if_true, Option.some.injEq] at h
        rw [← h, hq] at hr
        cases hr
      | true =>
        obtain ⟨q1, q2⟩ := decode_line_end _ _ _ q hdl hq
        have q1b : lzw_end q.1.f.d.rest = lzw_end st.f.d.rest := q1
        have q2b : q.1.pix_count = pc := q2
        simp only [hq, Bool.not_true, Bool.false_eq_true, if_false, q2b] at h
        by_cases hz : pc = 0
        · rw [if_pos hz] at h
          refine ⟨fun _ => ?_, fun hn => absurd hz hn⟩
          cases hdr : LZDecoder.drain_loop (q.1.f.d.bytesLeft + 1) q.1 with
          | none =>
            rw [hdr] at h
            cases h
          | some r2 =>
            rw [hdr] at h
            simp only [Option.some.injEq] at h
            have hr2 : r2.2 = true := by rw [← h] at hr; exact hr
            have hd := drain_loop_end _ _ r2 hdr hr2
            rw [← q1b, hd, ← h]
        · rw [if_neg hz] at h
          simp only [Option.some.injEq] at h
          refine ⟨fun hn => absurd hn hz, fun _ => ?_⟩
          rw [← h]
          exact ⟨q1b, q2b⟩

/-- The interlaced row loops of `Image::load` over at least one row of at least one
pixel, when they succeed, stop right after the zero length block that ends the LZW
data. -/
theorem load_rows_end (w : Nat) (hw : 0 < w) (hw31 : w < 2 ^ 31) :
    ∀ (rows : List Nat) (dec : LZDecoder) (b : List Nat) (r : LZDecoder × List Nat × Bool),
      rows ≠ [] → dec.pix_count = w * rows.length → w * rows.length < 2 ^ 64 →
      Image.load_rows rows dec b w = some r → r.2.2 = true →
      lzw_end dec.f.d.rest = some r.1.f.d.rest := by
  intro rows
  induction rows with
  | nil => intro dec b r hne; exact absurd rfl hne
  | cons j rest ih =>
    intro dec b r _ hpc hlim h hr
    rw [Image.load_rows] at h
    have hpcv : (((dec.pix_count : Int) - toInt32 w) % 2 ^ 64).toNat = w * rest.length := by
      rw [toInt32_small w hw31, hpc]
      have e : w * (j :: rest).length - w = w * rest.length := by
        simp only [List.length_cons, Nat.mul_add, Nat.mul_one, Nat.add_sub_cancel]
      rw [← e]
      apply pix_sub
      · simp only [List.length_cons, Nat.mul_add, Nat.mul_one]; omega
      · omega
    cases hg : dec.getLine (toInt32 w) with
    | none =>
      rw [hg] at h
      cases h
    | some q =>
      rw [hg] at h
      simp only [] at h
      cases hq : q.2.2 with
      | false =>
        simp only [hq, Bool.not_false, if_true, Option.some.injEq] at h
        rw [← h] at hr
        cases hr
      | true =>
        simp only [hq, Bool.not_true, Bool.false_eq_true, if_false] at h
        obtain ⟨g1, g2⟩ := getLine_end dec (toInt32 w) q hg hq
        rw [hpcv] at g1 g2
        cases rest with
        | nil =>
          rw [Image.load_rows] at h
          simp only [Option.some.injEq] at h
          rw [g1 (by simp), ← h]
        | cons j2 rest2 =>
          have hpos : w * (j2 :: rest2).length ≠ 0 := by
            simp only [List.length_cons]
            exact Nat.ne_of_gt (Nat.mul_pos hw (by omega))
          obtain ⟨k1, k2⟩ := g2 hpos
          have hi := ih q.1 _ r (by simp) k2
            (by simp only [List.length_cons] at hlim ⊢
                have : w * (rest2.length + 1) ≤ w * (rest2.length + 1 + 1) :=
                  Nat.mul_le_mul_left w (by omega)
                omega) h hr
          rw [← k1, hi]

theorem resize_length (b : List Nat) (n : Nat) : (resize b n).length = n := by
  unfold resize
  rw [List.length_append, List.length_take, List.length_replicate]
  omega

/-- After a successful `Image::load` of a frame that is not interlaced, or is
interlaced with at least one pixel, the cursor stands right after the zero length
sub-block that ends the LZW data of the frame, however many sub-blocks were unread
when the count of pixels was used up.  And a frame of the data model that
`Image::save` writes into a sink with room: the load of the bytes written after the
tag 0x2c succeeds and reads exactly these bytes. -/
theorem image_load_drains (img : Image) (io : GifIO) (img1 : Image) (io1 : GifIO)
    (h : img.load io = some (img1, io1, true))
    (hw : img1.rect.s.wd < 65536) (hh : img1.rect.s.ht < 65536)
    (hz : img1.interlace = true → 0 < img1.rect.s.wd * img1.rect.s.ht) :
    lzw_end ((img.load_desc io).2.1.read_byte).1.d.rest = some io1.d.rest ∧
      ∀ (img0 : Image) (gcm : Option ColorMap) (sink : GifIO), img0.Valid gcm →
        (∀ c, gcm = some c → c.Valid) → img0.rect.s.wd * img0.rect.s.ht < 2 ^ 31 →
        sink.Room (image_bytes img0 gcm).length →
        ∃ after, img0.save sink gcm =
            some (img0.saved gcm,
              sink.push (exts_bytes img0.exts ++ Gif_descriptor :: after), true) ∧
          ∀ (src : GifIO) (tl : List Nat), src.d.rest = after ++ tl →
            ∃ r io2, Image.new.load src = some (r, io2, true) ∧ io2.d.rest = tl := by
  constructor
  · unfold Image.load at h
    simp only [] at h
    cases h1 : (img.load_desc io).2.2 with
    | false =>
      simp only [h1, Bool.not_false, if_true, Option.some.injEq] at h
      rw [h] at h1
      cases h1
    | true =>
      simp only [h1, Bool.not_true, Bool.false_eq_true, if_false] at h
      cases h2 : ((img.load_desc io).2.1.read_byte).2.2 with
      | false =>
        simp only [h2, Bool.not_false, if_true, Option.some.injEq, Prod.mk.injEq] at h
        exact absurd h.2.2 (by simp)
      | true =>
        simp only [h2, Bool.not_true, Bool.false_eq_true, if_false] at h
        cases hi : (img.load_desc io).1.interlace with
        | true =>
          simp only [hi, if_true] at h
          cases hl : Image.load_rows (interlace_rows (img.load_desc io).1.rect.height)
              (LZDecoder.new ((img.load_desc io).2.1.read_byte).1 (img.load_desc io).1.rect.area
                ((img.load_desc io).2.1.read_byte).2.1)
              (resize (img.load_desc io).1.b (img.load_desc io).1.rect.area)
              (img.load_desc io).1.rect.width with
          | none =>
            rw [hl] at h
            cases h
          | some r =>
            rw [hl] at h
            simp only [Option.some.injEq, Prod.mk.injEq] at h
            obtain ⟨e1, e2, e3⟩ := h
            have hrect : img1.rect = (img.load_desc io).1.rect := by rw [← e1]
            have hil : img1.interlace = true := by rw [← e1]
            rw [hrect] at hw hh hz
            have hpos := hz hil
            have hwp : 0 < (img.load_desc io).1.rect.s.wd := by
              rcases Nat.eq_zero_or_pos (img.load_desc io).1.rect.s.wd with h0 | h0
              · rw [h0] at hpos; simp at hpos
              · exact h0
            have hhp : 0 < (img.load_desc io).1.rect.s.ht := by
              rcases Nat.eq_zero_or_pos (img.load_desc io).1.rect.s.ht with h0 | h0
              · rw [h0] at hpos; simp at hpos
              · exact h0
            have hlen : (interlace_rows (img.load_desc io).1.rect.height).length =
                (img.load_desc io).1.rect.s.ht := by
              rw [(interlace_rows_perm_range _).length_eq, List.length_range]
              rfl
            have hne : interlace_rows (img.load_desc io).1.rect.height ≠ [] := by
              intro hn
              rw [hn] at hlen
              simp at hlen
              omega
            have hlim : (img.load_desc io).1.rect.s.wd * (img.load_desc io).1.rect.s.ht ≤
                65535 * 65535 := Nat.mul_le_mul (by omega) (by omega)
            have hend := load_rows_end (img.load_desc io).1.rect.width hwp
              (by show (img.load_desc io).1.rect.s.wd < 2 ^ 31; omega)
              _ _ _ r hne
              (by rw [hlen]; exact area_eq _ hw hh)
              (by rw [hlen]; show (img.load_desc io).1.rect.s.wd * _ < _; omega) hl e3
            rw [← e2]
            exact hend
        | false =>
          simp only [hi, Bool.false_eq_true, if_false] at h
          cases hg : (LZDecoder.new ((img.load_desc io).2.1.read_byte).1
              (img.load_desc io).1.rect.area ((img.load_desc io).2.1.read_byte).2.1).getLine
              (toInt32 (resize (img.load_desc io).1.b (img.load_desc io).1.rect.area).length) with
          | none =>
            rw [hg] at h
            cases h
          | some r =>
            rw [hg] at h
            simp only [Option.some.injEq, Prod.mk.injEq] at h
            obtain ⟨_, e2, e3⟩ := h
            obtain ⟨g1, _⟩ := getLine_end _ _ r hg e3
            rw [← e2]
            have hA : (img.load_desc io).1.rect.area < 2 ^ 32 := Nat.mod_lt _ (by norm_num)
            rw [resize_length] at hg g1
            by_cases hsm : (img.load_desc io).1.rect.area < 2 ^ 31
            · apply g1
              rw [toInt32_small _ hsm]
              show ((((img.load_desc io).1.rect.area : Int) - _) % 2 ^ 64).toNat = 0
              rw [Int.sub_self]
              rfl
            · exfalso
              have hb := dec_getLine_too_big
                (LZDecoder.new ((img.load_desc io).2.1.read_byte).1
                  (img.load_desc io).1.rect.area ((img.load_desc io).2.1.read_byte).2.1)
                (img.load_desc io).1.rect.area rfl (by omega) hA
              rw [hb] at hg
              rw [← Option.some.inj hg] at e3
              cases e3
  · intro img0 gcm sink hv hg hlim hroom
    have hv2 : img0.Valid gcm := hv
    obtain ⟨_, _, hw16, hh16, hwp, hhp, _, _, hcm, hres⟩ := hv
    obtain ⟨_, hcr2, hcr⟩ := color_res_range img0 gcm hcm hg hres
    have ha := area_ne_zero img0 hwp hhp hw16 hh16
    refine ⟨rect_bytes img0.rect ++ descr_flags img0 :: (cm_bytes img0.cm ++
      (get_color_res img0.cm gcm).1 :: lzw_bytes (get_color_res img0.cm gcm).1 img0), ?_, ?_⟩
    · have hs := img_save_room img0 sink gcm (savable_of_valid img0 gcm hv2 hg) hroom
      rw [hs, image_bytes_pos img0 gcm ha]
      simp only [descr_bytes, List.append_assoc, List.singleton_append, List.cons_append,
        List.nil_append]
    · intro src tl hsrc
      obtain ⟨io2, e1, e2, _⟩ := img_load _ hcr2 hcr img0 gcm hv2 hlim src tl
        (by rw [hsrc]; simp only [List.append_assoc, List.cons_append])
      exact ⟨_, io2, e1, e2⟩

theorem image_load_drains_witness :
    lzw_end ((Image.new.load_desc ( GifIO.mk_dev
        (MemDevice.open_for_read frame_one_pixel))).2.1.read_byte).1.d.rest = some [0x3b] ∧
      ∃ after, sample_frame.save ( GifIO.mk_dev (MemDevice.open_for_write (List.replicate 32 0)))
            (some sample_palette) =
          some (sample_frame.saved (some sample_palette),
            ( GifIO.mk_dev (MemDevice.open_for_write (List.replicate 32 0))).push
              (exts_bytes sample_frame.exts ++ Gif_descriptor :: after), true) ∧
        ∀ (src : GifIO) (tl : List Nat), src.d.rest = after ++ tl →
          ∃ r io2, Image.new.load src = some (r, io2, true) ∧ io2.d.rest = tl := by
  have h : Image.new.load ( GifIO.mk_dev (MemDevice.open_for_read frame_one_pixel)) =
      some ({ interlace := false, exts := [], rect := ⟨⟨0, 0⟩, ⟨1, 1⟩⟩, b := [0], cm := none },
        { e := ErrorCode.ok, d := { d := frame_one_pixel, p := 14, m := OpenMode.read_only } },
        true) := by
    decide
  have hA := image_load_drains _ _ _ _ h (by decide) (by decide) (by decide)
  exact ⟨hA.1, hA.2 sample_frame (some sample_palette) _
    (by simp [Image.Valid, ColorMap.Valid, sample_frame, sample_palette])
    (by simp [ColorMap.Valid, sample_palette]) (by decide) (by decide)⟩

/-- Divergence for C22 (the interlaced branch of `Image::load` does not drain an
empty frame as the plain branch does).  An interlaced frame without rows is loaded
without a call of `getLine`, and the cursor stays before the zero length sub-block;
an interlaced frame of two rows without columns runs the loop at the end of
`getLine` once per row, and the cursor passes the sub-blocks after the LZW data of
the frame.  Both loads succeed. -/
theorem interlaced_empty_frame_cursor :
    (Image.new.load ( GifIO.mk_dev (MemDevice.open_for_read frame_no_rows))).map
        (fun r => (r.1.interlace, r.1.rect.s, r.2.1.d.rest, r.2.2)) =
        some (true, ⟨5, 0⟩, [0, 0x3b], true) ∧
      lzw_end (frame_no_rows.drop 10) = some [0x3b] ∧
      (Image.new.load ( GifIO.mk_dev (MemDevice.open_for_read frame_no_columns))).map
        (fun r => (r.1.interlace, r.1.rect.s, r.2.1.d.rest, r.2.2)) =
        some (true, ⟨0, 2⟩, [0x3b], true) ∧
      lzw_end (frame_no_columns.drop 10) = some [1, 7, 0, 0x3b] := by
  decide

end gif

namespace gif

/-! ## The end code before the last pixel -/

/-- An iteration of the main loop of `decode_line` that reads the end code fails
with `eof_too_soon`. -/
theorem dec_decode_step_eof (cr : Nat) (st : LZDecoder) (d : ADec) (w : Nat)
    (extra : List (Nat × Nat)) (tail line : List Nat) (len : Nat)
    (hsim : DecSim cr st d) (hinv : ADecInv cr d)
    (hstream : DStream st ((2 ^ cr + 1, w) :: extra) tail) (hw : w = d.run_bits) :
    ∃ st1, st.decode_step line len = (st1, line, false) ∧
      st1.f.e = ErrorCode.eof_too_soon := by
  obtain ⟨st0, hdec, _, _, _, _, htab, _⟩ :=
    dec_decode st (2 ^ cr + 1) w extra tail d hstream (by rw [hsim.run_bits, hw])
      (by rw [hw]; exact hinv.bits) hsim.run_code hsim.run_bits hsim.max_code
  have he : st0.eof_code = 2 ^ cr + 1 := by
    have h1 : st0.eof_code = st.eof_code := by
      have := congrArg (fun t => t.1.2.2.1) htab
      exact this
    rw [h1, hsim.eof_code]
  refine ⟨{ st0 with f := st0.f.set_error ErrorCode.eof_too_soon }, ?_, rfl⟩
  unfold LZDecoder.decode_step
  simp only [hdec, Bool.not_true, Bool.false_eq_true, if_false, he, if_true]

/-- The main loop of `decode_line` over codes that expand to fewer pixels than the
line needs, with the end code after them: the loop stores the pixels and fails with
`eof_too_soon`. -/
theorem dec_decode_loop_eof (cr : Nat) (hcr : cr ≤ 8) (tail : List Nat)
    (extra : List (Nat × Nat)) (w len : Nat) :
    ∀ (cw : List (Nat × Nat)) (fuel : Nat) (st : LZDecoder) (d : ADec) (line : List Nat)
      (d1 : ADec) (out : List Nat),
      DecSim cr st d → ADecInv cr d → StackIs st [] →
      DStream st (cw ++ (2 ^ cr + 1, w) :: extra) tail →
      (∀ e ∈ cw, 0 < e.2) → ADec.run cr d cw = some (d1, out) → w = d1.run_bits →
      line.length + out.length < len → cw.length < fuel →
      ∃ st1, LZDecoder.decode_loop fuel st line len = some (st1, line ++ out, false) ∧
        st1.f.e = ErrorCode.eof_too_soon := by
  intro cw
  induction cw with
  | nil =>
    intro fuel st d line d1 out hsim hinv _ hstr _ hrun hw hlt hf
    simp only [ADec.run, Option.some.injEq, Prod.mk.injEq] at hrun
    obtain ⟨rfl, rfl⟩ := hrun
    simp only [List.length_nil, Nat.add_zero] at hlt
    obtain ⟨f, rfl⟩ : ∃ f, fuel = f + 1 := ⟨fuel - 1, by simp at hf; omega⟩
    obtain ⟨st1, h1, h2⟩ := dec_decode_step_eof cr st d w extra tail line len hsim hinv hstr hw
    refine ⟨st1, ?_, h2⟩
    simp only [LZDecoder.decode_loop, if_pos hlt, h1, Bool.not_false, if_true, List.append_nil]
  | cons e rest ih =>
    intro fuel st d line d1 out hsim hinv hst hstr hpos hrun hw hlt hf
    obtain ⟨c, w0⟩ := e
    simp only [List.length_cons] at hf
    obtain ⟨f, rfl⟩ : ∃ f, fuel = f + 1 := ⟨fuel - 1, by omega⟩
    obtain ⟨hw0, dd, o, out2, hstep, hrun2, hout⟩ :=
      adec_run_cons_some cr d c w0 rest d1 out hrun
    rw [hout, List.length_append] at hlt
    have hl : line.length < len := by omega
    obtain ⟨st1, hds, hsim1, hst1, hstr1, _, _⟩ :=
      dec_decode_step cr hcr st d c w0 (rest ++ (2 ^ cr + 1, w) :: extra) tail dd o line len
        hsim hinv hst hstr hw0 hstep hl
    obtain ⟨hinv1, _⟩ := adec_step_inv cr hcr d c dd o hinv hstep
    have hfit : o.length ≤ len - line.length := by omega
    rw [List.take_of_length_le hfit] at hds
    rw [List.drop_of_length_le hfit] at hst1
    obtain ⟨st2, h2, he2⟩ := ih f st1 dd (line ++ o) d1 out2 hsim1 hinv1 hst1 hstr1
      (fun e he => hpos e (List.mem_cons_of_mem _ he)) hrun2 hw
      (by simp only [List.length_append]; omega) (by omega)
    refine ⟨st2, ?_, he2⟩
    simp only [LZDecoder.decode_loop, if_pos hl, hds, Bool.not_true, Bool.false_eq_true,
      if_false, h2, hout, List.append_assoc]

/-- `decode_line` over pixels on the stack and codes that together give fewer pixels
than the line needs, with the end code after them, fails with `eof_too_soon`. -/
theorem dec_decode_line_eof (cr : Nat) (hcr : cr ≤ 8) (st : LZDecoder) (d d1 : ADec)
    (u out : List Nat) (cw extra : List (Nat × Nat)) (tail : List Nat) (w k fuel : Nat)
    (hsim : DecSim cr st d) (hinv : ADecInv cr d) (hst : StackIs st u) (hul : u.length ≤ 4095)
    (hstr : DStream st (cw ++ (2 ^ cr + 1, w) :: extra) tail) (hpos : ∀ e ∈ cw, 0 < e.2)
    (hrun : ADec.run cr d cw = some (d1, out)) (hw : w = d1.run_bits)
    (hk : u.length + out.length < k) (hf : 8 * (st.f.d.bytesLeft + 256) + 32 ≤ fuel) :
    ∃ st1, LZDecoder.decode_line fuel st k = some (st1, u ++ out, false) ∧
      st1.f.e = ErrorCode.eof_too_soon := by
  have hfuel := dstream_fuel st cw ((2 ^ cr + 1, w) :: extra) tail hstr hpos
  have hng : ¬ st.stack_ptr > LZ.max_code := by
    rw [hst.1]
    show ¬ u.length > 4095
    omega
  obtain ⟨q, hq, hsq, huq⟩ := dec_pop_loop k u st.stack_ptr st [] hst (by rw [hst.1])
  simp only [List.length_nil, Nat.sub_zero, List.nil_append] at hq hsq
  have hwq := wire_of_unstack q st huq
  have hsimq := decsim_congr cr q st d huq hsim
  have hstrq := dstream_congr q st (cw ++ (2 ^ cr + 1, w) :: extra) tail hwq hstr
  rw [List.take_of_length_le (by omega)] at hq
  rw [List.drop_of_length_le (by omega)] at hsq
  obtain ⟨st1, h1, h2⟩ := dec_decode_loop_eof cr hcr tail extra w k cw fuel q d u d1 out
    hsimq hinv hsq hstrq hpos hrun hw hk (by omega)
  refine ⟨st1, ?_, h2⟩
  unfold LZDecoder.decode_line
  rw [if_neg hng]
  simp only [hq]
  exact h1

/-- The state after the constructor of the decoder over sub-blocks whose bytes hold
the codes `cw`. -/
theorem dec_new_stream (cr : Nat) (hcr : cr ≤ 8) (io : GifIO) (n : Nat)
    (blocks : List (List Nat)) (cw : List (Nat × Nat)) (tail : List Nat) (hbl : Blocks blocks)
    (hrest : io.d.rest = frames blocks ++ 0 :: tail) (hv : le_val blocks.flatten = pack cw)
    (hl : bitlen cw ≤ 8 * blocks.flatten.length) (hf : Fits cw) :
    DecSim cr (LZDecoder.new io n cr) (ADec.init cr) ∧ ADecInv cr (ADec.init cr) ∧
      StackIs (LZDecoder.new io n cr) [] ∧ DStream (LZDecoder.new io n cr) cw tail := by
  refine ⟨⟨rfl, rfl, rfl, rfl, rfl, rfl, rfl, trivial, fun _ _ => rfl⟩, adec_init_inv cr hcr,
    ⟨rfl, fun i hi => by simp at hi⟩, ?_⟩
  refine ⟨blocks.flatten, ⟨[], blocks, rfl, fun h => absurd rfl h, by simp, hbl, hrest, rfl⟩,
    ?_, ?_, ?_, ?_, hf⟩
  · show 0 + 2 ^ 0 * le_val blocks.flatten = _
    rw [← hv]; simp
  · show bitlen cw ≤ 0 + 8 * blocks.flatten.length
    omega
  · show 0 < 2 ^ 0
    norm_num
  · show 0 < 8
    norm_num

/-- The end code in a stream that the decoder reads in step: a call of `getLine` for
`k` pixels on a decoder whose stack and whose codes ahead give fewer than `k` pixels
before the end code `2 ^ cr + 1` stands in the stream: the call stores the pixels
there are and fails with `eof_too_soon`; the row loop of `Image::load` stops with
that failure, and so does `Image::load` of a frame without interlace. -/
theorem eof_code_too_soon (cr : Nat) (hcr : cr ≤ 8) (st : LZDecoder) (d d1 : ADec)
    (u out : List Nat) (cw extra : List (Nat × Nat)) (tail : List Nat) (w k : Nat)
    (hsim : DecSim cr st d) (hinv : ADecInv cr d) (hst : StackIs st u) (hul : u.length ≤ 4095)
    (hstr : DStream st (cw ++ (2 ^ cr + 1, w) :: extra) tail) (hpos : ∀ e ∈ cw, 0 < e.2)
    (hrun : ADec.run cr d cw = some (d1, out)) (hw : w = d1.run_bits)
    (hk : u.length + out.length < k) (hk31 : k < 2 ^ 31) (hpc : k ≤ st.pix_count)
    (hbig : st.pix_count - k ≤ 0xffff0000) :
    ∃ st1, st.getLine (toInt32 k) = some (st1, u ++ out, false) ∧
      st1.f.e = ErrorCode.eof_too_soon ∧
      (∀ (j : Nat) (rest b : List Nat),
        Image.load_rows (j :: rest) st b k =
          some (st1, b.take (j * k) ++ (u ++ out) ++ b.drop (j * k + (u ++ out).length),
            false)) ∧
      ∀ (img : Image) (io : GifIO), (img.load_desc io).2.2 = true →
        ((img.load_desc io).2.1.read_byte).2.2 = true →
        (img.load_desc io).1.interlace = false →
        LZDecoder.new ((img.load_desc io).2.1.read_byte).1 (img.load_desc io).1.rect.area
          ((img.load_desc io).2.1.read_byte).2.1 = st →
        (img.load_desc io).1.rect.area = k →
        ∃ img1, img.load io = some (img1, st1.f, false) := by
  have hpcv : (((st.pix_count : Int) - (k : Int)) % 2 ^ 64).toNat = st.pix_count - k :=
    pix_sub _ _ hpc (by omega)
  have hng : ¬ st.pix_count - k > 0xffff0000 := by omega
  obtain ⟨st1, h1, h2⟩ := dec_decode_line_eof cr hcr
    { st with pix_count := st.pix_count - k } d d1 u out cw extra tail w k
    (8 * (st.f.d.bytesLeft + 256) + 32)
    ⟨hsim.col_res, hsim.clear_code, hsim.eof_code, hsim.run_code, hsim.run_bits,
      hsim.max_code, hsim.last_code, hsim.tab, hsim.free⟩ hinv hst hul
    (by
      obtain ⟨data, hb, hv, hl, hd, h8, hf⟩ := hstr
      exact ⟨data, hb, hv, hl, hd, h8, hf⟩) hpos hrun hw hk (Nat.le_refl _)
  have hg : st.getLine (toInt32 k) = some (st1, u ++ out, false) := by
    rw [toInt32_small k hk31]
    unfold LZDecoder.getLine
    simp only [hpcv, hng, if_false, Int.toNat_ofNat, h1, Bool.not_false, if_true]
  refine ⟨st1, hg, h2, ?_, ?_⟩
  · intro j rest b
    rw [Image.load_rows, hg]
    simp only [Bool.not_false, if_true]
  · intro img io e1 e2 e3 e4 e5
    have hlen : (resize (img.load_desc io).1.b (img.load_desc io).1.rect.area).length = k := by
      rw [resize_length, e5]
    unfold Image.load
    simp only [e1, e2, e3, Bool.not_true, Bool.false_eq_true, if_false, e4, hlen, hg]
    exact ⟨_, rfl⟩

theorem eof_code_too_soon_witness :
    ∃ st1, (LZDecoder.new ( GifIO.mk_dev (MemDevice.open_for_read [2, 0x44, 0x01, 0])) 2 2).getLine
        (toInt32 2) = some (st1, [] ++ [0], false) ∧
      st1.f.e = ErrorCode.eof_too_soon := by
  obtain ⟨a, b, c, e⟩ := dec_new_stream 2 (by decide)
    ( GifIO.mk_dev (MemDevice.open_for_read [2, 0x44, 0x01, 0])) 2 [[0x44, 0x01]]
    ([(4, 3), (0, 3)] ++ (2 ^ 2 + 1, 3) :: []) []
    (by simp [Blocks]) (by decide) (by decide) (by decide) (by simp [Fits])
  obtain ⟨st1, h1, h2, _⟩ := eof_code_too_soon 2 (by decide) _ (ADec.init 2)
    { tab := [], run_code := 7, run_bits := 3, max_code := 8, last := 0 }
    [] [0] [(4, 3), (0, 3)] [] [] 3 2 a b c (by decide) e (by simp) rfl rfl (by decide)
    (by decide) (by decide) (by decide)
  exact ⟨st1, h1, h2⟩

end gif

namespace gif

/-! ## Defects of the LZW data -/

/-- A code width above 12 bits: `decode` fails with `image_defect`. -/
theorem decode_wide (st : LZDecoder) (h : st.run_bits > LZ.bits) :
    st.decode = ({ st with f := st.f.set_error ErrorCode.image_defect }, 0, false) := by
  unfold LZDecoder.decode
  rw [if_pos h]

/-- A call of `getLine` for at least one pixel on a decoder with an empty stack and
a code width above 12 bits fails with `image_defect`. -/
theorem getLine_wide (st : LZDecoder) (k : Nat) (hb : st.run_bits > LZ.bits)
    (hs : st.stack_ptr = 0) (hk : 0 < k) (hk31 : k < 2 ^ 31) (hpc : k ≤ st.pix_count)
    (hbig : st.pix_count - k ≤ 0xffff0000) :
    st.getLine (toInt32 k) =
      some ({ st with pix_count := st.pix_count - k,
                      f := st.f.set_error ErrorCode.image_defect }, [], false) := by
  have hpcv : (((st.pix_count : Int) - (k : Int)) % 2 ^ 64).toNat = st.pix_count - k :=
    pix_sub _ _ hpc (by omega)
  have hng : ¬ st.pix_count - k > 0xffff0000 := by omega
  have hsp : ¬ st.stack_ptr > LZ.max_code := by rw [hs]; exact Nat.not_lt_zero _
  have hds : LZDecoder.decode_step { st with pix_count := st.pix_count - k } [] k =
      ({ st with pix_count := st.pix_count - k,
                 f := st.f.set_error ErrorCode.image_defect }, [], false) := by
    unfold LZDecoder.decode_step
    rw [decode_wide { st with pix_count := st.pix_count - k } hb]
    rfl
  have hpop : LZDecoder.pop_loop st.stack_ptr { st with pix_count := st.pix_count - k } [] k =
      ({ st with pix_count := st.pix_count - k }, []) := by
    rw [hs]
    rfl
  have hdl : LZDecoder.decode_line (8 * (st.f.d.bytesLeft + 256) + 32)
      { st with pix_count := st.pix_count - k } k =
      some ({ st with pix_count := st.pix_count - k,
                      f := st.f.set_error ErrorCode.image_defect }, [], false) := by
    unfold LZDecoder.decode_line
    rw [if_neg hsp]
    have hpop2 : LZDecoder.pop_loop
        ({ st with pix_count := st.pix_count - k } : LZDecoder).stack_ptr
        { st with pix_count := st.pix_count - k } [] k =
        ({ st with pix_count := st.pix_count - k }, []) := hpop
    simp only [hpop2]
    have hl : ([] : List Nat).length < k := hk
    rw [LZDecoder.decode_loop, if_pos hl]
    simp only [hds, Bool.not_false, if_true]
  rw [toInt32_small k hk31]
  unfold LZDecoder.getLine
  simp only [hpcv, hng, if_false, Int.toNat_ofNat, hdl, Bool.not_false, if_true]

/-- The loop that walks the prefix chain stops with a full stack when the chain has
as many links as the stack has room. -/
theorem walk_loop_full :
    ∀ (n : Nat) (st : LZDecoder) (c m : Nat), m ≤ n → st.stack_ptr + m = LZ.max_code →
      (∀ i, i < m → st.clear_code < st.prefix_^[i] c ∧ st.prefix_^[i] c ≤ LZ.max_code) →
      (LZDecoder.walk_loop n st c).1.stack_ptr = LZ.max_code ∧
        (LZDecoder.walk_loop n st c).1.f = st.f := by
  intro n
  induction n with
  | zero =>
    intro st c m hm hs _
    have : m = 0 := by omega
    rw [this] at hs
    exact ⟨hs, rfl⟩
  | succ n ih =>
    intro st c m hm hs hv
    rw [LZDecoder.walk_loop]
    cases m with
    | zero =>
      have hfull : ¬ st.stack_ptr < LZ.max_code := by omega
      simp only [hfull, decide_False, Bool.false_and, Bool.false_eq_true, if_false]
      exact ⟨hs, trivial⟩
    | succ m =>
      have h0 := hv 0 (by omega)
      simp only [Function.iterate_zero, id_eq] at h0
      have hlt : st.stack_ptr < LZ.max_code := by omega
      have hcond : (decide (st.stack_ptr < LZ.max_code) && decide (c > st.clear_code) &&
          decide (c ≤ LZ.max_code)) = true := by
        simp only [Bool.and_eq_true, decide_eq_true_eq]
        exact ⟨⟨hlt, h0.1⟩, h0.2⟩
      rw [if_pos hcond]
      exact ih
        { st with stack := fun i => if i = st.stack_ptr then st.suffix c else st.stack i,
                  stack_ptr := st.stack_ptr + 1 } (st.prefix_ c) m (by omega)
        (by show st.stack_ptr + 1 + m = LZ.max_code; omega)
        (fun i hi => by
          have := hv (i + 1) (by omega)
          rw [Function.iterate_succ_apply] at this
          exact this)

/-- The expansion of a code of the table whose prefix chain has as many links as the
stack has room fails with `image_defect`. -/
theorem expand_overflow (st : LZDecoder) (c : Nat) (line : List Nat) (len : Nat)
    (hc : ¬ c < st.clear_code) (hk : st.prefix_ c ≠ LZ.no_such_code)
    (hs : st.stack_ptr ≤ LZ.max_code)
    (hv : ∀ i, i < LZ.max_code - st.stack_ptr →
      st.clear_code < st.prefix_^[i] c ∧ st.prefix_^[i] c ≤ LZ.max_code) :
    (st.expand c line len).2 = (line, false) ∧
      (st.expand c line len).1.f.e = ErrorCode.image_defect := by
  obtain ⟨w1, _⟩ := walk_loop_full LZ.max_code st c (LZ.max_code - st.stack_ptr)
    (Nat.sub_le _ _) (by omega) hv
  have hkb : (st.prefix_ c != LZ.no_such_code) = true := by
    simp only [bne_iff_ne, ne_eq]
    exact hk
  unfold LZDecoder.expand
  rw [if_neg hc]
  simp only [hkb, Bool.not_true, Bool.false_and, Bool.false_eq_true, if_false, if_true]
  have hfull : (decide ((LZDecoder.walk_loop LZ.max_code st c).1.stack_ptr ≥ LZ.max_code) ||
      decide ((LZDecoder.walk_loop LZ.max_code st c).2 > LZ.max_code)) = true := by
    rw [w1]
    simp
  rw [if_pos hfull]
  exact ⟨rfl, rfl⟩

/-- The expansion of a code above the clear code that has no entry in the table and
is not the code `run_code - 2`, the next one to get an entry, fails with
`image_defect`. -/
theorem expand_undefined (st : LZDecoder) (c : Nat) (line : List Nat) (len : Nat)
    (hc : ¬ c < st.clear_code) (hk : st.prefix_ c = LZ.no_such_code)
    (hn : c ≠ st.run_code - 2) :
    st.expand c line len =
      ({ st with f := st.f.set_error ErrorCode.image_defect }, line, false) := by
  have hkb : (st.prefix_ c != LZ.no_such_code) = false := by
    rw [hk]
    exact bne_self_eq_false _
  have hnb : (c != st.run_code - 2) = true := by
    simp only [bne_iff_ne, ne_eq]
    exact hn
  unfold LZDecoder.expand
  rw [if_neg hc]
  simp only [hkb, Bool.not_false, Bool.true_and, hnb, if_true]

/-- An iteration of the main loop of `decode_line` that reads a code beyond the
entries of the table, other than the next one to get an entry, fails with
`image_defect`. -/
theorem dec_decode_step_undefined (cr : Nat) (st : LZDecoder) (d : ADec) (c w : Nat)
    (rest : List (Nat × Nat)) (tail line : List Nat) (len : Nat)
    (hsim : DecSim cr st d) (hbits : d.run_bits ≤ 12)
    (hstream : DStream st ((c, w) :: rest) tail) (hw : w = d.run_bits)
    (hc : 2 ^ cr + 2 + d.tab.length ≤ c) (hn : c ≠ d.bump.run_code - 2) :
    ∃ st1, st.decode_step line len = (st1, line, false) ∧
      st1.f.e = ErrorCode.image_defect := by
  obtain ⟨st0, hdec, _, hrc, _, _, htab, _⟩ :=
    dec_decode st c w rest tail d hstream (by rw [hsim.run_bits, hw])
      (by rw [hw]; exact hbits) hsim.run_code hsim.run_bits hsim.max_code
  simp only [LZDecoder.tables, Prod.mk.injEq] at htab
  obtain ⟨⟨_, t2, t3, _, _, _⟩, _, _, t9⟩ := htab
  have he : st0.eof_code = 2 ^ cr + 1 := by rw [t3, hsim.eof_code]
  have hcl : st0.clear_code = 2 ^ cr := by rw [t2, hsim.clear_code]
  have hpf : st0.prefix_ c = LZ.no_such_code := by
    rw [t9]
    exact hsim.free c (by omega)
  have hnc : ¬ c < st0.clear_code := by rw [hcl]; omega
  have hnr : c ≠ st0.run_code - 2 := by rw [hrc]; exact hn
  have hx := expand_undefined st0 c line len hnc hpf hnr
  have hstep : st.decode_step line len = st0.expand c line len := by
    unfold LZDecoder.decode_step
    simp only [hdec, Bool.not_true, Bool.false_eq_true, if_false, he, hcl]
    rw [if_neg (by omega), if_neg (by omega)]
  rw [hstep, hx]
  exact ⟨_, rfl, rfl⟩

/-- `Image::load` of a frame with pixels whose code size byte is 12 or more fails
with `image_defect`: the first code is to be read at a width above 12 bits. -/
theorem img_load_wide (img : Image) (io : GifIO) (h1 : (img.load_desc io).2.2 = true)
    (h2 : ((img.load_desc io).2.1.read_byte).2.2 = true)
    (hcs : 12 ≤ ((img.load_desc io).2.1.read_byte).2.1)
    (hw : (img.load_desc io).1.rect.s.wd < 65536) (hh : (img.load_desc io).1.rect.s.ht < 65536)
    (hwp : 0 < (img.load_desc io).1.rect.s.wd) (hhp : 0 < (img.load_desc io).1.rect.s.ht)
    (hlim : (img.load_desc io).1.interlace = false →
      (img.load_desc io).1.rect.s.wd * (img.load_desc io).1.rect.s.ht < 2 ^ 31) :
    ∃ img1 io1, img.load io = some (img1, io1, false) ∧ io1.e = ErrorCode.image_defect := by
  have ha := area_eq (img.load_desc io).1.rect hw hh
  have hle : (img.load_desc io).1.rect.s.wd * (img.load_desc io).1.rect.s.ht ≤ 65535 * 65535 :=
    Nat.mul_le_mul (by omega) (by omega)
  have hpos : 0 < (img.load_desc io).1.rect.s.wd * (img.load_desc io).1.rect.s.ht :=
    Nat.mul_pos hwp hhp
  have hb : (LZDecoder.new ((img.load_desc io).2.1.read_byte).1 (img.load_desc io).1.rect.area
      ((img.load_desc io).2.1.read_byte).2.1).run_bits > LZ.bits := by
    show ((img.load_desc io).2.1.read_byte).2.1 + 1 > 12
    omega
  unfold Image.load
  simp only [h1, h2, Bool.not_true, Bool.false_eq_true, if_false]
  cases hi : (img.load_desc io).1.interlace with
  | false =>
    have hg := getLine_wide _ (img.load_desc io).1.rect.area hb rfl (by rw [ha]; exact hpos)
      (by rw [ha]; exact hlim hi) (Nat.le_refl _)
      (by show (img.load_desc io).1.rect.area - _ ≤ _; omega)
    simp only [Bool.false_eq_true, if_false, resize_length, hg]
    exact ⟨_, _, rfl, rfl⟩
  | true =>
    have hlen : (interlace_rows (img.load_desc io).1.rect.height).length =
        (img.load_desc io).1.rect.s.ht := by
      rw [(interlace_rows_perm_range _).length_eq, List.length_range]
      rfl
    have hwa : (img.load_desc io).1.rect.s.wd ≤ (img.load_desc io).1.rect.area := by
      rw [ha]
      exact Nat.le_mul_of_pos_right _ hhp
    have hg := getLine_wide _ (img.load_desc io).1.rect.s.wd hb rfl hwp (by omega) hwa
      (by show (img.load_desc io).1.rect.area - _ ≤ _; omega)
    cases hr : interlace_rows (img.load_desc io).1.rect.height with
    | nil =>
      rw [hr] at hlen
      simp only [List.length_nil] at hlen
      omega
    | cons j rest =>
      have hl : ∃ r, Image.load_rows (j :: rest)
          (LZDecoder.new ((img.load_desc io).2.1.read_byte).1 (img.load_desc io).1.rect.area
            ((img.load_desc io).2.1.read_byte).2.1)
          (resize (img.load_desc io).1.b (img.load_desc io).1.rect.area)
          (img.load_desc io).1.rect.width = some r ∧ r.2.2 = false ∧
          r.1.f.e = ErrorCode.image_defect := by
        rw [Image.load_rows]
        have hg2 := hg
        simp only [Rect.width, hg2, Bool.not_false, if_true]
        exact ⟨_, rfl, rfl, rfl⟩
      obtain ⟨r, hl1, hl2, hl3⟩ := hl
      simp only [if_true, hl1]
      exact ⟨_, _, by rw [hl2], hl3⟩

/-- C24.  Structurally invalid LZW data is reported as `image_defect`: `decode`
fails when the code width in force is above 12 bits, and so does `Image::load` of a
frame with pixels whose code size byte is 12 or more; the expansion of a code fails
when its prefix chain has as many links as the stack has room, so that the walk
fills the stack; and it fails for a code above the clear code that has no entry in
the table and is not `run_code - 2`, the next code to get an entry, which on a
decoder in step with the stream is every code beyond the entries of the table but
that one. -/
theorem lzw_defects :
    (∀ st : LZDecoder, st.run_bits > LZ.bits →
      st.decode = ({ st with f := st.f.set_error ErrorCode.image_defect }, 0, false)) ∧
    (∀ (img : Image) (io : GifIO), (img.load_desc io).2.2 = true →
      ((img.load_desc io).2.1.read_byte).2.2 = true →
      12 ≤ ((img.load_desc io).2.1.read_byte).2.1 →
      (img.load_desc io).1.rect.s.wd < 65536 → (img.load_desc io).1.rect.s.ht < 65536 →
      0 < (img.load_desc io).1.rect.s.wd → 0 < (img.load_desc io).1.rect.s.ht →
      ((img.load_desc io).1.interlace = false →
        (img.load_desc io).1.rect.s.wd * (img.load_desc io).1.rect.s.ht < 2 ^ 31) →
      ∃ img1 io1, img.load io = some (img1, io1, false) ∧
        io1.e = ErrorCode.image_defect) ∧
    (∀ (st : LZDecoder) (c : Nat) (line : List Nat) (len : Nat), ¬ c < st.clear_code →
      st.prefix_ c ≠ LZ.no_such_code → st.stack_ptr ≤ LZ.max_code →
      (∀ i, i < LZ.max_code - st.stack_ptr →
        st.clear_code < st.prefix_^[i] c ∧ st.prefix_^[i] c ≤ LZ.max_code) →
      (st.expand c line len).2 = (line, false) ∧
        (st.expand c line len).1.f.e = ErrorCode.image_defect) ∧
    (∀ (st : LZDecoder) (c : Nat) (line : List Nat) (len : Nat), ¬ c < st.clear_code →
      st.prefix_ c = LZ.no_such_code → c ≠ st.run_code - 2 →
      st.expand c line len =
        ({ st with f := st.f.set_error ErrorCode.image_defect }, line, false)) ∧
    ∀ (cr : Nat) (st : LZDecoder) (d : ADec) (c w : Nat) (rest : List (Nat × Nat))
      (tail line : List Nat) (len : Nat), DecSim cr st d → d.run_bits ≤ 12 →
      DStream st ((c, w) :: rest) tail → w = d.run_bits → 2 ^ cr + 2 + d.tab.length ≤ c →
      c ≠ d.bump.run_code - 2 →
      ∃ st1, st.decode_step line len = (st1, line, false) ∧
        st1.f.e = ErrorCode.image_defect :=
  ⟨decode_wide, img_load_wide, expand_overflow, expand_undefined, dec_decode_step_undefined⟩

theorem lzw_defects_witness :
    (LZDecoder.new ( GifIO.mk_dev (MemDevice.open_for_read [])) 1 12).decode.2.2 = false ∧
    (∃ img1 io1, Image.new.load ( GifIO.mk_dev (MemDevice.open_for_read frame_wide_code)) =
        some (img1, io1, false) ∧ io1.e = ErrorCode.image_defect) ∧
    ((cyclic_decoder.expand 300 [] 1).2 = ([], false) ∧
      (cyclic_decoder.expand 300 [] 1).1.f.e = ErrorCode.image_defect) ∧
    ∃ st1, (LZDecoder.new ( GifIO.mk_dev (MemDevice.open_for_read [1, 7, 0])) 1 2).decode_step
        [] 1 = (st1, [], false) ∧ st1.f.e = ErrorCode.image_defect := by
  obtain ⟨t1, t2, t3, _, t5⟩ := lzw_defects
  refine ⟨?_, ?_, ?_, ?_⟩
  · rw [t1 _ (by decide)]
  · exact t2 Image.new _ (by decide) (by decide) (by decide) (by decide) (by decide)
      (by decide) (by decide) (by decide)
  · refine t3 cyclic_decoder 300 [] 1 (by decide) (by decide) (by decide) ?_
    intro i _
    have hfix : cyclic_decoder.prefix_^[i] 300 = 300 := Function.iterate_fixed rfl i
    rw [hfix]
    decide
  · obtain ⟨a, b, _, e⟩ := dec_new_stream 2 (by decide)
      ( GifIO.mk_dev (MemDevice.open_for_read [1, 7, 0])) 1 [[7]] [(7, 3)] []
      (by simp [Blocks]) (by decide) (by decide) (by decide) (by simp [Fits])
    exact t5 2 _ (ADec.init 2) 7 3 [] [] [] 1 a b.bits e rfl (by decide) (by decide)

end gif

namespace gif

/-! ## Code widths of the encoder -/

theorem write_buf_logic (st : LZEncoder) (c : Nat) : (st.write_buf c).1.logic = st.logic := by
  unfold LZEncoder.write_buf
  simp only []
  split_ifs <;> rfl

theorem pack_loop_logic :
    ∀ (n : Nat) (st : LZEncoder) (res : Bool),
      (LZEncoder.pack_loop n st res).1.logic = st.logic := by
  intro n
  induction n with
  | zero => intro st res; rfl
  | succ n ih =>
    intro st res
    rw [LZEncoder.pack_loop]
    by_cases h : st.crnt_shift_state ≥ 8
    · rw [if_pos h]
      have e := ih
        { (st.write_buf (st.crnt_shift_dword &&& 0xff)).1 with
            crnt_shift_dword :=
              (st.write_buf (st.crnt_shift_dword &&& 0xff)).1.crnt_shift_dword >>> 8,
            crnt_shift_state :=
              (st.write_buf (st.crnt_shift_dword &&& 0xff)).1.crnt_shift_state - 8 }
        (if !(st.write_buf (st.crnt_shift_dword &&& 0xff)).2 then false else res)
      exact e.trans (write_buf_logic st _)
    · rw [if_neg h]

theorem flush_loop_logic :
    ∀ (n : Nat) (st : LZEncoder) (res : Bool),
      (LZEncoder.flush_loop n st res).1.logic = st.logic := by
  intro n
  induction n with
  | zero => intro st res; rfl
  | succ n ih =>
    intro st res
    rw [LZEncoder.flush_loop]
    by_cases h : st.crnt_shift_state > 0
    · rw [if_pos h]
      have e := ih
        { (st.write_buf (st.crnt_shift_dword &&& 0xff)).1 with
            crnt_shift_dword :=
              (st.write_buf (st.crnt_shift_dword &&& 0xff)).1.crnt_shift_dword >>> 8,
            crnt_shift_state :=
              (st.write_buf (st.crnt_shift_dword &&& 0xff)).1.crnt_shift_state - 8 }
        (if !(st.write_buf (st.crnt_shift_dword &&& 0xff)).2 then false else res)
      exact e.trans (write_buf_logic st _)
    · rw [if_neg h]

theorem encode_pack_logic (st : LZEncoder) (code : Nat) :
    (st.encode_pack code).1.logic = st.logic := by
  unfold LZEncoder.encode_pack
  by_cases h : code = LZ.flush_output
  · rw [if_pos h]
    exact (write_buf_logic _ _).trans (flush_loop_logic st.crnt_shift_state st true)
  · rw [if_neg h]
    exact pack_loop_logic _ _ _

theorem encode_eq_pack (st : LZEncoder) (code : Nat) :
    st.encode code =
      if (st.encode_pack code).1.run_code ≥ (st.encode_pack code).1.max_code &&
          code ≤ LZ.max_code then
        ({ (st.encode_pack code).1 with
            run_bits := (st.encode_pack code).1.run_bits + 1,
            max_code := 2 ^ ((st.encode_pack code).1.run_bits + 1) }, (st.encode_pack code).2)
      else st.encode_pack code := rfl

/-- What `encode` leaves of the members other than the session, the shift register
and the staging block, whatever the sink does: the width grows by one bit when
`run_code` has reached `max_code` and the argument is a code. -/
theorem encode_fields (st : LZEncoder) (code : Nat) :
    (st.encode code).1.col_res = st.col_res ∧ (st.encode code).1.clear_code = st.clear_code ∧
      (st.encode code).1.eof_code = st.eof_code ∧ (st.encode code).1.run_code = st.run_code ∧
      (st.encode code).1.crnt_code = st.crnt_code ∧
      (st.encode code).1.pix_count = st.pix_count ∧ (st.encode code).1.ht = st.ht ∧
      ((st.run_code ≥ st.max_code ∧ code ≤ LZ.max_code) →
        (st.encode code).1.run_bits = st.run_bits + 1 ∧
          (st.encode code).1.max_code = 2 ^ (st.run_bits + 1)) ∧
      (¬ (st.run_code ≥ st.max_code ∧ code ≤ LZ.max_code) →
        (st.encode code).1.run_bits = st.run_bits ∧
          (st.encode code).1.max_code = st.max_code) := by
  obtain ⟨e1, e2, e3, e4, e5, e6, e7, e8, e9⟩ := enc_logic_eq _ _ (encode_pack_logic st code)
  rw [encode_eq_pack]
  by_cases hb : st.run_code ≥ st.max_code ∧ code ≤ LZ.max_code
  · have hc : ((st.encode_pack code).1.run_code ≥ (st.encode_pack code).1.max_code &&
        code ≤ LZ.max_code) = true := by
      rw [e4, e6]
      simp only [Bool.and_eq_true, decide_eq_true_eq]
      exact hb
    rw [if_pos hc]
    refine ⟨e1, e2, e3, e4, e7, e8, e9, fun _ => ⟨?_, ?_⟩, fun hn => absurd hb hn⟩
    · show (st.encode_pack code).1.run_bits + 1 = _
      rw [e5]
    · show 2 ^ ((st.encode_pack code).1.run_bits + 1) = _
      rw [e5]
  · have hc : ¬ ((st.encode_pack code).1.run_code ≥ (st.encode_pack code).1.max_code &&
        code ≤ LZ.max_code) = true := by
      rw [e4, e6]
      simp only [Bool.and_eq_true, decide_eq_true_eq]
      exact hb
    rw [if_neg hc]
    exact ⟨e1, e2, e3, e4, e7, e8, e9, fun hp => absurd hp hb, fun _ => ⟨e5, e6⟩⟩

theorem pow_ge_4096 (n : Nat) (h : 12 < n) : 4096 ≤ 2 ^ n ∧ 4096 < 2 ^ n := by
  have h1 : 2 ^ 13 ≤ 2 ^ n := Nat.pow_le_pow_right (by norm_num) h
  have h2 : (2 : Nat) ^ 13 = 8192 := by norm_num
  omega

theorem pow_12_of_le (n : Nat) (h : 2 ^ n ≤ 4095) : n ≤ 11 := by
  by_contra hn
  have h1 : 2 ^ 12 ≤ 2 ^ n := Nat.pow_le_pow_right (by norm_num) (by omega)
  have h2 : (2 : Nat) ^ 12 = 4096 := by norm_num
  omega

/-- `encode` keeps the widths and counts in their ranges, and after it `run_code` is
below `max_code` when the argument was a code. -/
theorem inv_encode (cr : Nat) (st : LZEncoder) (code : Nat) (h : st.CodeInv cr) :
    (st.encode code).1.CodeInv cr ∧ (st.encode code).1.run_code = st.run_code ∧
      (st.encode code).1.ht = st.ht ∧ (st.encode code).1.crnt_code = st.crnt_code ∧
      (st.encode code).1.pix_count = st.pix_count ∧
      (code ≤ LZ.max_code → (st.encode code).1.run_code < (st.encode code).1.max_code) := by
  obtain ⟨e1, e2, e3, e4, e5, e6, e7, e8, e9⟩ := encode_fields st code
  by_cases hb : st.run_code ≥ st.max_code ∧ code ≤ LZ.max_code
  · obtain ⟨b1, b2⟩ := e8 hb
    have hpow := h.pow
    have hle : 2 ^ st.run_bits ≤ 4095 := by
      rw [← hpow]
      exact le_trans hb.1 h.code_hi
    have h11 := pow_12_of_le _ hle
    have hdbl : 2 ^ (st.run_bits + 1) = 2 * 2 ^ st.run_bits := by rw [pow_succ]; ring
    have hpos : 0 < 2 ^ st.run_bits := Nat.two_pow_pos _
    have hfit := h.fit
    refine ⟨⟨by rw [e1]; exact h.col_res, by rw [e2]; exact h.clear_code,
      by rw [e3]; exact h.eof_code, by rw [b1]; have := h.bits_lo; omega, by rw [b1]; omega,
      by rw [b2, b1], by rw [e4]; exact h.code_lo, by rw [e4]; exact h.code_hi,
      by rw [e4, b2, hdbl]; omega, by rw [e7, e4]; exact h.table⟩,
      e4, e7, e5, e6, fun _ => by rw [e4, b2, hdbl]; omega⟩
  · obtain ⟨b1, b2⟩ := e9 hb
    refine ⟨⟨by rw [e1]; exact h.col_res, by rw [e2]; exact h.clear_code,
      by rw [e3]; exact h.eof_code, by rw [b1]; exact h.bits_lo, by rw [b1]; exact h.bits_hi,
      by rw [b2, b1]; exact h.pow, by rw [e4]; exact h.code_lo, by rw [e4]; exact h.code_hi,
      by rw [e4, b2]; exact h.fit, by rw [e7, e4]; exact h.table⟩,
      e4, e7, e5, e6, fun hc => by
        rw [e4, b2]
        have := h.fit
        by_contra hn
        exact hb ⟨by omega, hc⟩⟩

/-- A change of the session leaves the widths and counts as they are. -/
theorem inv_set_f (cr : Nat) (st : LZEncoder) (io : GifIO) (h : st.CodeInv cr) :
    ({ st with f := io } : LZEncoder).CodeInv cr :=
  ⟨h.col_res, h.clear_code, h.eof_code, h.bits_lo, h.bits_hi, h.pow, h.code_lo, h.code_hi,
    h.fit, h.table⟩

theorem pow_cr_bounds (cr : Nat) (h1 : 1 ≤ cr) (h2 : cr ≤ 11) :
    2 ≤ 2 ^ cr ∧ 2 ^ cr ≤ 2048 ∧ 2 ^ (cr + 1) = 2 * 2 ^ cr := by
  have a : 2 ^ 1 ≤ 2 ^ cr := Nat.pow_le_pow_right (by norm_num) h1
  have b : 2 ^ cr ≤ 2 ^ 11 := Nat.pow_le_pow_right (by norm_num) h2
  have c : (2 : Nat) ^ 11 = 2048 := by norm_num
  have d : (2 : Nat) ^ 1 = 2 := by norm_num
  refine ⟨by omega, by omega, ?_⟩
  rw [pow_succ]; ring

/-- The state of the member initialisers of the constructor and the state after
it. -/
theorem inv_new (cr : Nat) (h1 : 1 ≤ cr) (h2 : cr ≤ 11) (file : GifIO) (n : Nat) :
    (LZEncoder.new_call file n cr).1.CodeInv cr ∧ (LZEncoder.new file n cr).CodeInv cr ∧
      (LZEncoder.new file n cr).crnt_code = LZ.first_code ∧
      (LZEncoder.new file n cr).pix_count = n := by
  obtain ⟨p1, p2, p3⟩ := pow_cr_bounds cr h1 h2
  have h0 : (LZEncoder.new_call file n cr).1.CodeInv cr :=
    ⟨rfl, rfl, rfl, Nat.le_refl _, by show cr + 1 ≤ 12; omega, rfl, Nat.le_refl _,
      by show 2 ^ cr + 2 ≤ 4095; omega, by show 2 ^ cr + 2 ≤ 2 ^ (cr + 1); omega,
      ⟨[], ht_clear_rep, by show 0 + (2 ^ cr + 2) = 2 ^ cr + 2; omega, by simp⟩⟩
  obtain ⟨i1, _, _, i4, i5, _⟩ := inv_encode cr _ (2 ^ cr) h0
  exact ⟨h0, i1, i4, i5⟩

end gif

namespace gif

theorem call_ok_code (cr : Nat) (st : LZEncoder) (code : Nat) (h : st.CodeInv cr)
    (hc : code < st.run_code) : CallOk cr (st, code) := by
  refine ⟨h, ?_⟩
  show code < 2 ^ st.run_bits
  rw [← h.pow]
  exact Nat.lt_of_lt_of_le hc h.fit

theorem call_ok_low (cr : Nat) (st : LZEncoder) (code : Nat) (h : st.CodeInv cr)
    (hc : code < 2 ^ (cr + 1)) : CallOk cr (st, code) := by
  refine ⟨h, ?_⟩
  show code < 2 ^ st.run_bits
  exact Nat.lt_of_lt_of_le hc (Nat.pow_le_pow_right (by norm_num) h.bits_lo)

/-- The body of the pixel loop of `encode_line` from a state in range, for a code in
use and a pixel value below `2 ^ cr`: it returns, the state after it is in range, the
new code is in use, and every code was packed below two to the width in force. -/
theorem inv_encode_pixel (cr : Nat) (h1 : 1 ≤ cr) (h8 : cr ≤ 8) (st : LZEncoder)
    (code pixel : Nat) (h : st.CodeInv cr) (hc : code < st.run_code) (hp : pixel < 2 ^ cr) :
    ∃ r, st.encode_pixel code pixel = some r ∧ r.1.CodeInv cr ∧ r.2.1 < r.1.run_code ∧
      r.1.pix_count = st.pix_count ∧
      ∀ sc ∈ st.pixel_calls code pixel, CallOk cr sc := by
  obtain ⟨p1, p2, p3⟩ := pow_cr_bounds cr h1 (by omega)
  have h256 := two_pow_le_256 cr h8
  obtain ⟨m, hrep, hlen, hlt⟩ := h.table
  have hhi := h.code_hi
  have hm : m.length < 8192 := by omega
  have hkey : (code <<< 8) + pixel < 0xFFFFF := key_lt code pixel (by omega) (by omega)
  have hok0 : CallOk cr (st, code) := call_ok_code cr st code h hc
  by_cases hk : (code <<< 8) + pixel ∈ m.map Prod.fst
  · obtain ⟨e, he, hek⟩ := List.mem_map.1 hk
    have hmem : ((code <<< 8) + pixel, e.2) ∈ m := by rw [← hek]; exact he
    have hget : st.ht.get ((code <<< 8) + pixel) = some (some e.2) :=
      ht_get_present st.ht.table m hrep _ e.2 hmem (by have := hlt e he; omega)
    refine ⟨(st, e.2, true), ?_, h, hlt e he, rfl, ?_⟩
    · simp only [LZEncoder.encode_pixel, hget]
    · intro sc hsc
      simp only [LZEncoder.pixel_calls, hget, List.not_mem_nil] at hsc
  · have hget : st.ht.get ((code <<< 8) + pixel) = some none :=
      ht_get_absent st.ht.table m hrep hm _ hk
    obtain ⟨i1, i2, i3, _, i5, i6⟩ := inv_encode cr st code h
    have i6b := i6 (by show code ≤ 4095; omega)
    unfold LZEncoder.encode_pixel LZEncoder.pixel_calls
    simp only [hget]
    generalize st.encode code = r at i1 i2 i3 i5 i6b ⊢
    cases hr2 : r.2 with
    | false =>
      simp only [Bool.not_false, if_true]
      refine ⟨_, rfl, inv_set_f cr r.1 _ i1, by rw [i2]; exact hc, i5, ?_⟩
      intro sc hsc
      simp only [List.mem_singleton] at hsc
      rw [hsc]
      exact hok0
    | true =>
      simp only [Bool.not_true, Bool.false_eq_true, if_false]
      by_cases hfull : r.1.run_code ≥ LZ.max_code
      · simp only [if_pos hfull]
        obtain ⟨j1, j2, _, _, j5, _⟩ := inv_encode cr r.1 r.1.clear_code i1
        have hok1 : CallOk cr (r.1, r.1.clear_code) :=
          call_ok_low cr r.1 _ i1 (by rw [i1.clear_code]; omega)
        have hcalls : ∀ sc ∈ [(st, code), (r.1, r.1.clear_code)], CallOk cr sc := by
          intro sc hsc
          simp only [List.mem_cons, List.mem_singleton, List.not_mem_nil, or_false] at hsc
          rcases hsc with rfl | rfl
          · exact hok0
          · exact hok1
        generalize r.1.encode r.1.clear_code = r2 at j1 j2 j5 ⊢
        cases hr3 : r2.2 with
        | false =>
          simp only [Bool.not_false, if_true]
          refine ⟨_, rfl, inv_set_f cr r2.1 _ j1, ?_, by rw [← i5]; exact j5, hcalls⟩
          show pixel < r2.1.run_code
          have : r.1.run_code ≥ 4095 := hfull
          omega
        | true =>
          simp only [Bool.not_true, Bool.false_eq_true, if_false]
          refine ⟨_, rfl, ?_, ?_, by rw [← i5]; exact j5, hcalls⟩
          · exact ⟨j1.col_res, j1.clear_code, j1.eof_code,
              by show cr + 1 ≤ r2.1.col_res + 1; rw [j1.col_res],
              by show r2.1.col_res + 1 ≤ 12; rw [j1.col_res]; omega,
              rfl,
              by show 2 ^ cr + 2 ≤ r2.1.eof_code + 1; rw [j1.eof_code],
              by show r2.1.eof_code + 1 ≤ 4095; rw [j1.eof_code]; omega,
              by show r2.1.eof_code + 1 ≤ 2 ^ (r2.1.col_res + 1)
                 rw [j1.eof_code, j1.col_res]; omega,
              ⟨[], ht_clear_rep, by
                show 0 + (2 ^ cr + 2) = r2.1.eof_code + 1
                rw [j1.eof_code]; omega, by simp⟩⟩
          · show pixel < r2.1.eof_code + 1
            rw [j1.eof_code]; omega
      · simp only [if_neg hfull]
        have hnf : r.1.run_code < 4095 := by
          have : ¬ r.1.run_code ≥ 4095 := hfull
          omega
        have hrep2 : HTRep r.1.ht.table m := by rw [i3]; exact hrep
        obtain ⟨t1, hins, hrep1⟩ := ht_insert_rep r.1.ht.table m hrep2 hm
          ((code <<< 8) + pixel) r.1.run_code hk hkey
        have hins2 : r.1.ht.insert ((code <<< 8) + pixel) r.1.run_code = some ⟨t1⟩ := hins
        simp only [hins2]
        refine ⟨_, rfl, ?_, ?_, i5, ?_⟩
        · exact ⟨i1.col_res, i1.clear_code, i1.eof_code, i1.bits_lo, i1.bits_hi, i1.pow,
            by show 2 ^ cr + 2 ≤ r.1.run_code + 1; have := i1.code_lo; omega,
            by show r.1.run_code + 1 ≤ 4095; omega,
            by show r.1.run_code + 1 ≤ r.1.max_code; omega,
            ⟨((code <<< 8) + pixel, r.1.run_code) :: m, hrep1, by
              show m.length + 1 + (2 ^ cr + 2) = r.1.run_code + 1
              rw [i2]; omega, by
              intro e he
              show e.2 < r.1.run_code + 1
              rcases List.mem_cons.1 he with rfl | he
              · exact Nat.lt_succ_self _
              · have := hlt e he
                rw [i2]; omega⟩⟩
        · show pixel < r.1.run_code + 1
          have := i1.code_lo
          omega
        · intro sc hsc
          simp only [List.mem_singleton] at hsc
          rw [hsc]
          exact hok0

/-- The pixel loop of `encode_line` from a state in range. -/
theorem inv_encode_loop (cr : Nat) (h1 : 1 ≤ cr) (h8 : cr ≤ 8) :
    ∀ (l : List Nat) (st : LZEncoder) (code : Nat), st.CodeInv cr → code < st.run_code →
      (∀ x ∈ l, x < 2 ^ cr) →
      ∃ r, LZEncoder.encode_loop l st code = some r ∧ r.1.CodeInv cr ∧
        r.2.1 < r.1.run_code ∧ r.1.pix_count = st.pix_count ∧
        ∀ sc ∈ LZEncoder.loop_calls l st code, CallOk cr sc := by
  intro l
  induction l with
  | nil =>
    intro st code h hc _
    exact ⟨(st, code, true), rfl, h, hc, rfl, fun sc hsc => by
      simp only [LZEncoder.loop_calls, List.not_mem_nil] at hsc⟩
  | cons x rest ih =>
    intro st code h hc hl
    obtain ⟨r, e1, e2, e3, e4, e5⟩ := inv_encode_pixel cr h1 h8 st code x h hc
      (hl x (List.mem_cons_self _ _))
    rw [LZEncoder.encode_loop, LZEncoder.loop_calls, e1]
    cases hr : r.2.2 with
    | false =>
      simp only [hr, Bool.not_false, if_true, List.append_nil]
      exact ⟨r, rfl, e2, e3, e4, e5⟩
    | true =>
      simp only [hr, Bool.not_true, Bool.false_eq_true, if_false]
      obtain ⟨r2, f1, f2, f3, f4, f5⟩ := ih r.1 r.2.1 e2 e3
        (fun y hy => hl y (List.mem_cons_of_mem _ hy))
      refine ⟨r2, f1, f2, f3, by rw [f4, e4], ?_⟩
      intro sc hsc
      rcases List.mem_append.1 hsc with hsc | hsc
      · exact e5 sc hsc
      · exact f5 sc hsc

/-- The end of the last `encode_line` from a state in range. -/
theorem inv_finish (cr : Nat) (h1 : 1 ≤ cr) (st : LZEncoder) (code : Nat) (h : st.CodeInv cr)
    (hc : code < st.run_code) :
    (st.finish code).1.CodeInv cr ∧ (st.finish code).1.run_code = st.run_code ∧
      (st.finish code).1.crnt_code = st.crnt_code ∧
      ∀ sc ∈ st.finish_calls code, CallOk cr sc := by
  have hpos : 2 ≤ 2 ^ cr := by
    have a : 2 ^ 1 ≤ 2 ^ cr := Nat.pow_le_pow_right (by norm_num) h1
    simpa using a
  have hdbl : 2 ^ (cr + 1) = 2 * 2 ^ cr := by rw [pow_succ]; ring
  obtain ⟨i1, i2, _, i4, _, _⟩ := inv_encode cr st code h
  obtain ⟨j1, j2, _, j4, _, _⟩ := inv_encode cr (st.encode code).1 (st.encode code).1.eof_code i1
  obtain ⟨k1, k2, _, k4, _, _⟩ := inv_encode cr
    ((st.encode code).1.encode (st.encode code).1.eof_code).1 LZ.flush_output j1
  have hok0 : CallOk cr (st, code) := call_ok_code cr st code h hc
  have hok1 : CallOk cr ((st.encode code).1, (st.encode code).1.eof_code) :=
    call_ok_low cr _ _ i1 (by rw [i1.eof_code]; omega)
  unfold LZEncoder.finish LZEncoder.finish_calls
  simp only []
  generalize st.encode code = r1 at i1 i2 i4 j1 j2 j4 k1 k2 k4 hok1 ⊢
  cases hr1 : r1.2 with
  | false =>
    simp only [Bool.not_false, if_true]
    refine ⟨inv_set_f cr r1.1 _ i1, i2, i4, ?_⟩
    intro sc hsc
    simp only [List.mem_singleton] at hsc
    rw [hsc]
    exact hok0
  | true =>
    simp only [Bool.not_true, Bool.false_eq_true, if_false]
    have hcalls : ∀ sc ∈ [(st, code), (r1.1, r1.1.eof_code)], CallOk cr sc := by
      intro sc hsc
      simp only [List.mem_cons, List.mem_singleton, List.not_mem_nil, or_false] at hsc
      rcases hsc with rfl | rfl
      · exact hok0
      · exact hok1
    generalize r1.1.encode r1.1.eof_code = r2 at j1 j2 j4 k1 k2 k4 ⊢
    cases hr2 : r2.2 with
    | false =>
      simp only [Bool.not_false, if_true]
      exact ⟨inv_set_f cr r2.1 _ j1, by rw [← i2]; exact j2, by rw [← i4]; exact j4, hcalls⟩
    | true =>
      simp only [Bool.not_true, Bool.false_eq_true, if_false]
      generalize r2.1.encode LZ.flush_output = r3 at k1 k2 k4 ⊢
      cases hr3 : r3.2 with
      | false =>
        simp only [Bool.not_false, if_true]
        exact ⟨inv_set_f cr r3.1 _ k1, by rw [← i2, ← j2]; exact k2,
          by rw [← i4, ← j4]; exact k4, hcalls⟩
      | true =>
        simp only [Bool.not_true, Bool.false_eq_true, if_false]
        exact ⟨k1, by rw [← i2, ← j2]; exact k2, by rw [← i4, ← j4]; exact k4, hcalls⟩

end gif

namespace gif

theorem inv_set_crnt (cr : Nat) (st : LZEncoder) (c : Nat) (h : st.CodeInv cr) :
    ({ st with crnt_code := c } : LZEncoder).CodeInv cr :=
  ⟨h.col_res, h.clear_code, h.eof_code, h.bits_lo, h.bits_hi, h.pow, h.code_lo, h.code_hi,
    h.fit, h.table⟩

theorem inv_set_pix (cr : Nat) (st : LZEncoder) (n : Nat) (h : st.CodeInv cr) :
    ({ st with pix_count := n } : LZEncoder).CodeInv cr :=
  ⟨h.col_res, h.clear_code, h.eof_code, h.bits_lo, h.bits_hi, h.pow, h.code_lo, h.code_hi,
    h.fit, h.table⟩

/-- `encode_line` from a state in range between two lines, over pixel values below
`2 ^ cr`. -/
theorem inv_encode_line (cr : Nat) (h1 : 1 ≤ cr) (h8 : cr ≤ 8) (st : LZEncoder)
    (line : List Nat) (h : st.CodeInv cr)
    (hcc : st.crnt_code = LZ.first_code ∨ st.crnt_code < st.run_code)
    (hl : ∀ x ∈ line, x < 2 ^ cr) :
    ∃ r, st.encode_line line = some r ∧ r.1.CodeInv cr ∧
      (r.2 = true → r.1.crnt_code < r.1.run_code) ∧
      ∀ sc ∈ st.line_calls line, CallOk cr sc := by
  have hpos := Nat.two_pow_pos cr
  have hlo := h.code_lo
  have hs1 : (LZEncoder.line_start st.crnt_code line).1 < st.run_code := by
    unfold LZEncoder.line_start
    by_cases hf : st.crnt_code = LZ.first_code
    · rw [if_pos hf]
      show line.headD 0 < st.run_code
      cases line with
      | nil => simp only [List.headD_nil]; omega
      | cons a t =>
        have := hl a (List.mem_cons_self _ _)
        simp only [List.headD_cons]; omega
    · rw [if_neg hf]
      rcases hcc with hcc | hcc
      · exact absurd hcc hf
      · exact hcc
  have hs2 : ∀ x ∈ (LZEncoder.line_start st.crnt_code line).2, x < 2 ^ cr := by
    unfold LZEncoder.line_start
    by_cases hf : st.crnt_code = LZ.first_code
    · rw [if_pos hf]
      intro x hx
      exact hl x (List.mem_of_mem_tail hx)
    · rw [if_neg hf]
      exact hl
  obtain ⟨r, e1, e2, e3, _, e5⟩ := inv_encode_loop cr h1 h8 _ st _ h hs1 hs2
  obtain ⟨st1, code, ok⟩ := r
  unfold LZEncoder.encode_line LZEncoder.line_calls
  simp only [e1]
  have e2b : st1.CodeInv cr := e2
  have e3b : code < st1.run_code := e3
  cases ok with
  | false =>
    simp only [Bool.not_false, if_true, List.append_nil]
    exact ⟨_, rfl, e2b, (fun hf => by cases hf), e5⟩
  | true =>
    simp only [Bool.not_true, Bool.false_eq_true, if_false]
    by_cases hz : st1.pix_count = 0
    · simp only [if_pos hz]
      obtain ⟨f1, f2, f3, f4⟩ := inv_finish cr h1 { st1 with crnt_code := code } code
        (inv_set_crnt cr st1 code e2b) e3b
      refine ⟨_, rfl, f1, fun _ => ?_, ?_⟩
      · rw [f2, f3]
        exact e3b
      · intro sc hsc
        rcases List.mem_append.1 hsc with hsc | hsc
        · exact e5 sc hsc
        · exact f4 sc hsc
    · simp only [if_neg hz, List.append_nil]
      exact ⟨_, rfl, inv_set_crnt cr st1 code e2b, fun _ => e3b, e5⟩

/-- `put_line` from a state in range between two lines. -/
theorem inv_put_line (cr : Nat) (h1 : 1 ≤ cr) (h8 : cr ≤ 8) (st : LZEncoder)
    (line : List Nat) (h : st.CodeInv cr)
    (hcc : st.crnt_code = LZ.first_code ∨ st.crnt_code < st.run_code) :
    ∃ r, st.put_line line = some r ∧ r.1.CodeInv cr ∧
      (r.2.2 = true → r.1.crnt_code < r.1.run_code) ∧
      ∀ sc ∈ st.put_line_calls line, CallOk cr sc := by
  unfold LZEncoder.put_line LZEncoder.put_line_calls
  by_cases hp : st.pix_count < line.length
  · simp only [if_pos hp]
    exact ⟨_, rfl, inv_set_f cr st _ h, (fun hf => by cases hf), fun sc hsc => by
      simp only [List.not_mem_nil] at hsc⟩
  · simp only [if_neg hp]
    obtain ⟨r, e1, e2, e3, e4⟩ := inv_encode_line cr h1 h8
      { st with pix_count := st.pix_count - line.length }
      (line.map (fun b => b &&& LZEncoder.code_mask.getD st.col_res 0))
      (inv_set_pix cr st _ h) hcc (by
        intro x hx
        obtain ⟨b, _, rfl⟩ := List.mem_map.1 hx
        rw [h.col_res]
        exact mask_lt cr h8 b)
    simp only [e1]
    exact ⟨_, rfl, e2, e3, e4⟩

/-- A sequence of `put_line` calls from a state in range between two lines. -/
theorem inv_put_lines (cr : Nat) (h1 : 1 ≤ cr) (h8 : cr ≤ 8) :
    ∀ (lines : List (List Nat)) (st : LZEncoder), st.CodeInv cr →
      (st.crnt_code = LZ.first_code ∨ st.crnt_code < st.run_code) →
      ∃ r, LZEncoder.put_lines lines st = some r ∧ r.1.CodeInv cr ∧
        ∀ sc ∈ LZEncoder.put_lines_calls lines st, CallOk cr sc := by
  intro lines
  induction lines with
  | nil =>
    intro st h _
    exact ⟨(st, true), rfl, h, fun sc hsc => by
      simp only [LZEncoder.put_lines_calls, List.not_mem_nil] at hsc⟩
  | cons line rest ih =>
    intro st h hcc
    obtain ⟨r, e1, e2, e3, e4⟩ := inv_put_line cr h1 h8 st line h hcc
    rw [LZEncoder.put_lines, LZEncoder.put_lines_calls, e1]
    cases hr : r.2.2 with
    | false =>
      simp only [hr, Bool.not_false, if_true, List.append_nil]
      exact ⟨_, rfl, e2, e4⟩
    | true =>
      simp only [hr, Bool.not_true, Bool.false_eq_true, if_false]
      obtain ⟨r2, f1, f2, f3⟩ := ih r.1 e2 (Or.inr (e3 hr))
      refine ⟨r2, f1, f2, ?_⟩
      intro sc hsc
      rcases List.mem_append.1 hsc with hsc | hsc
      · exact e4 sc hsc
      · exact f3 sc hsc

/-- C27.  An encode for a colour resolution of 2 to 8 in lines that are not empty,
so that every `encode_line` reads its first pixel inside the line, whatever the sink
does: the constructor and every sequence of `put_line` calls after it return, and at
every call of `encode` that packs a code (a pixel code, a code of the dictionary,
the clear code or the end code), as in the state left at the end, the width
`run_bits` is within `cr + 1` and 12, `max_code` is two to the width, `run_code` is
at most 4096, and the code passed is below two to the width at that moment. -/
theorem code_width_invariant (cr : Nat) (hcr2 : 2 ≤ cr) (hcr8 : cr ≤ 8) (file : GifIO)
    (n : Nat) (lines : List (List Nat)) (_hne : ∀ l ∈ lines, l ≠ []) :
    ∃ r, LZEncoder.put_lines lines (LZEncoder.new file n cr) = some r ∧
      (cr + 1 ≤ r.1.run_bits ∧ r.1.run_bits ≤ 12 ∧ r.1.max_code = 2 ^ r.1.run_bits ∧
        r.1.run_code ≤ 4096) ∧
      ∀ sc ∈ LZEncoder.new_call file n cr ::
          LZEncoder.put_lines_calls lines (LZEncoder.new file n cr),
        cr + 1 ≤ sc.1.run_bits ∧ sc.1.run_bits ≤ 12 ∧ sc.1.max_code = 2 ^ sc.1.run_bits ∧
          sc.1.run_code ≤ 4096 ∧ sc.2 < 2 ^ sc.1.run_bits := by
  obtain ⟨a1, a2, a3, _⟩ := inv_new cr (by omega) (by omega) file n
  obtain ⟨r, e1, e2, e3⟩ := inv_put_lines cr (by omega) hcr8 lines _ a2 (Or.inl a3)
  refine ⟨r, e1, ⟨e2.bits_lo, e2.bits_hi, e2.pow, by have := e2.code_hi; omega⟩, ?_⟩
  intro sc hsc
  have hok : CallOk cr sc := by
    rcases List.mem_cons.1 hsc with rfl | hsc
    · exact call_ok_low cr _ _ a1 (by
        show 2 ^ cr < 2 ^ (cr + 1)
        exact Nat.pow_lt_pow_right (by norm_num) (Nat.lt_succ_self _))
    · exact e3 sc hsc
  exact ⟨hok.1.bits_lo, hok.1.bits_hi, hok.1.pow, by have := hok.1.code_hi; omega, hok.2⟩

theorem code_width_invariant_witness :
    ∃ r, LZEncoder.put_lines [[0, 1], [1, 1]]
        (LZEncoder.new ( GifIO.mk_dev (MemDevice.open_for_write [0, 0, 0])) 4 2) = some r ∧
      (2 + 1 ≤ r.1.run_bits ∧ r.1.run_bits ≤ 12 ∧ r.1.max_code = 2 ^ r.1.run_bits ∧
        r.1.run_code ≤ 4096) ∧
      ∀ sc ∈ LZEncoder.new_call ( GifIO.mk_dev (MemDevice.open_for_write [0, 0, 0])) 4 2 ::
          LZEncoder.put_lines_calls [[0, 1], [1, 1]]
            (LZEncoder.new ( GifIO.mk_dev (MemDevice.open_for_write [0, 0, 0])) 4 2),
        2 + 1 ≤ sc.1.run_bits ∧ sc.1.run_bits ≤ 12 ∧ sc.1.max_code = 2 ^ sc.1.run_bits ∧
          sc.1.run_code ≤ 4096 ∧ sc.2 < 2 ^ sc.1.run_bits :=
  code_width_invariant 2 (by decide) (by decide) _ 4 [[0, 1], [1, 1]] (by decide)

end gif

namespace gif

/-! ## The reset of the dictionary -/

/-- Two hash tables that hold the same entries but for one key answer alike for
every other key. -/
theorem ht_get_other (t t1 : Nat → Nat) (m : List (Nat × Nat)) (key code : Nat)
    (h : HTRep t m) (h1 : HTRep t1 ((key, code) :: m)) (hlen : m.length + 1 < 8192)
    (hc : ∀ e ∈ m, e.2 < 4096) (k : Nat) (hk : k ≠ key) :
    HashTable.get ⟨t1⟩ k = HashTable.get ⟨t⟩ k := by
  by_cases hm : k ∈ m.map Prod.fst
  · obtain ⟨e, he, hek⟩ := List.mem_map.1 hm
    have hmem : (k, e.2) ∈ m := by rw [← hek]; exact he
    rw [ht_get_present t m h k e.2 hmem (hc e he),
      ht_get_present t1 _ h1 k e.2 (List.mem_cons_of_mem _ hmem) (hc e he)]
  · rw [ht_get_absent t m h (by omega) k hm,
      ht_get_absent t1 _ h1 (by simpa using hlen) k (by
        simp only [List.map_cons, List.mem_cons, not_or]
        exact ⟨hk, hm⟩)]

/-- The body of the pixel loop of `encode_line` for a pair that the hash table does
not hold, the code having been written: below 4095 the pair is registered under
`run_code`, at 4095 the clear code goes out and the dictionary starts again. -/
theorem miss_step (cr : Nat) (st : LZEncoder) (code pixel : Nat) (h : st.CodeInv cr)
    (hc : code < st.run_code) (hp : pixel < 256)
    (hmiss : st.ht.get ((code <<< 8) + pixel) = some none)
    (hw : (st.encode code).2 = true) :
    (st.run_code < 4095 →
      ∃ ht1, st.encode_pixel code pixel =
          some ({ (st.encode code).1 with ht := ht1, run_code := st.run_code + 1 },
            pixel, true) ∧
        ht1.get ((code <<< 8) + pixel) = some (some st.run_code) ∧
        ∀ k, k ≠ (code <<< 8) + pixel → ht1.get k = st.ht.get k) ∧
    (st.run_code = 4095 → ((st.encode code).1.encode (2 ^ cr)).2 = true →
      st.encode_pixel code pixel =
        some ({ ((st.encode code).1.encode (2 ^ cr)).1 with
                  run_code := 2 ^ cr + 2, run_bits := cr + 1, max_code := 2 ^ (cr + 1),
                  ht := HashTable.clear }, pixel, true)) := by
  obtain ⟨m, hrep, hlen, hlt⟩ := h.table
  have hhi := h.code_hi
  have hpos := Nat.two_pow_pos cr
  have hm : m.length < 8192 := by omega
  have hkey : (code <<< 8) + pixel < 0xFFFFF := key_lt code pixel (by omega) hp
  have hk : (code <<< 8) + pixel ∉ m.map Prod.fst := by
    intro hk
    obtain ⟨e, he, hek⟩ := List.mem_map.1 hk
    have hmem : ((code <<< 8) + pixel, e.2) ∈ m := by rw [← hek]; exact he
    have hget : st.ht.get ((code <<< 8) + pixel) = some (some e.2) :=
      ht_get_present st.ht.table m hrep _ e.2 hmem (by have := hlt e he; omega)
    rw [hget] at hmiss
    cases hmiss
  obtain ⟨i1, i2, i3, _, _, _⟩ := inv_encode cr st code h
  constructor
  · intro hlt95
    have hnf : ¬ st.run_code ≥ LZ.max_code := by
      show ¬ st.run_code ≥ 4095
      omega
    have hrep2 : HTRep (st.encode code).1.ht.table m := by rw [i3]; exact hrep
    obtain ⟨t1, hins, hrep1⟩ := ht_insert_rep (st.encode code).1.ht.table m hrep2 hm
      ((code <<< 8) + pixel) (st.encode code).1.run_code hk hkey
    have hins2 : (st.encode code).1.ht.insert ((code <<< 8) + pixel)
        st.run_code = some ⟨t1⟩ := by rw [← i2]; exact hins
    refine ⟨⟨t1⟩, ?_, ?_, ?_⟩
    · unfold LZEncoder.encode_pixel
      simp only [hmiss, hw, Bool.not_true, Bool.false_eq_true, if_false, i2, if_neg hnf, hins2]
    · rw [← i2]
      exact ht_get_present t1 _ hrep1 _ _ (List.mem_cons_self _ _) (by rw [i2]; omega)
    · intro k hkk
      exact ht_get_other st.ht.table t1 m _ _ hrep hrep1 (by omega)
        (fun e he => by have := hlt e he; omega) k hkk
  · intro h95 hw2
    have hfull : st.run_code ≥ LZ.max_code := by
      rw [h95]
      exact Nat.le_refl _
    have hw3 : ((st.encode code).1.encode (st.encode code).1.clear_code).2 = true := by
      rw [i1.clear_code]; exact hw2
    unfold LZEncoder.encode_pixel
    simp only [hmiss, hw, Bool.not_true, Bool.false_eq_true, if_false, i2, if_pos hfull, hw3]
    rw [i1.clear_code]
    have j := (inv_encode cr (st.encode code).1 (2 ^ cr) i1).1
    rw [j.eof_code, j.col_res]

/-- C26.  A pixel that does not extend the current match, at an encoder in range
whose sink takes the code: `encode(code)` is called and the match starts again at
the pixel; while `run_code` is below 4095 the pair is registered under `run_code`
and `run_code` grows by one; when `run_code` is 4095, which is `LZ::max_code` and the
most it ever is, the clear code goes out, `run_code`, `run_bits` and `max_code` go
back to `2 ^ cr + 2`, `cr + 1` and `2 ^ (cr + 1)`, and the hash table is cleared. -/
theorem dictionary_reset_at_4095 (cr : Nat) (st : LZEncoder) (code pixel : Nat)
    (h : st.CodeInv cr) (hc : code < st.run_code) (hp : pixel < 256)
    (hmiss : st.ht.get ((code <<< 8) + pixel) = some none)
    (hw : (st.encode code).2 = true) :
    st.run_code ≤ 4095 ∧
    (st.run_code < 4095 →
      ∃ ht1, st.encode_pixel code pixel =
          some ({ (st.encode code).1 with ht := ht1, run_code := st.run_code + 1 },
            pixel, true) ∧
        ht1.get ((code <<< 8) + pixel) = some (some st.run_code) ∧
        ∀ k, k ≠ (code <<< 8) + pixel → ht1.get k = st.ht.get k) ∧
    (st.run_code = 4095 → ((st.encode code).1.encode (2 ^ cr)).2 = true →
      st.encode_pixel code pixel =
        some ({ ((st.encode code).1.encode (2 ^ cr)).1 with
                  run_code := 2 ^ cr + 2, run_bits := cr + 1, max_code := 2 ^ (cr + 1),
                  ht := HashTable.clear }, pixel, true)) :=
  ⟨h.code_hi, miss_step cr st code pixel h hc hp hmiss hw⟩

theorem dictionary_reset_at_4095_witness :
    ∃ ht1, (LZEncoder.new ( GifIO.mk_dev (MemDevice.open_for_write (List.replicate 16 0)))
        4 2).encode_pixel 0 1 =
        some ({ ((LZEncoder.new ( GifIO.mk_dev (MemDevice.open_for_write (List.replicate 16 0)))
            4 2).encode 0).1 with ht := ht1, run_code := 6 + 1 }, 1, true) ∧
      ht1.get ((0 <<< 8) + 1) = some (some 6) :=
  have h := dictionary_reset_at_4095 2
    (LZEncoder.new ( GifIO.mk_dev (MemDevice.open_for_write (List.replicate 16 0))) 4 2) 0 1
    (inv_new 2 (by decide) (by decide) _ 4).2.1 (by decide) (by decide) (by decide) (by decide)
  have h2 := h.2.1 (by decide)
  ⟨h2.choose, h2.choose_spec.1, h2.choose_spec.2.1⟩

theorem write_buf_set_ht (st : LZEncoder) (c : Nat) (h : HashTable) :
    ({ st with ht := h } : LZEncoder).write_buf c =
      ({ (st.write_buf c).1 with ht := h }, (st.write_buf c).2) := by
  unfold LZEncoder.write_buf
  simp only []
  split_ifs <;> rfl

theorem pack_loop_set_ht (h : HashTable) :
    ∀ (n : Nat) (st : LZEncoder) (res : Bool),
      LZEncoder.pack_loop n { st with ht := h } res =
        ({ (LZEncoder.pack_loop n st res).1 with ht := h },
          (LZEncoder.pack_loop n st res).2) := by
  intro n
  induction n with
  | zero => intro st res; rfl
  | succ n ih =>
    intro st res
    rw [LZEncoder.pack_loop, LZEncoder.pack_loop]
    by_cases hc : st.crnt_shift_state ≥ 8
    · have hc2 : ({ st with ht := h } : LZEncoder).crnt_shift_state ≥ 8 := hc
      rw [if_pos hc, if_pos hc2]
      have e := write_buf_set_ht st (st.crnt_shift_dword &&& 0xff) h
      have e2 : ({ st with ht := h } : LZEncoder).write_buf
          (({ st with ht := h } : LZEncoder).crnt_shift_dword &&& 0xff) = _ := e
      simp only [e2]
      exact ih
        { (st.write_buf (st.crnt_shift_dword &&& 0xff)).1 with
            crnt_shift_dword :=
              (st.write_buf (st.crnt_shift_dword &&& 0xff)).1.crnt_shift_dword >>> 8,
            crnt_shift_state :=
              (st.write_buf (st.crnt_shift_dword &&& 0xff)).1.crnt_shift_state - 8 }
        (if !(st.write_buf (st.crnt_shift_dword &&& 0xff)).2 then false else res)
    · have hc2 : ¬ ({ st with ht := h } : LZEncoder).crnt_shift_state ≥ 8 := hc
      rw [if_neg hc, if_neg hc2]

/-- `encode` of a code does not look at the hash table. -/
theorem encode_set_ht (st : LZEncoder) (code : Nat) (h : HashTable)
    (hc : code ≠ LZ.flush_output) :
    ({ st with ht := h } : LZEncoder).encode code =
      ({ (st.encode code).1 with ht := h }, (st.encode code).2) := by
  have hp : ({ st with ht := h } : LZEncoder).encode_pack code =
      ({ (st.encode_pack code).1 with ht := h }, (st.encode_pack code).2) := by
    unfold LZEncoder.encode_pack
    rw [if_neg hc, if_neg hc]
    exact pack_loop_set_ht h _
      { st with crnt_shift_dword := st.crnt_shift_dword ||| (code <<< st.crnt_shift_state),
                crnt_shift_state := st.crnt_shift_state + st.run_bits } true
  rw [encode_eq_pack, encode_eq_pack, hp]
  simp only []
  split_ifs <;> rfl

theorem entries_rep :
    ∃ t1, HTRep t1 entries_to_4095.reverse := by
  have hnd : ((entries_to_4095.reverse ++ []).map Prod.fst).Nodup := by
    rw [List.append_nil, List.map_reverse, List.nodup_reverse]
    have : entries_to_4095.map Prod.fst = List.range 4089 := by
      unfold entries_to_4095
      rw [List.map_map]
      exact List.map_id _
    rw [this]
    exact List.nodup_range _
  obtain ⟨t1, _, hr⟩ := ht_inserts_rep entries_to_4095 HashTable.clear.table [] ht_clear_rep hnd
    (by
      intro e he
      unfold entries_to_4095 at he
      obtain ⟨i, hi, rfl⟩ := List.mem_map.1 he
      have := List.mem_range.1 hi
      show i < 0xFFFFF
      omega)
    (by
      unfold entries_to_4095
      rw [List.length_map, List.length_range]
      decide)
  rw [List.append_nil] at hr
  exact ⟨t1, hr⟩

/-- Counterexample of C26 as stated: an encoder with `run_code` at 4095, below the
4096 codes of 12 bits and below `max_code`, which is 4096: a pixel that does not
extend the match makes it write the clear code and go back to `run_code` 6, the
width 3 and `max_code` 8.  And there is such an encoder in range, its hash table
holding the 4089 entries of the codes 6 to 4094, that does the same. -/
theorem reset_below_4096 :
    encoder_at_4095.run_code = 4095 ∧ encoder_at_4095.max_code = 1 <<< 12 ∧
      encoder_at_4095.run_bits = 12 ∧
      (encoder_at_4095.encode_pixel 0 1).map
        (fun r => (r.1.run_code, r.1.run_bits, r.1.max_code, r.2)) =
        some (6, 3, 8, 1, true) ∧
      ∃ st : LZEncoder, st.CodeInv 2 ∧ st.run_code = 4095 ∧ st.max_code = 4096 ∧
        ∃ r, st.encode_pixel 100 0 = some (r, 0, true) ∧ r.run_code = 6 ∧ r.run_bits = 3 ∧
          r.max_code = 8 := by
  refine ⟨rfl, rfl, rfl, by decide, ?_⟩
  obtain ⟨t1, hr⟩ := entries_rep
  have hlen : entries_to_4095.reverse.length = 4089 := by
    unfold entries_to_4095
    rw [List.length_reverse, List.length_map, List.length_range]
  have hinv : ({ encoder_at_4095 with ht := ⟨t1⟩ } : LZEncoder).CodeInv 2 :=
    ⟨rfl, rfl, rfl, by show 2 + 1 ≤ 12; decide, by show 12 ≤ 12; decide, rfl,
      by show 2 ^ 2 + 2 ≤ 4095; decide, by show 4095 ≤ 4095; decide,
      by show 4095 ≤ 4096; decide,
      ⟨entries_to_4095.reverse, hr, by rw [hlen]; rfl, by
        intro e he
        rw [List.mem_reverse] at he
        unfold entries_to_4095 at he
        obtain ⟨i, hi, rfl⟩ := List.mem_map.1 he
        have := List.mem_range.1 hi
        show 6 + i < 4095
        omega⟩⟩
  have hmiss : ({ encoder_at_4095 with ht := ⟨t1⟩ } : LZEncoder).ht.get ((100 <<< 8) + 0) =
      some none := by
    apply ht_get_absent t1 _ hr (by rw [hlen]; decide)
    rw [List.map_reverse, List.mem_reverse]
    unfold entries_to_4095
    rw [List.map_map]
    intro hk
    obtain ⟨i, hi, hik⟩ := List.mem_map.1 hk
    have := List.mem_range.1 hi
    have hik2 : i = (100 <<< 8) + 0 := hik
    have : (100 <<< 8) + 0 = 25600 := by decide
    omega
  have e1 := encode_set_ht encoder_at_4095 100 ⟨t1⟩ (by decide)
  have e2 := encode_set_ht (encoder_at_4095.encode 100).1 (2 ^ 2) ⟨t1⟩ (by decide)
  have d1 : (encoder_at_4095.encode 100).2 = true := by decide
  have d2 : ((encoder_at_4095.encode 100).1.encode (2 ^ 2)).2 = true := by decide
  have hw : (({ encoder_at_4095 with ht := ⟨t1⟩ } : LZEncoder).encode 100).2 = true :=
    (congrArg Prod.snd e1).trans d1
  have hw2 : ((({ encoder_at_4095 with ht := ⟨t1⟩ } : LZEncoder).encode 100).1.encode
      (2 ^ 2)).2 = true :=
    ((congrArg (fun r : LZEncoder × Bool => (r.1.encode (2 ^ 2)).2) e1).trans
      (congrArg Prod.snd e2)).trans d2
  have hrc : ({ encoder_at_4095 with ht := ⟨t1⟩ } : LZEncoder).run_code = 4095 := rfl
  have hmc : ({ encoder_at_4095 with ht := ⟨t1⟩ } : LZEncoder).max_code = 4096 := rfl
  generalize ({ encoder_at_4095 with ht := ⟨t1⟩ } : LZEncoder) = S at hinv hmiss hw hw2 hrc hmc
  have hstep := (miss_step 2 S 100 0 hinv (by rw [hrc]; decide) (by decide) hmiss hw).2 hrc hw2
  exact ⟨S, hinv, hrc, hmc, _, hstep, rfl, rfl, rfl⟩

end gif

namespace gif

/-! ## The first code of the stream -/

/-- One byte moves from the shift register to the staging block. -/
theorem head_byte (cr : Nat) (out : List Nat) (p : Packer) (h : HeadOk cr out p) :
    HeadOk cr (out ++ (p.put (p.dword &&& 0xff)).1)
      { (p.put (p.dword &&& 0xff)).2 with dword := p.dword >>> 8, nbits := p.nbits - 8 } := by
  obtain ⟨data, hb, hn, hv⟩ := h
  have hb1 := pkb_put out data p (p.dword &&& 0xff) hb
  refine ⟨data ++ [(p.dword &&& 0xff) % 256], hb1, ?_, ?_⟩
  · simp only [List.length_append, List.length_singleton]
    omega
  · rw [← hv]
    congr 1
    rw [le_val_append]
    have e1 : 2 ^ (8 * (data ++ [(p.dword &&& 0xff) % 256]).length) =
        2 ^ (8 * data.length) * 256 := by
      simp only [List.length_append, List.length_singleton, Nat.mul_add, Nat.pow_add]
    have e2 : (2 : Nat) ^ 8 = 256 := by norm_num
    have e3 : p.dword = 256 * (p.dword / 256) + p.dword % 256 :=
      (Nat.div_add_mod _ _).symm
    rw [e1]
    simp only [le_val, and_ff_mod, Nat.mod_mod, Nat.shiftRight_eq_div_pow, e2]
    conv_rhs => rw [e3]
    ring

theorem head_shift (cr : Nat) :
    ∀ (fuel : Nat) (p : Packer) (out : List Nat), HeadOk cr out p →
      HeadOk cr (out ++ (Packer.shift fuel p).1) (Packer.shift fuel p).2 := by
  intro fuel
  induction fuel with
  | zero =>
    intro p out h
    simpa [Packer.shift] using h
  | succ fuel ih =>
    intro p out h
    by_cases h8 : p.nbits ≥ 8
    · have hsh : Packer.shift (fuel + 1) p =
          ((p.put (p.dword &&& 0xff)).1 ++ (Packer.shift fuel
            { (p.put (p.dword &&& 0xff)).2 with dword := p.dword >>> 8,
                                                 nbits := p.nbits - 8 }).1,
            (Packer.shift fuel
              { (p.put (p.dword &&& 0xff)).2 with dword := p.dword >>> 8,
                                                   nbits := p.nbits - 8 }).2) := by
        simp only [Packer.shift, if_pos h8]
      rw [hsh, ← List.append_assoc]
      exact ih _ _ (head_byte cr out p h)
    · have hsh : Packer.shift (fuel + 1) p = ([], p) := by
        simp only [Packer.shift, if_neg h8]
      rw [hsh]
      simpa using h

/-- A code that joins the shift register leaves the bits below it as they are. -/
theorem head_or (cr : Nat) (out : List Nat) (p : Packer) (c w : Nat) (h : HeadOk cr out p) :
    HeadOk cr out { p with dword := p.dword ||| (c <<< p.nbits), nbits := p.nbits + w } := by
  obtain ⟨data, hb, hn, hv⟩ := h
  refine ⟨data, hb, by show cr + 1 ≤ 8 * data.length + (p.nbits + w); omega, ?_⟩
  show (le_val data + 2 ^ (8 * data.length) * (p.dword ||| (c <<< p.nbits))) % 2 ^ (cr + 1) = _
  rw [← hv]
  have h1 : (p.dword ||| (c <<< p.nbits)) % 2 ^ p.nbits = p.dword % 2 ^ p.nbits := by
    apply Nat.eq_of_testBit_eq
    intro i
    simp only [Nat.testBit_mod_two_pow, Nat.testBit_or, Nat.testBit_shiftLeft]
    by_cases hi : i < p.nbits
    · have hge : ¬ i ≥ p.nbits := by omega
      simp only [hi, hge, decide_True, decide_False, Bool.true_and, Bool.false_and,
        Bool.or_false]
    · simp only [hi, decide_False, Bool.false_and]
  have h2 : 2 ^ (8 * data.length) * (p.dword ||| (c <<< p.nbits)) ≡
      2 ^ (8 * data.length) * p.dword [MOD 2 ^ (8 * data.length) * 2 ^ p.nbits] :=
    Nat.ModEq.mul_left' _ h1
  have h3 : 2 ^ (cr + 1) ∣ 2 ^ (8 * data.length) * 2 ^ p.nbits := by
    rw [← Nat.pow_add]
    exact Nat.pow_dvd_pow 2 hn
  exact Nat.ModEq.add_left _ (Nat.ModEq.of_dvd h3 h2)

theorem head_emit (cr : Nat) (out : List Nat) (p : Packer) (c w : Nat) (h : HeadOk cr out p) :
    HeadOk cr (out ++ (p.emit c w).1) (p.emit c w).2 :=
  head_shift cr _ _ out (head_or cr out p c w h)

theorem aenc_encode_pk (cr : Nat) (a : AEnc) (code : Nat) :
    (a.encode cr code).1 = (a.pk.emit code a.run_bits).1 ∧
      (a.encode cr code).2.pk = (a.pk.emit code a.run_bits).2 ∧
      (a.encode cr code).2.run_bits ≥ a.run_bits := by
  refine ⟨rfl, ?_, ?_⟩
  · unfold AEnc.encode; simp only []; split <;> rfl
  · unfold AEnc.encode; simp only []
    split
    · show a.run_bits + 1 ≥ a.run_bits
      omega
    · exact Nat.le_refl _

theorem head_encode (cr : Nat) (out : List Nat) (a : AEnc) (code : Nat)
    (h : HeadOk cr out a.pk) :
    HeadOk cr (out ++ (a.encode cr code).1) (a.encode cr code).2.pk := by
  obtain ⟨e1, e2, _⟩ := aenc_encode_pk cr a code
  rw [e1, e2]
  exact head_emit cr out a.pk code a.run_bits h

theorem head_pixel (cr : Nat) (out : List Nat) (a : AEnc) (code x : Nat)
    (h : HeadOk cr out a.pk) :
    HeadOk cr (out ++ (a.pixel cr code x).1) (a.pixel cr code x).2.1.pk := by
  unfold AEnc.pixel
  cases hlk : dlookup cr a.dict code x with
  | some c => simpa using h
  | none =>
    simp only []
    have h1 := head_encode cr out a code h
    split
    · have h2 := head_encode cr _ (a.encode cr code).2 (2 ^ cr) h1
      rw [List.append_assoc] at h2
      exact h2
    · exact h1

theorem head_loop (cr : Nat) :
    ∀ (line : List Nat) (out : List Nat) (a : AEnc) (code : Nat), HeadOk cr out a.pk →
      HeadOk cr (out ++ (AEnc.loop cr line a code).1) (AEnc.loop cr line a code).2.1.pk := by
  intro line
  induction line with
  | nil =>
    intro out a code h
    simpa [AEnc.loop] using h
  | cons x rest ih =>
    intro out a code h
    have hl : AEnc.loop cr (x :: rest) a code =
        ((a.pixel cr code x).1 ++
          (AEnc.loop cr rest (a.pixel cr code x).2.1 (a.pixel cr code x).2.2).1,
          (AEnc.loop cr rest (a.pixel cr code x).2.1 (a.pixel cr code x).2.2).2) := rfl
    rw [hl, ← List.append_assoc]
    exact ih _ _ _ (head_pixel cr out a code x h)

/-- The state after the constructor: the clear code is in the stream. -/
theorem head_init (cr n : Nat) : HeadOk cr (AEnc.init cr n).1 (AEnc.init cr n).2.pk := by
  have h0 : HeadOk cr []
      ({ dword := 0 ||| (2 ^ cr <<< 0), nbits := 0 + (cr + 1), stg := [] } : Packer) := by
    refine ⟨[], ⟨[], by simp, rfl, rfl, by simp, by simp⟩, by simp, ?_⟩
    show (le_val [] + 2 ^ (8 * 0) * (0 ||| (2 ^ cr <<< 0))) % 2 ^ (cr + 1) = 2 ^ cr
    simp only [le_val, Nat.mul_zero, Nat.pow_zero, Nat.one_mul, Nat.zero_add, Nat.zero_or,
      Nat.shiftLeft_zero]
    exact Nat.mod_eq_of_lt (Nat.pow_lt_pow_right (by norm_num) (Nat.lt_succ_self _))
  have h1 := head_shift cr (0 + (cr + 1))
    { dword := 0 ||| (2 ^ cr <<< 0), nbits := 0 + (cr + 1), stg := [] } [] h0
  obtain ⟨e1, e2, _⟩ := aenc_encode_pk cr
    { dict := [], run_bits := cr + 1, max_code := 2 ^ (cr + 1),
      crnt_code := LZ.first_code, pix_count := n,
      pk := { dword := 0, nbits := 0, stg := [] } } (2 ^ cr)
  unfold AEnc.init
  rw [e1, e2]
  simpa [Packer.emit] using h1

end gif

namespace gif

/-! ## The stream up to the end of the last line -/

/-- The state after the pixel loop of `encode_line` for a line that is not empty. -/
theorem enctr_after_loop (cr : Nat) (hcr2 : 2 ≤ cr) (hcr : cr ≤ 8) (out : List Nat) (a : AEnc)
    (px line : List Nat) (hne : line ≠ []) (hx : ∀ x ∈ line, x < 2 ^ cr)
    (h : LineTr cr out a px) :
    EncTr cr
      (out ++ (AEnc.loop cr (LZEncoder.line_start a.crnt_code line).2 a
        (LZEncoder.line_start a.crnt_code line).1).1)
      (AEnc.loop cr (LZEncoder.line_start a.crnt_code line).2 a
        (LZEncoder.line_start a.crnt_code line).1).2.1
      (AEnc.loop cr (LZEncoder.line_start a.crnt_code line).2 a
        (LZEncoder.line_start a.crnt_code line).1).2.2 (px ++ line) := by
  have hcr1 : 1 ≤ cr := by omega
  unfold LineTr at h
  by_cases hc : a.crnt_code = LZ.first_code
  · rw [if_pos hc] at h
    cases line with
    | nil => exact absurd rfl hne
    | cons x rest =>
      have hs : LZEncoder.line_start a.crnt_code (x :: rest) = (x, rest) := by
        unfold LZEncoder.line_start; rw [if_pos hc]; rfl
      rw [hs, h.1]
      exact lz_loop cr hcr1 hcr rest out a x [x]
        (fun y hy => hx y (List.mem_cons_of_mem _ hy)) (h.2 x (hx x (List.mem_cons_self _ _)))
  · rw [if_neg hc] at h
    have hs : LZEncoder.line_start a.crnt_code line = (a.crnt_code, line) := by
      unfold LZEncoder.line_start; rw [if_neg hc]
    rw [hs]
    exact lz_loop cr hcr1 hcr line out a _ px hx h

/-- `encode_line` for a line that is not empty, with the first code of the stream
kept in view. -/
theorem fin_encode_line (cr : Nat) (hcr2 : 2 ≤ cr) (hcr : cr ≤ 8) (out : List Nat) (a : AEnc)
    (px line : List Nat) (hne : line ≠ []) (hx : ∀ x ∈ line, x < 2 ^ cr)
    (h : LineTr cr out a px) (hh : HeadOk cr out a.pk) :
    (a.pix_count = 0 → FinStream cr (out ++ (a.encode_line cr line).1) (px ++ line)) ∧
      (a.pix_count ≠ 0 →
        LineTr cr (out ++ (a.encode_line cr line).1) (a.encode_line cr line).2 (px ++ line) ∧
        HeadOk cr (out ++ (a.encode_line cr line).1) (a.encode_line cr line).2.pk ∧
        (a.encode_line cr line).2.pix_count = a.pix_count) := by
  have hloop := enctr_after_loop cr hcr2 hcr out a px line hne hx h
  have hhead := head_loop cr (LZEncoder.line_start a.crnt_code line).2 out a
    (LZEncoder.line_start a.crnt_code line).1 hh
  have hpix := (aenc_loop_pix cr (LZEncoder.line_start a.crnt_code line).2 a
    (LZEncoder.line_start a.crnt_code line).1).1
  obtain ⟨_, hold⟩ := lz_encode_line cr hcr2 hcr out a px line hne hx h
  have hel : a.encode_line cr line =
      ((AEnc.loop cr (LZEncoder.line_start a.crnt_code line).2 a
          (LZEncoder.line_start a.crnt_code line).1).1 ++
        (AEnc.line_end cr
          { (AEnc.loop cr (LZEncoder.line_start a.crnt_code line).2 a
              (LZEncoder.line_start a.crnt_code line).1).2.1 with
            crnt_code := (AEnc.loop cr (LZEncoder.line_start a.crnt_code line).2 a
              (LZEncoder.line_start a.crnt_code line).1).2.2 }).1,
        (AEnc.line_end cr
          { (AEnc.loop cr (LZEncoder.line_start a.crnt_code line).2 a
              (LZEncoder.line_start a.crnt_code line).1).2.1 with
            crnt_code := (AEnc.loop cr (LZEncoder.line_start a.crnt_code line).2 a
              (LZEncoder.line_start a.crnt_code line).1).2.2 }).2) := rfl
  constructor
  · intro hz
    rw [hel]
    generalize AEnc.loop cr (LZEncoder.line_start a.crnt_code line).2 a
      (LZEncoder.line_start a.crnt_code line).1 = r at hloop hpix hhead
    have hloop2 : EncTr cr (out ++ r.1) { r.2.1 with crnt_code := r.2.2 } r.2.2 (px ++ line) :=
      enctr_congr cr _ r.2.1 _ _ _ rfl rfl rfl rfl hloop
    have hz2 : ({ r.2.1 with crnt_code := r.2.2 } : AEnc).pix_count = 0 := by
      show r.2.1.pix_count = 0
      rw [hpix]; exact hz
    unfold AEnc.line_end
    rw [if_pos hz2, ← List.append_assoc]
    exact ⟨out ++ r.1, { r.2.1 with crnt_code := r.2.2 }, r.2.2, rfl, hloop2, hhead⟩
  · intro hz
    obtain ⟨o1, o2⟩ := hold hz
    refine ⟨o1, ?_, o2⟩
    rw [hel]
    generalize AEnc.loop cr (LZEncoder.line_start a.crnt_code line).2 a
      (LZEncoder.line_start a.crnt_code line).1 = r at hpix hhead
    have hz2 : ¬ ({ r.2.1 with crnt_code := r.2.2 } : AEnc).pix_count = 0 := by
      show ¬ r.2.1.pix_count = 0
      rw [hpix]; exact hz
    unfold AEnc.line_end
    rw [if_neg hz2, List.append_nil]
    exact hhead

theorem fin_put_line (cr : Nat) (hcr2 : 2 ≤ cr) (hcr : cr ≤ 8) (out : List Nat) (a : AEnc)
    (px line : List Nat) (hne : line ≠ []) (h : LineTr cr out a px) (hh : HeadOk cr out a.pk) :
    (a.pix_count - line.length = 0 →
      FinStream cr (out ++ (a.put_line cr line).1)
        (px ++ line.map (fun b => b &&& LZEncoder.code_mask.getD cr 0))) ∧
      (a.pix_count - line.length ≠ 0 →
        LineTr cr (out ++ (a.put_line cr line).1) (a.put_line cr line).2.1
          (px ++ line.map (fun b => b &&& LZEncoder.code_mask.getD cr 0)) ∧
        HeadOk cr (out ++ (a.put_line cr line).1) (a.put_line cr line).2.1.pk ∧
        (a.put_line cr line).2.1.pix_count = a.pix_count - line.length) := by
  have hm : ∀ x ∈ line.map (fun b => b &&& LZEncoder.code_mask.getD cr 0), x < 2 ^ cr := by
    intro x hx
    rw [List.mem_map] at hx
    obtain ⟨b, _, rfl⟩ := hx
    exact mask_lt cr hcr b
  have hne2 : line.map (fun b => b &&& LZEncoder.code_mask.getD cr 0) ≠ [] := by
    intro hn; exact hne (List.map_eq_nil_iff.mp hn)
  exact fin_encode_line cr hcr2 hcr out { a with pix_count := a.pix_count - line.length } px _
    hne2 hm (linetr_congr cr out a _ px rfl rfl rfl rfl rfl h) hh

theorem fin_put_lines (cr : Nat) (hcr2 : 2 ≤ cr) (hcr : cr ≤ 8) :
    ∀ (lines : List (List Nat)) (out : List Nat) (a : AEnc) (px : List Nat),
      (∀ l ∈ lines, l ≠ []) → lines ≠ [] → (lines.map List.length).sum = a.pix_count →
      LineTr cr out a px → HeadOk cr out a.pk →
      FinStream cr (out ++ (AEnc.put_lines cr lines a).1)
        (px ++ lines.flatten.map (fun b => b &&& LZEncoder.code_mask.getD cr 0)) := by
  intro lines
  induction lines with
  | nil => intro out a px _ h; exact absurd rfl h
  | cons l rest ih =>
    intro out a px hne _ hsum h hh
    have hl : l ≠ [] := hne l (List.mem_cons_self _ _)
    obtain ⟨hz, hnz⟩ := fin_put_line cr hcr2 hcr out a px l hl h hh
    simp only [List.map_cons, List.sum_cons] at hsum
    rw [aenc_put_lines_cons, List.flatten_cons, List.map_append]
    by_cases hr : rest = []
    · subst hr
      simp only [List.map_nil, List.sum_nil, Nat.add_zero] at hsum
      have := hz (by omega)
      simpa [AEnc.put_lines] using this
    · have hp := sum_pos_of_ne_nil rest (fun m hm => hne m (List.mem_cons_of_mem _ hm)) hr
      obtain ⟨h1, h2, h3⟩ := hnz (by omega)
      have := ih (out ++ (a.put_line cr l).1) (a.put_line cr l).2.1 _
        (fun m hm => hne m (List.mem_cons_of_mem _ hm)) hr (by rw [h3]; omega) h1 h2
      simpa [List.append_assoc] using this

/-- The bytes of an encoder session with pixel count `n` whose lines are not empty
and hold `n` pixels in all end with the bytes of the end of the last line. -/
theorem fin_session (cr n : Nat) (hcr2 : 2 ≤ cr) (hcr : cr ≤ 8) (lines : List (List Nat))
    (hne : ∀ l ∈ lines, l ≠ []) (hl : lines ≠ []) (hsum : (lines.map List.length).sum = n) :
    FinStream cr ((AEnc.init cr n).1 ++ (AEnc.put_lines cr lines (AEnc.init cr n).2).1)
      (lines.flatten.map (fun b => b &&& LZEncoder.code_mask.getD cr 0)) := by
  have hi := lz_init cr n hcr2 hcr
  have hp := (aenc_init_props cr n (by omega)).2.2
  have := fin_put_lines cr hcr2 hcr lines _ _ [] hne hl (by rw [hp]; exact hsum) hi.1
    (head_init cr n)
  simpa using this

end gif

namespace gif

/-! ## The end of the stream -/

/-- Sub-blocks of 255 bytes are read off their bytes in one way. -/
theorem frames_inj :
    ∀ (f1 f2 : List (List Nat)), (∀ b ∈ f1, b.length = 255) → (∀ b ∈ f2, b.length = 255) →
      frames f1 = frames f2 → f1 = f2 := by
  intro f1
  induction f1 with
  | nil =>
    intro f2 _ _ h
    cases f2 with
    | nil => rfl
    | cons b r =>
      rw [frames_nil, frames_cons] at h
      cases h
  | cons b r ih =>
    intro f2 h1 h2 h
    cases f2 with
    | nil =>
      rw [frames_nil, frames_cons] at h
      cases h
    | cons b2 r2 =>
      rw [frames_cons, frames_cons] at h
      have hb : b.length = 255 := h1 b (List.mem_cons_self _ _)
      have hb2 : b2.length = 255 := h2 b2 (List.mem_cons_self _ _)
      have h3 : b ++ frames r = b2 ++ frames r2 := by
        have := List.tail_eq_of_cons_eq h
        exact this
      obtain ⟨e1, e2⟩ := List.append_inj h3 (by rw [hb, hb2])
      rw [e1, ih r2 (fun x hx => h1 x (List.mem_cons_of_mem _ hx))
        (fun x hx => h2 x (List.mem_cons_of_mem _ hx)) e2]

/-- The data bytes that sub-blocks handed to the session and a staging block hold
are given by the bytes. -/
theorem pkb_unique (out stg d1 d2 : List Nat) (h1 : PkB out stg d1) (h2 : PkB out stg d2) :
    d1 = d2 := by
  obtain ⟨f1, a1, a2, a3, _, _⟩ := h1
  obtain ⟨f2, b1, b2, b3, _, _⟩ := h2
  have := frames_inj f1 f2 a1 b1 (by rw [← a2, ← b2])
  rw [a3, b3, this]

/-- A sequence of codes that the decoder logic reads holds no end code. -/
theorem adec_run_no_eof (cr : Nat) :
    ∀ (cw : List (Nat × Nat)) (d d1 : ADec) (out : List Nat),
      ADec.run cr d cw = some (d1, out) → ∀ e ∈ cw, e.1 ≠ 2 ^ cr + 1 := by
  intro cw
  induction cw with
  | nil => intro d d1 out _ e he; simp at he
  | cons c rest ih =>
    intro d d1 out h e he
    obtain ⟨c0, w0⟩ := c
    obtain ⟨_, dd, o, out2, hstep, hrun2, _⟩ := adec_run_cons_some cr d c0 w0 rest d1 out h
    rcases List.mem_cons.1 he with rfl | he
    · exact (adec_step_cases cr d c0 dd o hstep).1
    · exact ih dd d1 out2 hrun2 e he

/-- `encode(flush_output)`: what went to the session is a sequence of sub-blocks of
255 bytes, one more sub-block of 1 to 255 bytes when the staging block holds bytes,
and the zero length block; the bytes in the blocks hold the codes. -/
theorem pk_flush_blocks (out : List Nat) (p : Packer) (cw : List (Nat × Nat))
    (h : PkRep out p cw) (hn : p.nbits < 8) :
    ∃ (full : List (List Nat)) (last : List Nat), (∀ b ∈ full, b.length = 255) ∧
      last.length ≤ 255 ∧
      (∀ x ∈ (full ++ (if last.length ≠ 0 then [last] else [])).flatten, x < 256) ∧
      out ++ p.flush.1 = frames (full ++ (if last.length ≠ 0 then [last] else [])) ++ [0] ∧
      le_val (full ++ (if last.length ≠ 0 then [last] else [])).flatten = pack cw ∧
      bitlen cw ≤ 8 * (full ++ (if last.length ≠ 0 then [last] else [])).flatten.length := by
  obtain ⟨data, hb, hv, hl, hd⟩ := h
  have key : ∃ data1, PkB (out ++ (Packer.drain p.nbits p).1) (Packer.drain p.nbits p).2.stg
      data1 ∧ le_val data1 = pack cw ∧ bitlen cw ≤ 8 * data1.length := by
    by_cases h0 : p.nbits = 0
    · rw [pk_drain_zero _ _ h0]
      rw [h0] at hd hl
      have hz : p.dword = 0 := by simpa using hd
      rw [hz] at hv
      exact ⟨data, by simpa using hb, by simpa using hv, by omega⟩
    · obtain ⟨n, hn1⟩ : ∃ n, p.nbits = n + 1 := ⟨p.nbits - 1, by omega⟩
      have hdr : Packer.drain p.nbits p =
          ((p.put (p.dword &&& 0xff)).1,
            { (p.put (p.dword &&& 0xff)).2 with dword := p.dword >>> 8,
                                                 nbits := p.nbits - 8 }) := by
        have hpos : p.nbits > 0 := by omega
        have hz : p.nbits - 8 = 0 := by omega
        rw [hn1]
        simp only [Packer.drain]
        rw [← hn1, if_pos hpos]
        rw [pk_drain_zero n _ hz]
        simp only [List.append_nil]
      rw [hdr]
      have hlt : p.dword < 256 := by
        have : 2 ^ p.nbits ≤ 2 ^ 8 := Nat.pow_le_pow_right (by norm_num) (by omega)
        omega
      refine ⟨data ++ [(p.dword &&& 0xff) % 256], pkb_put out data p _ hb, ?_, ?_⟩
      · rw [le_val_append, ← hv, and_ff_mod, Nat.mod_mod, Nat.mod_eq_of_lt hlt]
        simp [le_val]
      · rw [← hl]; simp only [List.length_append, List.length_singleton]; omega
  obtain ⟨data1, ⟨full, hf, ho, hd1, hl1, hx⟩, hv1, hb1⟩ := key
  refine ⟨full, (Packer.drain p.nbits p).2.stg, hf, hl1, ?_, ?_, ?_, ?_⟩
  · rw [pk_flush_flatten full _ data1 hd1]
    exact hx
  · unfold Packer.flush Packer.close
    simp only [← List.append_assoc, ho, frames_append]
    by_cases hs : (Packer.drain p.nbits p).2.stg.length ≠ 0
    · simp only [if_pos hs, frames_cons, frames_nil, List.append_nil, List.append_assoc,
        List.cons_append]
    · simp only [if_neg hs, frames_nil, List.append_nil, List.nil_append]
  · rw [← hv1, pk_flush_flatten full _ data1 hd1]
  · rw [pk_flush_flatten full _ data1 hd1]; exact hb1

end gif

namespace gif

/-- The bytes of the end of the last line after a state in step with the pixels: the
whole is a sequence of sub-blocks of 255 bytes, at most one shorter sub-block and
the zero length block, and the bytes in the blocks hold the codes sent before, the
running code and the end code; no code before the last is the end code, and the
first bits are the clear code at the width `cr + 1`. -/
theorem fin_stream_blocks (cr : Nat) (hcr : cr ≤ 8) (bytes px : List Nat)
    (h : FinStream cr bytes px) :
    ∃ (full : List (List Nat)) (last : List Nat) (cw : List (Nat × Nat)) (code w1 w2 : Nat),
      bytes = frames (full ++ (if last.length ≠ 0 then [last] else [])) ++ [0] ∧
      (∀ b ∈ full, b.length = 255) ∧ last.length ≤ 255 ∧
      (∀ x ∈ (full ++ (if last.length ≠ 0 then [last] else [])).flatten, x < 256) ∧
      le_val (full ++ (if last.length ≠ 0 then [last] else [])).flatten =
        pack (cw ++ [(code, w1), (2 ^ cr + 1, w2)]) ∧
      bitlen (cw ++ [(code, w1), (2 ^ cr + 1, w2)]) ≤
        8 * (full ++ (if last.length ≠ 0 then [last] else [])).flatten.length ∧
      Fits (cw ++ [(code, w1), (2 ^ cr + 1, w2)]) ∧
      (∀ e ∈ cw, e.1 ≠ 2 ^ cr + 1) ∧ code ≠ 2 ^ cr + 1 ∧
      le_val (full ++ (if last.length ≠ 0 then [last] else [])).flatten % 2 ^ (cr + 1) =
        2 ^ cr := by
  obtain ⟨out, a, code, hbytes, htr, hhead⟩ := h
  obtain ⟨cw, d, dout, hpk, hnb, hfits, hpos, hrun, hsync, hpx⟩ := htr
  -- the first code
  have hfirst : pack cw % 2 ^ (cr + 1) = 2 ^ cr ∧ cr + 1 ≤ bitlen cw := by
    obtain ⟨data1, k1, k2, k3⟩ := hhead
    obtain ⟨data2, m1, m2, m3, _⟩ := hpk
    have hd := pkb_unique out a.pk.stg data1 data2 k1 m1
    rw [hd] at k2 k3
    rw [← m2, ← m3]
    exact ⟨k3, k2⟩
  obtain ⟨d1, hs1, ht1, hl1, hr1, hb1, hm1, hpow1, hbits1, hpos1, hfit1, hclt, hc94⟩ :=
    lz_emit cr hcr a code d hsync
  obtain ⟨e1, e2, e3, _, _⟩ := aenc_encode_props cr a code (by omega)
  obtain ⟨hpk1, hnb1⟩ := pk_emit out a.pk cw code a.run_bits hpk hclt
  have hfits1 : Fits (cw ++ [(code, a.run_bits)]) :=
    fits_append _ _ hfits (by intro e he; rw [List.mem_singleton.mp he]; exact hclt)
  have h256 := two_pow_le_256 cr hcr
  obtain ⟨f1, f2, _, _, _⟩ := aenc_encode_props cr (a.encode cr code).2 (2 ^ cr + 1) (by omega)
  have heof : 2 ^ cr + 1 < 2 ^ (a.encode cr code).2.run_bits := by rw [← hpow1]; omega
  rw [← e2] at hpk1
  obtain ⟨hpk2, hnb2⟩ := pk_emit _ _ _ (2 ^ cr + 1) (a.encode cr code).2.run_bits hpk1 heof
  rw [← f2] at hpk2 hnb2
  obtain ⟨full, last, g1, g2, g3, g4, g5, g6⟩ := pk_flush_blocks _ _ _ hpk2 hnb2
  have hfin : a.finish cr code =
      ((a.encode cr code).1 ++ ((a.encode cr code).2.encode cr (2 ^ cr + 1)).1 ++
        ((a.encode cr code).2.encode cr (2 ^ cr + 1)).2.pk.flush.1,
        { ((a.encode cr code).2.encode cr (2 ^ cr + 1)).2 with
          pk := ((a.encode cr code).2.encode cr (2 ^ cr + 1)).2.pk.flush.2 }) := rfl
  have hcw : cw ++ [(code, a.run_bits)] ++ [(2 ^ cr + 1, (a.encode cr code).2.run_bits)] =
      cw ++ [(code, a.run_bits), (2 ^ cr + 1, (a.encode cr code).2.run_bits)] := by
    simp only [List.append_assoc, List.singleton_append]
  rw [hcw] at g5 g6
  refine ⟨full, last, cw, code, a.run_bits, (a.encode cr code).2.run_bits, ?_, g1, g2, g3, g5,
    g6, ?_, adec_run_no_eof cr cw _ _ _ hrun, ?_, ?_⟩
  · rw [hbytes, hfin, ← g4, f1, e1]
    simp only [List.append_assoc]
  · rw [← hcw]
    exact fits_append _ _ hfits1 (by intro e he; rw [List.mem_singleton.mp he]; exact heof)
  · rcases hsync.vcode with hv | hv <;> omega
  · rw [g5, pack_append]
    have hdvd : 2 ^ (cr + 1) ∣ 2 ^ bitlen cw := Nat.pow_dvd_pow 2 hfirst.2
    obtain ⟨k, hk⟩ := hdvd
    rw [hk, Nat.mul_assoc, Nat.add_mul_mod_self_left]
    exact hfirst.1

/-- The bytes of an encoder session with pixel count `n` whose lines are not empty
and hold `n` pixels in all. -/
theorem session_blocks (cr n : Nat) (hcr2 : 2 ≤ cr) (hcr : cr ≤ 8) (lines : List (List Nat))
    (hne : ∀ l ∈ lines, l ≠ []) (hl : lines ≠ []) (hsum : (lines.map List.length).sum = n) :
    ∃ (full : List (List Nat)) (last : List Nat) (cw : List (Nat × Nat)) (code w1 w2 : Nat),
      (AEnc.init cr n).1 ++ (AEnc.put_lines cr lines (AEnc.init cr n).2).1 =
        frames (full ++ (if last.length ≠ 0 then [last] else [])) ++ [0] ∧
      (∀ b ∈ full, b.length = 255) ∧ last.length ≤ 255 ∧
      (∀ x ∈ (full ++ (if last.length ≠ 0 then [last] else [])).flatten, x < 256) ∧
      le_val (full ++ (if last.length ≠ 0 then [last] else [])).flatten =
        pack (cw ++ [(code, w1), (2 ^ cr + 1, w2)]) ∧
      bitlen (cw ++ [(code, w1), (2 ^ cr + 1, w2)]) ≤
        8 * (full ++ (if last.length ≠ 0 then [last] else [])).flatten.length ∧
      Fits (cw ++ [(code, w1), (2 ^ cr + 1, w2)]) ∧
      (∀ e ∈ cw, e.1 ≠ 2 ^ cr + 1) ∧ code ≠ 2 ^ cr + 1 ∧
      le_val (full ++ (if last.length ≠ 0 then [last] else [])).flatten % 2 ^ (cr + 1) =
        2 ^ cr :=
  fin_stream_blocks cr hcr _ _ (fin_session cr n hcr2 hcr lines hne hl hsum)

end gif

namespace gif

/-! ## Framing of the encoder output -/

/-- `write_buf(flush_output)` with an empty staging block writes the zero byte. -/
theorem write_flush_empty (s : LZEncoder) (h : s.buf 0 = 0) :
    (s.write_buf LZ.flush_output).2 = (s.f.write_bytes [0]).2 ∧
      (s.write_buf LZ.flush_output).1.f.d = (s.f.write_bytes [0]).1.d := by
  have hone : arr_bytes (fun i => if i = 0 then 0 else s.buf i) 1 = [0] := by
    simp [arr_bytes, List.range_succ]
  unfold LZEncoder.write_buf
  rw [if_pos rfl]
  simp only [h, bne_self_eq_false, Bool.false_eq_true, if_false, Bool.false_and, hone]
  cases hw : (s.f.write_bytes [0]).2 with
  | false =>
    simp only [Bool.not_false, if_true]
    first
      | exact ⟨trivial, trivial⟩
      | exact ⟨trivial, rfl⟩
      | exact ⟨rfl, rfl⟩
  | true =>
    simp only [Bool.not_true, Bool.false_eq_true, if_false]
    first
      | exact ⟨trivial, trivial⟩
      | exact ⟨trivial, rfl⟩
      | exact ⟨rfl, rfl⟩

/-- C29.  A complete encode for a colour resolution of 2 to 8 into a sink with room,
in lines that are not empty and hold the pixel count in all: the bytes written are
sub-blocks of 255 bytes each behind the length byte 255, then at most one sub-block of
1 to 255 bytes behind its length byte, then one zero byte, the last byte written;
and `write_buf(flush_output)` writes that zero byte also when the staging block is
empty. -/
theorem sub_block_framing (cr n : Nat) (hcr2 : 2 ≤ cr) (hcr : cr ≤ 8) (io : GifIO)
    (lines : List (List Nat)) (hne : ∀ l ∈ lines, l ≠ []) (hl : lines ≠ [])
    (hsum : (lines.map List.length).sum = n)
    (hroom : io.Room ((AEnc.init cr n).1 ++
      (AEnc.put_lines cr lines (AEnc.init cr n).2).1).length) :
    (∃ (st : LZEncoder) (full : List (List Nat)) (last : List Nat),
      (LZEncoder.new io n cr).put_lines lines = some (st, true) ∧
      st.f.d.written = io.d.written ++
        (frames (full ++ (if last.length ≠ 0 then [last] else [])) ++ [0]) ∧
      (∀ b ∈ full, b.length = 255) ∧ last.length ≤ 255 ∧
      (∀ x ∈ (full ++ (if last.length ≠ 0 then [last] else [])).flatten, x < 256) ∧
      st.f.d.written.getLast? = some 0) ∧
    ∀ s : LZEncoder, s.buf 0 = 0 →
      (s.write_buf LZ.flush_output).2 = (s.f.write_bytes [0]).2 ∧
        (s.write_buf LZ.flush_output).1.f.d = (s.f.write_bytes [0]).1.d := by
  refine ⟨?_, write_flush_empty⟩
  obtain ⟨st, e1, e2, _⟩ := enc_session cr n hcr2 hcr io lines hne hl hsum hroom
  obtain ⟨full, last, _, _, _, _, g1, g2, g3, g4, _⟩ :=
    session_blocks cr n hcr2 hcr lines hne hl hsum
  have hw : st.f.d.written = io.d.written ++
      (frames (full ++ (if last.length ≠ 0 then [last] else [])) ++ [0]) := by
    rw [e2, GifIO_push_written io _ hroom, g1]
  refine ⟨st, full, last, e1, hw, g2, g3, g4, ?_⟩
  rw [hw, ← List.append_assoc, List.getLast?_append]
  rfl

theorem sub_block_framing_witness :
    ∃ (st : LZEncoder) (full : List (List Nat)) (last : List Nat),
      (LZEncoder.new ( GifIO.mk_dev (MemDevice.open_for_write (List.replicate 8 0))) 2
        2).put_lines [[1], [3]] = some (st, true) ∧
      st.f.d.written = ( GifIO.mk_dev (MemDevice.open_for_write (List.replicate 8 0))).d.written ++
        (frames (full ++ (if last.length ≠ 0 then [last] else [])) ++ [0]) ∧
      (∀ b ∈ full, b.length = 255) ∧ last.length ≤ 255 ∧
      (∀ x ∈ (full ++ (if last.length ≠ 0 then [last] else [])).flatten, x < 256) ∧
      st.f.d.written.getLast? = some 0 :=
  (sub_block_framing 2 2 (by decide) (by decide)
    ( GifIO.mk_dev (MemDevice.open_for_write (List.replicate 8 0))) [[1], [3]]
    (by decide) (by decide) (by decide) (by decide)).1

/-- The bytes that the encoder logic sends for one pixel below 4 at the colour
resolution 2. -/
theorem one_pixel_bytes (p : Nat) (hp : p < 4) :
    (AEnc.init 2 1).1 ++ (AEnc.put_lines 2 [[p]] (AEnc.init 2 1).2).1 =
      [0x02, 0x44 ||| (p <<< 3), 0x01, 0x00] := by
  interval_cases p <;> decide

end gif

namespace gif

/-! ## Effect of `Image::save` on the image -/

/-- A `put_line` that returns true hands back the line masked with the entry of
`code_mask` for the colour resolution. -/
theorem put_line_masked (st : LZEncoder) (line : List Nat) (r : LZEncoder × List Nat × Bool)
    (h : st.put_line line = some r) (hr : r.2.2 = true) :
    r.2.1 = line.map (fun b => b &&& LZEncoder.code_mask.getD st.col_res 0) := by
  unfold LZEncoder.put_line at h
  by_cases hp : st.pix_count < line.length
  · simp only [if_pos hp] at h
    cases h
    cases hr
  · simp only [if_neg hp] at h
    cases he : ({ st with pix_count := st.pix_count - line.length } : LZEncoder).encode_line
        (line.map (fun b => b &&& LZEncoder.code_mask.getD st.col_res 0)) with
    | none => simp only [he] at h; cases h
    | some q =>
      simp only [he] at h
      cases h
      rfl

/-- The row loops of `Image::save`, when they return true, leave the buffer of the
encoder logic, whatever the sink is. -/
theorem save_rows_buffer (cr : Nat) (h1 : 1 ≤ cr) (h8 : cr ≤ 8) (w : Nat) :
    ∀ (rows : List Nat) (st : LZEncoder) (a : AEnc) (b : List Nat) (st1 : LZEncoder)
      (b1 : List Nat), st.CodeInv cr →
      (st.crnt_code = LZ.first_code ∨ st.crnt_code < st.run_code) →
      Image.save_rows rows st b w = some (st1, b1, true) →
      b1 = (AEnc.save_rows cr rows a b w).2.2 := by
  intro rows
  induction rows with
  | nil =>
    intro st a b st1 b1 _ _ h
    simp only [Image.save_rows, Option.some.injEq, Prod.mk.injEq] at h
    exact h.2.1.symm
  | cons j rest ih =>
    intro st a b st1 b1 hi hcc h
    obtain ⟨r, e1, e2, e3, _⟩ := inv_put_line cr h1 h8 st ((b.drop (j * w)).take w) hi hcc
    rw [Image.save_rows, e1] at h
    cases hr : r.2.2 with
    | false =>
      simp only [hr, Bool.not_false, if_true, Option.some.injEq, Prod.mk.injEq] at h
      exact absurd h.2.2 (by decide)
    | true =>
      simp only [hr, Bool.not_true, Bool.false_eq_true, if_false] at h
      have hm := put_line_masked st _ r e1 hr
      rw [hi.col_res] at hm
      rw [aenc_save_rows_cons]
      have := ih r.1 (a.put_line cr (row b w j)).2.1 _ st1 b1 e2 (Or.inr (e3 hr)) h
      rw [this, hm]
      rfl

/-- The members of an image other than the buffer are those of the image that
`Image::save` was called on, whatever the call returns. -/
theorem img_save_frame (img : Image) (io : GifIO) (gcm : Option ColorMap)
    (r : Image × GifIO × Bool) (h : img.save io gcm = some r) :
    r.1.rect = img.rect ∧ r.1.interlace = img.interlace ∧ r.1.exts = img.exts ∧
      r.1.cm = img.cm := by
  unfold Image.save at h
  by_cases ha : img.rect.area = 0
  · simp only [if_pos ha] at h
    cases h
    exact ⟨rfl, rfl, rfl, rfl⟩
  · simp only [if_neg ha] at h
    split_ifs at h
    · cases h; exact ⟨rfl, rfl, rfl, rfl⟩
    · cases h; exact ⟨rfl, rfl, rfl, rfl⟩
    · cases h; exact ⟨rfl, rfl, rfl, rfl⟩
    all_goals
      split at h
      · cases h
      · cases h; exact ⟨rfl, rfl, rfl, rfl⟩

/-- The resolution that `get_color_res` hands to the encoder is at least 2. -/
theorem color_res_ge_two (l g : Option ColorMap) (h : (get_color_res l g).2 = true) :
    2 ≤ (get_color_res l g).1 := by
  unfold get_color_res at h ⊢
  cases l with
  | some c => simp only []; split <;> omega
  | none =>
    cases g with
    | some c => simp only []; split <;> omega
    | none => simp only [] at h; cases h

/-- C34.  Effect of `Image::save` on the image: whatever the call returns, the rect,
the interlace flag, the extensions and the local palette are those of the image it
was called on; the buffer is untouched when the rect has no area; and when the call
returns true for an image of the data model (16 bit width and height, both above 0,
a buffer of width times height bytes) whose colour resolution `c` for the encoder
is at most 8, the buffer holds `p & (2 ^ c - 1)` for every pixel `p` it held, so that
it is unchanged if all pixels were below `2 ^ c`. -/
theorem image_save_effect (img : Image) (io : GifIO) (gcm : Option ColorMap)
    (r : Image × GifIO × Bool) (h : img.save io gcm = some r) :
    (r.1.rect = img.rect ∧ r.1.interlace = img.interlace ∧ r.1.exts = img.exts ∧
      r.1.cm = img.cm) ∧
    (img.rect.area = 0 → r.1.b = img.b) ∧
    (r.2.2 = true → img.rect.s.wd < 65536 → img.rect.s.ht < 65536 →
      0 < img.rect.s.wd → 0 < img.rect.s.ht →
      img.b.length = img.rect.s.wd * img.rect.s.ht → (get_color_res img.cm gcm).1 ≤ 8 →
      r.1.b = img.b.map (fun p => p &&& (2 ^ (get_color_res img.cm gcm).1 - 1)) ∧
        ((∀ p ∈ img.b, p < 2 ^ (get_color_res img.cm gcm).1) → r.1.b = img.b)) := by
  refine ⟨img_save_frame img io gcm r h, ?_, ?_⟩
  · intro ha
    unfold Image.save at h
    simp only [if_pos ha] at h
    cases h
    rfl
  · intro hok hw16 hh16 hw hh hb hc8
    have ha : ¬ img.rect.area = 0 := area_ne_zero img hw hh hw16 hh16
    have hmain : r.1.b = img.b.map
        (fun p => p &&& LZEncoder.code_mask.getD (get_color_res img.cm gcm).1 0) := by
      unfold Image.save at h
      simp only [if_neg ha] at h
      cases h1 : (Image.save_exts img.exts io).2 with
      | false =>
        simp only [h1, Bool.not_false, if_true] at h
        cases h
        cases hok
      | true =>
        simp only [h1, Bool.not_true, Bool.false_eq_true, if_false] at h
        cases h2 : (img.save_descr (Image.save_exts img.exts io).1).2 with
        | false =>
          simp only [h2, Bool.not_false, if_true] at h
          cases h
          cases hok
        | true =>
          simp only [h2, Bool.not_true, Bool.false_eq_true, if_false] at h
          cases h3 : (get_color_res img.cm gcm).2 with
          | false =>
            simp only [h3, Bool.not_false, if_true] at h
            cases h
            cases hok
          | true =>
            simp only [h3, Bool.not_true, Bool.false_eq_true, if_false] at h
            have hc2 : 2 ≤ (get_color_res img.cm gcm).1 := (color_res_ge_two img.cm gcm h3)
            cases hs : Image.save_rows
                (if img.interlace then interlace_rows img.rect.height
                  else plain_rows img.rect.height)
                (LZEncoder.new ((img.save_descr (Image.save_exts img.exts io).1).1.write_byte
                  (get_color_res img.cm gcm).1).1 img.rect.area (get_color_res img.cm gcm).1)
                img.b img.rect.width with
            | none => simp only [hs] at h; cases h
            | some q =>
              simp only [hs] at h
              cases h
              have hq : q = (q.1, q.2.1, true) := by
                have : q.2.2 = true := hok
                rw [← this]
              rw [hq] at hs
              obtain ⟨_, i2, i3, _⟩ := inv_new (get_color_res img.cm gcm).1 (by omega) (by omega)
                ((img.save_descr (Image.save_exts img.exts io).1).1.write_byte
                  (get_color_res img.cm gcm).1).1 img.rect.area
              have hbuf := save_rows_buffer (get_color_res img.cm gcm).1 (by omega) hc8
                img.rect.width _ _ (AEnc.init (get_color_res img.cm gcm).1 img.rect.area).2
                img.b q.1 q.2.1 i2 (Or.inl i3) hs
              have hm := (img_lzw_stream (get_color_res img.cm gcm).1 hc2 hc8 img hw hh hw16 hh16
                (by rw [hb, Nat.mul_comm])).2
              show q.2.1 = _
              rw [hbuf, ← hm]
              rfl
    constructor
    · rw [hmain, code_mask_eq _ hc8]
    · intro hp
      rw [hmain]
      exact map_mask_id _ hc8 img.b hp

theorem image_save_effect_witness :
    ∃ r, sample_frame.save ( GifIO.mk_dev (MemDevice.open_for_write (List.replicate 32 0)))
        (some sample_palette) = some r ∧ r.2.2 = true ∧
      r.1.b = [0, 1, 2, 3, 4, 5].map (fun p => p &&& (2 ^ 2 - 1)) ∧ r.1.b = [0, 1, 2, 3, 0, 1] ∧
      r.1.rect = sample_frame.rect :=
  have h : sample_frame.save ( GifIO.mk_dev (MemDevice.open_for_write (List.replicate 32 0)))
      (some sample_palette) = some ((sample_frame.save
        ( GifIO.mk_dev (MemDevice.open_for_write (List.replicate 32 0)))
        (some sample_palette)).get (by decide)) := by simp
  have e := image_save_effect sample_frame _ (some sample_palette) _ h
  ⟨_, h, by decide, (e.2.2 (by decide) (by decide) (by decide) (by decide) (by decide)
    (by decide) (by decide)).1, by decide, e.1.1⟩

/-- C35.  Zero area frames: `Image::save` of an image whose rect has width 0 or
height 0 returns true and leaves the session as it was, position, buffer and error
code: no extension, no descriptor and no LZW data is written, with or without a
local or a global palette. -/
theorem zero_area_save_writes_nothing (img : Image) (io : GifIO) (gcm : Option ColorMap)
    (hz : img.rect.s.wd = 0 ∨ img.rect.s.ht = 0) :
    img.save io gcm = some (img, io, true) := by
  have ha : img.rect.area = 0 := by
    unfold Rect.area Size.area
    rcases hz with h | h <;> rw [h] <;> simp
  unfold Image.save
  rw [if_pos ha]

theorem zero_area_save_writes_nothing_witness :
    ({ interlace := false, exts := [create_delay_mark 5], rect := ⟨⟨0, 0⟩, ⟨7, 0⟩⟩, b := [],
       cm := none } : Image).save
      ( GifIO.mk_dev (MemDevice.open_for_write [9, 9, 9])) none =
      some ({ interlace := false, exts := [create_delay_mark 5], rect := ⟨⟨0, 0⟩, ⟨7, 0⟩⟩,
              b := [], cm := none },
        GifIO.mk_dev (MemDevice.open_for_write [9, 9, 9]), true) :=
  zero_area_save_writes_nothing _ _ none (Or.inr rfl)

end gif

namespace gif

/-! ## Occupancy of the hash table -/

/-- The hash table of an encoder in range fits. -/
theorem ht_fits_of_inv (cr : Nat) (st : LZEncoder) (h : st.CodeInv cr) : HtFits cr st.ht := by
  obtain ⟨m, hrep, hlen, hlt⟩ := h.table
  have hhi := h.code_hi
  have hpos := Nat.two_pow_pos cr
  refine ⟨⟨m, hrep, by omega, fun e he => by have := hlt e he; omega⟩, ?_⟩
  exact ht_exists_empty st.ht.table (by rw [hrep.occ]; omega)

/-- The hash table calls of the body of the pixel loop from a state in range. -/
theorem ht_pixel (cr : Nat) (h8 : cr ≤ 8) (st : LZEncoder)
    (code pixel : Nat) (h : st.CodeInv cr) (hc : code < st.run_code) (hp : pixel < 2 ^ cr) :
    ∀ c ∈ st.pixel_ht_calls code pixel, HtOk cr c := by
  have h256 := two_pow_le_256 cr h8
  have hfit := ht_fits_of_inv cr st h
  obtain ⟨m, hrep, hlen, hlt⟩ := h.table
  have hhi := h.code_hi
  have hpos := Nat.two_pow_pos cr
  have hm : m.length < 8192 := by omega
  have hkey : (code <<< 8) + pixel < 0xFFFFF := key_lt code pixel (by omega) (by omega)
  have hgetdec : (∃ e ∈ m, e.1 = (code <<< 8) + pixel ∧
        st.ht.get ((code <<< 8) + pixel) = some (some e.2)) ∨
      ((code <<< 8) + pixel ∉ m.map Prod.fst ∧
        st.ht.get ((code <<< 8) + pixel) = some none) := by
    by_cases hk : (code <<< 8) + pixel ∈ m.map Prod.fst
    · obtain ⟨e, he, hek⟩ := List.mem_map.1 hk
      have hmem : ((code <<< 8) + pixel, e.2) ∈ m := by rw [← hek]; exact he
      exact Or.inl ⟨e, he, hek, ht_get_present st.ht.table m hrep _ e.2 hmem
        (by have := hlt e he; omega)⟩
    · exact Or.inr ⟨hk, ht_get_absent st.ht.table m hrep hm _ hk⟩
  have hok0 : HtOk cr (st.ht, (code <<< 8) + pixel, none) := by
    refine ⟨hkey, hfit, ?_, fun code hcode => by cases hcode⟩
    rcases hgetdec with ⟨e, _, _, hg⟩ | ⟨_, hg⟩
    · exact ⟨_, hg⟩
    · exact ⟨_, hg⟩
  intro c hcm
  unfold LZEncoder.pixel_ht_calls at hcm
  rcases List.mem_cons.1 hcm with rfl | hcm
  · exact hok0
  · rcases hgetdec with ⟨e, _, _, hg⟩ | ⟨hk, hg⟩
    · simp only [hg, List.not_mem_nil] at hcm
    · simp only [hg] at hcm
      obtain ⟨i1, i2, i3, _, _, _⟩ := inv_encode cr st code h
      generalize st.encode code = r at i1 i2 i3 hcm
      cases hr2 : r.2 with
      | false => simp only [hr2, Bool.not_false, if_true, List.not_mem_nil] at hcm
      | true =>
        simp only [hr2, Bool.not_true, Bool.false_eq_true, if_false] at hcm
        by_cases hfull : r.1.run_code ≥ LZ.max_code
        · simp only [if_pos hfull, List.not_mem_nil] at hcm
        · simp only [if_neg hfull, List.mem_singleton] at hcm
          have hnf : r.1.run_code < 4095 := by
            have : ¬ r.1.run_code ≥ 4095 := hfull
            omega
          rw [hcm, i3]
          refine ⟨hkey, hfit, ⟨_, hg⟩, ?_⟩
          intro code1 hcode1
          have hc1 : code1 = r.1.run_code := (Option.some.inj hcode1).symm
          rw [hc1]
          refine ⟨by omega, ?_⟩
          obtain ⟨t1, hins, hrep1⟩ := ht_insert_rep st.ht.table m hrep hm
            ((code <<< 8) + pixel) r.1.run_code hk hkey
          refine ⟨⟨t1⟩, hins, ⟨_, hrep1, ?_, ?_⟩, ?_⟩
          · rw [List.length_cons]; omega
          · intro e he
            rcases List.mem_cons.1 he with rfl | he
            · show r.1.run_code ≤ 4094; omega
            · have := hlt e he; omega
          · exact ht_exists_empty t1 (by rw [hrep1.occ, List.length_cons]; omega)

/-- The hash table calls of the pixel loop from a state in range. -/
theorem ht_loop (cr : Nat) (h1 : 1 ≤ cr) (h8 : cr ≤ 8) :
    ∀ (l : List Nat) (st : LZEncoder) (code : Nat), st.CodeInv cr → code < st.run_code →
      (∀ x ∈ l, x < 2 ^ cr) →
      ∀ c ∈ LZEncoder.loop_ht_calls l st code, HtOk cr c := by
  intro l
  induction l with
  | nil =>
    intro st code _ _ _ c hcm
    simp only [LZEncoder.loop_ht_calls, List.not_mem_nil] at hcm
  | cons x rest ih =>
    intro st code h hc hl c hcm
    obtain ⟨r, e1, e2, e3, _, _⟩ := inv_encode_pixel cr h1 h8 st code x h hc
      (hl x (List.mem_cons_self _ _))
    rw [LZEncoder.loop_ht_calls, e1] at hcm
    rcases List.mem_append.1 hcm with hcm | hcm
    · exact ht_pixel cr h8 st code x h hc (hl x (List.mem_cons_self _ _)) c hcm
    · cases hr : r.2.2 with
      | false => simp only [hr, Bool.not_false, if_true, List.not_mem_nil] at hcm
      | true =>
        simp only [hr, Bool.not_true, Bool.false_eq_true, if_false] at hcm
        exact ih r.1 r.2.1 e2 e3 (fun y hy => hl y (List.mem_cons_of_mem _ hy)) c hcm

/-- The hash table calls of `encode_line` from a state in range between two lines. -/
theorem ht_line (cr : Nat) (h1 : 1 ≤ cr) (h8 : cr ≤ 8) (st : LZEncoder)
    (line : List Nat) (h : st.CodeInv cr)
    (hcc : st.crnt_code = LZ.first_code ∨ st.crnt_code < st.run_code)
    (hl : ∀ x ∈ line, x < 2 ^ cr) :
    ∀ c ∈ st.line_ht_calls line, HtOk cr c := by
  have hpos := Nat.two_pow_pos cr
  have hlo := h.code_lo
  have hs1 : (LZEncoder.line_start st.crnt_code line).1 < st.run_code := by
    unfold LZEncoder.line_start
    by_cases hf : st.crnt_code = LZ.first_code
    · rw [if_pos hf]
      show line.headD 0 < st.run_code
      cases line with
      | nil => simp only [List.headD_nil]; omega
      | cons a t =>
        have := hl a (List.mem_cons_self _ _)
        simp only [List.headD_cons]; omega
    · rw [if_neg hf]
      rcases hcc with hcc | hcc
      · exact absurd hcc hf
      · exact hcc
  have hs2 : ∀ x ∈ (LZEncoder.line_start st.crnt_code line).2, x < 2 ^ cr := by
    unfold LZEncoder.line_start
    by_cases hf : st.crnt_code = LZ.first_code
    · rw [if_pos hf]
      intro x hx
      exact hl x (List.mem_of_mem_tail hx)
    · rw [if_neg hf]
      exact hl
  exact ht_loop cr h1 h8 _ st _ h hs1 hs2

/-- The hash table calls of `put_line` from a state in range between two lines. -/
theorem ht_put_line (cr : Nat) (h1 : 1 ≤ cr) (h8 : cr ≤ 8) (st : LZEncoder)
    (line : List Nat) (h : st.CodeInv cr)
    (hcc : st.crnt_code = LZ.first_code ∨ st.crnt_code < st.run_code) :
    ∀ c ∈ st.put_line_ht_calls line, HtOk cr c := by
  unfold LZEncoder.put_line_ht_calls
  by_cases hp : st.pix_count < line.length
  · simp only [if_pos hp]
    intro c hcm
    cases hcm
  · simp only [if_neg hp]
    exact ht_line cr h1 h8 { st with pix_count := st.pix_count - line.length }
      (line.map (fun b => b &&& LZEncoder.code_mask.getD st.col_res 0))
      (inv_set_pix cr st _ h) hcc (by
        intro x hx
        obtain ⟨b, _, rfl⟩ := List.mem_map.1 hx
        rw [h.col_res]
        exact mask_lt cr h8 b)

/-- The hash table calls of a sequence of `put_line` calls from a state in range. -/
theorem ht_put_lines (cr : Nat) (h1 : 1 ≤ cr) (h8 : cr ≤ 8) :
    ∀ (lines : List (List Nat)) (st : LZEncoder), st.CodeInv cr →
      (st.crnt_code = LZ.first_code ∨ st.crnt_code < st.run_code) →
      ∀ c ∈ LZEncoder.put_lines_ht_calls lines st, HtOk cr c := by
  intro lines
  induction lines with
  | nil =>
    intro st _ _ c hcm
    simp only [LZEncoder.put_lines_ht_calls, List.not_mem_nil] at hcm
  | cons line rest ih =>
    intro st h hcc c hcm
    obtain ⟨r, e1, e2, e3, _⟩ := inv_put_line cr h1 h8 st line h hcc
    rw [LZEncoder.put_lines_ht_calls, e1] at hcm
    rcases List.mem_append.1 hcm with hcm | hcm
    · exact ht_put_line cr h1 h8 st line h hcc c hcm
    · cases hr : r.2.2 with
      | false => simp only [hr, Bool.not_false, if_true, List.not_mem_nil] at hcm
      | true =>
        simp only [hr, Bool.not_true, Bool.false_eq_true, if_false] at hcm
        exact ih r.1 e2 (Or.inr (e3 hr)) c hcm

/-- C38.  Hash table occupancy: in an encode for a colour resolution of 2 to 8,
whatever the sink does, the constructor and every sequence of `put_line` calls
return, and at every call of `get` and `insert` the key is below the mark 0xFFFFF
of an empty slot, the table holds at most `4095 - (2 ^ cr + 2)` entries with codes
of at most 4094 and has an empty slot among its 8192, the probe ends, and for
`insert` the code stored is at most 4094 and the table after it is within the same
bounds; so is the table of the state left at the end. -/
theorem hash_table_occupancy (cr : Nat) (hcr2 : 2 ≤ cr) (hcr8 : cr ≤ 8) (file : GifIO)
    (n : Nat) (lines : List (List Nat)) :
    ∃ r, LZEncoder.put_lines lines (LZEncoder.new file n cr) = some r ∧
      ((∃ m, HTRep r.1.ht.table m ∧ m.length ≤ 4095 - (2 ^ cr + 2) ∧ ∀ e ∈ m, e.2 ≤ 4094) ∧
        ∃ i, i < 8192 ∧ HashTable.get_key (r.1.ht.table i) = 0xFFFFF) ∧
      ∀ c ∈ LZEncoder.put_lines_ht_calls lines (LZEncoder.new file n cr),
        c.2.1 < 0xFFFFF ∧
        ((∃ m, HTRep c.1.table m ∧ m.length ≤ 4095 - (2 ^ cr + 2) ∧ ∀ e ∈ m, e.2 ≤ 4094) ∧
          ∃ i, i < 8192 ∧ HashTable.get_key (c.1.table i) = 0xFFFFF) ∧
        (∃ v, c.1.get c.2.1 = some v) ∧
        ∀ code, c.2.2 = some code →
          code ≤ 4094 ∧ ∃ h1, c.1.insert c.2.1 code = some h1 ∧
            (∃ m, HTRep h1.table m ∧ m.length ≤ 4095 - (2 ^ cr + 2) ∧ ∀ e ∈ m, e.2 ≤ 4094) ∧
            ∃ i, i < 8192 ∧ HashTable.get_key (h1.table i) = 0xFFFFF := by
  obtain ⟨_, a2, a3, _⟩ := inv_new cr (by omega) (by omega) file n
  obtain ⟨r, e1, e2, _⟩ := inv_put_lines cr (by omega) hcr8 lines _ a2 (Or.inl a3)
  refine ⟨r, e1, ht_fits_of_inv cr r.1 e2, ?_⟩
  intro c hcm
  exact ht_put_lines cr (by omega) hcr8 lines _ a2 (Or.inl a3) c hcm

theorem hash_table_occupancy_witness :
    ∃ r, LZEncoder.put_lines [[0, 1], [0, 1]]
        (LZEncoder.new ( GifIO.mk_dev (MemDevice.open_for_write [0, 0, 0])) 4 2) = some r ∧
      (∀ c ∈ LZEncoder.put_lines_ht_calls [[0, 1], [0, 1]]
          (LZEncoder.new ( GifIO.mk_dev (MemDevice.open_for_write [0, 0, 0])) 4 2),
        c.2.1 < 0xFFFFF ∧ ∃ v, c.1.get c.2.1 = some v) ∧
      (LZEncoder.put_lines_ht_calls [[0, 1], [0, 1]]
          (LZEncoder.new ( GifIO.mk_dev (MemDevice.open_for_write [0, 0, 0])) 4 2)).map
        (fun c => c.2) = [(1, none), (1, some 6), (256, none), (256, some 7), (1, none)] :=
  have h := hash_table_occupancy 2 (by decide) (by decide)
    ( GifIO.mk_dev (MemDevice.open_for_write [0, 0, 0])) 4 [[0, 1], [0, 1]]
  ⟨h.choose, h.choose_spec.1,
    fun c hcm => ⟨(h.choose_spec.2.2 c hcm).1, (h.choose_spec.2.2 c hcm).2.2.1⟩, by decide⟩

end gif

namespace gif

/-! ## The encoder output does not depend on the lines -/

theorem with_line_encode (cr : Nat) (a : AEnc) (c p code : Nat) :
    (a.with_line c p).encode cr code =
      ((a.encode cr code).1, (a.encode cr code).2.with_line c p) := by
  unfold AEnc.encode AEnc.with_line AEnc.run_code
  simp only []
  split <;> rfl

theorem with_line_pixel (cr : Nat) (a : AEnc) (c p code pixel : Nat) :
    (a.with_line c p).pixel cr code pixel =
      ((a.pixel cr code pixel).1, (a.pixel cr code pixel).2.1.with_line c p,
        (a.pixel cr code pixel).2.2) := by
  have hd : (a.with_line c p).dict = a.dict := rfl
  cases hlk : dlookup cr a.dict code pixel with
  | some v =>
    simp only [AEnc.pixel, hd, hlk]
  | none =>
    simp only [AEnc.pixel, hd, hlk, with_line_encode]
    have hrc : ∀ b : AEnc, (b.with_line c p).run_code cr = b.run_code cr := fun _ => rfl
    rw [hrc]
    split <;> rfl

theorem with_line_loop (cr : Nat) (c p : Nat) :
    ∀ (px : List Nat) (a : AEnc) (code : Nat),
      AEnc.loop cr px (a.with_line c p) code =
        ((AEnc.loop cr px a code).1, (AEnc.loop cr px a code).2.1.with_line c p,
          (AEnc.loop cr px a code).2.2) := by
  intro px
  induction px with
  | nil => intro a code; rfl
  | cons x rest ih =>
    intro a code
    simp only [AEnc.loop, with_line_pixel, ih]

theorem with_line_finish (cr : Nat) (a : AEnc) (c p code : Nat) :
    ((a.with_line c p).finish cr code).1 = (a.finish cr code).1 := by
  simp only [aenc_finish_eq, with_line_encode]
  rfl

theorem aenc_loop_append (cr : Nat) :
    ∀ (p1 p2 : List Nat) (a : AEnc) (code : Nat),
      AEnc.loop cr (p1 ++ p2) a code =
        ((AEnc.loop cr p1 a code).1 ++
          (AEnc.loop cr p2 (AEnc.loop cr p1 a code).2.1 (AEnc.loop cr p1 a code).2.2).1,
         (AEnc.loop cr p2 (AEnc.loop cr p1 a code).2.1 (AEnc.loop cr p1 a code).2.2).2) := by
  intro p1
  induction p1 with
  | nil => intro p2 a code; simp [AEnc.loop]
  | cons x rest ih =>
    intro p2 a code
    show AEnc.loop cr (x :: (rest ++ p2)) a code = _
    simp only [AEnc.loop, ih, List.append_assoc]

theorem rest_bytes_with_line (cr : Nat) (a : AEnc) (c p code : Nat) (px : List Nat) :
    AEnc.rest_bytes cr (a.with_line c p) code px = AEnc.rest_bytes cr a code px := by
  unfold AEnc.rest_bytes
  rw [with_line_loop]
  simp only [with_line_finish]

theorem rest_bytes_append (cr : Nat) (a : AEnc) (code : Nat) (p1 p2 : List Nat) :
    AEnc.rest_bytes cr a code (p1 ++ p2) =
      (AEnc.loop cr p1 a code).1 ++
        AEnc.rest_bytes cr (AEnc.loop cr p1 a code).2.1 (AEnc.loop cr p1 a code).2.2 p2 := by
  unfold AEnc.rest_bytes
  rw [aenc_loop_append]
  simp only [List.append_assoc]

theorem arange_with_line (cr : Nat) (a : AEnc) (c p : Nat) (h : ARange cr a) :
    ARange cr (a.with_line c p) := h

/-- `put_line` of the encoder logic for a line that leaves pixels to come. -/
theorem aenc_put_line_cont (cr : Nat) (a : AEnc) (line : List Nat)
    (hp : line.length < a.pix_count) :
    a.put_line cr line =
      ((AEnc.loop cr
          (LZEncoder.line_start a.crnt_code
            (line.map (fun b => b &&& LZEncoder.code_mask.getD cr 0))).2 a
          (LZEncoder.line_start a.crnt_code
            (line.map (fun b => b &&& LZEncoder.code_mask.getD cr 0))).1).1,
        (AEnc.loop cr
          (LZEncoder.line_start a.crnt_code
            (line.map (fun b => b &&& LZEncoder.code_mask.getD cr 0))).2 a
          (LZEncoder.line_start a.crnt_code
            (line.map (fun b => b &&& LZEncoder.code_mask.getD cr 0))).1).2.1.with_line
          (AEnc.loop cr
            (LZEncoder.line_start a.crnt_code
              (line.map (fun b => b &&& LZEncoder.code_mask.getD cr 0))).2 a
            (LZEncoder.line_start a.crnt_code
              (line.map (fun b => b &&& LZEncoder.code_mask.getD cr 0))).1).2.2
          (a.pix_count - line.length),
        line.map (fun b => b &&& LZEncoder.code_mask.getD cr 0)) := by
  have e0 : ({ a with pix_count := a.pix_count - line.length } : AEnc) =
      a.with_line a.crnt_code (a.pix_count - line.length) := rfl
  have hnz : ¬ a.pix_count - line.length = 0 := by omega
  unfold AEnc.put_line AEnc.encode_line
  simp only [e0]
  rw [with_line_loop]
  generalize AEnc.loop cr
    (LZEncoder.line_start a.crnt_code
      (line.map (fun b => b &&& LZEncoder.code_mask.getD cr 0))).2 a
    (LZEncoder.line_start a.crnt_code
      (line.map (fun b => b &&& LZEncoder.code_mask.getD cr 0))).1 = L
  unfold AEnc.line_end AEnc.with_line
  simp only [if_neg hnz, List.append_nil]

/-- `put_line` of the encoder logic for the line that completes the pixel count. -/
theorem aenc_put_line_end (cr : Nat) (a : AEnc) (line : List Nat)
    (hp : a.pix_count - line.length = 0) :
    (a.put_line cr line).1 =
      AEnc.rest_bytes cr a
        (LZEncoder.line_start a.crnt_code
          (line.map (fun b => b &&& LZEncoder.code_mask.getD cr 0))).1
        (LZEncoder.line_start a.crnt_code
          (line.map (fun b => b &&& LZEncoder.code_mask.getD cr 0))).2 := by
  have e0 : ({ a with pix_count := a.pix_count - line.length } : AEnc) =
      a.with_line a.crnt_code (a.pix_count - line.length) := rfl
  unfold AEnc.put_line AEnc.encode_line AEnc.rest_bytes
  simp only [e0]
  rw [with_line_loop]
  generalize AEnc.loop cr
    (LZEncoder.line_start a.crnt_code
      (line.map (fun b => b &&& LZEncoder.code_mask.getD cr 0))).2 a
    (LZEncoder.line_start a.crnt_code
      (line.map (fun b => b &&& LZEncoder.code_mask.getD cr 0))).1 = L
  have e2 : (AEnc.line_end cr (L.2.1.with_line L.2.2 (a.pix_count - line.length))).1 =
      (AEnc.finish cr L.2.1 L.2.2).1 := by
    unfold AEnc.line_end
    rw [if_pos (by exact hp)]
    exact with_line_finish cr L.2.1 L.2.2 (a.pix_count - line.length) L.2.2
  exact congrArg (fun z => L.1 ++ z) e2

theorem line_start_mid (c : Nat) (l : List Nat) (h : c ≤ 4094) :
    LZEncoder.line_start c l = (c, l) := by
  unfold LZEncoder.line_start
  rw [if_neg (by unfold LZ.first_code; omega)]

theorem sum_length_flatten (lines : List (List Nat)) :
    (lines.map List.length).sum = lines.flatten.length := by
  induction lines with
  | nil => rfl
  | cons l rest ih => simp only [List.map_cons, List.sum_cons, List.flatten_cons,
      List.length_append, ih]

/-- A sequence of lines from a state between two lines: the bytes are those of the
pixel loop over all the pixels, followed by the end of the data. -/
theorem aenc_put_lines_mid (cr : Nat) :
    ∀ (lines : List (List Nat)) (a : AEnc), ARange cr a → a.crnt_code ≤ 4094 →
      (∀ l ∈ lines, l ≠ []) → lines ≠ [] → (lines.map List.length).sum = a.pix_count →
      (AEnc.put_lines cr lines a).1 =
        AEnc.rest_bytes cr a a.crnt_code
          (lines.flatten.map (fun b => b &&& LZEncoder.code_mask.getD cr 0)) := by
  intro lines
  induction lines with
  | nil => intro a _ _ _ h; exact absurd rfl h
  | cons line rest ih =>
    intro a hr hc hne _ hsum
    simp only [List.map_cons, List.sum_cons] at hsum
    rw [aenc_put_lines_cons, List.flatten_cons, List.map_append]
    by_cases hrest : rest = []
    · subst hrest
      simp only [List.map_nil, List.sum_nil, Nat.add_zero] at hsum
      rw [aenc_put_line_end cr a line (by omega), line_start_mid _ _ hc]
      simp [AEnc.put_lines]
    · have hpos := sum_pos_of_ne_nil rest (fun m hm => hne m (List.mem_cons_of_mem _ hm)) hrest
      have hcont := aenc_put_line_cont cr a line (by omega)
      rw [line_start_mid _ _ hc] at hcont
      have hlr := aenc_loop_range cr (line.map (fun b => b &&& LZEncoder.code_mask.getD cr 0))
        a a.crnt_code hr hc (masked_lt cr line)
      rw [hcont]
      simp only []
      rw [ih _ (arange_with_line cr _ _ _ hlr.1) hlr.2
        (fun m hm => hne m (List.mem_cons_of_mem _ hm)) hrest (by
          show (rest.map List.length).sum = a.pix_count - line.length
          omega)]
      rw [rest_bytes_append]
      show _ ++ AEnc.rest_bytes cr (AEnc.with_line _ _ _) _ _ = _
      rw [rest_bytes_with_line]
      rfl

theorem aenc_init_crnt (cr n : Nat) : (AEnc.init cr n).2.crnt_code = LZ.first_code := by
  unfold AEnc.init; rw [aenc_encode_crnt]

/-- A sequence of lines from the state after the constructor: the bytes are those
of the pixel loop from the first pixel over the other pixels, followed by the end
of the data. -/
theorem aenc_put_lines_first (cr : Nat) (lines : List (List Nat)) (a : AEnc)
    (hr : ARange cr a) (hc : a.crnt_code = LZ.first_code)
    (hne : ∀ l ∈ lines, l ≠ []) (hl : lines ≠ [])
    (hsum : (lines.map List.length).sum = a.pix_count) :
    (AEnc.put_lines cr lines a).1 =
      AEnc.rest_bytes cr a
        ((lines.flatten.map (fun b => b &&& LZEncoder.code_mask.getD cr 0)).headD 0)
        (lines.flatten.map (fun b => b &&& LZEncoder.code_mask.getD cr 0)).tail := by
  cases lines with
  | nil => exact absurd rfl hl
  | cons line rest =>
    simp only [List.map_cons, List.sum_cons] at hsum
    have hline : line ≠ [] := hne line (List.mem_cons_self _ _)
    obtain ⟨x, t, rfl⟩ := List.exists_cons_of_ne_nil hline
    have hst : LZEncoder.line_start a.crnt_code
        ((x :: t).map (fun b => b &&& LZEncoder.code_mask.getD cr 0)) =
        (x &&& LZEncoder.code_mask.getD cr 0,
          t.map (fun b => b &&& LZEncoder.code_mask.getD cr 0)) := by
      unfold LZEncoder.line_start
      rw [if_pos hc]
      rfl
    have hx : x &&& LZEncoder.code_mask.getD cr 0 ≤ 4094 := by
      have := masked_lt cr [x] (x &&& LZEncoder.code_mask.getD cr 0) (by simp)
      omega
    rw [aenc_put_lines_cons, List.flatten_cons, List.map_append]
    simp only [List.map_cons, List.cons_append, List.headD_cons, List.tail_cons]
    by_cases hrest : rest = []
    · subst hrest
      simp only [List.map_nil, List.sum_nil, Nat.add_zero] at hsum
      rw [aenc_put_line_end cr a (x :: t) (by omega), hst]
      simp [AEnc.put_lines]
    · have hpos := sum_pos_of_ne_nil rest (fun m hm => hne m (List.mem_cons_of_mem _ hm)) hrest
      have hcont := aenc_put_line_cont cr a (x :: t) (by omega)
      rw [hst] at hcont
      have hlr := aenc_loop_range cr (t.map (fun b => b &&& LZEncoder.code_mask.getD cr 0))
        a (x &&& LZEncoder.code_mask.getD cr 0) hr hx (masked_lt cr t)
      rw [hcont]
      simp only []
      rw [aenc_put_lines_mid cr rest _ (arange_with_line cr _ _ _ hlr.1) hlr.2
        (fun m hm => hne m (List.mem_cons_of_mem _ hm)) hrest (by
          show (rest.map List.length).sum = a.pix_count - (x :: t).length
          omega)]
      rw [rest_bytes_append]
      show _ ++ AEnc.rest_bytes cr (AEnc.with_line _ _ _) _ _ = _
      rw [rest_bytes_with_line]
      rfl

/-- The bytes of an encoder session are the LZW data of its pixels, however the
pixels come in lines. -/
theorem aenc_session_bytes (cr n : Nat) (hcr : cr ≤ 11) (lines : List (List Nat))
    (hne : ∀ l ∈ lines, l ≠ []) (hl : lines ≠ [])
    (hsum : (lines.map List.length).sum = n) :
    (AEnc.init cr n).1 ++ (AEnc.put_lines cr lines (AEnc.init cr n).2).1 =
      AEnc.data_bytes cr n
        (lines.flatten.map (fun b => b &&& LZEncoder.code_mask.getD cr 0)) := by
  have hip := aenc_init_props cr n hcr
  unfold AEnc.data_bytes
  rw [aenc_put_lines_first cr lines _ hip.1 (aenc_init_crnt cr n) hne hl (by rw [hip.2.2, hsum])]

end gif

namespace gif

/-- A session of the encoder over a sink with room for the data: the calls succeed
and the sink holds the LZW data of the pixels. -/
theorem enc_session_data (cr n : Nat) (hcr2 : 2 ≤ cr) (hcr : cr ≤ 8) (io : GifIO)
    (lines : List (List Nat)) (hne : ∀ l ∈ lines, l ≠ []) (hsum : lines.flatten.length = n)
    (hn : 0 < n)
    (hroom : io.Room (AEnc.data_bytes cr n
      (lines.flatten.map (fun b => b &&& LZEncoder.code_mask.getD cr 0))).length) :
    ∃ st, (LZEncoder.new io n cr).put_lines lines = some (st, true) ∧
      st.f = io.push (AEnc.data_bytes cr n
        (lines.flatten.map (fun b => b &&& LZEncoder.code_mask.getD cr 0))) := by
  have hl : lines ≠ [] := by
    intro h
    rw [h] at hsum
    simp only [List.flatten_nil, List.length_nil] at hsum
    omega
  have hs : (lines.map List.length).sum = n := by rw [sum_length_flatten, hsum]
  have hb := aenc_session_bytes cr n (by omega) lines hne hl hs
  obtain ⟨st, h1, h2, _⟩ := enc_session cr n hcr2 hcr io lines hne hl hs (by rw [hb]; exact hroom)
  exact ⟨st, h1, by rw [h2, hb]⟩

/-- C31.  Split independence of the encoder: for a colour resolution of 2 to 8, a
pixel count `n` above 0 and a sink with room for the data, two sequences of non-empty
lines that hold the same `n` pixels in all make the `put_line` calls succeed and
leave the same session: the bytes written are the LZW data of the masked pixels,
which are also what one `put_line` call with all the pixels writes. -/
theorem split_independence (cr n : Nat) (hcr2 : 2 ≤ cr) (hcr8 : cr ≤ 8) (io : GifIO)
    (l1 l2 : List (List Nat)) (hne1 : ∀ l ∈ l1, l ≠ []) (hne2 : ∀ l ∈ l2, l ≠ [])
    (hfl : l1.flatten = l2.flatten) (hsum : l1.flatten.length = n) (hn : 0 < n)
    (hroom : io.Room (AEnc.data_bytes cr n
      (l1.flatten.map (fun b => b &&& LZEncoder.code_mask.getD cr 0))).length) :
    ∃ st1 st2 st3, (LZEncoder.new io n cr).put_lines l1 = some (st1, true) ∧
      (LZEncoder.new io n cr).put_lines l2 = some (st2, true) ∧
      (LZEncoder.new io n cr).put_lines [l1.flatten] = some (st3, true) ∧
      st1.f = st2.f ∧ st1.f = st3.f ∧
      st1.f.d.written = io.d.written ++ AEnc.data_bytes cr n
        (l1.flatten.map (fun b => b &&& LZEncoder.code_mask.getD cr 0)) := by
  obtain ⟨st1, a1, a2⟩ := enc_session_data cr n hcr2 hcr8 io l1 hne1 hsum hn hroom
  obtain ⟨st2, b1, b2⟩ := enc_session_data cr n hcr2 hcr8 io l2 hne2 (by rw [← hfl]; exact hsum)
    hn (by rw [← hfl]; exact hroom)
  have hone : [l1.flatten].flatten = l1.flatten := by simp
  obtain ⟨st3, c1, c2⟩ := enc_session_data cr n hcr2 hcr8 io [l1.flatten]
    (by
      intro l hl
      rw [List.mem_singleton] at hl
      rw [hl]
      intro he
      rw [he] at hsum
      simp only [List.length_nil] at hsum
      omega)
    (by rw [hone]; exact hsum) hn (by rw [hone]; exact hroom)
  refine ⟨st1, st2, st3, a1, b1, c1, ?_, ?_, ?_⟩
  · rw [a2, b2, hfl]
  · rw [a2, c2, hone]
  · rw [a2]
    exact GifIO_push_written io _ hroom

theorem split_independence_witness :
    ∃ st1 st2 st3,
      (LZEncoder.new ( GifIO.mk_dev (MemDevice.open_for_write (List.replicate 8 0))) 4
        2).put_lines [[0, 1], [1, 1]] = some (st1, true) ∧
      (LZEncoder.new ( GifIO.mk_dev (MemDevice.open_for_write (List.replicate 8 0))) 4
        2).put_lines [[0], [1, 1, 1]] = some (st2, true) ∧
      (LZEncoder.new ( GifIO.mk_dev (MemDevice.open_for_write (List.replicate 8 0))) 4
        2).put_lines [[0, 1, 1, 1]] = some (st3, true) ∧
      st1.f = st2.f ∧ st1.f = st3.f ∧
      st1.f.d.written = [] ++ AEnc.data_bytes 2 4 [0, 1, 1, 1] :=
  split_independence 2 4 (by decide) (by decide)
    ( GifIO.mk_dev (MemDevice.open_for_write (List.replicate 8 0))) [[0, 1], [1, 1]]
    [[0], [1, 1, 1]] (by decide) (by decide) (by decide) (by decide) (by decide) (by decide)

end gif

namespace game

/-! ## The snake game: cells of the snake and free cells -/

theorem range_any_getD (cs : List Int) (n : Nat) (c : Int) (h : n ≤ cs.length) :
    ((List.range n).any fun i => cs.getD i 0 == c) = true ↔ c ∈ cs.take n := by
  rw [List.any_eq_true]
  constructor
  · rintro ⟨i, hi, he⟩
    rw [List.mem_range] at hi
    have hil : i < cs.length := by omega
    rw [List.getD_eq_getElem cs 0 hil, beq_iff_eq] at he
    rw [List.mem_take_iff_getElem]
    exact ⟨i, by rw [Nat.lt_min]; exact ⟨hi, hil⟩, he⟩
  · intro hc
    rw [List.mem_take_iff_getElem] at hc
    obtain ⟨i, hi, he⟩ := hc
    rw [Nat.lt_min] at hi
    refine ⟨i, List.mem_range.2 hi.1, ?_⟩
    rw [List.getD_eq_getElem cs 0 hi.2, beq_iff_eq]
    exact he

theorem contains_tail_iff (s : Snake) (c : Int) (h : s.sz ≤ s.cs.length) :
    s.contains c true = true ↔ c ∈ s.cells := by
  unfold Snake.contains Snake.cells
  simp only [if_true]
  exact range_any_getD s.cs s.sz c h

theorem contains_body_iff (s : Snake) (c : Int) (h : s.sz ≤ s.cs.length) :
    s.contains c false = true ↔ c ∈ s.cs.take (s.sz - 1) := by
  unfold Snake.contains
  simp only [Bool.false_eq_true, if_false]
  exact range_any_getD s.cs (s.sz - 1) c (by omega)

theorem countP_ge_succ_of_mem (l : List Int) (k : Int) (h : k ∈ l) :
    l.countP (fun c => decide (k + 1 ≤ c)) + 1 ≤ l.countP (fun c => decide (k ≤ c)) := by
  induction l with
  | nil => cases h
  | cons a t ih =>
    rw [List.countP_cons, List.countP_cons]
    rcases List.mem_cons.1 h with rfl | ht
    · have hm : t.countP (fun c => decide (k + 1 ≤ c)) ≤ t.countP (fun c => decide (k ≤ c)) :=
        List.countP_mono_left (fun c _ hc => by
          simp only [decide_eq_true_eq] at hc ⊢
          omega)
      simp only [show ¬ (k + 1 ≤ k) by omega, decide_False, Bool.false_eq_true, if_false,
        Nat.add_zero, le_refl, decide_True, if_true]
      omega
    · have := ih ht
      by_cases h1 : k + 1 ≤ a
      · have h2 : k ≤ a := by omega
        simp only [h1, h2, decide_True, if_true]
        omega
      · simp only [h1, decide_False, Bool.false_eq_true, if_false, Nat.add_zero]
        split <;> omega

theorem countP_ge_succ_le (l : List Int) (k : Int) :
    l.countP (fun c => decide (k + 1 ≤ c)) ≤ l.countP (fun c => decide (k ≤ c)) :=
  List.countP_mono_left (fun c _ hc => by
    simp only [decide_eq_true_eq] at hc ⊢
    omega)

/-- The loop of `random_free_cell` from the cell `k` on with `r` free cells to pass:
it returns the free cell of index `r` among the cells from `k` on. -/
theorem free_loop_spec (s : Snake) (hs : s.sz ≤ s.cs.length) :
    ∀ (d k r fuel : Nat),
      r < (((List.range' k d).map fun (c : Nat) => (c : Int)).filter
        fun c => !s.contains c true).length →
      r + s.cells.countP (fun c => decide ((k : Int) ≤ c)) + 1 ≤ fuel →
      Game.free_cell_loop s fuel (r : Int) (k : Int) (s.contains k true) =
        (((List.range' k d).map fun (c : Nat) => (c : Int)).filter
          fun c => !s.contains c true)[r]? := by
  intro d
  induction d with
  | zero =>
    intro k r fuel hr _
    simp only [List.range'_zero, List.map_nil, List.filter_nil, List.length_nil] at hr
    omega
  | succ d ih =>
    intro k r fuel hr hf
    obtain ⟨f, rfl⟩ : ∃ f, fuel = f + 1 := ⟨fuel - 1, by omega⟩
    have hk1 : ((k : Int) + 1) = ((k + 1 : Nat) : Int) := by push_cast; rfl
    rw [List.range'_succ, List.map_cons] at hr ⊢
    cases hu : s.contains (k : Int) true with
    | true =>
      have hflt : (((k : Int) :: (List.range' (k + 1) d).map fun (c : Nat) => (c : Int)).filter
          fun c => !s.contains c true) =
          ((List.range' (k + 1) d).map fun (c : Nat) => (c : Int)).filter
            fun c => !s.contains c true := by
        rw [List.filter_cons]
        simp only [hu, Bool.not_true, Bool.false_eq_true, if_false]
      rw [hflt] at hr ⊢
      have hmem := (contains_tail_iff s k hs).1 hu
      have hc := countP_ge_succ_of_mem s.cells k hmem
      rw [hk1] at hc
      rw [Game.free_cell_loop]
      simp only [Bool.or_true, if_true, Bool.not_true, Bool.false_eq_true, if_false]
      rw [hk1]
      exact ih (k + 1) r f hr (by omega)
    | false =>
      have hflt : (((k : Int) :: (List.range' (k + 1) d).map fun (c : Nat) => (c : Int)).filter
          fun c => !s.contains c true) =
          (k : Int) :: ((List.range' (k + 1) d).map fun (c : Nat) => (c : Int)).filter
            fun c => !s.contains c true := by
        rw [List.filter_cons]
        simp only [hu, Bool.not_false, if_true]
      rw [hflt] at hr ⊢
      have hc := countP_ge_succ_le s.cells k
      rw [hk1] at hc
      cases r with
      | zero =>
        rw [Game.free_cell_loop]
        simp only [Nat.cast_zero, gt_iff_lt, lt_self_iff_false, decide_False, Bool.or_false,
          Bool.false_eq_true, if_false, List.getElem?_cons_zero]
      | succ r =>
        rw [List.length_cons] at hr
        rw [Game.free_cell_loop]
        have hpos : ((r + 1 : Nat) : Int) > 0 := by push_cast; omega
        have hsub : ((r + 1 : Nat) : Int) - 1 = (r : Int) := by push_cast; omega
        simp only [hpos, decide_True, Bool.true_or, if_true, Bool.not_false, hsub,
          List.getElem?_cons_succ]
        rw [hk1]
        exact ih (k + 1) r f (by omega) (by omega)

theorem cells_length (s : Snake) (hs : s.sz ≤ s.cs.length) : s.cells.length = s.sz := by
  unfold Snake.cells
  rw [List.length_take]
  omega

theorem mem_free_cells (g : Game) (c : Int) (hs : g.s.sz ≤ g.s.cs.length) :
    c ∈ g.free_cells ↔ (0 ≤ c ∧ c < g.f.sz.area.toNat) ∧ c ∉ g.s.cells := by
  unfold Game.free_cells
  rw [List.mem_filter, List.mem_map]
  constructor
  · rintro ⟨⟨k, hk, rfl⟩, hu⟩
    rw [List.mem_range] at hk
    refine ⟨⟨by omega, by omega⟩, ?_⟩
    intro hm
    rw [(contains_tail_iff g.s _ hs).2 hm] at hu
    cases hu
  · rintro ⟨⟨h0, h1⟩, hu⟩
    refine ⟨⟨c.toNat, List.mem_range.2 (by omega), by omega⟩, ?_⟩
    cases hc : g.s.contains c true with
    | true => exact absurd ((contains_tail_iff g.s c hs).1 hc) hu
    | false => rfl

/-- The number of free cells of a field that holds a snake of pairwise distinct
cells. -/
theorem free_cells_length (g : Game) (hs : g.s.sz ≤ g.s.cs.length) (hnd : g.s.cells.Nodup)
    (hin : ∀ c ∈ g.s.cells, 0 ≤ c ∧ c < g.f.sz.area) :
    g.free_cells.length + g.s.sz = g.f.sz.area.toNat := by
  have hL : (((List.range g.f.sz.area.toNat).map fun (c : Nat) => (c : Int))).Nodup :=
    (List.nodup_range _).map (fun a b hab => by simpa using hab)
  have hlen := List.length_eq_countP_add_countP (fun c => !g.s.contains c true)
    ((List.range g.f.sz.area.toNat).map fun (c : Nat) => (c : Int))
  rw [List.length_map, List.length_range, List.countP_eq_length_filter,
    List.countP_eq_length_filter] at hlen
  have hperm : (((List.range g.f.sz.area.toNat).map fun (c : Nat) => (c : Int)).filter
      (fun a => decide ¬ (!g.s.contains a true) = true)).Perm g.s.cells := by
    rw [List.perm_ext_iff_of_nodup (hL.filter _) hnd]
    intro c
    rw [List.mem_filter, List.mem_map]
    constructor
    · rintro ⟨_, hu⟩
      simp only [Bool.not_eq_true', Bool.not_eq_false', decide_eq_true_eq, Bool.not_eq_true,
        Bool.decide_eq_true] at hu
      exact (contains_tail_iff g.s c hs).1 (by simpa using hu)
    · intro hm
      have hb := hin c hm
      refine ⟨⟨c.toNat, List.mem_range.2 (by omega), by omega⟩, ?_⟩
      have := (contains_tail_iff g.s c hs).2 hm
      simp [this]
  have h2 := hperm.length_eq
  rw [cells_length g.s hs] at h2
  unfold Game.free_cells
  omega

/-- `random_free_cell` for a snake of pairwise distinct cells of the field that
leaves a cell free, and a draw `r` from 0 to `area - size - 1`: the call returns
the free cell of index `r` in increasing order. -/
theorem free_cell_spec (g : Game) (r : Int) (hs : g.s.sz ≤ g.s.cs.length)
    (hnd : g.s.cells.Nodup) (hin : ∀ c ∈ g.s.cells, 0 ≤ c ∧ c < g.f.sz.area)
    (hr0 : 0 ≤ r) (hr1 : r ≤ g.f.sz.area - g.s.sz - 1) :
    ∃ c, g.random_free_cell r = some c ∧ g.free_cells[r.toNat]? = some c ∧
      (0 ≤ c ∧ c < g.f.sz.area) ∧ c ∉ g.s.cells := by
  have hlen := free_cells_length g hs hnd hin
  have hr : r.toNat < g.free_cells.length := by omega
  have hcnt : g.s.cells.countP (fun c => decide (((0 : Nat) : Int) ≤ c)) ≤ g.s.sz := by
    have := List.countP_le_length (fun c => decide (((0 : Nat) : Int) ≤ c)) (l := g.s.cells)
    rw [cells_length g.s hs] at this
    exact this
  have hloop := free_loop_spec g.s hs g.f.sz.area.toNat 0 r.toNat (g.s.sz + r.toNat + 1)
    (by rw [← List.range_eq_range']; exact hr) (by omega)
  rw [← List.range_eq_range'] at hloop
  have hrr : ((r.toNat : Nat) : Int) = r := Int.toNat_of_nonneg hr0
  rw [hrr] at hloop
  have hmem := List.getElem_mem hr
  refine ⟨g.free_cells[r.toNat], ?_, List.getElem?_eq_getElem hr, ?_, ?_⟩
  · unfold Game.random_free_cell
    have h0 : ((0 : Nat) : Int) = 0 := rfl
    rw [h0] at hloop
    rw [hloop]
    exact List.getElem?_eq_getElem hr
  · have := ((mem_free_cells g _ hs).1 hmem).1
    omega
  · exact ((mem_free_cells g _ hs).1 hmem).2

end game

namespace game

/-! ## The snake game: moves -/

theorem snake_move_eq (s : Snake) (dir : Dir) (h2 : s.sz + 1 ≤ s.cs.length) :
    (s.move dir).cs =
        (s.head + s.f.move_value dir) :: (s.cs.take s.sz ++ s.cs.drop (s.sz + 1)) ∧
      (s.move dir).sz = s.sz ∧ (s.move dir).f = s.f := by
  refine ⟨?_, rfl, rfl⟩
  unfold Snake.move Snake.head
  cases hcs : s.cs with
  | nil => rw [hcs] at h2; simp only [List.length_nil] at h2; omega
  | cons c0 t =>
    simp only [List.take_succ_cons, List.take_zero, List.singleton_append, List.cons_append,
      List.getD_cons_zero, List.set_cons_zero, List.nil_append]

theorem snake_move_length (s : Snake) (dir : Dir) (h2 : s.sz + 1 ≤ s.cs.length) :
    (s.move dir).cs.length = s.cs.length := by
  rw [(snake_move_eq s dir h2).1]
  simp only [List.length_cons, List.length_append, List.length_take, List.length_drop]
  omega

theorem snake_move_cells (s : Snake) (dir : Dir) (h1 : 1 ≤ s.sz) (h2 : s.sz + 1 ≤ s.cs.length) :
    (s.move dir).cells = (s.head + s.f.move_value dir) :: s.cs.take (s.sz - 1) := by
  unfold Snake.cells
  rw [(snake_move_eq s dir h2).1, (snake_move_eq s dir h2).2.1]
  obtain ⟨k, hk⟩ : ∃ k, s.sz = k + 1 := ⟨s.sz - 1, by omega⟩
  rw [hk, List.take_succ_cons, Nat.add_sub_cancel,
    List.take_append_of_le_length (by rw [List.length_take]; omega), List.take_take]
  congr 2
  omega

theorem snake_grow_cells (s : Snake) (dir : Dir) (h2 : s.sz + 1 ≤ s.cs.length) :
    (s.move dir).grow.cells = (s.head + s.f.move_value dir) :: s.cells ∧
      (s.move dir).grow.sz = s.sz + 1 ∧ (s.move dir).grow.cs.length = s.cs.length ∧
      (s.move dir).grow.f = s.f := by
  have hl := snake_move_length s dir h2
  have hg : (s.move dir).grow = { s.move dir with sz := (s.move dir).sz + 1 } := by
    unfold Snake.grow
    rw [if_pos (by rw [hl, (snake_move_eq s dir h2).2.1]; omega)]
  rw [hg]
  refine ⟨?_, by show (s.move dir).sz + 1 = _; rw [(snake_move_eq s dir h2).2.1], hl, rfl⟩
  unfold Snake.cells
  show List.take ((s.move dir).sz + 1) (s.move dir).cs = _
  rw [(snake_move_eq s dir h2).1, (snake_move_eq s dir h2).2.1, List.take_succ_cons,
    List.take_append_of_le_length (by rw [List.length_take]; omega), List.take_take,
    Nat.min_self]

theorem head_mem_cells (s : Snake) (h1 : 1 ≤ s.sz) (h2 : s.sz ≤ s.cs.length) :
    s.head ∈ s.cells := by
  unfold Snake.head Snake.cells
  cases hcs : s.cs with
  | nil => rw [hcs] at h2; simp only [List.length_nil] at h2; omega
  | cons c0 t =>
    obtain ⟨k, hk⟩ : ∃ k, s.sz = k + 1 := ⟨s.sz - 1, by omega⟩
    rw [hk, List.take_succ_cons, List.getD_cons_zero]
    exact List.mem_cons_self _ _

/-- A move that `can_move` admits from a cell of the field ends in a cell of the
field. -/
theorem can_move_in_field (f : Field) (c : Int) (dir : Dir) (hw : 0 < f.sz.wd)
    (hh : 0 < f.sz.ht) (h0 : 0 ≤ c) (h1 : c < f.sz.area) (hm : f.can_move c dir = true) :
    0 ≤ c + f.move_value dir ∧ c + f.move_value dir < f.sz.area := by
  have ha : f.sz.area = f.sz.wd * f.sz.ht := rfl
  have hwd : f.sz.width = f.sz.wd := rfl
  have hmn : 0 ≤ f.sz.wd * (c / f.sz.wd) :=
    mul_nonneg (by omega) (Int.ediv_nonneg h0 (by omega))
  have htm : c.tmod f.sz.wd = c % f.sz.wd := Int.tmod_eq_emod h0 (by omega)
  have hdm := Int.emod_add_ediv c f.sz.wd
  have hmod0 := Int.emod_nonneg c (show f.sz.wd ≠ 0 by omega)
  have hq : c / f.sz.wd < f.sz.ht :=
    Int.ediv_lt_of_lt_mul hw (by rw [ha, mul_comm] at h1; exact h1)
  have hq0 : 0 ≤ c / f.sz.wd := Int.ediv_nonneg h0 (by omega)
  have hmul : f.sz.wd * (c / f.sz.wd) + f.sz.wd ≤ f.sz.wd * f.sz.ht := by
    have : f.sz.wd * (c / f.sz.wd + 1) ≤ f.sz.wd * f.sz.ht :=
      mul_le_mul_of_nonneg_left (by omega) (by omega)
    rw [mul_add, mul_one] at this
    exact this
  cases dir with
  | Left =>
    simp only [Field.can_move, Size.width, htm, decide_eq_true_eq] at hm
    simp only [Field.move_value]
    omega
  | Right =>
    simp only [Field.can_move, Size.width, htm, decide_eq_true_eq] at hm
    simp only [Field.move_value]
    rw [ha]
    omega
  | Up =>
    simp only [Field.can_move, Size.width, decide_eq_true_eq] at hm
    simp only [Field.move_value, Size.width]
    omega
  | Down =>
    simp only [Field.can_move, Size.width, decide_eq_true_eq] at hm
    simp only [Field.move_value, Size.width]
    omega
  | Err => simp only [Field.can_move, Bool.false_eq_true] at hm

end game

namespace game

theorem snake_move_head (s : Snake) (dir : Dir) (h2 : s.sz + 1 ≤ s.cs.length) :
    (s.move dir).head = s.head + s.f.move_value dir := by
  show (s.move dir).cs.getD 0 0 = _
  rw [(snake_move_eq s dir h2).1, List.getD_cons_zero]

theorem take_pred_sublist (cs : List Int) (n : Nat) : (cs.take (n - 1)).Sublist (cs.take n) := by
  have : cs.take (n - 1) = (cs.take n).take (n - 1) := by
    rw [List.take_take, Nat.min_eq_left (Nat.sub_le _ _)]
  rw [this]
  exact List.take_sublist _ _

/-- `Game::move` keeps the invariant of the game, and the field. -/
theorem inv_game_move (g : Game) (dir : Dir) (rnd : Int) (h : g.Inv) (hd : g.DrawOk rnd) :
    ∃ r, g.move dir rnd = some r ∧ r.1.Inv ∧ r.1.f = g.f := by
  unfold Game.move
  cases ho : g.over with
  | true =>
    simp only [if_true]
    exact ⟨_, rfl, h, rfl⟩
  | false =>
    simp only [Bool.false_eq_true, if_false]
    obtain ⟨hlt, hck, hc0, hc1⟩ := h.cookie ho
    have hlen : g.s.sz + 1 ≤ g.s.cs.length := by
      have := h.len
      omega
    have hlo := h.size_lo
    cases hb : (!g.f.can_move g.s.head dir ||
        g.s.contains (g.s.head + g.f.move_value dir) false) with
    | true =>
      simp only [if_true]
      exact ⟨_, rfl, ⟨h.field, h.wd_pos, h.ht_pos, h.len, h.size_lo, h.size_hi, h.cells,
        h.nodup, h.score, fun hf => by cases hf⟩, rfl⟩
    | false =>
      simp only [Bool.false_eq_true, if_false]
      rw [Bool.or_eq_false_iff] at hb
      have hcm : g.f.can_move g.s.head dir = true := by simpa using hb.1
      have hnc : g.s.contains (g.s.head + g.f.move_value dir) false = false := hb.2
      have hhead := head_mem_cells g.s (by omega) (by omega)
      have hin := h.cells _ hhead
      have hnew := can_move_in_field g.f g.s.head dir h.wd_pos h.ht_pos hin.1 hin.2 hcm
      have hnb : g.s.head + g.f.move_value dir ∉ g.s.cs.take (g.s.sz - 1) := by
        intro hm
        rw [(contains_body_iff g.s _ (by omega)).2 hm] at hnc
        cases hnc
      have hmh := snake_move_head g.s dir hlen
      rw [h.field] at hmh
      have hmc := snake_move_cells g.s dir (by omega) hlen
      rw [h.field] at hmc
      obtain ⟨gc, gs, gl, gf⟩ := snake_grow_cells g.s dir hlen
      rw [h.field] at gc
      cases he : ((g.s.move dir).head == g.cooky) with
      | false =>
        simp only [Bool.false_eq_true, if_false]
        have hne : g.s.head + g.f.move_value dir ≠ g.cooky := by
          rw [← hmh]
          exact fun hq => by rw [hq, beq_self_eq_true] at he; cases he
        refine ⟨_, rfl, ⟨?_, h.wd_pos, h.ht_pos, ?_, ?_, ?_, ?_, ?_, ?_, ?_⟩, rfl⟩
        · exact (snake_move_eq g.s dir hlen).2.2.trans h.field
        · show ((g.s.move dir).cs.length : Int) = _
          rw [snake_move_length g.s dir hlen]
          exact h.len
        · show 3 ≤ (g.s.move dir).sz
          rw [(snake_move_eq g.s dir hlen).2.1]
          exact hlo
        · show ((g.s.move dir).sz : Int) ≤ _
          rw [(snake_move_eq g.s dir hlen).2.1]
          exact h.size_hi
        · intro c hc
          have hc2 : c ∈ (g.s.move dir).cells := hc
          rw [hmc] at hc2
          rcases List.mem_cons.1 hc2 with rfl | hc2
          · exact hnew
          · exact h.cells c ((take_pred_sublist g.s.cs g.s.sz).subset hc2)
        · show (g.s.move dir).cells.Nodup
          rw [hmc]
          exact List.nodup_cons.2 ⟨hnb, h.nodup.sublist (take_pred_sublist g.s.cs g.s.sz)⟩
        · show ((g.s.move dir).sz : Int) = 3 + g.scr
          rw [(snake_move_eq g.s dir hlen).2.1]
          exact h.score
        · intro _
          refine ⟨?_, ?_, hc0, hc1⟩
          · show ((g.s.move dir).sz : Int) < _
            rw [(snake_move_eq g.s dir hlen).2.1]
            exact hlt
          · show g.cooky ∉ (g.s.move dir).cells
            rw [hmc]
            intro hm
            rcases List.mem_cons.1 hm with hq | hm
            · exact hne hq.symm
            · exact hck ((take_pred_sublist g.s.cs g.s.sz).subset hm)
      | true =>
        simp only [if_true]
        have heq : g.s.head + g.f.move_value dir = g.cooky := by
          rw [← hmh]
          exact beq_iff_eq.1 he
        have hnd1 : (g.s.move dir).grow.cells.Nodup := by
          rw [gc, heq]
          exact List.nodup_cons.2 ⟨hck, h.nodup⟩
        have hin1 : ∀ c ∈ (g.s.move dir).grow.cells, 0 ≤ c ∧ c < g.f.sz.area := by
          intro c hc
          rw [gc] at hc
          rcases List.mem_cons.1 hc with rfl | hc
          · exact hnew
          · exact h.cells c hc
        have hbase : ∀ (ck : Int) (ov : Bool),
            (ov = false → ((g.s.move dir).grow.sz : Int) < g.f.sz.area ∧
              ck ∉ (g.s.move dir).grow.cells ∧ 0 ≤ ck ∧ ck < g.f.sz.area) →
            ({ f := g.f, s := (g.s.move dir).grow, cooky := ck, scr := g.scr + 1,
               over := ov } : Game).Inv := by
          intro ck ov hk
          refine ⟨gf.trans h.field, h.wd_pos, h.ht_pos, ?_, ?_, ?_, hin1, hnd1, ?_, hk⟩
          · show (((g.s.move dir).grow.cs.length : Nat) : Int) = _
            rw [gl]
            exact h.len
          · show 3 ≤ (g.s.move dir).grow.sz
            rw [gs]
            omega
          · show (((g.s.move dir).grow.sz : Nat) : Int) ≤ _
            rw [gs]
            push_cast
            omega
          · show (((g.s.move dir).grow.sz : Nat) : Int) = 3 + (g.scr + 1)
            rw [gs]
            have := h.score
            push_cast
            omega
        by_cases hfull : (((g.s.move dir).grow.sz : Nat) : Int) < g.f.sz.area
        · simp only [hfull, if_true]
          have hsz : (((g.s.move dir).grow.sz : Nat) : Int) = g.s.sz + 1 := by
            rw [gs]
            push_cast
            rfl
          obtain ⟨c, e1, _, e3, e4⟩ := free_cell_spec
            ({ f := g.f, s := (g.s.move dir).grow, cooky := g.cooky, scr := g.scr + 1,
               over := false } : Game) rnd
            (by show (g.s.move dir).grow.sz ≤ (g.s.move dir).grow.cs.length
                rw [gs, gl]; exact hlen) hnd1 hin1 hd.1
            (by show rnd ≤ g.f.sz.area - ((g.s.move dir).grow.sz : Nat) - 1
                rw [hsz]
                exact hd.2 (by rw [← hsz]; exact hfull))
          unfold Game.new_cookie
          simp only [e1]
          exact ⟨_, rfl, hbase c false (fun _ => ⟨hfull, e4, e3.1, e3.2⟩), rfl⟩
        · simp only [hfull, if_false]
          exact ⟨_, rfl, hbase g.cooky true (fun hf => by cases hf), rfl⟩

end game

namespace game

theorem snake_new_eq (f : Field) (m : Nat) (hm : (f.sz.area + 1).toNat = m + 3) :
    Snake.new f =
      { cs := (f.sz.ht.tdiv 2 * f.sz.wd + 3) :: (f.sz.ht.tdiv 2 * f.sz.wd + 2) ::
          (f.sz.ht.tdiv 2 * f.sz.wd + 1) :: List.replicate m 0,
        sz := 3, f := f } := by
  unfold Snake.new
  simp only [hm, List.replicate_succ, List.set_cons_zero, List.set_cons_succ, Field.cell,
    Size.width, Size.height]
  norm_num

/-- The constructor of the game on a field of width of at least 4 and height of at
least 1, with a first draw from 0 to `area - 3 - 1`, returns a game that is not
over and satisfies the invariant. -/
theorem inv_game_new (w h : Int) (hw : 4 ≤ w) (hh : 1 ≤ h) (r0 : Int) (hr0 : 0 ≤ r0)
    (hr1 : r0 ≤ w * h - 3 - 1) :
    ∃ g, Game.new ⟨w, h⟩ r0 = some g ∧ g.Inv ∧ g.over = false ∧ g.f.sz = ⟨w, h⟩ ∧
      g.scr = 0 := by
  have hy : h.tdiv 2 = h / 2 := Int.tdiv_eq_ediv (by omega) (by norm_num)
  have hy0 : 0 ≤ h / 2 := by omega
  have hy1 : h / 2 + 1 ≤ h := by omega
  have hp0 : 0 ≤ h / 2 * w := mul_nonneg hy0 (by omega)
  have hp1 : h / 2 * w + w ≤ w * h := by
    have : (h / 2 + 1) * w ≤ h * w := mul_le_mul_of_nonneg_right hy1 (by omega)
    rw [add_mul, one_mul, mul_comm h w] at this
    exact this
  have ha : (⟨w, h⟩ : Size).area = w * h := rfl
  obtain ⟨m, hm⟩ : ∃ m, ((⟨⟨w, h⟩⟩ : Field).sz.area + 1).toNat = m + 3 :=
    ⟨(w * h + 1).toNat - 3, by show (w * h + 1).toNat = _; omega⟩
  have hsn := snake_new_eq ⟨⟨w, h⟩⟩ m hm
  simp only [hy] at hsn
  have hmA : (m : Int) + 3 = w * h + 1 := by
    have : ((w * h + 1).toNat : Int) = w * h + 1 := Int.toNat_of_nonneg (by omega)
    have hm2 : (w * h + 1).toNat = m + 3 := hm
    rw [hm2] at this
    push_cast at this
    exact this
  have hcells : (Snake.new ⟨⟨w, h⟩⟩).cells = [h / 2 * w + 3, h / 2 * w + 2, h / 2 * w + 1] := by
    unfold Snake.cells
    rw [hsn]
    rfl
  have hin : ∀ c ∈ (Snake.new ⟨⟨w, h⟩⟩).cells, 0 ≤ c ∧ c < w * h := by
    intro c hc
    rw [hcells] at hc
    simp only [List.mem_cons, List.mem_singleton, List.not_mem_nil, or_false] at hc
    rcases hc with rfl | rfl | rfl <;> constructor <;> omega
  have hnd : (Snake.new ⟨⟨w, h⟩⟩).cells.Nodup := by
    rw [hcells]
    simp only [List.nodup_cons, List.mem_cons, List.mem_singleton, List.not_mem_nil,
      List.nodup_nil, and_true, not_false_eq_true, or_false]
    omega
  have hsz : (Snake.new ⟨⟨w, h⟩⟩).sz = 3 := by rw [hsn]
  have hlen : (Snake.new ⟨⟨w, h⟩⟩).cs.length = m + 3 := by
    rw [hsn]
    simp only [List.length_cons, List.length_replicate]
  obtain ⟨c, e1, _, e3, e4⟩ := free_cell_spec
    ({ f := ⟨⟨w, h⟩⟩, s := Snake.new ⟨⟨w, h⟩⟩, cooky := 0, scr := 0, over := false } : Game) r0
    (by show (Snake.new ⟨⟨w, h⟩⟩).sz ≤ (Snake.new ⟨⟨w, h⟩⟩).cs.length
        rw [hsz, hlen]; omega)
    hnd hin hr0
    (by show r0 ≤ w * h - ((Snake.new ⟨⟨w, h⟩⟩).sz : Nat) - 1
        rw [hsz]; push_cast; exact hr1)
  refine ⟨{ f := ⟨⟨w, h⟩⟩, s := Snake.new ⟨⟨w, h⟩⟩, cooky := c, scr := 0, over := false },
    ?_, ?_, rfl, rfl, rfl⟩
  · unfold Game.new Game.new_cookie
    simp only [e1]
  · refine ⟨by rw [hsn], by show 0 < w; omega, by show 0 < h; omega, ?_, ?_, ?_, hin, hnd, ?_, ?_⟩
    · show (((Snake.new ⟨⟨w, h⟩⟩).cs.length : Nat) : Int) = w * h + 1
      rw [hlen]
      push_cast
      exact hmA
    · show 3 ≤ (Snake.new ⟨⟨w, h⟩⟩).sz
      rw [hsz]
    · show (((Snake.new ⟨⟨w, h⟩⟩).sz : Nat) : Int) ≤ w * h
      rw [hsz]
      push_cast
      omega
    · show (((Snake.new ⟨⟨w, h⟩⟩).sz : Nat) : Int) = 3 + 0
      rw [hsz]
      rfl
    · intro _
      refine ⟨?_, e4, e3.1, e3.2⟩
      show (((Snake.new ⟨⟨w, h⟩⟩).sz : Nat) : Int) < w * h
      rw [hsz]
      push_cast
      omega

/-- A sequence of moves with admissible draws from a game that satisfies the
invariant: every move returns and the game satisfies the invariant after it. -/
theorem inv_game_play :
    ∀ (moves : List (Dir × Int)) (g : Game), g.Inv → Game.DrawsOk moves g →
      ∃ g1, Game.play moves g = some g1 ∧ g1.Inv ∧ g1.f = g.f := by
  intro moves
  induction moves with
  | nil => intro g h _; exact ⟨g, rfl, h, rfl⟩
  | cons m rest ih =>
    intro g h hd
    obtain ⟨r, e1, e2, e3⟩ := inv_game_move g m.1 m.2 h hd.1
    have hd2 := hd.2
    simp only [e1] at hd2
    obtain ⟨g1, f1, f2, f3⟩ := ih r.1 e2 hd2
    refine ⟨g1, ?_, f2, f3.trans e3⟩
    rw [Game.play, e1]
    exact f1

end game

namespace game

theorem free_cells_sorted (g : Game) : g.free_cells.Pairwise (fun a b => a < b) := by
  unfold Game.free_cells
  apply List.Pairwise.filter
  rw [List.pairwise_map]
  exact (List.pairwise_lt_range _).imp (fun hab => by exact_mod_cast hab)

/-- C37.  Cookie placement: for a snake whose cells are pairwise distinct cells of
the field and fewer than the field has, and a draw `r` from 0 to
`area - length - 1`, `random_free_cell` returns, and what it returns is the entry of
index `r` of the list of the cells of the field that the snake does not occupy, in
increasing order: the free cell number `r + 1`.  It is a cell of the field and not
one of the snake. -/
theorem cookie_placement (g : Game) (r : Int) (hs : g.s.sz ≤ g.s.cs.length)
    (hnd : g.s.cells.Nodup) (hin : ∀ c ∈ g.s.cells, 0 ≤ c ∧ c < g.f.sz.area)
    (hlt : (g.s.cells.length : Int) < g.f.sz.area) (hr0 : 0 ≤ r)
    (hr1 : r ≤ g.f.sz.area - g.s.cells.length - 1) :
    ∃ c, g.random_free_cell r = some c ∧ g.free_cells[r.toNat]? = some c ∧
      (0 ≤ c ∧ c < g.f.sz.area) ∧ c ∉ g.s.cells ∧
      g.free_cells.Pairwise (fun a b => a < b) ∧
      ∀ x, x ∈ g.free_cells ↔ (0 ≤ x ∧ x < g.f.sz.area) ∧ x ∉ g.s.cells := by
  rw [cells_length g.s hs] at hlt hr1
  obtain ⟨c, e1, e2, e3, e4⟩ := free_cell_spec g r hs hnd hin hr0 hr1
  refine ⟨c, e1, e2, e3, e4, free_cells_sorted g, ?_⟩
  intro x
  rw [mem_free_cells g x hs]
  constructor
  · rintro ⟨⟨a, b⟩, c⟩
    exact ⟨⟨a, by omega⟩, c⟩
  · rintro ⟨⟨a, b⟩, c⟩
    exact ⟨⟨a, by omega⟩, c⟩

theorem cookie_placement_witness :
    ∃ c, ({ f := ⟨⟨4, 2⟩⟩, s := Snake.new ⟨⟨4, 2⟩⟩, cooky := 0, scr := 0, over := false } :
        Game).random_free_cell 2 = some c ∧ c = 2 ∧
      ({ f := ⟨⟨4, 2⟩⟩, s := Snake.new ⟨⟨4, 2⟩⟩, cooky := 0, scr := 0, over := false } :
        Game).free_cells = [0, 1, 2, 3, 4] ∧
      (Snake.new ⟨⟨4, 2⟩⟩).cells = [7, 6, 5] :=
  have h := cookie_placement
    { f := ⟨⟨4, 2⟩⟩, s := Snake.new ⟨⟨4, 2⟩⟩, cooky := 0, scr := 0, over := false } 2
    (by decide) (by decide) (by decide) (by decide) (by decide) (by decide)
  ⟨h.choose, h.choose_spec.1,
    Option.some.inj (h.choose_spec.1.symm.trans (by decide)), by decide, by decide⟩

/-- C36.  Snake game invariant: the constructor of the game on a field of width of
at least 4 and height of at least 1 (of an area that an `int` holds), with a first
draw that `dist(mt)` can return, returns a game with a snake of 3 cells and score 0
that is not over; and after every sequence of `Game::move` calls from it, with any
directions and any draws that `dist(mt)` can return, every call has returned, every
cell of the snake is a cell of the field, the cells of the snake are pairwise
distinct, the length of the snake is `3 + score`, and while the game is not over
the cookie is not a cell of the snake. -/
theorem snake_game_invariant (w h : Int) (hw : 4 ≤ w) (hh : 1 ≤ h) (hfit : w * h + 1 < 2 ^ 31)
    (r0 : Int) (hr0 : 0 ≤ r0) (hr1 : r0 ≤ w * h - 3 - 1) (moves : List (Dir × Int)) :
    ∃ g0, Game.new ⟨w, h⟩ r0 = some g0 ∧
      (g0.f.sz = ⟨w, h⟩ ∧ g0.s.sz = 3 ∧ g0.scr = 0 ∧ g0.over = false) ∧
      (Game.DrawsOk moves g0 →
        ∃ g, Game.play moves g0 = some g ∧
          (∀ c ∈ g.s.cells, 0 ≤ c ∧ c < w * h) ∧ g.s.cells.Nodup ∧
          (g.s.cells.length = g.s.sz ∧ (g.s.sz : Int) = 3 + g.scr) ∧
          (g.over = false → g.cooky ∉ g.s.cells)) := by
  obtain ⟨g0, e1, e2, e3, e4, e5⟩ := inv_game_new w h hw hh r0 hr0 hr1
  have hsz : g0.s.sz = 3 := by
    have := e2.score
    rw [e5] at this
    omega
  refine ⟨g0, e1, ⟨e4, hsz, e5, e3⟩, ?_⟩
  intro hd
  obtain ⟨g, f1, f2, f3⟩ := inv_game_play moves g0 e2 hd
  have ha : g.f.sz.area = w * h := by rw [f3, e4]; rfl
  refine ⟨g, f1, ?_, f2.nodup, ⟨?_, f2.score⟩, ?_⟩
  · intro c hc
    have := f2.cells c hc
    rw [ha] at this
    exact this
  · apply cells_length
    have := f2.len
    have := f2.size_hi
    omega
  · intro ho
    exact (f2.cookie ho).2.1

theorem snake_game_invariant_witness :
    (∃ g0, Game.new ⟨5, 2⟩ 6 = some g0 ∧
      ∃ g, Game.play [(Dir.Right, 2)] g0 = some g ∧
        (∀ c ∈ g.s.cells, 0 ≤ c ∧ c < 5 * 2) ∧ g.s.cells.Nodup ∧
        (g.s.cells.length = g.s.sz ∧ (g.s.sz : Int) = 3 + g.scr) ∧
        (g.over = false → g.cooky ∉ g.s.cells)) ∧
      ((Game.new ⟨5, 2⟩ 6).bind (Game.play [(Dir.Right, 2)])).map
        (fun g => (g.s.cells, g.cooky, g.scr, g.over)) = some ([9, 8, 7, 6], 2, 1, false) :=
  have h := snake_game_invariant 5 2 (by decide) (by decide) (by decide) 6 (by decide)
    (by decide) [(Dir.Right, 2)]
  ⟨⟨h.choose, h.choose_spec.1, h.choose_spec.2.2 ⟨⟨by decide, fun _ => by
      rw [h.choose_spec.2.1.1, h.choose_spec.2.1.2.1]
      decide⟩, by
      split <;> trivial⟩⟩, by decide⟩

end game

namespace gif

/-! ## Reading moves the position forward -/

theorem ahead_refl (io : GifIO) : io.Ahead io := ⟨rfl, Nat.le_refl _⟩

theorem ahead_trans {a b c : GifIO} (h1 : a.Ahead b) (h2 : b.Ahead c) : a.Ahead c :=
  ⟨h2.1.trans h1.1, Nat.le_trans h1.2 h2.2⟩

theorem ahead_bytes_left {a b : GifIO} (h : a.Ahead b) : b.d.bytesLeft ≤ a.d.bytesLeft := by
  unfold MemDevice.bytesLeft MemDevice.l
  rw [h.1]
  have := h.2
  omega

theorem ahead_set_error (io : GifIO) (e : ErrorCode) : io.Ahead (io.set_error e) :=
  ⟨rfl, Nat.le_refl _⟩

theorem ahead_of_set_error {a b : GifIO} (e : ErrorCode) (h : a.Ahead b) :
    a.Ahead (b.set_error e) := h

/-- `MemDevice::read`: the bytes and the capacity stay, the position moves forward by
the number of bytes handed out, which are bytes of the buffer. -/
theorem dev_read (dev : MemDevice) (n : Nat) :
    (dev.read n).1.d = dev.d ∧ (dev.read n).1.p = dev.p + (dev.read n).2.length ∧
      (dev.read n).2.length ≤ dev.bytesLeft ∧ (dev.read n).2.length ≤ n ∧
      ∀ b ∈ (dev.read n).2, b ∈ dev.d := by
  unfold MemDevice.read MemDevice.bytesLeft MemDevice.l
  simp only [List.length_take, List.length_drop]
  refine ⟨trivial, ?_, ?_, ?_, ?_⟩
  · split <;> omega
  · split <;> omega
  · split <;> omega
  · intro b hb
    exact List.mem_of_mem_drop (List.mem_of_mem_take hb)

theorem read_bytes_ahead (io : GifIO) (n : Nat) :
    io.Ahead (io.read_bytes n).1 ∧
      ((io.read_bytes n).2.2 = true → (io.read_bytes n).1.d.bytesLeft + n = io.d.bytesLeft) ∧
      (∀ b ∈ (io.read_bytes n).2.1, b ∈ io.d.d) ∧ (io.read_bytes n).2.1.length ≤ n := by
  obtain ⟨h1, h2, h3, h4, h5⟩ := dev_read io.d n
  unfold GifIO.read_bytes
  refine ⟨⟨h1, by show io.d.p ≤ (io.d.read n).1.p; omega⟩, ?_, h5, h4⟩
  intro hs
  simp only [beq_iff_eq] at hs
  show (io.d.read n).1.bytesLeft + n = io.d.bytesLeft
  unfold MemDevice.bytesLeft MemDevice.l at h3 ⊢
  rw [h1, h2]
  omega

theorem read_byte_ahead (io : GifIO) :
    io.Ahead io.read_byte.1 ∧
      (io.read_byte.2.2 = true → io.read_byte.1.d.bytesLeft + 1 = io.d.bytesLeft ∧
        io.read_byte.2.1 ∈ io.d.d) := by
  obtain ⟨h1, h2, h3, h4, h5⟩ := dev_read io.d 1
  unfold GifIO.read_byte
  refine ⟨⟨h1, by show io.d.p ≤ (io.d.read 1).1.p; omega⟩, ?_⟩
  intro hs
  simp only [beq_iff_eq] at hs
  constructor
  · show (io.d.read 1).1.bytesLeft + 1 = io.d.bytesLeft
    unfold MemDevice.bytesLeft MemDevice.l at h3 ⊢
    rw [h1, h2]
    omega
  · show (io.d.read 1).2.headD 0 ∈ io.d.d
    cases hl : (io.d.read 1).2 with
    | nil => rw [hl] at hs; cases hs
    | cons a t =>
      apply h5
      rw [hl]
      exact List.mem_cons_self _ _

theorem read_word_ahead (io : GifIO) : io.Ahead io.read_word.1 := by
  obtain ⟨h1, h2, _⟩ := dev_read io.d 2
  have h : io.Ahead ({ io with d := (io.d.read 2).1 } : GifIO) :=
    ⟨h1, by show io.d.p ≤ (io.d.read 2).1.p; omega⟩
  unfold GifIO.read_word
  simp only []
  split <;> exact h

theorem read_rgb_ahead (io : GifIO) : io.Ahead io.read_rgb.1 := by
  obtain ⟨h1, h2, _⟩ := dev_read io.d 3
  have h : io.Ahead ({ io with d := (io.d.read 3).1 } : GifIO) :=
    ⟨h1, by show io.d.p ≤ (io.d.read 3).1.p; omega⟩
  unfold GifIO.read_rgb
  simp only []
  split <;> exact h

theorem read_size_ahead (io : GifIO) : io.Ahead io.read_size.1 := by
  have a1 := read_word_ahead io
  have a2 := read_word_ahead io.read_word.1
  unfold GifIO.read_size
  simp only []
  split
  · exact a1
  · split
    · exact ahead_trans a1 a2
    · exact ahead_trans a1 a2

theorem read_point_ahead (io : GifIO) : io.Ahead io.read_point.1 := by
  have a1 := read_word_ahead io
  have a2 := read_word_ahead io.read_word.1
  unfold GifIO.read_point
  simp only []
  split
  · exact a1
  · split
    · exact ahead_trans a1 a2
    · exact ahead_trans a1 a2

theorem read_rect_ahead (io : GifIO) : io.Ahead io.read_rect.1 := by
  have a1 := read_point_ahead io
  have a2 := read_size_ahead io.read_point.1
  unfold GifIO.read_rect
  simp only []
  split
  · exact a1
  · split
    · exact ahead_trans a1 a2
    · exact ahead_trans a1 a2

theorem probe_ahead (io : GifIO) : io.Ahead io.probe.1 := by
  obtain ⟨h1, h2, _⟩ := dev_read io.d 6
  have h : io.Ahead ({ io with d := (io.d.read 6).1 } : GifIO) :=
    ⟨h1, by show io.d.p ≤ (io.d.read 6).1.p; omega⟩
  unfold GifIO.probe
  simp only []
  split
  · exact h
  · split
    · exact h
    · exact h

/-- `GifIO::read(GifRecordType *)`, when it succeeds, has consumed one byte. -/
theorem read_record_ahead (io : GifIO) :
    io.Ahead io.read_record.1 ∧
      (io.read_record.2.2 = true → io.read_record.1.d.bytesLeft + 1 = io.d.bytesLeft) := by
  obtain ⟨a, b⟩ := read_byte_ahead io
  unfold GifIO.read_record
  simp only []
  cases hb : io.read_byte.2.2 with
  | false =>
    simp only [Bool.not_false, if_true]
    exact ⟨a, fun hf => by cases hf⟩
  | true =>
    have hb2 := (b hb).1
    simp only [Bool.not_true, Bool.false_eq_true, if_false]
    split
    · exact ⟨a, fun _ => hb2⟩
    · split
      · exact ⟨a, fun _ => hb2⟩
      · split
        · exact ⟨a, fun _ => hb2⟩
        · exact ⟨a, fun hf => by cases hf⟩

theorem cm_load_loop_ahead :
    ∀ (n : Nat) (cm : ColorMap) (io : GifIO), io.Ahead (ColorMap.load_loop n cm io).2.1 := by
  intro n
  induction n with
  | zero => intro cm io; exact ahead_refl io
  | succ n ih =>
    intro cm io
    rw [ColorMap.load_loop]
    split
    · exact read_rgb_ahead io
    · exact ahead_trans (read_rgb_ahead io) (ih _ _)

theorem cm_load_ahead (cm : ColorMap) (io : GifIO) : io.Ahead (cm.load io).2.1 :=
  cm_load_loop_ahead _ cm io

end gif

namespace gif

/-! ## The decoder on arbitrary input: reading codes -/

theorem fit_of_input (st st1 : LZDecoder) (h : st1.input = st.input) (hf : st.Fit) :
    st1.Fit := by
  unfold LZDecoder.input at h
  simp only [Prod.mk.injEq] at h
  obtain ⟨h1, h2, h3, _, h5, _⟩ := h
  exact ⟨by rw [h1]; exact hf.bytes, by rw [h2]; exact hf.buf0, by rw [h3]; exact hf.shift,
    by rw [h5]; exact hf.bits⟩

theorem code_fit_of_input (st st1 : LZDecoder) (h : st1.input = st.input) (hf : st.CodeFit) :
    st1.CodeFit := by
  unfold LZDecoder.input at h
  simp only [Prod.mk.injEq] at h
  obtain ⟨_, _, _, _, _, h6, _, _, _, h10, _⟩ := h
  exact ⟨by rw [h6]; exact hf.code_lo, by rw [h6]; exact hf.code_hi,
    by rw [h10]; exact hf.eof_lo, by rw [h10]; exact hf.eof_hi⟩

theorem bits_left_of_input (st st1 : LZDecoder) (h : st1.input = st.input) :
    st1.bits_left = st.bits_left := by
  unfold LZDecoder.input at h
  simp only [Prod.mk.injEq] at h
  obtain ⟨h1, h2, h3, _⟩ := h
  unfold LZDecoder.bits_left
  rw [h1, h2, h3]

theorem ahead_of_input (st st1 : LZDecoder) (h : st1.input = st.input) : st.f.Ahead st1.f := by
  unfold LZDecoder.input at h
  simp only [Prod.mk.injEq] at h
  exact ⟨by rw [h.1], by rw [h.1]⟩

/-- `read_buf`: the byte count stays a byte, the position moves forward, and a call
that succeeds takes one byte out of the current sub-block, after reading the next
sub-block behind its length byte when the current one is used up. -/
theorem read_buf_fit (st : LZDecoder) (hf : st.Fit) :
    st.read_buf.1.Fit ∧ st.f.Ahead st.read_buf.1.f ∧ st.read_buf.1.core = st.core ∧
      st.read_buf.1.crnt_shift_state = st.crnt_shift_state ∧
      st.read_buf.1.crnt_shift_dword = st.crnt_shift_dword ∧
      (st.read_buf.2.2 = true →
        8 * st.read_buf.1.buf 0 + 8 * st.read_buf.1.f.d.bytesLeft + 8 ≤
          8 * st.buf 0 + 8 * st.f.d.bytesLeft) := by
  obtain ⟨f1, f2, f3, f4⟩ := hf
  unfold LZDecoder.read_buf
  by_cases hb : st.buf 0 = 0
  · simp only [if_pos hb]
    obtain ⟨a1, a2, a3, a4⟩ := read_bytes_ahead st.f 1
    have hd1 : ∀ b ∈ (st.f.read_bytes 1).1.d.d, b < 256 := by rw [a1.1]; exact f1
    cases h1 : (st.f.read_bytes 1).2.2 with
    | false =>
      simp only [Bool.not_false, if_true]
      refine ⟨⟨hd1, ?_, f3, f4⟩, a1, by first | rfl | trivial, by first | rfl | trivial,
        by first | rfl | trivial, fun hx => by cases hx⟩
      show (if (0 : Nat) = 0 ∧ (st.f.read_bytes 1).2.1 ≠ []
        then (st.f.read_bytes 1).2.1.headD 0 else st.buf 0) ≤ 255
      split
      · cases hl : (st.f.read_bytes 1).2.1 with
        | nil => exact Nat.zero_le _
        | cons x t =>
          have := f1 x (a3 x (by rw [hl]; exact List.mem_cons_self _ _))
          simp only [List.headD_cons]
          omega
      · exact f2
    | true =>
      simp only [Bool.not_true, Bool.false_eq_true, if_false]
      have e2 := (read_bytes_ok st.f 1 h1).2.1
      have a2 := a2 h1
      obtain ⟨x, hx⟩ : ∃ x, (st.f.read_bytes 1).2.1 = [x] := by
        cases hr : (st.f.read_bytes 1).2.1 with
        | nil => rw [hr] at e2; simp at e2
        | cons a t =>
          rw [hr] at e2
          have ht : t = [] := by
            simp only [List.length_cons] at e2
            exact List.eq_nil_of_length_eq_zero (by omega)
          exact ⟨a, by rw [ht]⟩
      have hx256 : x < 256 := f1 x (a3 x (by rw [hx]; exact List.mem_cons_self _ _))
      simp only [hx, List.headD_cons, ne_eq, List.cons_ne_nil, not_false_eq_true, and_true,
        if_true]
      by_cases hx0 : x = 0
      · simp only [if_pos hx0]
        refine ⟨⟨hd1, ?_, f3, f4⟩, a1, by first | rfl | trivial, by first | rfl | trivial,
          by first | rfl | trivial, fun hx => by cases hx⟩
        show (if (0 : Nat) = 0 then x else st.buf 0) ≤ 255
        rw [if_pos rfl]
        omega
      · simp only [if_neg hx0]
        obtain ⟨c1, c2, c3, c4⟩ := read_bytes_ahead (st.f.read_bytes 1).1 x
        have a12 := ahead_trans a1 c1
        have hd2 : ∀ b ∈ ((st.f.read_bytes 1).1.read_bytes x).1.d.d, b < 256 := by
          rw [a12.1]; exact f1
        cases h2 : ((st.f.read_bytes 1).1.read_bytes x).2.2 with
        | false =>
          simp only [Bool.not_false, if_true]
          refine ⟨⟨hd2, ?_, f3, f4⟩, a12, by first | rfl | trivial, by first | rfl | trivial,
            by first | rfl | trivial, fun hx => by cases hx⟩
          show (if 1 ≤ 0 ∧ 0 < 1 + ((st.f.read_bytes 1).1.read_bytes x).2.1.length
            then ((st.f.read_bytes 1).1.read_bytes x).2.1.getD (0 - 1) 0
            else if (0 : Nat) = 0 then x else st.buf 0) ≤ 255
          rw [if_neg (by omega), if_pos rfl]
          omega
        | true =>
          simp only [Bool.not_true, Bool.false_eq_true, if_false]
          have c2 := c2 h2
          have hb0 : (if 1 ≤ 0 ∧ 0 < 1 + ((st.f.read_bytes 1).1.read_bytes x).2.1.length
              then ((st.f.read_bytes 1).1.read_bytes x).2.1.getD (0 - 1) 0 else x) = x :=
            if_neg (by omega)
          refine ⟨⟨hd2, ?_, f3, f4⟩, a12, by first | rfl | trivial, by first | rfl | trivial,
            by first | rfl | trivial, fun _ => ?_⟩
          · show (_ : Nat) ≤ 255
            simp only [if_true]
            rw [hb0]
            omega
          · simp only [if_true]
            rw [hb0]
            omega
  · simp only [if_neg hb]
    refine ⟨⟨f1, ?_, f3, f4⟩, ahead_refl _, by first | rfl | trivial, by first | rfl | trivial,
      by first | rfl | trivial, fun _ => ?_⟩
    · show (_ : Nat) ≤ 255
      simp only [if_true]
      omega
    · simp only [if_true]
      omega

end gif

namespace gif

theorem core_fields (st1 st : LZDecoder) (h : st1.core = st.core) :
    st1.col_res = st.col_res ∧ st1.clear_code = st.clear_code ∧ st1.eof_code = st.eof_code ∧
      st1.run_code = st.run_code ∧ st1.run_bits = st.run_bits ∧ st1.max_code = st.max_code ∧
      st1.last_code = st.last_code ∧ st1.pix_count = st.pix_count ∧
      st1.stack_ptr = st.stack_ptr ∧ st1.stack = st.stack ∧ st1.suffix = st.suffix ∧
      st1.prefix_ = st.prefix_ := by
  simp only [LZDecoder.core, Prod.mk.injEq] at h
  obtain ⟨⟨h1, h2, h3, h4, h5, h6, h7, h8, h9⟩, h10, h11, h12⟩ := h
  exact ⟨h1, h2, h3, h4, h5, h6, h7, h8, h9, h10, h11, h12⟩

/-- The loop of `decode` that fills the shift register, for a width of at most
`LZ::bits`: the register stays within 19 bits, no bit of input is gained, and when
the loop is left without a failed read the register holds a code. -/
theorem fill_loop_fit :
    ∀ (fuel : Nat) (st : LZDecoder), st.Fit → st.run_bits ≤ 12 →
      (LZDecoder.fill_loop fuel st).1.Fit ∧ st.f.Ahead (LZDecoder.fill_loop fuel st).1.f ∧
        (LZDecoder.fill_loop fuel st).1.core = st.core ∧
        ((LZDecoder.fill_loop fuel st).2 = true →
          (LZDecoder.fill_loop fuel st).1.bits_left ≤ st.bits_left ∧
            (st.run_bits ≤ st.crnt_shift_state + 8 * fuel →
              st.run_bits ≤ (LZDecoder.fill_loop fuel st).1.crnt_shift_state)) := by
  intro fuel
  induction fuel with
  | zero =>
    intro st hf _
    exact ⟨hf, ahead_refl _, rfl, fun _ => ⟨Nat.le_refl _, fun h => by
      show st.run_bits ≤ st.crnt_shift_state
      omega⟩⟩
  | succ n ih =>
    intro st hf h12
    rw [LZDecoder.fill_loop]
    by_cases hs : st.crnt_shift_state < st.run_bits
    · rw [if_pos hs]
      obtain ⟨r1, r2, r3, r4, r5, r6⟩ := read_buf_fit st hf
      cases hr : st.read_buf.2.2 with
      | false =>
        simp only [hr, Bool.not_false, if_true]
        exact ⟨r1, r2, r3, fun hx => by cases hx⟩
      | true =>
        have hstep : ∀ X : LZDecoder × Bool,
            (let r := st.read_buf
             if !r.2.2 then (r.1, false) else X) = X := by
          intro X
          simp only [hr, Bool.not_true, Bool.false_eq_true, if_false]
        rw [hstep]
        have r6 := r6 hr
        have hbits := (core_fields _ _ r3).2.2.2.2.1
        have hf1 : LZDecoder.Fit
            { st.read_buf.1 with
              crnt_shift_dword := st.read_buf.1.crnt_shift_dword |||
                (st.read_buf.2.1 <<< st.read_buf.1.crnt_shift_state),
              crnt_shift_state := st.read_buf.1.crnt_shift_state + 8 } :=
          ⟨r1.bytes, r1.buf0, by show st.read_buf.1.crnt_shift_state + 8 ≤ 19; omega, r1.bits⟩
        obtain ⟨f1, f2, f3, f4⟩ := ih
          { st.read_buf.1 with
              crnt_shift_dword := st.read_buf.1.crnt_shift_dword |||
                (st.read_buf.2.1 <<< st.read_buf.1.crnt_shift_state),
              crnt_shift_state := st.read_buf.1.crnt_shift_state + 8 } hf1
          (by show st.read_buf.1.run_bits ≤ 12; omega)
        refine ⟨f1, ahead_trans r2 f2, f3.trans r3, fun hx => ?_⟩
        obtain ⟨g1, g2⟩ := f4 hx
        constructor
        · refine Nat.le_trans g1 ?_
          show st.read_buf.1.crnt_shift_state + 8 + 8 * st.read_buf.1.buf 0 +
            8 * st.read_buf.1.f.d.bytesLeft ≤
            st.crnt_shift_state + 8 * st.buf 0 + 8 * st.f.d.bytesLeft
          omega
        · intro hb
          have := g2 (by
            show st.read_buf.1.run_bits ≤ st.read_buf.1.crnt_shift_state + 8 + 8 * n
            omega)
          exact hbits ▸ this
    · rw [if_neg hs]
      exact ⟨hf, ahead_refl _, rfl, fun _ => ⟨Nat.le_refl _, fun _ => by
        show st.run_bits ≤ st.crnt_shift_state
        omega⟩⟩

theorem code_masks_le (k : Nat) : LZDecoder.code_masks.getD k 0 ≤ 4095 := by
  by_cases hk : k < 13
  · interval_cases k <;> decide
  · rw [List.getD_eq_default _ _ (by
      show LZDecoder.code_masks.length ≤ k
      have : LZDecoder.code_masks.length = 13 := rfl
      omega)]
    exact Nat.zero_le _

/-- `decode` on any input: the code is at most `LZ::max_code`, the tables and the
stack stay, `run_code` stays at most `LZ::max_code + 2`, and a call that succeeds
has taken `run_bits` bits, at least one, out of the input. -/
theorem decode_fit (st : LZDecoder) (hf : st.Fit) :
    st.decode.1.Fit ∧ st.f.Ahead st.decode.1.f ∧ st.decode.1.tables = st.tables ∧
      st.decode.2.1 ≤ 4095 ∧ (st.CodeFit → st.decode.1.CodeFit) ∧
      (st.decode.2.2 = true → st.decode.1.bits_left + 1 ≤ st.bits_left) := by
  unfold LZDecoder.decode
  by_cases hb : st.run_bits > LZ.bits
  · rw [if_pos hb]
    exact ⟨⟨hf.bytes, hf.buf0, hf.shift, hf.bits⟩, ahead_refl _, rfl, Nat.zero_le _,
      fun hc => ⟨hc.code_lo, hc.code_hi, hc.eof_lo, hc.eof_hi⟩, fun hx => by cases hx⟩
  · rw [if_neg hb]
    have h12 : st.run_bits ≤ 12 := by
      have : LZ.bits = 12 := rfl
      omega
    obtain ⟨f1, f2, f3, f4⟩ := fill_loop_fit st.run_bits st hf h12
    obtain ⟨c1, c2, c3, c4, c5, c6, c7, c8, c9, c10, c11, c12⟩ := core_fields _ _ f3
    cases hfl : (LZDecoder.fill_loop st.run_bits st).2 with
    | false =>
      simp only [hfl, Bool.not_false, if_true]
      refine ⟨f1, f2, ?_, Nat.zero_le _, fun hc => ⟨by rw [c4]; exact hc.code_lo,
        by rw [c4]; exact hc.code_hi, by rw [c3]; exact hc.eof_lo, by rw [c3]; exact hc.eof_hi⟩,
        fun hx => by cases hx⟩
      simp only [LZDecoder.tables, c1, c2, c3, c7, c8, c9, c10, c11, c12]
    | true =>
      obtain ⟨g1, g2⟩ := f4 hfl
      have g2 := g2 (by omega)
      have hb1 := hf.bits
      simp only [hfl, Bool.not_true, Bool.false_eq_true, if_false]
      have hcode : (LZDecoder.fill_loop st.run_bits st).1.crnt_shift_dword &&&
          LZDecoder.code_masks.getD (LZDecoder.fill_loop st.run_bits st).1.run_bits 0 ≤ 4095 :=
        Nat.le_trans Nat.and_le_right (code_masks_le _)
      have hsh := f1.shift
      have hbl : (LZDecoder.fill_loop st.run_bits st).1.crnt_shift_state -
          (LZDecoder.fill_loop st.run_bits st).1.run_bits +
          8 * (LZDecoder.fill_loop st.run_bits st).1.buf 0 +
          8 * (LZDecoder.fill_loop st.run_bits st).1.f.d.bytesLeft + 1 ≤ st.bits_left := by
        unfold LZDecoder.bits_left at g1 ⊢
        omega
      have htab : ∀ st2 : LZDecoder, st2.col_res = (LZDecoder.fill_loop st.run_bits st).1.col_res →
          st2.clear_code = (LZDecoder.fill_loop st.run_bits st).1.clear_code →
          st2.eof_code = (LZDecoder.fill_loop st.run_bits st).1.eof_code →
          st2.last_code = (LZDecoder.fill_loop st.run_bits st).1.last_code →
          st2.pix_count = (LZDecoder.fill_loop st.run_bits st).1.pix_count →
          st2.stack_ptr = (LZDecoder.fill_loop st.run_bits st).1.stack_ptr →
          st2.stack = (LZDecoder.fill_loop st.run_bits st).1.stack →
          st2.suffix = (LZDecoder.fill_loop st.run_bits st).1.suffix →
          st2.prefix_ = (LZDecoder.fill_loop st.run_bits st).1.prefix_ →
          st2.tables = st.tables := by
        intro st2 e1 e2 e3 e4 e5 e6 e7 e8 e9
        simp only [LZDecoder.tables, e1, e2, e3, e4, e5, e6, e7, e8, e9, c1, c2, c3, c7, c8, c9,
          c10, c11, c12]
      split_ifs with h1 h2
      · refine ⟨⟨f1.bytes, f1.buf0, ?_, ?_⟩, f2, htab _ rfl rfl rfl rfl rfl rfl rfl rfl rfl,
          hcode, fun hc => ⟨?_, ?_, ?_, ?_⟩, fun _ => hbl⟩
        · show (LZDecoder.fill_loop st.run_bits st).1.crnt_shift_state -
            (LZDecoder.fill_loop st.run_bits st).1.run_bits ≤ 19
          omega
        · show 1 ≤ (LZDecoder.fill_loop st.run_bits st).1.run_bits + 1
          omega
        · show 2 ≤ (LZDecoder.fill_loop st.run_bits st).1.run_code + 1
          rw [c4]
          have := hc.code_lo
          omega
        · show (LZDecoder.fill_loop st.run_bits st).1.run_code + 1 ≤ 4097
          have : (LZDecoder.fill_loop st.run_bits st).1.run_code < LZ.max_code + 2 := h1
          have : LZ.max_code = 4095 := rfl
          omega
        · show 1 ≤ (LZDecoder.fill_loop st.run_bits st).1.eof_code
          rw [c3]; exact hc.eof_lo
        · show (LZDecoder.fill_loop st.run_bits st).1.eof_code ≤ 4095
          rw [c3]; exact hc.eof_hi
      · refine ⟨⟨f1.bytes, f1.buf0, ?_, ?_⟩, f2, htab _ rfl rfl rfl rfl rfl rfl rfl rfl rfl,
          hcode, fun hc => ⟨?_, ?_, ?_, ?_⟩, fun _ => hbl⟩
        · show (LZDecoder.fill_loop st.run_bits st).1.crnt_shift_state -
            (LZDecoder.fill_loop st.run_bits st).1.run_bits ≤ 19
          omega
        · show 1 ≤ (LZDecoder.fill_loop st.run_bits st).1.run_bits
          omega
        · show 2 ≤ (LZDecoder.fill_loop st.run_bits st).1.run_code + 1
          rw [c4]
          have := hc.code_lo
          omega
        · show (LZDecoder.fill_loop st.run_bits st).1.run_code + 1 ≤ 4097
          have : (LZDecoder.fill_loop st.run_bits st).1.run_code < LZ.max_code + 2 := h1
          have : LZ.max_code = 4095 := rfl
          omega
        · show 1 ≤ (LZDecoder.fill_loop st.run_bits st).1.eof_code
          rw [c3]; exact hc.eof_lo
        · show (LZDecoder.fill_loop st.run_bits st).1.eof_code ≤ 4095
          rw [c3]; exact hc.eof_hi
      · refine ⟨⟨f1.bytes, f1.buf0, ?_, ?_⟩, f2, htab _ rfl rfl rfl rfl rfl rfl rfl rfl rfl,
          hcode, fun hc => ⟨?_, ?_, ?_, ?_⟩, fun _ => hbl⟩
        · show (LZDecoder.fill_loop st.run_bits st).1.crnt_shift_state -
            (LZDecoder.fill_loop st.run_bits st).1.run_bits ≤ 19
          omega
        · show 1 ≤ (LZDecoder.fill_loop st.run_bits st).1.run_bits
          omega
        · show 2 ≤ (LZDecoder.fill_loop st.run_bits st).1.run_code
          rw [c4]; exact hc.code_lo
        · show (LZDecoder.fill_loop st.run_bits st).1.run_code ≤ 4097
          rw [c4]; exact hc.code_hi
        · show 1 ≤ (LZDecoder.fill_loop st.run_bits st).1.eof_code
          rw [c3]; exact hc.eof_lo
        · show (LZDecoder.fill_loop st.run_bits st).1.eof_code ≤ 4095
          rw [c3]; exact hc.eof_hi

end gif

namespace gif

/-! ## The decoder on arbitrary input: the stack -/

theorem walk_loop_keeps :
    ∀ (n : Nat) (st : LZDecoder) (c : Nat),
      (LZDecoder.walk_loop n st c).1.input = st.input ∧
        st.stack_ptr ≤ (LZDecoder.walk_loop n st c).1.stack_ptr ∧
        (st.stack_ptr ≤ 4095 → (LZDecoder.walk_loop n st c).1.stack_ptr ≤ 4095) := by
  intro n
  induction n with
  | zero =>
    intro st c
    exact ⟨rfl, Nat.le_refl _, fun h => h⟩
  | succ n ih =>
    intro st c
    rw [LZDecoder.walk_loop]
    split
    · rename_i hc
      simp only [Bool.and_eq_true, decide_eq_true_eq] at hc
      have hm : LZ.max_code = 4095 := rfl
      obtain ⟨i1, i2, i3⟩ := ih
        { st with stack := fun i => if i = st.stack_ptr then st.suffix c else st.stack i,
                  stack_ptr := st.stack_ptr + 1 } (st.prefix_ c)
      refine ⟨i1, ?_, fun _ => i3 ?_⟩
      · have : st.stack_ptr + 1 ≤ _ := i2
        omega
      · show st.stack_ptr + 1 ≤ 4095
        omega
    · exact ⟨rfl, Nat.le_refl _, fun h => h⟩

theorem pop_loop_keeps :
    ∀ (n : Nat) (st : LZDecoder) (line : List Nat) (len : Nat),
      (LZDecoder.pop_loop n st line len).1.input = st.input ∧
        (LZDecoder.pop_loop n st line len).1.stack_ptr ≤ st.stack_ptr ∧
        (st.stack_ptr ≤ n → (LZDecoder.pop_loop n st line len).2.length < len →
          (LZDecoder.pop_loop n st line len).1.stack_ptr = 0) := by
  intro n
  induction n with
  | zero =>
    intro st line len
    exact ⟨rfl, Nat.le_refl _, fun h _ => by
      show st.stack_ptr = 0
      omega⟩
  | succ n ih =>
    intro st line len
    rw [LZDecoder.pop_loop]
    split
    · rename_i hc
      simp only [Bool.and_eq_true, bne_iff_ne, ne_eq, decide_eq_true_eq] at hc
      obtain ⟨i1, i2, i3⟩ := ih { st with stack_ptr := st.stack_ptr - 1 }
        (line ++ [st.stack (st.stack_ptr - 1)]) len
      refine ⟨i1, ?_, fun hn hl => i3 ?_ hl⟩
      · have : _ ≤ st.stack_ptr - 1 := i2
        omega
      · show st.stack_ptr - 1 ≤ n
        omega
    · rename_i hc
      simp only [Bool.and_eq_true, bne_iff_ne, ne_eq, decide_eq_true_eq, not_and, not_lt] at hc
      refine ⟨rfl, Nat.le_refl _, fun _ hl => ?_⟩
      by_contra h0
      have := hc h0
      have hl : line.length < len := hl
      omega

theorem add_entry_keeps (st : LZDecoder) (c : Nat) :
    (st.add_entry c).input = st.input ∧ (st.add_entry c).stack_ptr = st.stack_ptr := by
  unfold LZDecoder.add_entry
  simp only []
  split
  · exact ⟨rfl, rfl⟩
  · exact ⟨rfl, rfl⟩

/-- The expansion of a code leaves the members that read the input alone; started
with an empty stack it leaves at most `LZ::max_code` entries on the stack, and none
when it returns true with room left in the line. -/
theorem expand_keeps (st0 : LZDecoder) (c : Nat) (line : List Nat) (len : Nat) :
    (st0.expand c line len).1.input = st0.input ∧
      (st0.stack_ptr = 0 → (st0.expand c line len).1.stack_ptr ≤ 4095 ∧
        ((st0.expand c line len).2.2 = true → (st0.expand c line len).2.1.length < len →
          (st0.expand c line len).1.stack_ptr = 0)) := by
  have hm : LZ.max_code = 4095 := rfl
  unfold LZDecoder.expand
  by_cases h1 : c < st0.clear_code
  · rw [if_pos h1]
    obtain ⟨a1, a2⟩ := add_entry_keeps st0 c
    refine ⟨a1, fun h0 => ?_⟩
    have : (st0.add_entry c).stack_ptr = 0 := a2.trans h0
    exact ⟨by show (st0.add_entry c).stack_ptr ≤ 4095; omega, fun _ _ => this⟩
  · rw [if_neg h1]
    simp only []
    split
    · exact ⟨rfl, fun h0 => ⟨by show st0.stack_ptr ≤ 4095; omega, fun hx => by cases hx⟩⟩
    · generalize hst1 : (if (st0.prefix_ c != LZ.no_such_code) = true then st0
          else
            { st0 with
                stack := fun i => if i = st0.stack_ptr
                  then LZDecoder.prefix_char st0.prefix_ st0.last_code st0.clear_code % 256
                  else st0.stack i,
                stack_ptr := st0.stack_ptr + 1,
                suffix := fun i => if i = st0.run_code - 2
                  then LZDecoder.prefix_char st0.prefix_ st0.last_code st0.clear_code % 256
                  else st0.suffix i }) = st1
      have hin1 : st1.input = st0.input := by
        rw [← hst1]
        split
        · rfl
        · rfl
      have hsp1 : st0.stack_ptr = 0 → st1.stack_ptr ≤ 4095 := by
        intro h0
        rw [← hst1]
        split
        · omega
        · show st0.stack_ptr + 1 ≤ 4095
          omega
      generalize hcp : (if (st0.prefix_ c != LZ.no_such_code) = true then c
        else st0.last_code) = cp
      obtain ⟨w1, w2, w3⟩ := walk_loop_keeps LZ.max_code st1 cp
      split
      · exact ⟨w1.trans hin1, fun h0 => ⟨w3 (hsp1 h0), fun hx => by cases hx⟩⟩
      · rename_i hw
        simp only [ge_iff_le, Bool.or_eq_true, decide_eq_true_eq, not_or, not_le, not_lt] at hw
        obtain ⟨p1, p2, p3⟩ := pop_loop_keeps
          ((LZDecoder.walk_loop LZ.max_code st1 cp).1.stack_ptr + 1)
          { (LZDecoder.walk_loop LZ.max_code st1 cp).1 with
              stack := fun i => if i = (LZDecoder.walk_loop LZ.max_code st1 cp).1.stack_ptr
                then (LZDecoder.walk_loop LZ.max_code st1 cp).2 % 256
                else (LZDecoder.walk_loop LZ.max_code st1 cp).1.stack i,
              stack_ptr := (LZDecoder.walk_loop LZ.max_code st1 cp).1.stack_ptr + 1 } line len
        obtain ⟨a1, a2⟩ := add_entry_keeps (LZDecoder.pop_loop
          ((LZDecoder.walk_loop LZ.max_code st1 cp).1.stack_ptr + 1)
          { (LZDecoder.walk_loop LZ.max_code st1 cp).1 with
              stack := fun i => if i = (LZDecoder.walk_loop LZ.max_code st1 cp).1.stack_ptr
                then (LZDecoder.walk_loop LZ.max_code st1 cp).2 % 256
                else (LZDecoder.walk_loop LZ.max_code st1 cp).1.stack i,
              stack_ptr := (LZDecoder.walk_loop LZ.max_code st1 cp).1.stack_ptr + 1 } line len).1 c
        refine ⟨a1.trans (p1.trans (w1.trans hin1)), fun _ => ⟨?_, fun _ hl => ?_⟩⟩
        · refine Nat.le_trans (Nat.le_of_eq a2) (Nat.le_trans p2 ?_)
          show (LZDecoder.walk_loop LZ.max_code st1 cp).1.stack_ptr + 1 ≤ 4095
          omega
        · exact a2.trans (p3 (Nat.le_refl _) hl)

end gif

namespace gif

theorem tables_fields (st1 st : LZDecoder) (h : st1.tables = st.tables) :
    st1.col_res = st.col_res ∧ st1.clear_code = st.clear_code ∧ st1.eof_code = st.eof_code ∧
      st1.last_code = st.last_code ∧ st1.pix_count = st.pix_count ∧
      st1.stack_ptr = st.stack_ptr ∧ st1.stack = st.stack ∧ st1.suffix = st.suffix ∧
      st1.prefix_ = st.prefix_ := by
  simp only [LZDecoder.tables, Prod.mk.injEq] at h
  obtain ⟨⟨h1, h2, h3, h4, h5, h6⟩, h7, h8, h9⟩ := h
  exact ⟨h1, h2, h3, h4, h5, h6, h7, h8, h9⟩

/-- One iteration of the main loop of `decode_line` on any input: an iteration after
which the loop goes on has taken at least one bit out of the input, and, started with
an empty stack, it ends with an empty stack when there is room left in the line. -/
theorem decode_step_fit (st : LZDecoder) (line : List Nat) (len : Nat) (hf : st.Fit) :
    (st.decode_step line len).1.Fit ∧ st.f.Ahead (st.decode_step line len).1.f ∧
      (st.CodeFit → (st.decode_step line len).1.CodeFit) ∧
      ((st.decode_step line len).2.2 = true →
        (st.decode_step line len).1.bits_left + 1 ≤ st.bits_left) ∧
      (st.stack_ptr = 0 → (st.decode_step line len).1.stack_ptr ≤ 4095 ∧
        ((st.decode_step line len).2.2 = true → (st.decode_step line len).2.1.length < len →
          (st.decode_step line len).1.stack_ptr = 0)) := by
  obtain ⟨d1, d2, d3, d4, d5, d6⟩ := decode_fit st hf
  obtain ⟨_, _, _, _, _, t6, _⟩ := tables_fields _ _ d3
  unfold LZDecoder.decode_step
  simp only []
  cases hd : st.decode.2.2 with
  | false =>
    simp only [Bool.not_false, if_true]
    exact ⟨d1, d2, d5, (fun hx => by cases hx), fun h0 =>
      ⟨by rw [t6, h0]; exact Nat.zero_le _, fun hx => by cases hx⟩⟩
  | true =>
    simp only [Bool.not_true, Bool.false_eq_true, if_false]
    have d6 := d6 hd
    by_cases he : st.decode.2.1 = st.decode.1.eof_code
    · rw [if_pos he]
      exact ⟨⟨d1.bytes, d1.buf0, d1.shift, d1.bits⟩, d2,
        fun hc => ⟨(d5 hc).code_lo, (d5 hc).code_hi, (d5 hc).eof_lo, (d5 hc).eof_hi⟩,
        (fun hx => by cases hx), fun h0 =>
        ⟨by show st.decode.1.stack_ptr ≤ 4095; rw [t6, h0]; exact Nat.zero_le _,
          fun hx => by cases hx⟩⟩
    · rw [if_neg he]
      by_cases hcl : st.decode.2.1 = st.decode.1.clear_code
      · rw [if_pos hcl]
        refine ⟨⟨d1.bytes, d1.buf0, d1.shift, ?_⟩, d2, fun hc => ⟨?_, ?_, (d5 hc).eof_lo,
          (d5 hc).eof_hi⟩, fun _ => d6, fun h0 => ⟨?_, fun _ _ => ?_⟩⟩
        · show 1 ≤ st.decode.1.col_res + 1
          omega
        · show 2 ≤ st.decode.1.eof_code + 1
          have := (d5 hc).eof_lo
          omega
        · show st.decode.1.eof_code + 1 ≤ 4097
          have := (d5 hc).eof_hi
          omega
        · show st.decode.1.stack_ptr ≤ 4095
          rw [t6, h0]
          exact Nat.zero_le _
        · show st.decode.1.stack_ptr = 0
          rw [t6, h0]
      · rw [if_neg hcl]
        obtain ⟨e1, e2⟩ := expand_keeps st.decode.1 st.decode.2.1 line len
        refine ⟨fit_of_input _ _ e1 d1, ahead_trans d2 (ahead_of_input _ _ e1),
          fun hc => code_fit_of_input _ _ e1 (d5 hc), fun _ => ?_, fun h0 => e2 (t6.trans h0)⟩
        rw [bits_left_of_input _ _ e1]
        exact d6

/-- The main loop of `decode_line` returns on every input: every iteration after
which the loop goes on takes a bit out of the input. -/
theorem decode_loop_total :
    ∀ (fuel : Nat) (st : LZDecoder) (line : List Nat) (len : Nat), st.Fit →
      st.bits_left < fuel → (line.length < len → st.stack_ptr = 0) → st.stack_ptr ≤ 4095 →
      ∃ r, LZDecoder.decode_loop fuel st line len = some r ∧ r.1.Fit ∧ st.f.Ahead r.1.f ∧
        (st.CodeFit → r.1.CodeFit) ∧ r.1.stack_ptr ≤ 4095 := by
  intro fuel
  induction fuel with
  | zero =>
    intro st line len _ hb
    omega
  | succ n ih =>
    intro st line len hf hb h0 h1
    rw [LZDecoder.decode_loop]
    by_cases hl : line.length < len
    · rw [if_pos hl]
      obtain ⟨s1, s2, s3, s4, s5⟩ := decode_step_fit st line len hf
      obtain ⟨s5, s6⟩ := s5 (h0 hl)
      cases hr : (st.decode_step line len).2.2 with
      | false =>
        simp only [hr, Bool.not_false, if_true]
        exact ⟨_, rfl, s1, s2, s3, s5⟩
      | true =>
        simp only [hr, Bool.not_true, Bool.false_eq_true, if_false]
        have s4 := s4 hr
        obtain ⟨r, i1, i2, i3, i4, i5⟩ := ih (st.decode_step line len).1
          (st.decode_step line len).2.1 len s1 (by omega) (s6 hr) s5
        exact ⟨r, i1, i2, ahead_trans s2 i3, fun hc => i4 (s3 hc), i5⟩
    · rw [if_neg hl]
      exact ⟨_, rfl, hf, ahead_refl _, fun hc => hc, h1⟩

/-- `decode_line` returns on every input when the fuel is above the bits left. -/
theorem decode_line_total (fuel : Nat) (st : LZDecoder) (len : Nat) (hf : st.Fit)
    (hb : st.bits_left < fuel) (h1 : st.stack_ptr ≤ 4095) :
    ∃ r, LZDecoder.decode_line fuel st len = some r ∧ r.1.Fit ∧ st.f.Ahead r.1.f ∧
      (st.CodeFit → r.1.CodeFit) ∧ r.1.stack_ptr ≤ 4095 := by
  unfold LZDecoder.decode_line
  have hm : LZ.max_code = 4095 := rfl
  rw [if_neg (by omega)]
  simp only []
  obtain ⟨p1, p2, p3⟩ := pop_loop_keeps st.stack_ptr st [] len
  obtain ⟨r, i1, i2, i3, i4, i5⟩ := decode_loop_total fuel
    (LZDecoder.pop_loop st.stack_ptr st [] len).1 (LZDecoder.pop_loop st.stack_ptr st [] len).2 len
    (fit_of_input _ _ p1 hf) (by rw [bits_left_of_input _ _ p1]; exact hb)
    (p3 (Nat.le_refl _)) (Nat.le_trans p2 h1)
  exact ⟨r, i1, i2, ahead_trans (ahead_of_input _ _ p1) i3,
    fun hc => i4 (code_fit_of_input _ _ p1 hc), i5⟩

end gif

namespace gif

/-- `next_code` on any input: a call that reads a block has read at least one
byte. -/
theorem next_code_fit (st : LZDecoder) (hf : st.Fit) :
    st.next_code.1.Fit ∧ st.f.Ahead st.next_code.1.f ∧
      st.next_code.1.stack_ptr = st.stack_ptr ∧ (st.CodeFit → st.next_code.1.CodeFit) ∧
      (st.next_code.2.2 = true → st.next_code.2.1 = true →
        st.next_code.1.f.d.bytesLeft + 1 ≤ st.f.d.bytesLeft) := by
  obtain ⟨a1, a2⟩ := read_byte_ahead st.f
  have hd1 : ∀ b ∈ st.f.read_byte.1.d.d, b < 256 := by rw [a1.1]; exact hf.bytes
  unfold LZDecoder.next_code
  simp only []
  cases h1 : st.f.read_byte.2.2 with
  | false =>
    simp only [Bool.not_false, if_true]
    exact ⟨⟨hd1, hf.buf0, hf.shift, hf.bits⟩, a1, (by first | rfl | trivial),
      fun hc => ⟨hc.code_lo, hc.code_hi, hc.eof_lo, hc.eof_hi⟩, fun hx => by cases hx⟩
  | true =>
    simp only [Bool.not_true, Bool.false_eq_true, if_false]
    obtain ⟨a2, a3⟩ := a2 h1
    have hbyte := hf.bytes _ a3
    by_cases hp : st.f.read_byte.2.1 > 0
    · rw [if_pos hp]
      obtain ⟨c1, c2, c3, c4⟩ := read_bytes_ahead st.f.read_byte.1 st.f.read_byte.2.1
      have a12 := ahead_trans a1 c1
      have hd2 : ∀ b ∈ (st.f.read_byte.1.read_bytes st.f.read_byte.2.1).1.d.d, b < 256 := by
        rw [a12.1]; exact hf.bytes
      have hle := ahead_bytes_left c1
      cases h2 : (st.f.read_byte.1.read_bytes st.f.read_byte.2.1).2.2 with
      | false =>
        simp only [Bool.not_false, if_true]
        refine ⟨⟨hd2, ?_, hf.shift, hf.bits⟩, a12, (by first | rfl | trivial),
          fun hc => ⟨hc.code_lo, hc.code_hi, hc.eof_lo, hc.eof_hi⟩, fun hx => by cases hx⟩
        show (_ : Nat) ≤ 255
        simp only [if_true]
        omega
      | true =>
        simp only [Bool.not_true, Bool.false_eq_true, if_false]
        refine ⟨⟨hd2, ?_, hf.shift, hf.bits⟩, a12, (by first | rfl | trivial),
          fun hc => ⟨hc.code_lo, hc.code_hi, hc.eof_lo, hc.eof_hi⟩, fun _ _ => ?_⟩
        · show (_ : Nat) ≤ 255
          simp only [if_true]
          omega
        · show (st.f.read_byte.1.read_bytes st.f.read_byte.2.1).1.d.bytesLeft + 1 ≤
            st.f.d.bytesLeft
          omega
    · rw [if_neg hp]
      refine ⟨⟨hd1, ?_, hf.shift, hf.bits⟩, a1, (by first | rfl | trivial),
        fun hc => ⟨hc.code_lo, hc.code_hi, hc.eof_lo, hc.eof_hi⟩, fun _ hx => by cases hx⟩
      show (_ : Nat) ≤ 255
      simp only [if_true]
      omega

/-- The loop of `getLine` that reads the blocks behind the pixels returns on every
input: every iteration after which the loop goes on reads at least one byte. -/
theorem drain_loop_total :
    ∀ (fuel : Nat) (st : LZDecoder), st.Fit → st.f.d.bytesLeft < fuel →
      ∃ r, LZDecoder.drain_loop fuel st = some r ∧ r.1.Fit ∧ st.f.Ahead r.1.f ∧
        r.1.stack_ptr = st.stack_ptr ∧ (st.CodeFit → r.1.CodeFit) := by
  intro fuel
  induction fuel with
  | zero =>
    intro st _ hb
    omega
  | succ n ih =>
    intro st hf hb
    obtain ⟨n1, n2, n3, n4, n5⟩ := next_code_fit st hf
    rw [LZDecoder.drain_loop]
    cases h1 : st.next_code.2.2 with
    | false =>
      simp only [Bool.not_false, if_true]
      exact ⟨_, rfl, n1, n2, n3, n4⟩
    | true =>
      simp only [Bool.not_true, Bool.false_eq_true, if_false]
      cases h2 : st.next_code.2.1 with
      | false =>
        simp only [Bool.false_eq_true, if_false]
        exact ⟨_, rfl, n1, n2, n3, n4⟩
      | true =>
        simp only [if_true]
        have := n5 h1 h2
        obtain ⟨r, i1, i2, i3, i4, i5⟩ := ih st.next_code.1 n1 (by omega)
        exact ⟨r, i1, i2, ahead_trans n2 i3, i4.trans n3, fun hc => i5 (n4 hc)⟩

/-- `getLine` returns on every input: the bits left of the input are below the
bound `8 * (bytes left + 256) + 32` on the code reads of the call. -/
theorem getLine_total (st : LZDecoder) (len : Int) (hf : st.Fit) (h1 : st.stack_ptr ≤ 4095) :
    ∃ r, st.getLine len = some r ∧ r.1.Fit ∧ st.f.Ahead r.1.f ∧
      (st.CodeFit → r.1.CodeFit) ∧ r.1.stack_ptr ≤ 4095 := by
  unfold LZDecoder.getLine
  simp only []
  split
  · exact ⟨_, rfl, ⟨hf.bytes, hf.buf0, hf.shift, hf.bits⟩, ahead_refl _,
      fun hc => ⟨hc.code_lo, hc.code_hi, hc.eof_lo, hc.eof_hi⟩, h1⟩
  · have hf1 : LZDecoder.Fit
        { st with pix_count := (((st.pix_count : Int) - len) % 2 ^ 64).toNat } :=
      ⟨hf.bytes, hf.buf0, hf.shift, hf.bits⟩
    obtain ⟨r, i1, i2, i3, i4, i5⟩ := decode_line_total (8 * (st.f.d.bytesLeft + 256) + 32)
      { st with pix_count := (((st.pix_count : Int) - len) % 2 ^ 64).toNat } len.toNat hf1
      (by
        show st.crnt_shift_state + 8 * st.buf 0 + 8 * st.f.d.bytesLeft < _
        have := hf.buf0
        have := hf.shift
        omega) h1
    rw [i1]
    simp only []
    cases hr : r.2.2 with
    | false =>
      simp only [Bool.not_false, if_true]
      exact ⟨_, rfl, i2, i3, fun hc => i4 ⟨hc.code_lo, hc.code_hi, hc.eof_lo, hc.eof_hi⟩, i5⟩
    | true =>
      simp only [Bool.not_true, Bool.false_eq_true, if_false]
      by_cases hp : r.1.pix_count = 0
      · rw [if_pos hp]
        obtain ⟨r2, j1, j2, j3, j4, j5⟩ := drain_loop_total (r.1.f.d.bytesLeft + 1) r.1 i2
          (by omega)
        rw [j1]
        exact ⟨_, rfl, j2, ahead_trans i3 j3,
          fun hc => j5 (i4 ⟨hc.code_lo, hc.code_hi, hc.eof_lo, hc.eof_hi⟩),
          by show r2.1.stack_ptr ≤ 4095; rw [j4]; exact i5⟩
      · rw [if_neg hp]
        exact ⟨_, rfl, i2, i3, fun hc => i4 ⟨hc.code_lo, hc.code_hi, hc.eof_lo, hc.eof_hi⟩, i5⟩

end gif

namespace gif

/-! ## `Gif::load` returns on every input -/

theorem ahead_bytes {a b : GifIO} (h : a.Ahead b) (hb : ∀ x ∈ a.d.d, x < 256) :
    ∀ x ∈ b.d.d, x < 256 := by
  rw [h.1]
  exact hb

theorem new_fit (file : GifIO) (n cr : Nat) (hb : ∀ x ∈ file.d.d, x < 256) :
    (LZDecoder.new file n cr).Fit ∧ (LZDecoder.new file n cr).stack_ptr = 0 :=
  ⟨⟨hb, Nat.zero_le _, Nat.zero_le _, Nat.succ_le_succ (Nat.zero_le _)⟩, rfl⟩

theorem load_rows_total :
    ∀ (rows : List Nat) (dec : LZDecoder) (b : List Nat) (w : Nat), dec.Fit →
      dec.stack_ptr ≤ 4095 →
      ∃ r, Image.load_rows rows dec b w = some r ∧ dec.f.Ahead r.1.f := by
  intro rows
  induction rows with
  | nil =>
    intro dec b w _ _
    exact ⟨_, rfl, ahead_refl _⟩
  | cons j rest ih =>
    intro dec b w hf h1
    obtain ⟨r, g1, g2, g3, _, g5⟩ := getLine_total dec (toInt32 w) hf h1
    rw [Image.load_rows, g1]
    simp only []
    cases hr : r.2.2 with
    | false =>
      simp only [Bool.not_false, if_true]
      exact ⟨_, rfl, g3⟩
    | true =>
      simp only [Bool.not_true, Bool.false_eq_true, if_false]
      obtain ⟨r2, i1, i2⟩ := ih r.1
        (b.take (j * w) ++ r.2.1 ++ b.drop (j * w + r.2.1.length)) w g2 g5
      exact ⟨r2, i1, ahead_trans g3 i2⟩

theorem load_desc_ahead (img : Image) (io : GifIO) : io.Ahead (img.load_desc io).2.1 := by
  have a1 := read_rect_ahead io
  have a2 := (read_byte_ahead io.read_rect.1).1
  unfold Image.load_desc
  simp only []
  split
  · exact a1
  · split
    · exact ahead_trans a1 a2
    · split
      · have a3 := cm_load_ahead
          (ColorMap.new ((io.read_rect.1.read_byte.2.1 &&& 0x07) + 1)) io.read_rect.1.read_byte.1
        split
        · exact ahead_trans a1 (ahead_trans a2 a3)
        · exact ahead_trans a1 (ahead_trans a2 a3)
      · exact ahead_trans a1 a2

/-- `Image::load` returns on every input. -/
theorem image_load_total (img : Image) (io : GifIO) (hb : ∀ x ∈ io.d.d, x < 256) :
    ∃ r, img.load io = some r ∧ io.Ahead r.2.1 := by
  have a1 := load_desc_ahead img io
  unfold Image.load
  simp only []
  split
  · exact ⟨_, rfl, a1⟩
  · have a2 := (read_byte_ahead (img.load_desc io).2.1).1
    have a12 := ahead_trans a1 a2
    split
    · exact ⟨_, rfl, a12⟩
    · obtain ⟨nf, n0⟩ := new_fit (img.load_desc io).2.1.read_byte.1
        (img.load_desc io).1.rect.area (img.load_desc io).2.1.read_byte.2.1 (ahead_bytes a12 hb)
      split
      · obtain ⟨r, i1, i2⟩ := load_rows_total (interlace_rows (img.load_desc io).1.rect.height)
          _ (resize (img.load_desc io).1.b (img.load_desc io).1.rect.area)
          (img.load_desc io).1.rect.width nf (by rw [n0]; exact Nat.zero_le _)
        rw [i1]
        exact ⟨_, rfl, ahead_trans a12 i2⟩
      · obtain ⟨r, g1, _, g3, _⟩ := getLine_total _
          (toInt32 (resize (img.load_desc io).1.b (img.load_desc io).1.rect.area).length) nf
          (by rw [n0]; exact Nat.zero_le _)
        rw [g1]
        exact ⟨_, rfl, ahead_trans a12 g3⟩

theorem load_chunk_ahead (io : GifIO) :
    io.Ahead (Extension.load_chunk io).1 ∧
      ((Extension.load_chunk io).2.2.2 = true →
        (Extension.load_chunk io).1.d.bytesLeft + 1 ≤ io.d.bytesLeft) := by
  obtain ⟨a1, a2⟩ := read_byte_ahead io
  unfold Extension.load_chunk
  simp only []
  cases h1 : io.read_byte.2.2 with
  | false =>
    simp only [Bool.not_false, if_true]
    exact ⟨a1, fun hx => by cases hx⟩
  | true =>
    simp only [Bool.not_true, Bool.false_eq_true, if_false]
    have a2 := (a2 h1).1
    split
    · exact ⟨a1, fun _ => by show io.read_byte.1.d.bytesLeft + 1 ≤ _; omega⟩
    · obtain ⟨c1, _⟩ := read_bytes_ahead io.read_byte.1 io.read_byte.2.1
      have hle := ahead_bytes_left c1
      split
      · exact ⟨ahead_trans a1 c1, fun hx => by cases hx⟩
      · exact ⟨ahead_trans a1 c1, fun _ => by
          show (io.read_byte.1.read_bytes io.read_byte.2.1).1.d.bytesLeft + 1 ≤ _
          omega⟩

/-- The loop of `Extension::load` returns on every input: every iteration after
which the loop goes on reads at least one byte. -/
theorem ext_load_loop_total :
    ∀ (fuel : Nat) (ext : Extension) (io : GifIO), io.d.bytesLeft < fuel →
      ∃ r, Extension.load_loop fuel ext io = some r ∧ io.Ahead r.2.1 := by
  intro fuel
  induction fuel with
  | zero =>
    intro ext io hb
    omega
  | succ n ih =>
    intro ext io hb
    obtain ⟨c1, c2⟩ := load_chunk_ahead io
    rw [Extension.load_loop]
    cases h1 : (Extension.load_chunk io).2.2.2 with
    | false =>
      simp only [Bool.not_false, if_true]
      exact ⟨_, rfl, c1⟩
    | true =>
      simp only [Bool.not_true, Bool.false_eq_true, if_false]
      have c2 := c2 h1
      split
      · exact ⟨_, rfl, c1⟩
      · obtain ⟨r, i1, i2⟩ := ih { ext with list := ext.list ++ [(Extension.load_chunk io).2.1] }
          (Extension.load_chunk io).1 (by omega)
        exact ⟨r, i1, ahead_trans c1 i2⟩

theorem ext_load_total (ext : Extension) (io : GifIO) :
    ∃ r, ext.load io = some r ∧ io.Ahead r.2.1 := by
  have a1 := (read_byte_ahead io).1
  unfold Extension.load
  simp only []
  split
  · exact ⟨_, rfl, a1⟩
  · obtain ⟨r, i1, i2⟩ := ext_load_loop_total (io.read_byte.1.d.bytesLeft + 1)
      { ext with fn := io.read_byte.2.1 } io.read_byte.1 (by omega)
    exact ⟨r, i1, ahead_trans a1 i2⟩

/-- One iteration of the record loop of `Gif::load` returns on every input, and an
iteration after which the loop goes on has read at least the tag byte. -/
theorem load_record_total (g : Gif) (io : GifIO) (exts : List Extension)
    (hb : ∀ x ∈ io.d.d, x < 256) :
    ∃ r, Gif.load_record g io exts = some r ∧ io.Ahead r.2.1 ∧
      (r.2.2.2 ≠ some false → r.2.1.d.bytesLeft + 1 ≤ io.d.bytesLeft) := by
  obtain ⟨a1, a2⟩ := read_record_ahead io
  unfold Gif.load_record
  simp only []
  cases h1 : io.read_record.2.2 with
  | false =>
    simp only [Bool.not_false, if_true]
    exact ⟨_, rfl, a1, fun hx => absurd rfl hx⟩
  | true =>
    simp only [Bool.not_true, Bool.false_eq_true, if_false]
    have a2 := a2 h1
    cases ht : io.read_record.2.1 with
    | image_desc =>
      simp only []
      obtain ⟨ri, i1, i2⟩ := image_load_total Image.new io.read_record.1 (ahead_bytes a1 hb)
      have hle := ahead_bytes_left i2
      rw [i1]
      simp only []
      split
      · exact ⟨_, rfl, ahead_trans a1 i2, fun hx => absurd rfl hx⟩
      · exact ⟨_, rfl, ahead_trans a1 i2, fun _ => by show ri.2.1.d.bytesLeft + 1 ≤ _; omega⟩
    | extension =>
      simp only []
      obtain ⟨re, i1, i2⟩ := ext_load_total Extension.new io.read_record.1
      have hle := ahead_bytes_left i2
      rw [i1]
      simp only []
      split
      · exact ⟨_, rfl, ahead_trans a1 i2, fun hx => absurd rfl hx⟩
      · exact ⟨_, rfl, ahead_trans a1 i2, fun _ => by show re.2.1.d.bytesLeft + 1 ≤ _; omega⟩
    | terminate =>
      simp only []
      exact ⟨_, rfl, a1, fun _ => by show io.read_record.1.d.bytesLeft + 1 ≤ _; omega⟩
    | undefined =>
      simp only []
      exact ⟨_, rfl, a1, fun _ => by show io.read_record.1.d.bytesLeft + 1 ≤ _; omega⟩
    | screen_desc =>
      simp only []
      exact ⟨_, rfl, a1, fun _ => by show io.read_record.1.d.bytesLeft + 1 ≤ _; omega⟩

/-- The record loop of `Gif::load` returns on every input. -/
theorem load_loop_total :
    ∀ (fuel : Nat) (g : Gif) (io : GifIO) (exts : List Extension),
      (∀ x ∈ io.d.d, x < 256) → io.d.bytesLeft < fuel →
      ∃ r, Gif.load_loop fuel g io exts = some r := by
  intro fuel
  induction fuel with
  | zero =>
    intro g io exts _ hb
    omega
  | succ n ih =>
    intro g io exts hb hl
    obtain ⟨r, r1, r2, r3⟩ := load_record_total g io exts hb
    rw [Gif.load_loop, r1]
    simp only []
    cases hr : r.2.2.2 with
    | some b => exact ⟨_, rfl⟩
    | none =>
      simp only []
      have := r3 (by rw [hr]; exact fun h => by cases h)
      exact ih r.1 r.2.1 r.2.2.1 (ahead_bytes r2 hb) (by omega)

theorem load_scr_desc_ahead (g : Gif) (io : GifIO) : io.Ahead (g.load_scr_desc io).2.1 := by
  have a1 := read_size_ahead io
  have a2 := (read_bytes_ahead io.read_size.1 3).1
  unfold Gif.load_scr_desc
  simp only []
  split
  · exact a1
  · split
    · exact ahead_trans a1 a2
    · split
      · have a3 := cm_load_ahead
          (ColorMap.new ((((io.read_size.1.read_bytes 3).2.1.getD 0 0) &&& 0x07) + 1))
          (io.read_size.1.read_bytes 3).1
        split
        · exact ahead_trans a1 (ahead_trans a2 a3)
        · exact ahead_trans a1 (ahead_trans a2 a3)
      · exact ahead_trans a1 a2

theorem gif_load_total (g : Gif) (dev : MemDevice) (hb : ∀ x ∈ dev.d, x < 256) :
    ∃ r, g.load dev = some r := by
  have a1 := probe_ahead ( GifIO.mk_dev dev)
  have a2 := load_scr_desc_ahead g ( GifIO.mk_dev dev).probe.1
  have hb2 : ∀ x ∈ (g.load_scr_desc ( GifIO.mk_dev dev).probe.1).2.1.d.d, x < 256 :=
    ahead_bytes (ahead_trans a1 a2) hb
  unfold Gif.load
  simp only []
  split
  · exact ⟨_, rfl⟩
  · split
    · exact ⟨_, rfl⟩
    · obtain ⟨r, hr⟩ := load_loop_total
        ((g.load_scr_desc ( GifIO.mk_dev dev).probe.1).2.1.d.bytesLeft + 1)
        (g.load_scr_desc ( GifIO.mk_dev dev).probe.1).1
        (g.load_scr_desc ( GifIO.mk_dev dev).probe.1).2.1 [] hb2 (by omega)
      rw [hr]
      simp only []
      split
      · exact ⟨_, rfl⟩
      · exact ⟨_, rfl⟩

end gif

namespace gif

/-! ## The accesses of the decoder to its arrays -/

theorem clear_prefix_acc_safe : ∀ a ∈ LZDecoder.clear_prefix_acc, a.InRange := by
  intro a ha
  rw [LZDecoder.clear_prefix_acc, List.mem_map] at ha
  obtain ⟨i, hi, rfl⟩ := ha
  rw [List.mem_range] at hi
  have hm : LZ.max_code = 4095 := rfl
  show 0 ≤ (i : Int) ∧ (i : Int) ≤ 4095
  omega

theorem prefix_char_acc_safe :
    ∀ (n : Nat) (pfx : Nat → Nat) (code clear : Nat),
      ∀ a ∈ LZDecoder.prefix_char_acc n pfx code clear, a.InRange := by
  intro n
  induction n with
  | zero =>
    intro pfx code clear a ha
    cases ha
  | succ n ih =>
    intro pfx code clear a ha
    rw [LZDecoder.prefix_char_acc] at ha
    have hm : LZ.max_code = 4095 := rfl
    split at ha
    · split at ha
      · cases ha
      · rename_i h2
        rcases List.mem_cons.mp ha with rfl | ha
        · show 0 ≤ (code : Int) ∧ (code : Int) ≤ 4095
          omega
        · exact ih _ _ _ a ha
    · cases ha

theorem prefix_char_acc_length :
    ∀ (n : Nat) (pfx : Nat → Nat) (code clear : Nat),
      (LZDecoder.prefix_char_acc n pfx code clear).length ≤ n := by
  intro n
  induction n with
  | zero =>
    intro pfx code clear
    exact Nat.le_refl _
  | succ n ih =>
    intro pfx code clear
    rw [LZDecoder.prefix_char_acc]
    split
    · split
      · exact Nat.zero_le _
      · have := ih pfx (pfx code) clear
        simp only [List.length_cons]
        omega
    · exact Nat.zero_le _

theorem walk_acc_safe :
    ∀ (n : Nat) (st : LZDecoder) (c : Nat), ∀ a ∈ LZDecoder.walk_acc n st c, a.InRange := by
  intro n
  induction n with
  | zero =>
    intro st c a ha
    cases ha
  | succ n ih =>
    intro st c a ha
    rw [LZDecoder.walk_acc] at ha
    have hm : LZ.max_code = 4095 := rfl
    split at ha
    · rename_i hc
      simp only [Bool.and_eq_true, decide_eq_true_eq] at hc
      rcases List.mem_cons.mp ha with rfl | ha
      · show 0 ≤ (st.stack_ptr : Int) ∧ (st.stack_ptr : Int) ≤ 4094
        omega
      · rcases List.mem_cons.mp ha with rfl | ha
        · show 0 ≤ (c : Int) ∧ (c : Int) ≤ 4095
          omega
        · rcases List.mem_cons.mp ha with rfl | ha
          · show 0 ≤ (c : Int) ∧ (c : Int) ≤ 4095
            omega
          · exact ih _ _ a ha
    · cases ha

/-- The walk of a prefix chain makes at most as many iterations as the stack has
room, whatever the tables hold. -/
theorem walk_acc_length :
    ∀ (n : Nat) (st : LZDecoder) (c : Nat), st.stack_ptr ≤ 4095 →
      (LZDecoder.walk_acc n st c).length + 3 * st.stack_ptr ≤ 3 * 4095 := by
  intro n
  induction n with
  | zero =>
    intro st c h
    rw [LZDecoder.walk_acc]
    simp only [List.length_nil]
    omega
  | succ n ih =>
    intro st c h
    rw [LZDecoder.walk_acc]
    have hm : LZ.max_code = 4095 := rfl
    split
    · rename_i hc
      simp only [Bool.and_eq_true, decide_eq_true_eq] at hc
      have h3 : (LZDecoder.walk_acc n _ _).length + 3 * (st.stack_ptr + 1) ≤ 3 * 4095 := ih
        { st with stack := fun i => if i = st.stack_ptr then st.suffix c else st.stack i,
                  stack_ptr := st.stack_ptr + 1 } (st.prefix_ c)
        (by show st.stack_ptr + 1 ≤ 4095; omega)
      simp only [List.length_cons]
      omega
    · simp only [List.length_nil]
      omega

/-- With as many iterations as the stack has room the walk leaves its loop by the
loop condition. -/
theorem walk_loop_exit :
    ∀ (n : Nat) (st : LZDecoder) (c : Nat), 4095 ≤ st.stack_ptr + n →
      ¬ ((LZDecoder.walk_loop n st c).1.stack_ptr < LZ.max_code ∧
        (LZDecoder.walk_loop n st c).2 > (LZDecoder.walk_loop n st c).1.clear_code ∧
        (LZDecoder.walk_loop n st c).2 ≤ LZ.max_code) := by
  intro n
  induction n with
  | zero =>
    intro st c h
    have hm : LZ.max_code = 4095 := rfl
    intro hx
    have : st.stack_ptr < LZ.max_code := hx.1
    omega
  | succ n ih =>
    intro st c h
    rw [LZDecoder.walk_loop]
    split
    · exact ih _ _ (by show 4095 ≤ st.stack_ptr + 1 + n; omega)
    · rename_i hc
      simp only [Bool.and_eq_true, decide_eq_true_eq] at hc
      intro hx
      exact hc ⟨⟨hx.1, hx.2.1⟩, hx.2.2⟩

theorem pop_acc_safe :
    ∀ (n : Nat) (st : LZDecoder) (line : List Nat) (len : Nat), st.stack_ptr ≤ 4095 →
      ∀ a ∈ LZDecoder.pop_acc n st line len, a.InRange := by
  intro n
  induction n with
  | zero =>
    intro st line len _ a ha
    cases ha
  | succ n ih =>
    intro st line len h a ha
    rw [LZDecoder.pop_acc] at ha
    split at ha
    · rename_i hc
      simp only [Bool.and_eq_true, bne_iff_ne, ne_eq, decide_eq_true_eq] at hc
      rcases List.mem_cons.mp ha with rfl | ha
      · show 0 ≤ (st.stack_ptr : Int) - 1 ∧ (st.stack_ptr : Int) - 1 ≤ 4094
        omega
      · rcases List.mem_cons.mp ha with rfl | ha
        · show 0 ≤ (line.length : Int) ∧ (line.length : Int) < (len : Int)
          omega
        · exact ih _ _ _ (by show st.stack_ptr - 1 ≤ 4095; omega) a ha
    · cases ha

theorem add_entry_acc_safe (st : LZDecoder) (c : Nat) (hc : st.CodeFit) :
    ∀ a ∈ st.add_entry_acc c, a.InRange := by
  intro a ha
  have h1 := hc.code_lo
  have h2 := hc.code_hi
  have hr : (0 : Int) ≤ (st.run_code : Int) - 2 ∧ (st.run_code : Int) - 2 ≤ 4095 := by omega
  unfold LZDecoder.add_entry_acc at ha
  split at ha
  · rcases List.mem_cons.mp ha with rfl | ha
    · exact hr
    · split at ha
      · rcases List.mem_cons.mp ha with rfl | ha
        · exact hr
        · rcases List.mem_append.mp ha with ha | ha
          · exact prefix_char_acc_safe _ _ _ _ a ha
          · rcases List.mem_singleton.mp ha with rfl
            exact hr
      · cases ha
  · cases ha

theorem decode_acc_safe (st : LZDecoder) (hf : st.Fit) : ∀ a ∈ st.decode_acc, a.InRange := by
  intro a ha
  unfold LZDecoder.decode_acc at ha
  have hm : LZ.bits = 12 := rfl
  split at ha
  · cases ha
  · rename_i hb
    simp only [] at ha
    split at ha
    · cases ha
    · rcases List.mem_singleton.mp ha with rfl
      obtain ⟨_, _, f3, _⟩ := fill_loop_fit st.run_bits st hf (by omega)
      have := (core_fields _ _ f3).2.2.2.2.1
      show 0 ≤ ((LZDecoder.fill_loop st.run_bits st).1.run_bits : Int) ∧
        ((LZDecoder.fill_loop st.run_bits st).1.run_bits : Int) ≤ 12
      omega

end gif

namespace gif

/-- The accesses of the expansion of a code at most `LZ::max_code`, started with an
empty stack and room in the line, are in range. -/
theorem expand_acc_safe (st0 : LZDecoder) (c : Nat) (line : List Nat) (len : Nat)
    (h0 : st0.stack_ptr = 0) (hc : st0.CodeFit) (hc4 : c ≤ 4095) (hl : line.length < len) :
    ∀ a ∈ st0.expand_acc c line len, a.InRange := by
  have hm : LZ.max_code = 4095 := rfl
  have h1 := hc.code_lo
  have h2 := hc.code_hi
  unfold LZDecoder.expand_acc
  by_cases hlt : c < st0.clear_code
  · rw [if_pos hlt]
    intro a ha
    rcases List.mem_cons.mp ha with rfl | ha
    · show 0 ≤ (line.length : Int) ∧ (line.length : Int) < (len : Int)
      omega
    · exact add_entry_acc_safe st0 c hc a ha
  · rw [if_neg hlt]
    simp only []
    generalize hst1 : (if (st0.prefix_ c != LZ.no_such_code) = true then st0
        else
          { st0 with
              stack := fun i => if i = st0.stack_ptr
                then LZDecoder.prefix_char st0.prefix_ st0.last_code st0.clear_code % 256
                else st0.stack i,
              stack_ptr := st0.stack_ptr + 1,
              suffix := fun i => if i = st0.run_code - 2
                then LZDecoder.prefix_char st0.prefix_ st0.last_code st0.clear_code % 256
                else st0.suffix i }) = st1
    have hin1 : st1.input = st0.input := by
      rw [← hst1]
      split
      · rfl
      · rfl
    generalize hcp : (if (st0.prefix_ c != LZ.no_such_code) = true then c
      else st0.last_code) = cp
    obtain ⟨w1, w2, w3⟩ := walk_loop_keeps LZ.max_code st1 cp
    intro a ha
    rcases List.mem_cons.mp ha with rfl | ha
    · show 0 ≤ (c : Int) ∧ (c : Int) ≤ 4095
      omega
    · split at ha
      · cases ha
      · rcases List.mem_append.mp ha with ha | ha
        · rcases List.mem_append.mp ha with ha | ha
          · split at ha
            · cases ha
            · rcases List.mem_append.mp ha with ha | ha
              · exact prefix_char_acc_safe _ _ _ _ a ha
              · simp only [List.mem_cons, List.mem_singleton, List.not_mem_nil, or_false] at ha
                rcases ha with rfl | rfl
                · show 0 ≤ (st0.stack_ptr : Int) ∧ (st0.stack_ptr : Int) ≤ 4094
                  omega
                · show 0 ≤ (st0.run_code : Int) - 2 ∧ (st0.run_code : Int) - 2 ≤ 4095
                  omega
          · exact walk_acc_safe _ _ _ a ha
        · split at ha
          · cases ha
          · rename_i hw
            simp only [ge_iff_le, Bool.or_eq_true, decide_eq_true_eq, not_or, not_le,
              not_lt] at hw
            rcases List.mem_cons.mp ha with rfl | ha
            · show 0 ≤ ((LZDecoder.walk_loop LZ.max_code st1 cp).1.stack_ptr : Int) ∧
                ((LZDecoder.walk_loop LZ.max_code st1 cp).1.stack_ptr : Int) ≤ 4094
              omega
            · rcases List.mem_append.mp ha with ha | ha
              · exact pop_acc_safe _ _ _ _
                  (by show (LZDecoder.walk_loop LZ.max_code st1 cp).1.stack_ptr + 1 ≤ 4095; omega)
                  a ha
              · obtain ⟨p1, _, _⟩ := pop_loop_keeps
                  ((LZDecoder.walk_loop LZ.max_code st1 cp).1.stack_ptr + 1)
                  { (LZDecoder.walk_loop LZ.max_code st1 cp).1 with
                      stack := fun i =>
                        if i = (LZDecoder.walk_loop LZ.max_code st1 cp).1.stack_ptr
                        then (LZDecoder.walk_loop LZ.max_code st1 cp).2 % 256
                        else (LZDecoder.walk_loop LZ.max_code st1 cp).1.stack i,
                      stack_ptr := (LZDecoder.walk_loop LZ.max_code st1 cp).1.stack_ptr + 1 }
                  line len
                exact add_entry_acc_safe _ c
                  (code_fit_of_input _ _ (p1.trans (w1.trans hin1)) hc) a ha

/-- The accesses of one iteration of the main loop of `decode_line`, started with an
empty stack and room in the line, are in range. -/
theorem decode_step_acc_safe (st : LZDecoder) (line : List Nat) (len : Nat) (hf : st.Fit)
    (hc : st.CodeFit) (h0 : st.stack_ptr = 0) (hl : line.length < len) :
    ∀ a ∈ st.decode_step_acc line len, a.InRange := by
  obtain ⟨d1, d2, d3, d4, d5, d6⟩ := decode_fit st hf
  obtain ⟨_, _, _, _, _, t6, _⟩ := tables_fields _ _ d3
  intro a ha
  unfold LZDecoder.decode_step_acc at ha
  simp only [] at ha
  rcases List.mem_append.mp ha with ha | ha
  · exact decode_acc_safe st hf a ha
  · split at ha
    · cases ha
    · split at ha
      · cases ha
      · split at ha
        · exact clear_prefix_acc_safe a ha
        · exact expand_acc_safe _ _ line len (t6.trans h0) (d5 hc) d4 hl a ha

theorem decode_loop_acc_safe :
    ∀ (fuel : Nat) (st : LZDecoder) (line : List Nat) (len : Nat), st.Fit → st.CodeFit →
      (line.length < len → st.stack_ptr = 0) →
      ∀ a ∈ LZDecoder.decode_loop_acc fuel st line len, a.InRange := by
  intro fuel
  induction fuel with
  | zero =>
    intro st line len _ _ _ a ha
    cases ha
  | succ n ih =>
    intro st line len hf hc h0 a ha
    rw [LZDecoder.decode_loop_acc] at ha
    split at ha
    · rename_i hl
      obtain ⟨s1, _, s3, _, s5⟩ := decode_step_fit st line len hf
      obtain ⟨_, s6⟩ := s5 (h0 hl)
      rcases List.mem_append.mp ha with ha | ha
      · exact decode_step_acc_safe st line len hf hc (h0 hl) hl a ha
      · simp only [] at ha
        split at ha
        · cases ha
        · rename_i hr
          simp only [Bool.not_eq_true, Bool.not_eq_false_eq_eq_true,
            Bool.not_eq_eq_eq_not, Bool.not_true, Bool.not_false] at hr
          exact ih _ _ len s1 (s3 hc) (s6 (by simpa using hr)) a ha
    · cases ha

theorem decode_line_acc_safe (fuel : Nat) (st : LZDecoder) (len : Nat) (hf : st.Fit)
    (hc : st.CodeFit) (h1 : st.stack_ptr ≤ 4095) :
    ∀ a ∈ LZDecoder.decode_line_acc fuel st len, a.InRange := by
  intro a ha
  unfold LZDecoder.decode_line_acc at ha
  split at ha
  · cases ha
  · simp only [] at ha
    obtain ⟨p1, _, p3⟩ := pop_loop_keeps st.stack_ptr st [] len
    rcases List.mem_append.mp ha with ha | ha
    · exact pop_acc_safe _ _ _ _ h1 a ha
    · exact decode_loop_acc_safe fuel _ _ len (fit_of_input _ _ p1 hf)
        (code_fit_of_input _ _ p1 hc) (p3 (Nat.le_refl _)) a ha

theorem getLine_acc_safe (st : LZDecoder) (len : Int) (hf : st.Fit) (hc : st.CodeFit)
    (h1 : st.stack_ptr ≤ 4095) : ∀ a ∈ st.getLine_acc len, a.InRange := by
  intro a ha
  unfold LZDecoder.getLine_acc at ha
  simp only [] at ha
  split at ha
  · cases ha
  · exact decode_line_acc_safe (8 * (st.f.d.bytesLeft + 256) + 32)
      { st with pix_count := (((st.pix_count : Int) - len) % 2 ^ 64).toNat } len.toNat
      ⟨hf.bytes, hf.buf0, hf.shift, hf.bits⟩
      ⟨hc.code_lo, hc.code_hi, hc.eof_lo, hc.eof_hi⟩ h1 a ha

theorem getLines_acc_safe :
    ∀ (lens : List Int) (st : LZDecoder), st.Fit → st.CodeFit → st.stack_ptr ≤ 4095 →
      ∀ a ∈ LZDecoder.getLines_acc lens st, a.InRange := by
  intro lens
  induction lens with
  | nil =>
    intro st _ _ _ a ha
    cases ha
  | cons len rest ih =>
    intro st hf hc h1 a ha
    obtain ⟨r, g1, g2, _, g4, g5⟩ := getLine_total st len hf h1
    rw [LZDecoder.getLines_acc, g1] at ha
    rcases List.mem_append.mp ha with ha | ha
    · exact getLine_acc_safe st len hf hc h1 a ha
    · exact ih r.1 g2 (g4 hc) g5 a ha

theorem getLines_all_total :
    ∀ (lens : List Int) (st : LZDecoder), st.Fit → st.stack_ptr ≤ 4095 →
      ∃ r, LZDecoder.getLines_all lens st = some r ∧ r.Fit ∧ st.f.Ahead r.f := by
  intro lens
  induction lens with
  | nil =>
    intro st hf _
    exact ⟨st, rfl, hf, ahead_refl _⟩
  | cons len rest ih =>
    intro st hf h1
    obtain ⟨r, g1, g2, g3, _, g5⟩ := getLine_total st len hf h1
    obtain ⟨r2, i1, i2, i3⟩ := ih r.1 g2 g5
    rw [LZDecoder.getLines_all, g1]
    exact ⟨r2, i1, i2, ahead_trans g3 i3⟩

theorem new_code_fit (file : GifIO) (n cr : Nat) (hcr : cr ≤ 11) :
    (LZDecoder.new file n cr).CodeFit := by
  have h1 : 2 ^ cr ≤ 2 ^ 11 := Nat.pow_le_pow_right (by decide) hcr
  have h2 := Nat.two_pow_pos cr
  refine ⟨?_, ?_, ?_, ?_⟩
  · show 2 ≤ 2 ^ cr + 1 + 1
    omega
  · show 2 ^ cr + 1 + 1 ≤ 4097
    omega
  · show 1 ≤ 2 ^ cr + 1
    omega
  · show 2 ^ cr + 1 ≤ 4095
    omega

end gif

namespace gif

/-- C33, for the streams whose frames keep the product of `Size::area` within
`int`.  `Gif::load` returns, with true or false, on every device that holds bytes
when every frame that the record loop gets to load has fewer than `2 ^ 31` pixels.
Every iteration of the record loop on such a frame or on another record returns, and
unless it returns false it has read at least the tag byte.  An iteration of the code
loop of `decode_line` that does not return false has taken at least one bit out of
the bits left in the shift register, the current sub-block and the device; the
ranges `Fit` that this rests on hold after the constructor and after every
iteration.  The walk of a prefix chain makes at most as many iterations as the stack
has room and then leaves its loop by the loop condition, and `prefix_char` reads at
most `LZ::max_code + 1` entries, whatever the tables hold. -/
theorem load_terminates (g : Gif) (dev : MemDevice) (hb : ∀ x ∈ dev.d, x < 256)
    (_hpx : ∀ io ∈ g.load_iters dev, io.frame_pixels < 2 ^ 31) :
    (∃ r, g.load dev = some r) ∧
      (∀ (g1 : Gif) (io : GifIO) (exts : List Extension), (∀ x ∈ io.d.d, x < 256) →
        io.frame_pixels < 2 ^ 31 →
        ∃ r, Gif.load_record g1 io exts = some r ∧
          (r.2.2.2 ≠ some false → r.2.1.d.bytesLeft + 1 ≤ io.d.bytesLeft)) ∧
      (∀ (file : GifIO) (n cr : Nat), (∀ x ∈ file.d.d, x < 256) →
        (LZDecoder.new file n cr).Fit) ∧
      (∀ (st : LZDecoder) (line : List Nat) (len : Nat), st.Fit →
        (st.decode_step line len).1.Fit ∧
          ((st.decode_step line len).2.2 = true →
            (st.decode_step line len).1.bits_left + 1 ≤ st.bits_left)) ∧
      (∀ (st : LZDecoder) (c : Nat), st.stack_ptr ≤ 4095 →
        (LZDecoder.walk_acc LZ.max_code st c).length + 3 * st.stack_ptr ≤ 3 * 4095 ∧
          ¬ ((LZDecoder.walk_loop LZ.max_code st c).1.stack_ptr < LZ.max_code ∧
            (LZDecoder.walk_loop LZ.max_code st c).2 >
              (LZDecoder.walk_loop LZ.max_code st c).1.clear_code ∧
            (LZDecoder.walk_loop LZ.max_code st c).2 ≤ LZ.max_code)) ∧
      ∀ (pfx : Nat → Nat) (code clear : Nat),
        (LZDecoder.prefix_char_acc (LZ.max_code + 1) pfx code clear).length ≤ 4096 := by
  refine ⟨gif_load_total g dev hb, ?_, ?_, ?_, ?_, ?_⟩
  · intro g1 io exts hio _
    obtain ⟨r, r1, _, r3⟩ := load_record_total g1 io exts hio
    exact ⟨r, r1, r3⟩
  · intro file n cr hfile
    exact (new_fit file n cr hfile).1
  · intro st line len hf
    obtain ⟨s1, _, _, s4, _⟩ := decode_step_fit st line len hf
    exact ⟨s1, s4⟩
  · intro st c h
    exact ⟨walk_acc_length LZ.max_code st c h,
      walk_loop_exit LZ.max_code st c (by
        have : LZ.max_code = 4095 := rfl
        omega)⟩
  · intro pfx code clear
    exact prefix_char_acc_length (LZ.max_code + 1) pfx code clear

theorem load_terminates_witness :
    (∃ r, (Gif.new ⟨0, 0⟩ 0).load (MemDevice.open_for_read
        [0x47, 0x49, 0x46, 0x38, 0x39, 0x61, 1, 0, 1, 0, 0, 0, 0, 0x2c,
          0, 0, 0, 0, 1, 0, 1, 0, 0x00, 2, 2, 0x44]) = some r) ∧
      ((Gif.new ⟨0, 0⟩ 0).load_iters (MemDevice.open_for_read
        [0x47, 0x49, 0x46, 0x38, 0x39, 0x61, 1, 0, 1, 0, 0, 0, 0, 0x2c,
          0, 0, 0, 0, 1, 0, 1, 0, 0x00, 2, 2, 0x44])).map
        (fun io => (io.d.p, io.frame_pixels)) = [(13, 1)] ∧
      ((Gif.new ⟨0, 0⟩ 0).load (MemDevice.open_for_read
        [0x47, 0x49, 0x46, 0x38, 0x39, 0x61, 1, 0, 1, 0, 0, 0, 0, 0x2c,
          0, 0, 0, 0, 1, 0, 1, 0, 0x00, 2, 2, 0x44])).map
        (fun r => (r.2.1.e, r.2.2)) = some (ErrorCode.read_failed, false) ∧
      (LZDecoder.walk_acc LZ.max_code cyclic_decoder 300).length +
          3 * cyclic_decoder.stack_ptr ≤ 3 * 4095 ∧
      ¬ ((LZDecoder.walk_loop LZ.max_code cyclic_decoder 300).1.stack_ptr < LZ.max_code ∧
        (LZDecoder.walk_loop LZ.max_code cyclic_decoder 300).2 >
          (LZDecoder.walk_loop LZ.max_code cyclic_decoder 300).1.clear_code ∧
        (LZDecoder.walk_loop LZ.max_code cyclic_decoder 300).2 ≤ LZ.max_code) :=
  have h := load_terminates (Gif.new ⟨0, 0⟩ 0) (MemDevice.open_for_read
    [0x47, 0x49, 0x46, 0x38, 0x39, 0x61, 1, 0, 1, 0, 0, 0, 0, 0x2c,
      0, 0, 0, 0, 1, 0, 1, 0, 0x00, 2, 2, 0x44]) (by decide) (by decide)
  ⟨h.1, by decide, by decide, (h.2.2.2.2.1 cyclic_decoder 300 (by decide)).1,
    (h.2.2.2.2.1 cyclic_decoder 300 (by decide)).2⟩

/-- Divergence for C33 (a frame descriptor of `2 ^ 31` pixels and more).  The stream
of 24 bytes holds the header, a screen descriptor, the tag 0x2c, a descriptor of a
frame of 65535 x 32769 pixels and the code size byte 2.  The record loop starts its
first iteration at byte 13; `Image::load` reads the descriptor and the code size
byte and gets to `rect.area()` with a product of `2 ^ 31 + 32767`, above the largest
`int`. -/
theorem frame_descriptor_over_int_max :
    ((Gif.new ⟨0, 0⟩ 0).load_iters (MemDevice.open_for_read
        [0x47, 0x49, 0x46, 0x38, 0x39, 0x61, 1, 0, 1, 0, 0, 0, 0, 0x2c,
          0, 0, 0, 0, 0xff, 0xff, 0x01, 0x80, 0x00, 2])).head?.map
        (fun io => (io.d.p, io.frame_pixels)) = some (13, 2 ^ 31 + 32767) ∧
      (Image.new.load_desc
        { e := ErrorCode.ok,
          d := { d := [0x47, 0x49, 0x46, 0x38, 0x39, 0x61, 1, 0, 1, 0, 0, 0, 0, 0x2c,
                       0, 0, 0, 0, 0xff, 0xff, 0x01, 0x80, 0x00, 2],
                 p := 14, m := OpenMode.read_only } }).1.rect.s = ⟨65535, 32769⟩ := by
  decide

/-- C32.  A decoder made by the constructor for a code size of at most 11, so that
the first code width is at most 12, over a device that holds bytes: every sequence
of `getLine` calls, with whatever line lengths and whatever the calls return,
returns, and every access that the constructor and the calls make to `prefix` and
`suffix` has an index from 0 to 4095, to `stack` an index from 0 to 4094, to
`code_masks` an index from 0 to 12, and to the line an index from 0 below the length
passed. -/
theorem decoder_index_safety (file : GifIO) (n cr : Nat) (lens : List Int)
    (hb : ∀ x ∈ file.d.d, x < 256) (hcr : cr ≤ 11) :
    (∃ st, LZDecoder.getLines_all lens (LZDecoder.new file n cr) = some st) ∧
      ∀ a ∈ LZDecoder.clear_prefix_acc ++
          LZDecoder.getLines_acc lens (LZDecoder.new file n cr), a.InRange := by
  obtain ⟨nf, n0⟩ := new_fit file n cr hb
  have h1 : (LZDecoder.new file n cr).stack_ptr ≤ 4095 := by rw [n0]; exact Nat.zero_le _
  constructor
  · obtain ⟨r, hr, _⟩ := getLines_all_total lens _ nf h1
    exact ⟨r, hr⟩
  · intro a ha
    rcases List.mem_append.mp ha with ha | ha
    · exact clear_prefix_acc_safe a ha
    · exact getLines_acc_safe lens _ nf (new_code_fit file n cr hcr) h1 a ha

theorem decoder_index_safety_witness :
    ((∃ st, LZDecoder.getLines_all [2, 1]
        (LZDecoder.new ( GifIO.mk_dev (MemDevice.open_for_read [1, 0x31, 0, 0x3b])) 3 2) =
          some st) ∧
      ∀ a ∈ LZDecoder.clear_prefix_acc ++ LZDecoder.getLines_acc [2, 1]
          (LZDecoder.new ( GifIO.mk_dev (MemDevice.open_for_read [1, 0x31, 0, 0x3b])) 3 2),
        a.InRange) ∧
      LZDecoder.getLines_acc [2, 1]
          (LZDecoder.new ( GifIO.mk_dev (MemDevice.open_for_read [1, 0x31, 0, 0x3b])) 3 2) =
        [Access.code_masks 3, Access.line 0 2, Access.code_masks 3, Access.prefix_ 6,
          Access.stack 0, Access.suffix 6, Access.stack 1, Access.stack 1, Access.line 1 2,
          Access.prefix_ 6, Access.prefix_ 6, Access.suffix 6, Access.stack 0,
          Access.line 0 1] ∧
      LZDecoder.getLines_acc [1]
          (LZDecoder.new ( GifIO.mk_dev (MemDevice.open_for_read [1, 0x07, 0])) 1 2) =
        [Access.code_masks 3, Access.prefix_ 7] ∧
      (LZDecoder.getLines_all [1]
          (LZDecoder.new ( GifIO.mk_dev (MemDevice.open_for_read [1, 0x07, 0])) 1 2)).map
        (fun st => st.f.e) = some ErrorCode.image_defect :=
  ⟨decoder_index_safety ( GifIO.mk_dev (MemDevice.open_for_read [1, 0x31, 0, 0x3b])) 3 2 [2, 1]
    (by decide) (by decide), by decide, by decide, by decide⟩

end gif

namespace gif

/-! ## The end code while pixels are required -/

theorem input_fields (st1 st : LZDecoder) (h : st1.input = st.input) :
    st1.eof_code = st.eof_code ∧ st1.clear_code = st.clear_code ∧ st1.col_res = st.col_res := by
  unfold LZDecoder.input at h
  simp only [Prod.mk.injEq] at h
  obtain ⟨_, _, _, _, _, _, _, h8, h9, h10, _⟩ := h
  exact ⟨h10, h9, h8⟩

theorem decode_step_eof (st : LZDecoder) (line : List Nat) (len : Nat) (hf : st.Fit) :
    (st.decode_step line len).1.eof_code = st.eof_code := by
  obtain ⟨_, _, d3, _⟩ := decode_fit st hf
  obtain ⟨_, _, t3, _⟩ := tables_fields _ _ d3
  unfold LZDecoder.decode_step
  simp only []
  split
  · exact t3
  · split
    · exact t3
    · split
      · exact t3
      · exact (input_fields _ _ (expand_keeps st.decode.1 st.decode.2.1 line len).1).1.trans t3

/-- The main loop of `decode_line` on any input: when the end code is among the codes
that `decode` hands to the loop, the loop returns false with `eof_too_soon` and the
line is not full. -/
theorem decode_loop_eof_fatal :
    ∀ (fuel : Nat) (st : LZDecoder) (line : List Nat) (len : Nat), st.Fit →
      st.bits_left < fuel → (line.length < len → st.stack_ptr = 0) → st.stack_ptr ≤ 4095 →
      ∃ r, LZDecoder.decode_loop fuel st line len = some r ∧ r.1.eof_code = st.eof_code ∧
        r.1.Fit ∧ r.1.stack_ptr ≤ 4095 ∧ st.f.Ahead r.1.f ∧
        (st.eof_code ∈ LZDecoder.decode_loop_codes fuel st line len →
          r.2.2 = false ∧ r.1.f.e = ErrorCode.eof_too_soon ∧ r.2.1.length < len) := by
  intro fuel
  induction fuel with
  | zero =>
    intro st line len _ hb
    omega
  | succ n ih =>
    intro st line len hf hb h0 h1
    rw [LZDecoder.decode_loop, LZDecoder.decode_loop_codes]
    by_cases hl : line.length < len
    · rw [if_pos hl, if_pos hl]
      obtain ⟨s1, s2, _, s4, s5⟩ := decode_step_fit st line len hf
      obtain ⟨s5, s6⟩ := s5 (h0 hl)
      have se := decode_step_eof st line len hf
      obtain ⟨_, _, d3, _⟩ := decode_fit st hf
      obtain ⟨_, _, t3, _⟩ := tables_fields _ _ d3
      simp only []
      cases hd : st.decode.2.2 with
      | false =>
        have hstep : st.decode_step line len = (st.decode.1, line, false) := by
          unfold LZDecoder.decode_step
          simp only [hd, Bool.not_false, if_true]
        have hr : (st.decode_step line len).2.2 = false := by rw [hstep]
        simp only [hr, Bool.not_false, if_true, List.append_nil]
        exact ⟨_, rfl, se, s1, s5, s2, fun hx => absurd hx (List.not_mem_nil _)⟩
      | true =>
        simp only [Bool.not_true, Bool.false_eq_true, if_false]
        by_cases he : st.decode.2.1 = st.decode.1.eof_code
        · have hstep : st.decode_step line len =
              ({ st.decode.1 with f := st.decode.1.f.set_error ErrorCode.eof_too_soon },
                line, false) := by
            unfold LZDecoder.decode_step
            simp only [hd, Bool.not_true, Bool.false_eq_true, if_false, if_pos he]
          have hr : (st.decode_step line len).2.2 = false := by rw [hstep]
          simp only [hr, Bool.not_false, if_true, List.append_nil]
          refine ⟨_, rfl, se, s1, s5, s2, fun _ => ⟨hr, ?_, ?_⟩⟩
          · rw [hstep]
            rfl
          · rw [hstep]
            exact hl
        · have hne : st.decode.2.1 ≠ st.eof_code := by rw [← t3]; exact he
          cases hr : (st.decode_step line len).2.2 with
          | false =>
            simp only [Bool.not_false, if_true, List.append_nil]
            exact ⟨_, rfl, se, s1, s5, s2, fun hx =>
              absurd (List.mem_singleton.mp hx).symm hne⟩
          | true =>
            simp only [Bool.not_true, Bool.false_eq_true, if_false]
            have s4 := s4 hr
            obtain ⟨r, i1, i2, i3, i4, i5, i6⟩ := ih (st.decode_step line len).1
              (st.decode_step line len).2.1 len s1 (by omega) (s6 hr) s5
            refine ⟨r, i1, i2.trans se, i3, i4, ahead_trans s2 i5, fun hx => ?_⟩
            rcases List.mem_append.mp hx with hx | hx
            · exact absurd (List.mem_singleton.mp hx).symm hne
            · exact i6 (by rw [se]; exact hx)
    · rw [if_neg hl, if_neg hl]
      exact ⟨_, rfl, rfl, hf, h1, ahead_refl _, fun hx => absurd hx (List.not_mem_nil _)⟩

theorem decode_line_eof_fatal (fuel : Nat) (st : LZDecoder) (len : Nat) (hf : st.Fit)
    (hb : st.bits_left < fuel) (h1 : st.stack_ptr ≤ 4095) :
    ∃ r, LZDecoder.decode_line fuel st len = some r ∧ r.1.eof_code = st.eof_code ∧
      r.1.Fit ∧ r.1.stack_ptr ≤ 4095 ∧ st.f.Ahead r.1.f ∧
      (st.eof_code ∈ LZDecoder.decode_line_codes fuel st len →
        r.2.2 = false ∧ r.1.f.e = ErrorCode.eof_too_soon ∧ r.2.1.length < len) := by
  unfold LZDecoder.decode_line LZDecoder.decode_line_codes
  have hm : LZ.max_code = 4095 := rfl
  rw [if_neg (by omega), if_neg (by omega)]
  simp only []
  obtain ⟨p1, p2, p3⟩ := pop_loop_keeps st.stack_ptr st [] len
  have pe := (input_fields _ _ p1).1
  obtain ⟨r, i1, i2, i3, i4, i5, i6⟩ := decode_loop_eof_fatal fuel
    (LZDecoder.pop_loop st.stack_ptr st [] len).1 (LZDecoder.pop_loop st.stack_ptr st [] len).2 len
    (fit_of_input _ _ p1 hf) (by rw [bits_left_of_input _ _ p1]; exact hb)
    (p3 (Nat.le_refl _)) (Nat.le_trans p2 h1)
  exact ⟨r, i1, i2.trans pe, i3, i4, ahead_trans (ahead_of_input _ _ p1) i5,
    fun hx => i6 (by rw [pe]; exact hx)⟩

theorem next_code_eof (st : LZDecoder) : st.next_code.1.eof_code = st.eof_code := by
  unfold LZDecoder.next_code
  simp only []
  split
  · rfl
  · split
    · split
      · rfl
      · rfl
    · rfl

theorem drain_loop_eof :
    ∀ (fuel : Nat) (st : LZDecoder) (r : LZDecoder × Bool),
      LZDecoder.drain_loop fuel st = some r → r.1.eof_code = st.eof_code := by
  intro fuel
  induction fuel with
  | zero =>
    intro st r h
    cases h
  | succ n ih =>
    intro st r h
    rw [LZDecoder.drain_loop] at h
    have ne := next_code_eof st
    split at h
    · cases h
      exact ne
    · split at h
      · exact (ih _ _ h).trans ne
      · cases h
        exact ne

/-- `getLine` on any input: when the end code is among the codes read while pixels
are required, the call returns false with `eof_too_soon`. -/
theorem getLine_eof_fatal (st : LZDecoder) (len : Int) (hf : st.Fit)
    (h1 : st.stack_ptr ≤ 4095) :
    ∃ r, st.getLine len = some r ∧ r.1.eof_code = st.eof_code ∧ r.1.Fit ∧
      r.1.stack_ptr ≤ 4095 ∧ st.f.Ahead r.1.f ∧
      (st.eof_code ∈ st.getLine_codes len →
        r.2.2 = false ∧ r.1.f.e = ErrorCode.eof_too_soon ∧ r.2.1.length < len.toNat) := by
  unfold LZDecoder.getLine LZDecoder.getLine_codes
  simp only []
  split
  · exact ⟨_, rfl, rfl, ⟨hf.bytes, hf.buf0, hf.shift, hf.bits⟩, h1, ahead_refl _,
      fun hx => absurd hx (List.not_mem_nil _)⟩
  · have hf1 : LZDecoder.Fit
        { st with pix_count := (((st.pix_count : Int) - len) % 2 ^ 64).toNat } :=
      ⟨hf.bytes, hf.buf0, hf.shift, hf.bits⟩
    obtain ⟨r, i1, i2, i3, i4, i5, i6⟩ := decode_line_eof_fatal
      (8 * (st.f.d.bytesLeft + 256) + 32)
      { st with pix_count := (((st.pix_count : Int) - len) % 2 ^ 64).toNat } len.toNat hf1
      (by
        show st.crnt_shift_state + 8 * st.buf 0 + 8 * st.f.d.bytesLeft < _
        have := hf.buf0
        have := hf.shift
        omega) h1
    rw [i1]
    simp only []
    cases hr : r.2.2 with
    | false =>
      simp only [Bool.not_false, if_true]
      exact ⟨_, rfl, i2, i3, i4, i5, fun hx => ⟨hr, (i6 hx).2⟩⟩
    | true =>
      simp only [Bool.not_true, Bool.false_eq_true, if_false]
      have hno : st.eof_code ∉ LZDecoder.decode_line_codes (8 * (st.f.d.bytesLeft + 256) + 32)
          { st with pix_count := (((st.pix_count : Int) - len) % 2 ^ 64).toNat } len.toNat := by
        intro hx
        have := (i6 hx).1
        rw [hr] at this
        cases this
      by_cases hp : r.1.pix_count = 0
      · rw [if_pos hp]
        obtain ⟨r2, j1, j2, j3, j4, _⟩ := drain_loop_total (r.1.f.d.bytesLeft + 1) r.1 i3
          (by omega)
        have je := drain_loop_eof _ _ _ j1
        rw [j1]
        exact ⟨_, rfl, je.trans i2, j2, by show r2.1.stack_ptr ≤ 4095; rw [j4]; exact i4,
          ahead_trans i5 j3, fun hx => absurd hx hno⟩
      · rw [if_neg hp]
        exact ⟨_, rfl, i2, i3, i4, i5, fun hx => absurd hx hno⟩

theorem load_rows_eof_fatal :
    ∀ (rows : List Nat) (dec : LZDecoder) (b : List Nat) (w : Nat), dec.Fit →
      dec.stack_ptr ≤ 4095 →
      ∃ r, Image.load_rows rows dec b w = some r ∧
        (dec.eof_code ∈ Image.load_rows_codes rows dec w →
          r.2.2 = false ∧ r.1.f.e = ErrorCode.eof_too_soon) := by
  intro rows
  induction rows with
  | nil =>
    intro dec b w _ _
    exact ⟨_, rfl, fun hx => absurd hx (List.not_mem_nil _)⟩
  | cons j rest ih =>
    intro dec b w hf h1
    obtain ⟨r, g1, g2, g3, g4, _, g6⟩ := getLine_eof_fatal dec (toInt32 w) hf h1
    rw [Image.load_rows, Image.load_rows_codes, g1]
    simp only []
    cases hr : r.2.2 with
    | false =>
      simp only [Bool.not_false, if_true, List.append_nil]
      exact ⟨_, rfl, fun hx => ⟨rfl, (g6 hx).2.1⟩⟩
    | true =>
      simp only [Bool.not_true, Bool.false_eq_true, if_false]
      obtain ⟨r2, i1, i2⟩ := ih r.1
        (b.take (j * w) ++ r.2.1 ++ b.drop (j * w + r.2.1.length)) w g3 g4
      refine ⟨r2, i1, fun hx => ?_⟩
      rcases List.mem_append.mp hx with hx | hx
      · have := (g6 hx).1
        rw [hr] at this
        cases this
      · exact i2 (by rw [g2]; exact hx)

/-- `Image::load` on any input: when the end code `2 ^ code size + 1` is among the
codes read while pixels are required, the load returns false with `eof_too_soon`. -/
theorem image_load_eof_fatal (img : Image) (io : GifIO) (hb : ∀ x ∈ io.d.d, x < 256) :
    ∃ r, img.load io = some r ∧
      (2 ^ (img.load_desc io).2.1.read_byte.2.1 + 1 ∈ img.load_codes io →
        r.2.2 = false ∧ r.2.1.e = ErrorCode.eof_too_soon) := by
  have a1 := load_desc_ahead img io
  unfold Image.load Image.load_codes
  simp only []
  split
  · exact ⟨_, rfl, fun hx => absurd hx (List.not_mem_nil _)⟩
  · have a2 := (read_byte_ahead (img.load_desc io).2.1).1
    have a12 := ahead_trans a1 a2
    split
    · exact ⟨_, rfl, fun hx => absurd hx (List.not_mem_nil _)⟩
    · obtain ⟨nf, n0⟩ := new_fit (img.load_desc io).2.1.read_byte.1
        (img.load_desc io).1.rect.area (img.load_desc io).2.1.read_byte.2.1 (ahead_bytes a12 hb)
      split
      · obtain ⟨r, i1, i2⟩ := load_rows_eof_fatal (interlace_rows (img.load_desc io).1.rect.height)
          (LZDecoder.new (img.load_desc io).2.1.read_byte.1 (img.load_desc io).1.rect.area
            (img.load_desc io).2.1.read_byte.2.1)
          (resize (img.load_desc io).1.b (img.load_desc io).1.rect.area)
          (img.load_desc io).1.rect.width nf (by rw [n0]; exact Nat.zero_le _)
        rw [i1]
        exact ⟨_, rfl, fun hx => i2 hx⟩
      · obtain ⟨r, g1, _, _, _, _, g6⟩ := getLine_eof_fatal
          (LZDecoder.new (img.load_desc io).2.1.read_byte.1 (img.load_desc io).1.rect.area
            (img.load_desc io).2.1.read_byte.2.1)
          (toInt32 (resize (img.load_desc io).1.b (img.load_desc io).1.rect.area).length) nf
          (by rw [n0]; exact Nat.zero_le _)
        rw [g1]
        exact ⟨_, rfl, fun hx => ⟨(g6 hx).1, (g6 hx).2.1⟩⟩

end gif

namespace gif

theorem getLines_all_eof :
    ∀ (lens : List Int) (st : LZDecoder), st.Fit → st.stack_ptr ≤ 4095 →
      ∃ r, LZDecoder.getLines_all lens st = some r ∧ r.Fit ∧ r.stack_ptr ≤ 4095 ∧
        r.eof_code = st.eof_code := by
  intro lens
  induction lens with
  | nil =>
    intro st hf h1
    exact ⟨st, rfl, hf, h1, rfl⟩
  | cons len rest ih =>
    intro st hf h1
    obtain ⟨r, g1, g2, g3, g4, _⟩ := getLine_eof_fatal st len hf h1
    obtain ⟨r2, i1, i2, i3, i4⟩ := ih r.1 g3 g4
    rw [LZDecoder.getLines_all, g1]
    exact ⟨r2, i1, i2, i3, i4.trans g2⟩

/-- C23.  A decoder made by the constructor over any device that holds bytes, for
any pixel count and any code size, after any sequence of `getLine` calls: when the
end code `2 ^ cr + 1` is among the codes that `decode` hands to the main loop of
`decode_line` in a call of `getLine`, that is, is read while pixels of the line are
still required, the call returns false with the error code `eof_too_soon` and a line
that is not full.  And `Image::load` of a frame of fewer than `2 ^ 31` pixels from any
session: when the end code of the code size byte read is among the codes read while
pixels are required, the load returns false with `eof_too_soon`. -/
theorem eof_code_fatal (file : GifIO) (n cr : Nat) (lens : List Int) (len : Int)
    (hb : ∀ x ∈ file.d.d, x < 256) :
    (∃ st, LZDecoder.getLines_all lens (LZDecoder.new file n cr) = some st ∧
      st.eof_code = 2 ^ cr + 1 ∧
      ∃ r, st.getLine len = some r ∧
        (2 ^ cr + 1 ∈ st.getLine_codes len →
          r.2.2 = false ∧ r.1.f.e = ErrorCode.eof_too_soon ∧ r.2.1.length < len.toNat)) ∧
      ∀ (img : Image) (io : GifIO), (∀ x ∈ io.d.d, x < 256) →
        (img.load_desc io).1.rect.s.wd * (img.load_desc io).1.rect.s.ht < 2 ^ 31 →
        ∃ r, img.load io = some r ∧
          (2 ^ (img.load_desc io).2.1.read_byte.2.1 + 1 ∈ img.load_codes io →
            r.2.2 = false ∧ r.2.1.e = ErrorCode.eof_too_soon) := by
  constructor
  · obtain ⟨nf, n0⟩ := new_fit file n cr hb
    obtain ⟨st, e1, e2, e3, e4⟩ := getLines_all_eof lens (LZDecoder.new file n cr) nf
      (by rw [n0]; exact Nat.zero_le _)
    have he : st.eof_code = 2 ^ cr + 1 := e4
    obtain ⟨r, g1, _, _, _, _, g6⟩ := getLine_eof_fatal st len e2 e3
    exact ⟨st, e1, he, r, g1, fun hx => g6 (by rw [he]; exact hx)⟩
  · intro img io hio _
    exact image_load_eof_fatal img io hio

theorem eof_code_fatal_witness :
    (∃ st, LZDecoder.getLines_all [1]
        (LZDecoder.new ( GifIO.mk_dev (MemDevice.open_for_read [2, 0x84, 0x0a, 0])) 4 2) =
        some st ∧ st.eof_code = 2 ^ 2 + 1 ∧
      ∃ r, st.getLine 2 = some r ∧
        (2 ^ 2 + 1 ∈ st.getLine_codes 2 →
          r.2.2 = false ∧ r.1.f.e = ErrorCode.eof_too_soon ∧ r.2.1.length < (2 : Int).toNat)) ∧
      ((LZDecoder.getLines_all [1]
        (LZDecoder.new ( GifIO.mk_dev (MemDevice.open_for_read [2, 0x84, 0x0a, 0])) 4 2)).map
        (fun st => (st.getLine_codes 2, (st.getLine 2).map
          (fun r => (r.2.2, r.1.f.e, r.2.1)))) =
        some ([2, 5], some (false, ErrorCode.eof_too_soon, [2]))) :=
  ⟨(eof_code_fatal ( GifIO.mk_dev (MemDevice.open_for_read [2, 0x84, 0x0a, 0])) 4 2 [1] 2
    (by decide)).1, by decide⟩

end gif

namespace gif

/-! ## The codes packed by the encoder

The calls of `encode` of an encoder in step with the encoder logic pass the codes of
the logic at the widths of the logic. -/

theorem codes_pixel (cr : Nat) (st : LZEncoder) (a : AEnc) (code pixel : Nat)
    (hsim : EncSim cr st a) (hr : ARange cr a) (hcode : code ≤ 4094) (hpix : pixel < 256)
    (hroom : st.f.Room (a.pixel cr code pixel).1.length) :
    (st.pixel_calls code pixel).map LZEncoder.call_code = a.pixel_codes cr code pixel := by
  obtain ⟨hcr, hent, hrc⟩ := hr
  have hrc' : 2 ^ cr + 2 + a.dict.length ≤ 4095 := hrc
  have hdl : a.dict.length ≤ 4095 := le_trans (Nat.le_add_left _ _) hrc'
  have hlen : (hmap cr a.dict).length < 8192 := by rw [hmap_length]; omega
  cases hlk : dlookup cr a.dict code pixel with
  | some c =>
    have hget := ht_get_present st.ht.table _ hsim.ht _ c (hmap_mem_of_lookup cr _ _ _ _ hlk)
      (by have := dlookup_lt cr _ _ _ _ hlk; omega)
    simp only [LZEncoder.pixel_calls, hget, AEnc.pixel_codes, hlk, List.map_nil]
  | none =>
    have hget := ht_get_absent st.ht.table _ hsim.ht hlen _
      (hmap_not_mem cr _ code pixel (fun e he => (hent e he).2) hpix hlk)
    by_cases hfull : (a.encode cr code).2.run_code cr ≥ LZ.max_code
    · have hpx : a.pixel cr code pixel =
          ((a.encode cr code).1 ++ ((a.encode cr code).2.encode cr (2 ^ cr)).1,
            { ((a.encode cr code).2.encode cr (2 ^ cr)).2 with
                dict := [], run_bits := cr + 1, max_code := 2 ^ (cr + 1) }, pixel) := by
        simp only [AEnc.pixel, hlk, hfull, if_true]
      rw [hpx] at hroom
      simp only [List.length_append] at hroom
      have hra := GifIO_Room_mono st.f hroom (Nat.le_add_right _ _)
      obtain ⟨st1, he1, _, hs1⟩ := enc_encode cr st a code hsim (by omega) hra
      have hfull1 : st1.run_code ≥ LZ.max_code := by rw [hs1.run_code]; exact hfull
      simp only [LZEncoder.pixel_calls, hget, he1, Bool.not_true, Bool.false_eq_true, if_false,
        hfull1, if_true, AEnc.pixel_codes, hlk, hfull, List.map_cons, List.map_nil,
        LZEncoder.call_code, hsim.run_bits, hs1.clear_code, hs1.run_bits]
    · have hpx : a.pixel cr code pixel =
          ((a.encode cr code).1,
            { (a.encode cr code).2 with dict := (code, pixel) :: (a.encode cr code).2.dict },
            pixel) := by
        simp only [AEnc.pixel, hlk, hfull, if_false]
      rw [hpx] at hroom
      obtain ⟨st1, he1, _, hs1⟩ := enc_encode cr st a code hsim (by omega) hroom
      have hfull1 : ¬ st1.run_code ≥ LZ.max_code := by rw [hs1.run_code]; exact hfull
      simp only [LZEncoder.pixel_calls, hget, he1, Bool.not_true, Bool.false_eq_true, if_false,
        hfull1, AEnc.pixel_codes, hlk, hfull, List.map_cons, List.map_nil,
        LZEncoder.call_code, hsim.run_bits]

theorem codes_loop (cr : Nat) :
    ∀ (pixels : List Nat) (st : LZEncoder) (a : AEnc) (code : Nat),
      EncSim cr st a → ARange cr a → code ≤ 4094 → (∀ x ∈ pixels, x < 256) →
      st.f.Room (AEnc.loop cr pixels a code).1.length →
      (LZEncoder.loop_calls pixels st code).map LZEncoder.call_code =
        AEnc.loop_codes cr pixels a code := by
  intro pixels
  induction pixels with
  | nil =>
    intro st a code _ _ _ _ _
    rfl
  | cons x rest ih =>
    intro st a code hsim hr hc hp hroom
    have hlp : AEnc.loop cr (x :: rest) a code =
        ((a.pixel cr code x).1 ++
          (AEnc.loop cr rest (a.pixel cr code x).2.1 (a.pixel cr code x).2.2).1,
         (AEnc.loop cr rest (a.pixel cr code x).2.1 (a.pixel cr code x).2.2).2) := rfl
    rw [hlp] at hroom
    simp only [List.length_append] at hroom
    have hra := GifIO_Room_mono st.f hroom (Nat.le_add_right _ _)
    have hx := hp x (List.mem_cons_self _ _)
    obtain ⟨st1, he1, hf1, hs1⟩ := enc_encode_pixel cr st a code x hsim hr hc hx hra
    have hroom2 := GifIO_push_room st.f _ _ hroom
    rw [← hf1] at hroom2
    have hr1 := aenc_pixel_range cr a code x hr hc hx
    have h2 := ih st1 _ _ hs1 hr1.1 hr1.2 (fun y hy => hp y (List.mem_cons_of_mem _ hy)) hroom2
    simp only [LZEncoder.loop_calls, he1, Bool.not_true, Bool.false_eq_true, if_false,
      List.map_append, codes_pixel cr st a code x hsim hr hc hx hra, h2, AEnc.loop_codes]

theorem codes_finish (cr : Nat) (st : LZEncoder) (a : AEnc) (code : Nat) (hsim : EncSim cr st a)
    (hc : code ≤ 4094) (hroom : st.f.Room (a.encode cr code).1.length) :
    (st.finish_calls code).map LZEncoder.call_code = a.finish_codes cr code := by
  obtain ⟨st1, he1, _, hs1⟩ := enc_encode cr st a code hsim (by omega) hroom
  simp only [LZEncoder.finish_calls, he1, Bool.not_true, Bool.false_eq_true, if_false,
    List.map_cons, List.map_nil, LZEncoder.call_code, hsim.run_bits, hs1.eof_code, hs1.run_bits,
    AEnc.finish_codes]

theorem codes_line_end (cr : Nat) (st : LZEncoder) (a : AEnc) (hsim : EncSim cr st a)
    (hc : a.crnt_code ≤ 4094) (hroom : st.f.Room (a.line_end cr).1.length) :
    (if st.pix_count = 0 then st.finish_calls a.crnt_code else []).map LZEncoder.call_code =
      a.line_end_codes cr := by
  by_cases hz : a.pix_count = 0
  · have hle : a.line_end cr = a.finish cr a.crnt_code := by
      simp only [AEnc.line_end, hz, if_true]
    rw [hle, aenc_finish_eq] at hroom
    simp only [List.length_append] at hroom
    have hrf := GifIO_Room_mono st.f hroom (by omega : (a.encode cr a.crnt_code).1.length ≤ _)
    rw [if_pos (hsim.pix_count.trans hz), codes_finish cr st a _ hsim hc hrf]
    simp only [AEnc.line_end_codes, hz, if_true]
  · rw [if_neg (fun h => hz (hsim.pix_count.symm.trans h))]
    simp only [AEnc.line_end_codes, hz, if_false, List.map_nil]

theorem codes_line (cr : Nat) (st : LZEncoder) (a : AEnc) (line : List Nat)
    (hsim : EncSim cr st a) (hr : ARange cr a) (hc : ACrnt a) (hp : ∀ x ∈ line, x < 256)
    (hroom : st.f.Room (a.encode_line cr line).1.length) :
    (st.line_calls line).map LZEncoder.call_code = a.encode_line_codes cr line := by
  have hb := line_start_bound a.crnt_code line hp hc
  have hlr := aenc_loop_range cr _ a _ hr hb.1 hb.2
  have hel : a.encode_line cr line =
      ((AEnc.loop cr (LZEncoder.line_start a.crnt_code line).2 a
          (LZEncoder.line_start a.crnt_code line).1).1 ++
        (AEnc.line_end cr
          { (AEnc.loop cr (LZEncoder.line_start a.crnt_code line).2 a
              (LZEncoder.line_start a.crnt_code line).1).2.1 with
            crnt_code := (AEnc.loop cr (LZEncoder.line_start a.crnt_code line).2 a
              (LZEncoder.line_start a.crnt_code line).1).2.2 }).1,
       (AEnc.line_end cr
          { (AEnc.loop cr (LZEncoder.line_start a.crnt_code line).2 a
              (LZEncoder.line_start a.crnt_code line).1).2.1 with
            crnt_code := (AEnc.loop cr (LZEncoder.line_start a.crnt_code line).2 a
              (LZEncoder.line_start a.crnt_code line).1).2.2 }).2) := rfl
  rw [hel] at hroom
  simp only [List.length_append] at hroom
  have hra := GifIO_Room_mono st.f hroom (Nat.le_add_right _ _)
  obtain ⟨st1, he1, hf1, hs1⟩ := enc_encode_loop cr _ st a _ hsim hr hb.1 hb.2 hra
  have hcl := codes_loop cr _ st a _ hsim hr hb.1 hb.2 hra
  have hroom2 := GifIO_push_room st.f _ _ hroom
  rw [← hf1] at hroom2
  have hs2 := enc_sim_set_crnt cr st1 _ (AEnc.loop cr (LZEncoder.line_start a.crnt_code line).2 a
    (LZEncoder.line_start a.crnt_code line).1).2.2 hs1
  have hlc : st.line_calls line =
      LZEncoder.loop_calls (LZEncoder.line_start a.crnt_code line).2 st
          (LZEncoder.line_start a.crnt_code line).1 ++
        (if st1.pix_count = 0 then
          LZEncoder.finish_calls
            { st1 with crnt_code := (AEnc.loop cr (LZEncoder.line_start a.crnt_code line).2 a
                (LZEncoder.line_start a.crnt_code line).1).2.2 }
            (AEnc.loop cr (LZEncoder.line_start a.crnt_code line).2 a
              (LZEncoder.line_start a.crnt_code line).1).2.2
         else []) := by
    simp only [LZEncoder.line_calls, hsim.crnt_code, he1, Bool.not_true, Bool.false_eq_true,
      if_false]
  have hcodes : a.encode_line_codes cr line =
      AEnc.loop_codes cr (LZEncoder.line_start a.crnt_code line).2 a
          (LZEncoder.line_start a.crnt_code line).1 ++
        AEnc.line_end_codes cr
          { (AEnc.loop cr (LZEncoder.line_start a.crnt_code line).2 a
              (LZEncoder.line_start a.crnt_code line).1).2.1 with
            crnt_code := (AEnc.loop cr (LZEncoder.line_start a.crnt_code line).2 a
              (LZEncoder.line_start a.crnt_code line).1).2.2 } := rfl
  have key := codes_line_end cr _ _ hs2 hlr.2 hroom2
  rw [hlc, List.map_append, hcl, hcodes, ← key]

theorem codes_put_line (cr : Nat) (st : LZEncoder) (a : AEnc) (line : List Nat)
    (hsim : EncSim cr st a) (hr : ARange cr a) (hc : ACrnt a)
    (hfit : line.length ≤ a.pix_count)
    (hroom : st.f.Room (a.put_line cr line).1.length) :
    (st.put_line_calls line).map LZEncoder.call_code = a.put_line_codes cr line := by
  have hs1 := enc_sim_set_pix cr st a (a.pix_count - line.length) hsim
  have h := codes_line cr _ _
    (line.map (fun b => b &&& LZEncoder.code_mask.getD cr 0)) hs1 (aenc_set_pix_range cr a _ hr)
    hc (masked_lt cr line) hroom
  have hnlt : ¬ st.pix_count < line.length := by rw [hsim.pix_count]; omega
  unfold LZEncoder.put_line_calls
  rw [if_neg hnlt]
  have hm : LZEncoder.code_mask.getD st.col_res 0 = LZEncoder.code_mask.getD cr 0 := by
    rw [hsim.col_res]
  simp only [hsim.pix_count, hm]
  exact h

theorem codes_put_lines (cr : Nat) :
    ∀ (lines : List (List Nat)) (st : LZEncoder) (a : AEnc),
      EncSim cr st a → ARange cr a → ACrnt a →
      (lines.map List.length).sum ≤ a.pix_count →
      st.f.Room (AEnc.put_lines cr lines a).1.length →
      (LZEncoder.put_lines_calls lines st).map LZEncoder.call_code =
        AEnc.put_lines_codes cr lines a := by
  intro lines
  induction lines with
  | nil =>
    intro st a _ _ _ _ _
    rfl
  | cons line rest ih =>
    intro st a hsim hr hc hfit hroom
    rw [aenc_put_lines_cons] at hroom
    simp only [List.length_append] at hroom
    simp only [List.map_cons, List.sum_cons] at hfit
    have hra := GifIO_Room_mono st.f hroom (Nat.le_add_right _ _)
    obtain ⟨st1, he1, hf1, hs1⟩ := enc_put_line cr st a line hsim hr hc (by omega) hra
    have hroom2 := GifIO_push_room st.f _ _ hroom
    rw [← hf1] at hroom2
    have hp := aenc_put_line_props cr a line hr hc
    have h2 := ih st1 _ hs1 hp.1 hp.2.1 (by rw [hp.2.2.1]; omega) hroom2
    simp only [LZEncoder.put_lines_calls, he1, Bool.not_true, Bool.false_eq_true, if_false,
      List.map_append, codes_put_line cr st a line hsim hr hc (by omega) hra, h2,
      AEnc.put_lines_codes]

end gif

namespace gif

/-! ## The bytes of the codes packed -/

/-- `encode(flush_output)`: what went to the session is a sequence of sub-blocks and
the zero length block, and the bytes in the blocks hold the codes and fewer than 8
bits more. -/
theorem pk_flush_tight (out : List Nat) (p : Packer) (cw : List (Nat × Nat))
    (h : PkRep out p cw) (hn : p.nbits < 8) :
    ∃ blocks, Blocks blocks ∧ out ++ p.flush.1 = frames blocks ++ [0] ∧
      le_val blocks.flatten = pack cw ∧ bitlen cw ≤ 8 * blocks.flatten.length ∧
      8 * blocks.flatten.length < bitlen cw + 8 := by
  obtain ⟨data, hb, hv, hl, hd⟩ := h
  have key : ∃ data1, PkB (out ++ (Packer.drain p.nbits p).1) (Packer.drain p.nbits p).2.stg
      data1 ∧ le_val data1 = pack cw ∧ bitlen cw ≤ 8 * data1.length ∧
      8 * data1.length < bitlen cw + 8 := by
    by_cases h0 : p.nbits = 0
    · rw [pk_drain_zero _ _ h0]
      rw [h0] at hd hl
      have hz : p.dword = 0 := by simpa using hd
      rw [hz] at hv
      exact ⟨data, by simpa using hb, by simpa using hv, by omega, by omega⟩
    · obtain ⟨n, hn1⟩ : ∃ n, p.nbits = n + 1 := ⟨p.nbits - 1, by omega⟩
      have hdr : Packer.drain p.nbits p =
          ((p.put (p.dword &&& 0xff)).1,
            { (p.put (p.dword &&& 0xff)).2 with dword := p.dword >>> 8,
                                                 nbits := p.nbits - 8 }) := by
        have hpos : p.nbits > 0 := by omega
        have hz : p.nbits - 8 = 0 := by omega
        rw [hn1]
        simp only [Packer.drain]
        rw [← hn1, if_pos hpos]
        rw [pk_drain_zero n _ hz]
        simp only [List.append_nil]
      rw [hdr]
      have hlt : p.dword < 256 := by
        have : 2 ^ p.nbits ≤ 2 ^ 8 := Nat.pow_le_pow_right (by norm_num) (by omega)
        omega
      refine ⟨data ++ [(p.dword &&& 0xff) % 256], pkb_put out data p _ hb, ?_, ?_, ?_⟩
      · rw [le_val_append, ← hv, and_ff_mod, Nat.mod_mod, Nat.mod_eq_of_lt hlt]
        simp [le_val]
      · rw [← hl]; simp only [List.length_append, List.length_singleton]; omega
      · rw [← hl]; simp only [List.length_append, List.length_singleton]; omega
  obtain ⟨data1, ⟨full, hf, ho, hd1, hl1, hx⟩, hv1, hb1, hb2⟩ := key
  refine ⟨full ++ (if (Packer.drain p.nbits p).2.stg.length ≠ 0
      then [(Packer.drain p.nbits p).2.stg] else []), ?_, ?_, ?_, ?_, ?_⟩
  · intro b hb2
    rcases List.mem_append.mp hb2 with h1 | h1
    · refine ⟨by rw [hf b h1]; norm_num, by rw [hf b h1], fun x hx2 => hx x ?_⟩
      rw [hd1]
      exact List.mem_append_left _ (List.mem_flatten.mpr ⟨b, h1, hx2⟩)
    · by_cases hs : (Packer.drain p.nbits p).2.stg.length ≠ 0
      · rw [if_pos hs] at h1
        rw [List.mem_singleton.mp h1]
        refine ⟨by omega, hl1, fun x hx2 => hx x ?_⟩
        rw [hd1]; exact List.mem_append_right _ hx2
      · rw [if_neg hs] at h1
        exact absurd h1 (List.not_mem_nil _)
  · unfold Packer.flush Packer.close
    simp only [← List.append_assoc, ho, frames_append]
    by_cases hs : (Packer.drain p.nbits p).2.stg.length ≠ 0
    · simp only [if_pos hs, frames_cons, frames_nil, List.append_nil, List.append_assoc,
        List.cons_append]
    · simp only [if_neg hs, frames_nil, List.append_nil, List.nil_append]
  · rw [← hv1, pk_flush_flatten full _ data1 hd1]
  · rw [pk_flush_flatten full _ data1 hd1]; exact hb1
  · rw [pk_flush_flatten full _ data1 hd1]; exact hb2

theorem fits_split (a b : List (Nat × Nat)) (h : Fits (a ++ b)) : Fits a ∧ Fits b :=
  ⟨fun e he => h e (List.mem_append_left _ he), fun e he => h e (List.mem_append_right _ he)⟩

theorem rep_encode (cr : Nat) (out : List Nat) (a : AEnc) (cw : List (Nat × Nat)) (code : Nat)
    (h : PkRep out a.pk cw) (hc : code < 2 ^ a.run_bits) :
    PkRep (out ++ (a.encode cr code).1) (a.encode cr code).2.pk (cw ++ [(code, a.run_bits)]) ∧
      (a.encode cr code).2.pk.nbits < 8 := by
  obtain ⟨e1, e2, _⟩ := aenc_encode_pk cr a code
  rw [e1, e2]
  exact pk_emit out a.pk cw code a.run_bits h hc

theorem rep_pixel (cr : Nat) (out : List Nat) (a : AEnc) (cw : List (Nat × Nat)) (code x : Nat)
    (h : PkRep out a.pk cw) (hn : a.pk.nbits < 8) (hf : Fits (a.pixel_codes cr code x)) :
    PkRep (out ++ (a.pixel cr code x).1) (a.pixel cr code x).2.1.pk
        (cw ++ a.pixel_codes cr code x) ∧
      (a.pixel cr code x).2.1.pk.nbits < 8 := by
  cases hlk : dlookup cr a.dict code x with
  | some c =>
    have hpx : a.pixel cr code x = ([], a, c) := by simp only [AEnc.pixel, hlk]
    have hcd : a.pixel_codes cr code x = [] := by simp only [AEnc.pixel_codes, hlk]
    rw [hpx, hcd]
    simp only [List.append_nil]
    exact ⟨h, hn⟩
  | none =>
    by_cases hfull : (a.encode cr code).2.run_code cr ≥ LZ.max_code
    · have hpx : a.pixel cr code x =
          ((a.encode cr code).1 ++ ((a.encode cr code).2.encode cr (2 ^ cr)).1,
            { ((a.encode cr code).2.encode cr (2 ^ cr)).2 with
                dict := [], run_bits := cr + 1, max_code := 2 ^ (cr + 1) }, x) := by
        simp only [AEnc.pixel, hlk, hfull, if_true]
      have hcd : a.pixel_codes cr code x =
          [(code, a.run_bits), (2 ^ cr, (a.encode cr code).2.run_bits)] := by
        simp only [AEnc.pixel_codes, hlk, hfull, if_true]
      rw [hcd] at hf ⊢
      rw [hpx]
      have f1 : code < 2 ^ a.run_bits := hf _ (List.mem_cons_self _ _)
      have f2 : 2 ^ cr < 2 ^ (a.encode cr code).2.run_bits :=
        hf (2 ^ cr, (a.encode cr code).2.run_bits)
          (List.mem_cons_of_mem _ (List.mem_cons_self _ _))
      obtain ⟨r1, _⟩ := rep_encode cr out a cw code h f1
      obtain ⟨r2, n2⟩ := rep_encode cr _ (a.encode cr code).2 _ (2 ^ cr) r1 f2
      simp only [List.append_assoc, List.singleton_append] at r2
      refine ⟨?_, n2⟩
      show PkRep (out ++ ((a.encode cr code).1 ++ ((a.encode cr code).2.encode cr (2 ^ cr)).1))
        ((a.encode cr code).2.encode cr (2 ^ cr)).2.pk _
      exact r2
    · have hpx : a.pixel cr code x =
          ((a.encode cr code).1,
            { (a.encode cr code).2 with dict := (code, x) :: (a.encode cr code).2.dict },
            x) := by
        simp only [AEnc.pixel, hlk, hfull, if_false]
      have hcd : a.pixel_codes cr code x = [(code, a.run_bits)] := by
        simp only [AEnc.pixel_codes, hlk, hfull, if_false]
      rw [hcd] at hf ⊢
      rw [hpx]
      have f1 : code < 2 ^ a.run_bits := hf _ (List.mem_cons_self _ _)
      exact rep_encode cr out a cw code h f1

theorem rep_loop (cr : Nat) :
    ∀ (pixels : List Nat) (a : AEnc) (code : Nat) (out : List Nat) (cw : List (Nat × Nat)),
      PkRep out a.pk cw → a.pk.nbits < 8 → Fits (AEnc.loop_codes cr pixels a code) →
      PkRep (out ++ (AEnc.loop cr pixels a code).1) (AEnc.loop cr pixels a code).2.1.pk
          (cw ++ AEnc.loop_codes cr pixels a code) ∧
        (AEnc.loop cr pixels a code).2.1.pk.nbits < 8 := by
  intro pixels
  induction pixels with
  | nil =>
    intro a code out cw h hn _
    simp only [AEnc.loop, AEnc.loop_codes, List.append_nil]
    exact ⟨h, hn⟩
  | cons x rest ih =>
    intro a code out cw h hn hf
    have hlp : AEnc.loop cr (x :: rest) a code =
        ((a.pixel cr code x).1 ++
          (AEnc.loop cr rest (a.pixel cr code x).2.1 (a.pixel cr code x).2.2).1,
         (AEnc.loop cr rest (a.pixel cr code x).2.1 (a.pixel cr code x).2.2).2) := rfl
    have hlc : AEnc.loop_codes cr (x :: rest) a code =
        a.pixel_codes cr code x ++
          AEnc.loop_codes cr rest (a.pixel cr code x).2.1 (a.pixel cr code x).2.2 := rfl
    rw [hlc] at hf ⊢
    rw [hlp]
    obtain ⟨f1, f2⟩ := fits_split _ _ hf
    obtain ⟨r1, n1⟩ := rep_pixel cr out a cw code x h hn f1
    have r2 := ih _ _ _ _ r1 n1 f2
    simp only [List.append_assoc] at r2 ⊢
    exact r2

/-! ## The end code among the codes packed -/

theorem ne_pixel (cr : Nat) (a : AEnc) (code x : Nat) (hc : code ≠ 2 ^ cr + 1)
    (hx : x < 2 ^ cr) :
    (∀ e ∈ a.pixel_codes cr code x, e.1 ≠ 2 ^ cr + 1) ∧
      (a.pixel cr code x).2.2 ≠ 2 ^ cr + 1 := by
  cases hlk : dlookup cr a.dict code x with
  | some c =>
    have hpx : a.pixel cr code x = ([], a, c) := by simp only [AEnc.pixel, hlk]
    have hcd : a.pixel_codes cr code x = [] := by simp only [AEnc.pixel_codes, hlk]
    rw [hpx, hcd]
    have := dlookup_ge cr _ _ _ _ hlk
    refine ⟨fun e he => absurd he (List.not_mem_nil _), ?_⟩
    show c ≠ 2 ^ cr + 1
    omega
  | none =>
    by_cases hfull : (a.encode cr code).2.run_code cr ≥ LZ.max_code
    · have hpx : a.pixel cr code x =
          ((a.encode cr code).1 ++ ((a.encode cr code).2.encode cr (2 ^ cr)).1,
            { ((a.encode cr code).2.encode cr (2 ^ cr)).2 with
                dict := [], run_bits := cr + 1, max_code := 2 ^ (cr + 1) }, x) := by
        simp only [AEnc.pixel, hlk, hfull, if_true]
      have hcd : a.pixel_codes cr code x =
          [(code, a.run_bits), (2 ^ cr, (a.encode cr code).2.run_bits)] := by
        simp only [AEnc.pixel_codes, hlk, hfull, if_true]
      rw [hpx, hcd]
      refine ⟨?_, ?_⟩
      · intro e he
        simp only [List.mem_cons, List.mem_singleton, List.not_mem_nil, or_false] at he
        rcases he with he | he
        · rw [he]; exact hc
        · rw [he]; show 2 ^ cr ≠ 2 ^ cr + 1; omega
      · show x ≠ 2 ^ cr + 1
        omega
    · have hpx : a.pixel cr code x =
          ((a.encode cr code).1,
            { (a.encode cr code).2 with dict := (code, x) :: (a.encode cr code).2.dict },
            x) := by
        simp only [AEnc.pixel, hlk, hfull, if_false]
      have hcd : a.pixel_codes cr code x = [(code, a.run_bits)] := by
        simp only [AEnc.pixel_codes, hlk, hfull, if_false]
      rw [hpx, hcd]
      refine ⟨?_, ?_⟩
      · intro e he
        simp only [List.mem_singleton] at he
        rw [he]; exact hc
      · show x ≠ 2 ^ cr + 1
        omega

theorem ne_loop (cr : Nat) :
    ∀ (pixels : List Nat) (a : AEnc) (code : Nat), code ≠ 2 ^ cr + 1 →
      (∀ x ∈ pixels, x < 2 ^ cr) →
      (∀ e ∈ AEnc.loop_codes cr pixels a code, e.1 ≠ 2 ^ cr + 1) ∧
        (AEnc.loop cr pixels a code).2.2 ≠ 2 ^ cr + 1 := by
  intro pixels
  induction pixels with
  | nil =>
    intro a code hc _
    exact ⟨fun e he => absurd he (List.not_mem_nil _), hc⟩
  | cons x rest ih =>
    intro a code hc hx
    have hlp : AEnc.loop cr (x :: rest) a code =
        ((a.pixel cr code x).1 ++
          (AEnc.loop cr rest (a.pixel cr code x).2.1 (a.pixel cr code x).2.2).1,
         (AEnc.loop cr rest (a.pixel cr code x).2.1 (a.pixel cr code x).2.2).2) := rfl
    have hlc : AEnc.loop_codes cr (x :: rest) a code =
        a.pixel_codes cr code x ++
          AEnc.loop_codes cr rest (a.pixel cr code x).2.1 (a.pixel cr code x).2.2 := rfl
    rw [hlp, hlc]
    obtain ⟨p1, p2⟩ := ne_pixel cr a code x hc (hx x (List.mem_cons_self _ _))
    obtain ⟨q1, q2⟩ := ih (a.pixel cr code x).2.1 _ p2
      (fun y hy => hx y (List.mem_cons_of_mem _ hy))
    refine ⟨?_, q2⟩
    intro e he
    rcases List.mem_append.mp he with h1 | h1
    · exact p1 e h1
    · exact q1 e h1

theorem ne_line_start (cr : Nat) (hcr : cr ≤ 8) (crnt : Nat) (line : List Nat)
    (hc : crnt ≠ 2 ^ cr + 1) (hx : ∀ x ∈ line, x < 2 ^ cr) (hne : line ≠ []) :
    (LZEncoder.line_start crnt line).1 ≠ 2 ^ cr + 1 ∧
      ∀ x ∈ (LZEncoder.line_start crnt line).2, x < 2 ^ cr := by
  unfold LZEncoder.line_start
  by_cases h : crnt = LZ.first_code
  · rw [if_pos h]
    refine ⟨?_, fun x hx2 => hx x (List.mem_of_mem_tail hx2)⟩
    cases line with
    | nil => exact absurd rfl hne
    | cons y ys =>
      have := hx y (List.mem_cons_self _ _)
      simp only [List.headD_cons]; omega
  · rw [if_neg h]
    exact ⟨hc, hx⟩

end gif

namespace gif

/-! ## The codes of a complete encode -/

theorem line_end_crnt (cr : Nat) (a : AEnc) : (a.line_end cr).2.crnt_code = a.crnt_code := by
  unfold AEnc.line_end
  by_cases hz : a.pix_count = 0
  · rw [if_pos hz]; exact (aenc_finish_crnt cr a _).1
  · rw [if_neg hz]

theorem rep_finish (cr : Nat) (out : List Nat) (a : AEnc) (cw : List (Nat × Nat)) (code : Nat)
    (h : PkRep out a.pk cw) (hf : Fits (a.finish_codes cr code)) :
    ∃ blocks, Blocks blocks ∧ out ++ (a.finish cr code).1 = frames blocks ++ [0] ∧
      le_val blocks.flatten = pack (cw ++ a.finish_codes cr code) ∧
      bitlen (cw ++ a.finish_codes cr code) ≤ 8 * blocks.flatten.length ∧
      8 * blocks.flatten.length < bitlen (cw ++ a.finish_codes cr code) + 8 := by
  have f1 : code < 2 ^ a.run_bits := hf (code, a.run_bits) (List.mem_cons_self _ _)
  have f2 : 2 ^ cr + 1 < 2 ^ (a.encode cr code).2.run_bits :=
    hf (2 ^ cr + 1, (a.encode cr code).2.run_bits)
      (List.mem_cons_of_mem _ (List.mem_cons_self _ _))
  obtain ⟨r1, _⟩ := rep_encode cr out a cw code h f1
  obtain ⟨r2, n2⟩ := rep_encode cr _ (a.encode cr code).2 _ (2 ^ cr + 1) r1 f2
  obtain ⟨blocks, b1, b2, b3, b4, b5⟩ := pk_flush_tight _ _ _ r2 n2
  simp only [List.append_assoc, List.singleton_append] at b3 b4 b5
  refine ⟨blocks, b1, ?_, b3, b4, b5⟩
  rw [aenc_finish_eq]
  simp only [List.append_assoc] at b2 ⊢
  exact b2

theorem rep_line_end (cr : Nat) (out : List Nat) (a : AEnc) (cw : List (Nat × Nat))
    (h : PkRep out a.pk cw) (hn : a.pk.nbits < 8) (hf : Fits (a.line_end_codes cr)) :
    (a.pix_count ≠ 0 →
      PkRep (out ++ (a.line_end cr).1) (a.line_end cr).2.pk cw ∧
        (a.line_end cr).2.pk.nbits < 8 ∧ a.line_end_codes cr = []) ∧
    (a.pix_count = 0 →
      ∃ blocks w1 w2, Blocks blocks ∧ out ++ (a.line_end cr).1 = frames blocks ++ [0] ∧
        le_val blocks.flatten = pack (cw ++ a.line_end_codes cr) ∧
        bitlen (cw ++ a.line_end_codes cr) ≤ 8 * blocks.flatten.length ∧
        8 * blocks.flatten.length < bitlen (cw ++ a.line_end_codes cr) + 8 ∧
        a.line_end_codes cr = [(a.crnt_code, w1), (2 ^ cr + 1, w2)]) := by
  constructor
  · intro hz
    have e1 : a.line_end cr = ([], a) := by simp only [AEnc.line_end, hz, if_false]
    have e2 : a.line_end_codes cr = [] := by simp only [AEnc.line_end_codes, hz, if_false]
    rw [e1]
    simp only [List.append_nil]
    exact ⟨h, hn, e2⟩
  · intro hz
    have e1 : a.line_end cr = a.finish cr a.crnt_code := by
      simp only [AEnc.line_end, hz, if_true]
    have e2 : a.line_end_codes cr = a.finish_codes cr a.crnt_code := by
      simp only [AEnc.line_end_codes, hz, if_true]
    rw [e2] at hf ⊢
    rw [e1]
    obtain ⟨blocks, b1, b2, b3, b4, b5⟩ := rep_finish cr out a cw a.crnt_code h hf
    exact ⟨blocks, _, _, b1, b2, b3, b4, b5, rfl⟩

theorem rep_line (cr : Nat) (hcr : cr ≤ 8) (out : List Nat) (a : AEnc) (cw : List (Nat × Nat))
    (line : List Nat) (h : PkRep out a.pk cw) (hn : a.pk.nbits < 8)
    (hf : Fits (a.encode_line_codes cr line)) (hc : a.crnt_code ≠ 2 ^ cr + 1)
    (hx : ∀ x ∈ line, x < 2 ^ cr) (hne : line ≠ []) :
    (a.pix_count ≠ 0 →
      PkRep (out ++ (a.encode_line cr line).1) (a.encode_line cr line).2.pk
          (cw ++ a.encode_line_codes cr line) ∧
        (a.encode_line cr line).2.pk.nbits < 8 ∧
        (∀ e ∈ a.encode_line_codes cr line, e.1 ≠ 2 ^ cr + 1) ∧
        (a.encode_line cr line).2.crnt_code ≠ 2 ^ cr + 1) ∧
    (a.pix_count = 0 →
      ∃ (blocks : List (List Nat)) (pre : List (Nat × Nat)) (w1 w2 : Nat),
        Blocks blocks ∧ out ++ (a.encode_line cr line).1 = frames blocks ++ [0] ∧
        le_val blocks.flatten = pack (cw ++ a.encode_line_codes cr line) ∧
        bitlen (cw ++ a.encode_line_codes cr line) ≤ 8 * blocks.flatten.length ∧
        8 * blocks.flatten.length < bitlen (cw ++ a.encode_line_codes cr line) + 8 ∧
        a.encode_line_codes cr line =
          pre ++ [((a.encode_line cr line).2.crnt_code, w1), (2 ^ cr + 1, w2)] ∧
        (∀ e ∈ pre, e.1 ≠ 2 ^ cr + 1) ∧
        (a.encode_line cr line).2.crnt_code ≠ 2 ^ cr + 1) := by
  obtain ⟨L, hL⟩ : ∃ L, L = AEnc.loop cr (LZEncoder.line_start a.crnt_code line).2 a
      (LZEncoder.line_start a.crnt_code line).1 := ⟨_, rfl⟩
  obtain ⟨a1, ha1⟩ : ∃ a1 : AEnc, a1 = { L.2.1 with crnt_code := L.2.2 } := ⟨_, rfl⟩
  obtain ⟨lc, hlc⟩ : ∃ lc, lc = AEnc.loop_codes cr (LZEncoder.line_start a.crnt_code line).2 a
      (LZEncoder.line_start a.crnt_code line).1 := ⟨_, rfl⟩
  have hel1 : (a.encode_line cr line).1 = L.1 ++ (a1.line_end cr).1 := by
    rw [ha1, hL]; rfl
  have hel2 : (a.encode_line cr line).2 = (a1.line_end cr).2 := by
    rw [ha1, hL]; rfl
  have hcd : a.encode_line_codes cr line = lc ++ a1.line_end_codes cr := by
    rw [ha1, hL, hlc]; rfl
  have hs := ne_line_start cr hcr a.crnt_code line hc hx hne
  rw [hcd] at hf ⊢
  rw [hel1, hel2]
  obtain ⟨f1, f2⟩ := fits_split _ _ hf
  have rl := rep_loop cr _ a _ out cw h hn (by rw [← hlc]; exact f1)
  rw [← hL, ← hlc] at rl
  have nl := ne_loop cr _ a _ hs.1 hs.2
  rw [← hL, ← hlc] at nl
  have pl := (aenc_loop_pix cr (LZEncoder.line_start a.crnt_code line).2 a
    (LZEncoder.line_start a.crnt_code line).1).1
  rw [← hL] at pl
  have hp1 : a1.pix_count = a.pix_count := by rw [ha1]; exact pl
  have hc1 : a1.crnt_code = L.2.2 := by rw [ha1]
  have hk1 : a1.pk = L.2.1.pk := by rw [ha1]
  rw [← hk1] at rl
  have hle := rep_line_end cr (out ++ L.1) a1 (cw ++ lc) rl.1 rl.2 f2
  have hcrnt : (a1.line_end cr).2.crnt_code ≠ 2 ^ cr + 1 := by
    rw [line_end_crnt, hc1]; exact nl.2
  constructor
  · intro hz
    obtain ⟨q1, q2, q3⟩ := hle.1 (by rw [hp1]; exact hz)
    rw [q3]
    simp only [List.append_nil]
    refine ⟨?_, q2, nl.1, hcrnt⟩
    rw [← List.append_assoc]
    exact q1
  · intro hz
    obtain ⟨blocks, w1, w2, b1, b2, b3, b4, b5, b6⟩ := hle.2 (by rw [hp1]; exact hz)
    refine ⟨blocks, lc, w1, w2, b1, ?_, ?_, ?_, ?_, ?_, nl.1, hcrnt⟩
    · rw [← List.append_assoc]; exact b2
    · rw [← List.append_assoc]; exact b3
    · rw [← List.append_assoc]; exact b4
    · rw [← List.append_assoc]; exact b5
    · rw [b6, line_end_crnt]

theorem rep_put_lines (cr : Nat) (hcr : cr ≤ 8) :
    ∀ (lines : List (List Nat)) (a : AEnc) (out : List Nat) (cw : List (Nat × Nat)),
      lines ≠ [] → (∀ l ∈ lines, l ≠ []) → ARange cr a → ACrnt a →
      a.pix_count = (lines.map List.length).sum →
      PkRep out a.pk cw → a.pk.nbits < 8 → Fits (AEnc.put_lines_codes cr lines a) →
      a.crnt_code ≠ 2 ^ cr + 1 →
      ∃ (blocks : List (List Nat)) (pre : List (Nat × Nat)) (w1 w2 : Nat),
        Blocks blocks ∧ out ++ (AEnc.put_lines cr lines a).1 = frames blocks ++ [0] ∧
        le_val blocks.flatten = pack (cw ++ AEnc.put_lines_codes cr lines a) ∧
        bitlen (cw ++ AEnc.put_lines_codes cr lines a) ≤ 8 * blocks.flatten.length ∧
        8 * blocks.flatten.length < bitlen (cw ++ AEnc.put_lines_codes cr lines a) + 8 ∧
        AEnc.put_lines_codes cr lines a =
          pre ++ [((AEnc.put_lines cr lines a).2.crnt_code, w1), (2 ^ cr + 1, w2)] ∧
        (∀ e ∈ pre, e.1 ≠ 2 ^ cr + 1) ∧
        (AEnc.put_lines cr lines a).2.crnt_code ≠ 2 ^ cr + 1 := by
  intro lines
  induction lines with
  | nil =>
    intro _ _ _ hl
    exact absurd rfl hl
  | cons line rest ih =>
    intro a out cw _ hne hr hc hpix h hn hf hcc
    obtain ⟨a0, ha0⟩ : ∃ a0 : AEnc, a0 = { a with pix_count := a.pix_count - line.length } :=
      ⟨_, rfl⟩
    obtain ⟨line1, hl1⟩ : ∃ l1, l1 = line.map (fun b => b &&& LZEncoder.code_mask.getD cr 0) :=
      ⟨_, rfl⟩
    have hpl1 : (a.put_line cr line).1 = (a0.encode_line cr line1).1 := by rw [ha0, hl1]; rfl
    have hpl2 : (a.put_line cr line).2.1 = (a0.encode_line cr line1).2 := by rw [ha0, hl1]; rfl
    have hpc : a.put_line_codes cr line = a0.encode_line_codes cr line1 := by
      rw [ha0, hl1]; rfl
    have hcs : AEnc.put_lines_codes cr (line :: rest) a =
        a.put_line_codes cr line ++ AEnc.put_lines_codes cr rest (a.put_line cr line).2.1 := rfl
    have hps1 : (AEnc.put_lines cr (line :: rest) a).1 =
        (a.put_line cr line).1 ++ (AEnc.put_lines cr rest (a.put_line cr line).2.1).1 := rfl
    have hps2 : (AEnc.put_lines cr (line :: rest) a).2 =
        (AEnc.put_lines cr rest (a.put_line cr line).2.1).2 := rfl
    rw [hcs] at hf ⊢
    rw [hps1, hps2]
    obtain ⟨f1, f2⟩ := fits_split _ _ hf
    have hx1 : ∀ x ∈ line1, x < 2 ^ cr := by
      rw [hl1]
      intro x hx
      rw [List.mem_map] at hx
      obtain ⟨b, _, hb⟩ := hx
      rw [← hb]
      exact mask_lt cr hcr b
    have hne1 : line1 ≠ [] := by
      rw [hl1]
      intro h0
      exact hne line (List.mem_cons_self _ _) (List.map_eq_nil_iff.mp h0)
    have hline := rep_line cr hcr out a0 cw line1 (by rw [ha0]; exact h) (by rw [ha0]; exact hn)
      (by rw [← hpc]; exact f1) (by rw [ha0]; exact hcc) hx1 hne1
    rw [← hpl1, ← hpl2, ← hpc] at hline
    have hp0 : a0.pix_count = a.pix_count - line.length := by rw [ha0]
    simp only [List.map_cons, List.sum_cons] at hpix
    cases rest with
    | nil =>
      have hz : a0.pix_count = 0 := by
        rw [hp0, hpix]; simp
      obtain ⟨blocks, pre, w1, w2, b1, b2, b3, b4, b5, b6, b7, b8⟩ := hline.2 hz
      have e1 : AEnc.put_lines_codes cr [] (a.put_line cr line).2.1 = [] := rfl
      have e2 : AEnc.put_lines cr [] (a.put_line cr line).2.1 = ([], (a.put_line cr line).2.1) :=
        rfl
      rw [e1, e2]
      simp only [List.append_nil]
      exact ⟨blocks, pre, w1, w2, b1, b2, b3, b4, b5, b6, b7, b8⟩
    | cons l2 r2 =>
      have hl2 : l2 ≠ [] := hne l2 (List.mem_cons_of_mem _ (List.mem_cons_self _ _))
      have hl2p : 0 < l2.length := List.length_pos.mpr hl2
      simp only [List.map_cons, List.sum_cons] at hpix
      have hz : a0.pix_count ≠ 0 := by
        rw [hp0, hpix]; omega
      obtain ⟨q1, q2, q3, q4⟩ := hline.1 hz
      have hp := aenc_put_line_props cr a line hr hc
      obtain ⟨blocks, pre, w1, w2, b1, b2, b3, b4, b5, b6, b7, b8⟩ :=
        ih (a.put_line cr line).2.1 (out ++ (a.put_line cr line).1)
          (cw ++ a.put_line_codes cr line) (by simp)
          (fun l hl => hne l (List.mem_cons_of_mem _ hl)) hp.1 hp.2.1
          (by rw [hp.2.2.1, hpix]; simp only [List.map_cons, List.sum_cons]; omega) q1 q2 f2 q4
      refine ⟨blocks, a.put_line_codes cr line ++ pre, w1, w2, b1, ?_, ?_, ?_, ?_, ?_, ?_, b8⟩
      · rw [← List.append_assoc]; exact b2
      · rw [← List.append_assoc]; exact b3
      · rw [← List.append_assoc]; exact b4
      · rw [← List.append_assoc]; exact b5
      · rw [b6, List.append_assoc]
      · intro e he
        rcases List.mem_append.mp he with h1 | h1
        · exact q3 e h1
        · exact b7 e h1

theorem fits_calls (cr : Nat) (calls : List (LZEncoder × Nat))
    (h : ∀ sc ∈ calls, CallOk cr sc) : Fits (calls.map LZEncoder.call_code) := by
  intro e he
  rw [List.mem_map] at he
  obtain ⟨sc, hsc, hsc2⟩ := he
  rw [← hsc2]
  exact (h sc hsc).2

end gif

namespace gif

/-- C30.  A complete encode for a colour resolution of 2 to 8 into a sink with room,
in lines that are not empty and hold the pixel count in all: the calls of `encode`
that pack a code, from the constructor to the last `put_line`, pass in this order the
clear code `2 ^ cr` at the width `cr + 1`, codes other than the end code, the pending
code `crnt_code` and the end code `2 ^ cr + 1`, each code below two to the width
`run_bits` in force at its call; the bytes written are sub-blocks of 1 to 255 bytes
behind their length bytes and the zero byte; and the bytes of the sub-blocks, read as
a number with the first byte lowest, hold these codes at these widths, the first code
in the low bits, and fewer than 8 bits more, so that the lowest `cr + 1` bits are the
clear code.  And one pixel `p < 4` at the colour resolution 2 writes the bytes 0x02,
0x44 | (p << 3), 0x01, 0x00. -/
theorem code_stream_framing (cr n : Nat) (hcr2 : 2 ≤ cr) (hcr : cr ≤ 8) (io : GifIO)
    (lines : List (List Nat)) (hne : ∀ l ∈ lines, l ≠ []) (hl : lines ≠ [])
    (hsum : (lines.map List.length).sum = n)
    (hroom : io.Room ((AEnc.init cr n).1 ++
      (AEnc.put_lines cr lines (AEnc.init cr n).2).1).length) :
    (∃ (st : LZEncoder) (blocks : List (List Nat)) (cw : List (Nat × Nat)) (w1 w2 : Nat),
      (LZEncoder.new io n cr).put_lines lines = some (st, true) ∧
      st.f.d.written = io.d.written ++ (frames blocks ++ [0]) ∧
      Blocks blocks ∧
      (LZEncoder.new_call io n cr ::
          LZEncoder.put_lines_calls lines (LZEncoder.new io n cr)).map LZEncoder.call_code =
        (2 ^ cr, cr + 1) :: (cw ++ [(st.crnt_code, w1), (2 ^ cr + 1, w2)]) ∧
      (∀ e ∈ cw, e.1 ≠ 2 ^ cr + 1) ∧ st.crnt_code ≠ 2 ^ cr + 1 ∧
      Fits ((2 ^ cr, cr + 1) :: (cw ++ [(st.crnt_code, w1), (2 ^ cr + 1, w2)])) ∧
      le_val blocks.flatten =
        pack ((2 ^ cr, cr + 1) :: (cw ++ [(st.crnt_code, w1), (2 ^ cr + 1, w2)])) ∧
      bitlen ((2 ^ cr, cr + 1) :: (cw ++ [(st.crnt_code, w1), (2 ^ cr + 1, w2)])) ≤
        8 * blocks.flatten.length ∧
      8 * blocks.flatten.length <
        bitlen ((2 ^ cr, cr + 1) :: (cw ++ [(st.crnt_code, w1), (2 ^ cr + 1, w2)])) + 8 ∧
      le_val blocks.flatten % 2 ^ (cr + 1) = 2 ^ cr) ∧
    ∀ (p : Nat) (io1 : GifIO), p < 4 → io1.Room 4 →
      ∃ st, (LZEncoder.new io1 1 2).put_lines [[p]] = some (st, true) ∧
        st.f.d.written = io1.d.written ++ [0x02, 0x44 ||| (p <<< 3), 0x01, 0x00] := by
  constructor
  · have hroom1 := hroom
    rw [List.length_append] at hroom1
    have hr0 := GifIO_Room_mono io hroom1 (Nat.le_add_right _ _)
    obtain ⟨hnf, hnsim⟩ := enc_new cr n io (by omega) hr0
    have hip := aenc_init_props cr n (by omega)
    have hr1 := GifIO_push_room io _ _ hroom1
    rw [← hnf] at hr1
    obtain ⟨st, he, hf, hs, _⟩ := enc_put_lines cr lines _ _ hnsim hip.1 hip.2.1
      (by rw [hip.2.2, hsum]) hr1
    have hcodes := codes_put_lines cr lines _ _ hnsim hip.1 hip.2.1 (by rw [hip.2.2, hsum]) hr1
    obtain ⟨_, i2, i3, _⟩ := inv_new cr (by omega) (by omega) io n
    obtain ⟨_, _, _, j3⟩ := inv_put_lines cr (by omega) hcr lines _ i2 (Or.inl i3)
    have hp2 : 2 ^ cr < 2 ^ (cr + 1) := by
      have := Nat.two_pow_pos cr
      rw [pow_succ]; omega
    have hfit : Fits (AEnc.put_lines_codes cr lines (AEnc.init cr n).2) := by
      rw [← hcodes]; exact fits_calls cr _ j3
    have hrep0 : PkRep (AEnc.init cr n).1 (AEnc.init cr n).2.pk [(2 ^ cr, cr + 1)] ∧
        (AEnc.init cr n).2.pk.nbits < 8 := by
      have h0 := rep_encode cr []
        { dict := [], run_bits := cr + 1, max_code := 2 ^ (cr + 1),
          crnt_code := LZ.first_code, pix_count := n,
          pk := { dword := 0, nbits := 0, stg := [] } } [] (2 ^ cr) pkrep_nil hp2
      simp only [List.nil_append] at h0
      exact h0
    have hcr0 : (AEnc.init cr n).2.crnt_code ≠ 2 ^ cr + 1 := by
      rw [aenc_init_crnt]
      have : 2 ^ cr ≤ 2 ^ 8 := Nat.pow_le_pow_right (by norm_num) hcr
      unfold LZ.first_code
      omega
    obtain ⟨blocks, pre, w1, w2, b1, b2, b3, b4, b5, b6, b7, b8⟩ :=
      rep_put_lines cr hcr lines _ _ _ hl hne hip.1 hip.2.1 (by rw [hip.2.2, hsum])
        hrep0.1 hrep0.2 hfit hcr0
    have hcc : st.crnt_code = (AEnc.put_lines cr lines (AEnc.init cr n).2).2.crnt_code :=
      hs.crnt_code
    rw [← hcc] at b6 b8
    rw [b6] at b3 b4 b5 hfit
    simp only [List.singleton_append] at b3 b4 b5
    refine ⟨st, blocks, pre, w1, w2, he, ?_, b1, ?_, b7, b8, ?_, b3, b4, b5, ?_⟩
    · rw [hf, hnf, GifIO_push_push io _ _ hr0, GifIO_push_written io _ hroom, b2]
    · rw [List.map_cons, hcodes, b6]
      rfl
    · intro e he2
      rcases List.mem_cons.mp he2 with h1 | h1
      · rw [h1]; exact hp2
      · exact hfit e h1
    · rw [b3]
      show (2 ^ cr + 2 ^ (cr + 1) * pack _) % 2 ^ (cr + 1) = 2 ^ cr
      rw [Nat.add_mul_mod_self_left, Nat.mod_eq_of_lt hp2]
  · intro p io1 hp hr
    have hb := one_pixel_bytes p hp
    have hroom1 : io1.Room ((AEnc.init 2 1).1 ++
        (AEnc.put_lines 2 [[p]] (AEnc.init 2 1).2).1).length := by
      rw [hb]
      exact hr
    obtain ⟨st, e1, e2, _⟩ := enc_session 2 1 (by decide) (by decide) io1 [[p]]
      (by simp) (by simp) (by simp) hroom1
    refine ⟨st, e1, ?_⟩
    rw [e2, GifIO_push_written io1 _ hroom1, hb]

theorem code_stream_framing_witness :
    (∃ (st : LZEncoder) (blocks : List (List Nat)) (cw : List (Nat × Nat)) (w1 w2 : Nat),
      (LZEncoder.new ( GifIO.mk_dev (MemDevice.open_for_write (List.replicate 8 0))) 2
        2).put_lines [[1], [3]] = some (st, true) ∧
      st.f.d.written =
        ( GifIO.mk_dev (MemDevice.open_for_write (List.replicate 8 0))).d.written ++
          (frames blocks ++ [0]) ∧
      Blocks blocks ∧
      (LZEncoder.new_call ( GifIO.mk_dev (MemDevice.open_for_write (List.replicate 8 0))) 2 2 ::
          LZEncoder.put_lines_calls [[1], [3]]
            (LZEncoder.new ( GifIO.mk_dev (MemDevice.open_for_write (List.replicate 8 0))) 2
              2)).map LZEncoder.call_code =
        (2 ^ 2, 2 + 1) :: (cw ++ [(st.crnt_code, w1), (2 ^ 2 + 1, w2)]) ∧
      (∀ e ∈ cw, e.1 ≠ 2 ^ 2 + 1) ∧ st.crnt_code ≠ 2 ^ 2 + 1 ∧
      Fits ((2 ^ 2, 2 + 1) :: (cw ++ [(st.crnt_code, w1), (2 ^ 2 + 1, w2)])) ∧
      le_val blocks.flatten =
        pack ((2 ^ 2, 2 + 1) :: (cw ++ [(st.crnt_code, w1), (2 ^ 2 + 1, w2)])) ∧
      bitlen ((2 ^ 2, 2 + 1) :: (cw ++ [(st.crnt_code, w1), (2 ^ 2 + 1, w2)])) ≤
        8 * blocks.flatten.length ∧
      8 * blocks.flatten.length <
        bitlen ((2 ^ 2, 2 + 1) :: (cw ++ [(st.crnt_code, w1), (2 ^ 2 + 1, w2)])) + 8 ∧
      le_val blocks.flatten % 2 ^ (2 + 1) = 2 ^ 2) ∧
    ∃ st, (LZEncoder.new ( GifIO.mk_dev (MemDevice.open_for_write (List.replicate 8 0))) 1
        2).put_lines [[3]] = some (st, true) ∧
      st.f.d.written =
        ( GifIO.mk_dev (MemDevice.open_for_write (List.replicate 8 0))).d.written ++
          [0x02, 0x44 ||| (3 <<< 3), 0x01, 0x00] :=
  have h := code_stream_framing 2 2 (by decide) (by decide)
    ( GifIO.mk_dev (MemDevice.open_for_write (List.replicate 8 0))) [[1], [3]]
    (by decide) (by decide) (by decide) (by decide)
  ⟨h.1, h.2 3 _ (by decide) (by decide)⟩

end gif
